import Mathlib

/-!
# PennOS filesystem: a shallow embedding of `src/fs/filesys.c`

The backing file is modelled by two total maps: `fat` (the memory-mapped
16-bit FAT entries, indexed by block number) and `disk` (the bytes of the
backing file, indexed by absolute byte offset).  Data block `b >= 1` lives at
byte offset `(b + fat_blocks - 1) * block_size`, which is past the FAT region,
so the two maps are disjoint for every block the allocator can hand out.

A C `int` is a `Nat` or an `Int` (no operation below leaves the 32-bit range
for a valid configuration: at most `(32 + 65534) * 4096` bytes); `uint32_t`
arithmetic on `size` is reduced modulo `2 ^ 32` where the source can wrap.
Host I/O is assumed to succeed, except `lseek` to a negative offset, which
makes the source call `exit`; that, and a loop that never ends, is `none`.
`time(2)` is the parameter `now`.

C strings are lists of bytes; a `char*` that may be `NULL` is an `Option`.
-/

namespace PennOS

/-! ## Constants of `filesys.h` and `filesys.c` -/

abbrev FREE_BLOCK : Nat := 0x0000
abbrev LAST_BLOCK : Nat := 0xFFFF
abbrev SKIP_NONE : Nat := 0x00
abbrev SKIP_TO_LAST : Nat := 0x01
abbrev SKIP_ALL : Nat := 0x02
abbrev UNKNOWN_FILE : Nat := 0
abbrev REGULAR_FILE : Nat := 1
abbrev DIRECTORY_FILE : Nat := 2
abbrev LINK_FILE : Nat := 4
abbrev EXECUTE_PERM : Nat := 1
abbrev READ_PERM : Nat := 2
abbrev WRITE_PERM : Nat := 4
abbrev EOD_FLAG : Nat := 0x00
abbrev CLEANED_FLAG : Nat := 0x01
abbrev REMOVED_FLAG : Nat := 0x02

/-! The host's `errno` values (Linux `errno.h`). -/

abbrev ENOENT : Nat := 2
abbrev EACCES : Nat := 13
abbrev EEXIST : Nat := 17
abbrev ENOTDIR : Nat := 20
abbrev EISDIR : Nat := 21
abbrev ENOSPC : Nat := 28
abbrev ENOTEMPTY : Nat := 39

/-! ## Data model -/

/-- The `File` struct of `filesys.h`: `char name[32]`, `uint32_t size`,
`uint16_t first_block`, `uint8_t type`, `uint8_t perm`, `time_t mtime`.
`sizeof(File)` is 48 on the x86-64 ABI; directory slots are 64 bytes apart. -/
structure File where
  name : List Nat
  size : Nat
  first_block : Nat
  type : Nat
  perm : Nat
  mtime : Nat
deriving DecidableEq, Repr

/-- The `Entry` struct of `filesys.c`: a file and its byte offset in the
backing file (`-1` for the root and for the `eod` constant). -/
structure Entry where
  file : File
  position : Int
deriving DecidableEq, Repr

/-- The `Path` struct of `filesys.c`: the directory tokens, and the final
token (`NULL`, here `none`, for the empty path). -/
structure Path where
  dir : List (List Nat)
  name : Option (List Nat)
deriving DecidableEq, Repr

/-- The globals of `filesys.c` after `mount_fs`, and the C library's `errno`. -/
structure FS where
  block_size : Nat
  fat_blocks : Nat
  data_blocks : Nat
  fat : Nat → Nat
  disk : Nat → Nat
  errno : Nat

/-- The byte `name[0]`. -/
def File.name0 (f : File) : Nat := f.name.headD 0

/-- A C string read from a byte sequence: the bytes before the first NUL. -/
def cstr (l : List Nat) : List Nat := l.takeWhile (fun c => c ≠ 0)

/-- A string literal stored in a `char[32]`: padded with NULs. -/
def name32 (l : List Nat) : List Nat := (l ++ List.replicate 32 0).take 32

/-- The global `root` as set by `mount_fs`. -/
def root : Entry :=
  { file := { name := name32 [114, 111, 111, 116], size := 0, first_block := 1,
              type := DIRECTORY_FILE, perm := READ_PERM ||| WRITE_PERM ||| EXECUTE_PERM,
              mtime := 0 },
    position := -1 }

/-- The global `eod`. -/
def eod : Entry :=
  { file := { name := name32 [], size := 0, first_block := 0, type := UNKNOWN_FILE,
              perm := 0, mtime := 0 },
    position := -1 }

/-- Byte offset of data block `block` in the backing file:
`(block + fat_blocks - 1) * block_size`. -/
def phys (s : FS) (block : Nat) : Nat := (block + s.fat_blocks - 1) * s.block_size

/-- Little-endian value of `n` bytes of the backing file starting at `pos`. -/
def read_le (disk : Nat → Nat) (pos : Nat) : Nat → Nat
  | 0 => 0
  | n + 1 => disk pos + 256 * read_le disk (pos + 1) n

/-- The bytes `read(fs_fd, buf, n)` delivers after `lseek(fs_fd, pos)`. -/
def read_bytes (s : FS) (pos n : Nat) : List Nat :=
  (List.range n).map (fun k => s.disk (pos + k))

/-- The state after `lseek(fs_fd, pos); write(fs_fd, buf, n)` where `buf`
holds the bytes `bytes` (so `n = bytes.length`). -/
def write_bytes (s : FS) (pos : Nat) (bytes : List Nat) : FS :=
  { s with disk := fun a =>
      if pos ≤ a ∧ a < pos + bytes.length then bytes.getD (a - pos) 0 else s.disk a }

/-- The result of `read(fs_fd, &f, sizeof(File))` at offset `pos`. -/
def read_File (s : FS) (pos : Nat) : File :=
  { name := read_bytes s pos 32,
    size := read_le s.disk (pos + 32) 4,
    first_block := read_le s.disk (pos + 36) 2,
    type := s.disk (pos + 38),
    perm := s.disk (pos + 39),
    mtime := read_le s.disk (pos + 40) 8 }

/-- The `k`-th byte of a `File` struct in memory (little-endian fields). -/
def File.byte (f : File) (k : Nat) : Nat :=
  if k < 32 then f.name.getD k 0
  else if k < 36 then f.size / 256 ^ (k - 32) % 256
  else if k < 38 then f.first_block / 256 ^ (k - 36) % 256
  else if k = 38 then f.type % 256
  else if k = 39 then f.perm % 256
  else f.mtime / 256 ^ (k - 40) % 256

/-- The state after `lseek(fs_fd, pos); write(fs_fd, &f, sizeof(File))`. -/
def write_File (s : FS) (pos : Nat) (f : File) : FS :=
  { s with disk := fun a => if pos ≤ a ∧ a < pos + 48 then f.byte (a - pos) else s.disk a }

/-- The tokens `strtok(_, "/")` yields one after the other: the maximal
runs of bytes other than `/` (47). `cur` is the run being read, reversed. -/
def tokens_aux : List Nat → List Nat → List (List Nat)
  | [], cur => if cur = [] then [] else [cur.reverse]
  | c :: cs, cur =>
    if c = 47 then
      if cur = [] then tokens_aux cs [] else cur.reverse :: tokens_aux cs []
    else tokens_aux cs (c :: cur)

/-- All `/`-separated tokens of a C string. -/
def tokens (path_str : List Nat) : List (List Nat) := tokens_aux (cstr path_str) []

/-- `split_path`: the last token is the file name, the ones before it the
directories; no token gives `name = NULL`. -/
def split_path (path_str : List Nat) : Path :=
  let t := tokens path_str
  { dir := t.dropLast, name := t.getLast? }

/-! ## The FAT allocator -/

/-- `extend_data`: the first free entry among `1..data_blocks` becomes the
last block of a chain (linked after `block` when `block != 0`) and its data
block is zeroed. Returns `0` and sets `errno = ENOSPC` when none is free. -/
def extend_data (s : FS) (block : Nat) : Nat × FS :=
  match (List.range' 1 s.data_blocks).find? (fun i => s.fat i = FREE_BLOCK) with
  | none => (0, { s with errno := ENOSPC })
  | some i =>
    let fat1 := fun b => if block ≠ 0 ∧ b = block then i else s.fat b
    let fat2 := fun b => if b = i then LAST_BLOCK else fat1 b
    (i, { s with
            fat := fat2,
            disk := fun a =>
              if phys s i ≤ a ∧ a < phys s i + s.block_size then 0 else s.disk a })

/-- The `while (1)` loop of `seek_data`; every turn takes `block_size` off
`offset`, so `offset + 1` turns are enough when `block_size > 0`. -/
def seek_loop : Nat → FS → Nat → Nat → Int × FS
  | 0, s, _, _ => (-1, s)
  | fuel + 1, s, block, offset =>
    if offset < s.block_size then ((block * s.block_size + offset : Nat), s)
    else if s.fat block = LAST_BLOCK then
      let r := extend_data s block
      if r.1 = 0 then (-1, r.2) else seek_loop fuel r.2 r.1 (offset - s.block_size)
    else seek_loop fuel s (s.fat block) (offset - s.block_size)

/-- `seek_data`: the position `offset` logical bytes ahead of `position`,
extending the chain when its end is passed; `-1` when no block is free. -/
def seek_data (s : FS) (position offset : Nat) : Int × FS :=
  seek_loop (offset + position % s.block_size + 1) s (position / s.block_size)
    (offset + position % s.block_size)

/-- The `while (1)` loop of `write_data`, with `i` bytes of `buf` written so
far; every turn but the last writes at least one byte. -/
def write_loop : Nat → FS → Nat → Nat → Nat → List Nat → Nat → Int × FS
  | 0, s, _, _, _, _, _ => (-1, s)
  | fuel + 1, s, block, offset, i, buf, size =>
    if size - i ≤ s.block_size - offset then
      (0, write_bytes s (phys s block + offset) ((buf.drop i).take (size - i)))
    else
      let s1 := write_bytes s (phys s block + offset) ((buf.drop i).take (s.block_size - offset))
      if s1.fat block ≠ LAST_BLOCK then
        write_loop fuel s1 (s1.fat block) 0 (i + (s.block_size - offset)) buf size
      else
        let r := extend_data s1 block
        if r.1 = 0 then (-1, r.2)
        else write_loop fuel r.2 r.1 0 (i + (s.block_size - offset)) buf size

/-- `write_data`: write `size` bytes of `buf` from `position` on, following
the chain and extending it at its end. `0` on success, `-1` when no block is
free. -/
def write_data (s : FS) (position : Nat) (buf : List Nat) (size : Nat) : Int × FS :=
  write_loop (size + 1) s (position / s.block_size) (position % s.block_size) 0 buf size

/-- The `while (block != LAST_BLOCK)` loop of `read_data`, with `i` bytes read
so far. Returns the C return value and the bytes stored in `buf[i..]`. -/
def read_loop : Nat → FS → Nat → Nat → Nat → Nat → Nat × List Nat
  | 0, _, _, _, i, _ => (i, [])
  | fuel + 1, s, block, offset, i, size =>
    if block = LAST_BLOCK then (i, [])
    else if size - i ≤ s.block_size - offset then
      (size, read_bytes s (phys s block + offset) (size - i))
    else
      let r := read_loop fuel s (s.fat block) 0 (i + (s.block_size - offset)) size
      (r.1, read_bytes s (phys s block + offset) (s.block_size - offset) ++ r.2)

/-- `read_data`: read `size` bytes from `position` on, following the chain.
Returns the number of bytes the source reports and the bytes put in `buf`. -/
def read_data (s : FS) (position size : Nat) : Nat × List Nat :=
  read_loop (size + 1) s (position / s.block_size) (position % s.block_size) 0 size

/-- `truncate_data`: free every block of the chain starting at `block`. -/
def truncate_data : Nat → FS → Nat → Option FS
  | 0, _, _ => none
  | fuel + 1, s, block =>
    if block = LAST_BLOCK then some s
    else truncate_data fuel
      { s with fat := fun b => if b = block then FREE_BLOCK else s.fat b } (s.fat block)

/-! ## The directory engine -/

/-- The `for` loop of `enum_directory` over the slots `i, i + 1, ..` of one
block (`n` slots are left). The flag tells whether the EOD slot was met. -/
def enum_block (s : FS) (block : Nat) : Nat → Nat → List Entry × Bool
  | 0, _ => ([], false)
  | n + 1, i =>
    let e : Entry :=
      { file := read_File s (phys s block + 64 * i), position := (phys s block + 64 * i : Nat) }
    if e.file.name0 = EOD_FLAG then ([e], true)
    else ((e :: (enum_block s block n (i + 1)).1), (enum_block s block n (i + 1)).2)

/-- `enum_directory`: every slot of the directory starting at `block`, up to
and including the first EOD slot. (`space_directory`, which sizes the array,
walks the same slots and is not modelled apart.) -/
def enum_directory : Nat → FS → Nat → Option (List Entry)
  | 0, _, _ => none
  | fuel + 1, s, block =>
    let r := enum_block s block (s.block_size / 64) 0
    if r.2 then some r.1
    else (enum_directory fuel s (s.fat block)).map (fun rest => r.1 ++ rest)

/-- The loop of `find_directory` over the tokens of `dir`, with `find_file`
(at `SKIP_ALL`) as the parameter `ff`; the third component is `errno`. -/
def find_directory_with (ff : List Nat → Nat → Nat → Option (Entry × Nat)) :
    List (List Nat) → Nat → Nat → Option (Entry × Nat)
  | [], _, en => some (root, en)
  | t :: ts, block, en =>
    match ff t block en with
    | none => none
    | some (e, en1) =>
      if e.file.name0 = EOD_FLAG then some (eod, ENOENT)
      else if e.file.type ≠ DIRECTORY_FILE then some (eod, ENOTDIR)
      else if e.file.perm &&& EXECUTE_PERM = 0 then some (eod, EACCES)
      else if ts = [] then some (e, en1)
      else find_directory_with ff ts e.file.first_block en1

/-- What `find_file` does with the link `e` it matched when `skip_flag` is
not `SKIP_NONE`: read the stored target path and resolve it. `ff` is the
recursive `find_file` (name, block, skip flag, errno). -/
def follow_link (ff : Option (List Nat) → Nat → Nat → Nat → Option (Entry × Nat))
    (s : FS) (skip_flag : Nat) (e : Entry) (en : Nat) : Option (Entry × Nat) :=
  let data := read_data s (s.block_size * e.file.first_block) e.file.size
  if data.1 < e.file.size ∧ 0 ∉ data.2 then none
  else
    let path := split_path (data.2 ++ [0])
    match find_directory_with (fun t b n => ff (some t) b SKIP_ALL n) path.dir 1 en with
    | none => none
    | some (d, en1) =>
      if d.file.name0 = EOD_FLAG ∨ d.file.type ≠ DIRECTORY_FILE then some (e, en1)
      else
        match ff path.name d.file.first_block skip_flag en1 with
        | none => none
        | some (e2, en2) =>
          if skip_flag = SKIP_ALL ∨ e2.file.name0 ≠ EOD_FLAG then some (e2, en2)
          else some (e, en2)

/-- The `for` loop of `find_file` over the enumerated slots. `follow` is
what to do with a matched link. -/
def find_scan (follow : Entry → Nat → Option (Entry × Nat)) (name : List Nat)
    (skip_flag : Nat) : List Entry → Nat → Option (Entry × Nat)
  | [], _ => none
  | e :: rest, en =>
    if e.file.name0 = EOD_FLAG then some (e, en)
    else if name.headD 0 = EOD_FLAG ∧ (e.file.name0 = EOD_FLAG ∨
        e.file.name0 = CLEANED_FLAG ∨ e.file.name0 = REMOVED_FLAG) then some (e, en)
    else if name.headD 0 ≠ EOD_FLAG ∧ cstr e.file.name = cstr name then
      if e.file.type = LINK_FILE ∧ skip_flag ≠ SKIP_NONE then follow e en
      else some (e, en)
    else find_scan follow name skip_flag rest en

/-- `find_file`: the entry called `name` in the directory starting at
`block` (the first reusable slot for the empty name), following links as
`skip_flag` says. One unit of fuel per link followed. -/
def find_file : Nat → FS → Option (List Nat) → Nat → Nat → Nat → Option (Entry × Nat)
  | _, _, none, _, _, en => some (root, en)
  | 0, _, some _, _, _, _ => none
  | fuel + 1, s, some name, block, skip_flag, en =>
    match enum_directory (fuel + 1) s block with
    | none => none
    | some entries =>
      find_scan (follow_link (find_file fuel s) s skip_flag) name skip_flag entries en

/-- `find_directory`: the entry of the directory the tokens `dir` lead to,
from the root; the `eod` constant and an `errno` on failure. -/
def find_directory (fuel : Nat) (s : FS) (dir : List (List Nat)) (en : Nat) :
    Option (Entry × Nat) :=
  find_directory_with (fun t b n => find_file fuel s (some t) b SKIP_ALL n) dir 1 en

/-- `init_file`: a fresh empty file; a directory gets its first block at
once. When no block is free the source returns the first reusable slot of the
root directory instead. -/
def init_file (fuel : Nat) (s : FS) (now : Nat) (name : List Nat) (type : Nat) :
    Option (File × FS) :=
  let f : File :=
    { name := name32 ((cstr name).take 31), size := 0, first_block := LAST_BLOCK,
      type := type,
      perm := if type = DIRECTORY_FILE then EXECUTE_PERM ||| READ_PERM ||| WRITE_PERM
              else READ_PERM ||| WRITE_PERM,
      mtime := now }
  if type = DIRECTORY_FILE then
    let r := extend_data s 0
    if r.1 = 0 then
      (find_file fuel r.2 (some []) root.file.first_block SKIP_ALL r.2.errno).map
        (fun x => (x.1.file, { r.2 with errno := x.2 }))
    else some ({ f with first_block := r.1 }, r.2)
  else some (f, s)

/-- `add_file`: put `f` in the first reusable slot of the directory starting
at `block`. Returns the slot's position, or `-1` when a block was needed and
none was free. -/
def add_file (fuel : Nat) (s : FS) (f : File) (block : Nat) : Option (Int × FS) :=
  match find_file fuel s (some []) block SKIP_ALL s.errno with
  | none => none
  | some (e, en) =>
    if e.position < 0 then none
    else
      let s0 : FS := { s with errno := en }
      let blk := e.position.toNat / s.block_size
      let offset := e.position.toNat % s.block_size
      if (offset + 64) % s.block_size = 0 ∧ s0.fat blk = LAST_BLOCK then
        let r := extend_data s0 blk
        if r.1 = 0 then some (-1, r.2)
        else some (e.position, write_File r.2 e.position.toNat f)
      else some (e.position, write_File s0 e.position.toNat f)

/-! ## File operations -/

/-- `create_file`. One unit of fuel per dangling link handed on. -/
def create_file : Nat → FS → Nat → List Nat → Nat → Option (Int × FS)
  | 0, _, _, _, _ => none
  | fuel + 1, s, now, path_str, type =>
    let path := split_path path_str
    match find_directory (fuel + 1) s path.dir s.errno with
    | none => none
    | some (d, en) =>
      if d.file.name0 = EOD_FLAG then some (-1, { s with errno := en })
      else if d.file.perm &&& WRITE_PERM = 0 then some (-1, { s with errno := EACCES })
      else
        match find_file (fuel + 1) s path.name d.file.first_block SKIP_TO_LAST en with
        | none => none
        | some (e, en1) =>
          let s1 : FS := { s with errno := en1 }
          if e.file.type = LINK_FILE then
            let new_name := (read_data s1 (s1.block_size * e.file.first_block) e.file.size).2
            if 0 ∈ new_name then create_file fuel s1 now new_name REGULAR_FILE else none
          else if e.file.name0 ≠ EOD_FLAG then some (-1, { s1 with errno := EEXIST })
          else
            let dfile : File :=
              { d.file with size := (d.file.size + 64) % 2 ^ 32, mtime := now }
            let s2 := if d.position ≥ 0 then write_File s1 d.position.toNat dfile else s1
            match init_file (fuel + 1) s2 now (path.name.getD []) type with
            | none => none
            | some (f, s3) =>
              if f.name0 = EOD_FLAG then some (-1, s3)
              else
                match add_file (fuel + 1) s3 f dfile.first_block with
                | none => none
                | some (r, s4) => if r = -1 then some (-1, s4) else some (0, s4)

/-- `set_file`. -/
def set_file (fuel : Nat) (s : FS) (path_str : List Nat) (f : File) (skip_flag : Bool) :
    Option (Int × FS) :=
  let path := split_path path_str
  match find_directory fuel s path.dir s.errno with
  | none => none
  | some (d, en) =>
    if d.file.name0 = EOD_FLAG then some (-1, { s with errno := en })
    else
      match find_file fuel s path.name d.file.first_block
          (if skip_flag then SKIP_ALL else SKIP_NONE) en with
      | none => none
      | some (e, en1) =>
        if e.file.name0 = EOD_FLAG then some (-1, { s with errno := ENOENT })
        else if e.position < 0 then none
        else some (0, write_File { s with errno := en1 } e.position.toNat f)

/-- `get_file`. -/
def get_file (fuel : Nat) (s : FS) (path_str : List Nat) (skip_flag : Bool) :
    Option (File × FS) :=
  let path := split_path path_str
  match find_directory fuel s path.dir s.errno with
  | none => none
  | some (d, en) =>
    if d.file.name0 = EOD_FLAG then some (d.file, { s with errno := en })
    else
      match find_file fuel s path.name d.file.first_block
          (if skip_flag then SKIP_ALL else SKIP_NONE) en with
      | none => none
      | some (e, en1) =>
        if e.file.name0 = EOD_FLAG then some (e.file, { s with errno := ENOENT })
        else some (e.file, { s with errno := en1 })

/-- `read_file`: the C return value, the bytes stored in `buf`, the state. -/
def read_file (fuel : Nat) (s : FS) (path_str : List Nat) (offset size : Nat) :
    Option (Int × List Nat × FS) :=
  let path := split_path path_str
  match find_directory fuel s path.dir s.errno with
  | none => none
  | some (d, en) =>
    if d.file.name0 = EOD_FLAG then some (-1, [], { s with errno := en })
    else
      match find_file fuel s path.name d.file.first_block SKIP_ALL en with
      | none => none
      | some (e, en1) =>
        if e.file.name0 = EOD_FLAG then some (-1, [], { s with errno := ENOENT })
        else if e.file.type = DIRECTORY_FILE then some (-1, [], { s with errno := EISDIR })
        else if e.file.perm &&& READ_PERM = 0 then some (-1, [], { s with errno := EACCES })
        else
          let r := seek_data { s with errno := en1 } (s.block_size * e.file.first_block) offset
          if r.1 = -1 then some (-1, [], r.2)
          else
            let d := read_data r.2 r.1.toNat size
            some ((d.1 : Int), d.2, r.2)

/-- `write_file`. -/
def write_file (fuel : Nat) (s : FS) (now : Nat) (path_str : List Nat) (offset : Nat)
    (buf : List Nat) (size : Nat) (skip_flag : Bool) : Option (Int × FS) :=
  let path := split_path path_str
  match find_directory fuel s path.dir s.errno with
  | none => none
  | some (d, en) =>
    if d.file.name0 = EOD_FLAG then some (-1, { s with errno := en })
    else if d.file.perm &&& WRITE_PERM = 0 then some (-1, { s with errno := en })
    else
      match find_file fuel s path.name d.file.first_block
          (if skip_flag then SKIP_ALL else SKIP_NONE) en with
      | none => none
      | some (e, en1) =>
        if e.file.name0 = EOD_FLAG then some (-1, { s with errno := ENOENT })
        else if e.file.type = DIRECTORY_FILE then some (-1, { s with errno := EISDIR })
        else if e.file.perm &&& WRITE_PERM = 0 then some (-1, { s with errno := EACCES })
        else
          let r := if e.file.size = 0 ∧ size > 0 then extend_data { s with errno := en1 } 0
                   else (e.file.first_block, { s with errno := en1 })
          if e.file.size = 0 ∧ size > 0 ∧ r.1 = 0 then some (-1, r.2)
          else
            let efile : File :=
              { e.file with
                  first_block := r.1,
                  size := if offset + size > e.file.size then offset + size else e.file.size,
                  mtime := now }
            if e.position < 0 then none
            else
              let s2 := write_File r.2 e.position.toNat efile
              let p := seek_data s2 (s2.block_size * efile.first_block) offset
              if p.1 = -1 then some (-1, p.2)
              else
                let w := write_data p.2 p.1.toNat buf size
                if w.1 = -1 then some (-1, w.2) else some (0, w.2)

/-- `truncate_file`. -/
def truncate_file (fuel : Nat) (s : FS) (path_str : List Nat) (skip_flag : Bool) :
    Option (Int × FS) :=
  let path := split_path path_str
  match find_directory fuel s path.dir s.errno with
  | none => none
  | some (d, en) =>
    if d.file.name0 = EOD_FLAG then some (-1, { s with errno := en })
    else if d.file.perm &&& WRITE_PERM = 0 then some (-1, { s with errno := en })
    else
      match find_file fuel s path.name d.file.first_block
          (if skip_flag then SKIP_ALL else SKIP_NONE) en with
      | none => none
      | some (e, en1) =>
        if e.file.name0 = EOD_FLAG then some (-1, { s with errno := ENOENT })
        else if e.file.perm &&& WRITE_PERM = 0 then some (-1, { s with errno := EACCES })
        else if e.file.type = DIRECTORY_FILE then
          if e.file.size > 0 then some (-1, { s with errno := ENOTEMPTY })
          else some (0, { s with errno := en1 })
        else
          match truncate_data fuel { s with errno := en1 } e.file.first_block with
          | none => none
          | some s1 =>
            if e.position < 0 then none
            else some (0, write_File s1 e.position.toNat
                            { e.file with size := 0, first_block := LAST_BLOCK })

/-- `remove_file`: the position of the removed slot, or `-1`. -/
def remove_file (fuel : Nat) (s : FS) (now : Nat) (path_str : List Nat) :
    Option (Int × FS) :=
  let path := split_path path_str
  match find_directory fuel s path.dir s.errno with
  | none => none
  | some (d, en) =>
    if d.file.name0 = EOD_FLAG then some (-1, { s with errno := en })
    else if d.file.perm &&& WRITE_PERM = 0 then some (-1, { s with errno := en })
    else
      match find_file fuel s path.name d.file.first_block SKIP_NONE en with
      | none => none
      | some (e, en1) =>
        if e.file.name0 = EOD_FLAG then some (-1, { s with errno := ENOENT })
        else
          let dfile : File :=
            { d.file with size := (d.file.size + 2 ^ 32 - 64) % 2 ^ 32, mtime := now }
          let s1 : FS := { s with errno := en1 }
          let s2 := if d.position ≥ 0 then write_File s1 d.position.toNat dfile else s1
          if e.position < 0 then none
          else some (e.position, write_File s2 e.position.toNat
                      { e.file with name := REMOVED_FLAG :: e.file.name.tail })

/-- `cleanup_file`: one byte, `CLEANED_FLAG`, written at `position`. -/
def cleanup_file (s : FS) (position : Int) : Option (Int × FS) :=
  if position < 0 then none
  else some (0, write_bytes s position.toNat [CLEANED_FLAG])

/-- Whether a slot holds a live entry: `name[0]` is none of the three flags. -/
def live (e : Entry) : Bool :=
  e.file.name0 ≠ EOD_FLAG ∧ e.file.name0 ≠ CLEANED_FLAG ∧ e.file.name0 ≠ REMOVED_FLAG

/-- The second `for` loop of `list_directory`: copy the live entries before
the EOD slot, then the EOD slot itself. -/
def list_copy : List Entry → Option (List File)
  | [] => none
  | e :: rest =>
    if e.file.name0 = EOD_FLAG then some [e.file]
    else if live e then (list_copy rest).map (fun l => e.file :: l)
    else list_copy rest

/-- `list_directory`: `NULL` (here `none` inside) on failure. -/
def list_directory (fuel : Nat) (s : FS) (path_str : List Nat) :
    Option (Option (List File) × FS) :=
  let path := split_path path_str
  match find_directory fuel s path.dir s.errno with
  | none => none
  | some (d, en) =>
    if d.file.name0 = EOD_FLAG then some (none, { s with errno := en })
    else
      let r : Option (Entry × Nat) :=
        match path.name with
        | none => some (d, en)
        | some name => find_file fuel s (some name) d.file.first_block SKIP_ALL en
      match r with
      | none => none
      | some (e, en1) =>
        if path.name ≠ none ∧ e.file.name0 = EOD_FLAG then
          some (none, { s with errno := ENOENT })
        else if path.name ≠ none ∧ e.file.type ≠ DIRECTORY_FILE then
          some (none, { s with errno := ENOTDIR })
        else if path.name ≠ none ∧ e.file.perm &&& READ_PERM = 0 then
          some (none, { s with errno := EACCES })
        else
          match enum_directory fuel s e.file.first_block with
          | none => none
          | some entries =>
            (list_copy entries).map (fun l => (some l, { s with errno := en1 }))

/-- The filesystem `init_fs` writes and `mount_fs` maps: `fat[0]` is the
configuration word, `fat[1]` ends the root directory, all else is zero. -/
def mkfs (new_fat_blocks new_block_size_config : Nat) : FS :=
  let config := ((new_fat_blocks <<< 8) ||| new_block_size_config) % 65536
  let block_size := 1 <<< (8 + (config &&& 0xFF))
  let fat_blocks := config >>> 8
  { block_size := block_size,
    fat_blocks := fat_blocks,
    data_blocks := if block_size * fat_blocks / 2 - 1 ≥ LAST_BLOCK then LAST_BLOCK - 1
                   else block_size * fat_blocks / 2 - 1,
    fat := fun b => if b = 0 then config else if b = 1 then LAST_BLOCK else 0,
    disk := fun _ => 0,
    errno := 0 }

/-! ## The descriptor table of `table.c` and the calls of `syscalls.c`

`table.h` and `error.h` give the constants. A `Table` is the chain of nodes
from `first`; its `last` pointer is `NULL` in every state, since `init`,
`deq` and `delete` set it to `NULL` and nothing else assigns it. -/

abbrev READ : Nat := 0
abbrev WRITE : Nat := 1
abbrev APPEND : Nat := 2

abbrev ERR_PERM : Nat := 1
abbrev ERR_NOENT : Nat := 2
abbrev ERR_ACCES : Nat := 3
abbrev ERR_NOTDIR : Nat := 4
abbrev ERR_DIR : Nat := 5
abbrev ERR_INVAL : Nat := 6

/-- The `TNode` struct of `table.h` (the `next` pointer is the list order). -/
structure TNode where
  file_descriptor : Int
  file_name : List Nat
  mode : Nat
  file_pointer : Int
deriving DecidableEq, Repr

/-- The globals of `syscalls.c` and `error.c` next to the mounted filesystem:
`fd_table` (the nodes from `fd_table.first` on), `cur_errno`, `pwd`. -/
structure Sys where
  fs : FS
  fd_table : List TNode
  cur_errno : Nat
  pwd : List Nat

/-- A value stored in a C `int`: reduced to the signed 32-bit range. -/
def int32 (x : Int) : Int := (x + 2 ^ 31) % 2 ^ 32 - 2 ^ 31

/-- `find_empty`: `NULL` for the empty table and for a table whose first
descriptor is not 3; the last node of the chain otherwise. -/
def find_empty (t : List TNode) : Option TNode :=
  match t with
  | [] => none
  | node :: _ => if node.file_descriptor ≠ 3 then none else t.getLast?

/-- `deq`: unlink and return the first node. -/
def deq (t : List TNode) : Option TNode × List TNode :=
  match t with
  | [] => (none, [])
  | node :: rest => (some node, rest)

/-- The `while` loop of `delete` once `node2` is not `NULL`: unlink the
first node whose descriptor is `fd`. -/
def delete_walk : List TNode → Int → Option TNode × List TNode
  | [], _ => (none, [])
  | node :: rest, fd =>
    if node.file_descriptor = fd then (some node, rest)
    else ((delete_walk rest fd).1, node :: (delete_walk rest fd).2)

/-- `delete`: the loop stops at once (`node2` is `NULL`) on the empty table
and when the first node has descriptor `fd`; `deq` is called then. -/
def delete (t : List TNode) (fd : Int) : Option TNode × List TNode :=
  match t with
  | [] => deq t
  | node :: rest =>
    if node.file_descriptor = fd then deq t
    else ((delete_walk rest fd).1, node :: (delete_walk rest fd).2)

/-- `get_fd`: the first node whose descriptor is `fd`. -/
def get_fd (t : List TNode) (fd : Int) : Option TNode :=
  t.find? (fun node => node.file_descriptor = fd)

/-- The table after an assignment to `node->file_pointer`, `node` being what
`get_fd` returned for `fd`. -/
def set_pointer : List TNode → Int → Int → List TNode
  | [], _, _ => []
  | node :: rest, fd, p =>
    if node.file_descriptor = fd then { node with file_pointer := p } :: rest
    else node :: set_pointer rest fd p

/-- `add`: the new node (or `NULL`) and the state. The file is looked up,
and for `WRITE` created when missing and truncated, before the node is
linked: after the last node with the next descriptor when `find_empty` gave
one; as the table's first node with descriptor 3 otherwise (`t->last` is
`NULL`, so the branch taken is `t->first = node`). In that branch
`node->next` is never assigned: it keeps what the memory `malloc` returned
held, and `junk` is the chain of nodes that value leads to (`[]` when it is
`NULL`, as in the chunk of a node that `delete` unlinked behind the first
one, whose `next` it set to `NULL` before `f_close` freed it). -/
def add (fuel : Nat) (u : Sys) (now : Nat) (name : List Nat) (m : Nat) (junk : List TNode) :
    Option (Option TNode × Sys) :=
  let temp := find_empty u.fd_table
  match get_file fuel u.fs name true with
  | none => none
  | some (f, s1) =>
    let link (p : Int) (u1 : Sys) : Option TNode × Sys :=
      match temp with
      | none =>
        let node : TNode :=
          { file_descriptor := 3, file_name := name, mode := m, file_pointer := p }
        (some node, { u1 with fd_table := node :: junk })
      | some last =>
        let node : TNode :=
          { file_descriptor := int32 (last.file_descriptor + 1), file_name := name, mode := m,
            file_pointer := p }
        (some node, { u1 with fd_table := u1.fd_table ++ [node] })
    if m = READ then
      some (link 0 { u with fs := s1,
                            cur_errno := if f.name0 = 0x00 then ERR_NOENT else u.cur_errno })
    else if m = WRITE then
      let created : Option FS :=
        if f.name0 = 0x00 then (create_file fuel s1 now name 1).map (fun r => r.2) else some s1
      match created with
      | none => none
      | some s2 =>
        match truncate_file fuel s2 name true with
        | none => none
        | some (_, s3) => some (link 0 { u with fs := s3 })
    else if m = APPEND then
      some (link (int32 f.size) { u with fs := s1 })
    else some (none, { u with fs := s1 })

/-- `f_open`: the descriptor of the node `add` made, `-1` when it made none
(`junk` as in `add`). -/
def f_open (fuel : Nat) (u : Sys) (now : Nat) (fname : List Nat) (mode : Nat)
    (junk : List TNode) : Option (Int × Sys) :=
  match add fuel u now fname mode junk with
  | none => none
  | some (none, u1) => some (-1, u1)
  | some (some node, u1) => some (node.file_descriptor, u1)

/-- `f_close`. -/
def f_close (u : Sys) (fd : Int) : Int × Sys :=
  match (delete u.fd_table fd).1 with
  | none => (-1, { u with fd_table := (delete u.fd_table fd).2 })
  | some _ => (0, { u with fd_table := (delete u.fd_table fd).2 })

/-- `f_read` on a descriptor of the table (`fd >= 3`; descriptors 0 to 2 go
to the host's `read` and have no result here): the C return value, the bytes
stored in `buf`, the state. `f.size - node->file_pointer` is `uint32_t`
arithmetic stored in an `int`, and `node->file_pointer > f.size` an unsigned
comparison. -/
def f_read (fuel : Nat) (u : Sys) (fd : Int) (n : Nat) : Option (Int × List Nat × Sys) :=
  if fd < 3 then none
  else
    match get_fd u.fd_table fd with
    | none => some (-1, [], u)
    | some node =>
      if node.mode ≠ READ then some (-1, [], u)
      else
        match get_file fuel u.fs node.file_name true with
        | none => none
        | some (f, s1) =>
          if f.perm &&& READ_PERM = 0 then
            some (-1, [], { u with fs := s1, cur_errno := ERR_ACCES })
          else
            let r0 := int32 ((f.size : Int) - node.file_pointer)
            if ¬ r0 > (n : Int) ∧ node.file_pointer % 2 ^ 32 > (f.size : Int) then
              some (0, [], { u with fs := s1 })
            else
              let r : Int := if r0 > (n : Int) then n else r0
              if node.file_pointer < 0 ∨ r < 0 then none
              else
                match read_file fuel s1 node.file_name node.file_pointer.toNat r.toNat with
                | none => none
                | some (c, bytes, s2) =>
                  some (c, bytes,
                    { u with
                        fs := s2,
                        fd_table :=
                          if c ≥ 0 then set_pointer u.fd_table fd (int32 (node.file_pointer + c))
                          else u.fd_table })

/-- `f_write` on a descriptor of the table (`fd >= 3`): the C return value
and the state. The result of `write_file` is not looked at; the new
`file_pointer` is what `seek_data` returns for the old one and `n`. -/
def f_write (fuel : Nat) (u : Sys) (now : Nat) (fd : Int) (str : List Nat) (n : Nat) :
    Option (Int × Sys) :=
  if fd < 3 then none
  else
    match get_fd u.fd_table fd with
    | none => some (-1, u)
    | some node =>
      if ¬ (node.mode = WRITE ∨ node.mode = APPEND) then some (-1, u)
      else
        match get_file fuel u.fs node.file_name true with
        | none => none
        | some (file, s1) =>
          if file.perm &&& WRITE_PERM = 0 then
            some (-1, { u with fs := s1, cur_errno := ERR_ACCES })
          else if node.file_pointer < 0 then none
          else
            match write_file fuel s1 now node.file_name node.file_pointer.toNat str n true with
            | none => none
            | some (_, s2) =>
              let p := seek_data s2 node.file_pointer.toNat n
              some ((n : Int), { u with fs := p.2, fd_table := set_pointer u.fd_table fd p.1 })

/-! ## Paths of the shell commands -/

/-- The `for` loop of `abs_path` over `tokens[j]`: `path` is the array being
filled and `i` the index past its last kept token. `".."` (46, 46) steps `i`
back unless it is 0, `"."` does nothing, any other token is stored at
`path[i]`. -/
def abs_loop : List (List Nat) → List (List Nat) → Nat → List (List Nat) × Nat
  | [], path, i => (path, i)
  | t :: ts, path, i =>
    if t = [46, 46] then abs_loop ts path (if i > 0 then i - 1 else i)
    else if t = [46] then abs_loop ts path i
    else abs_loop ts (path.take i ++ [t] ++ path.drop (i + 1)) (i + 1)

/-- The last loop of `abs_path`: `"/"` and the token, for each kept token. -/
def abs_join : List (List Nat) → List Nat
  | [] => []
  | t :: ts => 47 :: t ++ abs_join ts

/-- `abs_path(name)` with the global `pwd`. `junk` is the C string the buffer
`malloc` returns holds before anything is written to it: the branch for a
`name` that starts with `/` appends `name` to it with `strcat`, the branch
for a relative `name` starts with `strcpy` and does not depend on it. -/
def abs_path (pwd junk name : List Nat) : List Nat :=
  let path_str :=
    if name.headD 0 ≠ 47 then cstr pwd ++ [47] ++ cstr name
    else cstr junk ++ cstr name
  let r := abs_loop (tokens path_str) [] 0
  abs_join (r.1.take r.2)

/-- `f_ln` with the arguments `ln -s target link` (`args` is `argv` without
its closing empty string). -/
def f_ln (fuel : Nat) (u : Sys) (now : Nat) (junk : List Nat) (args : List (List Nat)) :
    Option Sys :=
  if args.length ≤ 2 then some u
  else if cstr (args.getD 1 []) ≠ [45, 115] then some u
  else if args.length = 3 then some u
  else if args.length > 4 then some u
  else
    let path := abs_path u.pwd junk (args.getD 3 [])
    match get_file fuel u.fs path false with
    | none => none
    | some (file, s1) =>
      if file.name0 ≠ 0 then some { u with fs := s1, cur_errno := ERR_PERM }
      else
        match create_file fuel s1 now path LINK_FILE with
        | none => none
        | some (r, s2) =>
          if r = -1 then some { u with fs := s2, cur_errno := ERR_PERM }
          else
            let target := abs_path u.pwd junk (args.getD 2 [])
            match write_file fuel s2 now path 0 (target ++ [0]) (target.length + 1) false with
            | none => none
            | some (w, s3) =>
              if w = -1 then some { u with fs := s3, cur_errno := ERR_PERM }
              else some { u with fs := s3 }

/-- `f_mkdir` with the arguments `mkdir path ...`. -/
def f_mkdir (fuel : Nat) (now : Nat) (junk : List Nat) : List (List Nat) → Sys → Option Sys
  | [], u => some u
  | a :: rest, u =>
    match create_file fuel u.fs now (abs_path u.pwd junk a) DIRECTORY_FILE with
    | none => none
    | some (r, s1) =>
      if r = -1 then some { u with fs := s1, cur_errno := ERR_PERM }
      else f_mkdir fuel now junk rest { u with fs := s1 }

/-- The end of `f_mv`: `set_file(p2, f, false); cleanup_file(remove_file(p1))`. -/
def mv_finish (fuel : Nat) (u : Sys) (s : FS) (now : Nat) (p1 p2 : List Nat) (f : File) :
    Option Sys :=
  match set_file fuel s p2 f false with
  | none => none
  | some (_, s1) =>
    match remove_file fuel s1 now p1 with
    | none => none
    | some (pos, s2) =>
      match cleanup_file s2 pos with
      | none => none
      | some (_, s3) => some { u with fs := s3 }

/-- `f_mv` with the arguments `mv source dest`. The new name is the last
`/`-token of `dest`, or of `source` when `dest` is a directory; `strcpy`
puts it and its NUL over the start of `f.name` (no result when there is no
token, or when it does not fit the 32 bytes). -/
def f_mv (fuel : Nat) (u : Sys) (now : Nat) (junk : List Nat) (args : List (List Nat)) :
    Option Sys :=
  if args.length = 1 then some u
  else if args.length = 2 then some u
  else if args.length > 3 then some u
  else
    let p1 := abs_path u.pwd junk (args.getD 1 [])
    let p2 := abs_path u.pwd junk (args.getD 2 [])
    match get_file fuel u.fs p1 false with
    | none => none
    | some (f, s1) =>
      if f.name0 = 0 then some { u with fs := s1 }
      else
        match get_file fuel s1 p2 false with
        | none => none
        | some (tgt, s2) =>
          let i := if tgt.type = DIRECTORY_FILE then 1 else 2
          match (tokens (args.getD i [])).getLast? with
          | none => none
          | some name =>
            if name.length > 31 then none
            else
              let f1 : File := { f with name := name ++ [0] ++ f.name.drop (name.length + 1) }
              let p2n := if tgt.type = DIRECTORY_FILE then p2 ++ [47] ++ name else p2
              match create_file fuel s2 now p2n f1.type with
              | none => none
              | some (r, s3) =>
                if r = -1 then
                  match get_file fuel s3 p2n false with
                  | none => none
                  | some (dest, s4) =>
                    if dest.type ≠ DIRECTORY_FILE ∧ f1.type = DIRECTORY_FILE then
                      some { u with fs := s4, cur_errno := ERR_DIR }
                    else
                      match truncate_file fuel s4 p2n false with
                      | none => none
                      | some (t, s5) =>
                        if t = -1 then some { u with fs := s5, cur_errno := ERR_DIR }
                        else mv_finish fuel u s5 now p1 p2n f1
                else mv_finish fuel u s3 now p1 p2n f1

/-! ## The scheduler of `kernel/scheduler.c` and the queues of `kernel/queue.c`

A `Queue` is the list of its nodes from head to tail, and a node is the
`PID` of the PCB it points to (`remove_pcb` and `get_node` tell nodes apart by
`curr->pcb->PID` only). The PCBs themselves, which the nodes of several
queues share by pointer, are the map `pcb` from `PID` to the struct. A
context switch (`swapcontext` to the scheduler) is only counted, in `yields`:
what runs until the caller is resumed is not part of a call's model. -/

inductive Priority where
  | LOW
  | MED
  | HIGH
  | INVALID
deriving DecidableEq, Repr

inductive Status where
  | RUN
  | BLOCK
  | STOP
  | ZOMB
  | ORPH
deriving DecidableEq, Repr

inductive BlockedCause where
  | SLEEP
  | WAIT
  | NOT_BLOCKED
deriving DecidableEq, Repr

/-- The `Pcb` struct of `queue.h` (without the context, the name and the two
descriptors); `parent` is the parent's `PID`, `none` for `NULL`. -/
structure Pcb where
  PID : Int
  parent : Option Int
  children : List Int
  zombie_children : List Int
  signals : List Int
  prio : Priority
  wait_pid : Int
  status : Status
  bc : BlockedCause
  blocked_ticks : Nat
  signal : Int
  child_signal : Int
  no_changed_child : Int
deriving DecidableEq, Repr

/-- The globals of `scheduler.c`; `next_pid` is the `static pid` of
`k_process_create`, `queue_lottery` the ticket pool (the priorities of its
nodes from head to tail), and `all_ticks` and `prev_ticks` the two
`unsigned int` tick counters. -/
structure Kernel where
  pcb : Int → Pcb
  queue_l : List Int
  queue_m : List Int
  queue_h : List Int
  queue_blocked : List Int
  queue_stopped : List Int
  process_queue : List Int
  queue_bg : List Int
  queue_lottery : List Priority
  active_process : Option Int
  prev_ticks : Nat
  all_ticks : Nat
  alarm_triggered : Bool
  context_switch_safe : Bool
  yields : Nat
  next_pid : Int

/-- `push_back`. -/
def push_back (queue : List Int) (node : Int) : List Int := queue ++ [node]

/-- `get_node`: the first node whose PCB has the given `PID`. -/
def get_node (queue : List Int) (pid : Int) : Option Int := queue.find? (fun n => n = pid)

/-- `remove_pcb`: unlink and return the first node whose PCB has the given
`PID`; `NULL` and no change when there is none. -/
def remove_pcb : List Int → Int → Option Int × List Int
  | [], _ => (none, [])
  | curr :: rest, pid =>
    if curr = pid then (some curr, rest)
    else ((remove_pcb rest pid).1, curr :: (remove_pcb rest pid).2)

/-- `get_priority_queue` (`NULL` for `INVALID`). -/
def get_priority_queue (k : Kernel) (prio : Priority) : Option (List Int) :=
  match prio with
  | Priority.LOW => some k.queue_l
  | Priority.MED => some k.queue_m
  | Priority.HIGH => some k.queue_h
  | Priority.INVALID => none

/-- The state after the queue `get_priority_queue` returned for `prio` was
changed to `q`. -/
def set_priority_queue (k : Kernel) (prio : Priority) (q : List Int) : Kernel :=
  match prio with
  | Priority.LOW => { k with queue_l := q }
  | Priority.MED => { k with queue_m := q }
  | Priority.HIGH => { k with queue_h := q }
  | Priority.INVALID => k

/-- `get_nice`. -/
def get_nice (prio : Priority) : Int :=
  if prio = Priority.HIGH then -1 else if prio = Priority.MED then 0 else 1

/-- `checkAlarmTriggered`: leave the critical section, and yield to the
scheduler when a tick was deferred. -/
def checkAlarmTriggered (k : Kernel) : Kernel :=
  if k.alarm_triggered then
    { k with context_switch_safe := true, alarm_triggered := false, yields := k.yields + 1 }
  else { k with context_switch_safe := true }

/-- `lottery_setup`: the tickets it pushes on the pool `queue`, for `i` from
0 to 149. -/
def lottery_setup (queue : List Priority) : List Priority :=
  ((List.range 150).foldl
    (fun (st : Priority × List Priority) i =>
      let prio1 := if i > 30 ∧ i ≠ 0 then Priority.MED else st.1
      let prio2 := if i > 75 then Priority.HIGH else prio1
      (prio2, st.2 ++ [prio2]))
    (Priority.LOW, queue)).2

/-- The state `init_scheduler` sets up: empty queues, the ticket pool of
`lottery_setup`, no active process. -/
def init_scheduler : Kernel :=
  { pcb := fun pid =>
      { PID := pid, parent := none, children := [], zombie_children := [], signals := [],
        prio := Priority.INVALID, wait_pid := 0, status := Status.ORPH,
        bc := BlockedCause.NOT_BLOCKED, blocked_ticks := 0, signal := -1, child_signal := -1,
        no_changed_child := 1 },
    queue_l := [], queue_m := [], queue_h := [], queue_blocked := [], queue_stopped := [],
    process_queue := [], queue_bg := [], queue_lottery := lottery_setup [],
    active_process := none, prev_ticks := 0, all_ticks := 0,
    alarm_triggered := false, context_switch_safe := true, yields := 0, next_pid := 1 }

/-- `k_process_create`: a fresh PCB with the next `PID`; its parent is the
active process (the argument of the C function is not used). -/
def k_process_create (k : Kernel) : Pcb × Kernel :=
  let process : Pcb :=
    { PID := k.next_pid, parent := k.active_process, children := [], zombie_children := [],
      signals := [], prio := Priority.MED, wait_pid := 0, status := Status.RUN,
      bc := BlockedCause.NOT_BLOCKED, blocked_ticks := 0, signal := -1, child_signal := -1,
      no_changed_child := 1 }
  (process,
    { k with pcb := fun p => if p = k.next_pid then process else k.pcb p,
             next_pid := k.next_pid + 1 })

/-- `p_spawn`: the new `PID` and the state. -/
def p_spawn (k : Kernel) : Int × Kernel :=
  let k0 : Kernel := { k with context_switch_safe := false }
  let r := k_process_create k0
  let k1 : Kernel := { r.2 with process_queue := push_back r.2.process_queue r.1.PID }
  let k2 : Kernel :=
    match k1.active_process with
    | none => k1
    | some a =>
      { k1 with pcb := fun p =>
          if p = a then { k1.pcb a with children := push_back (k1.pcb a).children r.1.PID }
          else k1.pcb p }
  let k3 : Kernel :=
    match get_priority_queue k2 (k2.pcb r.1.PID).prio with
    | none => k2
    | some q => set_priority_queue k2 (k2.pcb r.1.PID).prio (push_back q r.1.PID)
  (r.1.PID, checkAlarmTriggered k3)

/-- `p_nice`: the C return value and the state. In the branch for a PCB of
status `RUN` the source assigns `pcb->prio = new_prio` first and then calls
`remove_pcb(get_priority_queue(pcb->prio), pcb->PID)`. -/
def p_nice (k : Kernel) (pid : Int) (priority : Int) : Int × Kernel :=
  let k0 : Kernel := { k with context_switch_safe := false }
  match get_node k0.process_queue pid with
  | none => (-2, checkAlarmTriggered k0)
  | some node =>
    let pcb := k0.pcb node
    let new_prio :=
      if priority = -1 then Priority.HIGH
      else if priority = 0 then Priority.MED
      else Priority.LOW
    if pcb.prio = new_prio then (-2, checkAlarmTriggered k0)
    else
      let k1 : Kernel :=
        { k0 with pcb := fun p => if p = node then { pcb with prio := new_prio } else k0.pcb p }
      if pcb.status ≠ Status.RUN then (get_nice new_prio, checkAlarmTriggered k1)
      else
        match get_priority_queue k1 (k1.pcb node).prio with
        | none => (get_nice new_prio, checkAlarmTriggered k1)
        | some q =>
          match (remove_pcb q (k1.pcb node).PID).1 with
          | none =>
            (get_nice new_prio,
              checkAlarmTriggered (set_priority_queue k1 (k1.pcb node).prio
                (remove_pcb q (k1.pcb node).PID).2))
          | some n =>
            let k2 := set_priority_queue k1 (k1.pcb node).prio (remove_pcb q (k1.pcb node).PID).2
            match get_priority_queue k2 (k2.pcb n).prio with
            | none => (get_nice new_prio, checkAlarmTriggered k2)
            | some q2 =>
              (get_nice new_prio,
                checkAlarmTriggered (set_priority_queue k2 (k2.pcb n).prio (push_back q2 n)))

/-- The state after the PCB `p` points to was changed by `f`. -/
def set_pcb (k : Kernel) (p : Int) (f : Pcb → Pcb) : Kernel :=
  { k with pcb := fun x => if x = p then f (k.pcb p) else k.pcb x }

/-- `pop_front`: the old head (`NULL` for an empty queue) and the rest. -/
def pop_front : List Int → Option Int × List Int
  | [] => (none, [])
  | old_head :: rest => (some old_head, rest)

/-- `prio_get_priority`: the priority of the ticket `counter` steps from the
head; `INVALID` when the pool is shorter than `counter`, and `none` (a `NULL`
dereference) when `counter` is exactly its length. -/
def prio_get_priority (queue : List Priority) (counter : Nat) : Option Priority :=
  if counter < queue.length then queue.get? counter
  else if counter = queue.length then none
  else some Priority.INVALID

/-- `add_to_scheduler`: `push_back` on the queue of `prio`. `push_back` returns
at once for a `NULL` node; `none` is the `NULL` queue of `INVALID` being
dereferenced. -/
def add_to_scheduler (k : Kernel) (process : Option Int) (prio : Priority) : Option Kernel :=
  match process with
  | none => some k
  | some node =>
    match get_priority_queue k prio with
    | none => none
    | some use => some (set_priority_queue k prio (push_back use node))

/-- The loop of `updateTicks` over the nodes of the blocked queue (`next` is
read before the node is moved); `elapsed` is `all_ticks - prev_ticks`. -/
def updateTicks_loop (elapsed : Nat) : List Int → Kernel → Option Kernel
  | [], k => some k
  | curr :: next, k =>
    if (k.pcb curr).bc = BlockedCause.SLEEP then
      if elapsed ≥ (k.pcb curr).blocked_ticks then
        let k1 : Kernel :=
          { k with queue_blocked := (remove_pcb k.queue_blocked (k.pcb curr).PID).2 }
        let k2 := set_pcb k1 curr (fun p =>
          { p with status := Status.RUN, wait_pid := 0, blocked_ticks := 0,
                   bc := BlockedCause.NOT_BLOCKED })
        match add_to_scheduler k2 (some curr) (k2.pcb curr).prio with
        | none => none
        | some k3 => updateTicks_loop elapsed next k3
      else
        updateTicks_loop elapsed next
          (set_pcb k curr (fun p => { p with blocked_ticks := p.blocked_ticks - elapsed }))
    else updateTicks_loop elapsed next k

/-- `updateTicks`: the sleep-expiry step. The difference of the two
`unsigned int` counters is taken modulo `2 ^ 32`. -/
def updateTicks (k : Kernel) : Option Kernel :=
  match updateTicks_loop ((k.all_ticks + 2 ^ 32 - k.prev_ticks) % 2 ^ 32) k.queue_blocked k with
  | none => none
  | some k1 => some { k1 with prev_ticks := k1.all_ticks }

/-- `alarmHandler` for `SIGALRM`: count the tick, and switch to the scheduler
unless a critical section is open, in which case the tick is deferred. (The
idle context runs with `context_switch_safe` set, by `context_set`.) -/
def alarmHandler (k : Kernel) : Kernel :=
  let k1 : Kernel := { k with all_ticks := (k.all_ticks + 1) % 2 ^ 32 }
  if k1.context_switch_safe then { k1 with yields := k1.yields + 1 }
  else { k1 with alarm_triggered := true }

/-- The first block of `scheduler_lottery`: an active process whose status is
not `BLOCK` is pushed back on the queue of its priority, and the active slot
is cleared. `none` is the `NULL` queue of `INVALID` being dereferenced. -/
def lottery_push_back (k : Kernel) : Option Kernel :=
  match k.active_process with
  | none => some k
  | some a =>
    if (k.pcb a).status ≠ Status.BLOCK then
      match get_priority_queue k (k.pcb a).prio with
      | none => none
      | some tmp =>
        some { set_priority_queue k (k.pcb a).prio (push_back tmp a) with
               active_process := none }
    else some k

/-- `scheduler_lottery`; `draws` are the values the successive calls of
`random()` return. `none` when the draws are used up before a ticket of a
non-empty queue comes up (the function is still redrawing), and for a `NULL`
dereference or a division by zero. -/
def scheduler_lottery : List Nat → Kernel → Option (Priority × Kernel)
  | draws, k =>
    match lottery_push_back k with
    | none => none
    | some k1 =>
      if k1.queue_l.length + k1.queue_h.length + k1.queue_m.length = 0 then
        match k1.active_process with
        | none => some (Priority.INVALID, k1)
        | some a => some ((k1.pcb a).prio, k1)
      else
        match draws with
        | [] => none
        | rand_int :: rest =>
          if k1.queue_lottery.length = 0 then none
          else
            match prio_get_priority k1.queue_lottery (rand_int % k1.queue_lottery.length) with
            | none => none
            | some prio =>
              match get_priority_queue k1 prio with
              | none => none
              | some use =>
                if use.length = 0 then scheduler_lottery rest k1 else some (prio, k1)

/-- `context_set`: dispatch the head of the queue of `prio` (the idle context
for `INVALID`); `none` is a `NULL` dereference. -/
def context_set (k : Kernel) (prio : Priority) : Option Kernel :=
  if prio = Priority.INVALID then
    some { k with active_process := none, alarm_triggered := false,
                  context_switch_safe := true }
  else
    match get_priority_queue k prio with
    | none => none
    | some use =>
      if use.length = 0 then
        match k.active_process with
        | none => none
        | some curr =>
          some { k with active_process := some curr, alarm_triggered := false,
                        context_switch_safe := true }
      else
        some { set_priority_queue k prio (pop_front use).2 with
               active_process := (pop_front use).1, alarm_triggered := false,
               context_switch_safe := true }

/-- `scheduler`: one pass of the scheduler context. -/
def scheduler (draws : List Nat) (k : Kernel) : Option Kernel :=
  match updateTicks k with
  | none => none
  | some k1 =>
    match scheduler_lottery draws k1 with
    | none => none
    | some (winner, k2) =>
      let requeued : Option Kernel :=
        match k2.active_process with
        | none => some k2
        | some a =>
          if (k2.pcb a).status = Status.RUN then add_to_scheduler k2 (some a) (k2.pcb a).prio
          else some k2
      match requeued with
      | none => none
      | some k3 => context_set k3 winner

/-- `k_process_cleanup`: take the PCB out of the process table. -/
def k_process_cleanup (k : Kernel) (process : Int) : Kernel :=
  { k with process_queue := (remove_pcb k.process_queue (k.pcb process).PID).2 }

/-- The second loop of `kill_orphans`: every zombie child is popped and
cleaned up. -/
def reap_zombies : List Int → Kernel → Kernel
  | [], k => k
  | child :: rest, k => reap_zombies rest (k_process_cleanup k child)

/-- `kill_orphans`. One unit of fuel per child popped and per level of the
recursion; `none` without fuel and for a `NULL` dereference. -/
def kill_orphans : Nat → Kernel → Int → Bool → Option Kernel
  | 0, _, _, _ => none
  | fuel + 1, k, process, isChild =>
    match (k.pcb process).children with
    | child :: rest =>
      match kill_orphans fuel (set_pcb k process (fun p => { p with children := rest }))
          child true with
      | none => none
      | some k1 => kill_orphans fuel k1 process isChild
    | [] =>
      let k1 := set_pcb (reap_zombies (k.pcb process).zombie_children k) process
        (fun p => { p with zombie_children := [] })
      if isChild then
        if (k1.pcb process).status = Status.BLOCK then
          some (k_process_cleanup
            { k1 with queue_blocked := (remove_pcb k1.queue_blocked (k1.pcb process).PID).2 }
            process)
        else if (k1.pcb process).status = Status.STOP then
          some (k_process_cleanup
            { k1 with queue_stopped := (remove_pcb k1.queue_stopped (k1.pcb process).PID).2 }
            process)
        else
          match get_priority_queue k1 (k1.pcb process).prio with
          | none => none
          | some q =>
            some (k_process_cleanup
              (set_priority_queue k1 (k1.pcb process).prio
                (remove_pcb q (k1.pcb process).PID).2)
              process)
      else some k1

/-- The test `parent->status == BLOCK && parent->bc == WAIT &&
(parent->wait_pid == -1 || parent->wait_pid == pid)` of `k_process_kill`. -/
def parent_waits (parent : Pcb) (pid : Int) : Bool :=
  parent.status = Status.BLOCK ∧ parent.bc = BlockedCause.WAIT ∧
    (parent.wait_pid = -1 ∨ parent.wait_pid = pid)

/-- The wake-up of a waiting parent in `k_process_kill`: its fields are set
from the signalled child, and its node moves from the blocked queue to the
queue of its priority. -/
def wake_parent (k : Kernel) (parent child : Int) : Option Kernel :=
  let k1 := set_pcb k parent (fun p =>
    { p with blocked_ticks := 0, bc := BlockedCause.NOT_BLOCKED, status := Status.RUN,
             child_signal := (k.pcb child).signal, wait_pid := (k.pcb child).PID,
             no_changed_child := 0 })
  let r := remove_pcb k1.queue_blocked (k1.pcb parent).PID
  add_to_scheduler { k1 with queue_blocked := r.2 } r.1 (k1.pcb parent).prio

/-- The notification at the end of the `STOP` and `CONT` branches of
`k_process_kill`: nothing when the parent already holds a notification for
the PID `seen`; else a waiting parent is woken from `process`, and any other
parent gets a node for `node` on its `signals` queue. -/
def notify_parent (k : Kernel) (parent node process seen pid : Int) : Option Kernel :=
  if get_node (k.pcb parent).signals seen = none then
    if parent_waits (k.pcb parent) pid then wake_parent k parent process
    else
      some (set_pcb k parent (fun p =>
        { p with signals := push_back p.signals (k.pcb node).PID }))
  else some k

/-- The first part of the branch `signal == 0` of `k_process_kill`: a pending
notification for `pid` is taken off the parent's `signals`, and the node of
the process off the stopped queue, the blocked queue, the active slot or the
run queue of its priority, by its status. `none` is the `NULL` dereference of
a missing active process or queue. -/
def term_detach (k : Kernel) (node parent pid : Int) : Option Kernel :=
  let k1 : Kernel :=
    if get_node (k.pcb parent).signals pid ≠ none then
      set_pcb k parent (fun p => { p with signals := (remove_pcb p.signals pid).2 })
    else k
  if (k1.pcb node).status = Status.STOP then
    some { k1 with queue_stopped := (remove_pcb k1.queue_stopped pid).2 }
  else if (k1.pcb node).status = Status.BLOCK then
    some { k1 with queue_blocked := (remove_pcb k1.queue_blocked pid).2 }
  else
    match k1.active_process with
    | none => none
    | some a =>
      if (k1.pcb node).PID = (k1.pcb a).PID then some { k1 with active_process := none }
      else
        match get_priority_queue k1 (k1.pcb node).prio with
        | none => none
        | some q =>
          some (set_priority_queue k1 (k1.pcb node).prio (remove_pcb q (k1.pcb node).PID).2)

/-- The branch `signal == 0` of `k_process_kill`, for the node `node` found
in the process table and its parent. -/
def kill_term (fuel : Nat) (k : Kernel) (node parent pid : Int) : Option (Int × Kernel) :=
  match term_detach k node parent pid with
  | none => none
  | some k2 =>
    match (remove_pcb (k2.pcb parent).children (k2.pcb node).PID).1 with
    | none => none
    | some zombie_node =>
      let k3 := set_pcb k2 parent (fun p =>
        { p with children := (remove_pcb p.children (k2.pcb node).PID).2 })
      let k4 := set_pcb k3 zombie_node (fun p => { p with status := Status.ZOMB })
      match kill_orphans fuel k4 zombie_node false with
      | none => none
      | some k5 =>
        if parent_waits (k5.pcb parent) (k5.pcb node).PID then
          match wake_parent k5 parent zombie_node with
          | none => none
          | some k6 => some (0, k_process_cleanup k6 zombie_node)
        else
          some (0, set_pcb k5 parent (fun p =>
            { p with zombie_children := push_back p.zombie_children zombie_node }))

/-- The first part of the branch `signal == 1` of `k_process_kill`: the node
`process` that is taken off the blocked queue, or else off the active slot
or the run queue of its priority (and then has its blocked cause cleared).
`none` is the `NULL` dereference when no node is found. -/
def stop_detach (k : Kernel) (node pid : Int) : Option (Int × Kernel) :=
  if (k.pcb node).status = Status.BLOCK then
    match (remove_pcb k.queue_blocked pid).1 with
    | none => none
    | some process =>
      some (process, { k with queue_blocked := (remove_pcb k.queue_blocked pid).2 })
  else
    let queued : Option (Int × Kernel) :=
      match get_priority_queue k (k.pcb node).prio with
      | none => none
      | some q =>
        match (remove_pcb q pid).1 with
        | none => none
        | some process =>
          some (process, set_priority_queue k (k.pcb node).prio (remove_pcb q pid).2)
    let taken : Option (Int × Kernel) :=
      match k.active_process with
      | none => queued
      | some a =>
        if (k.pcb a).PID = pid then some (a, { k with active_process := none })
        else queued
    match taken with
    | none => none
    | some (process, k1) =>
      some (process, set_pcb k1 process (fun p =>
        { p with bc := BlockedCause.NOT_BLOCKED }))

/-- The node `process` gets status `STOP` and goes to the tail of the stopped
queue. -/
def mark_stopped (k : Kernel) (process : Int) : Kernel :=
  { set_pcb k process (fun p => { p with status := Status.STOP }) with
    queue_stopped := push_back k.queue_stopped process }

/-- The branch `signal == 1` of `k_process_kill`. -/
def kill_stop (k : Kernel) (node parent pid : Int) : Option (Int × Kernel) :=
  match stop_detach k node pid with
  | none => none
  | some (process, k1) =>
    match notify_parent (mark_stopped k1 process) parent node process
        ((mark_stopped k1 process).pcb process).PID pid with
    | none => none
    | some k4 => some (0, k4)

/-- The first part of the last branch of `k_process_kill`: the node taken
off the stopped queue goes back to the blocked queue when it has a blocked
cause, else to the run queue of its priority. -/
def cont_resume (k : Kernel) (pid : Int) : Option (Int × Kernel) :=
  match (remove_pcb k.queue_stopped pid).1 with
  | none => none
  | some process =>
    let k1 : Kernel := { k with queue_stopped := (remove_pcb k.queue_stopped pid).2 }
    if (k1.pcb process).bc ≠ BlockedCause.NOT_BLOCKED then
      some (process,
        { set_pcb k1 process (fun p => { p with status := Status.BLOCK }) with
          queue_blocked := push_back k1.queue_blocked process })
    else
      let k2 := set_pcb k1 process (fun p => { p with status := Status.RUN })
      (add_to_scheduler k2 (some process) (k2.pcb process).prio).map (fun k3 => (process, k3))

/-- The last branch of `k_process_kill` (any signal other than 0 and 1). -/
def kill_cont (k : Kernel) (node parent pid : Int) : Option (Int × Kernel) :=
  match cont_resume k pid with
  | none => none
  | some (process, k3) =>
    match notify_parent k3 parent node process (k3.pcb node).PID pid with
    | none => none
    | some k4 => some (0, k4)

/-- `k_process_kill`: the return value and the state; `none` for `exit(400)`
(the process has no parent) and for a `NULL` dereference. Signal 0 terminates,
1 stops, any other value continues. -/
def k_process_kill (fuel : Nat) (k : Kernel) (pid : Int) (signal : Int) :
    Option (Int × Kernel) :=
  match get_node k.process_queue pid with
  | none => none
  | some node =>
    match (k.pcb node).parent with
    | none => none
    | some parent =>
      if signal = 0 then kill_term fuel k node parent pid
      else if signal = 1 then kill_stop k node parent pid
      else kill_cont k node parent pid

/-- `p_kill`: the return value and the state. -/
def p_kill (fuel : Nat) (k : Kernel) (pid : Int) (sig : Int) : Option (Int × Kernel) :=
  let k0 : Kernel := { k with context_switch_safe := false }
  match get_node k0.process_queue pid with
  | none => some (-1, k0)
  | some signaled_process =>
    if (k0.pcb signaled_process).status = Status.ZOMB then some (-1, checkAlarmTriggered k0)
    else if (k0.pcb signaled_process).status = Status.STOP ∧ sig = 1 then
      some (-1, checkAlarmTriggered k0)
    else if (k0.pcb signaled_process).status ≠ Status.STOP ∧ sig = 2 then
      some (-1, checkAlarmTriggered k0)
    else
      match k_process_kill fuel
          (set_pcb k0 signaled_process (fun p => { p with signal := sig })) pid sig with
      | none => none
      | some (res, k1) => some (res, checkAlarmTriggered k1)

/-- `p_exit`: the state in which control passes to the scheduler (the call
does not return), or the state on return when there is no active process. -/
def p_exit (fuel : Nat) (k : Kernel) : Option Kernel :=
  let k0 : Kernel := { k with context_switch_safe := false }
  match k0.active_process with
  | some a =>
    match k_process_kill fuel (set_pcb k0 a (fun p => { p with signal := 3 })) a 0 with
    | none => none
    | some (_, k1) => some { k1 with yields := k1.yields + 1 }
  | none => some (checkAlarmTriggered k0)

/-- `p_sleep`, up to the point where the caller is suspended in
`swapcontext` (it is then blocked, and `yields` counts the switch), or to
its return when `ticks` is 0 or there is no active process. -/
def p_sleep (k : Kernel) (ticks : Nat) : Kernel :=
  let k0 : Kernel := { k with context_switch_safe := false }
  match k0.active_process with
  | some a =>
    if ticks ≠ 0 then
      let k1 := set_pcb k0 a (fun p =>
        { p with status := Status.BLOCK, wait_pid := 0, blocked_ticks := ticks,
                 bc := BlockedCause.SLEEP })
      { k1 with queue_blocked := push_back k1.queue_blocked a, active_process := none,
                yields := k1.yields + 1 }
    else checkAlarmTriggered k0
  | none => checkAlarmTriggered k0

/-- The rest of `p_sleep`, once the scheduler has resumed the caller. -/
def p_sleep_resumed (k : Kernel) : Kernel := checkAlarmTriggered k

/-- The blocking branch of `p_waitpid`, up to `swapcontext`. -/
def wait_block (k : Kernel) (curr : Int) (pid : Int) : Kernel :=
  let k1 := set_pcb k curr (fun p =>
    { p with status := Status.BLOCK, blocked_ticks := 0, wait_pid := pid,
             bc := BlockedCause.WAIT })
  { k1 with queue_blocked := push_back k1.queue_blocked curr, active_process := none,
            yields := k1.yields + 1 }

/-- `p_waitpid`. The result is `some (pid, wstatus)` with the return value
and the value stored through `wstatus`, or `none` when the caller is
suspended in `swapcontext` (blocked until a child changes state). The outer
`none` is the `NULL` dereference of a call without an active process. The
first return leaves without `checkAlarmTriggered`. -/
def p_waitpid (k : Kernel) (pid : Int) (nohang : Bool) :
    Option (Option (Int × Int) × Kernel) :=
  let k0 : Kernel := { k with context_switch_safe := false }
  match k0.active_process with
  | none => none
  | some curr =>
    if (k0.pcb curr).children.length + (k0.pcb curr).zombie_children.length = 0 then
      some (some (-1, -2), k0)
    else if pid = -1 then
      match pop_front (k0.pcb curr).zombie_children with
      | (some zomb, rest) =>
        let k1 := set_pcb k0 curr (fun p => { p with zombie_children := rest })
        let k2 := k_process_cleanup k1 zomb
        let k3 := set_pcb k2 curr (fun p => { p with wait_pid := 0, no_changed_child := 0 })
        some (some ((k1.pcb zomb).PID, (k1.pcb zomb).signal), checkAlarmTriggered k3)
      | (none, _) =>
        match pop_front (k0.pcb curr).signals with
        | (some stop, rest) =>
          let k1 := set_pcb k0 curr (fun p => { p with signals := rest })
          let k2 := set_pcb k1 stop (fun p => { p with signal := -1 })
          let k3 := set_pcb k2 curr (fun p => { p with wait_pid := 0, no_changed_child := 0 })
          some (some ((k1.pcb stop).PID, (k1.pcb stop).signal), checkAlarmTriggered k3)
        | (none, _) =>
          if nohang then
            some (some (0, -1),
              checkAlarmTriggered (set_pcb k0 curr (fun p => { p with wait_pid := 0 })))
          else some (none, wait_block k0 curr pid)
    else
      if get_node (k0.pcb curr).zombie_children pid ≠ none then
        match (remove_pcb (k0.pcb curr).zombie_children pid).1 with
        | none => none
        | some zomb =>
          let k1 := set_pcb k0 curr (fun p =>
            { p with zombie_children := (remove_pcb p.zombie_children pid).2 })
          let k2 := k_process_cleanup k1 zomb
          let k3 := set_pcb k2 curr (fun p => { p with wait_pid := 0, no_changed_child := 0 })
          some (some ((k1.pcb zomb).PID, (k1.pcb zomb).signal), checkAlarmTriggered k3)
      else if get_node (k0.pcb curr).signals pid ≠ none then
        match (remove_pcb (k0.pcb curr).signals pid).1 with
        | none => none
        | some stop =>
          let k1 := set_pcb k0 curr (fun p =>
            { p with signals := (remove_pcb p.signals pid).2 })
          let k2 := set_pcb k1 stop (fun p => { p with signal := -1 })
          let k3 := set_pcb k2 curr (fun p => { p with wait_pid := 0, no_changed_child := 0 })
          some (some ((k1.pcb stop).PID, (k1.pcb stop).signal), checkAlarmTriggered k3)
      else
        if nohang then
          some (some (0, -1),
            checkAlarmTriggered (set_pcb k0 curr (fun p => { p with wait_pid := 0 })))
        else some (none, wait_block k0 curr pid)

/-- The rest of the blocking branch of `p_waitpid`, once the scheduler has
resumed the caller `curr`: the return value and the value stored through
`wstatus`. For `pid == -1` the return value is the `wait_pid` the waking
child left. -/
def p_waitpid_resumed (k : Kernel) (curr : Int) (pid : Int) : (Int × Int) × Kernel :=
  let k0 : Kernel := { k with context_switch_safe := false }
  let wstatus := (k0.pcb curr).child_signal
  let ret := if pid = -1 then (k0.pcb curr).wait_pid else pid
  let k1 := set_pcb k0 curr (fun p =>
    { p with no_changed_child := 0, child_signal := -1, wait_pid := 0 })
  ((ret, wstatus), checkAlarmTriggered k1)

/-! ## `init_fs` and `mount_fs`, one after the other -/

/-- What `init_fs` leaves in the new backing file: the 16-bit words
`init_vals[0]` (`config`) and `init_vals[1]` (`first`) at its start, zeros
after them up to `length` bytes; `new_data_blocks` is the local the length is
computed from. -/
structure Image where
  config : Nat
  first : Nat
  new_data_blocks : Nat
  length : Nat
deriving DecidableEq, Repr

/-- `init_fs`: the configuration word is `(uint16_t)((F << 8) | c)`. -/
def init_fs (new_fat_blocks new_block_size_config : Nat) : Image :=
  let new_block_size := 1 <<< (new_block_size_config + 8)
  let new_data_blocks :=
    if new_block_size * new_fat_blocks / 2 - 1 ≥ LAST_BLOCK then LAST_BLOCK - 1
    else new_block_size * new_fat_blocks / 2 - 1
  { config := ((new_fat_blocks <<< 8) ||| new_block_size_config) % 65536,
    first := LAST_BLOCK,
    new_data_blocks := new_data_blocks,
    length := (new_fat_blocks + new_data_blocks) * new_block_size }

/-- `mount_fs`: the globals decoded from the first 16-bit word of the file;
`fat` maps the start of the file, so `fat[0]` is that word and `fat[1]` the
next one. -/
def mount_fs (img : Image) : FS :=
  let config := img.config
  let block_size := 1 <<< (8 + (config &&& 0xFF))
  let fat_blocks := config >>> 8
  { block_size := block_size,
    fat_blocks := fat_blocks,
    data_blocks := if block_size * fat_blocks / 2 - 1 ≥ LAST_BLOCK then LAST_BLOCK - 1
                   else block_size * fat_blocks / 2 - 1,
    fat := fun b => if b = 0 then img.config else if b = 1 then img.first else 0,
    disk := fun _ => 0,
    errno := 0 }

/-! ## Sequences of calls -/

/-- A call of the process API, the return of a call that was suspended in
the scheduler, a timer signal, or a pass of the scheduler with the values
`random()` returns in it. -/
inductive Call where
  | spawn
  | nice (pid : Int) (priority : Int)
  | sleep (ticks : Nat)
  | sleep_return
  | waitpid (pid : Int) (nohang : Bool)
  | waitpid_return (curr : Int) (pid : Int)
  | kill (pid : Int) (sig : Int)
  | exit
  | alarm
  | schedule (draws : List Nat)

/-- The state after one call (`none` when the program has ended, or a loop
is out of fuel). -/
def step (fuel : Nat) (k : Kernel) : Call → Option Kernel
  | Call.spawn => some (p_spawn k).2
  | Call.nice pid priority => some (p_nice k pid priority).2
  | Call.sleep ticks => some (p_sleep k ticks)
  | Call.sleep_return => some (p_sleep_resumed k)
  | Call.waitpid pid nohang => (p_waitpid k pid nohang).map (fun r => r.2)
  | Call.waitpid_return curr pid => some (p_waitpid_resumed k curr pid).2
  | Call.kill pid sig => (p_kill fuel k pid sig).map (fun r => r.2)
  | Call.exit => p_exit fuel k
  | Call.alarm => some (alarmHandler k)
  | Call.schedule draws => scheduler draws k

/-- The state after a sequence of calls. -/
def run (fuel : Nat) : Kernel → List Call → Option Kernel
  | k, [] => some k
  | k, c :: rest =>
    match step fuel k c with
    | none => none
    | some k1 => run fuel k1 rest

/-- The number of calls of `p_spawn` in a sequence. -/
def spawns : List Call → Nat
  | [] => 0
  | Call.spawn :: rest => spawns rest + 1
  | _ :: rest => spawns rest

/-! ## `f_lseek` and `f_rmdir` of `syscalls.c` -/

abbrev SEEK_SET : Nat := 0
abbrev SEEK_CUR : Nat := 1
abbrev SEEK_END : Nat := 2

/-- The table after an assignment to `node->file_descriptor`, `node` being
what `get_fd` returned for `fd`. -/
def set_descriptor : List TNode → Int → Int → List TNode
  | [], _, _ => []
  | node :: rest, fd, v =>
    if node.file_descriptor = fd then { node with file_descriptor := v } :: rest
    else node :: set_descriptor rest fd v

/-- `f_lseek` for an `offset >= 0` (the domain of `seek_data`). Every branch
assigns the result of `seek_data` to `node->file_descriptor`; the start of
the file is taken as `f.first_block * 64`. No result when `get_fd` gives
`NULL` (the node is dereferenced), and when `seek_data` would be called
with a negative position. -/
def f_lseek (fuel : Nat) (u : Sys) (fd : Int) (offset : Nat) (whence : Nat) : Option Sys :=
  match get_fd u.fd_table fd with
  | none => none
  | some node =>
    match get_file fuel u.fs node.file_name true with
    | none => none
    | some (f, s1) =>
      if whence = SEEK_SET then
        let r := seek_data s1 (f.first_block * 64) offset
        some { u with fs := r.2, fd_table := set_descriptor u.fd_table fd r.1 }
      else if whence = SEEK_CUR then
        if node.file_descriptor < 0 then none
        else
          let r := seek_data s1 node.file_descriptor.toNat offset
          some { u with fs := r.2, fd_table := set_descriptor u.fd_table fd r.1 }
      else if whence = SEEK_END then
        let r1 := seek_data s1 (f.first_block * 64) f.size
        if r1.1 < 0 then none
        else
          let r2 := seek_data r1.2 r1.1.toNat offset
          some { u with fs := r2.2, fd_table := set_descriptor u.fd_table fd r2.1 }
      else some { u with fs := s1 }

/-- `f_rmdir` with the arguments `rmdir path ...` (none: the operand is
missing and nothing is done). -/
def f_rmdir (fuel : Nat) (now : Nat) (junk : List Nat) : List (List Nat) → Sys → Option Sys
  | [], u => some u
  | a :: rest, u =>
    let path := abs_path u.pwd junk a
    match get_file fuel u.fs path false with
    | none => none
    | some (f, s1) =>
      if f.type ≠ DIRECTORY_FILE then some { u with fs := s1, cur_errno := ERR_NOTDIR }
      else
        match truncate_file fuel s1 path false with
        | none => none
        | some (t, s2) =>
          if t = -1 then some { u with fs := s2, cur_errno := ERR_PERM }
          else
            match remove_file fuel s2 now path with
            | none => none
            | some (pos, s3) =>
              match cleanup_file s3 pos with
              | none => none
              | some (_, s4) => f_rmdir fuel now junk rest { u with fs := s4 }

/-! ## The linked queue of `queue.c`, with its pointers -/

/-- The fields of a `Node` that `queue.c` reads and writes: the two links,
`jid`, and `PID`, the PID of the PCB the node points to. A node is named by
its address, a natural number; `none` is `NULL`. -/
structure QNode where
  prev : Option Nat
  next : Option Nat
  jid : Int
  PID : Int
deriving DecidableEq, Repr

/-- The `Queue` struct (`len` is never near the end of the `int` range:
every node counted is a distinct allocation). -/
structure Queue where
  head : Option Nat
  tail : Option Nat
  len : Int
deriving DecidableEq, Repr

/-- Memory after a store to the node at address `a`. -/
def store (h : Nat → QNode) (a : Nat) (v : QNode) : Nat → QNode :=
  fun x => if x = a then v else h x

/-- `push_front`. -/
def Queue.push_front (queue : Queue) (h : Nat → QNode) (node : Option Nat) :
    (Nat → QNode) × Queue :=
  match node with
  | none => (h, queue)
  | some n =>
    let h1 := store h n { h n with prev := none }
    let h2 := store h1 n { h1 n with next := queue.head }
    match queue.head with
    | some currhead =>
      (store h2 currhead { h2 currhead with prev := some n },
        { queue with head := some n, len := queue.len + 1 })
    | none => (h2, { head := some n, tail := some n, len := queue.len + 1 })

/-- `push_back`. -/
def Queue.push_back (queue : Queue) (h : Nat → QNode) (node : Option Nat) :
    (Nat → QNode) × Queue :=
  match node with
  | none => (h, queue)
  | some n =>
    let h1 := store h n { h n with next := none }
    let h2 := store h1 n { h1 n with prev := queue.tail }
    match queue.tail with
    | some currtail =>
      let h3 := store h2 currtail { h2 currtail with next := some n }
      (store h3 n { h3 n with jid := (h3 currtail).jid + 1 },
        { queue with tail := some n, len := queue.len + 1 })
    | none =>
      (store h2 n { h2 n with jid := 1 }, { head := some n, tail := some n, len := queue.len + 1 })

/-- `pop_front`: the node returned, the memory and the queue; no result when
`queue->head->prev = NULL` is a store through `NULL`. -/
def Queue.pop_front (queue : Queue) (h : Nat → QNode) :
    Option (Option Nat × (Nat → QNode) × Queue) :=
  match queue.head with
  | none => some (none, h, queue)
  | some old_head =>
    if queue.head = queue.tail then
      some (some old_head, store h old_head { h old_head with next := none },
        { head := none, tail := none, len := queue.len - 1 })
    else
      match (h old_head).next with
      | none => none
      | some nh =>
        let h1 := store h nh { h nh with prev := none }
        some (some old_head, store h1 old_head { h1 old_head with next := none },
          { queue with head := some nh, len := queue.len - 1 })

/-- `pop_back`. -/
def Queue.pop_back (queue : Queue) (h : Nat → QNode) :
    Option (Option Nat × (Nat → QNode) × Queue) :=
  match queue.tail with
  | none => some (none, h, queue)
  | some old_tail =>
    if queue.head = queue.tail then
      some (some old_tail, store h old_tail { h old_tail with prev := none },
        { head := none, tail := none, len := queue.len - 1 })
    else
      match (h old_tail).prev with
      | none => none
      | some nt =>
        let h1 := store h nt { h nt with next := none }
        some (some old_tail, store h1 old_tail { h1 old_tail with prev := none },
          { queue with tail := some nt, len := queue.len - 1 })

/-- The `while` loop of `remove_pcb`: the first node from `curr` on whose PCB
has the PID `pid`, `NULL` at the end of the `next` links. -/
def Queue.find_curr : Nat → (Nat → QNode) → Option Nat → Int → Option (Option Nat)
  | 0, _, _, _ => none
  | _ + 1, _, none, _ => some none
  | fuel + 1, h, some curr, pid =>
    if (h curr).PID ≠ pid then Queue.find_curr fuel h (h curr).next pid else some (some curr)

/-- `remove_pcb`: no result when the loop has no end, and when `prev` or
`next` of a node that is neither head nor tail is `NULL`. -/
def Queue.remove_pcb (queue : Queue) (fuel : Nat) (h : Nat → QNode) (pid : Int) :
    Option (Option Nat × (Nat → QNode) × Queue) :=
  match Queue.find_curr fuel h queue.head pid with
  | none => none
  | some none => some (none, h, queue)
  | some (some curr) =>
    if some curr = queue.head then queue.pop_front h
    else if some curr = queue.tail then queue.pop_back h
    else
      match (h curr).prev, (h curr).next with
      | some prev, some next =>
        let h1 := store h prev { h prev with next := some next }
        some (some curr, store h1 next { h1 next with prev := some prev },
          { queue with len := queue.len - 1 })
      | _, _ => none

/-! ## Directory resolution as the spec words it -/

/-- The error the entry found for a path token causes, in the order the spec
lists them: missing, not a directory, no execute bit. -/
def token_error (e : Entry) : Option Nat :=
  if e.file.name0 = EOD_FLAG then some ENOENT
  else if e.file.type ≠ DIRECTORY_FILE then some ENOTDIR
  else if e.file.perm &&& EXECUTE_PERM = 0 then some EACCES
  else none

/-- Where a left-to-right pass over the tokens stands: it has failed with an
error, or it is at a directory entry (with the current `errno`). -/
inductive Resolved where
  | failed (err : Nat)
  | at_entry (e : Entry) (en : Nat)

/-- One token of the pass: an earlier failure is kept; otherwise the token is
looked up in the directory reached so far and checked. -/
def resolve_step (lookup : List Nat → Nat → Nat → Option (Entry × Nat))
    (acc : Option Resolved) (t : List Nat) : Option Resolved :=
  match acc with
  | none => none
  | some (Resolved.failed err) => some (Resolved.failed err)
  | some (Resolved.at_entry e en) =>
    match lookup t e.file.first_block en with
    | none => none
    | some (e1, en1) =>
      match token_error e1 with
      | some err => some (Resolved.failed err)
      | none => some (Resolved.at_entry e1 en1)

/-- Directory resolution as the spec words it: start at the root, take the
tokens from left to right, stop at the first failing token. -/
def resolve_spec (lookup : List Nat → Nat → Nat → Option (Entry × Nat))
    (dir : List (List Nat)) (en : Nat) : Option Resolved :=
  dir.foldl (resolve_step lookup) (some (Resolved.at_entry root en))

/-- What `find_directory` returns for an outcome of the pass. -/
def Resolved.result : Resolved → Entry × Nat
  | Resolved.failed err => (eod, err)
  | Resolved.at_entry e en => (e, en)

/-! ## Chains and directory slots, as the spec speaks of them -/

/-- `IsChain fat b L`: `L` lists the blocks of the chain that starts at `b`,
each linked to the next by `fat`, the last one marked `LAST_BLOCK`
(`b = LAST_BLOCK` is the empty chain). -/
def IsChain (fat : Nat → Nat) : Nat → List Nat → Prop
  | b, [] => b = LAST_BLOCK
  | b, x :: xs => b ≠ LAST_BLOCK ∧ x = b ∧ IsChain fat (fat b) xs

instance decIsChain (fat : Nat → Nat) : ∀ (b : Nat) (L : List Nat), Decidable (IsChain fat b L)
  | b, [] => inferInstanceAs (Decidable (b = LAST_BLOCK))
  | b, _ :: xs =>
    @instDecidableAnd _ _ _ (@instDecidableAnd _ _ _ (decIsChain fat (fat b) xs))

/-- The directory slot number `i` of data block `block`. -/
def slot (s : FS) (block i : Nat) : Entry :=
  { file := read_File s (phys s block + 64 * i), position := (phys s block + 64 * i : Nat) }

/-- The slots `i, i + 1, .., i + n - 1` of a block. -/
def slots_from (s : FS) (block i n : Nat) : List Entry :=
  (List.range' i n).map (slot s block)

/-- The first `k` blocks of the chain from `b`: `b`, `fat b`, `fat (fat b)`, .. -/
def chain_blocks (fat : Nat → Nat) : Nat → Nat → List Nat
  | 0, _ => []
  | k + 1, b => b :: chain_blocks fat k (fat b)

/-- Every slot of the listed blocks, block after block, in slot order. -/
def dir_slots (s : FS) : List Nat → List Entry
  | [] => []
  | b :: rest => slots_from s b 0 (s.block_size / 64) ++ dir_slots s rest

/-- A list of slots cut after its first EOD slot, and whether it has one. -/
def upto_eod : List Entry → List Entry × Bool
  | [] => ([], false)
  | e :: rest =>
    if e.file.name0 = EOD_FLAG then ([e], true)
    else (e :: (upto_eod rest).1, (upto_eod rest).2)

/-- `e` is a directory slot of the backing file: what is stored at its
position, which is a slot boundary of some block. -/
def IsSlot (s : FS) (e : Entry) : Prop := ∃ b i, i < s.block_size / 64 ∧ e = slot s b i

/-- The block size is a positive multiple of the slot size, the FAT region
is not empty, and block numbers stay below `LAST_BLOCK` (all true after
`mount_fs` of a filesystem made by `init_fs`). -/
def ValidConfig (s : FS) : Prop :=
  0 < s.block_size ∧ 64 ∣ s.block_size ∧ 1 ≤ s.fat_blocks ∧ s.data_blocks < LAST_BLOCK

instance decValidConfig (s : FS) : Decidable (ValidConfig s) := by
  unfold ValidConfig
  infer_instance

/-- What a `File` struct holds once stored in memory: each field cut to its
width, the name to its 32 bytes. -/
def File.stored (f : File) : File :=
  { name := (List.range 32).map (fun k => f.name.getD k 0),
    size := f.size % 2 ^ 32,
    first_block := f.first_block % 2 ^ 16,
    type := f.type % 256,
    perm := f.perm % 256,
    mtime := f.mtime % 2 ^ 64 }

/-- The parent's entry as `remove_file` rewrites it: 64 off `size`
(in `uint32_t` arithmetic), `mtime` set. -/
def shrunk (now : Nat) (d : Entry) : File :=
  { d.file with size := (d.file.size + 2 ^ 32 - 64) % 2 ^ 32, mtime := now }

/-- The removed entry as `remove_file` rewrites it: `name[0] = REMOVED_FLAG`. -/
def flagged (e : Entry) : File :=
  { e.file with name := REMOVED_FLAG :: e.file.name.tail }

/-- The state `remove_file` leaves for the parent entry `d` and the entry `e`:
the parent's slot rewritten (unless the parent is the root, which has none),
then the entry's slot. -/
def removed_state (s : FS) (now : Nat) (d e : Entry) (en1 : Nat) : FS :=
  write_File
    (if d.position ≥ 0 then write_File { s with errno := en1 } d.position.toNat (shrunk now d)
     else { s with errno := en1 })
    e.position.toNat (flagged e)

/-- What a slot of the old state holds in `removed_state`. -/
def removed_slot (now : Nat) (d e : Entry) (x : Entry) : Entry :=
  if x.position = e.position then { file := (flagged e).stored, position := e.position }
  else if x.position = d.position then { file := (shrunk now d).stored, position := d.position }
  else x

/-! ## The allocator, as the spec speaks of it -/

/-- Some FAT entry among `1..data_blocks` is free. -/
def HasFree (s : FS) : Prop := ∃ i, 1 ≤ i ∧ i ≤ s.data_blocks ∧ s.fat i = FREE_BLOCK

/-- `i` is the smallest index among `1..data_blocks` whose FAT entry is free. -/
def IsFirstFree (s : FS) (i : Nat) : Prop :=
  1 ≤ i ∧ i ≤ s.data_blocks ∧ s.fat i = FREE_BLOCK ∧
    ∀ j, 1 ≤ j → j < i → s.fat j ≠ FREE_BLOCK

/-- The address `a` lies in data block `i` of the backing file. -/
def InBlock (s : FS) (i a : Nat) : Prop := phys s i ≤ a ∧ a < phys s i + s.block_size

/-! ## The bytes of a file, as the spec speaks of them -/

/-- The byte at logical offset `k` of the file whose block chain is `L`: in
the first block when `k` is below the block size, else byte `k - block_size`
of the rest of the chain (0 past the chain). -/
def chain_byte (s : FS) : List Nat → Nat → Nat
  | [], _ => 0
  | b :: rest, k =>
    if k < s.block_size then s.disk (phys s b + k) else chain_byte s rest (k - s.block_size)

/-- The `r` bytes of the file from logical offset `p` on. -/
def chain_bytes (s : FS) (L : List Nat) (p r : Nat) : List Nat :=
  (List.range r).map (fun j => chain_byte s L (p + j))

/-! ## Well-formed metadata, and states that agree on it

The lookups read directory blocks (slot by slot) and the data blocks of
links. `MetaClosed s D K` says that the block lists `D` (directory blocks)
and `K` (link data blocks) hold every block a lookup from the root can reach
in `s`. -/

/-- `D` holds the root's block and is closed under what a directory walk
follows: the next block of a directory block without an EOD slot, and the
first block of every slot of type directory; a slot of type link has its data
chain in `K`. -/
structure MetaClosed (s : FS) (D K : List Nat) : Prop where
  root_in : 1 ∈ D
  dir_next : ∀ b ∈ D, (enum_block s b (s.block_size / 64) 0).2 = false → s.fat b ∈ D
  dir_slot : ∀ b ∈ D, ∀ i, i < s.block_size / 64 →
    (slot s b i).file.type = DIRECTORY_FILE → (slot s b i).file.first_block ∈ D
  link_slot : ∀ b ∈ D, ∀ i, i < s.block_size / 64 →
    (slot s b i).file.type = LINK_FILE →
      (slot s b i).file.first_block ∈ K ∨ (slot s b i).file.first_block = LAST_BLOCK
  link_next : ∀ b ∈ K, s.fat b ∈ K ∨ s.fat b = LAST_BLOCK

/-- Two readings of one slot that a lookup cannot tell apart: same position,
name, type and permissions, the same first block for a directory or a link,
the same size for a link. -/
def SlotEq (e2 e : Entry) : Prop :=
  e2.position = e.position ∧ e2.file.name = e.file.name ∧ e2.file.type = e.file.type ∧
  e2.file.perm = e.file.perm ∧
  (e.file.type = DIRECTORY_FILE → e2.file.first_block = e.file.first_block) ∧
  (e.file.type = LINK_FILE →
    e2.file.first_block = e.file.first_block ∧ e2.file.size = e.file.size)

/-- `s2` agrees with `s` on the metadata: same geometry, the same FAT entries
for the blocks of `D` and `K`, slots of `D` blocks that a lookup cannot tell
apart, and the same bytes in the blocks of `K`. -/
def Agree (s s2 : FS) (D K : List Nat) : Prop :=
  s2.block_size = s.block_size ∧ s2.fat_blocks = s.fat_blocks ∧
  (∀ b ∈ D, s2.fat b = s.fat b ∧
    ∀ i, i < s.block_size / 64 → SlotEq (slot s2 b i) (slot s b i)) ∧
  (∀ b ∈ K, s2.fat b = s.fat b ∧
    ∀ k, k < s.block_size → s2.disk (phys s b + k) = s.disk (phys s b + k))

/-- The entry `e2` found in `s2` is the slot of a `D` block that `e` is in
`s` (or both are the root, or both the `eod` constant). -/
def SameSlot (s s2 : FS) (D : List Nat) (e2 e : Entry) : Prop :=
  (e2 = root ∧ e = root) ∨ (e2 = eod ∧ e = eod) ∨
  ∃ b ∈ D, ∃ i, i < s.block_size / 64 ∧ e = slot s b i ∧ e2 = slot s2 b i

/-- Two lookup results that are both missing, or the same slot with the
same `errno`. -/
def SameResult (s s2 : FS) (D : List Nat) (r2 r : Option (Entry × Nat)) : Prop :=
  match r2, r with
  | none, none => True
  | some x2, some x => x2.2 = x.2 ∧ SameSlot s s2 D x2.1 x.1
  | _, _ => False

/-- The number of free FAT entries among `1..data_blocks`. -/
def free_count (s : FS) : Nat :=
  ((List.range' 1 s.data_blocks).filter (fun i => s.fat i = FREE_BLOCK)).length

/-- Block `b` is the same in `s2` as in `s`: its FAT entry and its bytes. -/
def Untouched (s s2 : FS) (b : Nat) : Prop :=
  s2.fat b = s.fat b ∧ ∀ k, k < s.block_size → s2.disk (phys s b + k) = s.disk (phys s b + k)

/-- What a write of `data` along the chain `M` from block `blk` leaves: the
same geometry, a chain `M ++ N` where the blocks of `N` were free before,
`data` as the first bytes of that chain (which is long enough to hold them),
and every block that was neither in `M` nor free untouched. -/
def Wrote (s s2 : FS) (blk : Nat) (M N data : List Nat) : Prop :=
  s2.block_size = s.block_size ∧ s2.fat_blocks = s.fat_blocks ∧
  s2.data_blocks = s.data_blocks ∧
  IsChain s2.fat blk (M ++ N) ∧ (∀ x ∈ N, s.fat x = FREE_BLOCK) ∧
  chain_bytes s2 (M ++ N) 0 data.length = data ∧
  data.length ≤ (M ++ N).length * s.block_size ∧
  ∀ b, b ∉ M → s.fat b ≠ FREE_BLOCK → Untouched s s2 b

/-- The file entry as `write_file` rewrites it: a new first block, size and
time. -/
def rewritten (e : Entry) (fb sz now : Nat) : File :=
  { e.file with first_block := fb, size := sz, mtime := now }

/-! ## Queue membership of a process -/

/-- How often `x` is in the `LOW`, `MED` and `HIGH` run queues, the blocked
queue and the stopped queue. -/
def counts (k : Kernel) (x : Int) : Nat × Nat × Nat × Nat × Nat :=
  (k.queue_l.count x, k.queue_m.count x, k.queue_h.count x, k.queue_blocked.count x,
    k.queue_stopped.count x)

/-- The `counts` of a process that is once in the run queue of `prio` and in
no other queue. -/
def run_counts : Priority → Nat × Nat × Nat × Nat × Nat
  | Priority.LOW => (1, 0, 0, 0, 0)
  | Priority.MED => (0, 1, 0, 0, 0)
  | Priority.HIGH => (0, 0, 1, 0, 0)
  | Priority.INVALID => (0, 0, 0, 0, 0)

/-- The fields of a PCB that a stop and a continue leave alone. -/
def stable (p : Pcb) : Int × Option Int × Priority × Int × Nat :=
  (p.PID, p.parent, p.prio, p.wait_pid, p.blocked_ticks)

/-- The fields of a PCB other than its queues of children and of zombie
children. -/
def scalars (p : Pcb) :
    Int × Option Int × List Int × Priority × Int × Status × BlockedCause × Nat × Int × Int
      × Int :=
  (p.PID, p.parent, p.signals, p.prio, p.wait_pid, p.status, p.bc, p.blocked_ticks, p.signal,
    p.child_signal, p.no_changed_child)

/-- The PIDs of `D` are below `N` and closed under `children`, and every
child has a larger PID than its parent, a priority with a run queue, and its
own PID in its PCB. -/
abbrev Closed (k : Kernel) (D : List Int) (N : Int) : Prop :=
  ∀ x ∈ D, x < N ∧ ∀ c ∈ (k.pcb x).children,
    c ∈ D ∧ x < c ∧ (k.pcb c).prio ≠ Priority.INVALID ∧ (k.pcb c).PID = c

/-- What `kill_orphans(process, isChild)` leaves of the state `k`: no PCB
below `process` and no queue entry of a PID below `process` has changed (nor
of `process` itself when `isChild` is 0), `process` has no children and no
zombie children left, and in the other PCBs only the two queues of children
have changed, to sublists. -/
def Reaped (k k2 : Kernel) (process : Int) (isChild : Bool) : Prop :=
  k2.next_pid = k.next_pid ∧ k2.active_process = k.active_process ∧
  (∀ x, scalars (k2.pcb x) = scalars (k.pcb x)) ∧
  (∀ x, x < process → k2.pcb x = k.pcb x) ∧
  (∀ x, List.Sublist (k2.pcb x).children (k.pcb x).children) ∧
  (∀ x, x < process ∨ (x = process ∧ isChild = false) → counts k2 x = counts k x) ∧
  (k2.pcb process).children = [] ∧ (k2.pcb process).zombie_children = []

/-- The fields of a PCB other than `signals`. -/
def but_signals (p : Pcb) :
    Int × Option Int × List Int × List Int × Priority × Int × Status × BlockedCause × Nat
      × Int × Int × Int :=
  (p.PID, p.parent, p.children, p.zombie_children, p.prio, p.wait_pid, p.status, p.bc,
    p.blocked_ticks, p.signal, p.child_signal, p.no_changed_child)

/-- The parent `par` after its child `pid` was terminated with the signal
`sg` in its PCB, from the state `k`: a parent that was waiting for `pid` (or
for any child) in the blocked queue is `RUN` with no blocked cause, holds
`sg` and `pid`, and is once in the run queue of its priority, at the tail,
and in no other queue; any other parent has `pid` at the tail of its zombie
children and keeps its status and its queue. -/
def Notified (k k2 : Kernel) (pid par : Int) (sg : Int) : Prop :=
  (parent_waits (k.pcb par) pid = true → counts k par = (0, 0, 0, 1, 0) →
    (k2.pcb par).status = Status.RUN ∧ (k2.pcb par).bc = BlockedCause.NOT_BLOCKED ∧
    (k2.pcb par).child_signal = sg ∧ (k2.pcb par).wait_pid = pid ∧
    counts k2 par = run_counts (k.pcb par).prio ∧
    (∃ q, get_priority_queue k2 (k.pcb par).prio = some q ∧ q.getLast? = some par) ∧
    (k2.pcb par).zombie_children = (k.pcb par).zombie_children) ∧
  (parent_waits (k.pcb par) pid = false →
    (k2.pcb par).zombie_children = (k.pcb par).zombie_children ++ [pid] ∧
    (k2.pcb par).status = (k.pcb par).status ∧ counts k2 par = counts k par)

/-- Every PCB holds its own PID, and every PID in a queue of the kernel, in
the active slot or in a queue of a PCB is below `n`. -/
structure Inv (k : Kernel) (n : Int) : Prop where
  pid : ∀ x, (k.pcb x).PID = x
  ql : ∀ x ∈ k.queue_l, x < n
  qm : ∀ x ∈ k.queue_m, x < n
  qh : ∀ x ∈ k.queue_h, x < n
  qb : ∀ x ∈ k.queue_blocked, x < n
  qs : ∀ x ∈ k.queue_stopped, x < n
  pq : ∀ x ∈ k.process_queue, x < n
  act : ∀ a, k.active_process = some a → a < n
  ch : ∀ p, ∀ x ∈ (k.pcb p).children, x < n
  zo : ∀ p, ∀ x ∈ (k.pcb p).zombie_children, x < n
  sg : ∀ p, ∀ x ∈ (k.pcb p).signals, x < n

/-- No process exists yet: the queues of the kernel are empty and no process
is active. -/
abbrev Idle (k : Kernel) : Prop :=
  (k.queue_l, k.queue_m, k.queue_h, k.queue_blocked, k.queue_stopped, k.process_queue,
    k.active_process) = ([], [], [], [], [], [], none)

/-! ## States between the steps of `create_file` -/

/-- `t` differs from `s` at most in `errno`, in the 48 bytes of the slot at
`dpos` (when `dpos` is not negative), and in blocks that are free in `s`
(their FAT entries and their bytes). -/
def Staged (s t : FS) (dpos : Int) : Prop :=
  t.block_size = s.block_size ∧ t.fat_blocks = s.fat_blocks ∧
  t.data_blocks = s.data_blocks ∧
  (∀ x, s.fat x ≠ FREE_BLOCK → t.fat x = s.fat x) ∧
  (∀ a, (dpos < 0 ∨ a < dpos.toNat ∨ dpos.toNat + 48 ≤ a) →
    (∀ j, 1 ≤ j → s.fat j = FREE_BLOCK → ¬ InBlock s j a) → t.disk a = s.disk a)

/-- The parent's entry as `create_file` rewrites it: 64 more in `size`
(in `uint32_t` arithmetic), `mtime` set. -/
def grown (now : Nat) (d : Entry) : File :=
  { d.file with size := (d.file.size + 64) % 2 ^ 32, mtime := now }

/-- The state of `create_file` once the parent's slot is rewritten (the root
has no slot). -/
def parent_grown (s : FS) (now : Nat) (d : Entry) (en1 : Nat) : FS :=
  if d.position ≥ 0 then write_File { s with errno := en1 } d.position.toNat (grown now d)
  else { s with errno := en1 }

/-! ## A queue in memory as a list of nodes -/

/-- The nodes met from `x` on along the links `link` (`next` or `prev`),
at most `fuel` of them. -/
def walk (link : QNode → Option Nat) (h : Nat → QNode) : Nat → Option Nat → List Nat
  | 0, _ => []
  | _ + 1, none => []
  | fuel + 1, some a => a :: walk link h fuel (link (h a))

/-- The queue `q` in the memory `h` is the list `l` of nodes: the `next`
links lead from the head through `l` and end there, the `prev` links lead
from the tail through `l` reversed and end there, `len` is the length of
`l`, and no node is in `l` twice. -/
def IsQueue (h : Nat → QNode) (q : Queue) (l : List Nat) : Prop :=
  l.Nodup ∧ q.len = l.length ∧
  walk QNode.next h (l.length + 1) q.head = l ∧
  walk QNode.prev h (l.length + 1) q.tail = l.reverse

/-- The links `link` lead from `x` through the nodes `l` to `y`. -/
def Seg (link : QNode → Option Nat) (h : Nat → QNode) : Option Nat → List Nat → Option Nat → Prop
  | x, [], y => x = y
  | x, a :: rest, y => x = some a ∧ Seg link h (link (h a)) rest y

/-! ## The size of a directory and its listing -/

/-- The number of live entries among listed slots: what `list_directory`
returns before the closing EOD entry. -/
def live_count (es : List Entry) : Nat := (es.filter live).length

/-- The size invariant for a directory entry with the metadata `f`: the
stored `size` is 64 times the number of live entries of the directory that
starts at `f.first_block`. -/
def SizeInv (fuel : Nat) (s : FS) (f : File) : Prop :=
  ∃ es, enum_directory fuel s f.first_block = some es ∧ f.size = 64 * live_count es

/-- What `name[0]` says of a slot: 0 for the end of the directory, 1 for a
reusable (cleaned or removed) slot, 2 for a live entry. -/
def slot_kind (c : Nat) : Nat :=
  if c = EOD_FLAG then 0 else if c = CLEANED_FLAG ∨ c = REMOVED_FLAG then 1 else 2

/-- Slot `k` of block `b` holds a directory entry whose chain `L` is well
formed in `s`: the slot lies in an allocated block, the chain from its first
block is `L` (ending in `0xFFFF`), of allocated blocks, short enough for the
fuel, and holds an EOD slot. -/
structure DirAt (fuel : Nat) (s : FS) (b k : Nat) (L : List Nat) : Prop where
  slot_lt : k < s.block_size / 64
  used : s.fat b ≠ FREE_BLOCK
  chain : IsChain s.fat (slot s b k).file.first_block L
  short : L.length ≤ fuel
  closed : (upto_eod (dir_slots s L)).2 = true
  chain_used : ∀ y ∈ L, s.fat y ≠ FREE_BLOCK

/-- `s1` differs from `s` at most in `errno`, in the blocks that satisfy `R`
(their FAT entries and their bytes), and in the bytes after the first of the
48-byte slot at `p` (when `p` is not negative). -/
def Frame (s s1 : FS) (R : Nat → Prop) (p : Int) : Prop :=
  s1.block_size = s.block_size ∧ s1.fat_blocks = s.fat_blocks ∧
  s1.data_blocks = s.data_blocks ∧
  (∀ b, ¬ R b → s1.fat b = s.fat b) ∧
  ∀ b k, ¬ R b → k < s.block_size →
    (p < 0 ∨ phys s b + k ≤ p.toNat ∨ p.toNat + 48 ≤ phys s b + k) →
    s1.disk (phys s b + k) = s.disk (phys s b + k)

/-- The blocks that satisfy `R` hold every free block, and a block of `R`
that is in use is the last of its chain or is followed by a block of `R` in
use. -/
def ChainClosed (s : FS) (R : Nat → Prop) : Prop :=
  (∀ i, 1 ≤ i → i ≤ s.data_blocks → s.fat i = FREE_BLOCK → R i) ∧
  ∀ b, R b → s.fat b ≠ FREE_BLOCK →
    s.fat b = LAST_BLOCK ∨ (R (s.fat b) ∧ s.fat (s.fat b) ≠ FREE_BLOCK)

/-- What `create_file(path, type)` needs to succeed in `s`: the parent
directory `d` of the path resolves and is writable, and its slot (the root
has none) lies in an allocated block outside its own chain; the chain
`L1 ++ bj :: L2` of `d` is well formed (no block twice, none free or 0,
ending in `0xFFFF`) and holds an EOD slot, which does not read as a link; the
final component `nm` (1 to 31 bytes) is the name of no slot up to the EOD
slot; slot `i` of block `bj` is the first reusable slot (EOD, cleaned or
removed), and when it is the EOD slot it lies in the last block of the chain
and the slot after it in that block, if there is one, is an EOD slot too;
there is one FAT block, or the slot is not the last of its block; and the
blocks the call needs are free (one for a new directory, one more when the
EOD slot filled is the last slot of its block). -/
structure CreateReady (fuel : Nat) (s : FS) (path_str nm : List Nat) (type : Nat) (d : Entry)
    (en : Nat) (L1 L2 : List Nat) (bj i : Nat) : Prop where
  config : ValidConfig s
  parent : find_directory (fuel + 1) s (split_path path_str).dir s.errno = some (d, en)
  parent_found : d.file.name0 ≠ EOD_FLAG
  parent_writable : d.file.perm &&& WRITE_PERM ≠ 0
  name : (split_path path_str).name = some nm
  name_short : nm.length ≤ 31
  type_byte : type < 256
  chain : IsChain s.fat d.file.first_block (L1 ++ bj :: L2)
  chain_nodup : (L1 ++ bj :: L2).Nodup
  chain_used : ∀ x ∈ L1 ++ bj :: L2, x ≠ 0 ∧ s.fat x ≠ FREE_BLOCK
  chain_short : (L1 ++ bj :: L2).length ≤ fuel
  slot_lt : i < s.block_size / 64
  closed : (upto_eod (dir_slots s (L1 ++ bj :: L2))).2 = true
  name_new : ∀ x ∈ (upto_eod (dir_slots s (L1 ++ bj :: L2))).1,
    cstr x.file.name ≠ cstr nm ∧ (x.file.name0 = EOD_FLAG → x.file.type ≠ LINK_FILE)
  before_live : ∀ x ∈ dir_slots s L1 ++ slots_from s bj 0 i,
    x.file.name0 ≠ EOD_FLAG ∧ x.file.name0 ≠ CLEANED_FLAG ∧ x.file.name0 ≠ REMOVED_FLAG
  reusable : (slot s bj i).file.name0 = EOD_FLAG ∨ (slot s bj i).file.name0 = CLEANED_FLAG ∨
    (slot s bj i).file.name0 = REMOVED_FLAG
  eod_last : (slot s bj i).file.name0 = EOD_FLAG →
    L2 = [] ∧ (i + 1 < s.block_size / 64 → (slot s bj (i + 1)).file.name0 = EOD_FLAG)
  one_fat : s.fat_blocks = 1 ∨ i + 1 < s.block_size / 64
  parent_slot : 0 ≤ d.position →
    d.position.toNat / s.block_size + 1 - s.fat_blocks ∉ L1 ++ bj :: L2 ∧
    s.fat (d.position.toNat / s.block_size + 1 - s.fat_blocks) ≠ FREE_BLOCK
  free_dir : type = DIRECTORY_FILE → HasFree s
  free_next : (slot s bj i).file.name0 = EOD_FLAG → i + 1 = s.block_size / 64 →
    ∃ j, (1 ≤ j ∧ j ≤ s.data_blocks ∧ s.fat j = FREE_BLOCK) ∧
      (type = DIRECTORY_FILE →
        ∃ j2, j ≠ j2 ∧ 1 ≤ j2 ∧ j2 ≤ s.data_blocks ∧ s.fat j2 = FREE_BLOCK)

/-! ## Lookups confined to given blocks

`find_directory_in D K` is `find_directory` with no result as soon as a
directory is enumerated through a block outside `D` or the data of a link is
read from a block outside `K`: a result says that the lookup succeeds and
reads slots of blocks of `D` and link data of blocks of `K` only. -/

/-- The blocks whose slots `enum_directory` reads. -/
def enum_blocks : Nat → FS → Nat → List Nat
  | 0, _, _ => []
  | fuel + 1, s, block =>
    if (enum_block s block (s.block_size / 64) 0).2 then [block]
    else block :: enum_blocks fuel s (s.fat block)

/-- The blocks whose bytes the loop of `read_data` reads. -/
def read_blocks : Nat → FS → Nat → Nat → Nat → Nat → List Nat
  | 0, _, _, _, _, _ => []
  | fuel + 1, s, block, offset, i, size =>
    if block = LAST_BLOCK then []
    else if size - i ≤ s.block_size - offset then [block]
    else block :: read_blocks fuel s (s.fat block) 0 (i + (s.block_size - offset)) size

/-- `follow_link`, with no result when the link's target path is stored in a
block outside `K`. -/
def follow_link_in (K : List Nat)
    (ff : Option (List Nat) → Nat → Nat → Nat → Option (Entry × Nat))
    (s : FS) (skip_flag : Nat) (e : Entry) (en : Nat) : Option (Entry × Nat) :=
  if ∀ b ∈ read_blocks (e.file.size + 1) s (s.block_size * e.file.first_block / s.block_size)
      (s.block_size * e.file.first_block % s.block_size) 0 e.file.size, b ∈ K then
    follow_link ff s skip_flag e en
  else none

/-- `find_file`, with no result when a directory is enumerated through a
block outside `D` or a link's target path is stored in a block outside `K`. -/
def find_file_in (D K : List Nat) :
    Nat → FS → Option (List Nat) → Nat → Nat → Nat → Option (Entry × Nat)
  | _, _, none, _, _, en => some (root, en)
  | 0, _, some _, _, _, _ => none
  | fuel + 1, s, some name, block, skip_flag, en =>
    if ∀ b ∈ enum_blocks (fuel + 1) s block, b ∈ D then
      match enum_directory (fuel + 1) s block with
      | none => none
      | some entries =>
        find_scan (follow_link_in K (find_file_in D K fuel s) s skip_flag) name skip_flag
          entries en
    else none

/-- `find_directory` through `find_file_in`. -/
def find_directory_in (D K : List Nat) (fuel : Nat) (s : FS) (dir : List (List Nat))
    (en : Nat) : Option (Entry × Nat) :=
  find_directory_with (fun t b n => find_file_in D K fuel s (some t) b SKIP_ALL n) dir 1 en

/-! ## Concrete filesystems, built with the operations themselves -/

/-- The state an operation leaves (the fresh filesystem if it has no result). -/
def after (r : Option (Int × FS)) : FS :=
  match r with
  | some (_, s) => s
  | none => mkfs 1 0

/-- What `chmod -w` does (`f_chmod`): `get_file`, clear the write bit,
`set_file`. -/
def chmod_minus_w (s : FS) (path_str : List Nat) : FS :=
  match get_file 5 s path_str true with
  | some (f, s1) => after (set_file 5 s1 path_str { f with perm := f.perm &&& (0x7 - WRITE_PERM) } true)
  | none => s

/-- `mkfs 1 0` (one FAT block, 256-byte blocks), then `mkdir /d`. -/
def ex_d : FS := after (create_file 5 (mkfs 1 0) 0 [47, 100] DIRECTORY_FILE)

/-- Then `touch /d/f`. -/
def ex_df : FS := after (create_file 5 ex_d 0 [47, 100, 47, 102] REGULAR_FILE)

/-- Then `chmod -w /d`, and `errno` cleared. -/
def ex_ro : FS := { chmod_minus_w ex_df [47, 100] with errno := 0 }

/-- `mkfs 1 0`, then `touch /a`. -/
def ex_a : FS := after (create_file 5 (mkfs 1 0) 0 [47, 97] REGULAR_FILE)

/-- 300 bytes, more than one 256-byte block. -/
def ex_data : List Nat := (List.range 300).map (fun i => i % 251)

/-- Then the 300 bytes of `ex_data` written to `/a` (blocks 2 and 3). -/
def ex_aw : FS := after (write_file 5 ex_a 0 [47, 97] 0 ex_data 300 true)

/-- `mkdir /d; touch /d/x; touch /d/y`: the directory `/d` is block 2. -/
def ex_dxy : FS :=
  after (create_file 5 (after (create_file 5 ex_d 0 [47, 100, 47, 120] REGULAR_FILE))
    0 [47, 100, 47, 121] REGULAR_FILE)

/-- Then `/d/x` removed (not yet cleaned). -/
def ex_ls : FS := after (remove_file 5 ex_dxy 0 [47, 100, 47, 120])

/-- 512 bytes: exactly two 256-byte blocks. -/
def ex_data512 : List Nat := (List.range 512).map (fun i => i % 251)
/-- `mkfs 2 0` (two FAT blocks, 256-byte blocks of four slots), then
`touch /a; touch /b; touch /c`: three of the four slots of the root
directory's block 1, at byte 512, are used. -/
def ex_two : FS :=
  after (create_file 5 (after (create_file 5 (after (create_file 5 (mkfs 2 0) 0 [47, 97]
    REGULAR_FILE)) 0 [47, 98] REGULAR_FILE)) 0 [47, 99] REGULAR_FILE)

/-! ## Concrete kernel-side states -/

/-- The state after `mount_fs` of the fresh filesystem `mkfs 1 0` and
`init_table`: no descriptor, `cur_errno` 0, `pwd` the empty string. -/
def boot : Sys := { fs := mkfs 1 0, fd_table := [], cur_errno := 0, pwd := [] }

/-- The state a call leaves (`boot` if it has no result). -/
def after_sys (r : Option (Int × Sys)) : Sys :=
  match r with
  | some (_, u) => u
  | none => boot

/-- `f_open("/a", WRITE)`, `f_open("/b", WRITE)`, `f_open("/c", WRITE)` from
`boot`: the descriptors 3, 4 and 5. (In the states of this section every
node comes from memory whose `next` field is `NULL`.) -/
def ex_open3 : Sys :=
  after_sys (f_open 5
    (after_sys (f_open 5 (after_sys (f_open 5 boot 0 [47, 97] WRITE [])) 0 [47, 98] WRITE []))
    0 [47, 99] WRITE [])

/-- Then `f_close(4)`. -/
def ex_closed4 : Sys := (f_close ex_open3 4).2

/-- From `ex_open3`: `f_close(3)`, then `f_close(5)`; descriptor 4 is open. -/
def ex_closed35 : Sys := (f_close (f_close ex_open3 3).2 5).2

/-- `f_open("/a", WRITE)` from `boot`: `/a` exists and is empty, descriptor 3
is at position 0. -/
def ex_open_a : Sys := after_sys (f_open 5 boot 0 [47, 97] WRITE [])

/-- `mkdir /d` and `ln -s /t /l` from `boot`: a directory `/d` and a link
`/l` whose target `/t` does not exist. -/
def ex_dl : Sys :=
  ((f_mkdir 5 0 [] [[47, 100]] boot).bind
    (fun u => f_ln 5 u 0 [] [[108, 110], [45, 115], [47, 116], [47, 108]])).getD boot

/-- The kernel after `init_scheduler` and the first `p_spawn` (the shell's,
in `setup`): PID 1, priority `MED`, waiting in the `MED` run queue. -/
def ex_shell : Kernel := (p_spawn init_scheduler).2

/-- The filesystem `ex_aw` (`/a` holds 300 bytes) with `/a` opened for
reading: descriptor 3 at position 0. -/
def ex_rd : Sys := after_sys (f_open 5 { boot with fs := ex_aw } 0 [47, 97] READ [])

/-- Then 10 bytes read: descriptor 3 is at position 10. -/
def ex_rd10 : Sys :=
  match f_read 5 ex_rd 3 10 with
  | some (_, _, u) => u
  | none => boot

/-- A full disk: on the fresh filesystem (126 free blocks of 256 bytes)
`/a` is created and 32256 bytes are written to it. -/
def ex_full : Sys :=
  { boot with fs := after (write_file 5 ex_a 0 [47, 97] 0 (List.replicate 32256 7) 32256 true) }

/-- Then `/a` is opened for reading and read to its end: descriptor 3 is at
position 32256, the file's size. -/
def ex_full_eof : Sys :=
  match f_read 5 (after_sys (f_open 5 ex_full 0 [47, 97] READ [])) 3 32256 with
  | some (_, _, u) => u
  | none => boot

/-! ## Kernel states used as examples -/

/-- The state of a call that went through (`init_scheduler` when it did
not). -/
def after_k (r : Option Kernel) : Kernel := r.getD init_scheduler

/-- The kernel once `p_setup_scheduler` has run `setup` (the shell is spawned
as PID 1 and niced to -1) and the scheduler has drawn ticket 31, a `MED`
ticket: the shell is the active process. -/
def ex_boot : Kernel := after_k (scheduler [31] (p_nice ex_shell 1 (-1)).2)

/-- From `ex_boot`: the shell spawns PID 2 and nices it to 1 (`LOW`). -/
def ex_niced : Kernel := (p_nice (p_spawn ex_boot).2 2 1).2

/-- From `ex_boot`: the shell spawns PID 2, the scheduler dispatches it
(ticket 31), PID 2 spawns PID 3, and the scheduler dispatches PID 3 (ticket
31): PID 3, the child of PID 2, is the active process. -/
def ex_grandchild : Kernel :=
  after_k (scheduler [31] (p_spawn (after_k (scheduler [31] (p_spawn ex_boot).2))).2)

/-- From `ex_boot`: the shell calls `p_kill(9, 0)` for a PID that does not
exist, and the timer fires twice. -/
def ex_deferred : Kernel :=
  alarmHandler (alarmHandler (after_k ((p_kill 5 ex_boot 9 0).map (fun r => r.2))))

/-- From `ex_boot`: the shell spawns PID 2 and terminates it with
`p_kill(2, 0)`: PID 2 is a zombie child of the shell. -/
def ex_zombie : Kernel :=
  after_k ((p_kill 5 (p_spawn ex_boot).2 2 0).map (fun r => r.2))

/-- From `ex_boot`: the shell spawns PID 2, which waits in the `MED` run
queue. -/
def ex_child : Kernel := (p_spawn ex_boot).2

/-- The kernel when `p_setup_scheduler` first switches to the scheduler: the
shell, PID 1, is in the `MED` run queue and there is no active process. -/
def ex_setup : Kernel := (p_nice ex_shell 1 (-1)).2

/-- From `ex_boot`: the shell spawns PID 2 and blocks in `p_waitpid(2, _, 0)`,
the scheduler dispatches PID 2 (ticket 31), and PID 2 spawns PID 3: PID 2 is
the active process, its parent the shell waits for it in the blocked queue,
and its child PID 3 is in the `MED` run queue. -/
def ex_waited : Kernel :=
  (p_spawn (after_k (scheduler [31]
    (after_k ((p_waitpid (p_spawn ex_boot).2 2 false).map (fun r => r.2)))))).2

/-- `mkfs 1 0`, `mkdir /d`, `ln -s /d/t /l`: the link `/l` (slot 1 of the
root's block) holds the path `/d/t`, which does not exist; `/d` is block 2. -/
def ex_dlink : FS :=
  after (write_file 5 (after (create_file 5 ex_d 0 [47, 108] LINK_FILE)) 0 [47, 108] 0
    [47, 100, 47, 116, 0] 5 false)

/-- From `ex_dlink`: `create_file("/l", DIRECTORY_FILE)`, the create through
the link. -/
def ex_dlt : FS := after (create_file 5 ex_dlink 0 [47, 108] DIRECTORY_FILE)

/-- `mkfs 1 0`, `mkdir /a`, `ln -s / /a/r`, `ln -s /a/r /k`: the path `/k`
leads to the root through the directory `/a`. -/
def ex_kar : FS :=
  after (write_file 5 (after (create_file 5
    (after (write_file 5 (after (create_file 5
      (after (create_file 5 (mkfs 1 0) 0 [47, 97] DIRECTORY_FILE))
      0 [47, 97, 47, 114] LINK_FILE)) 0 [47, 97, 47, 114] 0 [47, 0] 2 false))
    0 [47, 107] LINK_FILE)) 0 [47, 107] 0 [47, 97, 47, 114, 0] 5 false)

/-! ## Concrete states: a link to itself, a file that fills its blocks -/

/-- `ln -s /a /a` from `boot`: `/a` is a link whose target is `/a`. -/
def ex_loop : Sys :=
  (f_ln 5 boot 0 [] [[108, 110], [45, 115], [47, 97], [47, 97]]).getD boot

/-- `ex_aw` with the 512 bytes of `ex_data512` written to `/a`: the size is
512, two full blocks (2 and 3). -/
def ex_a512 : FS := after (write_file 5 ex_aw 0 [47, 97] 0 ex_data512 512 true)

/-- `ln -s /n/x /l` from `boot`: the link `/l` whose target `/n/x` lies in a
directory `/n` that does not exist. -/
def ex_nl : Sys :=
  (f_ln 5 boot 0 [] [[108, 110], [45, 115], [47, 110, 47, 120], [47, 108]]).getD boot

/-- A memory of nodes that are in no queue; the node at address `a` belongs
to the PCB with PID `a`. -/
def ex_mem : Nat → QNode := fun a => { prev := none, next := none, jid := 0, PID := a }

/-- The queue `create_queue` returns, after `push_back` of the nodes 1 and 2. -/
def ex_pushed : (Nat → QNode) × Queue :=
  (((({ head := none, tail := none, len := 0 } : Queue).push_back ex_mem (some 1)).2).push_back
    (({ head := none, tail := none, len := 0 } : Queue).push_back ex_mem (some 1)).1 (some 2))

/-- A full disk with a directory: `mkfs 1 0`, `mkdir /d`, `touch /a`, then
32000 bytes written to `/a`, which take the 125 blocks that were free. -/
def ex_dfull : FS :=
  after (write_file 5 (after (create_file 5 ex_d 0 [47, 97] REGULAR_FILE)) 0 [47, 97] 0
    (List.replicate 32000 7) 32000 true)

/-! ## C10: directory resolution -/

theorem resolve_foldl_none (lookup : List Nat → Nat → Nat → Option (Entry × Nat))
    (ts : List (List Nat)) : ts.foldl (resolve_step lookup) none = none := by
  induction ts with
  | nil => rfl
  | cons t ts ih => simpa [List.foldl, resolve_step] using ih

theorem resolve_foldl_failed (lookup : List Nat → Nat → Nat → Option (Entry × Nat))
    (ts : List (List Nat)) (err : Nat) :
    ts.foldl (resolve_step lookup) (some (Resolved.failed err)) = some (Resolved.failed err) := by
  induction ts with
  | nil => rfl
  | cons t ts ih => simpa [List.foldl, resolve_step] using ih

theorem find_directory_with_cons (ff : List Nat → Nat → Nat → Option (Entry × Nat))
    (t : List Nat) (ts : List (List Nat)) (block en : Nat) :
    find_directory_with ff (t :: ts) block en =
      match ff t block en with
      | none => none
      | some (e, en1) =>
        match token_error e with
        | some err => some (eod, err)
        | none => if ts = [] then some (e, en1)
                  else find_directory_with ff ts e.file.first_block en1 := by
  rw [find_directory_with]
  cases h : ff t block en with
  | none => rfl
  | some r =>
    obtain ⟨e, en1⟩ := r
    simp only [token_error]
    by_cases h1 : e.file.name0 = EOD_FLAG
    · rw [if_pos h1, if_pos h1]
    · rw [if_neg h1, if_neg h1]
      by_cases h2 : e.file.type ≠ DIRECTORY_FILE
      · rw [if_pos h2, if_pos h2]
      · rw [if_neg h2, if_neg h2]
        by_cases h3 : e.file.perm &&& EXECUTE_PERM = 0
        · rw [if_pos h3, if_pos h3]
        · rw [if_neg h3, if_neg h3]

theorem find_directory_with_eq (ff : List Nat → Nat → Nat → Option (Entry × Nat))
    (t : List Nat) (ts : List (List Nat)) :
    ∀ (e0 : Entry) (en : Nat),
      find_directory_with ff (t :: ts) e0.file.first_block en =
        ((t :: ts).foldl (resolve_step ff) (some (Resolved.at_entry e0 en))).map
          Resolved.result := by
  induction ts generalizing t with
  | nil =>
    intro e0 en
    rw [find_directory_with_cons, List.foldl_cons, List.foldl_nil]
    simp only [resolve_step]
    cases ff t e0.file.first_block en with
    | none => rfl
    | some r =>
      obtain ⟨e, en1⟩ := r
      dsimp only
      cases h : token_error e <;> simp [Resolved.result]
  | cons u us ih =>
    intro e0 en
    rw [find_directory_with_cons, List.foldl_cons]
    simp only [resolve_step]
    cases ff t e0.file.first_block en with
    | none => simp only [resolve_foldl_none, Option.map_none']
    | some r =>
      obtain ⟨e, en1⟩ := r
      dsimp only
      cases h : token_error e with
      | some err => simp only [resolve_foldl_failed, Option.map_some', Resolved.result]
      | none =>
        simp only [reduceCtorEq, if_false]
        exact ih u e en1

/-- C10. Directory resolve errors: `find_directory` on the empty token sequence
returns the root, and on any token sequence it is the left-to-right pass of
`resolve_spec` over `find_file` at `SKIP_ALL`: it fails at the first token
whose entry is missing (`ENOENT`), else is not a directory (`ENOTDIR`), else
lacks the execute bit (`EACCES`), checked in that order, and otherwise
returns the entry of the last token. -/
theorem find_directory_resolves (fuel : Nat) (s : FS) (dir : List (List Nat)) (en : Nat) :
    find_directory fuel s [] en = some (root, en) ∧
    find_directory fuel s dir en =
      (resolve_spec (fun t b n => find_file fuel s (some t) b SKIP_ALL n) dir en).map
        Resolved.result := by
  refine ⟨rfl, ?_⟩
  cases dir with
  | nil => rfl
  | cons t ts =>
    have h := find_directory_with_eq (fun t b n => find_file fuel s (some t) b SKIP_ALL n) t ts
      root en
    simpa [find_directory, resolve_spec, root] using h

/-! ## C4: create on an existing name -/

/-- C4, counterexample. In `ex_ro` the path `/d/f` resolves to an existing
regular file, yet `create_file` fails with `EACCES`, not `EEXIST`: the
parent `/d` has no write bit, and that is checked first. -/
theorem create_file_existing_unwritable_parent :
    (get_file 5 ex_ro [47, 100, 47, 102] false).map (fun r => r.1.type) = some REGULAR_FILE ∧
    (create_file 5 ex_ro 0 [47, 100, 47, 102] REGULAR_FILE).map (fun r => (r.1, r.2.errno)) =
      some (-1, EACCES) ∧
    EACCES ≠ EEXIST := by
  decide

/-- C4, amended. Create on an existing name under a writable parent: when
the parent directory of the path exists and has the write bit, and the final
component resolves (links followed up to the last existing entry) to an
existing entry that is not a link, `create_file` returns `-1` with
`errno = EEXIST`, and nothing else of the state changes: the FAT and every
byte of the backing file (so every directory slot and the parent's size) are
as before. -/
theorem create_file_exists (fuel : Nat) (s : FS) (now : Nat) (path_str : List Nat)
    (type : Nat) (d e : Entry) (en en1 : Nat)
    (hd : find_directory (fuel + 1) s (split_path path_str).dir s.errno = some (d, en))
    (hd0 : d.file.name0 ≠ EOD_FLAG)
    (hdw : d.file.perm &&& WRITE_PERM ≠ 0)
    (he : find_file (fuel + 1) s (split_path path_str).name d.file.first_block
            SKIP_TO_LAST en = some (e, en1))
    (hel : e.file.type ≠ LINK_FILE)
    (he0 : e.file.name0 ≠ EOD_FLAG) :
    create_file (fuel + 1) s now path_str type = some (-1, { s with errno := EEXIST }) := by
  rw [create_file]
  simp only [hd, he]
  rw [if_neg hd0, if_neg hdw, if_neg hel, if_pos he0]

/-- C4, witness: `/d/f` exists in `ex_df`, where `/d` is writable. -/
theorem create_file_exists_witness :
    create_file 5 ex_df 0 [47, 100, 47, 102] REGULAR_FILE =
      some (-1, { ex_df with errno := EEXIST }) :=
  create_file_exists 4 ex_df 0 [47, 100, 47, 102] REGULAR_FILE
    { file := { name := name32 [100], size := 64, first_block := 2, type := DIRECTORY_FILE,
                perm := 7, mtime := 0 },
      position := 256 }
    { file := { name := name32 [102], size := 0, first_block := LAST_BLOCK,
                type := REGULAR_FILE, perm := 6, mtime := 0 },
      position := 512 }
    0 0 (by decide) (by decide) (by decide) (by decide) (by decide) (by decide)

/-! ## C9: write permission errors -/

/-- C9, the code at the failing input. In `ex_ro` (`errno` is 0) the
directory `/d` has no write bit and holds the regular file `/d/f`;
`write_file` on `/d/f` returns `-1` and leaves `errno` at 0: the branch for
a parent without the write bit returns without setting `EACCES`. -/
theorem write_file_unwritable_parent_errno :
    ex_ro.errno = 0 ∧
    (get_file 5 ex_ro [47, 100] false).map (fun r => r.1.perm &&& WRITE_PERM) = some 0 ∧
    (write_file 5 ex_ro 0 [47, 100, 47, 102] 0 [104] 1 true).map (fun r => (r.1, r.2.errno)) =
      some (-1, 0) := by
  decide

/-! ## Basic facts: positions, slots, chains -/

theorem enum_block_slot (s : FS) (block : Nat) :
    ∀ (n i : Nat) (e : Entry), i + n ≤ s.block_size / 64 →
      e ∈ (enum_block s block n i).1 → IsSlot s e := by
  intro n
  induction n with
  | zero => intro i e _ h; simp [enum_block] at h
  | succ n ih =>
    intro i e hin h
    rw [enum_block] at h
    split at h
    · simp only [List.mem_singleton] at h
      exact ⟨block, i, by omega, h⟩
    · simp only [List.mem_cons] at h
      rcases h with h | h
      · exact ⟨block, i, by omega, h⟩
      · exact ih _ _ (by omega) h

theorem enum_directory_slot :
    ∀ (fuel : Nat) (s : FS) (block : Nat) (es : List Entry),
      enum_directory fuel s block = some es → ∀ e ∈ es, IsSlot s e := by
  intro fuel
  induction fuel with
  | zero => intro s block es h; simp [enum_directory] at h
  | succ fuel ih =>
    intro s block es h e he
    rw [enum_directory] at h
    split at h
    · simp only [Option.some.injEq] at h
      subst h
      exact enum_block_slot s block _ _ e (by omega) he
    · cases hr : enum_directory fuel s (s.fat block) with
      | none => simp [hr] at h
      | some rest =>
        simp only [hr, Option.map_some', Option.some.injEq] at h
        subst h
        rcases List.mem_append.mp he with h1 | h1
        · exact enum_block_slot s block _ _ e (by omega) h1
        · exact ih s _ rest hr e h1

theorem find_scan_pred (P : Entry → Prop) (follow : Entry → Nat → Option (Entry × Nat))
    (name : List Nat) (skip_flag : Nat)
    (hf : ∀ e en r, follow e en = some r → P e → P r.1) :
    ∀ (es : List Entry) (en : Nat) (r : Entry × Nat),
      (∀ e ∈ es, P e) → find_scan follow name skip_flag es en = some r → P r.1 := by
  intro es
  induction es with
  | nil => intro en r _ h; simp [find_scan] at h
  | cons e rest ih =>
    intro en r hes h
    have hpe : P e := hes e (List.mem_cons_self _ _)
    rw [find_scan] at h
    split at h
    · simp only [Option.some.injEq] at h; subst h; exact hpe
    · split at h
      · simp only [Option.some.injEq] at h; subst h; exact hpe
      · split at h
        · split at h
          · exact hf e en r h hpe
          · simp only [Option.some.injEq] at h; subst h; exact hpe
        · exact ih en r (fun x hx => hes x (List.mem_cons_of_mem _ hx)) h

theorem follow_link_pred (P : Entry → Prop)
    (ff : Option (List Nat) → Nat → Nat → Nat → Option (Entry × Nat))
    (hff : ∀ name block skip en r, ff name block skip en = some r → P r.1)
    (s : FS) (skip_flag : Nat) (e : Entry) (en : Nat) (r : Entry × Nat)
    (h : follow_link ff s skip_flag e en = some r) (he : P e) : P r.1 := by
  unfold follow_link at h
  dsimp only at h
  split at h
  · simp at h
  · split at h
    · simp at h
    · rename_i d en1 _
      split at h
      · simp only [Option.some.injEq] at h; subst h; exact he
      · split at h
        · simp at h
        · rename_i e2 en2 h2
          split at h
          · simp only [Option.some.injEq] at h; subst h
            exact hff _ _ _ _ _ h2
          · simp only [Option.some.injEq] at h; subst h; exact he

/-- Whatever `find_file` returns is the root or a slot of the backing file. -/
theorem find_file_slot :
    ∀ (fuel : Nat) (s : FS) (name : Option (List Nat)) (block skip_flag en : Nat)
      (r : Entry × Nat),
      find_file fuel s name block skip_flag en = some r → r.1 = root ∨ IsSlot s r.1 := by
  intro fuel
  induction fuel with
  | zero =>
    intro s name block skip_flag en r h
    cases name with
    | none => simp only [find_file, Option.some.injEq] at h; subst h; exact Or.inl rfl
    | some n => simp [find_file] at h
  | succ fuel ih =>
    intro s name block skip_flag en r h
    cases name with
    | none => simp only [find_file, Option.some.injEq] at h; subst h; exact Or.inl rfl
    | some n =>
      rw [find_file] at h
      split at h
      · simp at h
      · rename_i es hes
        refine find_scan_pred (fun e => e = root ∨ IsSlot s e) _ n skip_flag ?_ es en r ?_ h
        · intro e en0 r0 h0 he
          exact follow_link_pred (fun e => e = root ∨ IsSlot s e) (find_file fuel s) (ih s) s
            skip_flag e en0 r0 h0 he
        · intro e he
          exact Or.inr (enum_directory_slot _ s block es hes e he)

theorem isSlot_position (s : FS) (e : Entry) (h : IsSlot s e) : 0 ≤ e.position := by
  obtain ⟨b, i, _, rfl⟩ := h
  exact Int.natCast_nonneg _

theorem isSlot_file (s : FS) (e : Entry) (h : IsSlot s e) :
    e.file = read_File s e.position.toNat := by
  obtain ⟨b, i, _, rfl⟩ := h
  simp only [slot, Int.toNat_ofNat]

theorem isChain_congr (fat fat1 : Nat → Nat) :
    ∀ (L : List Nat) (b : Nat), (∀ x ∈ L, fat1 x = fat x) → IsChain fat b L →
      IsChain fat1 b L := by
  intro L
  induction L with
  | nil => intro b _ h; exact h
  | cons x xs ih =>
    intro b hx h
    obtain ⟨h1, h2, h3⟩ := h
    refine ⟨h1, h2, ?_⟩
    have : fat1 b = fat b := by
      subst h2; exact hx _ (List.mem_cons_self _ _)
    rw [this]
    exact ih _ (fun y hy => hx y (List.mem_cons_of_mem _ hy)) h3

/-! ## Directory slots as bytes -/

theorem write_File_disk_in (s : FS) (p : Nat) (f : File) (k : Nat) (hk : k < 48) :
    (write_File s p f).disk (p + k) = f.byte k := by
  simp only [write_File]
  rw [if_pos ⟨by omega, by omega⟩]
  congr 1
  omega

theorem write_File_disk_out (s : FS) (p : Nat) (f : File) (a : Nat)
    (h : a < p ∨ p + 48 ≤ a) : (write_File s p f).disk a = s.disk a := by
  simp only [write_File]
  rw [if_neg (by omega)]

theorem read_le_congr (d1 d2 : Nat → Nat) :
    ∀ (n p : Nat), (∀ k, k < n → d1 (p + k) = d2 (p + k)) → read_le d1 p n = read_le d2 p n := by
  intro n
  induction n with
  | zero => intro p _; rfl
  | succ n ih =>
    intro p h
    simp only [read_le]
    have h0 := h 0 (by omega)
    simp only [Nat.add_zero] at h0
    rw [h0, ih (p + 1) (fun k hk => by have := h (k + 1) (by omega); rwa [Nat.add_assoc, Nat.add_comm 1 k])]

theorem read_File_congr (s s1 : FS) (p : Nat)
    (h : ∀ k, k < 48 → s1.disk (p + k) = s.disk (p + k)) : read_File s1 p = read_File s p := by
  simp only [read_File, read_bytes]
  have hn : (List.range 32).map (fun k => s1.disk (p + k)) =
      (List.range 32).map (fun k => s.disk (p + k)) := by
    apply List.map_congr_left
    intro k hk
    exact h k (by have := List.mem_range.mp hk; omega)
  have hs : read_le s1.disk (p + 32) 4 = read_le s.disk (p + 32) 4 :=
    read_le_congr _ _ 4 _ (fun k hk => by have := h (32 + k) (by omega); rwa [← Nat.add_assoc] at this)
  have hb : read_le s1.disk (p + 36) 2 = read_le s.disk (p + 36) 2 :=
    read_le_congr _ _ 2 _ (fun k hk => by have := h (36 + k) (by omega); rwa [← Nat.add_assoc] at this)
  have hm : read_le s1.disk (p + 40) 8 = read_le s.disk (p + 40) 8 :=
    read_le_congr _ _ 8 _ (fun k hk => by have := h (40 + k) (by omega); rwa [← Nat.add_assoc] at this)
  rw [hn, hs, hb, hm, h 38 (by omega), h 39 (by omega)]

theorem read_File_write_File (s : FS) (p : Nat) (f : File) :
    read_File (write_File s p f) p =
      { name := (List.range 32).map (fun k => f.name.getD k 0),
        size := f.size % 2 ^ 32,
        first_block := f.first_block % 2 ^ 16,
        type := f.type % 256,
        perm := f.perm % 256,
        mtime := f.mtime % 2 ^ 64 } := by
  have hb : ∀ k, k < 48 → (write_File s p f).disk (p + k) = f.byte k :=
    fun k hk => write_File_disk_in s p f k hk
  have hn : read_bytes (write_File s p f) p 32 = (List.range 32).map (fun k => f.name.getD k 0) := by
    simp only [read_bytes]
    apply List.map_congr_left
    intro k hk
    have hk' := List.mem_range.mp hk
    rw [hb k (by omega)]
    simp [File.byte, hk']
  have e1 : ∀ j, p + 32 + j = p + (32 + j) := fun j => by omega
  have e2 : ∀ j, p + 36 + j = p + (36 + j) := fun j => by omega
  have e3 : ∀ j, p + 40 + j = p + (40 + j) := fun j => by omega
  have hs : read_le (write_File s p f).disk (p + 32) 4 = f.size % 2 ^ 32 := by
    simp only [read_le, Nat.add_assoc]
    rw [hb 32 (by omega), hb 33 (by omega), hb 34 (by omega), hb 35 (by omega)]
    simp only [File.byte]
    norm_num
    omega
  have hfb : read_le (write_File s p f).disk (p + 36) 2 = f.first_block % 2 ^ 16 := by
    simp only [read_le, Nat.add_assoc]
    rw [hb 36 (by omega), hb 37 (by omega)]
    simp only [File.byte]
    norm_num
    omega
  have hm : read_le (write_File s p f).disk (p + 40) 8 = f.mtime % 2 ^ 64 := by
    simp only [read_le, Nat.add_assoc]
    rw [hb 40 (by omega), hb 41 (by omega), hb 42 (by omega), hb 43 (by omega),
      hb 44 (by omega), hb 45 (by omega), hb 46 (by omega), hb 47 (by omega)]
    simp only [File.byte]
    norm_num
    omega
  have ht : (write_File s p f).disk (p + 38) = f.type % 256 := by
    rw [hb 38 (by omega)]; simp [File.byte]
  have hp : (write_File s p f).disk (p + 39) = f.perm % 256 := by
    rw [hb 39 (by omega)]; simp [File.byte]
  simp only [read_File]
  rw [hn, hs, hfb, hm, ht, hp]

/-! ## C2: truncate -/

theorem truncate_data_chain :
    ∀ (L : List Nat) (fuel : Nat) (s : FS) (b : Nat),
      IsChain s.fat b L → L.Nodup → L.length < fuel →
      truncate_data fuel s b =
        some { s with fat := fun x => if x ∈ L then FREE_BLOCK else s.fat x } := by
  intro L
  induction L with
  | nil =>
    intro fuel s b h _ hf
    cases fuel with
    | zero => simp at hf
    | succ fuel =>
      have hb : b = LAST_BLOCK := h
      rw [truncate_data, if_pos hb]
      simp
  | cons x xs ih =>
    intro fuel s b h hnd hf
    cases fuel with
    | zero => simp at hf
    | succ fuel =>
      obtain ⟨h1, h2, h3⟩ := h
      subst h2
      have hx : x ∉ xs := (List.nodup_cons.mp hnd).1
      rw [truncate_data, if_neg h1]
      have hc : IsChain (fun y => if y = x then FREE_BLOCK else s.fat y) (s.fat x) xs := by
        apply isChain_congr s.fat _ xs _ _ h3
        intro y hy
        have : y ≠ x := fun e => hx (e ▸ hy)
        simp [this]
      rw [ih fuel { s with fat := fun y => if y = x then FREE_BLOCK else s.fat y } (s.fat x) hc
        (List.nodup_cons.mp hnd).2 (by simp at hf; omega)]
      congr 2
      funext y
      by_cases hy : y = x
      · simp [hy]
      · by_cases hy2 : y ∈ xs
        · simp [hy2]
        · simp [hy, hy2]

/-- C2. Truncate postcondition: when the path's parent directory resolves and
has the write bit, and the path's entry `e` (found with or without following
links, as `skip_flag` says) exists, has the write bit, is a regular file or a
link, and its chain `L` is well formed (acyclic, ending in `0xFFFF`), then
`truncate_file` returns `0` and afterwards the entry's slot holds `size = 0`
and `first_block = 0xFFFF`, every FAT entry that was on the chain is `0x0000`
and every other FAT entry is unchanged. -/
theorem truncate_file_post (fuel : Nat) (s : FS) (path_str : List Nat) (skip_flag : Bool)
    (d e : Entry) (en en1 : Nat) (L : List Nat)
    (hd : find_directory fuel s (split_path path_str).dir s.errno = some (d, en))
    (hd0 : d.file.name0 ≠ EOD_FLAG)
    (hdw : d.file.perm &&& WRITE_PERM ≠ 0)
    (he : find_file fuel s (split_path path_str).name d.file.first_block
            (if skip_flag then SKIP_ALL else SKIP_NONE) en = some (e, en1))
    (he0 : e.file.name0 ≠ EOD_FLAG)
    (hew : e.file.perm &&& WRITE_PERM ≠ 0)
    (hty : e.file.type = REGULAR_FILE ∨ e.file.type = LINK_FILE)
    (hchain : IsChain s.fat e.file.first_block L)
    (hnodup : L.Nodup)
    (hfuel : L.length < fuel) :
    ∃ s1, truncate_file fuel s path_str skip_flag = some (0, s1) ∧
      (read_File s1 e.position.toNat).size = 0 ∧
      (read_File s1 e.position.toNat).first_block = LAST_BLOCK ∧
      (∀ b ∈ L, s1.fat b = FREE_BLOCK) ∧
      (∀ b, b ∉ L → s1.fat b = s.fat b) := by
  have hpos : 0 ≤ e.position := by
    rcases find_file_slot _ _ _ _ _ _ _ he with h | h
    · have h' : e = root := h
      rw [h'] at hty
      simp [root] at hty
    · exact isSlot_position s e h
  have hnd : e.file.type ≠ DIRECTORY_FILE := by
    rcases hty with h | h <;> rw [h] <;> decide
  have htr := truncate_data_chain L fuel { s with errno := en1 } e.file.first_block hchain
    hnodup hfuel
  refine ⟨write_File { s with errno := en1, fat := fun x => if x ∈ L then FREE_BLOCK else s.fat x }
      e.position.toNat { e.file with size := 0, first_block := LAST_BLOCK }, ?_, ?_, ?_, ?_, ?_⟩
  · unfold truncate_file
    simp only [hd, he]
    rw [if_neg hd0, if_neg hdw, if_neg he0, if_neg hew, if_neg hnd]
    simp only [htr]
    rw [if_neg (by omega)]
  · rw [read_File_write_File]; rfl
  · rw [read_File_write_File]; rfl
  · intro b hb
    simp [write_File, hb]
  · intro b hb
    simp [write_File, hb]

/-- C2, witness: `/a` in `ex_aw` holds 300 bytes in the chain 2, 3. -/
theorem truncate_file_post_witness :
    ∃ s1, truncate_file 5 ex_aw [47, 97] true = some (0, s1) ∧
      (read_File s1 (256 : Int).toNat).size = 0 ∧
      (read_File s1 (256 : Int).toNat).first_block = LAST_BLOCK ∧
      (∀ b ∈ [2, 3], s1.fat b = FREE_BLOCK) ∧
      (∀ b, b ∉ [2, 3] → s1.fat b = ex_aw.fat b) :=
  truncate_file_post 5 ex_aw [47, 97] true root
    { file := { name := name32 [97], size := 300, first_block := 2, type := REGULAR_FILE,
                perm := 6, mtime := 0 },
      position := 256 }
    ex_aw.errno ex_aw.errno [2, 3]
    (by decide) (by decide) (by decide) (by decide) (by decide) (by decide) (by decide)
    (by decide) (by decide) (by decide)

/-! ## C7: listing a directory -/

theorem enum_block_eq (s : FS) (block : Nat) :
    ∀ (n i : Nat), enum_block s block n i = upto_eod (slots_from s block i n) := by
  intro n
  induction n with
  | zero => intro i; rfl
  | succ n ih =>
    intro i
    rw [enum_block]
    simp only [slots_from, List.range'_succ, List.map_cons, upto_eod]
    have := ih (i + 1)
    simp only [slots_from] at this
    rw [this]
    rfl

theorem upto_eod_append (A B : List Entry) :
    upto_eod (A ++ B) =
      if (upto_eod A).2 then upto_eod A
      else ((upto_eod A).1 ++ (upto_eod B).1, (upto_eod B).2) := by
  induction A with
  | nil => simp [upto_eod]
  | cons a A ih =>
    rw [List.cons_append, upto_eod, upto_eod]
    by_cases h : a.file.name0 = EOD_FLAG
    · simp [h]
    · rw [if_neg h, if_neg h, ih]
      by_cases h2 : (upto_eod A).2 = true
      · simp [h2]
      · simp [h2]

theorem upto_eod_false (A : List Entry) (h : (upto_eod A).2 = false) : (upto_eod A).1 = A := by
  induction A with
  | nil => rfl
  | cons a A ih =>
    simp only [upto_eod] at h ⊢
    by_cases h1 : a.file.name0 = EOD_FLAG
    · simp [h1] at h
    · simp only [h1, if_false] at h ⊢
      rw [ih h]

theorem upto_eod_split (pre : List Entry) (e : Entry) (rest : List Entry)
    (hpre : ∀ x ∈ pre, x.file.name0 ≠ EOD_FLAG) (he : e.file.name0 = EOD_FLAG) :
    upto_eod (pre ++ e :: rest) = (pre ++ [e], true) := by
  induction pre with
  | nil => simp [upto_eod, he]
  | cons a pre ih =>
    have ha := hpre a (List.mem_cons_self _ _)
    rw [List.cons_append, upto_eod, if_neg ha,
      ih (fun x hx => hpre x (List.mem_cons_of_mem _ hx))]
    rfl

theorem enum_directory_eq :
    ∀ (k fuel : Nat) (s : FS) (b : Nat), k ≤ fuel →
      (upto_eod (dir_slots s (chain_blocks s.fat k b))).2 = true →
      enum_directory fuel s b = some (upto_eod (dir_slots s (chain_blocks s.fat k b))).1 := by
  intro k
  induction k with
  | zero => intro fuel s b _ h; simp [chain_blocks, dir_slots, upto_eod] at h
  | succ k ih =>
    intro fuel s b hk h
    cases fuel with
    | zero => omega
    | succ fuel =>
      rw [enum_directory]
      simp only [enum_block_eq]
      simp only [chain_blocks, dir_slots] at h ⊢
      rw [upto_eod_append] at h ⊢
      by_cases h1 : (upto_eod (slots_from s b 0 (s.block_size / 64))).2 = true
      · simp only [h1, if_true]
      · simp only [h1] at h ⊢
        simp only [Bool.false_eq_true, if_false] at h ⊢
        rw [ih fuel s (s.fat b) (by omega) h]
        simp only [Option.map_some']

theorem list_copy_eq (pre : List Entry) (e : Entry)
    (hpre : ∀ x ∈ pre, x.file.name0 ≠ EOD_FLAG) (he : e.file.name0 = EOD_FLAG) :
    list_copy (pre ++ [e]) =
      some (((pre.filter live).map (fun x => x.file)) ++ [e.file]) := by
  induction pre with
  | nil => simp [list_copy, he]
  | cons a pre ih =>
    have ha := hpre a (List.mem_cons_self _ _)
    have ih' := ih (fun x hx => hpre x (List.mem_cons_of_mem _ hx))
    simp only [List.cons_append, list_copy, if_neg ha]
    by_cases hl : live a = true
    · simp [hl, ih']
    · simp [hl, ih']

/-- C7. List: when the path resolves to a directory `e` (the parent `d`
itself for the empty path; otherwise an existing directory with the read
bit, found following links) whose slots, taken block after block along its
chain (`k` blocks), are `pre ++ eodslot :: rest` with `eodslot` the first
end-of-directory slot, `list_directory` returns exactly the slots of `pre`
whose `name[0]` is none of `0x00`, `0x01`, `0x02`, in slot order, followed by
the one EOD entry; removed and cleaned entries do not appear. -/
theorem list_directory_lists (fuel : Nat) (s : FS) (path_str : List Nat)
    (d e : Entry) (en en1 k : Nat) (pre rest : List Entry) (eodslot : Entry)
    (hd : find_directory fuel s (split_path path_str).dir s.errno = some (d, en))
    (hd0 : d.file.name0 ≠ EOD_FLAG)
    (he : (match (split_path path_str).name with
           | none => some (d, en)
           | some name => find_file fuel s (some name) d.file.first_block SKIP_ALL en) =
          some (e, en1))
    (hok : (split_path path_str).name ≠ none →
      e.file.name0 ≠ EOD_FLAG ∧ e.file.type = DIRECTORY_FILE ∧ e.file.perm &&& READ_PERM ≠ 0)
    (hk : k ≤ fuel)
    (hslots : dir_slots s (chain_blocks s.fat k e.file.first_block) = pre ++ eodslot :: rest)
    (hpre : ∀ x ∈ pre, x.file.name0 ≠ EOD_FLAG)
    (heod : eodslot.file.name0 = EOD_FLAG) :
    list_directory fuel s path_str =
      some (some (((pre.filter live).map (fun x => x.file)) ++ [eodslot.file]),
            { s with errno := en1 }) ∧
    ∀ f ∈ (pre.filter live).map (fun x => x.file),
      f.name0 ≠ EOD_FLAG ∧ f.name0 ≠ CLEANED_FLAG ∧ f.name0 ≠ REMOVED_FLAG := by
  have hu := upto_eod_split pre eodslot rest hpre heod
  rw [← hslots] at hu
  have hen := enum_directory_eq k fuel s e.file.first_block hk (by rw [hu])
  rw [hu] at hen
  constructor
  · unfold list_directory
    simp only [hd]
    rw [if_neg hd0]
    simp only [he]
    by_cases hn : (split_path path_str).name = none
    · simp only [hn, ne_eq, not_true_eq_false, false_and, if_false]
      rw [hen]
      simp only [list_copy_eq pre eodslot hpre heod, Option.map_some']
    · obtain ⟨h1, h2, h3⟩ := hok hn
      rw [if_neg (by simp [h1]), if_neg (by simp [h2]), if_neg (by simp [h3])]
      rw [hen]
      simp only [list_copy_eq pre eodslot hpre heod, Option.map_some']
  · intro f hf
    obtain ⟨x, hx, rfl⟩ := List.mem_map.mp hf
    have hl := (List.mem_filter.mp hx).2
    simpa [live] using hl

/-- C7, witness: `/d` in `ex_ls` holds the removed `x`, then `y`, then the
EOD slot; the listing is `y` and the EOD entry. -/
theorem list_directory_lists_witness :
    list_directory 5 ex_ls [47, 100] =
      some (some ((([slot ex_ls 2 0, slot ex_ls 2 1].filter live).map (fun x => x.file)) ++
              [(slot ex_ls 2 2).file]),
            { ex_ls with errno := ex_ls.errno }) ∧
    ∀ f ∈ ([slot ex_ls 2 0, slot ex_ls 2 1].filter live).map (fun x => x.file),
      f.name0 ≠ EOD_FLAG ∧ f.name0 ≠ CLEANED_FLAG ∧ f.name0 ≠ REMOVED_FLAG :=
  list_directory_lists 5 ex_ls [47, 100] root (slot ex_ls 1 0) ex_ls.errno ex_ls.errno 1
    [slot ex_ls 2 0, slot ex_ls 2 1] [slot ex_ls 2 3] (slot ex_ls 2 2)
    (by decide) (by decide) (by decide) (by decide) (by decide) (by decide) (by decide)
    (by decide)

/-! ## C8: the length `read_file` returns -/

theorem isChain_length_pos (fat : Nat → Nat) (b : Nat) (L : List Nat)
    (h : IsChain fat b L) (hL : 0 < L.length) : b ≠ LAST_BLOCK := by
  cases L with
  | nil => simp at hL
  | cons x xs => exact h.1

theorem seek_loop_chain :
    ∀ (L : List Nat) (fuel : Nat) (s : FS) (b off : Nat),
      0 < s.block_size → IsChain s.fat b L →
      (off < s.block_size ∨ off < L.length * s.block_size) → off / s.block_size < fuel →
      ∃ blk, seek_loop fuel s b off = (((blk * s.block_size + off % s.block_size : Nat) : Int), s) ∧
        IsChain s.fat blk (L.drop (off / s.block_size)) := by
  intro L
  induction L with
  | nil =>
    intro fuel s b off hbs hc hoff hf
    have h1 : off < s.block_size := by
      rcases hoff with h | h
      · exact h
      · simp at h
    cases fuel with
    | zero => exact absurd hf (Nat.not_lt_zero _)
    | succ fuel =>
      refine ⟨b, ?_, ?_⟩
      · rw [seek_loop, if_pos h1, Nat.mod_eq_of_lt h1]
      · simpa using hc
  | cons x xs ih =>
    intro fuel s b off hbs hc hoff hf
    obtain ⟨hb, hx, hrest⟩ := hc
    cases fuel with
    | zero => exact absurd hf (Nat.not_lt_zero _)
    | succ fuel =>
      by_cases h1 : off < s.block_size
      · refine ⟨b, ?_, ?_⟩
        · rw [seek_loop, if_pos h1, Nat.mod_eq_of_lt h1]
        · rw [Nat.div_eq_of_lt h1]
          exact ⟨hb, hx, hrest⟩
      · have h2 : off < (xs.length + 1) * s.block_size := by
          rcases hoff with h | h
          · exact absurd h h1
          · simpa using h
        have h3 : (xs.length + 1) * s.block_size = xs.length * s.block_size + s.block_size := by
          ring
        have h4 : off - s.block_size < xs.length * s.block_size := by omega
        have hxl : 0 < xs.length := by
          rcases Nat.eq_zero_or_pos xs.length with h | h
          · rw [h] at h4; simp at h4
          · exact h
        have hnl : s.fat b ≠ LAST_BLOCK := isChain_length_pos s.fat _ xs hrest hxl
        have hdiv : off / s.block_size = (off - s.block_size) / s.block_size + 1 := by
          have h5 : off = (off - s.block_size) + s.block_size := by omega
          conv_lhs => rw [h5]
          rw [Nat.add_div_right _ hbs]
        have hmod : off % s.block_size = (off - s.block_size) % s.block_size := by
          have h5 : off = (off - s.block_size) + s.block_size := by omega
          conv_lhs => rw [h5]
          rw [Nat.add_mod_right]
        obtain ⟨blk, e1, e2⟩ := ih fuel s (s.fat b) (off - s.block_size) hbs hrest (Or.inr h4)
          (by omega)
        refine ⟨blk, ?_, ?_⟩
        · rw [seek_loop, if_neg h1, if_neg hnl, e1, hmod]
        · rw [hdiv]
          simpa using e2

theorem read_bytes_length (s : FS) (p n : Nat) : (read_bytes s p n).length = n := by
  simp [read_bytes]

theorem read_loop_chain :
    ∀ (M : List Nat) (fuel : Nat) (s : FS) (blk o i size : Nat),
      IsChain s.fat blk M → o < s.block_size → i ≤ size → size - i < fuel →
      (read_loop fuel s blk o i size).1 = i + min (size - i) (M.length * s.block_size - o) ∧
      (read_loop fuel s blk o i size).2.length = min (size - i) (M.length * s.block_size - o) := by
  intro M
  induction M with
  | nil =>
    intro fuel s blk o i size hc ho hi hf
    have hb : blk = LAST_BLOCK := hc
    cases fuel with
    | zero => omega
    | succ fuel =>
      rw [read_loop, if_pos hb]
      simp
  | cons x xs ih =>
    intro fuel s blk o i size hc ho hi hf
    obtain ⟨hb, hx, hrest⟩ := hc
    have h3 : (xs.length + 1) * s.block_size = xs.length * s.block_size + s.block_size := by
      ring
    cases fuel with
    | zero => omega
    | succ fuel =>
      rw [read_loop, if_neg hb]
      by_cases h1 : size - i ≤ s.block_size - o
      · rw [if_pos h1]
        simp only [read_bytes_length, List.length_cons]
        rw [h3]
        omega
      · rw [if_neg h1]
        obtain ⟨e1, e2⟩ := ih fuel s (s.fat blk) 0 (i + (s.block_size - o)) size hrest
          (by omega) (by omega) (by omega)
        simp only [e1, e2, List.length_append, read_bytes_length, List.length_cons]
        rw [h3]
        omega

/-- C8, counterexample. `/a` in `ex_aw` is a readable regular file of size
300 (two 256-byte blocks); `read_file` at offset 0 with `n = 400` returns
400, more than the `min(400, 300 - 0) = 300` the claim gives. -/
theorem read_file_returns_past_size :
    (get_file 5 ex_aw [47, 97] true).map (fun r => (r.1.type, r.1.size, r.1.perm &&& READ_PERM)) =
      some (REGULAR_FILE, 300, READ_PERM) ∧
    (read_file 5 ex_aw [47, 97] 0 400).map (fun r => r.1) = some 400 ∧
    (400 : Int) ≠ ((min 400 (300 - 0) : Nat) : Int) := by
  decide

/-- C8, amended. Read length: for a readable regular file whose chain `L`
is well formed, and an offset that is 0 or lies inside the chain's blocks
(`offset < L.length * block_size`), `read_file(path, offset, buf, n)` leaves
the filesystem unchanged and returns `min(n, L.length * block_size - offset)`,
which is also the number of bytes put in `buf`: the count is bounded by the
byte capacity of the chain past `offset`, the file's `size` is not consulted.
(So it returns `n` whenever `n <= size - offset`, which is how `f_read`
calls it.) -/
theorem read_file_length (fuel : Nat) (s : FS) (path_str : List Nat) (offset n : Nat)
    (d e : Entry) (en en1 : Nat) (L : List Nat)
    (hbs : 0 < s.block_size)
    (hd : find_directory fuel s (split_path path_str).dir s.errno = some (d, en))
    (hd0 : d.file.name0 ≠ EOD_FLAG)
    (he : find_file fuel s (split_path path_str).name d.file.first_block SKIP_ALL en =
            some (e, en1))
    (he0 : e.file.name0 ≠ EOD_FLAG)
    (hty : e.file.type = REGULAR_FILE)
    (her : e.file.perm &&& READ_PERM ≠ 0)
    (hchain : IsChain s.fat e.file.first_block L)
    (hoff : offset = 0 ∨ offset < L.length * s.block_size) :
    ∃ bytes, read_file fuel s path_str offset n =
        some (((min n (L.length * s.block_size - offset) : Nat) : Int), bytes,
              { s with errno := en1 }) ∧
      bytes.length = min n (L.length * s.block_size - offset) ∧
      (n ≤ e.file.size - offset → e.file.size ≤ L.length * s.block_size →
        min n (L.length * s.block_size - offset) = min n (e.file.size - offset)) := by
  have hnd : e.file.type ≠ DIRECTORY_FILE := by rw [hty]; decide
  have hpm : (s.block_size * e.file.first_block) % s.block_size = 0 := Nat.mul_mod_right _ _
  have hpd : (s.block_size * e.file.first_block) / s.block_size = e.file.first_block :=
    Nat.mul_div_cancel_left _ hbs
  have hoff' : offset < s.block_size ∨ offset < L.length * s.block_size := by
    rcases hoff with h | h
    · exact Or.inl (by omega)
    · exact Or.inr h
  obtain ⟨blk, e1, e2⟩ := seek_loop_chain L (offset + 1) { s with errno := en1 }
    e.file.first_block offset hbs hchain hoff'
    (Nat.lt_succ_of_le (Nat.div_le_self _ _))
  have hseek : seek_data { s with errno := en1 } (s.block_size * e.file.first_block) offset =
      (((blk * s.block_size + offset % s.block_size : Nat) : Int), { s with errno := en1 }) := by
    unfold seek_data
    simp only [hpm, hpd, Nat.add_zero]
    exact e1
  have hm : offset % s.block_size < s.block_size := Nat.mod_lt _ hbs
  have hblk : (blk * s.block_size + offset % s.block_size) / s.block_size = blk := by
    rw [Nat.add_comm, Nat.add_mul_div_right _ _ hbs, Nat.div_eq_of_lt hm, Nat.zero_add]
  have hblm : (blk * s.block_size + offset % s.block_size) % s.block_size =
      offset % s.block_size := by
    rw [Nat.add_comm, Nat.add_mul_mod_self_right, Nat.mod_mod]
  obtain ⟨r1, r2⟩ := read_loop_chain (L.drop (offset / s.block_size)) (n + 1)
    { s with errno := en1 } blk (offset % s.block_size) 0 n e2 hm (Nat.zero_le _) (by omega)
  have hcap : (L.drop (offset / s.block_size)).length * s.block_size - offset % s.block_size =
      L.length * s.block_size - offset := by
    rw [List.length_drop, Nat.sub_mul]
    have hdm := Nat.div_add_mod offset s.block_size
    have hmc : s.block_size * (offset / s.block_size) = offset / s.block_size * s.block_size :=
      Nat.mul_comm _ _
    omega
  simp only [Nat.sub_zero, Nat.zero_add, hcap] at r1 r2
  refine ⟨(read_data { s with errno := en1 }
      (blk * s.block_size + offset % s.block_size) n).2, ?_, ?_, ?_⟩
  · unfold read_file
    simp only [hd, he]
    rw [if_neg hd0, if_neg he0, if_neg hnd, if_neg her]
    simp only [hseek]
    rw [if_neg (by omega)]
    simp only [Int.toNat_ofNat]
    unfold read_data
    simp only [hblk, hblm]
    rw [r1]
  · unfold read_data
    simp only [hblk, hblm]
    exact r2
  · intro h1 h2
    omega

/-- C8, witness: `/a` in `ex_aw` (size 300, chain 2, 3 of 256-byte blocks)
read at offset 10 with `n = 1000` gives `min(1000, 512 - 10) = 502`. -/
theorem read_file_length_witness :
    ∃ bytes, read_file 5 ex_aw [47, 97] 10 1000 =
        some (((min 1000 ([2, 3].length * ex_aw.block_size - 10) : Nat) : Int), bytes,
              { ex_aw with errno := ex_aw.errno }) ∧
      bytes.length = min 1000 ([2, 3].length * ex_aw.block_size - 10) ∧
      (1000 ≤ 300 - 10 → 300 ≤ [2, 3].length * ex_aw.block_size →
        min 1000 ([2, 3].length * ex_aw.block_size - 10) = min 1000 (300 - 10)) :=
  read_file_length 5 ex_aw [47, 97] 10 1000 root
    { file := { name := name32 [97], size := 300, first_block := 2, type := REGULAR_FILE,
                perm := 6, mtime := 0 },
      position := 256 }
    ex_aw.errno ex_aw.errno [2, 3]
    (by decide) (by decide) (by decide) (by decide) (by decide) (by decide) (by decide)
    (by decide) (by decide)

/-! ## Slots under writes -/

theorem slot_end_le (bs i : Nat) (hi : i < bs / 64) : 64 * i + 64 ≤ bs := by
  have h1 : (i + 1) * 64 ≤ bs / 64 * 64 := Nat.mul_le_mul_right 64 hi
  have h2 : bs / 64 * 64 ≤ bs := Nat.div_mul_le_self bs 64
  omega

theorem slot_pos_cases (s : FS) (b i b1 i1 : Nat)
    (hi : i < s.block_size / 64) (hi1 : i1 < s.block_size / 64) :
    phys s b + 64 * i = phys s b1 + 64 * i1 ∨
    phys s b + 64 * i + 64 ≤ phys s b1 + 64 * i1 ∨
    phys s b1 + 64 * i1 + 64 ≤ phys s b + 64 * i := by
  have e1 := slot_end_le s.block_size i hi
  have e2 := slot_end_le s.block_size i1 hi1
  simp only [phys]
  rcases Nat.lt_trichotomy (b + s.fat_blocks - 1) (b1 + s.fat_blocks - 1) with h | h | h
  · have h3 : (b + s.fat_blocks - 1 + 1) * s.block_size ≤ (b1 + s.fat_blocks - 1) * s.block_size :=
      Nat.mul_le_mul_right _ h
    rw [Nat.add_mul, Nat.one_mul] at h3
    omega
  · rw [h]
    omega
  · have h3 : (b1 + s.fat_blocks - 1 + 1) * s.block_size ≤ (b + s.fat_blocks - 1) * s.block_size :=
      Nat.mul_le_mul_right _ h
    rw [Nat.add_mul, Nat.one_mul] at h3
    omega

/-- Two slots of the backing file are the same slot or 64 bytes apart. -/
theorem isSlot_apart (s : FS) (x y : Entry) (hx : IsSlot s x) (hy : IsSlot s y) :
    x = y ∨ x.position.toNat + 64 ≤ y.position.toNat ∨
      y.position.toNat + 64 ≤ x.position.toNat := by
  obtain ⟨b, i, hi, rfl⟩ := hx
  obtain ⟨b1, i1, hi1, rfl⟩ := hy
  simp only [slot, Int.toNat_ofNat]
  rcases slot_pos_cases s b i b1 i1 hi hi1 with h | h | h
  · left; rw [h]
  · right; left; exact h
  · right; right; exact h

theorem slot_write_File (s : FS) (p : Nat) (f : File) (b i : Nat)
    (h : phys s b + 64 * i = p ∨ phys s b + 64 * i + 64 ≤ p ∨ p + 64 ≤ phys s b + 64 * i) :
    slot (write_File s p f) b i =
      if phys s b + 64 * i = p then { file := f.stored, position := (p : Nat) }
      else slot s b i := by
  have hp : phys (write_File s p f) b = phys s b := rfl
  by_cases hq : phys s b + 64 * i = p
  · rw [if_pos hq]
    simp only [slot, hp, hq]
    rw [read_File_write_File]
    rfl
  · rw [if_neg hq]
    simp only [slot, hp]
    rw [read_File_congr]
    intro k hk
    apply write_File_disk_out
    omega

theorem stored_name (l : List Nat) (h : l.length = 32) :
    (List.range 32).map (fun k => l.getD k 0) = l := by
  apply List.ext_getElem
  · simp [h]
  · intro n h1 h2
    simp [List.getD_eq_getElem, h2]

theorem read_File_name_length (s : FS) (p : Nat) : (read_File s p).name.length = 32 := by
  simp [read_File, read_bytes]

theorem isSlot_name_length (s : FS) (e : Entry) (h : IsSlot s e) : e.file.name.length = 32 := by
  rw [isSlot_file s e h]
  exact read_File_name_length _ _

theorem cstr_headD (l : List Nat) : (cstr l).headD 0 = l.headD 0 := by
  cases l with
  | nil => rfl
  | cons c t =>
    by_cases hc : c = 0
    · simp [cstr, List.takeWhile, hc]
    · simp [cstr, List.takeWhile, hc]

theorem dir_slots_map (s s1 : FS) (upd : Entry → Entry)
    (hbs : s1.block_size = s.block_size)
    (h : ∀ b i, i < s.block_size / 64 → slot s1 b i = upd (slot s b i)) :
    ∀ (L : List Nat), dir_slots s1 L = (dir_slots s L).map upd := by
  intro L
  induction L with
  | nil => rfl
  | cons b rest ih =>
    simp only [dir_slots, List.map_append, ih, hbs]
    congr 1
    simp only [slots_from, List.map_map]
    apply List.map_congr_left
    intro i hi
    have := (List.mem_range'_1.mp hi).2
    exact h b i (by omega)

theorem upto_eod_map (upd : Entry → Entry) :
    ∀ (S : List Entry),
      (∀ x ∈ S, ((upd x).file.name0 = EOD_FLAG ↔ x.file.name0 = EOD_FLAG)) →
      upto_eod (S.map upd) = ((upto_eod S).1.map upd, (upto_eod S).2) := by
  intro S
  induction S with
  | nil => intro _; rfl
  | cons x S ih =>
    intro h
    have hx0 := h x (List.mem_cons_self _ _)
    rw [List.map_cons, upto_eod, upto_eod]
    by_cases hx : x.file.name0 = EOD_FLAG
    · rw [if_pos hx, if_pos (hx0.mpr hx)]
      rfl
    · rw [if_neg hx, if_neg (fun hh => hx (hx0.mp hh)),
        ih (fun y hy => h y (List.mem_cons_of_mem _ hy))]
      rfl

theorem enum_directory_some :
    ∀ (fuel : Nat) (s : FS) (b : Nat) (es : List Entry),
      enum_directory fuel s b = some es →
      upto_eod (dir_slots s (chain_blocks s.fat fuel b)) = (es, true) := by
  intro fuel
  induction fuel with
  | zero => intro s b es h; simp [enum_directory] at h
  | succ fuel ih =>
    intro s b es h
    rw [enum_directory] at h
    simp only [enum_block_eq] at h
    simp only [chain_blocks, dir_slots]
    rw [upto_eod_append]
    by_cases h1 : (upto_eod (slots_from s b 0 (s.block_size / 64))).2 = true
    · simp only [h1, if_true] at h ⊢
      simp only [Option.some.injEq] at h
      rw [← h, ← h1]
    · simp only [h1] at h ⊢
      simp only [Bool.false_eq_true, if_false] at h ⊢
      cases hr : enum_directory fuel s (s.fat b) with
      | none => simp [hr] at h
      | some rest =>
        simp only [hr, Option.map_some', Option.some.injEq] at h
        rw [ih s _ rest hr]
        simp only [← h]

theorem chain_blocks_congr (fat fat1 : Nat → Nat) :
    ∀ (k b : Nat), (∀ x ∈ chain_blocks fat k b, fat1 x = fat x) →
      chain_blocks fat1 k b = chain_blocks fat k b := by
  intro k
  induction k with
  | zero => intro b _; rfl
  | succ k ih =>
    intro b h
    simp only [chain_blocks] at h ⊢
    rw [h b (List.mem_cons_self _ _)]
    rw [ih (fat b) (fun x hx => h x (List.mem_cons_of_mem _ hx))]

/-- A lookup by a non-empty name that no slot before the EOD slot matches
ends at the EOD slot. -/
theorem find_scan_no_match (follow : Entry → Nat → Option (Entry × Nat)) (name : List Nat)
    (skip_flag : Nat) (hname : name.headD 0 ≠ EOD_FLAG) :
    ∀ (es : List Entry) (en : Nat),
      (∀ x ∈ es, cstr x.file.name ≠ cstr name) →
      (∃ x ∈ es, x.file.name0 = EOD_FLAG) →
      ∃ z, find_scan follow name skip_flag es en = some (z, en) ∧ z.file.name0 = EOD_FLAG := by
  intro es
  induction es with
  | nil => intro en _ h; simp at h
  | cons e rest ih =>
    intro en hno hex
    rw [find_scan]
    by_cases h0 : e.file.name0 = EOD_FLAG
    · rw [if_pos h0]
      exact ⟨e, rfl, h0⟩
    · rw [if_neg h0, if_neg (fun hh => hname hh.1),
        if_neg (fun hh => hno e (List.mem_cons_self _ _) hh.2)]
      apply ih en (fun x hx => hno x (List.mem_cons_of_mem _ hx))
      obtain ⟨x, hx, hx0⟩ := hex
      rcases List.mem_cons.mp hx with h | h
      · rw [h] at hx0; exact absurd hx0 h0
      · exact ⟨x, h, hx0⟩

theorem upto_eod_has_eod (S es : List Entry) (h : upto_eod S = (es, true)) :
    ∃ x ∈ es, x.file.name0 = EOD_FLAG := by
  induction S generalizing es with
  | nil => simp [upto_eod] at h
  | cons a S ih =>
    rw [upto_eod] at h
    by_cases ha : a.file.name0 = EOD_FLAG
    · rw [if_pos ha] at h
      simp only [Prod.mk.injEq, and_true] at h
      exact ⟨a, by rw [← h]; simp, ha⟩
    · rw [if_neg ha] at h
      simp only [Prod.mk.injEq] at h
      obtain ⟨x, hx, hx0⟩ := ih (upto_eod S).1 (by rw [← h.2])
      exact ⟨x, by rw [← h.1]; exact List.mem_cons_of_mem _ hx, hx0⟩

theorem dir_slots_isSlot (s : FS) :
    ∀ (L : List Nat) (x : Entry), x ∈ dir_slots s L → IsSlot s x := by
  intro L
  induction L with
  | nil => intro x h; simp [dir_slots] at h
  | cons b rest ih =>
    intro x h
    simp only [dir_slots, List.mem_append] at h
    rcases h with h | h
    · simp only [slots_from, List.mem_map] at h
      obtain ⟨i, hi, rfl⟩ := h
      have := (List.mem_range'_1.mp hi).2
      exact ⟨b, i, by omega, rfl⟩
    · exact ih x h

theorem upto_eod_subset (S : List Entry) : ∀ x ∈ (upto_eod S).1, x ∈ S := by
  induction S with
  | nil => intro x h; simp [upto_eod] at h
  | cons a S ih =>
    intro x h
    rw [upto_eod] at h
    by_cases ha : a.file.name0 = EOD_FLAG
    · rw [if_pos ha] at h
      simp only [List.mem_singleton] at h
      rw [h]; exact List.mem_cons_self _ _
    · rw [if_neg ha] at h
      rcases List.mem_cons.mp h with h1 | h1
      · rw [h1]; exact List.mem_cons_self _ _
      · exact List.mem_cons_of_mem _ (ih x h1)

/-- At `SKIP_NONE` the lookup returns one of the enumerated slots and leaves
`errno` alone. -/
theorem find_scan_none_mem (follow : Entry → Nat → Option (Entry × Nat)) (name : List Nat) :
    ∀ (es : List Entry) (en : Nat) (r : Entry × Nat),
      find_scan follow name SKIP_NONE es en = some r → r.1 ∈ es ∧ r.2 = en := by
  intro es
  induction es with
  | nil => intro en r h; simp [find_scan] at h
  | cons e rest ih =>
    intro en r h
    rw [find_scan] at h
    split at h
    · simp only [Option.some.injEq] at h; subst h; exact ⟨List.mem_cons_self _ _, rfl⟩
    · split at h
      · simp only [Option.some.injEq] at h; subst h; exact ⟨List.mem_cons_self _ _, rfl⟩
      · split at h
        · rw [if_neg (by simp)] at h
          simp only [Option.some.injEq] at h; subst h; exact ⟨List.mem_cons_self _ _, rfl⟩
        · obtain ⟨h1, h2⟩ := ih en r h
          exact ⟨List.mem_cons_of_mem _ h1, h2⟩

theorem find_file_none_mem (fuel : Nat) (s : FS) (name : List Nat) (block en : Nat)
    (r : Entry × Nat) (h : find_file fuel s (some name) block SKIP_NONE en = some r) :
    ∃ es, enum_directory fuel s block = some es ∧ r.1 ∈ es ∧ r.2 = en := by
  cases fuel with
  | zero => simp [find_file] at h
  | succ fuel =>
    rw [find_file] at h
    split at h
    · simp at h
    · rename_i es hes
      exact ⟨es, hes, find_scan_none_mem _ name es en r h⟩

theorem find_directory_with_slot (s : FS)
    (ff : List Nat → Nat → Nat → Option (Entry × Nat))
    (hff : ∀ t b n r, ff t b n = some r → r.1 = root ∨ IsSlot s r.1) :
    ∀ (dir : List (List Nat)) (block en : Nat) (r : Entry × Nat),
      find_directory_with ff dir block en = some r →
      r.1.file.name0 ≠ EOD_FLAG → r.1 = root ∨ IsSlot s r.1 := by
  intro dir
  induction dir with
  | nil =>
    intro block en r h _
    simp only [find_directory_with, Option.some.injEq] at h
    subst h; exact Or.inl rfl
  | cons t ts ih =>
    intro block en r h h0
    rw [find_directory_with_cons] at h
    cases hf : ff t block en with
    | none => simp [hf] at h
    | some r1 =>
      obtain ⟨e, en1⟩ := r1
      simp only [hf] at h
      cases ht : token_error e with
      | some err =>
        simp only [ht, Option.some.injEq] at h
        subst h
        exact absurd rfl h0
      | none =>
        simp only [ht] at h
        by_cases hts : ts = []
        · rw [if_pos hts] at h
          simp only [Option.some.injEq] at h
          subst h
          exact hff _ _ _ _ hf
        · rw [if_neg hts] at h
          exact ih _ _ r h h0

/-- A directory `find_directory` resolves to is the root or a slot. -/
theorem find_directory_slot (fuel : Nat) (s : FS) (dir : List (List Nat)) (en : Nat)
    (r : Entry × Nat) (h : find_directory fuel s dir en = some r)
    (h0 : r.1.file.name0 ≠ EOD_FLAG) : r.1 = root ∨ IsSlot s r.1 :=
  find_directory_with_slot s _ (fun t b n r1 h1 => find_file_slot fuel s (some t) b SKIP_ALL n r1 h1)
    dir 1 en r h h0

theorem tokens_aux_ne (l : List Nat) :
    ∀ (cur : List Nat), (∀ c ∈ l, c ≠ 0) → (∀ c ∈ cur, c ≠ 0) →
      ∀ t ∈ tokens_aux l cur, t ≠ [] ∧ ∀ c ∈ t, c ≠ 0 := by
  induction l with
  | nil =>
    intro cur _ hcur t ht
    rw [tokens_aux] at ht
    by_cases hc : cur = []
    · simp [hc] at ht
    · rw [if_neg hc] at ht
      simp only [List.mem_singleton] at ht
      subst ht
      exact ⟨by simpa using hc, fun c hcm => hcur c (List.mem_reverse.mp hcm)⟩
  | cons a l ih =>
    intro cur hl hcur t ht
    have hl1 : ∀ c ∈ l, c ≠ 0 := fun c hc => hl c (List.mem_cons_of_mem _ hc)
    rw [tokens_aux] at ht
    by_cases ha : a = 47
    · rw [if_pos ha] at ht
      by_cases hc : cur = []
      · rw [if_pos hc] at ht
        exact ih [] hl1 (by simp) t ht
      · rw [if_neg hc] at ht
        rcases List.mem_cons.mp ht with h | h
        · subst h
          exact ⟨by simpa using hc, fun c hcm => hcur c (List.mem_reverse.mp hcm)⟩
        · exact ih [] hl1 (by simp) t h
    · rw [if_neg ha] at ht
      refine ih (a :: cur) hl1 ?_ t ht
      intro c hc
      rcases List.mem_cons.mp hc with h | h
      · rw [h]; exact hl a (List.mem_cons_self _ _)
      · exact hcur c h

/-- The final component of a path is a non-empty string. -/
theorem split_path_name_head (path_str nm : List Nat)
    (h : (split_path path_str).name = some nm) : nm.headD 0 ≠ 0 := by
  have hm : nm ∈ tokens path_str := by
    simp only [split_path] at h
    exact List.mem_of_getLast?_eq_some h
  have hc : ∀ c ∈ cstr path_str, c ≠ 0 := by
    intro c hc
    have := List.mem_takeWhile_imp hc
    simpa using this
  obtain ⟨h1, h2⟩ := tokens_aux_ne (cstr path_str) [] hc (by simp) nm hm
  cases nm with
  | nil => exact absurd rfl h1
  | cons c t => exact h2 c (List.mem_cons_self _ _)

theorem read_le_lt (d : Nat → Nat) :
    ∀ (n p : Nat), (∀ j, j < n → d (p + j) < 256) → read_le d p n < 256 ^ n := by
  intro n
  induction n with
  | zero => intro p _; simp [read_le]
  | succ n ih =>
    intro p h
    have h0 := h 0 (by omega)
    have h1 := ih (p + 1) (fun j hj => by have := h (j + 1) (by omega); rwa [Nat.add_assoc, Nat.add_comm 1 j])
    simp only [read_le, Nat.add_zero] at h0 ⊢
    rw [Nat.pow_succ]
    omega

/-- A `File` read from bytes has those bytes as its memory image. -/
theorem byte_read_File (s : FS) (p : Nat) (hb : ∀ j, j < 48 → s.disk (p + j) < 256)
    (k : Nat) (hk : k < 48) : (read_File s p).byte k = s.disk (p + k) := by
  have e : ∀ a c, p + a + c = p + (a + c) := fun a c => Nat.add_assoc p a c
  by_cases h1 : k < 32
  · simp [File.byte, h1, read_File, read_bytes, List.getD_eq_getElem?_getD]
  · have b32 := hb 32 (by omega); have b33 := hb 33 (by omega)
    have b34 := hb 34 (by omega); have b35 := hb 35 (by omega)
    have b36 := hb 36 (by omega); have b37 := hb 37 (by omega)
    have b38 := hb 38 (by omega); have b39 := hb 39 (by omega)
    have b40 := hb 40 (by omega); have b41 := hb 41 (by omega)
    have b42 := hb 42 (by omega); have b43 := hb 43 (by omega)
    have b44 := hb 44 (by omega); have b45 := hb 45 (by omega)
    have b46 := hb 46 (by omega); have b47 := hb 47 (by omega)
    have hk2 : 32 ≤ k := by omega
    interval_cases k <;>
      simp only [File.byte, read_File, read_le, e] <;> norm_num <;> omega

/-! ## C6: remove, then cleanup -/

theorem slot_one_write (s : FS) (p : Nat) (f : File) (b i : Nat)
    (hp : ∃ b1 i1, i1 < s.block_size / 64 ∧ p = phys s b1 + 64 * i1)
    (hi : i < s.block_size / 64) :
    slot (write_File s p f) b i =
      if phys s b + 64 * i = p then { file := f.stored, position := (p : Nat) }
      else slot s b i := by
  obtain ⟨b1, i1, hi1, rfl⟩ := hp
  exact slot_write_File s _ f b i (slot_pos_cases s b i b1 i1 hi hi1)

theorem isSlot_pos (s : FS) (e : Entry) (h : IsSlot s e) :
    ∃ b1 i1, i1 < s.block_size / 64 ∧ e.position.toNat = phys s b1 + 64 * i1 := by
  obtain ⟨b, i, hi, rfl⟩ := h
  exact ⟨b, i, hi, by simp only [slot, Int.toNat_ofNat]⟩

theorem isSlot_eq_of_pos (s : FS) (x y : Entry) (hx : IsSlot s x) (hy : IsSlot s y)
    (h : x.position.toNat = y.position.toNat) : x = y := by
  rcases isSlot_apart s x y hx hy with h1 | h1 | h1
  · exact h1
  · omega
  · omega

theorem removed_state_fat (s : FS) (now : Nat) (d e : Entry) (en1 : Nat) :
    (removed_state s now d e en1).fat = s.fat := by
  unfold removed_state
  by_cases h : d.position ≥ 0
  · rw [if_pos h]; rfl
  · rw [if_neg h]; rfl

theorem removed_state_block_size (s : FS) (now : Nat) (d e : Entry) (en1 : Nat) :
    (removed_state s now d e en1).block_size = s.block_size := by
  unfold removed_state
  by_cases h : d.position ≥ 0
  · rw [if_pos h]; rfl
  · rw [if_neg h]; rfl

theorem removed_state_slot (s : FS) (now : Nat) (d e : Entry) (en1 : Nat)
    (he : IsSlot s e) (hd : d = root ∨ IsSlot s d) (b i : Nat) (hi : i < s.block_size / 64) :
    slot (removed_state s now d e en1) b i = removed_slot now d e (slot s b i) := by
  have hpe := isSlot_pos s e he
  have hep : 0 ≤ e.position := isSlot_position s e he
  have hee : e.position = ((e.position.toNat : Nat) : Int) := (Int.toNat_of_nonneg hep).symm
  have hxp : (slot s b i).position = ((phys s b + 64 * i : Nat) : Int) := rfl
  unfold removed_state removed_slot
  by_cases hdp : d.position ≥ 0
  · have hds : IsSlot s d := by
      rcases hd with h | h
      · rw [h] at hdp; simp [root] at hdp
      · exact h
    have hpd := isSlot_pos s d hds
    have hdd : d.position = ((d.position.toNat : Nat) : Int) := (Int.toNat_of_nonneg hdp).symm
    rw [if_pos hdp]
    rw [slot_one_write (write_File { s with errno := en1 } d.position.toNat (shrunk now d))
      e.position.toNat (flagged e) b i hpe hi]
    have hph : phys (write_File { s with errno := en1 } d.position.toNat (shrunk now d)) b =
        phys s b := rfl
    rw [hph]
    by_cases h1 : phys s b + 64 * i = e.position.toNat
    · rw [if_pos h1, if_pos (by rw [hxp, hee, h1])]
      rw [← hee]
    · rw [if_neg h1, if_neg (by rw [hxp, hee]; intro hh; exact h1 (Int.ofNat_inj.mp hh))]
      rw [slot_one_write { s with errno := en1 } d.position.toNat (shrunk now d) b i hpd hi]
      have hph2 : phys { s with errno := en1 } b = phys s b := rfl
      rw [hph2]
      by_cases h2 : phys s b + 64 * i = d.position.toNat
      · rw [if_pos h2, if_pos (by rw [hxp, hdd, h2])]
        rw [← hdd]
      · rw [if_neg h2, if_neg (by rw [hxp, hdd]; intro hh; exact h2 (Int.ofNat_inj.mp hh))]
        rfl
  · rw [if_neg hdp]
    rw [slot_one_write { s with errno := en1 } e.position.toNat (flagged e) b i hpe hi]
    have hph : phys { s with errno := en1 } b = phys s b := rfl
    rw [hph]
    by_cases h1 : phys s b + 64 * i = e.position.toNat
    · rw [if_pos h1, if_pos (by rw [hxp, hee, h1])]
      rw [← hee]
    · rw [if_neg h1, if_neg (by rw [hxp, hee]; intro hh; exact h1 (Int.ofNat_inj.mp hh))]
      rw [if_neg (by rw [hxp]; omega)]
      rfl

theorem headD_map_range (g : Nat → Nat) (n : Nat) :
    ((List.range (n + 1)).map g).headD 0 = g 0 := by
  rw [List.range_succ_eq_map]
  rfl

theorem stored_name0 (f : File) : f.stored.name0 = f.name0 := by
  simp only [File.stored, File.name0]
  rw [headD_map_range (fun k => f.name.getD k 0) 31]
  cases f.name <;> rfl

theorem shrunk_name (now : Nat) (d : Entry) : (shrunk now d).name = d.file.name := by
  unfold shrunk
  rfl

theorem flagged_name (e : Entry) : (flagged e).name = REMOVED_FLAG :: e.file.name.tail := by
  unfold flagged
  rfl

theorem stored_name_of_length (f : File) (h : f.name.length = 32) : f.stored.name = f.name := by
  show List.map (fun k => f.name.getD k 0) (List.range 32) = f.name
  exact stored_name f.name h

theorem removed_slot_name (s : FS) (now : Nat) (d e x : Entry)
    (hd : d = root ∨ IsSlot s d) (hx : IsSlot s x) :
    (removed_slot now d e x).file.name =
      if x.position = e.position then (flagged e).stored.name else x.file.name := by
  unfold removed_slot
  by_cases h1 : x.position = e.position
  · rw [if_pos h1, if_pos h1]
  · rw [if_neg h1, if_neg h1]
    by_cases h2 : x.position = d.position
    · rw [if_pos h2]
      have hds : IsSlot s d := by
        rcases hd with h | h
        · have := isSlot_position s x hx
          rw [h2, h] at this
          simp [root] at this
        · exact h
      have hxd : x = d := isSlot_eq_of_pos s x d hx hds (by rw [h2])
      rw [hxd]
      have hl : (shrunk now d).name.length = 32 := by
        rw [shrunk_name]
        exact isSlot_name_length s d hds
      rw [stored_name_of_length (shrunk now d) hl, shrunk_name]
    · rw [if_neg h2]

theorem removed_slot_name0 (s : FS) (now : Nat) (d e x : Entry)
    (hd : d = root ∨ IsSlot s d) (he : IsSlot s e) (he0 : e.file.name0 ≠ EOD_FLAG)
    (hx : IsSlot s x) :
    (removed_slot now d e x).file.name0 = EOD_FLAG ↔ x.file.name0 = EOD_FLAG := by
  have hn := removed_slot_name s now d e x hd hx
  by_cases h1 : x.position = e.position
  · rw [if_pos h1] at hn
    have hxe : x = e := isSlot_eq_of_pos s x e hx he (by rw [h1])
    have h2 : (removed_slot now d e x).file.name0 = REMOVED_FLAG := by
      have := stored_name0 (flagged e)
      simp only [File.name0] at this ⊢
      rw [hn, this, flagged_name]
      rfl
    rw [h2, hxe]
    constructor
    · intro h; simp at h
    · intro h; exact absurd h he0
  · rw [if_neg h1] at hn
    simp only [File.name0, hn]

theorem enum_directory_removed (fuel : Nat) (s : FS) (now : Nat) (d e : Entry) (en1 b : Nat)
    (es : List Entry) (hd : d = root ∨ IsSlot s d) (he : IsSlot s e)
    (he0 : e.file.name0 ≠ EOD_FLAG) (henum : enum_directory fuel s b = some es) :
    enum_directory fuel (removed_state s now d e en1) b =
      some (es.map (removed_slot now d e)) := by
  have h1 := enum_directory_some fuel s b es henum
  have hs : dir_slots (removed_state s now d e en1) (chain_blocks s.fat fuel b) =
      (dir_slots s (chain_blocks s.fat fuel b)).map (removed_slot now d e) :=
    dir_slots_map s _ _ (removed_state_block_size s now d e en1)
      (fun b1 i hi => removed_state_slot s now d e en1 he hd b1 i hi) _
  have h2 : upto_eod (dir_slots (removed_state s now d e en1) (chain_blocks s.fat fuel b)) =
      (es.map (removed_slot now d e), true) := by
    rw [hs, upto_eod_map _ _
      (fun x hx => removed_slot_name0 s now d e x hd he he0 (dir_slots_isSlot s _ x hx)), h1]
  have h3 := enum_directory_eq fuel fuel (removed_state s now d e en1) b (Nat.le_refl _)
    (by rw [removed_state_fat, h2])
  rw [removed_state_fat, h2] at h3
  exact h3

theorem flagged_no_match (e : Entry) (nm : List Nat) (h : nm.headD 0 ≠ REMOVED_FLAG) :
    cstr (flagged e).stored.name ≠ cstr nm := by
  intro hc
  have h1 : (cstr (flagged e).stored.name).headD 0 = REMOVED_FLAG := by
    rw [cstr_headD]
    have := stored_name0 (flagged e)
    simp only [File.name0] at this
    rw [this, flagged_name]
    rfl
  rw [hc, cstr_headD] at h1
  exact h h1

/-- After `remove_file`, looking the name up in the directory finds nothing
(given no other slot of the directory bears the name). -/
theorem find_file_removed (fuel : Nat) (s : FS) (now : Nat) (d e : Entry) (en1 b en2 : Nat)
    (es : List Entry) (nm : List Nat) (hd : d = root ∨ IsSlot s d) (he : IsSlot s e)
    (he0 : e.file.name0 ≠ EOD_FLAG) (henum : enum_directory fuel s b = some es)
    (hnm0 : nm.headD 0 ≠ EOD_FLAG) (hnm2 : nm.headD 0 ≠ REMOVED_FLAG)
    (hdup : ∀ x ∈ es, cstr x.file.name = cstr nm → x.position = e.position) :
    ∃ z, find_file fuel (removed_state s now d e en1) (some nm) b SKIP_NONE en2 = some (z, en2) ∧
      z.file.name0 = EOD_FLAG := by
  have hen := enum_directory_removed fuel s now d e en1 b es hd he he0 henum
  cases fuel with
  | zero => simp [enum_directory] at henum
  | succ fuel =>
    rw [find_file]
    simp only [hen]
    apply find_scan_no_match _ nm SKIP_NONE hnm0
    · intro y hy
      obtain ⟨x, hx, rfl⟩ := List.mem_map.mp hy
      have hxs : IsSlot s x := enum_directory_slot _ s b es henum x hx
      rw [removed_slot_name s now d e x hd hxs]
      by_cases h1 : x.position = e.position
      · rw [if_pos h1]
        exact flagged_no_match e nm hnm2
      · rw [if_neg h1]
        exact fun hh => h1 (hdup x hx hh)
    · have h1 := enum_directory_some _ _ _ _ hen
      exact upto_eod_has_eod _ _ h1

theorem removed_state_disk_out (s : FS) (now : Nat) (d e : Entry) (en1 : Nat) (a : Nat)
    (ha : a < e.position.toNat ∨ e.position.toNat + 48 ≤ a)
    (hd : 0 ≤ d.position → a < d.position.toNat ∨ d.position.toNat + 48 ≤ a) :
    (removed_state s now d e en1).disk a = s.disk a := by
  unfold removed_state
  rw [write_File_disk_out _ _ _ _ ha]
  by_cases hdp : d.position ≥ 0
  · rw [if_pos hdp, write_File_disk_out _ _ _ _ (hd hdp)]
  · rw [if_neg hdp]

theorem flagged_byte (s : FS) (e : Entry) (he : IsSlot s e)
    (hb : ∀ j, j < 48 → s.disk (e.position.toNat + j) < 256) (k : Nat) (h1 : 1 ≤ k)
    (hk : k < 48) : (flagged e).byte k = s.disk (e.position.toNat + k) := by
  rw [← byte_read_File s e.position.toNat hb k hk, ← isSlot_file s e he]
  have hl := isSlot_name_length s e he
  simp only [File.byte, flagged]
  by_cases h32 : k < 32
  · rw [if_pos h32, if_pos h32]
    cases hn : e.file.name with
    | nil => rw [hn] at hl; simp at hl
    | cons c t =>
      obtain ⟨j, rfl⟩ : ∃ j, k = j + 1 := ⟨k - 1, by omega⟩
      simp [List.getD_eq_getElem?_getD]
  · rw [if_neg h32, if_neg h32]

/-- The bytes `remove_file` leaves in the removed slot: `name[0]` is
`REMOVED_FLAG`, the other 63 bytes are as before. -/
theorem removed_state_slot_bytes (s : FS) (now : Nat) (d e : Entry) (en1 : Nat)
    (hd : d = root ∨ IsSlot s d) (he : IsSlot s e)
    (hb : ∀ j, j < 48 → s.disk (e.position.toNat + j) < 256) :
    (removed_state s now d e en1).disk e.position.toNat = REMOVED_FLAG ∧
    ∀ k, 1 ≤ k → k < 64 →
      (removed_state s now d e en1).disk (e.position.toNat + k) =
        s.disk (e.position.toNat + k) := by
  constructor
  · have h := write_File_disk_in
      (if d.position ≥ 0 then write_File { s with errno := en1 } d.position.toNat (shrunk now d)
       else { s with errno := en1 }) e.position.toNat (flagged e) 0 (by omega)
    rw [Nat.add_zero] at h
    unfold removed_state
    rw [h]
    simp [File.byte, flagged]
  · intro k h1 hk
    by_cases h48 : k < 48
    · have h := write_File_disk_in
        (if d.position ≥ 0 then write_File { s with errno := en1 } d.position.toNat (shrunk now d)
         else { s with errno := en1 }) e.position.toNat (flagged e) k h48
      unfold removed_state
      rw [h]
      exact flagged_byte s e he hb k h1 h48
    · apply removed_state_disk_out
      · omega
      · intro hdp
        have hds : IsSlot s d := by
          rcases hd with h | h
          · rw [h] at hdp; simp [root] at hdp
          · exact h
        rcases isSlot_apart s d e hds he with h | h | h
        · rw [h]; omega
        · omega
        · omega

/-- The parent's slot after `remove_file`, when it is not the removed slot. -/
theorem removed_state_parent (s : FS) (now : Nat) (d e : Entry) (en1 : Nat)
    (hd : d = root ∨ IsSlot s d) (he : IsSlot s e) (hdp : 0 ≤ d.position)
    (hne : d.position ≠ e.position) :
    read_File (removed_state s now d e en1) d.position.toNat = (shrunk now d).stored := by
  have hds : IsSlot s d := by
    rcases hd with h | h
    · rw [h] at hdp; simp [root] at hdp
    · exact h
  have hep := isSlot_position s e he
  have hap : d.position.toNat + 64 ≤ e.position.toNat ∨
      e.position.toNat + 64 ≤ d.position.toNat := by
    rcases isSlot_apart s d e hds he with h | h | h
    · exact absurd (by rw [h]) hne
    · exact Or.inl h
    · exact Or.inr h
  unfold removed_state
  rw [if_pos hdp]
  rw [read_File_congr (write_File { s with errno := en1 } d.position.toNat (shrunk now d))]
  · exact read_File_write_File _ _ _
  · intro k hk
    apply write_File_disk_out
    omega

set_option maxRecDepth 100000 in
set_option maxHeartbeats 4000000 in
/-- C6, counterexample. `/a` is an entry of the root directory of `ex_a`;
`remove_file` succeeds (it returns the slot's position, 256), but the
parent's size, as `get_file` reports it for the root, is 0 before and 0
after: it is not decremented by 64, the root has no slot to store a size in.
And in `ex_kar` the path `/k/a` names the directory `a` of the root, its
parent `/k` being a link that leads to the root through `/a` itself;
`remove_file("/k/a")` succeeds, and afterwards `get_file("/k/a")` fails with
`ENOTDIR`, not `ENOENT`: `/k` no longer resolves, its target runs through
the removed slot. -/
theorem remove_file_root_size :
    (get_file 5 ex_a [47, 97] false).map (fun r => r.1.name0) = some 97 ∧
    (get_file 5 ex_a [47] false).map (fun r => r.1.size) = some 0 ∧
    (remove_file 5 ex_a 0 [47, 97]).map (fun r => r.1) = some 256 ∧
    (get_file 5 (after (remove_file 5 ex_a 0 [47, 97])) [47] false).map (fun r => r.1.size) =
      some 0 ∧
    (find_directory 5 ex_kar (split_path [47, 107, 47, 97]).dir ex_kar.errno).map
      (fun r => (r.1.position, r.1.file.perm &&& WRITE_PERM)) = some (-1, WRITE_PERM) ∧
    (get_file 5 ex_kar [47, 107, 47, 97] false).map (fun r => (r.1.name0, r.1.type)) =
      some (97, DIRECTORY_FILE) ∧
    (remove_file 5 ex_kar 0 [47, 107, 47, 97]).map (fun r => r.1) = some 256 ∧
    (get_file 5 (after (remove_file 5 ex_kar 0 [47, 107, 47, 97])) [47, 107, 47, 97] false).map
      (fun r => (r.1.name0, r.2.errno)) = some (EOD_FLAG, ENOTDIR) := by
  decide

/-! ## C13: the configuration round trip -/

theorem mkfs_eq_mount (F c : Nat) : mkfs F c = mount_fs (init_fs F c) := rfl

theorem mount_init_fields (F c : Nat) (hF1 : 1 ≤ F) (hF : F ≤ 32) (hc : c ≤ 4) :
    (init_fs F c).config = (F <<< 8) ||| c ∧
    (mount_fs (init_fs F c)).block_size = 2 ^ (8 + c) ∧
    (mount_fs (init_fs F c)).fat_blocks = F ∧
    (mount_fs (init_fs F c)).data_blocks = min (F * 2 ^ (8 + c) / 2 - 1) 0xFFFE ∧
    (init_fs F c).new_data_blocks = (mount_fs (init_fs F c)).data_blocks ∧
    (init_fs F c).length = (F + (mount_fs (init_fs F c)).data_blocks) * 2 ^ (8 + c) := by
  interval_cases F <;> interval_cases c <;> decide

/-- C13. Filesystem configuration round trip: for every `F` in `[1, 32]` and
`c` in `[0, 4]` the 16-bit word `init_fs` writes is `(F << 8) | c` (nothing is
lost in the cast), and `mount_fs` decodes from it the block size `2^(8+c)`,
the FAT block count `F` and the data block count
`N = min(F * B / 2 - 1, 0xFFFE)`, the same `N` `init_fs` sized the file with
(`(F + N) * B` bytes); every index `1..N` is below the `F * B / 2` entries of
the FAT; on the fresh filesystem entry 0 is the configuration word, entry 1
is `0xFFFF` and every entry from 2 on is `0x0000`. -/
theorem init_mount_round_trip (F c : Nat) (hF1 : 1 ≤ F) (hF : F ≤ 32) (hc : c ≤ 4) :
    (init_fs F c).config = (F <<< 8) ||| c ∧
    (mount_fs (init_fs F c)).block_size = 2 ^ (8 + c) ∧
    (mount_fs (init_fs F c)).fat_blocks = F ∧
    (mount_fs (init_fs F c)).data_blocks = min (F * 2 ^ (8 + c) / 2 - 1) 0xFFFE ∧
    (init_fs F c).new_data_blocks = (mount_fs (init_fs F c)).data_blocks ∧
    (init_fs F c).length = (F + (mount_fs (init_fs F c)).data_blocks) * 2 ^ (8 + c) ∧
    (∀ i, 1 ≤ i → i ≤ (mount_fs (init_fs F c)).data_blocks → i < F * 2 ^ (8 + c) / 2) ∧
    (mount_fs (init_fs F c)).fat 0 = (F <<< 8) ||| c ∧
    (mount_fs (init_fs F c)).fat 1 = 0xFFFF ∧
    (∀ i, 2 ≤ i → (mount_fs (init_fs F c)).fat i = 0x0000) := by
  obtain ⟨h1, h2, h3, h4, h5, h6⟩ := mount_init_fields F c hF1 hF hc
  have hpos : 0 < F * 2 ^ (8 + c) / 2 := by
    have h8 : 2 ^ (8 + c) = 2 * 2 ^ (7 + c) := by
      rw [show 8 + c = (7 + c) + 1 by omega, pow_succ]; ring
    rw [h8, show F * (2 * 2 ^ (7 + c)) = 2 * (F * 2 ^ (7 + c)) by ring,
      Nat.mul_div_cancel_left _ (by decide : 0 < 2)]
    exact Nat.mul_pos hF1 (pow_pos (by decide) _)
  refine ⟨h1, h2, h3, h4, h5, h6, ?_, ?_, ?_, ?_⟩
  · intro i _ hi
    rw [h4] at hi
    have hm : min (F * 2 ^ (8 + c) / 2 - 1) 0xFFFE ≤ F * 2 ^ (8 + c) / 2 - 1 := Nat.min_le_left _ _
    omega
  · exact h1
  · rfl
  · intro i hi
    show (if i = 0 then _ else if i = 1 then _ else 0) = 0
    rw [if_neg (by omega), if_neg (by omega)]

/-- C13, witness: 32 FAT blocks of 4096 bytes, the largest configuration,
where the cap `0xFFFE` applies. -/
theorem init_mount_round_trip_witness :
    (init_fs 32 4).config = (32 <<< 8) ||| 4 ∧
    (mount_fs (init_fs 32 4)).block_size = 2 ^ (8 + 4) ∧
    (mount_fs (init_fs 32 4)).fat_blocks = 32 ∧
    (mount_fs (init_fs 32 4)).data_blocks = min (32 * 2 ^ (8 + 4) / 2 - 1) 0xFFFE ∧
    (init_fs 32 4).new_data_blocks = (mount_fs (init_fs 32 4)).data_blocks ∧
    (init_fs 32 4).length = (32 + (mount_fs (init_fs 32 4)).data_blocks) * 2 ^ (8 + 4) ∧
    (∀ i, 1 ≤ i → i ≤ (mount_fs (init_fs 32 4)).data_blocks → i < 32 * 2 ^ (8 + 4) / 2) ∧
    (mount_fs (init_fs 32 4)).fat 0 = (32 <<< 8) ||| 4 ∧
    (mount_fs (init_fs 32 4)).fat 1 = 0xFFFF ∧
    (∀ i, 2 ≤ i → (mount_fs (init_fs 32 4)).fat i = 0x0000) :=
  init_mount_round_trip 32 4 (by decide) (by decide) (by decide)

/-! ## C14, C15: `extend_data` and `truncate_data` -/

theorem find_range (p : Nat → Bool) :
    ∀ (n a : Nat),
      ((List.range' a n).find? p = none ∧ ∀ j, a ≤ j → j < a + n → p j = false) ∨
      ∃ i, (List.range' a n).find? p = some i ∧ a ≤ i ∧ i < a + n ∧ p i = true ∧
        ∀ j, a ≤ j → j < i → p j = false := by
  intro n
  induction n with
  | zero =>
    intro a
    left
    refine ⟨rfl, ?_⟩
    intro j h1 h2
    omega
  | succ n ih =>
    intro a
    rw [List.range'_succ, List.find?_cons]
    cases hpa : p a with
    | true =>
      right
      refine ⟨a, rfl, le_refl _, by omega, hpa, ?_⟩
      intro j h1 h2
      omega
    | false =>
      rcases ih (a + 1) with ⟨h1, h2⟩ | ⟨i, h1, h2, h3, h4, h5⟩
      · left
        refine ⟨h1, ?_⟩
        intro j hj1 hj2
        rcases Nat.eq_or_lt_of_le hj1 with h | h
        · rw [← h]; exact hpa
        · exact h2 j h (by omega)
      · right
        refine ⟨i, h1, by omega, by omega, h4, ?_⟩
        intro j hj1 hj2
        rcases Nat.eq_or_lt_of_le hj1 with h | h
        · rw [← h]; exact hpa
        · exact h5 j h hj2

theorem extend_data_some (s : FS) (block i : Nat)
    (h : (List.range' 1 s.data_blocks).find? (fun i => s.fat i = FREE_BLOCK) = some i) :
    extend_data s block =
      (i, { s with
              fat := fun b => if b = i then LAST_BLOCK
                              else if block ≠ 0 ∧ b = block then i else s.fat b,
              disk := fun a =>
                if phys s i ≤ a ∧ a < phys s i + s.block_size then 0 else s.disk a }) := by
  unfold extend_data
  rw [h]

theorem extend_data_none (s : FS) (block : Nat)
    (h : (List.range' 1 s.data_blocks).find? (fun i => s.fat i = FREE_BLOCK) = none) :
    extend_data s block = (0, { s with errno := ENOSPC }) := by
  unfold extend_data
  rw [h]

theorem extend_data_cases (s : FS) (block : Nat) :
    (¬ HasFree s ∧ extend_data s block = (0, { s with errno := ENOSPC })) ∨
    ∃ i, IsFirstFree s i ∧ extend_data s block =
      (i, { s with
              fat := fun b => if b = i then LAST_BLOCK
                              else if block ≠ 0 ∧ b = block then i else s.fat b,
              disk := fun a =>
                if phys s i ≤ a ∧ a < phys s i + s.block_size then 0 else s.disk a }) := by
  rcases find_range (fun i => s.fat i = FREE_BLOCK) s.data_blocks 1 with
    ⟨h1, h2⟩ | ⟨i, h1, h2, h3, h4, h5⟩
  · left
    refine ⟨?_, extend_data_none s block h1⟩
    rintro ⟨i, hi1, hi2, hi3⟩
    have := h2 i hi1 (by omega)
    simp [hi3] at this
  · right
    refine ⟨i, ⟨h2, by omega, by simpa using h4, ?_⟩, extend_data_some s block i h1⟩
    intro j hj1 hj2
    have := h5 j hj1 hj2
    simpa using this

/-- C14, counterexample. On the fresh filesystem `mkfs 1 0` the first free
entry is 2; `extend_data(2)` (`prev` is that very entry, and not 0) returns
2 and leaves `FAT[2] = 0xFFFF`, not `FAT[prev] = 2`: the entry cannot hold
both values the claim gives it. -/
theorem extend_data_prev_free :
    (2 : Nat) ≠ 0 ∧ (extend_data (mkfs 1 0) 2).1 = 2 ∧
    (extend_data (mkfs 1 0) 2).2.fat 2 = 0xFFFF ∧
    (extend_data (mkfs 1 0) 2).2.fat 2 ≠ (extend_data (mkfs 1 0) 2).1 := by
  decide

/-- C14, amended. Allocate: for every state and `prev`, when some entry in
`1..N` is free `extend_data(prev)` returns the smallest such index `i`, sets
`FAT[i]` to `0xFFFF`, sets `FAT[prev]` to `i` when `prev` is neither 0 nor
`i` itself, leaves every other FAT entry, zeroes the `B` bytes of data block
`i` and leaves every other byte; when no entry is free it returns 0, sets
`errno = ENOSPC` and changes neither the FAT nor the data; and it returns
0 exactly when no entry is free. -/
theorem extend_data_post (s : FS) (prev : Nat) :
    (HasFree s →
      IsFirstFree s (extend_data s prev).1 ∧
      (extend_data s prev).2.fat (extend_data s prev).1 = LAST_BLOCK ∧
      (prev ≠ 0 → prev ≠ (extend_data s prev).1 →
        (extend_data s prev).2.fat prev = (extend_data s prev).1) ∧
      (∀ b, b ≠ (extend_data s prev).1 → (prev = 0 ∨ b ≠ prev) →
        (extend_data s prev).2.fat b = s.fat b) ∧
      (∀ a, InBlock s (extend_data s prev).1 a → (extend_data s prev).2.disk a = 0) ∧
      (∀ a, ¬ InBlock s (extend_data s prev).1 a → (extend_data s prev).2.disk a = s.disk a) ∧
      (extend_data s prev).2.errno = s.errno) ∧
    (¬ HasFree s →
      (extend_data s prev).1 = 0 ∧ (extend_data s prev).2.fat = s.fat ∧
      (extend_data s prev).2.disk = s.disk ∧ (extend_data s prev).2.errno = ENOSPC) ∧
    ((extend_data s prev).1 = 0 ↔ ¬ HasFree s) := by
  rcases extend_data_cases s prev with ⟨hn, he⟩ | ⟨i, hi, he⟩
  · refine ⟨fun h => absurd h hn, fun _ => ?_, ?_⟩
    · rw [he]
      exact ⟨rfl, rfl, rfl, rfl⟩
    · rw [he]
      exact ⟨fun _ => hn, fun _ => rfl⟩
  · have hf : HasFree s := ⟨i, hi.1, hi.2.1, hi.2.2.1⟩
    refine ⟨fun _ => ?_, fun h => absurd hf h, ?_⟩
    · rw [he]
      refine ⟨hi, ?_, ?_, ?_, ?_, ?_, rfl⟩
      · show (if i = i then LAST_BLOCK else _) = LAST_BLOCK
        rw [if_pos rfl]
      · intro h0 hp
        show (if prev = i then LAST_BLOCK else if prev ≠ 0 ∧ prev = prev then i else _) = i
        rw [if_neg hp, if_pos ⟨h0, rfl⟩]
      · intro b hb hbp
        show (if b = i then LAST_BLOCK else if prev ≠ 0 ∧ b = prev then i else s.fat b) = s.fat b
        rw [if_neg hb, if_neg]
        rintro ⟨h0, h1⟩
        rcases hbp with h | h
        · exact h0 h
        · exact h h1
      · intro a ha
        have ha2 : phys s i ≤ a ∧ a < phys s i + s.block_size := ha
        show (if phys s i ≤ a ∧ a < phys s i + s.block_size then 0 else s.disk a) = 0
        rw [if_pos ha2]
      · intro a ha
        have ha2 : ¬ (phys s i ≤ a ∧ a < phys s i + s.block_size) := ha
        show (if phys s i ≤ a ∧ a < phys s i + s.block_size then 0 else s.disk a) = s.disk a
        rw [if_neg ha2]
    · rw [he]
      constructor
      · intro h
        have h1 := hi.1
        have h2 : i = 0 := h
        omega
      · intro h
        exact absurd hf h

theorem truncate_data_single (fuel : Nat) (s : FS) (i : Nat) (hi : i ≠ LAST_BLOCK)
    (hl : s.fat i = LAST_BLOCK) :
    truncate_data (fuel + 2) s i =
      some { s with fat := fun b => if b = i then FREE_BLOCK else s.fat b } := by
  rw [truncate_data, if_neg hi, hl, truncate_data, if_pos rfl]

/-- C14, witness: the fresh filesystem, whose first free entry is 2, with
`prev = 1` (the root directory's block). -/
theorem extend_data_post_witness :
    HasFree (mkfs 1 0) ∧ (extend_data (mkfs 1 0) 1).1 = 2 ∧
    IsFirstFree (mkfs 1 0) (extend_data (mkfs 1 0) 1).1 ∧
    (extend_data (mkfs 1 0) 1).2.fat (extend_data (mkfs 1 0) 1).1 = LAST_BLOCK ∧
    ((extend_data (mkfs 1 0) 1).1 = 0 ↔ ¬ HasFree (mkfs 1 0)) :=
  ⟨⟨2, by decide, by decide, by decide⟩, by decide,
    ((extend_data_post (mkfs 1 0) 1).1 ⟨2, by decide, by decide, by decide⟩).1,
    ((extend_data_post (mkfs 1 0) 1).1 ⟨2, by decide, by decide, by decide⟩).2.1,
    (extend_data_post (mkfs 1 0) 1).2.2⟩

/-- C15, counterexample. On the fresh filesystem `FAT[1]` is `0xFFFF` (the
root directory's only block). `extend_data(1)` allocates block 2 and links it
after block 1; `truncate_data(2)` frees block 2, and `FAT[1]` is left at 2,
not at the `0xFFFF` it held before the allocation. -/
theorem extend_truncate_prev_kept :
    (mkfs 1 0).fat 1 = 0xFFFF ∧ (extend_data (mkfs 1 0) 1).1 = 2 ∧
    (truncate_data 2 (extend_data (mkfs 1 0) 1).2 (extend_data (mkfs 1 0) 1).1).map
      (fun s2 => s2.fat 1) = some 2 := by
  decide

/-- C15, amended. Allocate/free round trip: for every state with a free
entry (block numbers below `0xFFFF`) and every `prev`, `extend_data(prev)`
followed by `truncate_data` on the returned index ends, and leaves every FAT
entry other than `FAT[prev]` equal to what it was before the allocation; with
`prev = 0` (a plain reservation) that is every entry, while for `prev != 0`
the entry `FAT[prev]` keeps the index of the freed block (unless `prev` is
that block itself). -/
theorem extend_truncate_round_trip (s : FS) (prev fuel : Nat)
    (hdb : s.data_blocks < LAST_BLOCK) (hfree : HasFree s) :
    ∃ s2, truncate_data (fuel + 2) (extend_data s prev).2 (extend_data s prev).1 = some s2 ∧
      (∀ b, (prev = 0 ∨ b ≠ prev ∨ prev = (extend_data s prev).1) → s2.fat b = s.fat b) ∧
      (prev ≠ 0 → prev ≠ (extend_data s prev).1 → s2.fat prev = (extend_data s prev).1) := by
  rcases extend_data_cases s prev with ⟨hn, _⟩ | ⟨i, hi, he⟩
  · exact absurd hfree hn
  · rw [he]
    have hil : i ≠ LAST_BLOCK := by
      have := hi.2.1
      omega
    refine ⟨_, truncate_data_single fuel _ i hil ?_, ?_, ?_⟩
    · show (if i = i then LAST_BLOCK else _) = LAST_BLOCK
      rw [if_pos rfl]
    · intro b hb
      show (if b = i then FREE_BLOCK
            else if b = i then LAST_BLOCK else if prev ≠ 0 ∧ b = prev then i else s.fat b) = s.fat b
      by_cases hbi : b = i
      · rw [if_pos hbi, hbi]
        exact hi.2.2.1.symm
      · rw [if_neg hbi, if_neg hbi, if_neg]
        rintro ⟨h0, h1⟩
        rcases hb with h | h | h
        · exact h0 h
        · exact h h1
        · exact hbi (h1.trans h)
    · intro h0 hp
      show (if prev = i then FREE_BLOCK
            else if prev = i then LAST_BLOCK else if prev ≠ 0 ∧ prev = prev then i else _) = i
      rw [if_neg hp, if_neg hp, if_pos ⟨h0, rfl⟩]

/-- C15, witness: a plain reservation on the fresh filesystem. -/
theorem extend_truncate_round_trip_witness :
    ∃ s2, truncate_data (0 + 2) (extend_data (mkfs 1 0) 0).2 (extend_data (mkfs 1 0) 0).1 =
        some s2 ∧
      (∀ b, (0 = 0 ∨ b ≠ 0 ∨ 0 = (extend_data (mkfs 1 0) 0).1) → s2.fat b = (mkfs 1 0).fat b) ∧
      ((0 : Nat) ≠ 0 → 0 ≠ (extend_data (mkfs 1 0) 0).1 →
        s2.fat 0 = (extend_data (mkfs 1 0) 0).1) :=
  extend_truncate_round_trip (mkfs 1 0) 0 0 (by decide) ⟨2, by decide, by decide, by decide⟩

/-! ## C16, C17, C18: the descriptor table -/

/-- The chain `junk` that the never-assigned `next` of a new first node leads
to only shows when `find_empty` gave `NULL` and a node was made: it is then
linked behind the new node. -/
theorem add_junk (fuel : Nat) (u : Sys) (now : Nat) (name : List Nat) (m : Nat)
    (junk : List TNode) :
    add fuel u now name m junk =
      (add fuel u now name m []).map (fun r =>
        if find_empty u.fd_table = none ∧ r.1.isSome = true then
          (r.1, { r.2 with fd_table := r.2.fd_table ++ junk })
        else r) := by
  unfold add
  cases hg : get_file fuel u.fs name true with
  | none => rfl
  | some x =>
    obtain ⟨f, s1⟩ := x
    cases ht : find_empty u.fd_table with
    | none =>
      simp only []
      by_cases h1 : m = READ
      · rw [if_pos h1, if_pos h1]
        simp
      · rw [if_neg h1, if_neg h1]
        by_cases h2 : m = WRITE
        · rw [if_pos h2, if_pos h2]
          cases hc : (if f.name0 = 0x00 then (create_file fuel s1 now name 1).map (fun r => r.2)
              else some s1) with
          | none => rfl
          | some s2 =>
            simp only []
            cases htr : truncate_file fuel s2 name true with
            | none => rfl
            | some y => simp
        · rw [if_neg h2, if_neg h2]
          by_cases h3 : m = APPEND
          · rw [if_pos h3, if_pos h3]
            simp
          · rw [if_neg h3, if_neg h3]
            simp
    | some last =>
      have hid : (fun r : Option TNode × Sys =>
          if (some last : Option TNode) = none ∧ r.1.isSome = true then
            (r.1, { r.2 with fd_table := r.2.fd_table ++ junk })
          else r) = id := by
        funext r
        simp
      simp only []
      rw [hid, Option.map_id]
      rfl

/-- The node `add` makes when `find_empty` gave `NULL` has descriptor 3. -/
theorem add_first_fd (fuel : Nat) (u : Sys) (now : Nat) (name : List Nat) (m : Nat)
    (junk : List TNode) (node : TNode) (u1 : Sys) (hf : find_empty u.fd_table = none)
    (ha : add fuel u now name m junk = some (some node, u1)) : node.file_descriptor = 3 := by
  unfold add at ha
  rw [hf] at ha
  cases hg : get_file fuel u.fs name true with
  | none =>
    rw [hg] at ha
    exact absurd ha (by simp)
  | some x =>
    obtain ⟨f, s1⟩ := x
    rw [hg] at ha
    simp only [] at ha
    by_cases h1 : m = READ
    · rw [if_pos h1] at ha
      simp only [Option.some.injEq, Prod.mk.injEq] at ha
      rw [← ha.1]
    · rw [if_neg h1] at ha
      by_cases h2 : m = WRITE
      · rw [if_pos h2] at ha
        cases hc : (if f.name0 = 0x00 then (create_file fuel s1 now name 1).map (fun r => r.2)
            else some s1) with
        | none =>
          rw [hc] at ha
          exact absurd ha (by simp)
        | some s2 =>
          rw [hc] at ha
          simp only [] at ha
          cases htr : truncate_file fuel s2 name true with
          | none =>
            rw [htr] at ha
            exact absurd ha (by simp)
          | some y =>
            rw [htr] at ha
            simp only [Option.some.injEq, Prod.mk.injEq] at ha
            rw [← ha.1]
      · rw [if_neg h2] at ha
        by_cases h3 : m = APPEND
        · rw [if_pos h3] at ha
          simp only [Option.some.injEq, Prod.mk.injEq] at ha
          rw [← ha.1]
        · rw [if_neg h3] at ha
          simp at ha

/-- `f_open` with the chain `junk` behind a new first node, from `f_open`
with `NULL` there. -/
theorem f_open_junk (fuel : Nat) (u : Sys) (now : Nat) (fname : List Nat) (mode : Nat)
    (junk : List TNode) :
    f_open fuel u now fname mode junk =
      (f_open fuel u now fname mode []).map (fun r =>
        if find_empty u.fd_table = none ∧ r.1 = 3 then
          (r.1, { r.2 with fd_table := r.2.fd_table ++ junk })
        else r) := by
  unfold f_open
  rw [add_junk fuel u now fname mode junk]
  cases ha : add fuel u now fname mode [] with
  | none => rfl
  | some x =>
    obtain ⟨nd, u1⟩ := x
    cases nd with
    | none => simp
    | some node =>
      by_cases hf : find_empty u.fd_table = none
      · have h3 : node.file_descriptor = 3 := by
          exact add_first_fd fuel u now fname mode [] node u1 hf ha
        simp [hf, h3]
      · simp [hf]

/-- C16, the code at the failing input. After `f_open` three times from
`boot` the table holds the descriptors 3, 4, 5; after `f_close(4)` it holds
3 and 5; the next `f_open` returns 6 (one more than the descriptor of the
table's last node), not 4, the smallest descriptor not in use, whatever the
memory of the new node holds. -/
theorem f_open_skips_closed_descriptor :
    ex_open3.fd_table.map (fun n => n.file_descriptor) = [3, 4, 5] ∧
    (f_close ex_open3 4).1 = 0 ∧
    ex_closed4.fd_table.map (fun n => n.file_descriptor) = [3, 5] ∧
    ∀ junk, (f_open 5 ex_closed4 0 [47, 100] WRITE junk).map (fun r => r.1) = some 6 := by
  refine ⟨by decide, by decide, by decide, ?_⟩
  intro junk
  have h0 : (f_open 5 ex_closed4 0 [47, 100] WRITE []).map (fun r => r.1) = some 6 := by decide
  have hf : find_empty ex_closed4.fd_table ≠ none := by decide
  rw [f_open_junk]
  cases hx : f_open 5 ex_closed4 0 [47, 100] WRITE [] with
  | none =>
    rw [hx] at h0
    exact absurd h0 (by simp)
  | some r =>
    rw [hx] at h0
    simp only [Option.map_some', Option.some.injEq] at h0 ⊢
    rw [if_neg (fun c => hf c.1)]
    exact h0

/-- C17, the code at the failing input. No file is called `/n` on the fresh
filesystem (`get_file` gives the entry with `name[0] == 0`), and
`f_open("/n", READ)` sets `cur_errno = ERR_NOENT` but still returns the
descriptor 3 and leaves a node for it in the table, at its head (`junk` is
what the node's memory held for `next`). -/
theorem f_open_read_missing_file :
    (get_file 5 boot.fs [47, 110] true).map (fun r => r.1.name0) = some 0 ∧
    boot.fd_table = [] ∧
    ∀ junk, (f_open 5 boot 0 [47, 110] READ junk).map
        (fun r => (r.1, r.2.fd_table, r.2.cur_errno)) =
      some (3, { file_descriptor := 3, file_name := [47, 110], mode := READ,
                 file_pointer := 0 } :: junk, ERR_NOENT) := by
  refine ⟨by decide, by decide, ?_⟩
  intro junk
  have h0 : (f_open 5 boot 0 [47, 110] READ []).map
      (fun r => (r.1, r.2.fd_table, r.2.cur_errno)) =
    some (3, [{ file_descriptor := 3, file_name := [47, 110], mode := READ,
                file_pointer := 0 }], ERR_NOENT) := by decide
  have hf : find_empty boot.fd_table = none := by decide
  rw [f_open_junk]
  cases hx : f_open 5 boot 0 [47, 110] READ [] with
  | none =>
    rw [hx] at h0
    exact absurd h0 (by simp)
  | some r =>
    rw [hx] at h0
    simp only [Option.map_some', Option.some.injEq, Prod.mk.injEq] at h0 ⊢
    rw [if_pos ⟨hf, h0.1⟩]
    simp only [h0.1, h0.2.1, h0.2.2, List.singleton_append, and_self]

/-- C18, the code at the failing input. Descriptor 3 of `ex_open_a` is open
for `WRITE` at position 0 on the empty, writable file `/a` (256-byte blocks).
`f_write(3, buf, 300)` returns 300 and stores the 300 bytes in the file, but
leaves the descriptor's position at 65580, not at `0 + 300`:
`seek_data(0, 300)` takes the logical offset 0 for a position in block 0,
follows `fat[0]` (the configuration word, 256) and returns `256 * 256 + 44`. -/
theorem f_write_position_across_block :
    get_fd ex_open_a.fd_table 3 =
      some { file_descriptor := 3, file_name := [47, 97], mode := WRITE, file_pointer := 0 } ∧
    (get_file 5 ex_open_a.fs [47, 97] true).map (fun r => (r.1.size, r.1.perm &&& WRITE_PERM)) =
      some (0, WRITE_PERM) ∧
    (f_write 5 ex_open_a 0 3 ex_data 300).map
        (fun r => (r.1, (get_fd r.2.fd_table 3).map (fun n => n.file_pointer),
                   (get_file 5 r.2.fs [47, 97] true).map (fun x => x.1.size))) =
      some (300, some 65580, some 300) ∧
    (65580 : Int) ≠ 0 + 300 := by
  decide

/-! ## C11, C12: `mv` and `abs_path` -/

/-- C11, the code at the failing input. In `ex_dl` (`cur_errno` is 0) `/d`
is a directory and `/l` an existing link whose target `/t` does not exist.
`mv /d /l` raises no error (`cur_errno` stays 0) and changes the filesystem:
the slot of `/l` now holds the directory, `/d` is gone and `/t` has been
created as an empty regular file. `create_file` follows the dangling link,
creates its target and returns 0, so the check for a directory moved onto a
non-directory is never reached. -/
theorem f_mv_directory_onto_dangling_link :
    ex_dl.cur_errno = 0 ∧
    (get_file 5 ex_dl.fs [47, 100] false).map (fun r => r.1.type) = some DIRECTORY_FILE ∧
    (get_file 5 ex_dl.fs [47, 108] false).map (fun r => r.1.type) = some LINK_FILE ∧
    (get_file 5 ex_dl.fs [47, 116] false).map (fun r => r.1.name0) = some 0 ∧
    (f_mv 5 ex_dl 0 [] [[109, 118], [47, 100], [47, 108]]).map
        (fun u => (u.cur_errno,
          (get_file 5 u.fs [47, 108] false).map (fun r => r.1.type),
          (get_file 5 u.fs [47, 100] false).map (fun r => r.1.name0),
          (get_file 5 u.fs [47, 116] false).map (fun r => r.1.type))) =
      some (0, some DIRECTORY_FILE, some 0, some REGULAR_FILE) := by
  decide

/-- C12, the code at the failing input. For the absolute name `/a` the
source allocates the buffer and appends the name with `strcat` without
having written to the buffer; when the buffer starts with the bytes `x`, NUL
the result is `/x/a`, not `/a`. -/
theorem abs_path_absolute_uninitialised :
    abs_path [] [120] [47, 97] = [47, 120, 47, 97] ∧
    abs_path [] [120] [47, 97] ≠ [47, 97] := by
  decide

/-! ## C20: `p_nice` -/

/-- C20, the code at the failing input. In `ex_shell` the process 1 has
priority `MED` and status `RUN` and waits in the `MED` run queue.
`p_nice(1, -1)` sets its priority to `HIGH` and returns -1, but the process
stays in the `MED` queue and the `HIGH` queue stays empty: the priority is
assigned before `remove_pcb` is called on the queue of `pcb->prio`, so the
node is looked for in the `HIGH` queue, where it is not. -/
theorem p_nice_leaves_old_queue :
    ((ex_shell.pcb 1).prio, (ex_shell.pcb 1).status) = (Priority.MED, Status.RUN) ∧
    (ex_shell.queue_l, ex_shell.queue_m, ex_shell.queue_h) = ([], [1], []) ∧
    ex_shell.process_queue = [1] ∧
    (p_nice ex_shell 1 (-1)).1 = -1 ∧
    ((p_nice ex_shell 1 (-1)).2.pcb 1).prio = Priority.HIGH ∧
    ((p_nice ex_shell 1 (-1)).2.queue_l, (p_nice ex_shell 1 (-1)).2.queue_m,
      (p_nice ex_shell 1 (-1)).2.queue_h) = ([], [1], []) := by
  decide

/-! ## Lookup does not depend on `errno` -/

theorem enum_block_errno (s : FS) (x block : Nat) :
    ∀ (n i : Nat), enum_block { s with errno := x } block n i = enum_block s block n i := by
  intro n
  induction n with
  | zero => intro i; rfl
  | succ n ih =>
    intro i
    rw [enum_block, enum_block, ih]
    rfl

theorem enum_directory_errno (x : Nat) :
    ∀ (fuel : Nat) (s : FS) (block : Nat),
      enum_directory fuel { s with errno := x } block = enum_directory fuel s block := by
  intro fuel
  induction fuel with
  | zero => intro s block; rfl
  | succ fuel ih =>
    intro s block
    rw [enum_directory, enum_directory, enum_block_errno, ih]

theorem read_loop_errno (x : Nat) :
    ∀ (fuel : Nat) (s : FS) (block offset i size : Nat),
      read_loop fuel { s with errno := x } block offset i size =
        read_loop fuel s block offset i size := by
  intro fuel
  induction fuel with
  | zero => intro s block offset i size; rfl
  | succ fuel ih =>
    intro s block offset i size
    rw [read_loop, read_loop, ih]
    rfl

theorem read_data_errno (s : FS) (x position size : Nat) :
    read_data { s with errno := x } position size = read_data s position size := by
  unfold read_data
  exact read_loop_errno x _ s _ _ _ _

theorem follow_link_errno
    (ff : Option (List Nat) → Nat → Nat → Nat → Option (Entry × Nat))
    (s : FS) (x skip_flag : Nat) (e : Entry) (en : Nat) :
    follow_link ff { s with errno := x } skip_flag e en = follow_link ff s skip_flag e en := by
  unfold follow_link
  rw [show ({ s with errno := x } : FS).block_size = s.block_size from rfl, read_data_errno]

theorem find_file_errno (x : Nat) :
    ∀ (fuel : Nat) (s : FS) (name : Option (List Nat)) (block skip_flag en : Nat),
      find_file fuel { s with errno := x } name block skip_flag en =
        find_file fuel s name block skip_flag en := by
  intro fuel
  induction fuel with
  | zero =>
    intro s name block skip_flag en
    cases name <;> rfl
  | succ fuel ih =>
    intro s name block skip_flag en
    cases name with
    | none => rfl
    | some name =>
      rw [find_file, find_file, enum_directory_errno]
      have h : find_file fuel { s with errno := x } = find_file fuel s := by
        funext a b c d
        exact ih s a b c d
      rw [h]
      have h2 : follow_link (find_file fuel s) { s with errno := x } skip_flag =
          follow_link (find_file fuel s) s skip_flag := by
        funext e n
        exact follow_link_errno _ s x skip_flag e n
      rw [h2]

theorem find_directory_errno (fuel : Nat) (s : FS) (x : Nat) (dir : List (List Nat)) (en : Nat) :
    find_directory fuel { s with errno := x } dir en = find_directory fuel s dir en := by
  unfold find_directory
  have h : (fun t b n => find_file fuel { s with errno := x } (some t) b SKIP_ALL n) =
      (fun t b n => find_file fuel s (some t) b SKIP_ALL n) := by
    funext t b n
    exact find_file_errno x fuel s (some t) b SKIP_ALL n
  rw [h]

/-! The entry found does not depend on the `errno` handed in. -/

theorem find_directory_with_en (ff : List Nat → Nat → Nat → Option (Entry × Nat))
    (hff : ∀ t b en en2, (ff t b en).map Prod.fst = (ff t b en2).map Prod.fst) :
    ∀ (ts : List (List Nat)) (block en en2 : Nat),
      (find_directory_with ff ts block en).map Prod.fst =
        (find_directory_with ff ts block en2).map Prod.fst := by
  intro ts
  induction ts with
  | nil => intro block en en2; rfl
  | cons t ts ih =>
    intro block en en2
    have h := hff t block en en2
    rw [find_directory_with, find_directory_with]
    cases h1 : ff t block en with
    | none =>
      cases h2 : ff t block en2 with
      | none => rfl
      | some r2 => rw [h1, h2] at h; simp at h
    | some r1 =>
      cases h2 : ff t block en2 with
      | none => rw [h1, h2] at h; simp at h
      | some r2 =>
        rw [h1, h2] at h
        simp only [Option.map_some', Option.some.injEq] at h
        obtain ⟨e1, n1⟩ := r1
        obtain ⟨e2, n2⟩ := r2
        simp only at h
        subst h
        dsimp only
        by_cases c1 : e1.file.name0 = EOD_FLAG
        · rw [if_pos c1, if_pos c1]
        · rw [if_neg c1, if_neg c1]
          by_cases c2 : e1.file.type ≠ DIRECTORY_FILE
          · rw [if_pos c2, if_pos c2]
          · rw [if_neg c2, if_neg c2]
            by_cases c3 : e1.file.perm &&& EXECUTE_PERM = 0
            · rw [if_pos c3, if_pos c3]
            · rw [if_neg c3, if_neg c3]
              by_cases c4 : ts = []
              · rw [if_pos c4, if_pos c4]; rfl
              · rw [if_neg c4, if_neg c4]
                exact ih _ _ _

theorem map_fst_cases (a b : Option (Entry × Nat)) (h : a.map Prod.fst = b.map Prod.fst) :
    (a = none ∧ b = none) ∨ ∃ e n1 n2, a = some (e, n1) ∧ b = some (e, n2) := by
  cases a with
  | none =>
    cases b with
    | none => exact Or.inl ⟨rfl, rfl⟩
    | some r => simp at h
  | some r1 =>
    cases b with
    | none => simp at h
    | some r2 =>
      obtain ⟨e1, n1⟩ := r1
      obtain ⟨e2, n2⟩ := r2
      simp only [Option.map_some', Option.some.injEq] at h
      subst h
      exact Or.inr ⟨e1, n1, n2, rfl, rfl⟩

theorem follow_link_en
    (ff : Option (List Nat) → Nat → Nat → Nat → Option (Entry × Nat))
    (hff : ∀ name b k en en2, (ff name b k en).map Prod.fst = (ff name b k en2).map Prod.fst)
    (s : FS) (skip_flag : Nat) (e : Entry) (en en2 : Nat) :
    (follow_link ff s skip_flag e en).map Prod.fst =
      (follow_link ff s skip_flag e en2).map Prod.fst := by
  unfold follow_link
  dsimp only
  split
  · rfl
  · rcases map_fst_cases _ _ (find_directory_with_en (fun t b n => ff (some t) b SKIP_ALL n)
        (fun t b n n2 => hff (some t) b SKIP_ALL n n2)
        (split_path ((read_data s (s.block_size * e.file.first_block) e.file.size).2 ++ [0])).dir
        1 en en2) with ⟨h1, h2⟩ | ⟨d, n1, n2, h1, h2⟩
    · rw [h1, h2]
    · rw [h1, h2]
      dsimp only
      split
      · rfl
      · rcases map_fst_cases _ _ (hff
          (split_path ((read_data s (s.block_size * e.file.first_block) e.file.size).2 ++ [0])).name
          d.file.first_block skip_flag n1 n2) with ⟨h3, h4⟩ | ⟨e2, m1, m2, h3, h4⟩
        · rw [h3, h4]
        · rw [h3, h4]
          dsimp only
          split <;> rfl

theorem find_scan_en (follow : Entry → Nat → Option (Entry × Nat))
    (hf : ∀ e en en2, (follow e en).map Prod.fst = (follow e en2).map Prod.fst)
    (name : List Nat) (skip_flag : Nat) :
    ∀ (es : List Entry) (en en2 : Nat),
      (find_scan follow name skip_flag es en).map Prod.fst =
        (find_scan follow name skip_flag es en2).map Prod.fst := by
  intro es
  induction es with
  | nil => intro en en2; rfl
  | cons e rest ih =>
    intro en en2
    rw [find_scan, find_scan]
    split
    · rfl
    · split
      · rfl
      · split
        · split
          · exact hf e en en2
          · rfl
        · exact ih en en2

theorem find_file_en :
    ∀ (fuel : Nat) (s : FS) (name : Option (List Nat)) (block skip_flag en en2 : Nat),
      (find_file fuel s name block skip_flag en).map Prod.fst =
        (find_file fuel s name block skip_flag en2).map Prod.fst := by
  intro fuel
  induction fuel with
  | zero =>
    intro s name block skip_flag en en2
    cases name <;> rfl
  | succ fuel ih =>
    intro s name block skip_flag en en2
    cases name with
    | none => rfl
    | some name =>
      rw [find_file, find_file]
      cases enum_directory (fuel + 1) s block with
      | none => rfl
      | some entries =>
        dsimp only
        exact find_scan_en _ (fun e n n2 => follow_link_en _ (ih s) s skip_flag e n n2)
          name skip_flag entries en en2

theorem find_directory_en (fuel : Nat) (s : FS) (dir : List (List Nat)) (en en2 : Nat) :
    (find_directory fuel s dir en).map Prod.fst = (find_directory fuel s dir en2).map Prod.fst :=
  find_directory_with_en _ (fun t b n n2 => find_file_en fuel s (some t) b SKIP_ALL n n2)
    dir 1 en en2

/-- The lookup both `get_file` and `read_file` start with, redone in the
state `get_file` leaves (only `errno` differs): the same two entries. -/
theorem resolve_again (fuel : Nat) (s : FS) (x : Nat) (dir : List (List Nat))
    (name : Option (List Nat)) (skip_flag : Nat) (d e : Entry) (en en1 : Nat)
    (hd : find_directory fuel s dir s.errno = some (d, en))
    (he : find_file fuel s name d.file.first_block skip_flag en = some (e, en1)) :
    ∃ m m1, find_directory fuel { s with errno := x } dir x = some (d, m) ∧
      find_file fuel { s with errno := x } name d.file.first_block skip_flag m = some (e, m1) := by
  rcases map_fst_cases _ _ (find_directory_en fuel s dir s.errno x) with ⟨h1, _⟩ | ⟨d2, n1, n2, h1, h2⟩
  · rw [hd] at h1
    simp at h1
  · rw [hd] at h1
    simp only [Option.some.injEq, Prod.mk.injEq] at h1
    obtain ⟨hdd, _⟩ := h1
    subst hdd
    rcases map_fst_cases _ _ (find_file_en fuel s name d.file.first_block skip_flag en n2) with
      ⟨h3, _⟩ | ⟨e2, m1, m2, h3, h4⟩
    · rw [he] at h3
      simp at h3
    · rw [he] at h3
      simp only [Option.some.injEq, Prod.mk.injEq] at h3
      obtain ⟨hee, _⟩ := h3
      subst hee
      exact ⟨n2, m2, by rw [find_directory_errno]; exact h2, by rw [find_file_errno]; exact h4⟩

/-! ## C19: reading through a descriptor -/

theorem chain_bytes_errno (s : FS) (x : Nat) (L : List Nat) (p r : Nat) :
    chain_bytes { s with errno := x } L p r = chain_bytes s L p r := by
  have h : ∀ (L : List Nat) (k : Nat), chain_byte { s with errno := x } L k = chain_byte s L k := by
    intro L
    induction L with
    | nil => intro k; rfl
    | cons b rest ih =>
      intro k
      rw [chain_byte, chain_byte, ih]
      rfl
  unfold chain_bytes
  simp only [h]

theorem chain_bytes_first (s : FS) (b : Nat) (rest : List Nat) (o r : Nat)
    (h : o + r ≤ s.block_size) :
    chain_bytes s (b :: rest) o r = read_bytes s (phys s b + o) r := by
  unfold chain_bytes read_bytes
  apply List.map_congr_left
  intro j hj
  have hj2 : j < r := List.mem_range.mp hj
  rw [chain_byte, if_pos (by omega), Nat.add_assoc]

theorem chain_bytes_split (s : FS) (L : List Nat) (p a b : Nat) :
    chain_bytes s L p (a + b) = chain_bytes s L p a ++ chain_bytes s L (p + a) b := by
  unfold chain_bytes
  rw [List.range_add, List.map_append, List.map_map]
  congr 1
  apply List.map_congr_left
  intro j _
  simp only [Function.comp, Nat.add_assoc]

theorem chain_bytes_rest (s : FS) (b : Nat) (rest : List Nat) (p r : Nat) :
    chain_bytes s (b :: rest) (s.block_size + p) r = chain_bytes s rest p r := by
  unfold chain_bytes
  apply List.map_congr_left
  intro j _
  rw [chain_byte, if_neg (by omega)]
  congr 1
  omega

theorem read_loop_content :
    ∀ (M : List Nat) (fuel : Nat) (s : FS) (blk o i size : Nat),
      IsChain s.fat blk M → o < s.block_size → i ≤ size → size - i < fuel →
      size - i ≤ M.length * s.block_size - o →
      (read_loop fuel s blk o i size).2 = chain_bytes s M o (size - i) := by
  intro M
  induction M with
  | nil =>
    intro fuel s blk o i size hc ho hi hf hcap
    have hb : blk = LAST_BLOCK := hc
    have h0 : size - i = 0 := by simp at hcap; omega
    cases fuel with
    | zero => omega
    | succ fuel =>
      rw [read_loop, if_pos hb, h0]
      rfl
  | cons x xs ih =>
    intro fuel s blk o i size hc ho hi hf hcap
    obtain ⟨hb, hx, hrest⟩ := hc
    cases fuel with
    | zero => omega
    | succ fuel =>
      rw [read_loop, if_neg hb]
      by_cases h1 : size - i ≤ s.block_size - o
      · rw [if_pos h1, hx, chain_bytes_first s blk xs o (size - i) (by omega)]
      · rw [if_neg h1]
        have hlen : (x :: xs).length * s.block_size = xs.length * s.block_size + s.block_size := by
          rw [List.length_cons]; ring
        rw [hlen] at hcap
        have e2 := ih fuel s (s.fat blk) 0 (i + (s.block_size - o)) size hrest (by omega)
          (by omega) (by omega) (by omega)
        dsimp only
        rw [e2]
        have hsum : size - i = (s.block_size - o) + (size - (i + (s.block_size - o))) := by omega
        conv_rhs => rw [hsum]
        rw [chain_bytes_split, hx, chain_bytes_first s blk xs o _ (by omega)]
        congr 1
        have ho2 : o + (s.block_size - o) = s.block_size + 0 := by omega
        rw [ho2, chain_bytes_rest]

theorem chain_byte_drop (s : FS) :
    ∀ (L : List Nat) (q k : Nat),
      chain_byte s (L.drop q) k = chain_byte s L (q * s.block_size + k) := by
  intro L
  induction L with
  | nil =>
    intro q k
    simp [chain_byte]
  | cons b rest ih =>
    intro q k
    cases q with
    | zero => simp
    | succ q =>
      rw [List.drop_succ_cons, ih, chain_byte, if_neg]
      · congr 1
        have : (q + 1) * s.block_size = q * s.block_size + s.block_size := by ring
        omega
      · have : (q + 1) * s.block_size = q * s.block_size + s.block_size := by ring
        omega

theorem chain_bytes_drop (s : FS) (L : List Nat) (off r : Nat) :
    chain_bytes s (L.drop (off / s.block_size)) (off % s.block_size) r = chain_bytes s L off r := by
  unfold chain_bytes
  apply List.map_congr_left
  intro j _
  rw [chain_byte_drop s]
  congr 1
  have := Nat.div_add_mod off s.block_size
  have hc : s.block_size * (off / s.block_size) = off / s.block_size * s.block_size :=
    Nat.mul_comm _ _
  omega

/-- `read_file` on a readable regular file with a well-formed chain `L`, at
an offset that is 0 or inside the chain, for a count the chain holds: the
count is returned, the bytes are the file's, nothing but `errno` changes. -/
theorem read_file_content (fuel : Nat) (s : FS) (path_str : List Nat) (offset n : Nat)
    (d e : Entry) (en en1 : Nat) (L : List Nat)
    (hbs : 0 < s.block_size)
    (hd : find_directory fuel s (split_path path_str).dir s.errno = some (d, en))
    (hd0 : d.file.name0 ≠ EOD_FLAG)
    (he : find_file fuel s (split_path path_str).name d.file.first_block SKIP_ALL en =
            some (e, en1))
    (he0 : e.file.name0 ≠ EOD_FLAG)
    (hty : e.file.type = REGULAR_FILE)
    (her : e.file.perm &&& READ_PERM ≠ 0)
    (hchain : IsChain s.fat e.file.first_block L)
    (hoff : offset = 0 ∨ offset < L.length * s.block_size)
    (hn : n ≤ L.length * s.block_size - offset) :
    read_file fuel s path_str offset n =
      some ((n : Int), chain_bytes s L offset n, { s with errno := en1 }) := by
  have hnd : e.file.type ≠ DIRECTORY_FILE := by rw [hty]; decide
  have hpm : (s.block_size * e.file.first_block) % s.block_size = 0 := Nat.mul_mod_right _ _
  have hpd : (s.block_size * e.file.first_block) / s.block_size = e.file.first_block :=
    Nat.mul_div_cancel_left _ hbs
  have hoff2 : offset < s.block_size ∨ offset < L.length * s.block_size := by
    rcases hoff with h | h
    · exact Or.inl (by omega)
    · exact Or.inr h
  obtain ⟨blk, e1, e2⟩ := seek_loop_chain L (offset + 1) { s with errno := en1 }
    e.file.first_block offset hbs hchain hoff2
    (Nat.lt_succ_of_le (Nat.div_le_self _ _))
  have hseek : seek_data { s with errno := en1 } (s.block_size * e.file.first_block) offset =
      (((blk * s.block_size + offset % s.block_size : Nat) : Int), { s with errno := en1 }) := by
    unfold seek_data
    simp only [hpm, hpd, Nat.add_zero]
    exact e1
  have hm : offset % s.block_size < s.block_size := Nat.mod_lt _ hbs
  have hblk : (blk * s.block_size + offset % s.block_size) / s.block_size = blk := by
    rw [Nat.add_comm, Nat.add_mul_div_right _ _ hbs, Nat.div_eq_of_lt hm, Nat.zero_add]
  have hblm : (blk * s.block_size + offset % s.block_size) % s.block_size =
      offset % s.block_size := by
    rw [Nat.add_comm, Nat.add_mul_mod_self_right, Nat.mod_mod]
  have hcap : (L.drop (offset / s.block_size)).length * s.block_size - offset % s.block_size =
      L.length * s.block_size - offset := by
    rw [List.length_drop, Nat.sub_mul]
    have hdm := Nat.div_add_mod offset s.block_size
    have hmc : s.block_size * (offset / s.block_size) = offset / s.block_size * s.block_size :=
      Nat.mul_comm _ _
    omega
  obtain ⟨r1, _⟩ := read_loop_chain (L.drop (offset / s.block_size)) (n + 1)
    { s with errno := en1 } blk (offset % s.block_size) 0 n e2 hm (Nat.zero_le _) (by omega)
  have r3 := read_loop_content (L.drop (offset / s.block_size)) (n + 1)
    { s with errno := en1 } blk (offset % s.block_size) 0 n e2 hm (Nat.zero_le _) (by omega)
    (by rw [Nat.sub_zero]; exact le_of_le_of_eq hn hcap.symm)
  simp only [Nat.sub_zero, Nat.zero_add, hcap] at r1 r3
  rw [Nat.min_eq_left hn] at r1
  have r4 : (read_loop (n + 1) { s with errno := en1 } blk (offset % s.block_size) 0 n).2 =
      chain_bytes s L offset n := by
    rw [r3]
    have := chain_bytes_drop { s with errno := en1 } L offset n
    rw [← chain_bytes_errno s en1 L offset n]
    exact this
  unfold read_file
  simp only [hd, he]
  rw [if_neg hd0, if_neg he0, if_neg hnd, if_neg her]
  simp only [hseek]
  rw [if_neg (by omega)]
  simp only [Int.toNat_ofNat]
  unfold read_data
  simp only [hblk, hblm]
  rw [r1, r4]

theorem int32_small (x : Int) (h0 : -2 ^ 31 ≤ x) (h1 : x < 2 ^ 31) : int32 x = x := by
  unfold int32
  norm_num at h0 h1 ⊢
  omega

theorem get_fd_set_pointer :
    ∀ (t : List TNode) (fd q : Int) (node : TNode), get_fd t fd = some node →
      get_fd (set_pointer t fd q) fd = some { node with file_pointer := q } := by
  intro t
  induction t with
  | nil => intro fd q node h; simp [get_fd] at h
  | cons a rest ih =>
    intro fd q node h
    unfold get_fd at h
    rw [List.find?_cons] at h
    by_cases ha : a.file_descriptor = fd
    · simp only [ha, decide_True] at h
      simp only [Option.some.injEq] at h
      subst h
      rw [set_pointer, if_pos ha]
      unfold get_fd
      rw [List.find?_cons]
      simp [ha]
    · simp only [ha, decide_False] at h
      rw [set_pointer, if_neg ha]
      unfold get_fd
      rw [List.find?_cons]
      simp only [ha, decide_False]
      exact ih fd q node h

theorem get_file_found (fuel : Nat) (s : FS) (path_str : List Nat) (d e : Entry) (en en1 : Nat)
    (hd : find_directory fuel s (split_path path_str).dir s.errno = some (d, en))
    (hd0 : d.file.name0 ≠ EOD_FLAG)
    (he : find_file fuel s (split_path path_str).name d.file.first_block SKIP_ALL en =
            some (e, en1))
    (he0 : e.file.name0 ≠ EOD_FLAG) :
    get_file fuel s path_str true = some (e.file, { s with errno := en1 }) := by
  unfold get_file
  simp only [hd, if_true, he]
  rw [if_neg hd0, if_neg he0]

theorem seek_loop_end :
    ∀ (L : List Nat) (fuel : Nat) (s : FS) (b : Nat),
      0 < s.block_size → IsChain s.fat b L → L ≠ [] → L.length < fuel →
      seek_loop fuel s b (L.length * s.block_size) =
        if (extend_data s (L.getLastD 0)).1 = 0 then (-1, (extend_data s (L.getLastD 0)).2)
        else ((((extend_data s (L.getLastD 0)).1 * s.block_size : Nat) : Int),
              (extend_data s (L.getLastD 0)).2) := by
  intro L
  induction L with
  | nil => intro fuel s b _ _ h; exact absurd rfl h
  | cons x xs ih =>
    intro fuel s b hbs hc _ hf
    obtain ⟨hb, hx, hrest⟩ := hc
    have hlen : (x :: xs).length * s.block_size = xs.length * s.block_size + s.block_size := by
      rw [List.length_cons]; ring
    cases fuel with
    | zero => exact absurd hf (Nat.not_lt_zero _)
    | succ fuel =>
      rw [seek_loop, if_neg (by rw [hlen]; omega)]
      have hsub : (x :: xs).length * s.block_size - s.block_size = xs.length * s.block_size := by
        rw [hlen]; omega
      rw [hsub]
      cases xs with
      | nil =>
        have hl : s.fat b = LAST_BLOCK := hrest
        rw [if_pos hl]
        simp only [List.length_nil, Nat.zero_mul, List.getLastD_cons, List.getLastD_nil]
        rw [hx]
        by_cases h0 : (extend_data s b).1 = 0
        · rw [if_pos h0, if_pos h0]
        · rw [if_neg h0, if_neg h0]
          cases fuel with
          | zero => simp at hf
          | succ fuel =>
            have hbs2 : 0 < (extend_data s b).2.block_size := by
              rcases extend_data_cases s b with ⟨_, h⟩ | ⟨i, _, h⟩ <;> rw [h] <;> exact hbs
            have hbe : (extend_data s b).2.block_size = s.block_size := by
              rcases extend_data_cases s b with ⟨_, h⟩ | ⟨i, _, h⟩ <;> rw [h]
            rw [seek_loop, if_pos hbs2, hbe, Nat.add_zero]
      | cons y ys =>
        have hnl : s.fat b ≠ LAST_BLOCK := hrest.1
        rw [if_neg hnl]
        have := ih fuel s (s.fat b) hbs hrest (by simp) (by simpa using hf)
        rw [this]
        simp only [List.getLastD_cons]

theorem hasFree_errno (s : FS) (x : Nat) : HasFree { s with errno := x } ↔ HasFree s :=
  Iff.rfl

theorem extend_data_zero_iff (s : FS) (block : Nat) : (extend_data s block).1 = 0 ↔ ¬ HasFree s := by
  rcases extend_data_cases s block with ⟨hn, he⟩ | ⟨i, hi, he⟩
  · rw [he]
    exact ⟨fun _ => hn, fun _ => rfl⟩
  · rw [he]
    have hf : HasFree s := ⟨i, hi.1, hi.2.1, hi.2.2.1⟩
    constructor
    · intro h
      have h1 := hi.1
      have h2 : i = 0 := h
      omega
    · intro h
      exact absurd hf h

theorem extend_data_table (s : FS) (block : Nat) :
    (extend_data s block).2.block_size = s.block_size ∧
    (extend_data s block).2.fat_blocks = s.fat_blocks := by
  rcases extend_data_cases s block with ⟨_, h⟩ | ⟨i, _, h⟩ <;> rw [h] <;> exact ⟨rfl, rfl⟩

/-- `read_file` at the offset that ends the chain's last block: `seek_data`
extends the chain first; the call returns 0 when a block was free and `-1`
when none was. -/
theorem read_file_at_end (fuel : Nat) (s : FS) (path_str : List Nat)
    (d e : Entry) (en en1 : Nat) (L : List Nat)
    (hbs : 0 < s.block_size)
    (hd : find_directory fuel s (split_path path_str).dir s.errno = some (d, en))
    (hd0 : d.file.name0 ≠ EOD_FLAG)
    (he : find_file fuel s (split_path path_str).name d.file.first_block SKIP_ALL en =
            some (e, en1))
    (he0 : e.file.name0 ≠ EOD_FLAG)
    (hty : e.file.type = REGULAR_FILE)
    (her : e.file.perm &&& READ_PERM ≠ 0)
    (hchain : IsChain s.fat e.file.first_block L)
    (hL : L ≠ []) :
    read_file fuel s path_str (L.length * s.block_size) 0 =
      some (if (extend_data { s with errno := en1 } (L.getLastD 0)).1 = 0 then -1 else 0, [],
            (extend_data { s with errno := en1 } (L.getLastD 0)).2) := by
  have hnd : e.file.type ≠ DIRECTORY_FILE := by rw [hty]; decide
  have hpm : (s.block_size * e.file.first_block) % s.block_size = 0 := Nat.mul_mod_right _ _
  have hpd : (s.block_size * e.file.first_block) / s.block_size = e.file.first_block :=
    Nat.mul_div_cancel_left _ hbs
  have hlen : L.length < L.length * s.block_size + 1 := by
    have : L.length * 1 ≤ L.length * s.block_size := Nat.mul_le_mul_left _ hbs
    omega
  have hseek := seek_loop_end L (L.length * s.block_size + 1) { s with errno := en1 }
    e.file.first_block hbs hchain hL hlen
  unfold read_file
  simp only [hd, he]
  rw [if_neg hd0, if_neg he0, if_neg hnd, if_neg her]
  unfold seek_data
  simp only [hpm, hpd, Nat.add_zero]
  have hseek2 : seek_loop (L.length * s.block_size + 1) { s with errno := en1 }
      e.file.first_block (L.length * s.block_size) = _ := hseek
  rw [hseek2]
  by_cases h0 : (extend_data { s with errno := en1 } (L.getLastD 0)).1 = 0
  · rw [if_pos h0, if_pos h0]
    dsimp only
    rw [if_pos rfl]
  · rw [if_neg h0, if_neg h0]
    dsimp only
    rw [if_neg (by omega)]
    simp only [Int.toNat_ofNat]
    unfold read_data
    rw [read_loop]
    split
    · rfl
    · rw [if_pos (Nat.zero_le _)]
      rfl

/-! ## Lookups in states that agree on the metadata -/

theorem sameSlot_slotEq (s s2 : FS) (D K : List Nat) (hag : Agree s s2 D K) (e2 e : Entry)
    (h : SameSlot s s2 D e2 e) : SlotEq e2 e := by
  rcases h with ⟨h1, h2⟩ | ⟨h1, h2⟩ | ⟨b, hb, i, hi, h1, h2⟩
  · rw [h1, h2]
    exact ⟨rfl, rfl, rfl, rfl, fun _ => rfl, fun _ => ⟨rfl, rfl⟩⟩
  · rw [h1, h2]
    exact ⟨rfl, rfl, rfl, rfl, fun _ => rfl, fun _ => ⟨rfl, rfl⟩⟩
  · rw [h1, h2]
    exact (hag.2.2.1 b hb).2 i hi

theorem slotEq_name0 (e2 e : Entry) (h : SlotEq e2 e) : e2.file.name0 = e.file.name0 := by
  unfold File.name0
  rw [h.2.1]

theorem enum_block_agree (s s2 : FS) (D K : List Nat) (hag : Agree s s2 D K) (b : Nat)
    (hb : b ∈ D) :
    ∀ (n i : Nat), i + n ≤ s.block_size / 64 →
      (enum_block s2 b n i).2 = (enum_block s b n i).2 ∧
      List.Forall₂ (SameSlot s s2 D) (enum_block s2 b n i).1 (enum_block s b n i).1 := by
  intro n
  induction n with
  | zero =>
    intro i _
    exact ⟨rfl, List.Forall₂.nil⟩
  | succ n ih =>
    intro i hi
    have hss : SameSlot s s2 D (slot s2 b i) (slot s b i) :=
      Or.inr (Or.inr ⟨b, hb, i, by omega, rfl, rfl⟩)
    have hn0 := slotEq_name0 _ _ (sameSlot_slotEq s s2 D K hag _ _ hss)
    have h2 : enum_block s2 b (n + 1) i =
        if (slot s2 b i).file.name0 = EOD_FLAG then ([slot s2 b i], true)
        else ((slot s2 b i :: (enum_block s2 b n (i + 1)).1), (enum_block s2 b n (i + 1)).2) := by
      rw [enum_block]; rfl
    have h1 : enum_block s b (n + 1) i =
        if (slot s b i).file.name0 = EOD_FLAG then ([slot s b i], true)
        else ((slot s b i :: (enum_block s b n (i + 1)).1), (enum_block s b n (i + 1)).2) := by
      rw [enum_block]; rfl
    rw [h1, h2, hn0]
    by_cases h0 : (slot s b i).file.name0 = EOD_FLAG
    · rw [if_pos h0, if_pos h0]
      exact ⟨rfl, List.Forall₂.cons hss List.Forall₂.nil⟩
    · rw [if_neg h0, if_neg h0]
      obtain ⟨e1, e2⟩ := ih (i + 1) (by omega)
      exact ⟨e1, List.Forall₂.cons hss e2⟩

theorem enum_directory_agree (s s2 : FS) (D K : List Nat) (hm : MetaClosed s D K)
    (hag : Agree s s2 D K) :
    ∀ (fuel b : Nat), b ∈ D →
      (enum_directory fuel s2 b = none ∧ enum_directory fuel s b = none) ∨
      ∃ es2 es, enum_directory fuel s2 b = some es2 ∧ enum_directory fuel s b = some es ∧
        List.Forall₂ (SameSlot s s2 D) es2 es := by
  intro fuel
  induction fuel with
  | zero => intro b _; exact Or.inl ⟨rfl, rfl⟩
  | succ fuel ih =>
    intro b hb
    obtain ⟨e1, e2⟩ := enum_block_agree s s2 D K hag b hb (s.block_size / 64) 0 (by omega)
    rw [enum_directory, enum_directory, hag.1, e1]
    by_cases hflag : (enum_block s b (s.block_size / 64) 0).2 = true
    · right
      rw [if_pos hflag, if_pos hflag]
      exact ⟨_, _, rfl, rfl, e2⟩
    · rw [if_neg hflag, if_neg hflag]
      have hnext : s.fat b ∈ D := hm.dir_next b hb (by simpa using hflag)
      rw [(hag.2.2.1 b hb).1]
      rcases ih (s.fat b) hnext with ⟨h1, h2⟩ | ⟨es2, es, h1, h2, h3⟩
      · left
        rw [h1, h2]
        exact ⟨rfl, rfl⟩
      · right
        rw [h1, h2]
        exact ⟨_, _, rfl, rfl, List.rel_append e2 h3⟩

theorem phys_agree (s s2 : FS) (D K : List Nat) (hag : Agree s s2 D K) (b : Nat) :
    phys s2 b = phys s b := by
  unfold phys
  rw [hag.1, hag.2.1]

theorem read_bytes_agree (s s2 : FS) (D K : List Nat) (hag : Agree s s2 D K) (b : Nat)
    (hb : b ∈ K) (o n : Nat) (h : o + n ≤ s.block_size) :
    read_bytes s2 (phys s2 b + o) n = read_bytes s (phys s b + o) n := by
  unfold read_bytes
  rw [phys_agree s s2 D K hag]
  apply List.map_congr_left
  intro k hk
  have hk2 : k < n := List.mem_range.mp hk
  rw [Nat.add_assoc]
  exact (hag.2.2.2 b hb).2 (o + k) (by omega)

theorem read_loop_agree (s s2 : FS) (D K : List Nat) (hm : MetaClosed s D K)
    (hag : Agree s s2 D K) :
    ∀ (fuel blk o i size : Nat), (blk ∈ K ∨ blk = LAST_BLOCK) → o ≤ s.block_size →
      read_loop fuel s2 blk o i size = read_loop fuel s blk o i size := by
  intro fuel
  induction fuel with
  | zero => intro blk o i size _ _; rfl
  | succ fuel ih =>
    intro blk o i size hblk ho
    rw [read_loop, read_loop]
    by_cases hl : blk = LAST_BLOCK
    · rw [if_pos hl, if_pos hl]
    · rw [if_neg hl, if_neg hl]
      have hk : blk ∈ K := by
        rcases hblk with h | h
        · exact h
        · exact absurd h hl
      rw [hag.1]
      by_cases h1 : size - i ≤ s.block_size - o
      · rw [if_pos h1, if_pos h1, read_bytes_agree s s2 D K hag blk hk o _ (by omega)]
      · rw [if_neg h1, if_neg h1, read_bytes_agree s s2 D K hag blk hk o _ (by omega),
          (hag.2.2.2 blk hk).1, ih (s.fat blk) 0 _ size (hm.link_next blk hk) (Nat.zero_le _)]

theorem read_data_agree (s s2 : FS) (D K : List Nat) (hm : MetaClosed s D K)
    (hag : Agree s s2 D K) (hbs : 0 < s.block_size) (fb size : Nat)
    (hfb : fb ∈ K ∨ fb = LAST_BLOCK) :
    read_data s2 (s2.block_size * fb) size = read_data s (s.block_size * fb) size := by
  unfold read_data
  rw [hag.1, Nat.mul_div_cancel_left _ hbs, Nat.mul_mod_right]
  exact read_loop_agree s s2 D K hm hag _ _ _ _ _ hfb (Nat.zero_le _)

theorem sameResult_cases (s s2 : FS) (D : List Nat) (r2 r : Option (Entry × Nat))
    (h : SameResult s s2 D r2 r) :
    (r2 = none ∧ r = none) ∨
    ∃ e2 e n, r2 = some (e2, n) ∧ r = some (e, n) ∧ SameSlot s s2 D e2 e := by
  cases r2 with
  | none =>
    cases r with
    | none => exact Or.inl ⟨rfl, rfl⟩
    | some x => exact absurd h (by simp [SameResult])
  | some x2 =>
    cases r with
    | none => exact absurd h (by simp [SameResult])
    | some x =>
      obtain ⟨e2, n2⟩ := x2
      obtain ⟨e, n⟩ := x
      have h1 : n2 = n ∧ SameSlot s s2 D e2 e := h
      obtain ⟨h2, h3⟩ := h1
      subst h2
      exact Or.inr ⟨e2, e, n2, rfl, rfl, h3⟩

theorem sameResult_some (s s2 : FS) (D : List Nat) (e2 e : Entry) (n : Nat)
    (h : SameSlot s s2 D e2 e) : SameResult s s2 D (some (e2, n)) (some (e, n)) :=
  ⟨rfl, h⟩

theorem sameSlot_dir_block (s s2 : FS) (D K : List Nat) (hm : MetaClosed s D K)
    (e2 e : Entry) (h : SameSlot s s2 D e2 e) (h0 : e.file.name0 ≠ EOD_FLAG)
    (hty : e.file.type = DIRECTORY_FILE) : e.file.first_block ∈ D := by
  rcases h with ⟨_, h2⟩ | ⟨_, h2⟩ | ⟨b, hb, i, hi, h1, _⟩
  · rw [h2]
    exact hm.root_in
  · rw [h2] at h0
    exact absurd rfl h0
  · rw [h1]
    rw [h1] at hty
    exact hm.dir_slot b hb i hi hty

theorem find_directory_with_agree (s s2 : FS) (D K : List Nat) (hm : MetaClosed s D K)
    (hag : Agree s s2 D K)
    (ff2 ff : List Nat → Nat → Nat → Option (Entry × Nat))
    (hff : ∀ t b en, b ∈ D → SameResult s s2 D (ff2 t b en) (ff t b en)) :
    ∀ (ts : List (List Nat)) (block en : Nat), block ∈ D →
      SameResult s s2 D (find_directory_with ff2 ts block en)
        (find_directory_with ff ts block en) := by
  intro ts
  induction ts with
  | nil =>
    intro block en _
    exact sameResult_some s s2 D root root en (Or.inl ⟨rfl, rfl⟩)
  | cons t ts ih =>
    intro block en hb
    rw [find_directory_with, find_directory_with]
    rcases sameResult_cases s s2 D _ _ (hff t block en hb) with ⟨h1, h2⟩ | ⟨e2, e, n, h1, h2, h3⟩
    · rw [h1, h2]
      trivial
    · rw [h1, h2]
      have hse := sameSlot_slotEq s s2 D K hag e2 e h3
      have hn0 := slotEq_name0 e2 e hse
      dsimp only
      rw [hn0, hse.2.2.1, hse.2.2.2.1]
      by_cases c1 : e.file.name0 = EOD_FLAG
      · rw [if_pos c1, if_pos c1]
        exact sameResult_some s s2 D eod eod _ (Or.inr (Or.inl ⟨rfl, rfl⟩))
      · rw [if_neg c1, if_neg c1]
        by_cases c2 : e.file.type ≠ DIRECTORY_FILE
        · rw [if_pos c2, if_pos c2]
          exact sameResult_some s s2 D eod eod _ (Or.inr (Or.inl ⟨rfl, rfl⟩))
        · rw [if_neg c2, if_neg c2]
          have hty : e.file.type = DIRECTORY_FILE := not_not.mp c2
          by_cases c3 : e.file.perm &&& EXECUTE_PERM = 0
          · rw [if_pos c3, if_pos c3]
            exact sameResult_some s s2 D eod eod _ (Or.inr (Or.inl ⟨rfl, rfl⟩))
          · rw [if_neg c3, if_neg c3]
            by_cases c4 : ts = []
            · rw [if_pos c4, if_pos c4]
              exact sameResult_some s s2 D e2 e n h3
            · rw [if_neg c4, if_neg c4, hse.2.2.2.2.1 hty]
              exact ih _ _ (sameSlot_dir_block s s2 D K hm e2 e h3 c1 hty)

theorem follow_link_agree (s s2 : FS) (D K : List Nat) (hm : MetaClosed s D K)
    (hag : Agree s s2 D K) (hbs : 0 < s.block_size)
    (ff2 ff : Option (List Nat) → Nat → Nat → Nat → Option (Entry × Nat))
    (hff : ∀ name b k en, b ∈ D → SameResult s s2 D (ff2 name b k en) (ff name b k en))
    (skip_flag : Nat) (e2 e : Entry) (en : Nat) (hss : SameSlot s s2 D e2 e)
    (hlink : e.file.type = LINK_FILE) :
    SameResult s s2 D (follow_link ff2 s2 skip_flag e2 en) (follow_link ff s skip_flag e en) := by
  have hse := sameSlot_slotEq s s2 D K hag e2 e hss
  have hfb : e.file.first_block ∈ K ∨ e.file.first_block = LAST_BLOCK := by
    rcases hss with ⟨_, h2⟩ | ⟨_, h2⟩ | ⟨b, hb, i, hi, h1, _⟩
    · rw [h2] at hlink
      exact absurd hlink (by decide)
    · rw [h2] at hlink
      exact absurd hlink (by decide)
    · rw [h1]
      rw [h1] at hlink
      exact hm.link_slot b hb i hi hlink
  unfold follow_link
  rw [(hse.2.2.2.2.2 hlink).1, (hse.2.2.2.2.2 hlink).2,
    read_data_agree s s2 D K hm hag hbs e.file.first_block e.file.size hfb]
  dsimp only
  split
  · trivial
  · rcases sameResult_cases s s2 D _ _ (find_directory_with_agree s s2 D K hm hag
        (fun t b n => ff2 (some t) b SKIP_ALL n) (fun t b n => ff (some t) b SKIP_ALL n)
        (fun t b n hb => hff (some t) b SKIP_ALL n hb)
        (split_path ((read_data s (s.block_size * e.file.first_block) e.file.size).2 ++ [0])).dir
        1 en hm.root_in) with ⟨h1, h2⟩ | ⟨d2, d, n, h1, h2, h3⟩
    · rw [h1, h2]
      trivial
    · rw [h1, h2]
      have hsd := sameSlot_slotEq s s2 D K hag d2 d h3
      have hdn0 := slotEq_name0 d2 d hsd
      dsimp only
      rw [hdn0, hsd.2.2.1]
      by_cases c1 : d.file.name0 = EOD_FLAG ∨ d.file.type ≠ DIRECTORY_FILE
      · rw [if_pos c1, if_pos c1]
        exact sameResult_some s s2 D e2 e n hss
      · rw [if_neg c1, if_neg c1]
        have c2 : d.file.name0 ≠ EOD_FLAG := fun h => c1 (Or.inl h)
        have c3 : d.file.type = DIRECTORY_FILE := not_not.mp (fun h => c1 (Or.inr h))
        rw [hsd.2.2.2.2.1 c3]
        rcases sameResult_cases s s2 D _ _ (hff
            (split_path
              ((read_data s (s.block_size * e.file.first_block) e.file.size).2 ++ [0])).name
            d.file.first_block skip_flag n
            (sameSlot_dir_block s s2 D K hm d2 d h3 c2 c3)) with
          ⟨h4, h5⟩ | ⟨x2, x, m, h4, h5, h6⟩
        · rw [h4, h5]
          trivial
        · rw [h4, h5]
          have hsx := sameSlot_slotEq s s2 D K hag x2 x h6
          dsimp only
          rw [slotEq_name0 x2 x hsx]
          split
          · exact sameResult_some s s2 D x2 x m h6
          · exact sameResult_some s s2 D e2 e m hss

theorem find_scan_agree (s s2 : FS) (D K : List Nat) (hag : Agree s s2 D K)
    (follow2 follow : Entry → Nat → Option (Entry × Nat))
    (hf : ∀ e2 e en, SameSlot s s2 D e2 e → e.file.type = LINK_FILE →
      SameResult s s2 D (follow2 e2 en) (follow e en))
    (name : List Nat) (skip_flag : Nat) :
    ∀ (es2 es : List Entry) (en : Nat), List.Forall₂ (SameSlot s s2 D) es2 es →
      SameResult s s2 D (find_scan follow2 name skip_flag es2 en)
        (find_scan follow name skip_flag es en) := by
  intro es2 es en h
  induction h with
  | nil => trivial
  | @cons e2 e l2 l hss _ ih =>
    have hse := sameSlot_slotEq s s2 D K hag e2 e hss
    rw [find_scan, find_scan, slotEq_name0 e2 e hse, hse.2.1, hse.2.2.1]
    split
    · exact sameResult_some s s2 D e2 e en hss
    · split
      · exact sameResult_some s s2 D e2 e en hss
      · split
        · split
          · rename_i hl
            exact hf e2 e en hss hl.1
          · exact sameResult_some s s2 D e2 e en hss
        · exact ih

theorem find_file_agree (s s2 : FS) (D K : List Nat) (hm : MetaClosed s D K)
    (hag : Agree s s2 D K) (hbs : 0 < s.block_size) :
    ∀ (fuel : Nat) (name : Option (List Nat)) (b skip_flag en : Nat), b ∈ D →
      SameResult s s2 D (find_file fuel s2 name b skip_flag en)
        (find_file fuel s name b skip_flag en) := by
  intro fuel
  induction fuel with
  | zero =>
    intro name b skip_flag en _
    cases name with
    | none => exact sameResult_some s s2 D root root en (Or.inl ⟨rfl, rfl⟩)
    | some name => trivial
  | succ fuel ih =>
    intro name b skip_flag en hb
    cases name with
    | none => exact sameResult_some s s2 D root root en (Or.inl ⟨rfl, rfl⟩)
    | some name =>
      rw [find_file, find_file]
      rcases enum_directory_agree s s2 D K hm hag (fuel + 1) b hb with
        ⟨h1, h2⟩ | ⟨es2, es, h1, h2, h3⟩
      · rw [h1, h2]
        trivial
      · rw [h1, h2]
        dsimp only
        exact find_scan_agree s s2 D K hag _ _
          (fun e2 e n hss hl => follow_link_agree s s2 D K hm hag hbs _ _ ih skip_flag e2 e n
            hss hl)
          name skip_flag es2 es en h3

theorem find_directory_agree (s s2 : FS) (D K : List Nat) (hm : MetaClosed s D K)
    (hag : Agree s s2 D K) (hbs : 0 < s.block_size) (fuel : Nat) (dir : List (List Nat))
    (en : Nat) :
    SameResult s s2 D (find_directory fuel s2 dir en) (find_directory fuel s dir en) :=
  find_directory_with_agree s s2 D K hm hag _ _
    (fun t b n hb => find_file_agree s s2 D K hm hag hbs fuel (some t) b SKIP_ALL n hb)
    dir 1 en hm.root_in

set_option maxRecDepth 100000 in
set_option maxHeartbeats 4000000 in
/-- C19, counterexample. In `ex_full_eof` no FAT entry is free, `/a` is a
readable regular file of size 32256 (126 blocks of 256 bytes) and descriptor
3 is open for reading at position 32256. `f_read(3, 10, buf)` returns `-1`,
not `min(10, 32256 - 32256) = 0`: `read_file` seeks to the offset with
`seek_data`, which at the end of the last block asks for a new block. -/
theorem f_read_end_of_full_disk :
    (get_file 5 ex_full_eof.fs [47, 97] true).map
        (fun r => (r.1.type, r.1.size, r.1.perm &&& READ_PERM)) =
      some (REGULAR_FILE, 32256, READ_PERM) ∧
    get_fd ex_full_eof.fd_table 3 =
      some { file_descriptor := 3, file_name := [47, 97], mode := READ, file_pointer := 32256 } ∧
    (f_read 5 ex_full_eof 3 10).map (fun r => r.1) = some (-1) ∧
    (-1 : Int) ≠ ((min 10 (32256 - 32256) : Nat) : Int) := by
  decide

/-- C19, amended. Descriptor read: let `fd >= 3` be a descriptor at position
`p` whose name resolves to a regular file `e` of size `s` with a well-formed
chain `L` that holds the size. If the descriptor was opened `READ` and the
file has the read bit, then: when `p <= s` and `p` is 0 or inside the chain's
blocks, `f_read(fd, n, buf)` returns `min(n, s - p)`, copies exactly the
file's bytes `p..p+result-1` into `buf`, advances the position by the
returned count and changes neither the FAT nor the data; when `p > s` it
returns 0 and changes nothing; when `p = s` is the end of the chain's last
block, `read_file` first extends the chain: the call returns 0 and keeps
the position if a FAT entry is free, and returns `-1`, changing neither the
table nor the FAT nor the data, if none is. On a `WRITE`/`APPEND` descriptor it
returns `-1` and changes nothing, and on a file without the read bit it
returns `-1` and leaves the table, the FAT and the data unchanged. -/
theorem f_read_post (fuel : Nat) (u : Sys) (fd : Int) (n p : Nat) (node : TNode)
    (d e : Entry) (en en1 : Nat) (L : List Nat)
    (hfd : 3 ≤ fd) (hnode : get_fd u.fd_table fd = some node)
    (hp : node.file_pointer = (p : Int)) (hp31 : p < 2 ^ 31)
    (hbs : 0 < u.fs.block_size)
    (hd : find_directory fuel u.fs (split_path node.file_name).dir u.fs.errno = some (d, en))
    (hd0 : d.file.name0 ≠ EOD_FLAG)
    (he : find_file fuel u.fs (split_path node.file_name).name d.file.first_block SKIP_ALL en =
            some (e, en1))
    (he0 : e.file.name0 ≠ EOD_FLAG)
    (hty : e.file.type = REGULAR_FILE)
    (hchain : IsChain u.fs.fat e.file.first_block L)
    (hsz : e.file.size ≤ L.length * u.fs.block_size)
    (hs31 : e.file.size < 2 ^ 31) :
    (node.mode = READ → e.file.perm &&& READ_PERM ≠ 0 → p ≤ e.file.size →
      (p = 0 ∨ p < L.length * u.fs.block_size) →
      ∃ u2, f_read fuel u fd n =
          some (((min n (e.file.size - p) : Nat) : Int),
                chain_bytes u.fs L p (min n (e.file.size - p)), u2) ∧
        get_fd u2.fd_table fd =
          some { node with file_pointer := ((p + min n (e.file.size - p) : Nat) : Int) } ∧
        u2.fs.fat = u.fs.fat ∧ u2.fs.disk = u.fs.disk) ∧
    (node.mode = READ → e.file.perm &&& READ_PERM ≠ 0 → e.file.size < p →
      ∃ u2, f_read fuel u fd n = some (0, [], u2) ∧ u2.fd_table = u.fd_table ∧
        u2.fs.fat = u.fs.fat ∧ u2.fs.disk = u.fs.disk) ∧
    (node.mode = READ → e.file.perm &&& READ_PERM ≠ 0 → L ≠ [] →
      p = L.length * u.fs.block_size → e.file.size = p → HasFree u.fs →
      ∃ u2, f_read fuel u fd n = some (0, [], u2) ∧
        get_fd u2.fd_table fd = some { node with file_pointer := (p : Int) }) ∧
    (node.mode = READ → e.file.perm &&& READ_PERM ≠ 0 → L ≠ [] →
      p = L.length * u.fs.block_size → e.file.size = p → ¬ HasFree u.fs →
      ∃ u2, f_read fuel u fd n = some (-1, [], u2) ∧ u2.fd_table = u.fd_table ∧
        u2.fs.fat = u.fs.fat ∧ u2.fs.disk = u.fs.disk) ∧
    (node.mode ≠ READ → f_read fuel u fd n = some (-1, [], u)) ∧
    (node.mode = READ → e.file.perm &&& READ_PERM = 0 →
      ∃ u2, f_read fuel u fd n = some (-1, [], u2) ∧ u2.fd_table = u.fd_table ∧
        u2.fs.fat = u.fs.fat ∧ u2.fs.disk = u.fs.disk) := by
  have hfd2 : ¬ fd < 3 := by omega
  have hget := get_file_found fuel u.fs node.file_name d e en en1 hd hd0 he he0
  have h231 : (2 : Int) ^ 31 = 2147483648 := by norm_num
  have h231n : (2 : Nat) ^ 31 = 2147483648 := by norm_num
  have h232 : (2 : Int) ^ 32 = 4294967296 := by norm_num
  rw [h231n] at hp31 hs31
  refine ⟨?_, ?_, ?_, ?_, ?_, ?_⟩
  · intro hmode her hps hpin
    have hr0 : int32 ((e.file.size : Int) - (p : Int)) = ((e.file.size - p : Nat) : Int) := by
      rw [int32_small _ (by rw [h231]; omega) (by rw [h231]; omega)]
      omega
    have hpm : ¬ ((p : Int) % 2 ^ 32 > (e.file.size : Int)) := by
      rw [h232]
      omega
    have hrr : (if ((e.file.size - p : Nat) : Int) > (n : Int) then (n : Int)
        else ((e.file.size - p : Nat) : Int)) = ((min n (e.file.size - p) : Nat) : Int) := by
      split <;> omega
    obtain ⟨m, m1, hd2, he2⟩ := resolve_again fuel u.fs en1 (split_path node.file_name).dir
      (split_path node.file_name).name SKIP_ALL d e en en1 hd he
    have hrf := read_file_content fuel { u.fs with errno := en1 } node.file_name p
      (min n (e.file.size - p)) d e m m1 L hbs hd2 hd0 he2 he0 hty her hchain hpin
      (by
        have : min n (e.file.size - p) ≤ e.file.size - p := Nat.min_le_right _ _
        have h3 : L.length * ({ u.fs with errno := en1 } : FS).block_size =
            L.length * u.fs.block_size := rfl
        omega)
    rw [chain_bytes_errno] at hrf
    unfold f_read
    rw [if_neg hfd2]
    simp only [hnode]
    rw [if_neg (not_not.mpr hmode)]
    simp only [hget]
    rw [if_neg her]
    simp only [hp, hr0]
    rw [if_neg (fun h => hpm h.2), hrr, if_neg (by omega)]
    simp only [Int.toNat_ofNat]
    rw [hrf]
    refine ⟨_, rfl, ?_, rfl, rfl⟩
    dsimp only
    rw [if_pos (by omega)]
    rw [int32_small _ (by rw [h231]; omega) (by rw [h231]; omega)]
    have hcast : (p : Int) + ((min n (e.file.size - p) : Nat) : Int) =
        ((p + min n (e.file.size - p) : Nat) : Int) := by omega
    rw [hcast]
    exact get_fd_set_pointer _ _ _ _ hnode
  · intro hmode her hps
    have hr0 : int32 ((e.file.size : Int) - (p : Int)) = (e.file.size : Int) - (p : Int) :=
      int32_small _ (by rw [h231]; omega) (by rw [h231]; omega)
    have hpm : (p : Int) % 2 ^ 32 > (e.file.size : Int) := by
      rw [h232]
      omega
    unfold f_read
    rw [if_neg hfd2]
    simp only [hnode]
    rw [if_neg (not_not.mpr hmode)]
    simp only [hget]
    rw [if_neg her]
    simp only [hp, hr0]
    rw [if_pos ⟨by omega, hpm⟩]
    exact ⟨_, rfl, rfl, rfl, rfl⟩
  · intro hmode her hL hpe hse hfree
    obtain ⟨m, m1, hd2, he2⟩ := resolve_again fuel u.fs en1 (split_path node.file_name).dir
      (split_path node.file_name).name SKIP_ALL d e en en1 hd he
    have hrf := read_file_at_end fuel { u.fs with errno := en1 } node.file_name d e m m1 L hbs
      hd2 hd0 he2 he0 hty her hchain hL
    have hz := extend_data_zero_iff { { u.fs with errno := en1 } with errno := m1 } (L.getLastD 0)
    have h0 : ¬ (extend_data { { u.fs with errno := en1 } with errno := m1 } (L.getLastD 0)).1 = 0 :=
      fun h => (hz.mp h) hfree
    rw [if_neg h0] at hrf
    have hr0 : int32 ((e.file.size : Int) - (p : Int)) = 0 := by
      rw [hse, Int.sub_self]
      rfl
    have hpm : ¬ ((p : Int) % 2 ^ 32 > (e.file.size : Int)) := by
      rw [h232]
      omega
    have hpe2 : p = L.length * ({ u.fs with errno := en1 } : FS).block_size := hpe
    unfold f_read
    rw [if_neg hfd2]
    simp only [hnode]
    rw [if_neg (not_not.mpr hmode)]
    simp only [hget]
    rw [if_neg her]
    simp only [hp, hr0]
    rw [if_neg (fun h => hpm h.2), if_neg (by omega), if_neg (by omega)]
    simp only [Int.toNat_ofNat, Int.toNat_zero]
    rw [hpe2, hrf]
    refine ⟨_, rfl, ?_⟩
    dsimp only
    rw [if_pos (le_refl _), Int.add_zero]
    rw [int32_small _ (by rw [h231]; omega) (by rw [h231]; omega)]
    rw [← hpe2]
    exact get_fd_set_pointer _ _ _ _ hnode
  · intro hmode her hL hpe hse hfree
    obtain ⟨m, m1, hd2, he2⟩ := resolve_again fuel u.fs en1 (split_path node.file_name).dir
      (split_path node.file_name).name SKIP_ALL d e en en1 hd he
    have hrf := read_file_at_end fuel { u.fs with errno := en1 } node.file_name d e m m1 L hbs
      hd2 hd0 he2 he0 hty her hchain hL
    have hz := extend_data_zero_iff { { u.fs with errno := en1 } with errno := m1 } (L.getLastD 0)
    have h0 : (extend_data { { u.fs with errno := en1 } with errno := m1 } (L.getLastD 0)).1 = 0 :=
      hz.mpr hfree
    rw [if_pos h0] at hrf
    have hr0 : int32 ((e.file.size : Int) - (p : Int)) = 0 := by
      rw [hse, Int.sub_self]
      rfl
    have hpm : ¬ ((p : Int) % 2 ^ 32 > (e.file.size : Int)) := by
      rw [h232]
      omega
    have hpe2 : p = L.length * ({ u.fs with errno := en1 } : FS).block_size := hpe
    have hex : (extend_data { { u.fs with errno := en1 } with errno := m1 } (L.getLastD 0)).2 =
        { { { u.fs with errno := en1 } with errno := m1 } with errno := ENOSPC } := by
      rcases extend_data_cases { { u.fs with errno := en1 } with errno := m1 } (L.getLastD 0) with
        ⟨_, h⟩ | ⟨i, hi, _⟩
      · rw [h]
      · exact absurd ⟨i, hi.1, hi.2.1, hi.2.2.1⟩ hfree
    unfold f_read
    rw [if_neg hfd2]
    simp only [hnode]
    rw [if_neg (not_not.mpr hmode)]
    simp only [hget]
    rw [if_neg her]
    simp only [hp, hr0]
    rw [if_neg (fun h => hpm h.2), if_neg (by omega), if_neg (by omega)]
    simp only [Int.toNat_ofNat, Int.toNat_zero]
    rw [hpe2, hrf, hex]
    refine ⟨_, rfl, ?_, rfl, rfl⟩
    dsimp only
    rw [if_neg (by omega)]
  · intro hmode
    unfold f_read
    rw [if_neg hfd2]
    simp only [hnode]
    rw [if_pos hmode]
  · intro hmode her
    unfold f_read
    rw [if_neg hfd2]
    simp only [hnode]
    rw [if_neg (not_not.mpr hmode)]
    simp only [hget]
    rw [if_pos her]
    exact ⟨_, rfl, rfl, rfl, rfl⟩

/-- C19, witness: descriptor 3 of `ex_rd10` is open for reading at position
10 on `/a` (300 bytes, chain 2, 3); `f_read(3, 1000, buf)` returns
`min(1000, 300 - 10) = 290` and moves the position to 300. -/
theorem f_read_post_witness :
    ∃ u2, f_read 5 ex_rd10 3 1000 =
        some (((min 1000 (300 - 10) : Nat) : Int),
              chain_bytes ex_rd10.fs [2, 3] 10 (min 1000 (300 - 10)), u2) ∧
      get_fd u2.fd_table 3 =
        some { file_descriptor := 3, file_name := [47, 97], mode := READ,
               file_pointer := ((10 + min 1000 (300 - 10) : Nat) : Int) } ∧
      u2.fs.fat = ex_rd10.fs.fat ∧ u2.fs.disk = ex_rd10.fs.disk :=
  (f_read_post 5 ex_rd10 3 1000 10
    { file_descriptor := 3, file_name := [47, 97], mode := READ, file_pointer := 10 }
    root
    { file := { name := name32 [97], size := 300, first_block := 2, type := REGULAR_FILE,
                perm := 6, mtime := 0 },
      position := 256 }
    ex_rd10.fs.errno ex_rd10.fs.errno [2, 3]
    (by decide) (by decide) (by decide) (by decide) (by decide) (by decide) (by decide)
    (by decide) (by decide) (by decide) (by decide) (by decide) (by decide)).1
    (by decide) (by decide) (by decide) (by decide)

/-! ## `write_data` along a chain -/

theorem phys_disjoint (s : FS) (b b2 k k2 : Nat) (hfb : 1 ≤ s.fat_blocks) (hne : b ≠ b2)
    (hk : k < s.block_size) (hk2 : k2 < s.block_size) : phys s b + k ≠ phys s b2 + k2 := by
  unfold phys
  rcases Nat.lt_or_gt_of_ne hne with h | h
  · have h1 : (b + s.fat_blocks - 1 + 1) * s.block_size ≤ (b2 + s.fat_blocks - 1) * s.block_size :=
      Nat.mul_le_mul_right _ (by omega)
    rw [Nat.add_mul, Nat.one_mul] at h1
    omega
  · have h1 : (b2 + s.fat_blocks - 1 + 1) * s.block_size ≤ (b + s.fat_blocks - 1) * s.block_size :=
      Nat.mul_le_mul_right _ (by omega)
    rw [Nat.add_mul, Nat.one_mul] at h1
    omega

theorem range_getD (l : List Nat) : (List.range l.length).map (fun k => l.getD k 0) = l := by
  apply List.ext_getElem
  · simp
  · intro n h1 h2
    simp only [List.getElem_map, List.getElem_range]
    rw [List.getD_eq_getElem _ _ h2]

theorem read_bytes_of_disk (s : FS) (p : Nat) (l : List Nat)
    (h : ∀ k, k < l.length → s.disk (p + k) = l.getD k 0) : read_bytes s p l.length = l := by
  unfold read_bytes
  conv_rhs => rw [← range_getD l]
  apply List.map_congr_left
  intro k hk
  exact h k (List.mem_range.mp hk)

theorem take_drop_split (buf : List Nat) (i a b : Nat) :
    (buf.drop i).take (a + b) = (buf.drop i).take a ++ (buf.drop (i + a)).take b := by
  rw [List.take_add, List.drop_drop]

theorem length_take_drop (buf : List Nat) (i n : Nat) (h : i + n ≤ buf.length) :
    ((buf.drop i).take n).length = n := by
  rw [List.length_take, List.length_drop]
  omega

theorem chain_bytes_congr (s s2 : FS) (hbs : s2.block_size = s.block_size)
    (hfb : s2.fat_blocks = s.fat_blocks) :
    ∀ (M : List Nat) (p r : Nat),
      (∀ b ∈ M, ∀ k, k < s.block_size → s2.disk (phys s b + k) = s.disk (phys s b + k)) →
      chain_bytes s2 M p r = chain_bytes s M p r := by
  intro M p r h
  have hb : ∀ (M : List Nat),
      (∀ b ∈ M, ∀ k, k < s.block_size → s2.disk (phys s b + k) = s.disk (phys s b + k)) →
      ∀ k, chain_byte s2 M k = chain_byte s M k := by
    intro M
    induction M with
    | nil => intro _ k; rfl
    | cons b rest ih =>
      intro h k
      rw [chain_byte, chain_byte, hbs]
      by_cases hk : k < s.block_size
      · rw [if_pos hk, if_pos hk]
        have : phys s2 b = phys s b := by unfold phys; rw [hbs, hfb]
        rw [this]
        exact h b (List.mem_cons_self _ _) k hk
      · rw [if_neg hk, if_neg hk]
        exact ih (fun b2 hb2 => h b2 (List.mem_cons_of_mem _ hb2)) _
  unfold chain_bytes
  apply List.map_congr_left
  intro j _
  exact hb M h _

theorem write_bytes_in (s : FS) (p : Nat) (data : List Nat) (k : Nat) (hk : k < data.length) :
    (write_bytes s p data).disk (p + k) = data.getD k 0 := by
  show (if p ≤ p + k ∧ p + k < p + data.length then data.getD (p + k - p) 0 else _) = _
  rw [if_pos ⟨by omega, by omega⟩, Nat.add_sub_cancel_left]

theorem write_bytes_other_block (s : FS) (blk b o : Nat) (data : List Nat) (k : Nat)
    (hfb : 1 ≤ s.fat_blocks) (hne : b ≠ blk) (hlen : o + data.length ≤ s.block_size)
    (hk : k < s.block_size) :
    (write_bytes s (phys s blk + o) data).disk (phys s b + k) = s.disk (phys s b + k) := by
  show (if phys s blk + o ≤ phys s b + k ∧ phys s b + k < phys s blk + o + data.length
        then _ else _) = _
  rw [if_neg]
  rintro ⟨h1, h2⟩
  have h3 := phys_disjoint s b blk k (phys s b + k - phys s blk) hfb hne hk (by omega)
  omega

theorem isChain_last_nil (fat : Nat → Nat) (M : List Nat) (h : IsChain fat LAST_BLOCK M) :
    M = [] := by
  cases M with
  | nil => rfl
  | cons x xs => exact absurd rfl h.1

theorem isChain_ne_last (fat : Nat → Nat) (b : Nat) (M : List Nat) (h : IsChain fat b M)
    (hb : b ≠ LAST_BLOCK) : M ≠ [] := by
  cases M with
  | nil => exact absurd h hb
  | cons x xs => simp

/-- The final turn of `write_loop`: the rest of the data fits the block. -/
theorem write_loop_final (fuel : Nat) (s : FS) (M2 : List Nat) (blk i : Nat) (buf : List Nat)
    (size : Nat) (hfb : 1 ≤ s.fat_blocks)
    (hb : blk ≠ LAST_BLOCK) (hrest : IsChain s.fat (s.fat blk) M2)
    (hi : i ≤ size) (hsz : size ≤ buf.length) (h1 : size - i ≤ s.block_size) :
    ∃ s2 N, write_loop (fuel + 1) s blk 0 i buf size = (0, s2) ∧
      Wrote s s2 blk (blk :: M2) N ((buf.drop i).take (size - i)) := by
  have hlen : ((buf.drop i).take (size - i)).length = size - i :=
    length_take_drop buf i (size - i) (by omega)
  rw [write_loop, if_pos (by omega)]
  refine ⟨_, [], rfl, rfl, rfl, rfl, ?_, ?_, ?_, ?_, ?_⟩
  · rw [List.append_nil]
    exact ⟨hb, rfl, hrest⟩
  · intro x hx
    simp at hx
  · rw [List.append_nil, chain_bytes_first _ blk M2 0 _ (by
      show 0 + ((buf.drop i).take (size - i)).length ≤ s.block_size
      rw [hlen]; omega)]
    apply read_bytes_of_disk
    intro k hk
    exact write_bytes_in s (phys s blk + 0) _ k hk
  · rw [hlen, List.append_nil, List.length_cons, Nat.add_mul, Nat.one_mul]
    omega
  · intro b hbM _
    refine ⟨rfl, ?_⟩
    intro k hk
    exact write_bytes_other_block s blk b 0 _ k hfb
      (fun h => hbM (by rw [h]; exact List.mem_cons_self _ _))
      (by rw [hlen]; omega) hk

theorem chain_bytes_cons (s2 : FS) (blk : Nat) (L bytes1 data2 : List Nat)
    (hlen : bytes1.length = s2.block_size)
    (hblk : ∀ k, k < bytes1.length → s2.disk (phys s2 blk + k) = bytes1.getD k 0)
    (hrest : chain_bytes s2 L 0 data2.length = data2) :
    chain_bytes s2 (blk :: L) 0 (bytes1 ++ data2).length = bytes1 ++ data2 := by
  rw [List.length_append, chain_bytes_split, chain_bytes_first s2 blk L 0 _ (by omega)]
  have h1 : read_bytes s2 (phys s2 blk + 0) bytes1.length = bytes1 :=
    read_bytes_of_disk s2 _ bytes1 (fun k hk => by rw [Nat.add_zero]; exact hblk k hk)
  rw [h1]
  have h2 : 0 + bytes1.length = s2.block_size + 0 := by omega
  rw [h2, chain_bytes_rest, hrest]

/-- `write_loop` from the start of block `blk`, the head of the chain `M`,
with the free blocks `F` at hand: it returns 0, having written the data along
`M` and as many of the free blocks as it needed. -/
theorem write_loop_chain :
    ∀ (fuel : Nat) (s : FS) (M F : List Nat) (blk i : Nat) (buf : List Nat) (size : Nat),
      0 < s.block_size → 1 ≤ s.fat_blocks → s.data_blocks < LAST_BLOCK →
      IsChain s.fat blk M → M ≠ [] → M.Nodup →
      (∀ x ∈ M, x ≠ 0 ∧ s.fat x ≠ FREE_BLOCK) →
      F.Nodup → (∀ x ∈ F, 1 ≤ x ∧ x ≤ s.data_blocks ∧ s.fat x = FREE_BLOCK) →
      i ≤ size → size ≤ buf.length → size - i < fuel →
      size - i ≤ (M.length + F.length) * s.block_size →
      ∃ s2 N, write_loop fuel s blk 0 i buf size = (0, s2) ∧
        Wrote s s2 blk M N ((buf.drop i).take (size - i)) := by
  intro fuel
  induction fuel with
  | zero =>
    intro s M F blk i buf size _ _ _ _ _ _ _ _ _ _ _ hf _
    exact absurd hf (Nat.not_lt_zero _)
  | succ fuel ih =>
    intro s M F blk i buf size hbs hfb hdb hc hM hnd hMf hFnd hF hi hsz hfuel hcap
    cases M with
    | nil => exact absurd rfl hM
    | cons x M2 =>
      obtain ⟨hb, hx, hrest⟩ := hc
      subst hx
      by_cases h1 : size - i ≤ s.block_size
      · exact write_loop_final fuel s M2 x i buf size hfb hb hrest hi hsz h1
      · have hnd2 : M2.Nodup := (List.nodup_cons.mp hnd).2
        have hxM2 : x ∉ M2 := (List.nodup_cons.mp hnd).1
        have hx0 : x ≠ 0 ∧ s.fat x ≠ FREE_BLOCK := hMf x (List.mem_cons_self _ _)
        have hlen1 : ((buf.drop i).take s.block_size).length = s.block_size :=
          length_take_drop buf i s.block_size (by omega)
        have hsplit : (buf.drop i).take (size - i) =
            (buf.drop i).take s.block_size ++
              (buf.drop (i + s.block_size)).take (size - (i + s.block_size)) := by
          have : size - i = s.block_size + (size - (i + s.block_size)) := by omega
          conv_lhs => rw [this]
          exact take_drop_split buf i _ _
        have hcapM : (List.length (x :: M2) + F.length) * s.block_size =
            (M2.length + F.length) * s.block_size + s.block_size := by
          rw [List.length_cons]; ring
        rw [hcapM] at hcap
        rw [write_loop, if_neg (by omega)]
        simp only [Nat.sub_zero]
        by_cases hl : s.fat x = LAST_BLOCK
        · -- the chain ends here: a block is allocated
          have hM2 : M2 = [] := isChain_last_nil s.fat M2 (hl ▸ hrest)
          subst hM2
          have hcap3 : size - i ≤ F.length * s.block_size + s.block_size := by
            simpa using hcap
          have hFpos : 0 < F.length := by
            rcases Nat.eq_zero_or_pos F.length with h | h
            · rw [h, Nat.zero_mul, Nat.zero_add] at hcap3
              exact absurd hcap3 h1
            · exact h
          rw [if_neg (not_not.mpr (show (write_bytes s (phys s x + 0)
            ((buf.drop i).take s.block_size)).fat x = LAST_BLOCK from hl))]
          rcases extend_data_cases (write_bytes s (phys s x + 0) ((buf.drop i).take s.block_size))
            x with ⟨hn, _⟩ | ⟨j, hj, he⟩
          · exfalso
            obtain ⟨y, hy⟩ := List.exists_mem_of_length_pos hFpos
            exact hn ⟨y, (hF y hy).1, (hF y hy).2.1, (hF y hy).2.2⟩
          · rw [he]
            dsimp only
            have hj1 : 1 ≤ j := hj.1
            have hjdb : j ≤ s.data_blocks := hj.2.1
            have hjfree : s.fat j = FREE_BLOCK := hj.2.2.1
            have hjx : j ≠ x := fun h => hx0.2 (h ▸ hjfree)
            rw [if_neg (by omega)]
            have hFe : ∀ y ∈ F.erase j, 1 ≤ y ∧ y ≤ s.data_blocks ∧
                (if y = j then LAST_BLOCK else if x ≠ 0 ∧ y = x then j else s.fat y) =
                  FREE_BLOCK := by
              intro y hy
              have hyF : y ∈ F := List.mem_of_mem_erase hy
              have hyj : y ≠ j := fun h => by
                rw [h] at hy
                exact (List.Nodup.not_mem_erase hFnd) hy
              have hyx : y ≠ x := fun h => hx0.2 (h ▸ (hF y hyF).2.2)
              refine ⟨(hF y hyF).1, (hF y hyF).2.1, ?_⟩
              rw [if_neg hyj, if_neg (fun h => hyx h.2)]
              exact (hF y hyF).2.2
            have hlenE : F.length ≤ (F.erase j).length + 1 := by
              rw [List.length_erase]
              split <;> omega
            have hcap2 : size - (i + s.block_size) ≤
                (List.length [j] + (F.erase j).length) * s.block_size := by
              have e1 : (List.length [j] + (F.erase j).length) * s.block_size =
                  (F.erase j).length * s.block_size + s.block_size := by
                rw [List.length_singleton]; ring
              have h3 : F.length * s.block_size ≤
                  (F.erase j).length * s.block_size + s.block_size := by
                have := Nat.mul_le_mul_right s.block_size hlenE
                rw [Nat.add_mul, Nat.one_mul] at this
                exact this
              rw [e1]
              omega
            obtain ⟨s2, N2, hw, g1, g2, g3, g4, g5, g6, gc, g7⟩ := ih
              { write_bytes s (phys s x + 0) ((buf.drop i).take s.block_size) with
                  fat := fun b => if b = j then LAST_BLOCK
                                  else if x ≠ 0 ∧ b = x then j else s.fat b,
                  disk := fun a =>
                    if phys s j ≤ a ∧ a < phys s j + s.block_size then 0
                    else (write_bytes s (phys s x + 0) ((buf.drop i).take s.block_size)).disk a }
              [j] (F.erase j) j (i + s.block_size) buf size hbs hfb hdb
              ⟨by omega, rfl, by show (if j = j then LAST_BLOCK else _) = LAST_BLOCK; rw [if_pos rfl]⟩
              (by simp) (List.nodup_singleton j)
              (by
                intro y hy
                rw [List.mem_singleton] at hy
                subst hy
                refine ⟨by omega, ?_⟩
                show (if y = y then LAST_BLOCK else _) ≠ FREE_BLOCK
                rw [if_pos rfl]
                decide)
              (List.Nodup.erase j hFnd) hFe (by omega) hsz (by omega) hcap2
            have hux : Untouched
                { write_bytes s (phys s x + 0) ((buf.drop i).take s.block_size) with
                  fat := fun b => if b = j then LAST_BLOCK
                                  else if x ≠ 0 ∧ b = x then j else s.fat b,
                  disk := fun a =>
                    if phys s j ≤ a ∧ a < phys s j + s.block_size then 0
                    else (write_bytes s (phys s x + 0) ((buf.drop i).take s.block_size)).disk a }
                s2 x :=
              g7 x (by simp; exact fun h => hjx h.symm) (by
                show (if x = j then LAST_BLOCK else if x ≠ 0 ∧ x = x then j else s.fat x) ≠
                  FREE_BLOCK
                rw [if_neg (fun h => hjx h.symm), if_pos ⟨hx0.1, rfl⟩]
                show j ≠ 0
                omega)
            have hfx : s2.fat x = j := by
              rw [hux.1]
              show (if x = j then LAST_BLOCK else if x ≠ 0 ∧ x = x then j else s.fat x) = j
              rw [if_neg (fun h => hjx h.symm), if_pos ⟨hx0.1, rfl⟩]
            have hps : ∀ b, phys s2 b = phys s b := by
              intro b
              unfold phys
              rw [g1, g2]
              rfl
            have hdx : ∀ k, k < ((buf.drop i).take s.block_size).length →
                s2.disk (phys s2 x + k) = ((buf.drop i).take s.block_size).getD k 0 := by
              intro k hk
              rw [hlen1] at hk
              rw [hps, show s2.disk (phys s x + k) = _ from hux.2 k hk]
              show (if phys s j ≤ phys s x + k ∧ phys s x + k < phys s j + s.block_size then 0
                else (write_bytes s (phys s x + 0) ((buf.drop i).take s.block_size)).disk
                  (phys s x + k)) = _
              rw [if_neg]
              · have := write_bytes_in s (phys s x + 0) ((buf.drop i).take s.block_size) k
                  (by rw [hlen1]; exact hk)
                rw [Nat.add_zero] at this
                rw [Nat.add_zero]
                exact this
              · rintro ⟨h4, h5⟩
                have := phys_disjoint s x j k (phys s x + k - phys s j) hfb (fun h => hjx h.symm) hk
                  (by omega)
                omega
            have hlen2 : ((buf.drop (i + s.block_size)).take (size - (i + s.block_size))).length =
                size - (i + s.block_size) := length_take_drop buf _ _ (by omega)
            refine ⟨s2, j :: N2, hw, g1, g2, g3, ?_, ?_, ?_, ?_, ?_⟩
            · exact ⟨hb, rfl, by rw [hfx]; exact g4⟩
            · intro y hy
              rcases List.mem_cons.mp hy with h | h
              · rw [h]; exact hjfree
              · have h6 := g5 y h
                have h7 : (if y = j then LAST_BLOCK else if x ≠ 0 ∧ y = x then j else s.fat y) =
                    FREE_BLOCK := h6
                by_cases c1 : y = j
                · rw [if_pos c1] at h7
                  exact absurd h7 (by decide)
                · rw [if_neg c1] at h7
                  by_cases c2 : x ≠ 0 ∧ y = x
                  · rw [if_pos c2] at h7
                    exact absurd h7 (by show j ≠ 0; omega)
                  · rw [if_neg c2] at h7
                    exact h7
            · rw [hsplit]
              exact chain_bytes_cons s2 x ([j] ++ N2) _ _ (by rw [hlen1, g1]; rfl) hdx g6
            · rw [hsplit, List.length_append, hlen1]
              have h10 : ([x] ++ j :: N2).length * s.block_size =
                  ([j] ++ N2).length * s.block_size + s.block_size := by
                simp only [List.length_append, List.length_cons, List.length_nil]
                ring
              rw [h10]
              have h11 : ((buf.drop (i + s.block_size)).take (size - (i + s.block_size))).length ≤
                  ([j] ++ N2).length * s.block_size := gc
              omega
            · intro b hbM hbf
              have hbx : b ≠ x := fun h => hbM (by rw [h]; exact List.mem_cons_self _ _)
              have hbj : b ≠ j := fun h => hbf (h ▸ hjfree)
              have hub := g7 b (by simp; exact hbj) (by
                show (if b = j then LAST_BLOCK else if x ≠ 0 ∧ b = x then j else s.fat b) ≠
                  FREE_BLOCK
                rw [if_neg hbj, if_neg (fun h => hbx h.2)]
                exact hbf)
              refine ⟨?_, ?_⟩
              · rw [hub.1]
                show (if b = j then LAST_BLOCK else if x ≠ 0 ∧ b = x then j else s.fat b) = s.fat b
                rw [if_neg hbj, if_neg (fun h => hbx h.2)]
              · intro k hk
                have h8 := hub.2 k hk
                have h9 : phys
                    { write_bytes s (phys s x + 0) ((buf.drop i).take s.block_size) with
                      fat := fun b => if b = j then LAST_BLOCK
                                      else if x ≠ 0 ∧ b = x then j else s.fat b,
                      disk := fun a =>
                        if phys s j ≤ a ∧ a < phys s j + s.block_size then 0
                        else (write_bytes s (phys s x + 0)
                          ((buf.drop i).take s.block_size)).disk a } b = phys s b := rfl
                rw [h9] at h8
                rw [h8]
                show (if phys s j ≤ phys s b + k ∧ phys s b + k < phys s j + s.block_size then 0
                  else (write_bytes s (phys s x + 0) ((buf.drop i).take s.block_size)).disk
                    (phys s b + k)) = _
                rw [if_neg]
                · exact write_bytes_other_block s x b 0 _ k hfb hbx (by rw [hlen1]; omega) hk
                · rintro ⟨h4, h5⟩
                  have := phys_disjoint s b j k (phys s b + k - phys s j) hfb hbj hk (by omega)
                  omega
        · -- the chain goes on
          rw [if_pos (show (write_bytes s (phys s x + 0)
            ((buf.drop i).take s.block_size)).fat x ≠ LAST_BLOCK from hl)]
          have hM2 : M2 ≠ [] := isChain_ne_last s.fat _ M2 hrest hl
          obtain ⟨s2, N, hw, g1, g2, g3, g4, g5, g6, gc, g7⟩ := ih
            (write_bytes s (phys s x + 0) ((buf.drop i).take s.block_size))
            M2 F (s.fat x) (i + s.block_size) buf size hbs hfb hdb hrest hM2 hnd2
            (fun y hy => hMf y (List.mem_cons_of_mem _ hy)) hFnd hF (by omega) hsz (by omega)
            (show size - (i + s.block_size) ≤ (M2.length + F.length) * s.block_size by omega)
          have hux := g7 x hxM2 hx0.2
          have hps : ∀ b, phys s2 b = phys s b := by
            intro b
            unfold phys
            rw [g1, g2]
            rfl
          have hdx : ∀ k, k < ((buf.drop i).take s.block_size).length →
              s2.disk (phys s2 x + k) = ((buf.drop i).take s.block_size).getD k 0 := by
            intro k hk
            have hk2 : k < s.block_size := by rw [hlen1] at hk; exact hk
            rw [hps]
            have h8 := hux.2 k hk2
            have h9 : phys (write_bytes s (phys s x + 0) ((buf.drop i).take s.block_size)) x =
                phys s x := rfl
            rw [h9] at h8
            rw [h8]
            have := write_bytes_in s (phys s x + 0) ((buf.drop i).take s.block_size) k hk
            rw [Nat.add_zero] at this
            rw [Nat.add_zero]
            exact this
          refine ⟨s2, N, hw, g1, g2, g3, ?_, g5, ?_, ?_, ?_⟩
          · exact ⟨hb, rfl, by rw [hux.1]; exact g4⟩
          · rw [hsplit]
            exact chain_bytes_cons s2 x (M2 ++ N) _ _ (by rw [hlen1, g1]; rfl) hdx g6
          · rw [hsplit, List.length_append, hlen1]
            have h10 : (x :: M2 ++ N).length * s.block_size =
                (M2 ++ N).length * s.block_size + s.block_size := by
              simp only [List.cons_append, List.length_cons]
              ring
            rw [h10]
            have h11 : ((buf.drop (i + s.block_size)).take (size - (i + s.block_size))).length ≤
                (M2 ++ N).length * s.block_size := gc
            omega
          · intro b hbM hbf
            have hbx : b ≠ x := fun h => hbM (by rw [h]; exact List.mem_cons_self _ _)
            have hub := g7 b (fun h => hbM (List.mem_cons_of_mem _ h)) hbf
            refine ⟨hub.1, ?_⟩
            intro k hk
            have h8 := hub.2 k hk
            have h9 : phys (write_bytes s (phys s x + 0) ((buf.drop i).take s.block_size)) b =
                phys s b := rfl
            rw [h9] at h8
            rw [h8]
            exact write_bytes_other_block s x b 0 _ k hfb hbx (by rw [hlen1]; omega) hk

/-! ## C1: a write then a read -/

theorem find_directory_with_type (ff : List Nat → Nat → Nat → Option (Entry × Nat)) :
    ∀ (ts : List (List Nat)) (block en : Nat) (r : Entry × Nat),
      find_directory_with ff ts block en = some r → r.1.file.name0 ≠ EOD_FLAG →
      r.1.file.type = DIRECTORY_FILE := by
  intro ts
  induction ts with
  | nil =>
    intro block en r h _
    rw [find_directory_with] at h
    simp only [Option.some.injEq] at h
    rw [← h]
    rfl
  | cons t ts ih =>
    intro block en r h h0
    rw [find_directory_with] at h
    cases hff : ff t block en with
    | none => rw [hff] at h; simp at h
    | some x =>
      obtain ⟨e, en1⟩ := x
      rw [hff] at h
      dsimp only at h
      by_cases c1 : e.file.name0 = EOD_FLAG
      · rw [if_pos c1] at h
        simp only [Option.some.injEq] at h
        rw [← h] at h0
        exact absurd rfl h0
      · rw [if_neg c1] at h
        by_cases c2 : e.file.type ≠ DIRECTORY_FILE
        · rw [if_pos c2] at h
          simp only [Option.some.injEq] at h
          rw [← h] at h0
          exact absurd rfl h0
        · rw [if_neg c2] at h
          by_cases c3 : e.file.perm &&& EXECUTE_PERM = 0
          · rw [if_pos c3] at h
            simp only [Option.some.injEq] at h
            rw [← h] at h0
            exact absurd rfl h0
          · rw [if_neg c3] at h
            by_cases c4 : ts = []
            · rw [if_pos c4] at h
              simp only [Option.some.injEq] at h
              rw [← h]
              exact not_not.mp c2
            · rw [if_neg c4] at h
              exact ih _ _ r h h0

theorem slotEq_refl (e : Entry) : SlotEq e e :=
  ⟨rfl, rfl, rfl, rfl, fun _ => rfl, fun _ => ⟨rfl, rfl⟩⟩

theorem agree_refl (s : FS) (D K : List Nat) : Agree s s D K :=
  ⟨rfl, rfl, fun _ _ => ⟨rfl, fun _ _ => slotEq_refl _⟩, fun _ _ => ⟨rfl, fun _ _ => rfl⟩⟩

/-- The lookup of a path, redone in a state that agrees with `s` on the
metadata: the directory and the entry found are the same slots. -/
theorem resolve_agree (fuel : Nat) (s s1 : FS) (D K : List Nat) (hm : MetaClosed s D K)
    (hag : Agree s s1 D K) (hbs : 0 < s.block_size) (dir : List (List Nat))
    (name : Option (List Nat)) (skip_flag : Nat) (d e : Entry) (en en1 x : Nat)
    (hd : find_directory fuel s dir s.errno = some (d, en))
    (hd0 : d.file.name0 ≠ EOD_FLAG)
    (he : find_file fuel s name d.file.first_block skip_flag en = some (e, en1)) :
    ∃ d1 e1 m m1, find_directory fuel s1 dir x = some (d1, m) ∧
      d1.file.name0 ≠ EOD_FLAG ∧ d1.file.first_block = d.file.first_block ∧
      d1.file.perm = d.file.perm ∧
      find_file fuel s1 name d1.file.first_block skip_flag m = some (e1, m1) ∧
      SameSlot s s1 D e1 e := by
  have hdty : d.file.type = DIRECTORY_FILE := find_directory_with_type _ _ _ _ _ hd hd0
  rcases map_fst_cases _ _ (find_directory_en fuel s dir s.errno x) with
    ⟨h1, _⟩ | ⟨d2, n1, n2, h1, h2⟩
  · rw [hd] at h1
    simp at h1
  · rw [hd] at h1
    simp only [Option.some.injEq, Prod.mk.injEq] at h1
    obtain ⟨hdd, _⟩ := h1
    subst hdd
    rcases sameResult_cases s s1 D _ _ (find_directory_agree s s1 D K hm hag hbs fuel dir x) with
      ⟨_, h4⟩ | ⟨d1, d3, m, h3, h4, h5⟩
    · rw [h2] at h4
      simp at h4
    · rw [h2] at h4
      simp only [Option.some.injEq, Prod.mk.injEq] at h4
      obtain ⟨hd3, hm3⟩ := h4
      subst hd3
      subst hm3
      have hsd := sameSlot_slotEq s s1 D K hag d1 d h5
      have hfbD : d.file.first_block ∈ D := sameSlot_dir_block s s1 D K hm d1 d h5 hd0 hdty
      rcases map_fst_cases _ _ (find_file_en fuel s name d.file.first_block skip_flag en n2) with
        ⟨h6, _⟩ | ⟨e2, k1, k2, h6, h7⟩
      · rw [he] at h6
        simp at h6
      · rw [he] at h6
        simp only [Option.some.injEq, Prod.mk.injEq] at h6
        obtain ⟨hee, _⟩ := h6
        subst hee
        rcases sameResult_cases s s1 D _ _ (find_file_agree s s1 D K hm hag hbs fuel name
            d.file.first_block skip_flag n2 hfbD) with ⟨_, h9⟩ | ⟨e1, e3, m1, h8, h9, h10⟩
        · rw [h7] at h9
          simp at h9
        · rw [h7] at h9
          simp only [Option.some.injEq, Prod.mk.injEq] at h9
          obtain ⟨he3, hm1⟩ := h9
          subst he3
          subst hm1
          refine ⟨d1, e1, n2, k2, h3, ?_, hsd.2.2.2.2.1 hdty, hsd.2.2.2.1, ?_, h10⟩
          · rw [slotEq_name0 d1 d hsd]
            exact hd0
          · rw [hsd.2.2.2.2.1 hdty]
            exact h8

theorem slot_congr (s s2 : FS) (hbs : s2.block_size = s.block_size)
    (hfb : s2.fat_blocks = s.fat_blocks) (b i : Nat) (hi : i < s.block_size / 64)
    (h : ∀ k, k < s.block_size → s2.disk (phys s b + k) = s.disk (phys s b + k)) :
    slot s2 b i = slot s b i := by
  have hp : phys s2 b = phys s b := by unfold phys; rw [hbs, hfb]
  have hend := slot_end_le s.block_size i hi
  unfold slot
  rw [hp, read_File_congr s s2 (phys s b + 64 * i) (fun k hk => by
    rw [Nat.add_assoc]
    exact h (64 * i + k) (by omega))]

theorem stored_type (f : File) : f.stored.type = f.type % 256 := by
  unfold File.stored
  rfl

theorem stored_perm (f : File) : f.stored.perm = f.perm % 256 := by
  unfold File.stored
  rfl

theorem stored_first_block (f : File) : f.stored.first_block = f.first_block % 2 ^ 16 := by
  unfold File.stored
  rfl

/-- A found entry that is neither the root nor the `eod` constant is a slot
of a directory block. -/
theorem found_in_dir (s : FS) (D : List Nat) (e : Entry) (h : SameSlot s s D e e)
    (h0 : e.file.name0 ≠ EOD_FLAG) (hty : e.file.type ≠ DIRECTORY_FILE) :
    ∃ b ∈ D, ∃ i, i < s.block_size / 64 ∧ e = slot s b i := by
  rcases h with ⟨h1, _⟩ | ⟨h1, _⟩ | ⟨b, hb, i, hi, h1, _⟩
  · rw [h1] at hty
    exact absurd rfl hty
  · rw [h1] at h0
    exact absurd rfl h0
  · exact ⟨b, hb, i, hi, h1⟩

/-- The state after the slot of the regular file `e` was rewritten with a new
first block, size and time, and after writes that left the metadata blocks
alone, agrees with `s` on the metadata; the slot now holds the new fields. -/
theorem agree_after_write (s s0 s1 : FS) (D K : List Nat) (e : Entry) (fb sz now be ie : Nat)
    (hfbs : 1 ≤ s.fat_blocks)
    (hDK : ∀ b ∈ D, b ∉ K)
    (hbe : be ∈ D) (hie : ie < s.block_size / 64) (hes : e = slot s be ie)
    (hty : e.file.type = REGULAR_FILE)
    (hbytes : ∀ j, j < 48 → s.disk (e.position.toNat + j) < 256)
    (hgeo0 : s0.block_size = s.block_size ∧ s0.fat_blocks = s.fat_blocks)
    (hun0 : ∀ b, b ∈ D ∨ b ∈ K → Untouched s s0 b)
    (hgeo1 : s1.block_size = s.block_size ∧ s1.fat_blocks = s.fat_blocks)
    (hun1 : ∀ b, b ∈ D ∨ b ∈ K →
      Untouched (write_File s0 e.position.toNat
        (rewritten e fb sz now)) s1 b) :
    Agree s s1 D K ∧
    slot s1 be ie =
      { file := (rewritten e fb sz now).stored,
        position := e.position } := by
  have hpos : e.position.toNat = phys s be + 64 * ie := by
    rw [hes]
    simp only [slot, Int.toNat_ofNat]
  have hposI : e.position = ((phys s be + 64 * ie : Nat) : Int) := by
    rw [hes]
    rfl
  have hp0 : ∀ b, phys s0 b = phys s b := by
    intro b; unfold phys; rw [hgeo0.1, hgeo0.2]
  have hslot : ∀ b, b ∈ D ∨ b ∈ K → ∀ i, i < s.block_size / 64 →
      slot s1 b i =
        if phys s b + 64 * i = e.position.toNat then
          { file := (rewritten e fb sz now).stored,
            position := ((e.position.toNat : Nat) : Int) }
        else slot s b i := by
    intro b hb i hi
    have h1 : slot s1 b i = slot (write_File s0 e.position.toNat
        (rewritten e fb sz now)) b i := by
      apply slot_congr _ s1 (by rw [hgeo1.1]; exact hgeo0.1.symm)
        (by rw [hgeo1.2]; exact hgeo0.2.symm) b i (by
          show i < s0.block_size / 64
          rw [hgeo0.1]; exact hi)
      intro k hk
      have hk2 : k < s.block_size := by
        have : (write_File s0 e.position.toNat
          (rewritten e fb sz now)).block_size =
            s0.block_size := rfl
        rw [this, hgeo0.1] at hk
        exact hk
      have := (hun1 b hb).2 k (by
        show k < s0.block_size
        rw [hgeo0.1]; exact hk2)
      exact this
    rw [h1, slot_one_write s0 e.position.toNat _ b i
      ⟨be, ie, by rw [hgeo0.1]; exact hie, by rw [hp0]; exact hpos⟩
      (by rw [hgeo0.1]; exact hi), hp0]
    by_cases hc : phys s b + 64 * i = e.position.toNat
    · rw [if_pos hc, if_pos hc]
    · rw [if_neg hc, if_neg hc]
      exact slot_congr s s0 hgeo0.1 hgeo0.2 b i hi (fun k hk => (hun0 b hb).2 k hk)
  have hfat : ∀ b, b ∈ D ∨ b ∈ K → s1.fat b = s.fat b := by
    intro b hb
    rw [(hun1 b hb).1]
    exact (hun0 b hb).1
  have hefile : e.file = read_File s e.position.toNat := by
    rw [hes]
    simp only [slot, Int.toNat_ofNat]
  have hnl : e.file.name.length = 32 := by
    rw [hefile]
    exact read_File_name_length _ _
  have hty256 : e.file.type < 256 := by
    rw [hefile]
    exact hbytes 38 (by omega)
  have hpm256 : e.file.perm < 256 := by
    rw [hefile]
    exact hbytes 39 (by omega)
  refine ⟨⟨hgeo1.1, hgeo1.2, ?_, ?_⟩, ?_⟩
  · intro b hb
    refine ⟨hfat b (Or.inl hb), ?_⟩
    intro i hi
    rw [hslot b (Or.inl hb) i hi]
    by_cases hc : phys s b + 64 * i = e.position.toNat
    · rw [if_pos hc]
      have hsb : slot s b i = e := by
        rw [hes]
        unfold slot
        rw [hc, hpos]
      rw [hsb]
      refine ⟨?_, ?_, ?_, ?_, ?_, ?_⟩
      · show ((e.position.toNat : Nat) : Int) = e.position
        rw [hposI]
        simp only [Int.toNat_ofNat]
      · exact stored_name_of_length _ hnl
      · rw [stored_type]
        exact Nat.mod_eq_of_lt hty256
      · rw [stored_perm]
        exact Nat.mod_eq_of_lt hpm256
      · intro h
        rw [hty] at h
        exact absurd h (by decide)
      · intro h
        rw [hty] at h
        exact absurd h (by decide)
    · rw [if_neg hc]
      exact slotEq_refl _
  · intro b hb
    refine ⟨hfat b (Or.inr hb), ?_⟩
    intro k hk
    have hne : b ≠ be := fun h => hDK be hbe (h ▸ hb)
    have h1 := (hun1 b (Or.inr hb)).2 k (by
      show k < s0.block_size
      rw [hgeo0.1]; exact hk)
    have h2 : phys (write_File s0 e.position.toNat
        (rewritten e fb sz now)) b = phys s b := hp0 b
    rw [h2] at h1
    rw [h1, write_File_disk_out, (hun0 b (Or.inr hb)).2 k hk]
    have hend := slot_end_le s.block_size ie hie
    by_contra hcon
    have h3 : e.position.toNat ≤ phys s b + k ∧ phys s b + k < e.position.toNat + 48 := by
      omega
    have := phys_disjoint s b be k (phys s b + k - phys s be) hfbs hne hk (by omega)
    omega
  · rw [hslot be (Or.inl hbe) ie hie, if_pos hpos.symm]
    congr 1
    rw [hposI]
    simp only [Int.toNat_ofNat]

/-- Reading back: after the slot of the regular, readable file `e` was
rewritten with first block `fb` and writes left the metadata alone, a state
whose chain `C` from `fb` starts with the bytes `buf` gives `buf` back. -/
theorem read_back (fuel : Nat) (s s0 s1 : FS) (path_str buf : List Nat) (d e : Entry)
    (en en1 : Nat) (D K C : List Nat) (fb sz now : Nat)
    (hcfg : ValidConfig s)
    (hd : find_directory fuel s (split_path path_str).dir s.errno = some (d, en))
    (hd0 : d.file.name0 ≠ EOD_FLAG)
    (he : find_file fuel s (split_path path_str).name d.file.first_block SKIP_ALL en =
            some (e, en1))
    (he0 : e.file.name0 ≠ EOD_FLAG)
    (hty : e.file.type = REGULAR_FILE)
    (her : e.file.perm &&& READ_PERM ≠ 0)
    (hbytes : ∀ j, j < 48 → s.disk (e.position.toNat + j) < 256)
    (hmeta : MetaClosed s D K) (hDK : ∀ b ∈ D, b ∉ K)
    (hgeo0 : s0.block_size = s.block_size ∧ s0.fat_blocks = s.fat_blocks)
    (hun0 : ∀ b, b ∈ D ∨ b ∈ K → Untouched s s0 b)
    (hgeo1 : s1.block_size = s.block_size ∧ s1.fat_blocks = s.fat_blocks)
    (hun1 : ∀ b, b ∈ D ∨ b ∈ K →
      Untouched (write_File s0 e.position.toNat
        (rewritten e fb sz now)) s1 b)
    (hfb : fb < 2 ^ 16)
    (hC : IsChain s1.fat fb C) (hbuf : chain_bytes s1 C 0 buf.length = buf)
    (hcap : buf.length ≤ C.length * s.block_size) :
    ∃ s3, read_file fuel s1 path_str 0 buf.length = some ((buf.length : Int), buf, s3) := by
  obtain ⟨hbs, _, hfbs, _⟩ := hcfg
  have hdty : d.file.type = DIRECTORY_FILE := find_directory_with_type _ _ _ _ _ hd hd0
  -- the entry is a slot of a directory block
  have hdD : d.file.first_block ∈ D := by
    rcases sameResult_cases s s D _ _
        (find_directory_agree s s D K hmeta (agree_refl s D K) hbs fuel
          (split_path path_str).dir s.errno) with ⟨h1, _⟩ | ⟨d2, d3, m, h1, h2, h3⟩
    · rw [hd] at h1
      simp at h1
    · rw [hd] at h1 h2
      simp only [Option.some.injEq, Prod.mk.injEq] at h1 h2
      obtain ⟨hx, _⟩ := h1
      obtain ⟨hy, _⟩ := h2
      subst hx
      subst hy
      exact sameSlot_dir_block s s D K hmeta d d h3 hd0 hdty
  have hes : ∃ b ∈ D, ∃ i, i < s.block_size / 64 ∧ e = slot s b i := by
    rcases sameResult_cases s s D _ _
        (find_file_agree s s D K hmeta (agree_refl s D K) hbs fuel
          (split_path path_str).name d.file.first_block SKIP_ALL en hdD) with
      ⟨h1, _⟩ | ⟨e2, e3, m, h1, h2, h3⟩
    · rw [he] at h1
      simp at h1
    · rw [he] at h1 h2
      simp only [Option.some.injEq, Prod.mk.injEq] at h1 h2
      obtain ⟨hx, _⟩ := h1
      obtain ⟨hy, _⟩ := h2
      subst hx
      subst hy
      exact found_in_dir s D e h3 he0 (by rw [hty]; decide)
  obtain ⟨be, hbe, ie, hie, hslot⟩ := hes
  obtain ⟨hag, hnew⟩ := agree_after_write s s0 s1 D K e fb sz now be ie hfbs hDK hbe hie hslot
    hty hbytes hgeo0 hun0 hgeo1 hun1
  obtain ⟨d1, e1, m, m1, hd1, hd10, hd1fb, _, he1, hss⟩ := resolve_agree fuel s s1 D K hmeta hag
    hbs (split_path path_str).dir (split_path path_str).name SKIP_ALL d e en en1 s1.errno
    hd hd0 he
  -- the entry found in the new state is the rewritten slot
  have he1eq : e1 = { file := (rewritten e fb sz now).stored, position := e.position } := by
    rcases hss with ⟨_, h2⟩ | ⟨_, h2⟩ | ⟨b, _, i, _, h1, h2⟩
    · rw [h2] at hty
      exact absurd hty (by decide)
    · rw [h2] at he0
      exact absurd rfl he0
    · rw [h2, ← hnew]
      have hpp : phys s b + 64 * i = phys s be + 64 * ie := by
        have h3 : (slot s b i).position = (slot s be ie).position := by rw [← h1, ← hslot]
        simp only [slot] at h3
        exact_mod_cast h3
      have hp1 : ∀ b, phys s1 b = phys s b := by
        intro b; unfold phys; rw [hgeo1.1, hgeo1.2]
      unfold slot
      rw [hp1, hp1, hpp]
  have hefile : e.file = read_File s e.position.toNat := by
    rw [hslot]
    simp only [slot, Int.toNat_ofNat]
  have hnl : e.file.name.length = 32 := by
    rw [hefile]
    exact read_File_name_length _ _
  have hty256 : e.file.type < 256 := by
    rw [hefile]
    exact hbytes 38 (by omega)
  have hpm256 : e.file.perm < 256 := by
    rw [hefile]
    exact hbytes 39 (by omega)
  have h1n0 : e1.file.name0 ≠ EOD_FLAG := by
    rw [he1eq]
    show ((rewritten e fb sz now).stored).name0 ≠ EOD_FLAG
    rw [stored_name0]
    exact he0
  have h1ty : e1.file.type = REGULAR_FILE := by
    rw [he1eq]
    show ((rewritten e fb sz now).stored).type =
      REGULAR_FILE
    rw [stored_type]
    show e.file.type % 256 = REGULAR_FILE
    rw [Nat.mod_eq_of_lt hty256]
    exact hty
  have h1pm : e1.file.perm &&& READ_PERM ≠ 0 := by
    rw [he1eq]
    show ((rewritten e fb sz now).stored).perm &&&
      READ_PERM ≠ 0
    rw [stored_perm]
    show e.file.perm % 256 &&& READ_PERM ≠ 0
    rw [Nat.mod_eq_of_lt hpm256]
    exact her
  have h1fb : e1.file.first_block = fb := by
    rw [he1eq]
    show ((rewritten e fb sz now).stored).first_block = fb
    rw [stored_first_block]
    exact Nat.mod_eq_of_lt hfb
  have hrf := read_file_content fuel s1 path_str 0 buf.length d1 e1 m m1 C
    (by rw [hgeo1.1]; exact hbs) hd1 hd10 he1 h1n0 h1ty h1pm (by rw [h1fb]; exact hC)
    (Or.inl rfl) (by rw [hgeo1.1, Nat.sub_zero]; exact hcap)
  rw [hbuf] at hrf
  exact ⟨_, hrf⟩

theorem free_list (s : FS) :
    ∃ F : List Nat, F.Nodup ∧
      (∀ x ∈ F, 1 ≤ x ∧ x ≤ s.data_blocks ∧ s.fat x = FREE_BLOCK) ∧
      F.length = free_count s := by
  refine ⟨(List.range' 1 s.data_blocks).filter (fun i => s.fat i = FREE_BLOCK),
    List.Nodup.filter _ (List.nodup_range' 1 s.data_blocks), ?_, rfl⟩
  intro x hx
  rw [List.mem_filter, List.mem_range'_1] at hx
  obtain ⟨⟨h1, h2⟩, h3⟩ := hx
  exact ⟨h1, by omega, by simpa using h3⟩

/-- `write_file` at offset 0, once the lookups are known: the result is that
of `write_loop` from the start of the first block. -/
theorem write_file_eval (fuel : Nat) (s : FS) (now : Nat) (path_str buf : List Nat) (size : Nat)
    (d e : Entry) (en en1 : Nat) (s1 : FS)
    (hbs : 0 < s.block_size)
    (hd : find_directory fuel s (split_path path_str).dir s.errno = some (d, en))
    (hd0 : d.file.name0 ≠ EOD_FLAG)
    (hdw : d.file.perm &&& WRITE_PERM ≠ 0)
    (he : find_file fuel s (split_path path_str).name d.file.first_block SKIP_ALL en =
            some (e, en1))
    (he0 : e.file.name0 ≠ EOD_FLAG)
    (hty : e.file.type = REGULAR_FILE)
    (hew : e.file.perm &&& WRITE_PERM ≠ 0)
    (hpos : 0 ≤ e.position)
    (r : Nat × FS)
    (hr : r = if e.file.size = 0 ∧ size > 0 then extend_data { s with errno := en1 } 0
              else (e.file.first_block, { s with errno := en1 }))
    (hr0 : ¬ (e.file.size = 0 ∧ size > 0 ∧ r.1 = 0))
    (hrbs : r.2.block_size = s.block_size)
    (hw : write_loop (size + 1)
        (write_File r.2 e.position.toNat
          (rewritten e r.1 (if 0 + size > e.file.size then 0 + size else e.file.size) now))
        r.1 0 0 buf size = (0, s1)) :
    write_file fuel s now path_str 0 buf size true = some (0, s1) := by
  have hnd : e.file.type ≠ DIRECTORY_FILE := by rw [hty]; decide
  unfold write_file
  simp only [hd, if_true, he]
  rw [if_neg hd0, if_neg hdw, if_neg he0, if_neg hnd, if_neg hew]
  simp only [← hr]
  rw [if_neg hr0, if_neg (by omega)]
  unfold rewritten at hw
  have hs2bs : ∀ f : File, (write_File r.2 e.position.toNat f).block_size = s.block_size :=
    fun _ => hrbs
  generalize hS : write_File r.2 e.position.toNat
    { name := e.file.name, size := if 0 + size > e.file.size then 0 + size else e.file.size,
      first_block := r.1, type := e.file.type, perm := e.file.perm, mtime := now } = S2 at hw ⊢
  have hSbs : S2.block_size = s.block_size := by rw [← hS]; exact hrbs
  have hseek : seek_data S2 (S2.block_size * r.1) 0 = (((r.1 * s.block_size : Nat) : Int), S2) := by
    unfold seek_data
    rw [hSbs, Nat.mul_mod_right, Nat.mul_div_cancel_left _ hbs]
    rw [seek_loop, if_pos (by rw [hSbs]; omega), hSbs]
    simp only [Nat.add_zero]
  have hq : (r.1 * s.block_size) / s.block_size = r.1 := Nat.mul_div_cancel _ hbs
  have hm : (r.1 * s.block_size) % s.block_size = 0 := Nat.mul_mod_left _ _
  simp only [hseek]
  rw [if_neg (by omega)]
  simp only [Int.toNat_ofNat]
  unfold write_data
  rw [hSbs, hq, hm, hw]
  rfl

/-- C1. Write/read round trip: let `path_str` resolve (links followed) to a
regular file `e` with the read and write bits in a directory with the write
bit, on a valid configuration whose metadata blocks `D`, `K` are closed, in
use and apart from the file's chain `L` (well formed, in use). For every byte
string `buf` that fits the free space (`len <= free blocks * block size`)
`write_file(path, 0, buf, len)` returns 0, and the following
`read_file(path, 0, _, len)` returns `len` and fills the buffer with exactly
`buf`: whatever the length, several blocks and exact multiples of the block
size included. -/
theorem write_read_round_trip (fuel : Nat) (s : FS) (now : Nat) (path_str buf : List Nat)
    (d e : Entry) (en en1 : Nat) (D K L : List Nat)
    (hcfg : ValidConfig s)
    (hd : find_directory fuel s (split_path path_str).dir s.errno = some (d, en))
    (hd0 : d.file.name0 ≠ EOD_FLAG)
    (hdw : d.file.perm &&& WRITE_PERM ≠ 0)
    (he : find_file fuel s (split_path path_str).name d.file.first_block SKIP_ALL en =
            some (e, en1))
    (he0 : e.file.name0 ≠ EOD_FLAG)
    (hty : e.file.type = REGULAR_FILE)
    (hew : e.file.perm &&& WRITE_PERM ≠ 0)
    (her : e.file.perm &&& READ_PERM ≠ 0)
    (hbytes : ∀ j, j < 48 → s.disk (e.position.toNat + j) < 256)
    (hmeta : MetaClosed s D K) (hDK : ∀ b ∈ D, b ∉ K)
    (hused : ∀ b, b ∈ D ∨ b ∈ K → s.fat b ≠ FREE_BLOCK)
    (hchain : IsChain s.fat e.file.first_block L) (hLnd : L.Nodup)
    (hL : ∀ x ∈ L, x ≠ 0 ∧ s.fat x ≠ FREE_BLOCK ∧ x ∉ D ∧ x ∉ K)
    (hLne : e.file.size ≠ 0 → L ≠ [])
    (hfit : buf.length ≤ free_count s * s.block_size) :
    ∃ s1, write_file fuel s now path_str 0 buf buf.length true = some (0, s1) ∧
      ∃ s3, read_file fuel s1 path_str 0 buf.length = some ((buf.length : Int), buf, s3) := by
  have hcfg2 := hcfg
  obtain ⟨hbs, _, hfbs, hdb⟩ := hcfg
  have hpos : 0 ≤ e.position := by
    rcases find_file_slot fuel s _ _ _ _ _ he with h | h
    · have h2 : e = root := h
      rw [h2] at hty
      exact absurd hty (by decide)
    · exact isSlot_position s e h
  have hslot : IsSlot s e := by
    rcases find_file_slot fuel s _ _ _ _ _ he with h | h
    · have h2 : e = root := h
      rw [h2] at hty
      exact absurd hty (by decide)
    · exact h
  have hfb16 : e.file.first_block < 2 ^ 16 := by
    rw [isSlot_file s e hslot]
    show read_le s.disk (e.position.toNat + 36) 2 < 2 ^ 16
    have := read_le_lt s.disk 2 (e.position.toNat + 36) (fun j hj => by
      rw [Nat.add_assoc]
      exact hbytes (36 + j) (by omega))
    exact this
  have hdata : (buf.drop 0).take (buf.length - 0) = buf := by simp
  obtain ⟨F, hFnd, hF, hFlen⟩ := free_list s
  rw [← hFlen] at hfit
  by_cases hz : buf.length = 0
  · -- nothing to write
    have hbuf0 : buf = [] := List.length_eq_zero.mp hz
    have hr : (e.file.first_block, ({ s with errno := en1 } : FS)) =
        if e.file.size = 0 ∧ buf.length > 0 then extend_data { s with errno := en1 } 0
        else (e.file.first_block, { s with errno := en1 }) := by
      rw [if_neg (by omega)]
    have hw : write_loop (buf.length + 1)
        (write_File ({ s with errno := en1 } : FS) e.position.toNat
          (rewritten e e.file.first_block
            (if 0 + buf.length > e.file.size then 0 + buf.length else e.file.size) now))
        e.file.first_block 0 0 buf buf.length =
          (0, write_bytes (write_File ({ s with errno := en1 } : FS) e.position.toNat
            (rewritten e e.file.first_block
              (if 0 + buf.length > e.file.size then 0 + buf.length else e.file.size) now))
            (phys (write_File ({ s with errno := en1 } : FS) e.position.toNat
              (rewritten e e.file.first_block
                (if 0 + buf.length > e.file.size then 0 + buf.length else e.file.size) now))
              e.file.first_block + 0)
            ((buf.drop 0).take (buf.length - 0))) := by
      rw [write_loop, if_pos (by omega)]
    refine ⟨_, write_file_eval fuel s now path_str buf buf.length d e en en1 _ hbs hd hd0 hdw
      he he0 hty hew hpos _ hr (by omega) rfl hw, ?_⟩
    refine read_back fuel s { s with errno := en1 } _ path_str buf d e en en1 D K L
      e.file.first_block (if 0 + buf.length > e.file.size then 0 + buf.length else e.file.size) now hcfg2 hd hd0 he he0 hty her hbytes hmeta hDK ⟨rfl, rfl⟩
      (fun b _ => ⟨rfl, fun _ _ => rfl⟩) ⟨rfl, rfl⟩ ?_ hfb16 hchain ?_ (by omega)
    · intro b _
      refine ⟨rfl, ?_⟩
      intro k _
      show (if _ ∧ _ then _ else _) = _
      rw [if_neg]
      rintro ⟨h1, h2⟩
      have hlen0 : ((buf.drop 0).take (buf.length - 0)).length = 0 := by rw [hdata]; exact hz
      rw [hlen0] at h2
      omega
    · rw [hz, hbuf0]
      rfl
  · have hblen : 0 < buf.length := Nat.pos_of_ne_zero hz
    by_cases hsz : e.file.size = 0
    · -- an empty file: a first block is reserved
      have hFpos : 0 < F.length := by
        rcases Nat.eq_zero_or_pos F.length with h | h
        · rw [h, Nat.zero_mul] at hfit
          omega
        · exact h
      rcases extend_data_cases ({ s with errno := en1 } : FS) 0 with ⟨hn, _⟩ | ⟨j, hj, hex⟩
      · exfalso
        obtain ⟨y, hy⟩ := List.exists_mem_of_length_pos hFpos
        exact hn ⟨y, (hF y hy).1, (hF y hy).2.1, (hF y hy).2.2⟩
      · have hj1 : 1 ≤ j := hj.1
        have hjdb : j ≤ s.data_blocks := hj.2.1
        have hjfree : s.fat j = FREE_BLOCK := hj.2.2.1
        have hr : extend_data ({ s with errno := en1 } : FS) 0 =
            if e.file.size = 0 ∧ buf.length > 0 then extend_data { s with errno := en1 } 0
            else (e.file.first_block, { s with errno := en1 }) := by
          rw [if_pos ⟨hsz, hblen⟩]
        have hr1 : (extend_data ({ s with errno := en1 } : FS) 0).1 = j := by rw [hex]
        have hfat0 : ∀ b, (extend_data ({ s with errno := en1 } : FS) 0).2.fat b =
            if b = j then LAST_BLOCK else s.fat b := by
          intro b
          rw [hex]
          show (if b = j then LAST_BLOCK else if (0 : Nat) ≠ 0 ∧ b = 0 then j else s.fat b) = _
          by_cases hbj : b = j
          · rw [if_pos hbj, if_pos hbj]
          · rw [if_neg hbj, if_neg hbj, if_neg (fun h => h.1 rfl)]
        have hgeo0 : (extend_data ({ s with errno := en1 } : FS) 0).2.block_size = s.block_size ∧
            (extend_data ({ s with errno := en1 } : FS) 0).2.fat_blocks = s.fat_blocks ∧
            (extend_data ({ s with errno := en1 } : FS) 0).2.data_blocks = s.data_blocks := by
          rw [hex]
          exact ⟨rfl, rfl, rfl⟩
        have hdisk0 : ∀ b, b ≠ j → ∀ k, k < s.block_size →
            (extend_data ({ s with errno := en1 } : FS) 0).2.disk (phys s b + k) =
              s.disk (phys s b + k) := by
          intro b hbj k hk
          rw [hex]
          show (if phys s j ≤ phys s b + k ∧ phys s b + k < phys s j + s.block_size then 0
            else s.disk (phys s b + k)) = _
          rw [if_neg]
          rintro ⟨h4, h5⟩
          have := phys_disjoint s b j k (phys s b + k - phys s j) hfbs hbj hk (by omega)
          omega
        have hFe : ∀ y ∈ F.erase j, 1 ≤ y ∧ y ≤ s.data_blocks ∧
            (extend_data ({ s with errno := en1 } : FS) 0).2.fat y = FREE_BLOCK := by
          intro y hy
          have hyF : y ∈ F := List.mem_of_mem_erase hy
          have hyj : y ≠ j := fun h => by
            rw [h] at hy
            exact (List.Nodup.not_mem_erase hFnd) hy
          refine ⟨(hF y hyF).1, (hF y hyF).2.1, ?_⟩
          rw [hfat0, if_neg hyj]
          exact (hF y hyF).2.2
        have hlenE : F.length ≤ (F.erase j).length + 1 := by
          rw [List.length_erase]
          split <;> omega
        have hcap2 : buf.length - 0 ≤ (List.length [j] + (F.erase j).length) * s.block_size := by
          have e1 : (List.length [j] + (F.erase j).length) * s.block_size =
              (F.erase j).length * s.block_size + s.block_size := by
            rw [List.length_singleton]; ring
          have h3 : F.length * s.block_size ≤
              (F.erase j).length * s.block_size + s.block_size := by
            have := Nat.mul_le_mul_right s.block_size hlenE
            rw [Nat.add_mul, Nat.one_mul] at this
            exact this
          rw [e1]
          omega
        obtain ⟨s1, N, hw, hW⟩ := write_loop_chain (buf.length + 1)
          (write_File (extend_data ({ s with errno := en1 } : FS) 0).2 e.position.toNat
            (rewritten e j
              (if 0 + buf.length > e.file.size then 0 + buf.length else e.file.size) now))
          [j] (F.erase j) j 0 buf buf.length
          (by show 0 < (extend_data ({ s with errno := en1 } : FS) 0).2.block_size
              rw [hgeo0.1]; exact hbs)
          (by show 1 ≤ (extend_data ({ s with errno := en1 } : FS) 0).2.fat_blocks
              rw [hgeo0.2.1]; exact hfbs)
          (by show (extend_data ({ s with errno := en1 } : FS) 0).2.data_blocks < LAST_BLOCK
              rw [hgeo0.2.2]; exact hdb)
          ⟨by omega, rfl, by
            show (extend_data ({ s with errno := en1 } : FS) 0).2.fat j = LAST_BLOCK
            rw [hfat0, if_pos rfl]⟩
          (by simp) (List.nodup_singleton j)
          (by
            intro y hy
            rw [List.mem_singleton] at hy
            subst hy
            refine ⟨by omega, ?_⟩
            show (extend_data ({ s with errno := en1 } : FS) 0).2.fat y ≠ FREE_BLOCK
            rw [hfat0, if_pos rfl]
            decide)
          (List.Nodup.erase j hFnd)
          (by
            intro y hy
            obtain ⟨h1, h2, h3⟩ := hFe y hy
            refine ⟨h1, ?_, h3⟩
            show y ≤ (extend_data ({ s with errno := en1 } : FS) 0).2.data_blocks
            rw [hgeo0.2.2]; exact h2)
          (Nat.zero_le _) (le_refl _) (by omega)
          (by
            show buf.length - 0 ≤ (List.length [j] + (F.erase j).length) *
              (extend_data ({ s with errno := en1 } : FS) 0).2.block_size
            rw [hgeo0.1]; exact hcap2)
        rw [hdata] at hW
        obtain ⟨g1, g2, g3, g4, g5, g6, gc, g7⟩ := hW
        have hw2 : write_loop (buf.length + 1)
            (write_File (extend_data ({ s with errno := en1 } : FS) 0).2 e.position.toNat
              (rewritten e (extend_data ({ s with errno := en1 } : FS) 0).1
                (if 0 + buf.length > e.file.size then 0 + buf.length else e.file.size) now))
            (extend_data ({ s with errno := en1 } : FS) 0).1 0 0 buf buf.length = (0, s1) := by
          rw [hr1]
          exact hw
        refine ⟨s1, write_file_eval fuel s now path_str buf buf.length d e en en1 s1 hbs hd hd0
          hdw he he0 hty hew hpos _ hr (by rw [hr1]; omega) hgeo0.1 hw2, ?_⟩
        have hjnotmeta : ∀ b, b ∈ D ∨ b ∈ K → b ≠ j := fun b hb h => hused b hb (h ▸ hjfree)
        refine read_back fuel s (extend_data ({ s with errno := en1 } : FS) 0).2 s1 path_str buf
          d e en en1 D K ([j] ++ N) j
          (if 0 + buf.length > e.file.size then 0 + buf.length else e.file.size) now hcfg2 hd hd0 he he0 hty her hbytes hmeta hDK
          ⟨hgeo0.1, hgeo0.2.1⟩ ?_ ⟨by rw [g1]; exact hgeo0.1, by rw [g2]; exact hgeo0.2.1⟩ ?_
          (by
            have hdb2 : s.data_blocks < 65535 := hdb
            norm_num
            omega) g4 g6 (by
            have : ([j] ++ N).length * (write_File (extend_data ({ s with errno := en1 } : FS) 0).2
              e.position.toNat (rewritten e j
                (if 0 + buf.length > e.file.size then 0 + buf.length else e.file.size)
                now)).block_size = ([j] ++ N).length * s.block_size := by
              show _ * (extend_data ({ s with errno := en1 } : FS) 0).2.block_size = _
              rw [hgeo0.1]
            rw [this] at gc
            exact gc)
        · intro b hb
          refine ⟨?_, ?_⟩
          · rw [hfat0, if_neg (hjnotmeta b hb)]
          · intro k hk
            exact hdisk0 b (hjnotmeta b hb) k hk
        · intro b hb
          exact g7 b (by simp; exact hjnotmeta b hb) (by
            show (extend_data ({ s with errno := en1 } : FS) 0).2.fat b ≠ FREE_BLOCK
            rw [hfat0, if_neg (hjnotmeta b hb)]
            exact hused b hb)
    · -- the file has blocks already
      have hr : (e.file.first_block, ({ s with errno := en1 } : FS)) =
          if e.file.size = 0 ∧ buf.length > 0 then extend_data { s with errno := en1 } 0
          else (e.file.first_block, { s with errno := en1 }) := by
        rw [if_neg (fun h => hsz h.1)]
      obtain ⟨s1, N, hw, hW⟩ := write_loop_chain (buf.length + 1)
        (write_File ({ s with errno := en1 } : FS) e.position.toNat
          (rewritten e e.file.first_block
            (if 0 + buf.length > e.file.size then 0 + buf.length else e.file.size) now))
        L F e.file.first_block 0 buf buf.length hbs hfbs hdb hchain (hLne hsz) hLnd
        (fun x hx => ⟨(hL x hx).1, (hL x hx).2.1⟩) hFnd hF (Nat.zero_le _) (le_refl _)
        (by omega)
        (by
          have : (L.length + F.length) * s.block_size =
              L.length * s.block_size + F.length * s.block_size := Nat.add_mul _ _ _
          show buf.length - 0 ≤ (L.length + F.length) * s.block_size
          omega)
      rw [hdata] at hW
      obtain ⟨g1, g2, g3, g4, g5, g6, gc, g7⟩ := hW
      refine ⟨s1, write_file_eval fuel s now path_str buf buf.length d e en en1 s1 hbs hd hd0
        hdw he he0 hty hew hpos _ hr (fun h => hsz h.1) rfl hw, ?_⟩
      refine read_back fuel s { s with errno := en1 } s1 path_str buf d e en en1 D K (L ++ N)
        e.file.first_block (if 0 + buf.length > e.file.size then 0 + buf.length else e.file.size) now hcfg2 hd hd0 he he0 hty her hbytes hmeta hDK ⟨rfl, rfl⟩
        (fun b _ => ⟨rfl, fun _ _ => rfl⟩) ⟨g1, g2⟩ ?_ hfb16 g4 g6 gc
      intro b hb
      exact g7 b (fun h => by
        rcases hb with hb | hb
        · exact (hL b h).2.2.1 hb
        · exact (hL b h).2.2.2 hb) (hused b hb)


set_option maxRecDepth 100000 in
/-- C1, witness: `/a` in `ex_aw` holds 300 bytes in the blocks 2 and 3; the
root directory is block 1 and there is no link. Writing the 512 bytes of
`ex_data512` (exactly two blocks) and reading 512 bytes back gives them. -/
theorem write_read_round_trip_witness :
    ∃ s1, write_file 5 ex_aw 0 [47, 97] 0 ex_data512 ex_data512.length true = some (0, s1) ∧
      ∃ s3, read_file 5 s1 [47, 97] 0 ex_data512.length =
        some ((ex_data512.length : Int), ex_data512, s3) :=
  write_read_round_trip 5 ex_aw 0 [47, 97] ex_data512 root
    { file := { name := name32 [97], size := 300, first_block := 2, type := REGULAR_FILE,
                perm := 6, mtime := 0 },
      position := 256 }
    ex_aw.errno ex_aw.errno [1] [] [2, 3]
    (by decide) (by decide) (by decide) (by decide) (by decide) (by decide) (by decide)
    (by decide) (by decide) (by decide)
    { root_in := by decide, dir_next := by decide, dir_slot := by decide,
      link_slot := by decide, link_next := by decide }
    (by decide)
    (by
      intro b hb
      rcases hb with hb | hb
      · rw [List.mem_singleton] at hb
        subst hb
        decide
      · simp at hb)
    (by decide) (by decide) (by decide) (by decide) (by decide)

/-! ## Confined lookups in states that agree on the blocks read -/

theorem sameSlot_self (s : FS) (D : List Nat) (e2 e : Entry) (h : SameSlot s s D e2 e) :
    e2 = e := by
  rcases h with ⟨h1, h2⟩ | ⟨h1, h2⟩ | ⟨b, _, i, _, h1, h2⟩
  · rw [h1, h2]
  · rw [h1, h2]
  · rw [h1, h2]

theorem enum_directory_in_agree (s s2 : FS) (D K : List Nat) (hag : Agree s s2 D K) :
    ∀ (fuel b : Nat), (∀ x ∈ enum_blocks fuel s b, x ∈ D) →
      (enum_directory fuel s2 b = none ∧ enum_directory fuel s b = none) ∨
      ∃ es2 es, enum_directory fuel s2 b = some es2 ∧ enum_directory fuel s b = some es ∧
        List.Forall₂ (SameSlot s s2 D) es2 es := by
  intro fuel
  induction fuel with
  | zero => intro b _; exact Or.inl ⟨rfl, rfl⟩
  | succ fuel ih =>
    intro b hbs
    rw [enum_blocks] at hbs
    by_cases hflag : (enum_block s b (s.block_size / 64) 0).2 = true
    · rw [if_pos hflag] at hbs
      have hb : b ∈ D := hbs b (List.mem_singleton.mpr rfl)
      obtain ⟨e1, e2⟩ := enum_block_agree s s2 D K hag b hb (s.block_size / 64) 0 (by omega)
      rw [enum_directory, enum_directory, hag.1, e1]
      right
      rw [if_pos hflag, if_pos hflag]
      exact ⟨_, _, rfl, rfl, e2⟩
    · rw [if_neg hflag] at hbs
      have hb : b ∈ D := hbs b (List.mem_cons_self _ _)
      obtain ⟨e1, e2⟩ := enum_block_agree s s2 D K hag b hb (s.block_size / 64) 0 (by omega)
      rw [enum_directory, enum_directory, hag.1, e1]
      rw [if_neg hflag, if_neg hflag]
      rw [(hag.2.2.1 b hb).1]
      rcases ih (s.fat b) (fun x hx => hbs x (List.mem_cons_of_mem _ hx)) with
        ⟨h1, h2⟩ | ⟨es2, es, h1, h2, h3⟩
      · left
        rw [h1, h2]
        exact ⟨rfl, rfl⟩
      · right
        rw [h1, h2]
        exact ⟨_, _, rfl, rfl, List.rel_append e2 h3⟩

theorem read_loop_in_agree (s s2 : FS) (D K : List Nat) (hag : Agree s s2 D K) :
    ∀ (fuel blk o i size : Nat), (∀ x ∈ read_blocks fuel s blk o i size, x ∈ K) →
      o ≤ s.block_size →
      read_loop fuel s2 blk o i size = read_loop fuel s blk o i size := by
  intro fuel
  induction fuel with
  | zero => intro blk o i size _ _; rfl
  | succ fuel ih =>
    intro blk o i size hblk ho
    rw [read_loop, read_loop]
    rw [read_blocks] at hblk
    by_cases hl : blk = LAST_BLOCK
    · rw [if_pos hl, if_pos hl]
    · rw [if_neg hl, if_neg hl]
      rw [if_neg hl] at hblk
      rw [hag.1]
      by_cases h1 : size - i ≤ s.block_size - o
      · rw [if_pos h1] at hblk
        have hk : blk ∈ K := hblk blk (List.mem_singleton.mpr rfl)
        rw [if_pos h1, if_pos h1, read_bytes_agree s s2 D K hag blk hk o _ (by omega)]
      · rw [if_neg h1] at hblk
        have hk : blk ∈ K := hblk blk (List.mem_cons_self _ _)
        rw [if_neg h1, if_neg h1, read_bytes_agree s s2 D K hag blk hk o _ (by omega),
          (hag.2.2.2 blk hk).1,
          ih (s.fat blk) 0 _ size (fun x hx => hblk x (List.mem_cons_of_mem _ hx))
            (Nat.zero_le _)]

theorem find_directory_with_sim (s s2 : FS) (D K : List Nat) (hag : Agree s s2 D K)
    (ff2 ff : List Nat → Nat → Nat → Option (Entry × Nat))
    (hff : ∀ t b en x, ff t b en = some x → SameResult s s2 D (ff2 t b en) (ff t b en)) :
    ∀ (ts : List (List Nat)) (block en : Nat) (x : Entry × Nat),
      find_directory_with ff ts block en = some x →
      SameResult s s2 D (find_directory_with ff2 ts block en)
        (find_directory_with ff ts block en) := by
  intro ts
  induction ts with
  | nil =>
    intro block en _ _
    exact sameResult_some s s2 D root root en (Or.inl ⟨rfl, rfl⟩)
  | cons t ts ih =>
    intro block en x hx
    rw [find_directory_with] at hx ⊢
    rw [find_directory_with]
    cases hf : ff t block en with
    | none =>
      rw [hf] at hx
      exact absurd hx (by simp)
    | some y =>
      rcases sameResult_cases s s2 D _ _ (hff t block en y hf) with
        ⟨_, h2⟩ | ⟨e2, e, n, h1, h2, h3⟩
      · rw [hf] at h2
        exact absurd h2 (by simp)
      · have hy : y = (e, n) := by
          rw [hf] at h2
          exact Option.some.inj h2
        subst hy
        rw [h2] at hx
        rw [h1]
        have hse := sameSlot_slotEq s s2 D K hag e2 e h3
        have hn0 := slotEq_name0 e2 e hse
        dsimp only at hx ⊢
        rw [hn0, hse.2.2.1, hse.2.2.2.1]
        by_cases c1 : e.file.name0 = EOD_FLAG
        · rw [if_pos c1, if_pos c1]
          exact sameResult_some s s2 D eod eod _ (Or.inr (Or.inl ⟨rfl, rfl⟩))
        · rw [if_neg c1, if_neg c1]
          rw [if_neg c1] at hx
          by_cases c2 : e.file.type ≠ DIRECTORY_FILE
          · rw [if_pos c2, if_pos c2]
            exact sameResult_some s s2 D eod eod _ (Or.inr (Or.inl ⟨rfl, rfl⟩))
          · rw [if_neg c2, if_neg c2]
            rw [if_neg c2] at hx
            have hty : e.file.type = DIRECTORY_FILE := not_not.mp c2
            by_cases c3 : e.file.perm &&& EXECUTE_PERM = 0
            · rw [if_pos c3, if_pos c3]
              exact sameResult_some s s2 D eod eod _ (Or.inr (Or.inl ⟨rfl, rfl⟩))
            · rw [if_neg c3, if_neg c3]
              rw [if_neg c3] at hx
              by_cases c4 : ts = []
              · rw [if_pos c4, if_pos c4]
                exact sameResult_some s s2 D e2 e n h3
              · rw [if_neg c4, if_neg c4, hse.2.2.2.2.1 hty]
                rw [if_neg c4] at hx
                exact ih _ _ x hx

theorem follow_link_in_sim (s s2 : FS) (D K : List Nat) (hag : Agree s s2 D K)
    (ff2 ff : Option (List Nat) → Nat → Nat → Nat → Option (Entry × Nat))
    (hff : ∀ name b k en x, ff name b k en = some x →
      SameResult s s2 D (ff2 name b k en) (ff name b k en))
    (skip_flag : Nat) (e2 e : Entry) (en : Nat) (hss : SameSlot s s2 D e2 e)
    (hlink : e.file.type = LINK_FILE) (x : Entry × Nat)
    (hx : follow_link_in K ff s skip_flag e en = some x) :
    SameResult s s2 D (follow_link ff2 s2 skip_flag e2 en)
      (follow_link_in K ff s skip_flag e en) := by
  have hse := sameSlot_slotEq s s2 D K hag e2 e hss
  unfold follow_link_in at hx ⊢
  by_cases hg : ∀ b ∈ read_blocks (e.file.size + 1) s
      (s.block_size * e.file.first_block / s.block_size)
      (s.block_size * e.file.first_block % s.block_size) 0 e.file.size, b ∈ K
  · rw [if_pos hg] at hx ⊢
    have hrd : read_data s2 (s2.block_size * e.file.first_block) e.file.size =
        read_data s (s.block_size * e.file.first_block) e.file.size := by
      unfold read_data
      rw [hag.1]
      exact read_loop_in_agree s s2 D K hag _ _ _ _ _ hg
        (by rw [Nat.mul_mod_right]; exact Nat.zero_le _)
    unfold follow_link at hx ⊢
    rw [(hse.2.2.2.2.2 hlink).1, (hse.2.2.2.2.2 hlink).2, hrd]
    dsimp only at hx ⊢
    by_cases c0 : (read_data s (s.block_size * e.file.first_block) e.file.size).1 < e.file.size ∧
        0 ∉ (read_data s (s.block_size * e.file.first_block) e.file.size).2
    · rw [if_pos c0] at hx
      exact absurd hx (by simp)
    · rw [if_neg c0] at hx ⊢
      rw [if_neg c0]
      cases hdw : find_directory_with (fun t b n => ff (some t) b SKIP_ALL n)
          (split_path ((read_data s (s.block_size * e.file.first_block) e.file.size).2 ++
            [0])).dir 1 en with
      | none =>
        rw [hdw] at hx
        exact absurd hx (by simp)
      | some y =>
        rcases sameResult_cases s s2 D _ _ (find_directory_with_sim s s2 D K hag
            (fun t b n => ff2 (some t) b SKIP_ALL n) (fun t b n => ff (some t) b SKIP_ALL n)
            (fun t b n z hz => hff (some t) b SKIP_ALL n z hz) _ 1 en y hdw) with
          ⟨_, h2⟩ | ⟨d2, d, n, h1, h2, h3⟩
        · rw [hdw] at h2
          exact absurd h2 (by simp)
        · have hy : y = (d, n) := by
            rw [hdw] at h2
            exact Option.some.inj h2
          subst hy
          rw [h2] at hx
          rw [h1]
          have hsd := sameSlot_slotEq s s2 D K hag d2 d h3
          have hdn0 := slotEq_name0 d2 d hsd
          dsimp only at hx ⊢
          rw [hdn0, hsd.2.2.1]
          by_cases c1 : d.file.name0 = EOD_FLAG ∨ d.file.type ≠ DIRECTORY_FILE
          · rw [if_pos c1, if_pos c1]
            exact sameResult_some s s2 D e2 e n hss
          · rw [if_neg c1, if_neg c1]
            rw [if_neg c1] at hx
            have c3 : d.file.type = DIRECTORY_FILE := not_not.mp (fun h => c1 (Or.inr h))
            rw [hsd.2.2.2.2.1 c3]
            cases hfn : ff (split_path ((read_data s (s.block_size * e.file.first_block)
                e.file.size).2 ++ [0])).name d.file.first_block skip_flag n with
            | none =>
              rw [hfn] at hx
              exact absurd hx (by simp)
            | some z =>
              rcases sameResult_cases s s2 D _ _ (hff _ _ _ _ z hfn) with
                ⟨_, h5⟩ | ⟨x2, x1, m, h4, h5, h6⟩
              · rw [hfn] at h5
                exact absurd h5 (by simp)
              · have hz : z = (x1, m) := by
                  rw [hfn] at h5
                  exact Option.some.inj h5
                subst hz
                rw [h4]
                have hsx := sameSlot_slotEq s s2 D K hag x2 x1 h6
                dsimp only
                rw [slotEq_name0 x2 x1 hsx]
                split
                · exact sameResult_some s s2 D x2 x1 m h6
                · exact sameResult_some s s2 D e2 e m hss
  · rw [if_neg hg] at hx
    exact absurd hx (by simp)

theorem find_scan_sim (s s2 : FS) (D K : List Nat) (hag : Agree s s2 D K)
    (follow2 follow : Entry → Nat → Option (Entry × Nat))
    (hf : ∀ e2 e en x, SameSlot s s2 D e2 e → e.file.type = LINK_FILE →
      follow e en = some x → SameResult s s2 D (follow2 e2 en) (follow e en))
    (name : List Nat) (skip_flag : Nat) :
    ∀ (es2 es : List Entry) (en : Nat), List.Forall₂ (SameSlot s s2 D) es2 es →
      ∀ x, find_scan follow name skip_flag es en = some x →
      SameResult s s2 D (find_scan follow2 name skip_flag es2 en)
        (find_scan follow name skip_flag es en) := by
  intro es2 es en h
  induction h with
  | nil =>
    intro x hx
    exact absurd hx (by simp [find_scan])
  | @cons e2 e l2 l hss _ ih =>
    intro x hx
    have hse := sameSlot_slotEq s s2 D K hag e2 e hss
    rw [find_scan] at hx ⊢
    rw [find_scan, slotEq_name0 e2 e hse, hse.2.1, hse.2.2.1]
    by_cases c1 : e.file.name0 = EOD_FLAG
    · rw [if_pos c1, if_pos c1]
      exact sameResult_some s s2 D e2 e en hss
    · rw [if_neg c1, if_neg c1]
      rw [if_neg c1] at hx
      by_cases c2 : name.headD 0 = EOD_FLAG ∧ (e.file.name0 = EOD_FLAG ∨
          e.file.name0 = CLEANED_FLAG ∨ e.file.name0 = REMOVED_FLAG)
      · rw [if_pos c2, if_pos c2]
        exact sameResult_some s s2 D e2 e en hss
      · rw [if_neg c2, if_neg c2]
        rw [if_neg c2] at hx
        by_cases c3 : name.headD 0 ≠ EOD_FLAG ∧ cstr e.file.name = cstr name
        · rw [if_pos c3, if_pos c3]
          rw [if_pos c3] at hx
          by_cases c4 : e.file.type = LINK_FILE ∧ skip_flag ≠ SKIP_NONE
          · rw [if_pos c4, if_pos c4]
            rw [if_pos c4] at hx
            exact hf e2 e en x hss c4.1 hx
          · rw [if_neg c4, if_neg c4]
            exact sameResult_some s s2 D e2 e en hss
        · rw [if_neg c3, if_neg c3]
          rw [if_neg c3] at hx
          exact ih x hx

theorem find_file_in_sim (s s2 : FS) (D K : List Nat) (hag : Agree s s2 D K) :
    ∀ (fuel : Nat) (name : Option (List Nat)) (b skip_flag en : Nat) (x : Entry × Nat),
      find_file_in D K fuel s name b skip_flag en = some x →
      SameResult s s2 D (find_file fuel s2 name b skip_flag en)
        (find_file_in D K fuel s name b skip_flag en) := by
  intro fuel
  induction fuel with
  | zero =>
    intro name b skip_flag en x hx
    cases name with
    | none => exact sameResult_some s s2 D root root en (Or.inl ⟨rfl, rfl⟩)
    | some name => exact absurd hx (by simp [find_file_in])
  | succ fuel ih =>
    intro name b skip_flag en x hx
    cases name with
    | none => exact sameResult_some s s2 D root root en (Or.inl ⟨rfl, rfl⟩)
    | some name =>
      rw [find_file_in] at hx ⊢
      rw [find_file]
      by_cases hg : ∀ x ∈ enum_blocks (fuel + 1) s b, x ∈ D
      · rw [if_pos hg] at hx ⊢
        rcases enum_directory_in_agree s s2 D K hag (fuel + 1) b hg with
          ⟨_, h2⟩ | ⟨es2, es, h1, h2, h3⟩
        · rw [h2] at hx
          exact absurd hx (by simp)
        · rw [h2] at hx ⊢
          rw [h1]
          dsimp only at hx ⊢
          exact find_scan_sim s s2 D K hag _ _
            (fun e2 e n z hss hl hz => follow_link_in_sim s s2 D K hag _ _ ih skip_flag e2 e
              n hss hl z hz)
            name skip_flag es2 es en h3 x hx
      · rw [if_neg hg] at hx
        exact absurd hx (by simp)

theorem find_directory_in_sim (s s2 : FS) (D K : List Nat) (hag : Agree s s2 D K)
    (fuel : Nat) (dir : List (List Nat)) (en : Nat)
    (x : Entry × Nat) (hx : find_directory_in D K fuel s dir en = some x) :
    SameResult s s2 D (find_directory fuel s2 dir en) (find_directory_in D K fuel s dir en) :=
  find_directory_with_sim s s2 D K hag _ _
    (fun t b n z hz => find_file_in_sim s s2 D K hag fuel (some t) b SKIP_ALL n z hz)
    dir 1 en x hx

/-- A confined lookup that succeeds is the lookup. -/
theorem find_directory_in_eq (D K : List Nat) (fuel : Nat) (s : FS)
    (dir : List (List Nat)) (en : Nat) (x : Entry × Nat)
    (hx : find_directory_in D K fuel s dir en = some x) :
    find_directory fuel s dir en = some x := by
  rcases sameResult_cases s s D _ _ (find_directory_in_sim s s D K (agree_refl s D K) fuel
      dir en x hx) with ⟨_, h2⟩ | ⟨e2, e, n, h1, h2, h3⟩
  · rw [hx] at h2
    exact absurd h2 (by simp)
  · rw [h1, ← hx, h2, sameSlot_self s D e2 e h3]

/-- The parent a confined lookup found in `s` is found again, as the same
directory, in every state that agrees with `s` on the blocks read, whatever
`errno` the lookup starts with. -/
theorem find_directory_in_again (D K : List Nat) (fuel : Nat) (s s2 : FS)
    (hag : Agree s s2 D K) (dir : List (List Nat)) (en en1 m : Nat)
    (d : Entry) (hd : find_directory_in D K fuel s dir en = some (d, en1))
    (hd0 : d.file.name0 ≠ EOD_FLAG) :
    ∃ d2 m2, find_directory fuel s2 dir m = some (d2, m2) ∧ d2.file.name0 ≠ EOD_FLAG ∧
      d2.file.first_block = d.file.first_block ∧ SameSlot s s2 D d2 d := by
  have hty : d.file.type = DIRECTORY_FILE :=
    find_directory_with_type _ _ _ _ _ (find_directory_in_eq D K fuel s dir en _ hd) hd0
  rcases sameResult_cases s s2 D _ _ (find_directory_in_sim s s2 D K hag fuel
      dir en _ hd) with ⟨_, h2⟩ | ⟨e2, e, n, h1, h2, h3⟩
  · rw [hd] at h2
    exact absurd h2 (by simp)
  · rw [hd] at h2
    simp only [Option.some.injEq, Prod.mk.injEq] at h2
    obtain ⟨h4, h5⟩ := h2
    subst h4
    have hse := sameSlot_slotEq s s2 D K hag e2 d h3
    have hen := find_directory_en fuel s2 dir m en
    rw [h1] at hen
    cases hm : find_directory fuel s2 dir m with
    | none =>
      rw [hm] at hen
      exact absurd hen (by simp)
    | some y =>
      rw [hm] at hen
      simp only [Option.map_some', Option.some.injEq] at hen
      obtain ⟨d2, m2⟩ := y
      have hd2 : d2 = e2 := hen
      subst hd2
      exact ⟨d2, m2, rfl, by rw [slotEq_name0 d2 d hse]; exact hd0, hse.2.2.2.2.1 hty, h3⟩

/-- A state `s2` that differs from `s`, on the blocks of `D` and `K`, only in
the slot of the directory `d` (itself a slot of a `D` block, or the root),
which now holds `g` with the name, type, permissions and first block of `d`,
agrees with `s` on `D` and `K`. -/
theorem agree_of_frame (s s2 : FS) (D K : List Nat) (d : Entry) (g : File)
    (hfbs : 1 ≤ s.fat_blocks)
    (hgeo : s2.block_size = s.block_size ∧ s2.fat_blocks = s.fat_blocks)
    (hDK : ∀ b ∈ D, b ∉ K)
    (hds : SameSlot s s D d d) (hd0 : d.file.name0 ≠ EOD_FLAG)
    (hty : d.file.type = DIRECTORY_FILE)
    (hbytes : 0 ≤ d.position → ∀ j, j < 48 → s.disk (d.position.toNat + j) < 256)
    (hg : g.name = d.file.name ∧ g.type = d.file.type ∧ g.perm = d.file.perm ∧
      g.first_block = d.file.first_block)
    (hpar : 0 ≤ d.position → read_File s2 d.position.toNat = g.stored)
    (hfat : ∀ b, b ∈ D ∨ b ∈ K → s2.fat b = s.fat b)
    (hdisk : ∀ b, b ∈ D ∨ b ∈ K → ∀ k, k < s.block_size →
      (d.position < 0 ∨ phys s b + k < d.position.toNat ∨
        d.position.toNat + 48 ≤ phys s b + k) →
      s2.disk (phys s b + k) = s.disk (phys s b + k)) :
    Agree s s2 D K := by
  have hp2 : ∀ b, phys s2 b = phys s b := by
    intro b; unfold phys; rw [hgeo.1, hgeo.2]
  -- the slot of `d`
  have hdslot : d.position < 0 ∨ ∃ bd ∈ D, ∃ kd, kd < s.block_size / 64 ∧ d = slot s bd kd := by
    rcases hds with ⟨h1, _⟩ | ⟨h1, _⟩ | ⟨b, hb, i, hi, h1, _⟩
    · left; rw [h1]; decide
    · rw [h1] at hd0
      exact absurd rfl hd0
    · exact Or.inr ⟨b, hb, i, hi, h1⟩
  refine ⟨hgeo.1, hgeo.2, ?_, ?_⟩
  · intro b hb
    refine ⟨hfat b (Or.inl hb), ?_⟩
    intro i hi
    have hend := slot_end_le s.block_size i hi
    by_cases hc : 0 ≤ d.position ∧ d.position.toNat = phys s b + 64 * i
    · obtain ⟨hc1, hc2⟩ := hc
      have hdi : IsSlot s d := by
        rcases hdslot with h | ⟨bd, _, kd, hkd, h⟩
        · omega
        · exact ⟨bd, kd, hkd, h⟩
      have hsb : slot s b i = d := by
        apply isSlot_eq_of_pos s _ _ ⟨b, i, hi, rfl⟩ hdi
        rw [hc2]
        simp only [slot, Int.toNat_ofNat]
      have hdf : d.file = read_File s d.position.toNat := isSlot_file s d hdi
      have hnl : d.file.name.length = 32 := isSlot_name_length s d hdi
      have hty256 : d.file.type < 256 := by
        rw [hdf]
        exact hbytes hc1 38 (by omega)
      have hpm256 : d.file.perm < 256 := by
        rw [hdf]
        exact hbytes hc1 39 (by omega)
      have hfb16 : d.file.first_block < 2 ^ 16 := by
        rw [hdf]
        have := read_le_lt s.disk 2 (d.position.toNat + 36) (fun j hj => by
          rw [Nat.add_assoc]
          exact hbytes hc1 (36 + j) (by omega))
        exact this
      have hs2 : slot s2 b i =
          { file := g.stored, position := ((phys s b + 64 * i : Nat) : Int) } := by
        unfold slot
        rw [hp2, ← hc2, hpar hc1]
      rw [hs2, hsb]
      refine ⟨?_, ?_, ?_, ?_, ?_, ?_⟩
      · show ((phys s b + 64 * i : Nat) : Int) = d.position
        rw [← hc2]
        exact Int.toNat_of_nonneg hc1
      · show g.stored.name = d.file.name
        rw [stored_name_of_length g (by rw [hg.1]; exact hnl), hg.1]
      · show g.stored.type = d.file.type
        rw [stored_type, hg.2.1]
        exact Nat.mod_eq_of_lt hty256
      · show g.stored.perm = d.file.perm
        rw [stored_perm, hg.2.2.1]
        exact Nat.mod_eq_of_lt hpm256
      · intro _
        show g.stored.first_block = d.file.first_block
        rw [stored_first_block, hg.2.2.2]
        exact Nat.mod_eq_of_lt hfb16
      · intro h
        rw [hty] at h
        exact absurd h (by decide)
    · have hsame : slot s2 b i = slot s b i := by
        unfold slot
        rw [hp2, read_File_congr s s2 (phys s b + 64 * i) (fun k hk => by
          rw [Nat.add_assoc]
          apply hdisk b (Or.inl hb) (64 * i + k) (by omega)
          rcases hdslot with h | ⟨bd, _, kd, hkd, h⟩
          · exact Or.inl h
          · right
            have hdp : d.position.toNat = phys s bd + 64 * kd := by
              rw [h]
              simp only [slot, Int.toNat_ofNat]
            have hdn : 0 ≤ d.position := by
              rw [h]
              exact Int.natCast_nonneg _
            rcases slot_pos_cases s b i bd kd hi hkd with h5 | h5 | h5
            · exact absurd ⟨hdn, by rw [hdp, h5]⟩ hc
            · left; omega
            · right; omega)]
      rw [hsame]
      exact slotEq_refl _
  · intro b hb
    refine ⟨hfat b (Or.inr hb), ?_⟩
    intro k hk
    apply hdisk b (Or.inr hb) k hk
    rcases hdslot with h | ⟨bd, hbd, kd, hkd, h⟩
    · exact Or.inl h
    · right
      have hdp : d.position.toNat = phys s bd + 64 * kd := by
        rw [h]
        simp only [slot, Int.toNat_ofNat]
      have hne : b ≠ bd := fun e => hDK bd hbd (e ▸ hb)
      have hend := slot_end_le s.block_size kd hkd
      by_contra hcon
      have h3 : d.position.toNat ≤ phys s b + k ∧ phys s b + k < d.position.toNat + 48 := by
        omega
      have := phys_disjoint s b bd k (phys s b + k - phys s bd) hfbs hne hk (by omega)
      omega

/-! ## C22, C23, C26, C29: the scheduler at the failing inputs -/

set_option maxRecDepth 100000 in
/-- C22, the code at the failing input. In `ex_niced` the shell (PID 1) is
active and its child PID 2, niced from `MED` to `LOW` while it was in the
`MED` run queue, is still in the `MED` queue (`p_nice` looks for it in the
queue of the new priority). `p_kill(2, 0)` returns 0 and makes PID 2 a
zombie of the shell, but looks for its node in the `LOW` queue: PID 2 stays
in the `MED` run queue, and the next pass of the scheduler that draws a `MED`
ticket dispatches the zombie as the active process. -/
theorem p_kill_leaves_niced_process_queued :
    ex_niced.active_process = some 1 ∧ ex_niced.queue_m = [2] ∧
    ((ex_niced.pcb 2).status, (ex_niced.pcb 2).prio) = (Status.RUN, Priority.LOW) ∧
    (p_kill 5 ex_niced 2 0).map (fun r => r.1) = some 0 ∧
    (p_kill 5 ex_niced 2 0).map (fun r => ((r.2.pcb 2).status, r.2.queue_m)) =
      some (Status.ZOMB, [2]) ∧
    ((p_kill 5 ex_niced 2 0).bind (fun r => scheduler [31] r.2)).map
      (fun k => (k.active_process, (k.pcb 2).status)) = some (some 2, Status.ZOMB) := by
  decide

set_option maxRecDepth 100000 in
set_option maxHeartbeats 4000000 in
/-- C23, the code at the failing input. In `ex_grandchild` PID 3 is the
active process, its parent is PID 2, and the parent of PID 2 is the shell,
PID 1. When PID 3 calls `p_kill(2, 0)` the call returns 0 and `kill_orphans`
takes PID 3 out of the process table, but PID 3 stays the active process (it
is looked for in the run queue of its priority only), and the next pass of
the scheduler puts it back on the `MED` run queue and dispatches it again. -/
theorem p_kill_by_descendant_keeps_caller :
    ex_grandchild.active_process = some 3 ∧ (ex_grandchild.pcb 3).parent = some 2 ∧
    (ex_grandchild.pcb 2).children = [3] ∧ (ex_grandchild.pcb 2).parent = some 1 ∧
    ex_grandchild.process_queue = [1, 2, 3] ∧
    (p_kill 5 ex_grandchild 2 0).map (fun r => r.1) = some 0 ∧
    (p_kill 5 ex_grandchild 2 0).map (fun r => (r.2.active_process, r.2.process_queue)) =
      some (some 3, [1, 2]) ∧
    ((p_kill 5 ex_grandchild 2 0).bind (fun r => scheduler [31] r.2)).map
      (fun k => (k.active_process, k.queue_m)) = some (some 3, []) := by
  decide

set_option maxRecDepth 100000 in
/-- C26, the code at the failing input. In `ex_deferred` the shell is
running with the critical-section flag still set after `p_kill(9, 0)`, so
the two ticks that followed were counted (`all_ticks` is 2) but deferred
(`prev_ticks` is still 0). `p_sleep(1)` at tick 2 blocks the shell with
`blocked_ticks` 1, and the sleep-expiry step of the scheduler pass it
switches to, still at tick 2, returns the shell to its run queue:
`updateTicks` compares `blocked_ticks` with `all_ticks - prev_ticks`, which
is 2. -/
theorem p_sleep_wakes_early :
    (ex_deferred.all_ticks, ex_deferred.prev_ticks, ex_deferred.active_process) =
      (2, 0, some 1) ∧
    ((p_sleep ex_deferred 1).queue_blocked, (p_sleep ex_deferred 1).all_ticks) = ([1], 2) ∧
    (((p_sleep ex_deferred 1).pcb 1).status, ((p_sleep ex_deferred 1).pcb 1).bc,
      ((p_sleep ex_deferred 1).pcb 1).blocked_ticks) =
      (Status.BLOCK, BlockedCause.SLEEP, 1) ∧
    (updateTicks (p_sleep ex_deferred 1)).map
      (fun k => (k.all_ticks, k.queue_blocked, k.queue_h, (k.pcb 1).status, (k.pcb 1).bc)) =
      some (2, [], [1], Status.RUN, BlockedCause.NOT_BLOCKED) := by
  decide

set_option maxRecDepth 100000 in
/-- C29, the code at the failing inputs. In `ex_boot` the shell is the
active process, there is no PID 9 and the shell has no children. Both
`p_kill(9, 0)` and `p_waitpid(-1, _, 1)` return -1 with
`context_switch_safe` still 0; with a tick deferred during the call
(`alarm_triggered` set) they return with the flag still 0, the tick still
pending and no switch to the scheduler. -/
theorem error_returns_keep_critical_section :
    ex_boot.active_process = some 1 ∧ ex_boot.process_queue = [1] ∧
    (ex_boot.pcb 1).children = [] ∧ (ex_boot.pcb 1).zombie_children = [] ∧
    (p_kill 5 ex_boot 9 0).map (fun r => (r.1, r.2.context_switch_safe)) =
      some (-1, false) ∧
    (p_waitpid ex_boot (-1) true).map (fun r => (r.1, r.2.context_switch_safe)) =
      some (some (-1, -2), false) ∧
    (p_kill 5 { ex_boot with alarm_triggered := true } 9 0).map
      (fun r => (r.1, r.2.context_switch_safe, r.2.alarm_triggered, r.2.yields)) =
      some (-1, false, true, ex_boot.yields) ∧
    (p_waitpid { ex_boot with alarm_triggered := true } (-1) true).map
      (fun r => (r.1, r.2.context_switch_safe, r.2.alarm_triggered, r.2.yields)) =
      some (some (-1, -2), false, true, ex_boot.yields) := by
  decide

/-! ## C30: `add_file` with more than one FAT block -/

set_option maxRecDepth 100000 in
set_option maxHeartbeats 4000000 in
/-- C30, the code at the failing input. `ex_two` has two FAT blocks, so the
root directory's block 1 is at byte 512, the second block of the backing
file; its chain is block 1 alone and slot 3, at byte 704, is its only free
slot. `touch /d` succeeds and fills that slot, but no block is added: the
chain is still block 1 alone and each of its four slots is in use, so no
slot of the chain starts with `0x00`. `add_file` tests `fat[block]` with
`block = e.position / block_size`, which is 2, the block's index in the
backing file, not its FAT index 1. -/
theorem add_file_fills_last_slot_without_block :
    (ex_two.block_size, ex_two.fat_blocks, ex_two.fat 1, ex_two.fat 2) = (256, 2, LAST_BLOCK, 0) ∧
    (List.range 4).map (fun i => ex_two.disk (phys ex_two 1 + 64 * i)) = [97, 98, 99, 0] ∧
    (create_file 5 ex_two 0 [47, 100] REGULAR_FILE).map (fun r => r.1) = some 0 ∧
    (create_file 5 ex_two 0 [47, 100] REGULAR_FILE).map
      (fun r => (r.2.fat 1, (List.range 4).map (fun i => r.2.disk (phys r.2 1 + 64 * i)))) =
      some (LAST_BLOCK, [97, 98, 99, 100]) ∧
    (create_file 5 ex_two 0 [47, 100] REGULAR_FILE).map
      (fun r => (List.range' 1 r.2.data_blocks).all (fun b => r.2.fat b = 0 ∨ b = 1)) =
      some true := by
  decide

/-! ## Queues -/

theorem remove_pcb_erase (q : List Int) (pid : Int) : (remove_pcb q pid).2 = q.erase pid := by
  induction q with
  | nil => rfl
  | cons c rest ih =>
    unfold remove_pcb
    by_cases h : c = pid
    · subst h; simp
    · rw [if_neg h]
      simp only [ih]
      rw [List.erase_cons_tail]
      simpa using h

theorem remove_pcb_fst (q : List Int) (pid : Int) :
    (remove_pcb q pid).1 = if pid ∈ q then some pid else none := by
  induction q with
  | nil => rfl
  | cons c rest ih =>
    unfold remove_pcb
    by_cases h : c = pid
    · subst h; simp
    · rw [if_neg h]
      simp only [ih, List.mem_cons]
      have h2 : ¬ pid = c := fun e => h e.symm
      simp [h2]

theorem get_node_eq (q : List Int) (pid : Int) :
    get_node q pid = if pid ∈ q then some pid else none := by
  unfold get_node
  induction q with
  | nil => rfl
  | cons c rest ih =>
    by_cases h : c = pid
    · subst h; simp
    · have h2 : ¬ pid = c := fun e => h e.symm
      simp [List.find?_cons, h, h2, ih]

theorem checkAlarmTriggered_pcb (k : Kernel) : (checkAlarmTriggered k).pcb = k.pcb := by
  unfold checkAlarmTriggered; split <;> rfl

theorem checkAlarmTriggered_safe (k : Kernel) :
    (checkAlarmTriggered k).context_switch_safe = true := by
  unfold checkAlarmTriggered; split <;> rfl

theorem checkAlarmTriggered_queues (k : Kernel) :
    (checkAlarmTriggered k).queue_l = k.queue_l ∧ (checkAlarmTriggered k).queue_m = k.queue_m ∧
    (checkAlarmTriggered k).queue_h = k.queue_h ∧
    (checkAlarmTriggered k).queue_blocked = k.queue_blocked ∧
    (checkAlarmTriggered k).queue_stopped = k.queue_stopped ∧
    (checkAlarmTriggered k).process_queue = k.process_queue ∧
    (checkAlarmTriggered k).active_process = k.active_process ∧
    (checkAlarmTriggered k).next_pid = k.next_pid ∧
    (checkAlarmTriggered k).all_ticks = k.all_ticks ∧
    (checkAlarmTriggered k).prev_ticks = k.prev_ticks ∧
    (checkAlarmTriggered k).queue_lottery = k.queue_lottery := by
  unfold checkAlarmTriggered; split <;> simp

theorem exists_state {α β : Type} {a b : α} {K : β} {P : β → Prop} (ha : a = b) (hP : P K) :
    ∃ k2, some (a, K) = some (b, k2) ∧ P k2 :=
  ⟨K, by rw [ha], hP⟩

theorem set_pcb_pcb (k : Kernel) (p x : Int) (f : Pcb → Pcb) :
    (set_pcb k p f).pcb x = if x = p then f (k.pcb p) else k.pcb x := rfl

theorem set_pcb_self (k : Kernel) (p : Int) (f : Pcb → Pcb) :
    (set_pcb k p f).pcb p = f (k.pcb p) := by
  rw [set_pcb_pcb, if_pos rfl]

theorem set_pcb_ne (k : Kernel) (p x : Int) (f : Pcb → Pcb) (h : x ≠ p) :
    (set_pcb k p f).pcb x = k.pcb x := by
  rw [set_pcb_pcb, if_neg h]

theorem set_pcb_fields (k : Kernel) (p : Int) (f : Pcb → Pcb) :
    (set_pcb k p f).queue_l = k.queue_l ∧ (set_pcb k p f).queue_m = k.queue_m ∧
    (set_pcb k p f).queue_h = k.queue_h ∧ (set_pcb k p f).queue_blocked = k.queue_blocked ∧
    (set_pcb k p f).queue_stopped = k.queue_stopped ∧
    (set_pcb k p f).process_queue = k.process_queue ∧
    (set_pcb k p f).active_process = k.active_process ∧
    (set_pcb k p f).next_pid = k.next_pid ∧ (set_pcb k p f).all_ticks = k.all_ticks ∧
    (set_pcb k p f).prev_ticks = k.prev_ticks ∧
    (set_pcb k p f).queue_lottery = k.queue_lottery ∧
    (set_pcb k p f).context_switch_safe = k.context_switch_safe ∧
    (set_pcb k p f).alarm_triggered = k.alarm_triggered ∧
    (set_pcb k p f).yields = k.yields :=
  ⟨rfl, rfl, rfl, rfl, rfl, rfl, rfl, rfl, rfl, rfl, rfl, rfl, rfl, rfl⟩

theorem k_process_cleanup_pcb (k : Kernel) (p : Int) : (k_process_cleanup k p).pcb = k.pcb := rfl

/-! ## C25: `p_waitpid(-1, ..)` -/

/-- C25. `p_waitpid(-1, wstatus, nohang)` by the active process `curr`: with
no children and no zombie children it returns -1 (and stores -2); with a
zombie child at the head of `zombie_children` it pops it, returns its PID and
stores its signal, and the PID is no longer in the process table; otherwise,
with a child and a pending notification at the head of `signals`, it pops
that one and returns its PID and signal; otherwise, with a child and
`nohang` set, it returns 0 and neither the caller's status nor any queue
changes. -/
theorem p_waitpid_any_order (k : Kernel) (curr : Int) (nohang : Bool)
    (hact : k.active_process = some curr)
    (hpid : ∀ p ∈ (k.pcb curr).zombie_children ++ (k.pcb curr).signals, (k.pcb p).PID = p)
    (hnd : k.process_queue.Nodup) :
    ((k.pcb curr).children = [] → (k.pcb curr).zombie_children = [] →
      ∃ k2, p_waitpid k (-1) nohang = some (some (-1, -2), k2)) ∧
    (∀ zomb rest, (k.pcb curr).zombie_children = zomb :: rest →
      ∃ k2, p_waitpid k (-1) nohang = some (some (zomb, (k.pcb zomb).signal), k2) ∧
        (k2.pcb curr).zombie_children = rest ∧ zomb ∉ k2.process_queue ∧
        (∀ x, x ≠ zomb → (x ∈ k2.process_queue ↔ x ∈ k.process_queue)) ∧
        k2.context_switch_safe = true) ∧
    ((k.pcb curr).children ≠ [] → (k.pcb curr).zombie_children = [] →
      ∀ stop rest, (k.pcb curr).signals = stop :: rest →
      ∃ k2, p_waitpid k (-1) nohang = some (some (stop, (k.pcb stop).signal), k2) ∧
        (k2.pcb curr).signals = rest ∧ k2.process_queue = k.process_queue ∧
        (k2.pcb curr).zombie_children = [] ∧ k2.context_switch_safe = true) ∧
    ((k.pcb curr).children ≠ [] → (k.pcb curr).zombie_children = [] →
      (k.pcb curr).signals = [] → nohang = true →
      ∃ k2, p_waitpid k (-1) nohang = some (some (0, -1), k2) ∧
        (k2.pcb curr).status = (k.pcb curr).status ∧
        (k2.queue_l, k2.queue_m, k2.queue_h, k2.queue_blocked, k2.queue_stopped,
          k2.process_queue, k2.active_process) =
          (k.queue_l, k.queue_m, k.queue_h, k.queue_blocked, k.queue_stopped,
            k.process_queue, k.active_process) ∧
        (∀ p, ((k2.pcb p).children, (k2.pcb p).zombie_children, (k2.pcb p).signals) =
          ((k.pcb p).children, (k.pcb p).zombie_children, (k.pcb p).signals)) ∧
        k2.context_switch_safe = true) := by
  refine ⟨?_, ?_, ?_, ?_⟩
  · intro hc hz
    unfold p_waitpid
    simp only [hact, hc, hz, List.length_nil, Nat.add_zero, if_true]
    exact ⟨_, rfl⟩
  · intro zomb rest hz
    suffices h : ∀ r, p_waitpid k (-1) nohang = r →
        ∃ k2, r = some (some (zomb, (k.pcb zomb).signal), k2) ∧
        (k2.pcb curr).zombie_children = rest ∧ zomb ∉ k2.process_queue ∧
        (∀ x, x ≠ zomb → (x ∈ k2.process_queue ↔ x ∈ k.process_queue)) ∧
        k2.context_switch_safe = true from h _ rfl
    intro r hr
    unfold p_waitpid at hr
    generalize hk0 : ({ k with context_switch_safe := false } : Kernel) = k0 at hr
    have e1 : k0.active_process = some curr := by rw [← hk0]; exact hact
    have e2 : k0.pcb = k.pcb := by rw [← hk0]
    have e3 : k0.process_queue = k.process_queue := by rw [← hk0]
    clear hk0
    simp only [e1, e2, hz, pop_front, List.length_cons] at hr
    rw [if_neg (by omega)] at hr
    simp only [if_true] at hr
    rw [← hr]
    have hz1 : ((set_pcb k0 curr (fun p => { p with zombie_children := rest })).pcb zomb).PID
          = zomb ∧
        ((set_pcb k0 curr (fun p => { p with zombie_children := rest })).pcb zomb).signal =
          (k.pcb zomb).signal := by
      have hp := hpid zomb (by rw [hz]; simp)
      by_cases h : zomb = curr
      · subst h; rw [set_pcb_self, e2]; exact ⟨hp, rfl⟩
      · rw [set_pcb_ne _ _ _ _ h, e2]; exact ⟨hp, rfl⟩
    refine exists_state ?_ ⟨?_, ?_, ?_, ?_⟩
    · rw [hz1.1, hz1.2]
    · simp [checkAlarmTriggered_pcb, k_process_cleanup_pcb, set_pcb_pcb]
    · rw [(checkAlarmTriggered_queues _).2.2.2.2.2.1, (set_pcb_fields _ _ _).2.2.2.2.2.1]
      unfold k_process_cleanup
      simp only [hz1.1, remove_pcb_erase]
      show zomb ∉ k0.process_queue.erase zomb
      rw [e3]
      exact fun h => ((List.Nodup.mem_erase_iff hnd).1 h).1 rfl
    · intro x hx
      rw [(checkAlarmTriggered_queues _).2.2.2.2.2.1, (set_pcb_fields _ _ _).2.2.2.2.2.1]
      unfold k_process_cleanup
      simp only [hz1.1, remove_pcb_erase]
      show x ∈ k0.process_queue.erase zomb ↔ _
      rw [e3]
      exact List.mem_erase_of_ne hx
    · exact checkAlarmTriggered_safe _
  · intro hc hz stop rest hs
    have hlen : ¬ (k.pcb curr).children.length + 0 = 0 := by
      cases h : (k.pcb curr).children with
      | nil => exact absurd h hc
      | cons a l => simp
    suffices h : ∀ r, p_waitpid k (-1) nohang = r →
        ∃ k2, r = some (some (stop, (k.pcb stop).signal), k2) ∧
        (k2.pcb curr).signals = rest ∧ k2.process_queue = k.process_queue ∧
        (k2.pcb curr).zombie_children = [] ∧ k2.context_switch_safe = true from h _ rfl
    intro r hr
    unfold p_waitpid at hr
    generalize hk0 : ({ k with context_switch_safe := false } : Kernel) = k0 at hr
    have e1 : k0.active_process = some curr := by rw [← hk0]; exact hact
    have e2 : k0.pcb = k.pcb := by rw [← hk0]
    have e3 : k0.process_queue = k.process_queue := by rw [← hk0]
    clear hk0
    simp only [e1, e2, hz, hs, pop_front, List.length_nil] at hr
    rw [if_neg hlen] at hr
    simp only [if_true] at hr
    rw [← hr]
    have hz1 : ((set_pcb k0 curr (fun p => { p with signals := rest })).pcb stop).PID = stop ∧
        ((set_pcb k0 curr (fun p => { p with signals := rest })).pcb stop).signal =
          (k.pcb stop).signal := by
      have hp := hpid stop (by rw [hs]; simp)
      by_cases h : stop = curr
      · subst h; rw [set_pcb_self, e2]; exact ⟨hp, rfl⟩
      · rw [set_pcb_ne _ _ _ _ h, e2]; exact ⟨hp, rfl⟩
    refine exists_state ?_ ⟨?_, ?_, ?_, ?_⟩
    · rw [hz1.1, hz1.2]
    · by_cases h : curr = stop
      · subst h; simp [checkAlarmTriggered_pcb, set_pcb_pcb]
      · simp [checkAlarmTriggered_pcb, set_pcb_pcb, h]
    · rw [(checkAlarmTriggered_queues _).2.2.2.2.2.1]; exact e3
    · by_cases h : curr = stop
      · subst h; simp [checkAlarmTriggered_pcb, set_pcb_pcb, e2, hz]
      · simp [checkAlarmTriggered_pcb, set_pcb_pcb, h, e2, hz]
    · exact checkAlarmTriggered_safe _
  · intro hc hz hs hn
    have hlen : ¬ (k.pcb curr).children.length + 0 = 0 := by
      cases h : (k.pcb curr).children with
      | nil => exact absurd h hc
      | cons a l => simp
    subst hn
    suffices h : ∀ r, p_waitpid k (-1) true = r →
        ∃ k2, r = some (some (0, -1), k2) ∧
        (k2.pcb curr).status = (k.pcb curr).status ∧
        (k2.queue_l, k2.queue_m, k2.queue_h, k2.queue_blocked, k2.queue_stopped,
          k2.process_queue, k2.active_process) =
          (k.queue_l, k.queue_m, k.queue_h, k.queue_blocked, k.queue_stopped,
            k.process_queue, k.active_process) ∧
        (∀ p, ((k2.pcb p).children, (k2.pcb p).zombie_children, (k2.pcb p).signals) =
          ((k.pcb p).children, (k.pcb p).zombie_children, (k.pcb p).signals)) ∧
        k2.context_switch_safe = true from h _ rfl
    intro r hr
    unfold p_waitpid at hr
    generalize hk0 : ({ k with context_switch_safe := false } : Kernel) = k0 at hr
    have e1 : k0.active_process = some curr := by rw [← hk0]; exact hact
    have e2 : k0.pcb = k.pcb := by rw [← hk0]
    have e4 : (k0.queue_l, k0.queue_m, k0.queue_h, k0.queue_blocked, k0.queue_stopped,
          k0.process_queue, k0.active_process) =
          (k.queue_l, k.queue_m, k.queue_h, k.queue_blocked, k.queue_stopped,
            k.process_queue, k.active_process) := by rw [← hk0]
    clear hk0
    simp only [e1, e2, hz, hs, pop_front, List.length_nil] at hr
    rw [if_neg hlen] at hr
    simp only [if_true] at hr
    rw [← hr]
    refine ⟨_, rfl, ?_, ?_, ?_, ?_⟩
    · simp [checkAlarmTriggered_pcb, set_pcb_pcb, e2]
    · obtain ⟨h1, h2, h3, h4, h5, h6, h7, _⟩ := checkAlarmTriggered_queues
        (set_pcb k0 curr (fun p => { p with wait_pid := 0 }))
      rw [h1, h2, h3, h4, h5, h6, h7]
      exact e4
    · intro p
      rw [checkAlarmTriggered_pcb]
      by_cases h : p = curr
      · subst h; simp [set_pcb_pcb, e2]
      · simp [set_pcb_pcb, h, e2]
    · exact checkAlarmTriggered_safe _

set_option maxRecDepth 100000 in
set_option maxHeartbeats 4000000 in
theorem p_waitpid_any_order_witness :
    ex_zombie.active_process = some 1 ∧ (ex_zombie.pcb 1).zombie_children = [2] ∧
    ∃ k2, p_waitpid ex_zombie (-1) true = some (some (2, (ex_zombie.pcb 2).signal), k2) ∧
      (k2.pcb 1).zombie_children = [] ∧ 2 ∉ k2.process_queue ∧
      (∀ x, x ≠ 2 → (x ∈ k2.process_queue ↔ x ∈ ex_zombie.process_queue)) ∧
      k2.context_switch_safe = true :=
  ⟨by decide, by decide,
    (p_waitpid_any_order ex_zombie 1 true (by decide) (by decide) (by decide)).2.1 2 []
      (by decide)⟩

/-! ## C24: `STOP` and `CONT` -/

theorem set_priority_queue_fields (k : Kernel) (prio : Priority) (q : List Int) :
    (set_priority_queue k prio q).pcb = k.pcb ∧
    (set_priority_queue k prio q).queue_blocked = k.queue_blocked ∧
    (set_priority_queue k prio q).queue_stopped = k.queue_stopped ∧
    (set_priority_queue k prio q).process_queue = k.process_queue ∧
    (set_priority_queue k prio q).active_process = k.active_process ∧
    (set_priority_queue k prio q).next_pid = k.next_pid := by
  cases prio <;> exact ⟨rfl, rfl, rfl, rfl, rfl, rfl⟩

theorem count_single_ne (x par : Int) (h : x ≠ par) : List.count x [par] = 0 := by
  rw [List.count_eq_zero]; simpa using h

theorem wake_parent_spec (k : Kernel) (par proc : Int)
    (hp2 : (k.pcb par).PID = par) (hprio2 : (k.pcb par).prio ≠ Priority.INVALID) :
    ∃ k2, wake_parent k par proc = some k2 ∧
      (∀ x, x ≠ par → k2.pcb x = k.pcb x) ∧
      (∀ x, x ≠ par → counts k2 x = counts k x) ∧
      k2.active_process = k.active_process ∧ k2.process_queue = k.process_queue ∧
      k2.queue_stopped = k.queue_stopped ∧ k2.next_pid = k.next_pid ∧
      k2.pcb par = { k.pcb par with blocked_ticks := 0, bc := BlockedCause.NOT_BLOCKED, status := Status.RUN, child_signal := (k.pcb proc).signal, wait_pid := (k.pcb proc).PID, no_changed_child := 0 } := by
  unfold wake_parent
  simp only [set_pcb_self, hp2, remove_pcb_fst, remove_pcb_erase, (set_pcb_fields _ _ _).2.2.2.1]
  by_cases hm : par ∈ k.queue_blocked
  · rw [if_pos hm]
    unfold add_to_scheduler
    cases hpr : (k.pcb par).prio with
    | INVALID => exact absurd hpr hprio2
    | LOW =>
      simp only [get_priority_queue, set_priority_queue, push_back]
      refine ⟨_, rfl, ?_, ?_, rfl, rfl, rfl, rfl, ?_⟩
      · intro x hx; simp [set_pcb_pcb, hx]
      · intro x hx
        have hx2 : par ≠ x := fun e => hx e.symm
        simp [counts, set_pcb, List.count_erase_of_ne hx, List.count_append, count_single_ne x par hx]
      · simp [set_pcb_pcb, hp2, hpr]
    | MED =>
      simp only [get_priority_queue, set_priority_queue, push_back]
      refine ⟨_, rfl, ?_, ?_, rfl, rfl, rfl, rfl, ?_⟩
      · intro x hx; simp [set_pcb_pcb, hx]
      · intro x hx
        have hx2 : par ≠ x := fun e => hx e.symm
        simp [counts, set_pcb, List.count_erase_of_ne hx, List.count_append, count_single_ne x par hx]
      · simp [set_pcb_pcb, hp2, hpr]
    | HIGH =>
      simp only [get_priority_queue, set_priority_queue, push_back]
      refine ⟨_, rfl, ?_, ?_, rfl, rfl, rfl, rfl, ?_⟩
      · intro x hx; simp [set_pcb_pcb, hx]
      · intro x hx
        have hx2 : par ≠ x := fun e => hx e.symm
        simp [counts, set_pcb, List.count_erase_of_ne hx, List.count_append, count_single_ne x par hx]
      · simp [set_pcb_pcb, hp2, hpr]
  · rw [if_neg hm]
    unfold add_to_scheduler
    simp only []
    refine ⟨_, rfl, ?_, ?_, rfl, rfl, rfl, rfl, ?_⟩
    · intro x hx; simp [set_pcb_pcb, hx]
    · intro x hx
      simp [counts, set_pcb, List.count_erase_of_ne hx]
    · simp [set_pcb_pcb, hp2]

theorem parent_waits_run (p : Pcb) (pid : Int) (h : p.status = Status.RUN) :
    parent_waits p pid = false := by
  unfold parent_waits; simp [h]

theorem notify_parent_spec (k : Kernel) (par node proc seen pid : Int)
    (hp2 : (k.pcb par).PID = par) (hprio2 : (k.pcb par).prio ≠ Priority.INVALID) :
    ∃ k2, notify_parent k par node proc seen pid = some k2 ∧
      (∀ x, x ≠ par → k2.pcb x = k.pcb x) ∧
      (∀ x, x ≠ par → counts k2 x = counts k x) ∧
      k2.active_process = k.active_process ∧ k2.process_queue = k.process_queue ∧
      k2.queue_stopped = k.queue_stopped ∧ k2.next_pid = k.next_pid ∧
      (k2.pcb par).PID = par ∧ (k2.pcb par).prio = (k.pcb par).prio ∧
      ((k.pcb node).PID = pid → seen = pid →
        (get_node (k2.pcb par).signals pid ≠ none ∨ parent_waits (k2.pcb par) pid = false)) ∧
      ((get_node (k.pcb par).signals seen ≠ none ∨ parent_waits (k.pcb par) pid = false) →
        k2.queue_l = k.queue_l ∧ k2.queue_m = k.queue_m ∧ k2.queue_h = k.queue_h ∧
        k2.queue_blocked = k.queue_blocked) := by
  unfold notify_parent
  by_cases hs : get_node (k.pcb par).signals seen = none
  · rw [if_pos hs]
    by_cases hw : parent_waits (k.pcb par) pid = true
    · rw [if_pos hw]
      obtain ⟨k2, h1, h2, h3, h4, h5, h6, h7, h8⟩ := wake_parent_spec k par proc hp2 hprio2
      refine ⟨k2, h1, h2, h3, h4, h5, h6, h7, ?_, ?_, ?_, ?_⟩
      · rw [h8]; exact hp2
      · rw [h8]
      · intro _ _
        right
        apply parent_waits_run
        rw [h8]
      · intro h
        rcases h with h | h
        · exact absurd hs h
        · rw [h] at hw; exact absurd hw (by decide)
    · rw [if_neg hw]
      refine ⟨_, rfl, ?_, ?_, rfl, rfl, rfl, rfl, ?_, ?_, ?_, ?_⟩
      · intro x hx; simp [set_pcb_pcb, hx]
      · intro x hx; rfl
      · simp [set_pcb_pcb, hp2]
      · simp [set_pcb_pcb]
      · intro hn _
        left
        rw [set_pcb_self, hn, get_node_eq]
        simp [push_back]
      · intro _; exact ⟨rfl, rfl, rfl, rfl⟩
  · rw [if_neg hs]
    refine ⟨_, rfl, ?_, ?_, rfl, rfl, rfl, rfl, hp2, rfl, ?_, ?_⟩
    · intro x _; rfl
    · intro x _; rfl
    · intro _ hse
      left
      rw [← hse]; exact hs
    · intro _; exact ⟨rfl, rfl, rfl, rfl⟩

theorem get_priority_queue_some (k : Kernel) (prio : Priority) (h : prio ≠ Priority.INVALID) :
    ∃ q, get_priority_queue k prio = some q := by
  cases prio
  · exact ⟨_, rfl⟩
  · exact ⟨_, rfl⟩
  · exact ⟨_, rfl⟩
  · exact absurd rfl h

theorem counts_eq (k : Kernel) (x : Int) (a b c d e : Nat) :
    counts k x = (a, b, c, d, e) ↔
      k.queue_l.count x = a ∧ k.queue_m.count x = b ∧ k.queue_h.count x = c ∧
      k.queue_blocked.count x = d ∧ k.queue_stopped.count x = e := by
  unfold counts
  simp only [Prod.mk.injEq]

theorem run_counts_queue (k : Kernel) (pid : Int) (prio : Priority)
    (h : counts k pid = run_counts prio) (hprio : prio ≠ Priority.INVALID) :
    ∃ q, get_priority_queue k prio = some q ∧ q.count pid = 1 ∧
      counts (set_priority_queue k prio (q.erase pid)) pid = (0, 0, 0, 0, 0) ∧
      ∀ x, x ≠ pid → counts (set_priority_queue k prio (q.erase pid)) x = counts k x := by
  cases prio with
  | INVALID => exact absurd rfl hprio
  | LOW =>
    have h2 := (counts_eq _ _ _ _ _ _ _).1 h
    refine ⟨_, rfl, h2.1, ?_, ?_⟩
    · rw [counts_eq]
      simp [set_priority_queue, List.count_erase_self, h2.1, h2.2.1, h2.2.2.1, h2.2.2.2.1, h2.2.2.2.2]
    · intro x hx
      simp [counts, set_priority_queue, List.count_erase_of_ne hx]
  | MED =>
    have h2 := (counts_eq _ _ _ _ _ _ _).1 h
    refine ⟨_, rfl, h2.2.1, ?_, ?_⟩
    · rw [counts_eq]
      simp [set_priority_queue, List.count_erase_self, h2.1, h2.2.1, h2.2.2.1, h2.2.2.2.1, h2.2.2.2.2]
    · intro x hx
      simp [counts, set_priority_queue, List.count_erase_of_ne hx]
  | HIGH =>
    have h2 := (counts_eq _ _ _ _ _ _ _).1 h
    refine ⟨_, rfl, h2.2.2.1, ?_, ?_⟩
    · rw [counts_eq]
      simp [set_priority_queue, List.count_erase_self, h2.1, h2.2.1, h2.2.2.1, h2.2.2.2.1, h2.2.2.2.2]
    · intro x hx
      simp [counts, set_priority_queue, List.count_erase_of_ne hx]

theorem mem_of_count_one (q : List Int) (x : Int) (h : q.count x = 1) : x ∈ q := by
  rw [← List.count_pos_iff]; omega

/-- What `stop_detach` does to a process that is blocked, active or queued. -/
theorem stop_detach_spec (k : Kernel) (pid : Int)
    (hp1 : (k.pcb pid).PID = pid)
    (hp3 : ∀ a, k.active_process = some a → (k.pcb a).PID = a)
    (hprio : (k.pcb pid).prio ≠ Priority.INVALID)
    (hpl : ((k.pcb pid).status = Status.BLOCK ∧ counts k pid = (0, 0, 0, 1, 0) ∧
          k.active_process ≠ some pid) ∨
        ((k.pcb pid).status ≠ Status.BLOCK ∧ k.active_process = some pid ∧
          counts k pid = (0, 0, 0, 0, 0)) ∨
        ((k.pcb pid).status ≠ Status.BLOCK ∧ k.active_process ≠ some pid ∧
          counts k pid = run_counts (k.pcb pid).prio)) :
    ∃ k1, stop_detach k pid pid = some (pid, k1) ∧
      stable (k1.pcb pid) = stable (k.pcb pid) ∧ (k1.pcb pid).status = (k.pcb pid).status ∧
      (k1.pcb pid).signal = (k.pcb pid).signal ∧
      (k1.pcb pid).bc = (if (k.pcb pid).status = Status.BLOCK then (k.pcb pid).bc
        else BlockedCause.NOT_BLOCKED) ∧
      (∀ x, x ≠ pid → k1.pcb x = k.pcb x) ∧
      counts k1 pid = (0, 0, 0, 0, 0) ∧ (∀ x, x ≠ pid → counts k1 x = counts k x) ∧
      k1.active_process ≠ some pid ∧ k1.process_queue = k.process_queue ∧
      k1.next_pid = k.next_pid := by
  unfold stop_detach
  rcases hpl with ⟨hst, hc, ha⟩ | ⟨hst, ha, hc⟩ | ⟨hst, ha, hc⟩
  · have h2 := (counts_eq _ _ _ _ _ _ _).1 hc
    rw [if_pos hst, remove_pcb_fst, if_pos (mem_of_count_one _ _ h2.2.2.2.1)]
    refine ⟨_, rfl, rfl, rfl, rfl, ?_, ?_, ?_, ?_, ha, rfl, rfl⟩
    · simp [hst]
    · intro x _; rfl
    · rw [counts_eq]
      simp [remove_pcb_erase, List.count_erase_self, h2.1, h2.2.1, h2.2.2.1, h2.2.2.2.1, h2.2.2.2.2]
    · intro x hx
      simp [counts, remove_pcb_erase, List.count_erase_of_ne hx]
  · rw [if_neg hst]
    simp only [ha, hp1, if_true]
    refine ⟨_, rfl, ?_, ?_, ?_, ?_, ?_, ?_, ?_, ?_, rfl, rfl⟩
    · simp [set_pcb_pcb, stable]
    · simp [set_pcb_pcb]
    · simp [set_pcb_pcb]
    · simp [set_pcb_pcb, hst]
    · intro x hx; simp [set_pcb_pcb, hx]
    · exact hc
    · intro x _; rfl
    · simp [set_pcb]
  · rw [if_neg hst]
    obtain ⟨q, hq, hq1, hq2, hq3⟩ := run_counts_queue k pid _ hc hprio
    have hact : (match k.active_process with
        | none => (match get_priority_queue k (k.pcb pid).prio with
          | none => none
          | some q => match (remove_pcb q pid).1 with
            | none => none
            | some process =>
              some (process, set_priority_queue k (k.pcb pid).prio (remove_pcb q pid).2))
        | some a => if (k.pcb a).PID = pid then some (a, { k with active_process := none })
          else (match get_priority_queue k (k.pcb pid).prio with
          | none => none
          | some q => match (remove_pcb q pid).1 with
            | none => none
            | some process =>
              some (process, set_priority_queue k (k.pcb pid).prio (remove_pcb q pid).2))) =
        some (pid, set_priority_queue k (k.pcb pid).prio (q.erase pid)) := by
      have hqq : (match get_priority_queue k (k.pcb pid).prio with
          | none => none
          | some q => match (remove_pcb q pid).1 with
            | none => none
            | some process =>
              some (process, set_priority_queue k (k.pcb pid).prio (remove_pcb q pid).2)) =
          some (pid, set_priority_queue k (k.pcb pid).prio (q.erase pid)) := by
        rw [hq]
        simp only [remove_pcb_fst, if_pos (mem_of_count_one _ _ hq1), remove_pcb_erase]
      cases hac : k.active_process with
      | none => simp only []; exact hqq
      | some a =>
        simp only []
        have : (k.pcb a).PID ≠ pid := by
          rw [hp3 a hac]; intro e; rw [e] at hac; exact ha hac
        rw [if_neg this]; exact hqq
    simp only [] at hact ⊢
    rw [hact]
    simp only []
    have hsf := set_priority_queue_fields k (k.pcb pid).prio (q.erase pid)
    refine ⟨_, rfl, ?_, ?_, ?_, ?_, ?_, ?_, ?_, ?_, ?_, ?_⟩
    · rw [set_pcb_self, hsf.1]; rfl
    · rw [set_pcb_self, hsf.1]
    · rw [set_pcb_self, hsf.1]
    · rw [set_pcb_self, hsf.1]; simp [hst]
    · intro x hx; rw [set_pcb_ne _ _ _ _ hx, hsf.1]
    · exact hq2
    · intro x hx; exact hq3 x hx
    · rw [(set_pcb_fields _ _ _).2.2.2.2.2.2.1, hsf.2.2.2.2.1]; exact ha
    · rw [(set_pcb_fields _ _ _).2.2.2.2.2.1, hsf.2.2.2.1]
    · rw [(set_pcb_fields _ _ _).2.2.2.2.2.2.2.1, hsf.2.2.2.2.2]

/-- The stop branch of `k_process_kill` for a process that is blocked, active
or queued, and has a parent other than itself. -/
theorem kill_stop_spec (k : Kernel) (pid par : Int) (hne : par ≠ pid)
    (hp1 : (k.pcb pid).PID = pid) (hp2 : (k.pcb par).PID = par)
    (hp3 : ∀ a, k.active_process = some a → (k.pcb a).PID = a)
    (hprio : (k.pcb pid).prio ≠ Priority.INVALID)
    (hprio2 : (k.pcb par).prio ≠ Priority.INVALID)
    (hpl : ((k.pcb pid).status = Status.BLOCK ∧ counts k pid = (0, 0, 0, 1, 0) ∧
          k.active_process ≠ some pid) ∨
        ((k.pcb pid).status ≠ Status.BLOCK ∧ k.active_process = some pid ∧
          counts k pid = (0, 0, 0, 0, 0)) ∨
        ((k.pcb pid).status ≠ Status.BLOCK ∧ k.active_process ≠ some pid ∧
          counts k pid = run_counts (k.pcb pid).prio)) :
    ∃ k2, kill_stop k pid par pid = some (0, k2) ∧
      stable (k2.pcb pid) = stable (k.pcb pid) ∧ (k2.pcb pid).status = Status.STOP ∧
      (k2.pcb pid).signal = (k.pcb pid).signal ∧
      (k2.pcb pid).bc = (if (k.pcb pid).status = Status.BLOCK then (k.pcb pid).bc
        else BlockedCause.NOT_BLOCKED) ∧
      counts k2 pid = (0, 0, 0, 0, 1) ∧
      k2.active_process ≠ some pid ∧ k2.process_queue = k.process_queue ∧
      k2.next_pid = k.next_pid ∧
      (k2.pcb par).PID = par ∧ (k2.pcb par).prio = (k.pcb par).prio ∧
      (get_node (k2.pcb par).signals pid ≠ none ∨ parent_waits (k2.pcb par) pid = false) ∧
      (∀ x, x ≠ pid → x ≠ par → k2.pcb x = k.pcb x ∧ counts k2 x = counts k x) := by
  obtain ⟨k1, h1, h2, h3, h3s, h4, h5, h6, h7, h8, h9, h10⟩ :=
    stop_detach_spec k pid hp1 hp3 hprio hpl
  unfold kill_stop
  rw [h1]
  simp only []
  generalize hk3 : mark_stopped k1 pid = k3
  unfold mark_stopped at hk3
  have e1 : k3.pcb pid = { k1.pcb pid with status := Status.STOP } := by
    rw [← hk3]; simp [set_pcb_pcb]
  have e2 : ∀ x, x ≠ pid → k3.pcb x = k1.pcb x := by
    intro x hx; rw [← hk3]; simp [set_pcb_pcb, hx]
  have e3 : counts k3 pid = (0, 0, 0, 0, 1) := by
    have h6b := (counts_eq _ _ _ _ _ _ _).1 h6
    rw [← hk3, counts_eq]
    simp [set_pcb, push_back, List.count_append, h6b.1, h6b.2.1, h6b.2.2.1, h6b.2.2.2.1,
      h6b.2.2.2.2]
  have e4 : ∀ x, x ≠ pid → counts k3 x = counts k1 x := by
    intro x hx
    rw [← hk3]
    simp [counts, set_pcb, push_back, List.count_append, count_single_ne x pid hx]
  have e5 : k3.active_process = k1.active_process := by rw [← hk3]; rfl
  have e6 : k3.process_queue = k1.process_queue := by rw [← hk3]; rfl
  have e7 : k3.next_pid = k1.next_pid := by rw [← hk3]; rfl
  have e8 : k3.pcb par = k.pcb par := by rw [e2 par hne, h5 par hne]
  have e9 : (k3.pcb pid).PID = pid := by
    rw [e1]; show (k1.pcb pid).PID = pid
    have := congrArg Prod.fst h2
    exact this.trans hp1
  rw [e9]
  obtain ⟨k4, n1, n2, n3, n4, n5, n6, n7, n8, n9, n10, n11⟩ :=
    notify_parent_spec k3 par pid pid pid pid (by rw [e8]; exact hp2) (by rw [e8]; exact hprio2)
  rw [n1]
  have hpn : pid ≠ par := fun e => hne e.symm
  refine ⟨k4, rfl, ?_, ?_, ?_, ?_, ?_, ?_, ?_, ?_, ?_, ?_, ?_, ?_⟩
  · rw [n2 pid hpn, e1]; exact h2
  · rw [n2 pid hpn, e1]
  · rw [n2 pid hpn, e1]; exact h3s
  · rw [n2 pid hpn, e1]; exact h4
  · rw [n3 pid hpn]; exact e3
  · rw [n4, e5]; exact h8
  · rw [n5, e6]; exact h9
  · rw [n7, e7]; exact h10
  · exact n8
  · rw [n9, e8]
  · exact n10 e9 rfl
  · intro x hx hxp
    exact ⟨by rw [n2 x hxp, e2 x hx, h5 x hx], by rw [n3 x hxp, e4 x hx, h7 x hx]⟩

theorem getLast_push_back (q : List Int) (x : Int) : (push_back q x).getLast? = some x := by
  unfold push_back; simp

/-- What `cont_resume` does to a process that is once in the stopped queue
and in no other queue. -/
theorem cont_resume_spec (k : Kernel) (pid : Int)
    (hprio : (k.pcb pid).prio ≠ Priority.INVALID)
    (hc : counts k pid = (0, 0, 0, 0, 1)) :
    ∃ k3, cont_resume k pid = some (pid, k3) ∧
      stable (k3.pcb pid) = stable (k.pcb pid) ∧ (k3.pcb pid).bc = (k.pcb pid).bc ∧
      (k3.pcb pid).signal = (k.pcb pid).signal ∧
      (∀ x, x ≠ pid → k3.pcb x = k.pcb x ∧ counts k3 x = counts k x) ∧
      k3.active_process = k.active_process ∧ k3.process_queue = k.process_queue ∧
      k3.next_pid = k.next_pid ∧
      ((k.pcb pid).bc ≠ BlockedCause.NOT_BLOCKED →
        (k3.pcb pid).status = Status.BLOCK ∧ counts k3 pid = (0, 0, 0, 1, 0) ∧
        k3.queue_blocked.getLast? = some pid) ∧
      ((k.pcb pid).bc = BlockedCause.NOT_BLOCKED →
        (k3.pcb pid).status = Status.RUN ∧ counts k3 pid = run_counts (k.pcb pid).prio ∧
        ∃ q, get_priority_queue k3 (k.pcb pid).prio = some q ∧ q.getLast? = some pid) := by
  have h2 := (counts_eq _ _ _ _ _ _ _).1 hc
  unfold cont_resume
  rw [remove_pcb_fst, if_pos (mem_of_count_one _ _ h2.2.2.2.2)]
  simp only [remove_pcb_erase]
  by_cases hb : (k.pcb pid).bc = BlockedCause.NOT_BLOCKED
  · rw [if_neg (by simpa using hb)]
    unfold add_to_scheduler
    simp only [set_pcb_self]
    cases hpr : (k.pcb pid).prio with
    | INVALID => exact absurd hpr hprio
    | LOW =>
      simp only [get_priority_queue, set_priority_queue, Option.map_some']
      refine ⟨_, rfl, ?_, ?_, ?_, ?_, rfl, rfl, rfl, ?_, ?_⟩
      · simp [set_pcb_pcb, stable]
      · simp [set_pcb_pcb]
      · simp [set_pcb_pcb]
      · intro x hx
        refine ⟨by simp [set_pcb_pcb, hx], ?_⟩
        simp [counts, set_pcb, push_back, List.count_append, count_single_ne x pid hx,
          List.count_erase_of_ne hx]
      · intro h; exact absurd hb h
      · intro _
        refine ⟨by simp [set_pcb_pcb], ?_, _, rfl, ?_⟩
        · rw [counts_eq]
          simp [run_counts, set_pcb, push_back, List.count_append, h2.1, h2.2.1, h2.2.2.1,
            h2.2.2.2.1, h2.2.2.2.2]
        · exact getLast_push_back _ _
    | MED =>
      simp only [get_priority_queue, set_priority_queue, Option.map_some']
      refine ⟨_, rfl, ?_, ?_, ?_, ?_, rfl, rfl, rfl, ?_, ?_⟩
      · simp [set_pcb_pcb, stable]
      · simp [set_pcb_pcb]
      · simp [set_pcb_pcb]
      · intro x hx
        refine ⟨by simp [set_pcb_pcb, hx], ?_⟩
        simp [counts, set_pcb, push_back, List.count_append, count_single_ne x pid hx,
          List.count_erase_of_ne hx]
      · intro h; exact absurd hb h
      · intro _
        refine ⟨by simp [set_pcb_pcb], ?_, _, rfl, ?_⟩
        · rw [counts_eq]
          simp [run_counts, set_pcb, push_back, List.count_append, h2.1, h2.2.1, h2.2.2.1,
            h2.2.2.2.1, h2.2.2.2.2]
        · exact getLast_push_back _ _
    | HIGH =>
      simp only [get_priority_queue, set_priority_queue, Option.map_some']
      refine ⟨_, rfl, ?_, ?_, ?_, ?_, rfl, rfl, rfl, ?_, ?_⟩
      · simp [set_pcb_pcb, stable]
      · simp [set_pcb_pcb]
      · simp [set_pcb_pcb]
      · intro x hx
        refine ⟨by simp [set_pcb_pcb, hx], ?_⟩
        simp [counts, set_pcb, push_back, List.count_append, count_single_ne x pid hx,
          List.count_erase_of_ne hx]
      · intro h; exact absurd hb h
      · intro _
        refine ⟨by simp [set_pcb_pcb], ?_, _, rfl, ?_⟩
        · rw [counts_eq]
          simp [run_counts, set_pcb, push_back, List.count_append, h2.1, h2.2.1, h2.2.2.1,
            h2.2.2.2.1, h2.2.2.2.2]
        · exact getLast_push_back _ _
  · rw [if_pos (by simpa using hb)]
    refine ⟨_, rfl, ?_, ?_, ?_, ?_, rfl, rfl, rfl, ?_, ?_⟩
    · simp [set_pcb_pcb, stable]
    · simp [set_pcb_pcb]
    · simp [set_pcb_pcb]
    · intro x hx
      refine ⟨by simp [set_pcb_pcb, hx], ?_⟩
      simp [counts, set_pcb, push_back, List.count_append, count_single_ne x pid hx,
        List.count_erase_of_ne hx]
    · intro _
      refine ⟨by simp [set_pcb_pcb], ?_, ?_⟩
      · rw [counts_eq]
        simp [set_pcb, push_back, List.count_append, h2.1, h2.2.1, h2.2.2.1,
          h2.2.2.2.1, h2.2.2.2.2]
      · exact getLast_push_back _ _
    · intro h; exact absurd h hb

theorem get_priority_queue_congr (k k2 : Kernel) (prio : Priority)
    (h : k2.queue_l = k.queue_l ∧ k2.queue_m = k.queue_m ∧ k2.queue_h = k.queue_h) :
    get_priority_queue k2 prio = get_priority_queue k prio := by
  cases prio <;> simp [get_priority_queue, h.1, h.2.1, h.2.2]

/-- The continue branch of `k_process_kill` for a process that is once in
the stopped queue and in no other, when its parent is not to be woken. -/
theorem kill_cont_spec (k : Kernel) (pid par : Int) (hne : par ≠ pid)
    (hp1 : (k.pcb pid).PID = pid) (hp2 : (k.pcb par).PID = par)
    (hprio : (k.pcb pid).prio ≠ Priority.INVALID)
    (hprio2 : (k.pcb par).prio ≠ Priority.INVALID)
    (hc : counts k pid = (0, 0, 0, 0, 1))
    (hnw : get_node (k.pcb par).signals pid ≠ none ∨ parent_waits (k.pcb par) pid = false) :
    ∃ k4, kill_cont k pid par pid = some (0, k4) ∧
      stable (k4.pcb pid) = stable (k.pcb pid) ∧ (k4.pcb pid).bc = (k.pcb pid).bc ∧
      (k4.pcb pid).signal = (k.pcb pid).signal ∧
      k4.active_process = k.active_process ∧ k4.process_queue = k.process_queue ∧
      ((k.pcb pid).bc ≠ BlockedCause.NOT_BLOCKED →
        (k4.pcb pid).status = Status.BLOCK ∧ counts k4 pid = (0, 0, 0, 1, 0) ∧
        k4.queue_blocked.getLast? = some pid) ∧
      ((k.pcb pid).bc = BlockedCause.NOT_BLOCKED →
        (k4.pcb pid).status = Status.RUN ∧ counts k4 pid = run_counts (k.pcb pid).prio ∧
        ∃ q, get_priority_queue k4 (k.pcb pid).prio = some q ∧ q.getLast? = some pid) := by
  obtain ⟨k3, c1, c2, c3, c4, c5, c6, c7, c8, c9, c10⟩ := cont_resume_spec k pid hprio hc
  unfold kill_cont
  rw [c1]
  simp only []
  have e8 : k3.pcb par = k.pcb par := (c5 par hne).1
  have e9 : (k3.pcb pid).PID = pid := (congrArg Prod.fst c2).trans hp1
  rw [e9]
  obtain ⟨k4, n1, n2, n3, n4, n5, n6, n7, n8, n9, n10, n11⟩ :=
    notify_parent_spec k3 par pid pid pid pid (by rw [e8]; exact hp2) (by rw [e8]; exact hprio2)
  rw [n1]
  have hpn : pid ≠ par := fun e => hne e.symm
  have hq := n11 (by rw [e8]; exact hnw)
  refine ⟨k4, rfl, ?_, ?_, ?_, ?_, ?_, ?_, ?_⟩
  · rw [n2 pid hpn]; exact c2
  · rw [n2 pid hpn]; exact c3
  · rw [n2 pid hpn]; exact c4
  · rw [n4]; exact c6
  · rw [n5]; exact c7
  · intro hb
    obtain ⟨b1, b2, b3⟩ := c9 hb
    exact ⟨by rw [n2 pid hpn]; exact b1, by rw [n3 pid hpn]; exact b2, by rw [hq.2.2.2]; exact b3⟩
  · intro hb
    obtain ⟨b1, b2, q, b3, b4⟩ := c10 hb
    refine ⟨by rw [n2 pid hpn]; exact b1, by rw [n3 pid hpn]; exact b2, q, ?_, b4⟩
    rw [get_priority_queue_congr k3 k4 _ ⟨hq.1, hq.2.1, hq.2.2.1⟩]; exact b3

theorem checkAlarmTriggered_counts (k : Kernel) (x : Int) :
    counts (checkAlarmTriggered k) x = counts k x := by
  obtain ⟨h1, h2, h3, h4, h5, _⟩ := checkAlarmTriggered_queues k
  unfold counts
  rw [h1, h2, h3, h4, h5]

/-- The state in which `p_kill` calls `k_process_kill`: the critical section
is entered and the signal is stored in the PCB. -/
theorem signalled_state (k : Kernel) (pid sig : Int) :
    ∃ K, set_pcb { k with context_switch_safe := false } pid
        (fun p => { p with signal := sig }) = K ∧
      stable (K.pcb pid) = stable (k.pcb pid) ∧ (K.pcb pid).status = (k.pcb pid).status ∧
      (K.pcb pid).bc = (k.pcb pid).bc ∧ (K.pcb pid).signal = sig ∧
      (∀ x, x ≠ pid → K.pcb x = k.pcb x) ∧ (∀ x, counts K x = counts k x) ∧
      K.active_process = k.active_process ∧ K.process_queue = k.process_queue ∧
      K.next_pid = k.next_pid ∧
      (∀ x, ((K.pcb x).PID, (K.pcb x).prio, (K.pcb x).parent, (K.pcb x).signals,
          (K.pcb x).status, (K.pcb x).wait_pid) =
        ((k.pcb x).PID, (k.pcb x).prio, (k.pcb x).parent, (k.pcb x).signals,
          (k.pcb x).status, (k.pcb x).wait_pid)) ∧
      (∀ x, (K.pcb x).bc = (k.pcb x).bc) := by
  refine ⟨_, rfl, ?_, ?_, ?_, ?_, ?_, ?_, rfl, rfl, rfl, ?_, ?_⟩
  · simp [set_pcb_pcb, stable]
  · simp [set_pcb_pcb]
  · simp [set_pcb_pcb]
  · simp [set_pcb_pcb]
  · intro x hx; simp [set_pcb_pcb, hx]
  · intro x; rfl
  · intro x
    by_cases h : x = pid
    · subst h; simp [set_pcb_pcb]
    · simp [set_pcb_pcb, h]
  · intro x
    by_cases h : x = pid
    · subst h; simp [set_pcb_pcb]
    · simp [set_pcb_pcb, h]

theorem parent_waits_congr (p q : Pcb) (pid : Int)
    (h : (p.status, p.bc, p.wait_pid) = (q.status, q.bc, q.wait_pid)) :
    parent_waits p pid = parent_waits q pid := by
  simp only [Prod.mk.injEq] at h
  unfold parent_waits
  rw [h.1, h.2.1, h.2.2]

/-- `p_kill(pid, 1)` for a process with a parent that is blocked, active or
queued. -/
theorem p_kill_stop_spec (fuel : Nat) (k : Kernel) (pid par : Int)
    (hnode : pid ∈ k.process_queue) (hpar : (k.pcb pid).parent = some par) (hne : par ≠ pid)
    (hp1 : (k.pcb pid).PID = pid) (hp2 : (k.pcb par).PID = par)
    (hp3 : ∀ a, k.active_process = some a → (k.pcb a).PID = a)
    (hprio : (k.pcb pid).prio ≠ Priority.INVALID)
    (hprio2 : (k.pcb par).prio ≠ Priority.INVALID)
    (hst : (k.pcb pid).status = Status.RUN ∨ (k.pcb pid).status = Status.BLOCK)
    (hpl : ((k.pcb pid).status = Status.BLOCK ∧ counts k pid = (0, 0, 0, 1, 0) ∧
          k.active_process ≠ some pid) ∨
        ((k.pcb pid).status ≠ Status.BLOCK ∧ k.active_process = some pid ∧
          counts k pid = (0, 0, 0, 0, 0)) ∨
        ((k.pcb pid).status ≠ Status.BLOCK ∧ k.active_process ≠ some pid ∧
          counts k pid = run_counts (k.pcb pid).prio)) :
    ∃ k2, p_kill fuel k pid 1 = some (0, k2) ∧
      stable (k2.pcb pid) = stable (k.pcb pid) ∧ (k2.pcb pid).status = Status.STOP ∧
      (k2.pcb pid).bc = (if (k.pcb pid).status = Status.BLOCK then (k.pcb pid).bc
        else BlockedCause.NOT_BLOCKED) ∧
      counts k2 pid = (0, 0, 0, 0, 1) ∧
      k2.active_process ≠ some pid ∧ k2.process_queue = k.process_queue ∧
      (k2.pcb par).PID = par ∧ (k2.pcb par).prio = (k.pcb par).prio ∧
      (get_node (k2.pcb par).signals pid ≠ none ∨ parent_waits (k2.pcb par) pid = false) := by
  obtain ⟨K, hK, s1, s2, s3, s4, s5, s6, s7, s8, s9, s10, s11⟩ := signalled_state k pid 1
  have hs1 := s1
  simp only [stable, Prod.mk.injEq] at hs1
  have hKpar : K.pcb par = k.pcb par := s5 par hne
  obtain ⟨k2, t1, t2, t3, t4, t5, t6, t7, t8, t9, t10, t11, t12, t13⟩ :=
    kill_stop_spec K pid par hne (hs1.1.trans hp1) (by rw [hKpar]; exact hp2)
      (by
        intro a ha
        have := s10 a
        simp only [Prod.mk.injEq] at this
        rw [this.1]; exact hp3 a (by rw [← s7]; exact ha))
      (by rw [hs1.2.2.1]; exact hprio) (by rw [hKpar]; exact hprio2)
      (by rw [s2, s6, s7, hs1.2.2.1]; exact hpl)
  unfold p_kill
  simp only []
  rw [show ({ k with context_switch_safe := false } : Kernel).process_queue = k.process_queue
    from rfl, get_node_eq, if_pos hnode]
  simp only []
  have hz : (({ k with context_switch_safe := false } : Kernel).pcb pid).status =
      (k.pcb pid).status := rfl
  rw [hz]
  have hnz : (k.pcb pid).status ≠ Status.ZOMB := by
    rcases hst with h | h <;> rw [h] <;> decide
  have hns : (k.pcb pid).status ≠ Status.STOP := by
    rcases hst with h | h <;> rw [h] <;> decide
  rw [if_neg hnz, if_neg (fun h => hns h.1), if_neg (by intro h; exact absurd h.2 (by decide)), hK]
  unfold k_process_kill
  rw [s8, get_node_eq, if_pos hnode]
  simp only []
  rw [hs1.2.1, hpar]
  simp only []
  rw [if_neg (by decide), if_pos trivial, t1]
  simp only []
  refine ⟨_, rfl, ?_, ?_, ?_, ?_, ?_, ?_, ?_, ?_, ?_⟩
  · rw [checkAlarmTriggered_pcb, t2]; exact s1
  · rw [checkAlarmTriggered_pcb]; exact t3
  · rw [checkAlarmTriggered_pcb, t5, s2, s3]
  · rw [checkAlarmTriggered_counts]; exact t6
  · rw [(checkAlarmTriggered_queues _).2.2.2.2.2.2.1]; exact t7
  · rw [(checkAlarmTriggered_queues _).2.2.2.2.2.1, t8, s8]
  · rw [checkAlarmTriggered_pcb]; exact t10
  · rw [checkAlarmTriggered_pcb, t11, hKpar]
  · rw [checkAlarmTriggered_pcb]; exact t12

/-- `p_kill(pid, 2)` for a stopped process with a parent that is not to be
woken. -/
theorem p_kill_cont_spec (fuel : Nat) (k : Kernel) (pid par : Int)
    (hnode : pid ∈ k.process_queue) (hpar : (k.pcb pid).parent = some par) (hne : par ≠ pid)
    (hp1 : (k.pcb pid).PID = pid) (hp2 : (k.pcb par).PID = par)
    (hprio : (k.pcb pid).prio ≠ Priority.INVALID)
    (hprio2 : (k.pcb par).prio ≠ Priority.INVALID)
    (hst : (k.pcb pid).status = Status.STOP)
    (hc : counts k pid = (0, 0, 0, 0, 1))
    (hnw : get_node (k.pcb par).signals pid ≠ none ∨ parent_waits (k.pcb par) pid = false) :
    ∃ k2, p_kill fuel k pid 2 = some (0, k2) ∧
      stable (k2.pcb pid) = stable (k.pcb pid) ∧ (k2.pcb pid).bc = (k.pcb pid).bc ∧
      k2.active_process = k.active_process ∧
      ((k.pcb pid).bc ≠ BlockedCause.NOT_BLOCKED →
        (k2.pcb pid).status = Status.BLOCK ∧ counts k2 pid = (0, 0, 0, 1, 0) ∧
        k2.queue_blocked.getLast? = some pid) ∧
      ((k.pcb pid).bc = BlockedCause.NOT_BLOCKED →
        (k2.pcb pid).status = Status.RUN ∧ counts k2 pid = run_counts (k.pcb pid).prio ∧
        ∃ q, get_priority_queue k2 (k.pcb pid).prio = some q ∧ q.getLast? = some pid) := by
  obtain ⟨K, hK, s1, s2, s3, s4, s5, s6, s7, s8, s9, s10, s11⟩ := signalled_state k pid 2
  have hs1 := s1
  simp only [stable, Prod.mk.injEq] at hs1
  have hKpar : K.pcb par = k.pcb par := s5 par hne
  obtain ⟨k2, t1, t2, t3, t4, t5, t6, t7, t8⟩ :=
    kill_cont_spec K pid par hne (hs1.1.trans hp1) (by rw [hKpar]; exact hp2)
      (by rw [hs1.2.2.1]; exact hprio) (by rw [hKpar]; exact hprio2)
      (by rw [s6]; exact hc) (by rw [hKpar]; exact hnw)
  unfold p_kill
  simp only []
  rw [show ({ k with context_switch_safe := false } : Kernel).process_queue = k.process_queue
    from rfl, get_node_eq, if_pos hnode]
  simp only []
  have hz : (({ k with context_switch_safe := false } : Kernel).pcb pid).status =
      (k.pcb pid).status := rfl
  rw [hz, hst]
  rw [if_neg (by decide), if_neg (by intro h; exact absurd h.2 (by decide)),
    if_neg (by intro h; exact h.1 rfl), hK]
  unfold k_process_kill
  rw [s8, get_node_eq, if_pos hnode]
  simp only []
  rw [hs1.2.1, hpar]
  simp only []
  rw [if_neg (by decide), if_neg (by decide), t1]
  simp only []
  refine ⟨_, rfl, ?_, ?_, ?_, ?_, ?_⟩
  · rw [checkAlarmTriggered_pcb, t2]; exact s1
  · rw [checkAlarmTriggered_pcb, t3]; exact s3
  · rw [(checkAlarmTriggered_queues _).2.2.2.2.2.2.1, t5]; exact s7
  · rw [s3, checkAlarmTriggered_pcb, checkAlarmTriggered_counts,
      (checkAlarmTriggered_queues _).2.2.2.1] at *
    exact t7
  · intro hb
    obtain ⟨b1, b2, q, b3, b4⟩ := t8 (by rw [s3]; exact hb)
    refine ⟨by rw [checkAlarmTriggered_pcb]; exact b1,
      by rw [checkAlarmTriggered_counts, ← hs1.2.2.1]; exact b2, q, ?_, b4⟩
    rw [get_priority_queue_congr k2 _ _ ⟨(checkAlarmTriggered_queues _).1,
      (checkAlarmTriggered_queues _).2.1, (checkAlarmTriggered_queues _).2.2.1⟩, ← hs1.2.2.1]
    exact b3

theorem active_pid_of_map (k : Kernel)
    (h : k.active_process.map (fun a => (k.pcb a).PID) = k.active_process) :
    ∀ a, k.active_process = some a → (k.pcb a).PID = a := by
  intro a ha
  rw [ha] at h
  simpa using h

theorem p_kill_refused (fuel : Nat) (k : Kernel) (pid sig : Int) (hnode : pid ∈ k.process_queue)
    (h : ((k.pcb pid).status = Status.STOP ∧ sig = 1) ∨
      ((k.pcb pid).status ≠ Status.STOP ∧ sig = 2)) :
    p_kill fuel k pid sig =
      some (-1, checkAlarmTriggered { k with context_switch_safe := false }) := by
  unfold p_kill
  simp only []
  rw [show ({ k with context_switch_safe := false } : Kernel).process_queue = k.process_queue
    from rfl, get_node_eq, if_pos hnode]
  simp only []
  have hz : (({ k with context_switch_safe := false } : Kernel).pcb pid).status =
      (k.pcb pid).status := rfl
  rw [hz]
  by_cases h1 : (k.pcb pid).status = Status.ZOMB
  · rw [if_pos h1]
  · rw [if_neg h1]
    rcases h with h | h
    · rw [if_pos h]
    · rw [if_neg (fun c => h.1 c.1), if_pos h]

/-- C24 (amended). For a process `pid` of the process table that has a
parent (PCBs carrying their own PIDs and a valid priority): if it is `BLOCK`
with a blocked cause, once in the blocked queue and in no other, or `RUN`
and the active process and in no queue, or `RUN` and once in the run queue
of its own priority and in no other (a process that `p_nice` moved to
another priority stays in its old run queue and is left out), then
`p_kill(pid, 1)` returns 0 and leaves it with status `STOP`, once in the
stopped queue, in no other queue and not active; a following
`p_kill(pid, 2)` returns 0 and leaves it `BLOCK` at the tail of the blocked
queue with the blocked cause, `blocked_ticks` and `wait_pid` it had, if it
was blocked, and `RUN` with no blocked cause at the tail of the run queue of
its priority otherwise, in no other queue either way. `p_kill(pid, 1)` on a
stopped process and `p_kill(pid, 2)` on a process that is not stopped return
-1 and change no PCB and no queue. -/
theorem stop_cont_round_trip (fuel : Nat) (k : Kernel) (pid par : Int)
    (hnode : pid ∈ k.process_queue) (hpar : (k.pcb pid).parent = some par) (hne : par ≠ pid)
    (hp1 : (k.pcb pid).PID = pid) (hp2 : (k.pcb par).PID = par)
    (hp3 : k.active_process.map (fun a => (k.pcb a).PID) = k.active_process)
    (hprio : (k.pcb pid).prio ≠ Priority.INVALID)
    (hprio2 : (k.pcb par).prio ≠ Priority.INVALID) :
    ((((k.pcb pid).status = Status.BLOCK ∧ (k.pcb pid).bc ≠ BlockedCause.NOT_BLOCKED ∧
          counts k pid = (0, 0, 0, 1, 0) ∧ k.active_process ≠ some pid) ∨
        ((k.pcb pid).status = Status.RUN ∧ k.active_process = some pid ∧
          counts k pid = (0, 0, 0, 0, 0)) ∨
        ((k.pcb pid).status = Status.RUN ∧ k.active_process ≠ some pid ∧
          counts k pid = run_counts (k.pcb pid).prio)) →
      ∃ k1, p_kill fuel k pid 1 = some (0, k1) ∧ (k1.pcb pid).status = Status.STOP ∧
        counts k1 pid = (0, 0, 0, 0, 1) ∧ k1.active_process ≠ some pid ∧
        ∃ k2, p_kill fuel k1 pid 2 = some (0, k2) ∧
          stable (k2.pcb pid) = stable (k.pcb pid) ∧ k2.active_process ≠ some pid ∧
          (if (k.pcb pid).status = Status.BLOCK then
            (k2.pcb pid).status = Status.BLOCK ∧ (k2.pcb pid).bc = (k.pcb pid).bc ∧
            counts k2 pid = (0, 0, 0, 1, 0) ∧ k2.queue_blocked.getLast? = some pid
          else
            (k2.pcb pid).status = Status.RUN ∧ (k2.pcb pid).bc = BlockedCause.NOT_BLOCKED ∧
            counts k2 pid = run_counts (k.pcb pid).prio ∧
            ∃ q, get_priority_queue k2 (k.pcb pid).prio = some q ∧ q.getLast? = some pid)) ∧
    ((k.pcb pid).status = Status.STOP →
      ∃ k1, p_kill fuel k pid 1 = some (-1, k1) ∧ k1.pcb = k.pcb ∧
        (k1.queue_l, k1.queue_m, k1.queue_h, k1.queue_blocked, k1.queue_stopped,
          k1.process_queue, k1.active_process) =
        (k.queue_l, k.queue_m, k.queue_h, k.queue_blocked, k.queue_stopped,
          k.process_queue, k.active_process)) ∧
    ((k.pcb pid).status ≠ Status.STOP →
      ∃ k1, p_kill fuel k pid 2 = some (-1, k1) ∧ k1.pcb = k.pcb ∧
        (k1.queue_l, k1.queue_m, k1.queue_h, k1.queue_blocked, k1.queue_stopped,
          k1.process_queue, k1.active_process) =
        (k.queue_l, k.queue_m, k.queue_h, k.queue_blocked, k.queue_stopped,
          k.process_queue, k.active_process)) := by
  have hq : ∀ K : Kernel, K = { k with context_switch_safe := false } →
      (checkAlarmTriggered K).pcb = k.pcb ∧
      ((checkAlarmTriggered K).queue_l, (checkAlarmTriggered K).queue_m,
        (checkAlarmTriggered K).queue_h, (checkAlarmTriggered K).queue_blocked,
        (checkAlarmTriggered K).queue_stopped, (checkAlarmTriggered K).process_queue,
        (checkAlarmTriggered K).active_process) =
      (k.queue_l, k.queue_m, k.queue_h, k.queue_blocked, k.queue_stopped,
        k.process_queue, k.active_process) := by
    intro K hK
    obtain ⟨h1, h2, h3, h4, h5, h6, h7, _⟩ := checkAlarmTriggered_queues K
    rw [checkAlarmTriggered_pcb, h1, h2, h3, h4, h5, h6, h7, hK]
    exact ⟨rfl, rfl⟩
  refine ⟨?_, ?_, ?_⟩
  · intro hpl
    have hst : (k.pcb pid).status = Status.RUN ∨ (k.pcb pid).status = Status.BLOCK := by
      rcases hpl with h | h | h
      · exact Or.inr h.1
      · exact Or.inl h.1
      · exact Or.inl h.1
    have hpl2 : ((k.pcb pid).status = Status.BLOCK ∧ counts k pid = (0, 0, 0, 1, 0) ∧
          k.active_process ≠ some pid) ∨
        ((k.pcb pid).status ≠ Status.BLOCK ∧ k.active_process = some pid ∧
          counts k pid = (0, 0, 0, 0, 0)) ∨
        ((k.pcb pid).status ≠ Status.BLOCK ∧ k.active_process ≠ some pid ∧
          counts k pid = run_counts (k.pcb pid).prio) := by
      rcases hpl with h | h | h
      · exact Or.inl ⟨h.1, h.2.2.1, h.2.2.2⟩
      · exact Or.inr (Or.inl ⟨by rw [h.1]; decide, h.2.1, h.2.2⟩)
      · exact Or.inr (Or.inr ⟨by rw [h.1]; decide, h.2.1, h.2.2⟩)
    obtain ⟨k1, a1, a2, a3, a4, a5, a6, a7, a8, a9, a10⟩ :=
      p_kill_stop_spec fuel k pid par hnode hpar hne hp1 hp2 (active_pid_of_map k hp3)
        hprio hprio2 hst hpl2
    have ha2 := a2
    simp only [stable, Prod.mk.injEq] at ha2
    obtain ⟨k2, b1, b2, b3, b4, b5, b6⟩ :=
      p_kill_cont_spec fuel k1 pid par (by rw [a7]; exact hnode) (by rw [ha2.2.1]; exact hpar)
        hne (ha2.1.trans hp1) a8 (by rw [ha2.2.2.1]; exact hprio) (by rw [a9]; exact hprio2)
        a3 a5 a10
    refine ⟨k1, a1, a3, a5, a6, k2, b1, b2.trans a2, by rw [b4]; exact a6, ?_⟩
    by_cases hb : (k.pcb pid).status = Status.BLOCK
    · rw [if_pos hb]
      rw [if_pos hb] at a4
      have hbc : (k.pcb pid).bc ≠ BlockedCause.NOT_BLOCKED := by
        rcases hpl with h | h | h
        · exact h.2.1
        · rw [h.1] at hb; exact absurd hb (by decide)
        · rw [h.1] at hb; exact absurd hb (by decide)
      obtain ⟨c1, c2, c3⟩ := b5 (by rw [a4]; exact hbc)
      exact ⟨c1, b3.trans a4, c2, c3⟩
    · rw [if_neg hb]
      rw [if_neg hb] at a4
      obtain ⟨c1, c2, c3⟩ := b6 a4
      rw [ha2.2.2.1] at c2 c3
      exact ⟨c1, b3.trans a4, c2, c3⟩
  · intro hs
    rw [p_kill_refused fuel k pid 1 hnode (Or.inl ⟨hs, rfl⟩)]
    exact ⟨_, rfl, (hq _ rfl).1, (hq _ rfl).2⟩
  · intro hs
    rw [p_kill_refused fuel k pid 2 hnode (Or.inr ⟨hs, rfl⟩)]
    exact ⟨_, rfl, (hq _ rfl).1, (hq _ rfl).2⟩

set_option maxRecDepth 100000 in
set_option maxHeartbeats 4000000 in
theorem stop_cont_round_trip_witness :
    (ex_child.pcb 2).status = Status.RUN ∧ ex_child.active_process = some 1 ∧
    counts ex_child 2 = run_counts (ex_child.pcb 2).prio ∧
    ∃ k1, p_kill 5 ex_child 2 1 = some (0, k1) ∧ (k1.pcb 2).status = Status.STOP ∧
      counts k1 2 = (0, 0, 0, 0, 1) ∧ k1.active_process ≠ some 2 ∧
      ∃ k2, p_kill 5 k1 2 2 = some (0, k2) ∧
        stable (k2.pcb 2) = stable (ex_child.pcb 2) ∧ k2.active_process ≠ some 2 ∧
        (if (ex_child.pcb 2).status = Status.BLOCK then
          (k2.pcb 2).status = Status.BLOCK ∧ (k2.pcb 2).bc = (ex_child.pcb 2).bc ∧
          counts k2 2 = (0, 0, 0, 1, 0) ∧ k2.queue_blocked.getLast? = some 2
        else
          (k2.pcb 2).status = Status.RUN ∧ (k2.pcb 2).bc = BlockedCause.NOT_BLOCKED ∧
          counts k2 2 = run_counts (ex_child.pcb 2).prio ∧
          ∃ q, get_priority_queue k2 (ex_child.pcb 2).prio = some q ∧
            q.getLast? = some 2) :=
  ⟨by decide, by decide, by decide,
    (stop_cont_round_trip 5 ex_child 2 1 (by decide) (by decide) (by decide) (by decide)
      (by decide) (by decide) (by decide) (by decide)).1
      (Or.inr (Or.inr ⟨by decide, by decide, by decide⟩))⟩

set_option maxRecDepth 100000 in
/-- C24, counterexample. In `ex_boot` the shell, PID 1, is in the process
table with status `RUN` and is the active process; it has no parent.
`p_kill(1, 1)` does not put it in the stopped queue: `k_process_kill` ends
the program with `exit(400)` for a process without a parent, and the call
has no result. In `ex_niced` PID 2 has a parent (the shell), is `RUN` and
not active, has priority `LOW` after `p_nice(2, 1)` and still waits in the
`MED` run queue (where `p_nice` left it): `p_kill(2, 1)` looks for it in the
`LOW` queue, `remove_pcb` returns `NULL`, and `process -> pcb` is
dereferenced: the call has no result either. -/
theorem p_kill_stop_without_parent :
    ex_boot.process_queue = [1] ∧ (ex_boot.pcb 1).status = Status.RUN ∧
    ex_boot.active_process = some 1 ∧ (ex_boot.pcb 1).parent = none ∧
    (p_kill 5 ex_boot 1 1).isNone = true ∧
    (ex_niced.pcb 2).parent = some 1 ∧
    ((ex_niced.pcb 2).status, (ex_niced.pcb 2).prio) = (Status.RUN, Priority.LOW) ∧
    ex_niced.active_process = some 1 ∧
    (ex_niced.queue_l, ex_niced.queue_m, ex_niced.queue_h) = ([], [2], []) ∧
    (p_kill 5 ex_niced 2 1).isNone = true := by
  decide

/-! ## C28: the lottery -/

set_option maxRecDepth 100000 in
theorem pool_counts :
    ((lottery_setup []).count Priority.LOW, (lottery_setup []).count Priority.MED,
      (lottery_setup []).count Priority.HIGH, (lottery_setup []).length) = (31, 45, 74, 150) := by
  decide

set_option maxRecDepth 100000 in
theorem pool_length : (lottery_setup []).length = 150 := by
  decide

set_option maxRecDepth 100000 in
theorem pool_valid : ∀ p ∈ lottery_setup [], p ≠ Priority.INVALID := by
  decide

theorem pool_ticket (r : Nat) :
    ∃ p, prio_get_priority (lottery_setup []) (r % (lottery_setup []).length) = some p ∧
      p ≠ Priority.INVALID := by
  have hlen : (lottery_setup []).length = 150 := pool_length
  have hlt : r % (lottery_setup []).length < (lottery_setup []).length := by
    rw [hlen]; exact Nat.mod_lt _ (by norm_num)
  unfold prio_get_priority
  rw [if_pos hlt]
  refine ⟨(lottery_setup []).get ⟨_, hlt⟩, List.get?_eq_get hlt, ?_⟩
  exact pool_valid _ (List.get_mem _ _ _)

theorem lottery_push_back_none (k : Kernel) (h : k.active_process = none) :
    lottery_push_back k = some k := by
  unfold lottery_push_back; rw [h]

theorem scheduler_lottery_eq (draws : List Nat) (k k1 : Kernel)
    (h : lottery_push_back k = some k1) (h1 : lottery_push_back k1 = some k1) :
    scheduler_lottery draws k = scheduler_lottery draws k1 := by
  cases draws with
  | nil => rw [scheduler_lottery, h, scheduler_lottery, h1]
  | cons r rest => rw [scheduler_lottery, h, scheduler_lottery, h1]

theorem scheduler_lottery_idle (draws : List Nat) (k : Kernel) (ha : k.active_process = none)
    (he : k.queue_l = [] ∧ k.queue_m = [] ∧ k.queue_h = []) :
    scheduler_lottery draws k = some (Priority.INVALID, k) := by
  cases draws with
  | nil =>
    rw [scheduler_lottery, lottery_push_back_none k ha]
    simp [he.1, he.2.1, he.2.2, ha]
  | cons r rest =>
    rw [scheduler_lottery, lottery_push_back_none k ha]
    simp [he.1, he.2.1, he.2.2, ha]

theorem queue_of_valid (k : Kernel) (p : Priority) (hp : p ≠ Priority.INVALID) :
    ∃ q, get_priority_queue k p = some q ∧
      (q ≠ [] → ¬ (k.queue_l.length + k.queue_h.length + k.queue_m.length = 0)) := by
  cases p with
  | INVALID => exact absurd rfl hp
  | LOW =>
    refine ⟨_, rfl, ?_⟩
    intro h; have := List.length_pos.2 h; omega
  | MED =>
    refine ⟨_, rfl, ?_⟩
    intro h; have := List.length_pos.2 h; omega
  | HIGH =>
    refine ⟨_, rfl, ?_⟩
    intro h; have := List.length_pos.2 h; omega

theorem scheduler_lottery_draw (k : Kernel) (ha : k.active_process = none)
    (hpool : k.queue_lottery = lottery_setup []) :
    ∀ draws : List Nat,
      (∃ r ∈ draws, ∃ prio q,
        prio_get_priority k.queue_lottery (r % k.queue_lottery.length) = some prio ∧
        get_priority_queue k prio = some q ∧ q ≠ []) →
      ∃ prio q, scheduler_lottery draws k = some (prio, k) ∧ prio ≠ Priority.INVALID ∧
        get_priority_queue k prio = some q ∧ q ≠ [] := by
  intro draws
  induction draws with
  | nil => intro ⟨r, hr, _⟩; exact absurd hr (List.not_mem_nil _)
  | cons r rest ih =>
    intro ⟨r2, hr2, prio2, q2, hp2, hq2, hne2⟩
    have hv2 : prio2 ≠ Priority.INVALID := by
      intro e; rw [e] at hq2; exact absurd hq2 (by simp [get_priority_queue])
    have hnz := (queue_of_valid k prio2 hv2)
    obtain ⟨q2b, hq2b, hnz2⟩ := hnz
    rw [hq2] at hq2b
    have hq2c : q2 = q2b := Option.some.inj hq2b
    subst hq2c
    obtain ⟨p, hp, hv⟩ := pool_ticket r
    obtain ⟨q, hq, _⟩ := queue_of_valid k p hv
    have hlen : k.queue_lottery.length ≠ 0 := by
      rw [hpool, pool_length]
      norm_num
    rw [scheduler_lottery, lottery_push_back_none k ha]
    simp only []
    rw [if_neg (hnz2 hne2), if_neg hlen, hpool, hp]
    simp only []
    rw [hq]
    simp only []
    by_cases hqe : q.length = 0
    · rw [if_pos hqe]
      have hmem : r2 ∈ rest := by
        rcases List.mem_cons.1 hr2 with e | e
        · subst e
          rw [hpool, hp] at hp2
          have : p = prio2 := Option.some.inj hp2
          subst this
          rw [hq] at hq2
          have : q = q2 := Option.some.inj hq2
          subst this
          exact absurd (List.length_eq_zero.1 hqe) hne2
        · exact e
      exact ih ⟨r2, hmem, prio2, q2, hp2, hq2, hne2⟩
    · rw [if_neg hqe]
      exact ⟨p, q, rfl, hv, hq, fun e => hqe (by rw [e]; rfl)⟩

theorem context_set_head (k : Kernel) (prio : Priority) (head : Int) (rest : List Int)
    (hv : prio ≠ Priority.INVALID) (hq : get_priority_queue k prio = some (head :: rest)) :
    ∃ k2, context_set k prio = some k2 ∧ k2.active_process = some head ∧
      get_priority_queue k2 prio = some rest ∧ k2.context_switch_safe = true := by
  unfold context_set
  rw [if_neg hv, hq]
  simp only [List.length_cons, Nat.succ_ne_zero, if_false, pop_front]
  refine ⟨_, rfl, rfl, ?_, rfl⟩
  cases prio with
  | INVALID => exact absurd rfl hv
  | LOW => rfl
  | MED => rfl
  | HIGH => rfl

theorem lottery_push_back_run (k : Kernel) (a : Int) (ha : k.active_process = some a)
    (hs : (k.pcb a).status = Status.RUN) (hv : (k.pcb a).prio ≠ Priority.INVALID) :
    ∃ k1 q, lottery_push_back k = some k1 ∧ k1.active_process = none ∧
      k1.queue_lottery = k.queue_lottery ∧
      get_priority_queue k (k.pcb a).prio = some q ∧
      get_priority_queue k1 (k.pcb a).prio = some (q ++ [a]) := by
  unfold lottery_push_back
  rw [ha]
  simp only []
  rw [if_pos (by rw [hs]; decide)]
  cases hp : (k.pcb a).prio with
  | INVALID => exact absurd hp hv
  | LOW => exact ⟨_, _, rfl, rfl, rfl, rfl, rfl⟩
  | MED => exact ⟨_, _, rfl, rfl, rfl, rfl, rfl⟩
  | HIGH => exact ⟨_, _, rfl, rfl, rfl, rfl, rfl⟩

theorem scheduler_lottery_starved (k : Kernel) (ha : k.active_process = none)
    (hpool : k.queue_lottery = lottery_setup [])
    (hne : ¬ (k.queue_l.length + k.queue_h.length + k.queue_m.length = 0))
    (r : Nat) (p : Priority)
    (hp : prio_get_priority (lottery_setup []) (r % (lottery_setup []).length) = some p)
    (hq : get_priority_queue k p = some []) :
    ∀ n, scheduler_lottery (List.replicate n r) k = none := by
  intro n
  induction n with
  | zero =>
    rw [List.replicate, scheduler_lottery, lottery_push_back_none k ha]
    simp only []
    rw [if_neg hne]
  | succ n ih =>
    rw [List.replicate, scheduler_lottery, lottery_push_back_none k ha]
    simp only []
    rw [if_neg hne, hpool, if_neg (by rw [pool_length]; norm_num), hp]
    simp only []
    rw [hq]
    simp only [List.length_nil, if_true]
    exact ih

/-- C28 (amended). The pool `lottery_setup` builds has 31 `LOW`, 45 `MED`
and 74 `HIGH` tickets, 150 in all. With that pool and a current process
that is `RUN` (or none), `scheduler_lottery` first pushes the current process
back to the tail of the run queue of its priority; it then returns `INVALID`,
for every list of draws, when all three run queues are empty; and for every
list of draws that holds a ticket of a priority whose run queue is not
empty it returns a priority other than `INVALID` whose run queue is not
empty, and `context_set` makes the head of that queue the active process
and leaves the rest in the queue. -/
theorem lottery_selection (k : Kernel) (hpool : k.queue_lottery = lottery_setup [])
    (hact : k.active_process.all (fun a => decide ((k.pcb a).status = Status.RUN ∧
      (k.pcb a).prio ≠ Priority.INVALID)) = true) :
    ((lottery_setup []).count Priority.LOW, (lottery_setup []).count Priority.MED,
      (lottery_setup []).count Priority.HIGH, (lottery_setup []).length) = (31, 45, 74, 150) ∧
    ∃ k1, lottery_push_back k = some k1 ∧ k1.active_process = none ∧
      (∀ a, k.active_process = some a →
        ∃ q, get_priority_queue k (k.pcb a).prio = some q ∧
          get_priority_queue k1 (k.pcb a).prio = some (q ++ [a])) ∧
      (k.active_process = none → k1 = k) ∧
      (∀ draws, k1.queue_l = [] ∧ k1.queue_m = [] ∧ k1.queue_h = [] →
        scheduler_lottery draws k = some (Priority.INVALID, k1)) ∧
      (∀ draws,
        (∃ r ∈ draws, ∃ prio q,
          prio_get_priority k1.queue_lottery (r % k1.queue_lottery.length) = some prio ∧
          get_priority_queue k1 prio = some q ∧ q ≠ []) →
        ∃ prio head rest k2, scheduler_lottery draws k = some (prio, k1) ∧
          prio ≠ Priority.INVALID ∧ get_priority_queue k1 prio = some (head :: rest) ∧
          context_set k1 prio = some k2 ∧ k2.active_process = some head ∧
          get_priority_queue k2 prio = some rest) := by
  refine ⟨pool_counts, ?_⟩
  have key : ∃ k1, lottery_push_back k = some k1 ∧ k1.active_process = none ∧
      k1.queue_lottery = k.queue_lottery ∧
      (∀ a, k.active_process = some a →
        ∃ q, get_priority_queue k (k.pcb a).prio = some q ∧
          get_priority_queue k1 (k.pcb a).prio = some (q ++ [a])) ∧
      (k.active_process = none → k1 = k) := by
    cases ha : k.active_process with
    | none =>
      exact ⟨k, lottery_push_back_none k ha, ha, rfl, fun a h => by simp at h, fun _ => rfl⟩
    | some a =>
      rw [ha] at hact
      simp only [Option.all_some, decide_eq_true_eq] at hact
      obtain ⟨k1, q, h1, h2, h3, h4, h5⟩ := lottery_push_back_run k a ha hact.1 hact.2
      refine ⟨k1, h1, h2, h3, ?_, fun h => by simp at h⟩
      intro a2 h
      have : a = a2 := Option.some.inj h
      subst this
      exact ⟨q, h4, h5⟩
  obtain ⟨k1, h1, h2, h3, h4, h5⟩ := key
  have h11 : lottery_push_back k1 = some k1 := lottery_push_back_none k1 h2
  refine ⟨k1, h1, h2, h4, h5, ?_, ?_⟩
  · intro draws he
    rw [scheduler_lottery_eq draws k k1 h1 h11]
    exact scheduler_lottery_idle draws k1 h2 he
  · intro draws hd
    rw [scheduler_lottery_eq draws k k1 h1 h11]
    obtain ⟨prio, q, d1, d2, d3, d4⟩ :=
      scheduler_lottery_draw k1 h2 (by rw [h3]; exact hpool) draws hd
    cases q with
    | nil => exact absurd rfl d4
    | cons head rest =>
      obtain ⟨k2, c1, c2, c3, _⟩ := context_set_head k1 prio head rest d2 d3
      exact ⟨prio, head, rest, k2, d1, d2, d3, c1, c2, c3⟩

set_option maxRecDepth 100000 in
set_option maxHeartbeats 4000000 in
theorem lottery_selection_witness :
    ex_child.active_process = some 1 ∧ (ex_child.pcb 1).status = Status.RUN ∧
    ex_child.queue_m = [2] ∧
    ∃ k1, lottery_push_back ex_child = some k1 ∧ k1.active_process = none ∧
      (∀ a, ex_child.active_process = some a →
        ∃ q, get_priority_queue ex_child (ex_child.pcb a).prio = some q ∧
          get_priority_queue k1 (ex_child.pcb a).prio = some (q ++ [a])) ∧
      (ex_child.active_process = none → k1 = ex_child) ∧
      (∀ draws, k1.queue_l = [] ∧ k1.queue_m = [] ∧ k1.queue_h = [] →
        scheduler_lottery draws ex_child = some (Priority.INVALID, k1)) ∧
      (∀ draws,
        (∃ r ∈ draws, ∃ prio q,
          prio_get_priority k1.queue_lottery (r % k1.queue_lottery.length) = some prio ∧
          get_priority_queue k1 prio = some q ∧ q ≠ []) →
        ∃ prio head rest k2, scheduler_lottery draws ex_child = some (prio, k1) ∧
          prio ≠ Priority.INVALID ∧ get_priority_queue k1 prio = some (head :: rest) ∧
          context_set k1 prio = some k2 ∧ k2.active_process = some head ∧
          get_priority_queue k2 prio = some rest) :=
  ⟨by decide, by decide, by decide,
    (lottery_selection ex_child (by decide) (by decide)).2⟩

set_option maxRecDepth 100000 in
set_option maxHeartbeats 4000000 in
/-- C28, counterexample. In `ex_setup`, the state of the first scheduler
pass, there is no active process, the `MED` run queue holds the shell and the
`LOW` run queue is empty. Ticket 0 is a `LOW` ticket. When every draw is 0,
`scheduler_lottery` has returned no priority after any number of draws: each
draw finds the `LOW` queue empty and the function draws again. -/
theorem lottery_redraws_without_end :
    ex_setup.active_process = none ∧ ex_setup.queue_m = [1] ∧ ex_setup.queue_l = [] ∧
    prio_get_priority ex_setup.queue_lottery (0 % ex_setup.queue_lottery.length) =
      some Priority.LOW ∧
    ∀ n, scheduler_lottery (List.replicate n 0) ex_setup = none :=
  ⟨by decide, by decide, by decide, by decide,
    scheduler_lottery_starved ex_setup (by decide) (by decide) (by decide) 0 Priority.LOW
      (by decide) (by decide)⟩

/-! ## `kill_orphans` -/

theorem kill_orphans_mono : ∀ (fuel : Nat) (k : Kernel) (process : Int) (isChild : Bool)
    (r : Kernel), kill_orphans fuel k process isChild = some r →
    ∀ fuel2, fuel ≤ fuel2 → kill_orphans fuel2 k process isChild = some r := by
  intro fuel
  induction fuel with
  | zero => intro k p b r h; simp [kill_orphans] at h
  | succ f ih =>
    intro k p b r h fuel2 hle
    obtain ⟨g, rfl⟩ : ∃ g, fuel2 = g + 1 := ⟨fuel2 - 1, by omega⟩
    have hfg : f ≤ g := by omega
    rw [kill_orphans] at h ⊢
    cases hc : (k.pcb p).children with
    | nil =>
      rw [hc] at h
      exact h
    | cons c rest =>
      rw [hc] at h
      simp only [] at h ⊢
      cases h1 : kill_orphans f (set_pcb k p (fun q => { q with children := rest })) c true with
      | none => rw [h1] at h; simp at h
      | some k1 =>
        rw [h1] at h
        simp only [] at h
        rw [ih _ _ _ _ h1 g hfg]
        simp only []
        exact ih _ _ _ _ h g hfg

theorem reap_zombies_fields : ∀ (zs : List Int) (k : Kernel),
    (reap_zombies zs k).pcb = k.pcb ∧ (reap_zombies zs k).next_pid = k.next_pid ∧
    (reap_zombies zs k).active_process = k.active_process ∧
    (reap_zombies zs k).queue_l = k.queue_l ∧ (reap_zombies zs k).queue_m = k.queue_m ∧
    (reap_zombies zs k).queue_h = k.queue_h ∧
    (reap_zombies zs k).queue_blocked = k.queue_blocked ∧
    (reap_zombies zs k).queue_stopped = k.queue_stopped ∧
    List.Sublist (reap_zombies zs k).process_queue k.process_queue := by
  intro zs
  induction zs with
  | nil => intro k; exact ⟨rfl, rfl, rfl, rfl, rfl, rfl, rfl, rfl, List.Sublist.refl _⟩
  | cons z rest ih =>
    intro k
    rw [reap_zombies]
    obtain ⟨h1, h2, h3, h4, h5, h6, h7, h8, h9⟩ := ih (k_process_cleanup k z)
    refine ⟨h1, h2, h3, h4, h5, h6, h7, h8, ?_⟩
    refine h9.trans ?_
    unfold k_process_cleanup
    simp only [remove_pcb_erase]
    exact List.erase_sublist _ _

theorem reaped_of (k k2 : Kernel) (process : Int) (isChild : Bool)
    (hn : k2.next_pid = k.next_pid) (ha : k2.active_process = k.active_process)
    (hp : ∀ x, k2.pcb x = if x = process then { k.pcb process with zombie_children := [] }
      else k.pcb x)
    (hc : (k.pcb process).children = [])
    (hq : ∀ x, x ≠ process ∨ isChild = false → counts k2 x = counts k x) :
    Reaped k k2 process isChild := by
  refine ⟨hn, ha, ?_, ?_, ?_, ?_, ?_, ?_⟩
  · intro x
    rw [hp x]
    by_cases h : x = process
    · subst h; rw [if_pos rfl]; rfl
    · rw [if_neg h]
  · intro x hx
    rw [hp x, if_neg (by omega)]
  · intro x
    rw [hp x]
    by_cases h : x = process
    · subst h; rw [if_pos rfl]
    · rw [if_neg h]
  · intro x hx
    apply hq
    rcases hx with h | h
    · left; omega
    · right; exact h.2
  · rw [hp process, if_pos rfl]; exact hc
  · rw [hp process, if_pos rfl]

theorem kill_orphans_leaf (k : Kernel) (process : Int) (isChild : Bool)
    (hc : (k.pcb process).children = [])
    (hv : isChild = true →
      (k.pcb process).prio ≠ Priority.INVALID ∧ (k.pcb process).PID = process) :
    ∃ k2, kill_orphans 1 k process isChild = some k2 ∧ Reaped k k2 process isChild := by
  rw [kill_orphans, hc]
  simp only []
  obtain ⟨r1, r2, r3, r4, r5, r6, r7, r8, _⟩ :=
    reap_zombies_fields (k.pcb process).zombie_children k
  generalize hK : reap_zombies (k.pcb process).zombie_children k = K at *
  have hp : ∀ x, (set_pcb K process (fun p => { p with zombie_children := [] })).pcb x =
      if x = process then { k.pcb process with zombie_children := [] } else k.pcb x := by
    intro x; rw [set_pcb_pcb, r1]
  have hcnt : ∀ x, counts (set_pcb K process (fun p => { p with zombie_children := [] })) x =
      counts k x := by
    intro x; simp only [counts, (set_pcb_fields _ _ _).1, (set_pcb_fields _ _ _).2.1,
      (set_pcb_fields _ _ _).2.2.1, (set_pcb_fields _ _ _).2.2.2.1,
      (set_pcb_fields _ _ _).2.2.2.2.1, r4, r5, r6, r7, r8]
  generalize hK1 : set_pcb K process (fun p => { p with zombie_children := [] }) = K1 at *
  have hn1 : K1.next_pid = k.next_pid := by rw [← hK1]; exact r2
  have ha1 : K1.active_process = k.active_process := by rw [← hK1]; exact r3
  have hst : (K1.pcb process).status = (k.pcb process).status := by
    rw [hp, if_pos rfl]
  have hpr : (K1.pcb process).prio = (k.pcb process).prio := by
    rw [hp, if_pos rfl]
  have hpi : (K1.pcb process).PID = (k.pcb process).PID := by
    rw [hp, if_pos rfl]
  cases isChild with
  | false =>
    simp only [Bool.false_eq_true, if_false]
    exact ⟨_, rfl, reaped_of k K1 process false hn1 ha1 hp hc (fun x _ => hcnt x)⟩
  | true =>
    obtain ⟨hv1, hv2⟩ := hv rfl
    simp only [if_true]
    rw [hst, hpr, hpi, hv2]
    by_cases h1 : (k.pcb process).status = Status.BLOCK
    · rw [if_pos h1]
      refine ⟨_, rfl, reaped_of k _ process true hn1 ha1 hp hc ?_⟩
      intro x hx
      rcases hx with hx | hx
      · rw [← hcnt x]
        simp [counts, k_process_cleanup, remove_pcb_erase, List.count_erase_of_ne hx]
      · exact absurd hx (by decide)
    · rw [if_neg h1]
      by_cases h2 : (k.pcb process).status = Status.STOP
      · rw [if_pos h2]
        refine ⟨_, rfl, reaped_of k _ process true hn1 ha1 hp hc ?_⟩
        intro x hx
        rcases hx with hx | hx
        · rw [← hcnt x]
          simp [counts, k_process_cleanup, remove_pcb_erase, List.count_erase_of_ne hx]
        · exact absurd hx (by decide)
      · rw [if_neg h2]
        cases hpp : (k.pcb process).prio with
        | INVALID => exact absurd hpp hv1
        | LOW =>
          simp only [get_priority_queue]
          refine ⟨_, rfl, reaped_of k _ process true hn1 ha1 hp hc ?_⟩
          intro x hx
          rcases hx with hx | hx
          · rw [← hcnt x]
            simp [counts, k_process_cleanup, set_priority_queue, remove_pcb_erase,
              List.count_erase_of_ne hx]
          · exact absurd hx (by decide)
        | MED =>
          simp only [get_priority_queue]
          refine ⟨_, rfl, reaped_of k _ process true hn1 ha1 hp hc ?_⟩
          intro x hx
          rcases hx with hx | hx
          · rw [← hcnt x]
            simp [counts, k_process_cleanup, set_priority_queue, remove_pcb_erase,
              List.count_erase_of_ne hx]
          · exact absurd hx (by decide)
        | HIGH =>
          simp only [get_priority_queue]
          refine ⟨_, rfl, reaped_of k _ process true hn1 ha1 hp hc ?_⟩
          intro x hx
          rcases hx with hx | hx
          · rw [← hcnt x]
            simp [counts, k_process_cleanup, set_priority_queue, remove_pcb_erase,
              List.count_erase_of_ne hx]
          · exact absurd hx (by decide)

theorem closed_of_sub2 (k k2 : Kernel) (D : List Int) (N : Int) (h : Closed k D N)
    (hs : ∀ x, (k2.pcb x).prio = (k.pcb x).prio ∧ (k2.pcb x).PID = (k.pcb x).PID)
    (hc : ∀ x, List.Sublist (k2.pcb x).children (k.pcb x).children) : Closed k2 D N := by
  intro x hx
  obtain ⟨h1, h2⟩ := h x hx
  refine ⟨h1, ?_⟩
  intro c hcm
  obtain ⟨a1, a2, a3, a4⟩ := h2 c ((hc x).subset hcm)
  exact ⟨a1, a2, by rw [(hs c).1]; exact a3, by rw [(hs c).2]; exact a4⟩

theorem closed_of_sub (k k2 : Kernel) (D : List Int) (N : Int) (h : Closed k D N)
    (hs : ∀ x, scalars (k2.pcb x) = scalars (k.pcb x))
    (hc : ∀ x, List.Sublist (k2.pcb x).children (k.pcb x).children) : Closed k2 D N := by
  refine closed_of_sub2 k k2 D N h ?_ hc
  intro x
  have hsc := hs x
  simp only [scalars, Prod.mk.injEq] at hsc
  exact ⟨hsc.2.2.2.1, hsc.1⟩

theorem kill_orphans_spec (D : List Int) (N : Int) :
    ∀ (m : Nat) (k : Kernel) (process : Int) (isChild : Bool),
      Closed k D N → process ∈ D → (N - process).toNat ≤ m →
      (isChild = true →
        (k.pcb process).prio ≠ Priority.INVALID ∧ (k.pcb process).PID = process) →
      ∃ fuel k2, kill_orphans fuel k process isChild = some k2 ∧
        Reaped k k2 process isChild := by
  intro m
  induction m with
  | zero =>
    intro k process isChild hcl hp hm _
    have := (hcl process hp).1
    omega
  | succ m ihm =>
    intro k process isChild hcl hp hm hv
    have inner : ∀ (n : Nat) (k : Kernel), (k.pcb process).children.length = n →
        Closed k D N →
        (isChild = true →
          (k.pcb process).prio ≠ Priority.INVALID ∧ (k.pcb process).PID = process) →
        ∃ fuel k2, kill_orphans fuel k process isChild = some k2 ∧
          Reaped k k2 process isChild := by
      intro n
      induction n with
      | zero =>
        intro k hn _ hv
        obtain ⟨k2, h1, h2⟩ := kill_orphans_leaf k process isChild
          (List.length_eq_zero.1 hn) hv
        exact ⟨1, k2, h1, h2⟩
      | succ n ihn =>
        intro k hn hcl hv
        cases hch : (k.pcb process).children with
        | nil => rw [hch] at hn; simp at hn
        | cons c rest =>
          have hlen : rest.length = n := by rw [hch] at hn; simpa using hn
          obtain ⟨hlt, hcc⟩ := hcl process hp
          obtain ⟨c1, c2, c3, c4⟩ := hcc c (by rw [hch]; simp)
          generalize hk1 : set_pcb k process (fun p => { p with children := rest }) = k1
          have e1 : ∀ x, scalars (k1.pcb x) = scalars (k.pcb x) := by
            intro x
            rw [← hk1, set_pcb_pcb]
            by_cases h : x = process
            · subst h; rw [if_pos rfl]; rfl
            · rw [if_neg h]
          have e2 : ∀ x, List.Sublist (k1.pcb x).children (k.pcb x).children := by
            intro x
            rw [← hk1, set_pcb_pcb]
            by_cases h : x = process
            · subst h; rw [if_pos rfl, hch]; exact List.sublist_cons_self _ _
            · rw [if_neg h]
          have e3 : ∀ x, x ≠ process → k1.pcb x = k.pcb x := by
            intro x hx; rw [← hk1, set_pcb_ne _ _ _ _ hx]
          have e4 : (k1.pcb process).children = rest := by rw [← hk1, set_pcb_self]
          have e5 : ∀ x, counts k1 x = counts k x := by intro x; rw [← hk1]; rfl
          have e6 : k1.next_pid = k.next_pid ∧ k1.active_process = k.active_process := by
            rw [← hk1]; exact ⟨rfl, rfl⟩
          have hcl1 : Closed k1 D N := closed_of_sub k k1 D N hcl e1 e2
          have hsc := e1 c
          simp only [scalars, Prod.mk.injEq] at hsc
          obtain ⟨fc, k2, hk2, r1, r2, r3, r4, r5, r6, r7, r8⟩ :=
            ihm k1 c true hcl1 c1 (by omega)
              (fun _ => ⟨by rw [hsc.2.2.2.1]; exact c3, by rw [hsc.1]; exact c4⟩)
          have hcl2 : Closed k2 D N := closed_of_sub k1 k2 D N hcl1 r3 r5
          have hsp := r3 process
          have hsp1 := e1 process
          simp only [scalars, Prod.mk.injEq] at hsp hsp1
          obtain ⟨fr, k3, hk3, q1, q2, q3, q4, q5, q6, q7, q8⟩ :=
            ihn k2 (by rw [r4 process c2, e4]; exact hlen) hcl2
              (fun h => ⟨by rw [hsp.2.2.2.1, hsp1.2.2.2.1]; exact (hv h).1,
                by rw [hsp.1, hsp1.1]; exact (hv h).2⟩)
          refine ⟨max fc fr + 1, k3, ?_, ?_⟩
          · rw [kill_orphans, hch]
            simp only []
            rw [hk1, kill_orphans_mono fc k1 c true k2 hk2 _ (Nat.le_max_left _ _)]
            simp only []
            exact kill_orphans_mono fr k2 process isChild k3 hk3 _ (Nat.le_max_right _ _)
          · refine ⟨by rw [q1, r1, e6.1], by rw [q2, r2, e6.2], ?_, ?_, ?_, ?_, q7, q8⟩
            · intro x; rw [q3 x, r3 x, e1 x]
            · intro x hx
              rw [q4 x hx, r4 x (by omega), e3 x (by omega)]
            · intro x; exact ((q5 x).trans (r5 x)).trans (e2 x)
            · intro x hx
              rw [q6 x hx, r6 x (Or.inl (by omega)), e5 x]
    exact inner _ k rfl hcl hv

/-! ## C21: termination and the waiting parent -/

theorem wake_parent_tail (k k2 : Kernel) (par proc : Int)
    (h : wake_parent k par proc = some k2) (hp2 : (k.pcb par).PID = par)
    (hc : counts k par = (0, 0, 0, 1, 0)) :
    counts k2 par = run_counts (k.pcb par).prio ∧
    ∃ q, get_priority_queue k2 (k.pcb par).prio = some q ∧ q.getLast? = some par := by
  have h2 := (counts_eq _ _ _ _ _ _ _).1 hc
  have hm : par ∈ k.queue_blocked := mem_of_count_one _ _ h2.2.2.2.1
  unfold wake_parent at h
  simp only [set_pcb_self, hp2, remove_pcb_fst, remove_pcb_erase,
    (set_pcb_fields _ _ _).2.2.2.1, if_pos hm] at h
  unfold add_to_scheduler at h
  cases hpr : (k.pcb par).prio with
  | INVALID => rw [hpr] at h; simp [get_priority_queue] at h
  | LOW =>
    rw [hpr] at h
    simp only [get_priority_queue, set_priority_queue, Option.some.injEq] at h
    subst h
    refine ⟨?_, _, rfl, getLast_push_back _ _⟩
    rw [counts_eq]
    simp [run_counts, set_pcb, push_back, List.count_append, h2.1, h2.2.1, h2.2.2.1,
      h2.2.2.2.1, h2.2.2.2.2]
  | MED =>
    rw [hpr] at h
    simp only [get_priority_queue, set_priority_queue, Option.some.injEq] at h
    subst h
    refine ⟨?_, _, rfl, getLast_push_back _ _⟩
    rw [counts_eq]
    simp [run_counts, set_pcb, push_back, List.count_append, h2.1, h2.2.1, h2.2.2.1,
      h2.2.2.2.1, h2.2.2.2.2]
  | HIGH =>
    rw [hpr] at h
    simp only [get_priority_queue, set_priority_queue, Option.some.injEq] at h
    subst h
    refine ⟨?_, _, rfl, getLast_push_back _ _⟩
    rw [counts_eq]
    simp [run_counts, set_pcb, push_back, List.count_append, h2.1, h2.2.1, h2.2.2.1,
      h2.2.2.2.1, h2.2.2.2.2]

/-- What `term_detach` leaves: only the parent's `signals` and the queue
entries of `pid` (or the active slot) change. -/
theorem term_detach_spec (k : Kernel) (pid par a : Int)
    (hact : k.active_process = some a)
    (hprio : (k.pcb pid).prio ≠ Priority.INVALID) (hp1 : (k.pcb pid).PID = pid) :
    ∃ k2, term_detach k pid par pid = some k2 ∧
      (∀ x, but_signals (k2.pcb x) = but_signals (k.pcb x)) ∧
      (∀ x, x ≠ par → k2.pcb x = k.pcb x) ∧
      (∀ x, x ≠ pid → counts k2 x = counts k x) ∧
      k2.next_pid = k.next_pid ∧ k2.process_queue = k.process_queue := by
  unfold term_detach
  generalize hk1 : (if get_node (k.pcb par).signals pid ≠ none then
      set_pcb k par (fun p => { p with signals := (remove_pcb p.signals pid).2 })
    else k) = k1
  have e1 : ∀ x, but_signals (k1.pcb x) = but_signals (k.pcb x) := by
    intro x
    rw [← hk1]
    split
    · rw [set_pcb_pcb]
      by_cases h : x = par
      · subst h; rw [if_pos rfl]; rfl
      · rw [if_neg h]
    · rfl
  have e2 : ∀ x, x ≠ par → k1.pcb x = k.pcb x := by
    intro x hx
    rw [← hk1]
    split
    · rw [set_pcb_ne _ _ _ _ hx]
    · rfl
  have e3 : ∀ x, counts k1 x = counts k x := by
    intro x; rw [← hk1]; split <;> rfl
  have e4 : k1.next_pid = k.next_pid ∧ k1.process_queue = k.process_queue ∧
      k1.active_process = k.active_process := by
    rw [← hk1]; split <;> exact ⟨rfl, rfl, rfl⟩
  have hb := e1 pid
  simp only [but_signals, Prod.mk.injEq] at hb
  simp only []
  by_cases h1 : (k1.pcb pid).status = Status.STOP
  · rw [if_pos h1]
    refine ⟨_, rfl, e1, e2, ?_, e4.1, e4.2.1⟩
    intro x hx
    rw [← e3 x]
    simp [counts, remove_pcb_erase, List.count_erase_of_ne hx]
  · rw [if_neg h1]
    by_cases h2 : (k1.pcb pid).status = Status.BLOCK
    · rw [if_pos h2]
      refine ⟨_, rfl, e1, e2, ?_, e4.1, e4.2.1⟩
      intro x hx
      rw [← e3 x]
      simp [counts, remove_pcb_erase, List.count_erase_of_ne hx]
    · rw [if_neg h2, e4.2.2, hact]
      simp only []
      by_cases h3 : (k1.pcb pid).PID = (k1.pcb a).PID
      · rw [if_pos h3]
        exact ⟨_, rfl, e1, e2, fun x _ => e3 x, e4.1, e4.2.1⟩
      · rw [if_neg h3, hb.2.2.2.2.1, hb.1, hp1]
        cases hpp : (k.pcb pid).prio with
        | INVALID => exact absurd hpp hprio
        | LOW =>
          simp only [get_priority_queue, set_priority_queue]
          refine ⟨_, rfl, e1, e2, ?_, e4.1, e4.2.1⟩
          intro x hx
          rw [← e3 x]
          simp [counts, remove_pcb_erase, List.count_erase_of_ne hx]
        | MED =>
          simp only [get_priority_queue, set_priority_queue]
          refine ⟨_, rfl, e1, e2, ?_, e4.1, e4.2.1⟩
          intro x hx
          rw [← e3 x]
          simp [counts, remove_pcb_erase, List.count_erase_of_ne hx]
        | HIGH =>
          simp only [get_priority_queue, set_priority_queue]
          refine ⟨_, rfl, e1, e2, ?_, e4.1, e4.2.1⟩
          intro x hx
          rw [← e3 x]
          simp [counts, remove_pcb_erase, List.count_erase_of_ne hx]

/-- The termination branch of `k_process_kill` for a child `pid` of `par`,
called by an active process: with enough fuel it returns 0; a parent that was
waiting for `pid` is woken with the child's signal and PID and goes to the
tail of the run queue of its priority, and any other parent gets `pid` at
the tail of its zombie children. -/
theorem kill_term_spec (k : Kernel) (pid par a : Int) (D : List Int) (N : Int)
    (hcl : Closed k D N) (hparD : par ∈ D) (hch : pid ∈ (k.pcb par).children)
    (hact : k.active_process = some a)
    (hp2 : (k.pcb par).PID = par) (hprio2 : (k.pcb par).prio ≠ Priority.INVALID) :
    ∃ f0, ∀ fuel, f0 ≤ fuel → ∃ k2, kill_term fuel k pid par pid = some (0, k2) ∧
      (parent_waits (k.pcb par) pid = true → counts k par = (0, 0, 0, 1, 0) →
        (k2.pcb par).status = Status.RUN ∧ (k2.pcb par).bc = BlockedCause.NOT_BLOCKED ∧
        (k2.pcb par).child_signal = (k.pcb pid).signal ∧ (k2.pcb par).wait_pid = pid ∧
        counts k2 par = run_counts (k.pcb par).prio ∧
        (∃ q, get_priority_queue k2 (k.pcb par).prio = some q ∧ q.getLast? = some par) ∧
        (k2.pcb par).zombie_children = (k.pcb par).zombie_children) ∧
      (parent_waits (k.pcb par) pid = false →
        (k2.pcb par).zombie_children = (k.pcb par).zombie_children ++ [pid] ∧
        (k2.pcb par).status = (k.pcb par).status ∧ counts k2 par = counts k par) := by
  obtain ⟨hparN, hcc⟩ := hcl par hparD
  obtain ⟨hpidD, hlt, hprio, hp1⟩ := hcc pid hch
  have hne : par ≠ pid := by omega
  obtain ⟨kd, d1, d2, d3, d4, d5, d6⟩ := term_detach_spec k pid par a hact hprio hp1
  have hbp := d2 par
  have hbq := d2 pid
  simp only [but_signals, Prod.mk.injEq] at hbp hbq
  generalize hk3 : set_pcb kd par (fun p =>
    { p with children := (remove_pcb p.children (kd.pcb pid).PID).2 }) = k3
  generalize hk4 : set_pcb k3 pid (fun p => { p with status := Status.ZOMB }) = k4
  have e3 : ∀ x, (k3.pcb x).prio = (kd.pcb x).prio ∧ (k3.pcb x).PID = (kd.pcb x).PID ∧
      (k3.pcb x).signal = (kd.pcb x).signal ∧
      List.Sublist (k3.pcb x).children (kd.pcb x).children := by
    intro x
    rw [← hk3, set_pcb_pcb]
    by_cases h : x = par
    · subst h; rw [if_pos rfl]
      refine ⟨rfl, rfl, rfl, ?_⟩
      show List.Sublist (remove_pcb (kd.pcb x).children (kd.pcb pid).PID).2 _
      rw [remove_pcb_erase]; exact List.erase_sublist _ _
    · rw [if_neg h]; exact ⟨rfl, rfl, rfl, List.Sublist.refl _⟩
  have e4 : ∀ x, (k4.pcb x).prio = (k3.pcb x).prio ∧ (k4.pcb x).PID = (k3.pcb x).PID ∧
      (k4.pcb x).signal = (k3.pcb x).signal ∧ (k4.pcb x).children = (k3.pcb x).children := by
    intro x
    rw [← hk4, set_pcb_pcb]
    by_cases h : x = pid
    · subst h; rw [if_pos rfl]; exact ⟨rfl, rfl, rfl, rfl⟩
    · rw [if_neg h]; exact ⟨rfl, rfl, rfl, rfl⟩
  have hcl4 : Closed k4 D N := by
    refine closed_of_sub2 k k4 D N hcl ?_ ?_
    · intro x
      have hbx := d2 x
      simp only [but_signals, Prod.mk.injEq] at hbx
      exact ⟨by rw [(e4 x).1, (e3 x).1, hbx.2.2.2.2.1], by rw [(e4 x).2.1, (e3 x).2.1, hbx.1]⟩
    · intro x
      have hbx := d2 x
      simp only [but_signals, Prod.mk.injEq] at hbx
      rw [(e4 x).2.2.2, ← hbx.2.2.1]
      exact (e3 x).2.2.2
  obtain ⟨f0, k5, hk5, r1, r2, r3, r4, r5, r6, r7, r8⟩ :=
    kill_orphans_spec D N (N - pid).toNat k4 pid false hcl4 hpidD (le_refl _)
      (fun h => absurd h (by decide))
  have hpar4 : k4.pcb par = { kd.pcb par with children := (remove_pcb (kd.pcb par).children (kd.pcb pid).PID).2 } := by
    rw [← hk4, set_pcb_ne _ _ _ _ hne, ← hk3, set_pcb_self]
  have hpar5 : k5.pcb par = { kd.pcb par with children := (remove_pcb (kd.pcb par).children (kd.pcb pid).PID).2 } := by
    rw [r4 par hlt, hpar4]
  have hs5 := r3 pid
  simp only [scalars, Prod.mk.injEq] at hs5
  have hpid5 : (k5.pcb pid).PID = pid := by
    rw [hs5.1, (e4 pid).2.1, (e3 pid).2.1, hbq.1, hp1]
  have hsig5 : (k5.pcb pid).signal = (k.pcb pid).signal := by
    rw [hs5.2.2.2.2.2.2.2.2.1, (e4 pid).2.2.1, (e3 pid).2.2.1]
    exact hbq.2.2.2.2.2.2.2.2.2.1
  have hcnt5 : counts k5 par = counts k par := by
    rw [r6 par (Or.inl hlt), ← hk4, ← d4 par hne, ← hk3]; rfl
  have hw5 : parent_waits (k5.pcb par) (k5.pcb pid).PID = parent_waits (k.pcb par) pid := by
    rw [hpid5, hpar5]
    apply parent_waits_congr
    show ((kd.pcb par).status, (kd.pcb par).bc, (kd.pcb par).wait_pid) = _
    rw [hbp.2.2.2.2.2.2.1, hbp.2.2.2.2.2.2.2.1, hbp.2.2.2.2.2.1]
  have hz5 : (k5.pcb par).zombie_children = (k.pcb par).zombie_children := by
    rw [hpar5]; exact hbp.2.2.2.1
  have hst5 : (k5.pcb par).status = (k.pcb par).status := by
    rw [hpar5]; exact hbp.2.2.2.2.2.2.1
  have hpr5 : (k5.pcb par).prio = (k.pcb par).prio := by
    rw [hpar5]; exact hbp.2.2.2.2.1
  have hpp5 : (k5.pcb par).PID = par := by
    rw [hpar5]; exact hbp.1.trans hp2
  refine ⟨f0, ?_⟩
  intro fuel hf
  have hko := kill_orphans_mono f0 k4 pid false k5 hk5 fuel hf
  unfold kill_term
  rw [d1]
  simp only []
  have hrm : (remove_pcb (kd.pcb par).children (kd.pcb pid).PID).1 = some pid := by
    rw [remove_pcb_fst, hbq.1, hp1, hbp.2.2.1, if_pos hch]
  rw [hrm]
  simp only []
  rw [hk3, hk4, hko]
  simp only []
  have hbs5 : (k5.pcb pid).PID = (kd.pcb pid).PID := by rw [hpid5, hbq.1, hp1]
  by_cases hw : parent_waits (k.pcb par) pid = true
  · rw [hw5, if_pos hw]
    obtain ⟨k6, w1, w2, w3, w4, w5, w6, w7, w8⟩ :=
      wake_parent_spec k5 par pid hpp5 (by rw [hpr5]; exact hprio2)
    rw [w1]
    simp only []
    refine ⟨_, rfl, ?_, ?_⟩
    · intro _ hc
      have ht := wake_parent_tail k5 k6 par pid w1 hpp5 (by rw [hcnt5]; exact hc)
      rw [hpr5] at ht
      refine ⟨?_, ?_, ?_, ?_, ht.1, ht.2, ?_⟩
      · rw [k_process_cleanup_pcb, w8]
      · rw [k_process_cleanup_pcb, w8]
      · rw [k_process_cleanup_pcb, w8]; exact hsig5
      · rw [k_process_cleanup_pcb, w8]; exact hpid5
      · rw [k_process_cleanup_pcb, w8]; exact hz5
    · intro h; rw [h] at hw; exact absurd hw (by decide)
  · rw [hw5, if_neg hw]
    refine ⟨_, rfl, ?_, ?_⟩
    · intro h; exact absurd h hw
    · intro _
      refine ⟨?_, ?_, ?_⟩
      · rw [set_pcb_self]
        show push_back (k5.pcb par).zombie_children pid = _
        rw [hz5]; rfl
      · rw [set_pcb_self]; exact hst5
      · exact hcnt5

theorem k_process_kill_term (fuel : Nat) (K : Kernel) (pid par : Int)
    (hnode : pid ∈ K.process_queue) (hpar : (K.pcb pid).parent = some par) :
    k_process_kill fuel K pid 0 = kill_term fuel K pid par pid := by
  unfold k_process_kill
  rw [get_node_eq, if_pos hnode]
  simp only []
  rw [hpar]
  simp only [if_true]

/-- `kill_term` from the state in which `p_kill` and `p_exit` call
`k_process_kill`, with the signal `sg` stored in the PCB of `pid`. -/
theorem kill_term_signalled (k : Kernel) (pid par a : Int) (D : List Int) (N : Int) (sg : Int)
    (hnode : pid ∈ k.process_queue) (hpar : (k.pcb pid).parent = some par)
    (hact : k.active_process = some a)
    (hcl : Closed k D N) (hparD : par ∈ D) (hch : pid ∈ (k.pcb par).children)
    (hp2 : (k.pcb par).PID = par) (hprio2 : (k.pcb par).prio ≠ Priority.INVALID) :
    ∃ f0, ∀ fuel, f0 ≤ fuel → ∃ k2,
      k_process_kill fuel (set_pcb { k with context_switch_safe := false } pid
        (fun p => { p with signal := sg })) pid 0 = some (0, k2) ∧
      Notified k k2 pid par sg := by
  obtain ⟨K, hK, s1, s2, s3, s4, s5, s6, s7, s8, s9, s10, s11⟩ := signalled_state k pid sg
  have hs1 := s1
  simp only [stable, Prod.mk.injEq] at hs1
  obtain ⟨_, hcc⟩ := hcl par hparD
  obtain ⟨_, hlt, _, _⟩ := hcc pid hch
  have hne : par ≠ pid := by omega
  have hKpar : K.pcb par = k.pcb par := s5 par hne
  have hclK : Closed K D N := by
    refine closed_of_sub2 k K D N hcl ?_ ?_
    · intro x
      have := s10 x
      simp only [Prod.mk.injEq] at this
      exact ⟨this.2.1, this.1⟩
    · intro x
      rw [← hK, set_pcb_pcb]
      by_cases h : x = pid
      · subst h; rw [if_pos rfl]
      · rw [if_neg h]
  obtain ⟨f0, hf⟩ := kill_term_spec K pid par a D N hclK hparD (by rw [hKpar]; exact hch)
    (by rw [s7]; exact hact) (by rw [hKpar]; exact hp2) (by rw [hKpar]; exact hprio2)
  refine ⟨f0, ?_⟩
  intro fuel hfu
  obtain ⟨k2, t1, t2, t3⟩ := hf fuel hfu
  rw [hK, k_process_kill_term fuel K pid par (by rw [s8]; exact hnode)
    (by rw [hs1.2.1]; exact hpar)]
  refine ⟨k2, t1, ?_, ?_⟩
  · intro hw hc
    have := t2 (by rw [hKpar]; exact hw) (by rw [s6]; exact hc)
    rw [hKpar, s4] at this
    exact this
  · intro hw
    have := t3 (by rw [hKpar]; exact hw)
    rw [hKpar, s6] at this
    exact this

theorem notified_of (k k2 k3 : Kernel) (pid par sg : Int) (h : Notified k k2 pid par sg)
    (hp : k3.pcb = k2.pcb)
    (hq : k3.queue_l = k2.queue_l ∧ k3.queue_m = k2.queue_m ∧ k3.queue_h = k2.queue_h ∧
      k3.queue_blocked = k2.queue_blocked ∧ k3.queue_stopped = k2.queue_stopped) :
    Notified k k3 pid par sg := by
  have hc : ∀ x, counts k3 x = counts k2 x := by
    intro x; unfold counts; rw [hq.1, hq.2.1, hq.2.2.1, hq.2.2.2.1, hq.2.2.2.2]
  have hg : ∀ p, get_priority_queue k3 p = get_priority_queue k2 p :=
    fun p => get_priority_queue_congr k2 k3 p ⟨hq.1, hq.2.1, hq.2.2.1⟩
  unfold Notified at h ⊢
  rw [hp, hc, hg]
  exact h

/-- C21 (amended). For a process `pid` of the process table that is not a
zombie, is a child of `par` and is terminated by a call of the active
process: with enough fuel `p_kill(pid, 0)` returns 0, and `p_exit` by `pid`
itself hands over to the scheduler, and after either the parent is
`Notified`: a parent that was blocked with cause `WAIT` on -1 or on `pid`
is `RUN` at the tail of the run queue of its priority with `wait_pid == pid`
and `child_signal` equal to the signal stored in the child, which is 0 after
`p_kill(pid, 0)` and 3 after `p_exit`; any other parent has `pid` appended
to its zombie children. -/
theorem term_notifies_parent (k : Kernel) (pid par a : Int) (D : List Int) (N : Int)
    (hnode : pid ∈ k.process_queue) (hpar : (k.pcb pid).parent = some par)
    (hst : (k.pcb pid).status ≠ Status.ZOMB)
    (hact : k.active_process = some a)
    (hcl : Closed k D N) (hparD : par ∈ D) (hch : pid ∈ (k.pcb par).children)
    (hp2 : (k.pcb par).PID = par) (hprio2 : (k.pcb par).prio ≠ Priority.INVALID) :
    ∃ f0, ∀ fuel, f0 ≤ fuel →
      (∃ k2, p_kill fuel k pid 0 = some (0, k2) ∧ Notified k k2 pid par 0) ∧
      (a = pid → ∃ k2, p_exit fuel k = some k2 ∧ Notified k k2 pid par 3) := by
  obtain ⟨f1, h1⟩ := kill_term_signalled k pid par a D N 0 hnode hpar hact hcl hparD hch
    hp2 hprio2
  obtain ⟨f2, h2⟩ := kill_term_signalled k pid par a D N 3 hnode hpar hact hcl hparD hch
    hp2 hprio2
  refine ⟨max f1 f2, ?_⟩
  intro fuel hf
  refine ⟨?_, ?_⟩
  · obtain ⟨k2, t1, t2⟩ := h1 fuel (le_trans (Nat.le_max_left _ _) hf)
    unfold p_kill
    simp only []
    rw [show ({ k with context_switch_safe := false } : Kernel).process_queue = k.process_queue
      from rfl, get_node_eq, if_pos hnode]
    simp only []
    have hz : (({ k with context_switch_safe := false } : Kernel).pcb pid).status =
        (k.pcb pid).status := rfl
    rw [hz, if_neg hst, if_neg (by intro h; exact absurd h.2 (by decide)),
      if_neg (by intro h; exact absurd h.2 (by decide)), t1]
    simp only []
    refine ⟨_, rfl, notified_of k k2 _ pid par 0 t2 (checkAlarmTriggered_pcb k2) ?_⟩
    obtain ⟨q1, q2, q3, q4, q5, _⟩ := checkAlarmTriggered_queues k2
    exact ⟨q1, q2, q3, q4, q5⟩
  · intro ha
    subst ha
    obtain ⟨k2, t1, t2⟩ := h2 fuel (le_trans (Nat.le_max_right _ _) hf)
    unfold p_exit
    generalize hk0 : ({ k with context_switch_safe := false } : Kernel) = k0 at t1 ⊢
    have hact0 : k0.active_process = some a := by rw [← hk0]; exact hact
    simp only []
    rw [hact0]
    simp only []
    rw [t1]
    simp only []
    exact ⟨_, rfl, notified_of k k2 _ a par 3 t2 rfl ⟨rfl, rfl, rfl, rfl, rfl⟩⟩

set_option maxRecDepth 100000 in
set_option maxHeartbeats 4000000 in
theorem term_notifies_parent_witness :
    parent_waits (ex_waited.pcb 1) 2 = true ∧ counts ex_waited 1 = (0, 0, 0, 1, 0) ∧
    (ex_waited.pcb 2).children = [3] ∧
    ∃ f0, ∀ fuel, f0 ≤ fuel →
      (∃ k2, p_kill fuel ex_waited 2 0 = some (0, k2) ∧ Notified ex_waited k2 2 1 0) ∧
      ((2 : Int) = 2 → ∃ k2, p_exit fuel ex_waited = some k2 ∧ Notified ex_waited k2 2 1 3) :=
  ⟨by decide, by decide, by decide,
    term_notifies_parent ex_waited 2 1 2 [1, 2, 3] 4 (by decide) (by decide) (by decide)
      (by decide) (by decide) (by decide) (by decide) (by decide) (by decide)⟩

set_option maxRecDepth 100000 in
set_option maxHeartbeats 4000000 in
/-- C21, counterexample. In `ex_waited` the shell, PID 1, is blocked with
cause `WAIT` on its child PID 2. `p_kill(2, 0)` returns 0 and wakes the
shell with `wait_pid == 2`, but with `child_signal == 0`, not 3: `p_kill`
stores the signal it sends, 0, in the child, and the parent is given that
value; 3 is what `p_exit` stores. -/
theorem p_kill_term_child_signal :
    ((ex_waited.pcb 1).status, (ex_waited.pcb 1).bc, (ex_waited.pcb 1).wait_pid) =
      (Status.BLOCK, BlockedCause.WAIT, (2 : Int)) ∧
    (ex_waited.pcb 2).parent = some 1 ∧ ex_waited.queue_blocked = [1] ∧
    (p_kill 5 ex_waited 2 0).map (fun r => (r.1, (r.2.pcb 1).status, (r.2.pcb 1).child_signal,
      (r.2.pcb 1).wait_pid)) = some (0, Status.RUN, 0, 2) ∧
    (p_kill 5 ex_waited 2 0).map (fun r => (r.2.queue_blocked, r.2.queue_h)) =
      some ([], [1]) ∧
    (p_exit 5 ex_waited).map (fun r => ((r.pcb 1).status, (r.pcb 1).child_signal,
      (r.pcb 1).wait_pid)) = some (Status.RUN, (3 : Int), (2 : Int)) := by
  decide

/-! ## The invariant `Inv` along the calls -/

theorem inv_mono (k : Kernel) (n m : Int) (h : Inv k n) (hle : n ≤ m) : Inv k m :=
  { pid := h.pid
    ql := fun x hx => lt_of_lt_of_le (h.ql x hx) hle
    qm := fun x hx => lt_of_lt_of_le (h.qm x hx) hle
    qh := fun x hx => lt_of_lt_of_le (h.qh x hx) hle
    qb := fun x hx => lt_of_lt_of_le (h.qb x hx) hle
    qs := fun x hx => lt_of_lt_of_le (h.qs x hx) hle
    pq := fun x hx => lt_of_lt_of_le (h.pq x hx) hle
    act := fun a ha => lt_of_lt_of_le (h.act a ha) hle
    ch := fun p x hx => lt_of_lt_of_le (h.ch p x hx) hle
    zo := fun p x hx => lt_of_lt_of_le (h.zo p x hx) hle
    sg := fun p x hx => lt_of_lt_of_le (h.sg p x hx) hle }

theorem inv_queues (k k2 : Kernel) (n : Int) (h : Inv k n) (hp : k2.pcb = k.pcb)
    (hl : ∀ x ∈ k2.queue_l, x < n) (hm : ∀ x ∈ k2.queue_m, x < n)
    (hh : ∀ x ∈ k2.queue_h, x < n) (hb : ∀ x ∈ k2.queue_blocked, x < n)
    (hs : ∀ x ∈ k2.queue_stopped, x < n) (hq : ∀ x ∈ k2.process_queue, x < n)
    (ha : ∀ a, k2.active_process = some a → a < n) : Inv k2 n :=
  { pid := by rw [hp]; exact h.pid
    ql := hl, qm := hm, qh := hh, qb := hb, qs := hs, pq := hq, act := ha
    ch := by rw [hp]; exact h.ch
    zo := by rw [hp]; exact h.zo
    sg := by rw [hp]; exact h.sg }

theorem inv_set_pcb (k : Kernel) (p : Int) (f : Pcb → Pcb) (n : Int) (h : Inv k n)
    (hpid : (f (k.pcb p)).PID = (k.pcb p).PID)
    (hc : ∀ x ∈ (f (k.pcb p)).children, x < n)
    (hz : ∀ x ∈ (f (k.pcb p)).zombie_children, x < n)
    (hs : ∀ x ∈ (f (k.pcb p)).signals, x < n) : Inv (set_pcb k p f) n :=
  { pid := by
      intro x
      rw [set_pcb_pcb]
      by_cases e : x = p
      · rw [if_pos e, hpid, e]; exact h.pid p
      · rw [if_neg e]; exact h.pid x
    ql := h.ql, qm := h.qm, qh := h.qh, qb := h.qb, qs := h.qs, pq := h.pq, act := h.act
    ch := by
      intro q x
      rw [set_pcb_pcb]
      by_cases e : q = p
      · rw [if_pos e]; exact hc x
      · rw [if_neg e]; exact h.ch q x
    zo := by
      intro q x
      rw [set_pcb_pcb]
      by_cases e : q = p
      · rw [if_pos e]; exact hz x
      · rw [if_neg e]; exact h.zo q x
    sg := by
      intro q x
      rw [set_pcb_pcb]
      by_cases e : q = p
      · rw [if_pos e]; exact hs x
      · rw [if_neg e]; exact h.sg q x }

theorem mem_remove_pcb (q : List Int) (pid x : Int) (h : x ∈ (remove_pcb q pid).2) : x ∈ q := by
  rw [remove_pcb_erase] at h
  exact List.mem_of_mem_erase h

theorem remove_pcb_fst_mem (q : List Int) (pid y : Int) (h : (remove_pcb q pid).1 = some y) :
    y ∈ q := by
  rw [remove_pcb_fst] at h
  split at h
  · rename_i hm
    have : pid = y := Option.some.inj h
    rw [← this]; exact hm
  · exact absurd h (by simp)

theorem mem_push_back (q : List Int) (a x : Int) (h : x ∈ push_back q a) : x ∈ q ∨ x = a := by
  unfold push_back at h
  simpa using h

theorem inv_get_priority_queue (k : Kernel) (n : Int) (h : Inv k n) (prio : Priority)
    (q : List Int) (hq : get_priority_queue k prio = some q) : ∀ x ∈ q, x < n := by
  cases prio with
  | LOW => simp only [get_priority_queue, Option.some.injEq] at hq; subst hq; exact h.ql
  | MED => simp only [get_priority_queue, Option.some.injEq] at hq; subst hq; exact h.qm
  | HIGH => simp only [get_priority_queue, Option.some.injEq] at hq; subst hq; exact h.qh
  | INVALID => simp [get_priority_queue] at hq

theorem inv_set_priority_queue (k : Kernel) (n : Int) (h : Inv k n) (prio : Priority)
    (q : List Int) (hq : ∀ x ∈ q, x < n) : Inv (set_priority_queue k prio q) n := by
  cases prio with
  | LOW => exact inv_queues k _ n h rfl hq h.qm h.qh h.qb h.qs h.pq h.act
  | MED => exact inv_queues k _ n h rfl h.ql hq h.qh h.qb h.qs h.pq h.act
  | HIGH => exact inv_queues k _ n h rfl h.ql h.qm hq h.qb h.qs h.pq h.act
  | INVALID => exact h

theorem set_priority_queue_next (k : Kernel) (prio : Priority) (q : List Int) :
    (set_priority_queue k prio q).next_pid = k.next_pid :=
  (set_priority_queue_fields k prio q).2.2.2.2.2

theorem inv_flags (k k2 : Kernel) (n : Int) (h : Inv k n) (hp : k2.pcb = k.pcb)
    (hq : (k2.queue_l, k2.queue_m, k2.queue_h, k2.queue_blocked, k2.queue_stopped,
      k2.process_queue, k2.active_process) =
      (k.queue_l, k.queue_m, k.queue_h, k.queue_blocked, k.queue_stopped,
      k.process_queue, k.active_process)) : Inv k2 n := by
  simp only [Prod.mk.injEq] at hq
  obtain ⟨h1, h2, h3, h4, h5, h6, h7⟩ := hq
  exact inv_queues k k2 n h hp (by rw [h1]; exact h.ql) (by rw [h2]; exact h.qm)
    (by rw [h3]; exact h.qh) (by rw [h4]; exact h.qb) (by rw [h5]; exact h.qs)
    (by rw [h6]; exact h.pq) (by rw [h7]; exact h.act)

theorem inv_checkAlarmTriggered (k : Kernel) (n : Int) (h : Inv k n) :
    Inv (checkAlarmTriggered k) n ∧ (checkAlarmTriggered k).next_pid = k.next_pid := by
  obtain ⟨h1, h2, h3, h4, h5, h6, h7, h8, _⟩ := checkAlarmTriggered_queues k
  exact ⟨inv_flags k _ n h (checkAlarmTriggered_pcb k) (by rw [h1, h2, h3, h4, h5, h6, h7]), h8⟩

theorem inv_enter (k : Kernel) (n : Int) (h : Inv k n) :
    Inv { k with context_switch_safe := false } n :=
  inv_flags k _ n h rfl rfl

theorem inv_add_to_scheduler (k k2 : Kernel) (n : Int) (h : Inv k n) (process : Option Int)
    (prio : Priority) (hp : ∀ a, process = some a → a < n)
    (he : add_to_scheduler k process prio = some k2) :
    Inv k2 n ∧ k2.next_pid = k.next_pid := by
  unfold add_to_scheduler at he
  cases process with
  | none => simp only [Option.some.injEq] at he; subst he; exact ⟨h, rfl⟩
  | some a =>
    simp only [] at he
    cases hq : get_priority_queue k prio with
    | none => rw [hq] at he; simp at he
    | some q =>
      rw [hq] at he
      simp only [Option.some.injEq] at he
      subst he
      refine ⟨inv_set_priority_queue k n h prio _ ?_, set_priority_queue_next _ _ _⟩
      intro x hx
      rcases mem_push_back _ _ _ hx with e | e
      · exact inv_get_priority_queue k n h prio q hq x e
      · rw [e]; exact hp a rfl

/-- The state `p_spawn` leaves when there is no active process. -/
theorem p_spawn_none (k : Kernel) (hact : k.active_process = none) :
    p_spawn k = (k.next_pid, checkAlarmTriggered
      { set_pcb { k with context_switch_safe := false } k.next_pid (fun _ =>
          (k_process_create { k with context_switch_safe := false }).1) with
        next_pid := k.next_pid + 1,
        process_queue := push_back k.process_queue k.next_pid,
        queue_m := push_back k.queue_m k.next_pid }) := by
  unfold p_spawn
  simp only [k_process_create, hact, if_true, get_priority_queue, set_priority_queue]
  rfl

/-- The state `p_spawn` leaves when `a` is the active process. -/
theorem p_spawn_some (k : Kernel) (a : Int) (hact : k.active_process = some a)
    (hne : a ≠ k.next_pid) :
    p_spawn k = (k.next_pid, checkAlarmTriggered
      { set_pcb (set_pcb { k with context_switch_safe := false } k.next_pid (fun _ =>
          (k_process_create { k with context_switch_safe := false }).1)) a
          (fun p => { p with children := push_back p.children k.next_pid }) with
        next_pid := k.next_pid + 1,
        process_queue := push_back k.process_queue k.next_pid,
        queue_m := push_back k.queue_m k.next_pid }) := by
  unfold p_spawn
  simp only [k_process_create, hact]
  have hne2 : ¬ k.next_pid = a := fun e => hne e.symm
  simp only [hne2, hne, if_false, if_true, get_priority_queue, set_priority_queue, set_pcb]

theorem inv_newproc (k : Kernel) (h : Inv k k.next_pid) (q : Pcb) (hq : q.PID = k.next_pid)
    (hc : q.children = []) (hz : q.zombie_children = []) (hs : q.signals = []) :
    Inv (set_pcb k k.next_pid (fun _ => q)) (k.next_pid + 1) := by
  have hm := inv_mono k _ (k.next_pid + 1) h (by omega)
  exact
    { pid := by
        intro x
        rw [set_pcb_pcb]
        by_cases e : x = k.next_pid
        · rw [if_pos e, e]; exact hq
        · rw [if_neg e]; exact h.pid x
      ql := hm.ql, qm := hm.qm, qh := hm.qh, qb := hm.qb, qs := hm.qs, pq := hm.pq
      act := hm.act
      ch := by
        intro p x
        rw [set_pcb_pcb]
        by_cases e : p = k.next_pid
        · rw [if_pos e, hc]; intro hx; exact absurd hx (List.not_mem_nil _)
        · rw [if_neg e]; exact hm.ch p x
      zo := by
        intro p x
        rw [set_pcb_pcb]
        by_cases e : p = k.next_pid
        · rw [if_pos e, hz]; intro hx; exact absurd hx (List.not_mem_nil _)
        · rw [if_neg e]; exact hm.zo p x
      sg := by
        intro p x
        rw [set_pcb_pcb]
        by_cases e : p = k.next_pid
        · rw [if_pos e, hs]; intro hx; exact absurd hx (List.not_mem_nil _)
        · rw [if_neg e]; exact hm.sg p x }

theorem inv_p_spawn (k : Kernel) (h : Inv k k.next_pid) :
    Inv (p_spawn k).2 (k.next_pid + 1) ∧ (p_spawn k).2.next_pid = k.next_pid + 1 ∧
    (p_spawn k).1 = k.next_pid := by
  have i0 : Inv (set_pcb { k with context_switch_safe := false } k.next_pid (fun _ =>
      (k_process_create { k with context_switch_safe := false }).1)) (k.next_pid + 1) :=
    inv_newproc { k with context_switch_safe := false } (inv_enter k _ h)
      (k_process_create { k with context_switch_safe := false }).1 rfl rfl rfl rfl
  have hpush : ∀ q : List Int, (∀ x ∈ q, x < k.next_pid) →
      ∀ x ∈ push_back q k.next_pid, x < k.next_pid + 1 := by
    intro q hq x hx
    rcases mem_push_back _ _ _ hx with e | e
    · have := hq x e; omega
    · omega
  cases hact : k.active_process with
  | none =>
    rw [p_spawn_none k hact]
    refine ⟨?_, ?_, rfl⟩
    · refine (inv_checkAlarmTriggered _ _ ?_).1
      exact inv_queues _ _ _ i0 rfl i0.ql (hpush _ h.qm) i0.qh i0.qb i0.qs (hpush _ h.pq) i0.act
    · rw [(checkAlarmTriggered_queues _).2.2.2.2.2.2.2.1]
  | some a =>
    have hne : a ≠ k.next_pid := by have := h.act a hact; omega
    rw [p_spawn_some k a hact hne]
    have i1 := inv_set_pcb _ a (fun p => { p with children := push_back p.children k.next_pid })
      (k.next_pid + 1) i0 rfl (by
        intro x hx
        rcases mem_push_back _ _ _ hx with e | e
        · exact i0.ch a x e
        · omega) (i0.zo a) (i0.sg a)
    refine ⟨?_, ?_, rfl⟩
    · refine (inv_checkAlarmTriggered _ _ ?_).1
      exact inv_queues _ _ _ i1 rfl i1.ql (hpush _ h.qm) i1.qh i1.qb i1.qs (hpush _ h.pq) i1.act
    · rw [(checkAlarmTriggered_queues _).2.2.2.2.2.2.2.1]

theorem inv_scalar (k k2 : Kernel) (n : Int) (h : Inv k n)
    (hp : ∀ x, ((k2.pcb x).PID, (k2.pcb x).children, (k2.pcb x).zombie_children,
      (k2.pcb x).signals) =
      ((k.pcb x).PID, (k.pcb x).children, (k.pcb x).zombie_children, (k.pcb x).signals))
    (hq : (k2.queue_l, k2.queue_m, k2.queue_h, k2.queue_blocked, k2.queue_stopped,
      k2.process_queue, k2.active_process) =
      (k.queue_l, k.queue_m, k.queue_h, k.queue_blocked, k.queue_stopped,
      k.process_queue, k.active_process)) : Inv k2 n := by
  simp only [Prod.mk.injEq] at hq hp
  obtain ⟨h1, h2, h3, h4, h5, h6, h7⟩ := hq
  exact
    { pid := fun x => by rw [(hp x).1]; exact h.pid x
      ql := by rw [h1]; exact h.ql
      qm := by rw [h2]; exact h.qm
      qh := by rw [h3]; exact h.qh
      qb := by rw [h4]; exact h.qb
      qs := by rw [h5]; exact h.qs
      pq := by rw [h6]; exact h.pq
      act := by rw [h7]; exact h.act
      ch := fun p => by rw [(hp p).2.1]; exact h.ch p
      zo := fun p => by rw [(hp p).2.2.1]; exact h.zo p
      sg := fun p => by rw [(hp p).2.2.2]; exact h.sg p }

theorem inv_p_nice (k : Kernel) (n : Int) (pid priority : Int) (h : Inv k n) :
    Inv (p_nice k pid priority).2 n ∧ (p_nice k pid priority).2.next_pid = k.next_pid := by
  have h0 : Inv { k with context_switch_safe := false } n := inv_enter k n h
  have fin : ∀ K : Kernel, Inv K n → K.next_pid = k.next_pid →
      Inv (checkAlarmTriggered K) n ∧ (checkAlarmTriggered K).next_pid = k.next_pid := by
    intro K hK hn
    exact ⟨(inv_checkAlarmTriggered K n hK).1, by rw [(inv_checkAlarmTriggered K n hK).2, hn]⟩
  unfold p_nice
  simp only []
  generalize (if priority = -1 then Priority.HIGH else if priority = 0 then Priority.MED
    else Priority.LOW) = new_prio
  split
  · exact fin _ h0 rfl
  · rename_i node hnode
    split
    · exact fin _ h0 rfl
    · have h1 : Inv ({ ({ k with context_switch_safe := false } : Kernel) with
          pcb := fun p => if p = node then { k.pcb node with prio := new_prio }
            else k.pcb p } : Kernel) n := by
        refine inv_scalar _ _ n h0 ?_ rfl
        intro x
        by_cases e : x = node
        · subst e; simp
        · simp [e]
      split
      · exact fin _ h1 rfl
      · split
        · exact fin _ h1 rfl
        · rename_i q hq
          have hqn := inv_get_priority_queue _ n h1 _ q hq
          have h2 := inv_set_priority_queue _ n h1 new_prio (remove_pcb q (k.pcb node).PID).2
            (fun x hx => hqn x (mem_remove_pcb _ _ _ hx))
          split
          · refine fin _ ?_ ?_
            · simpa using h2
            · rw [set_priority_queue_next]
          · rename_i n2 hn2
            split
            · refine fin _ ?_ ?_
              · simpa using h2
              · rw [set_priority_queue_next]
            · rename_i q2 hq2
              refine fin _ ?_ ?_
              · refine inv_set_priority_queue _ n ?_ _ _ ?_
                · simpa using h2
                · intro x hx
                  rcases mem_push_back _ _ _ hx with e | e
                  · exact inv_get_priority_queue _ n (by simpa using h2) _ q2 hq2 x e
                  · rw [e]; exact hqn n2 (remove_pcb_fst_mem _ _ _ hn2)
              · rw [set_priority_queue_next, set_priority_queue_next]

theorem inv_set_scalar (k : Kernel) (p : Int) (f : Pcb → Pcb) (n : Int) (h : Inv k n)
    (hf : ((f (k.pcb p)).PID, (f (k.pcb p)).children, (f (k.pcb p)).zombie_children,
      (f (k.pcb p)).signals) =
      ((k.pcb p).PID, (k.pcb p).children, (k.pcb p).zombie_children, (k.pcb p).signals)) :
    Inv (set_pcb k p f) n := by
  simp only [Prod.mk.injEq] at hf
  exact inv_set_pcb k p f n h hf.1 (by rw [hf.2.1]; exact h.ch p) (by rw [hf.2.2.1]; exact h.zo p)
    (by rw [hf.2.2.2]; exact h.sg p)

theorem inv_push_blocked (k : Kernel) (n : Int) (h : Inv k n) (a : Int) (ha : a < n)
    (act : Option Int) (y : Nat) (hact : ∀ b, act = some b → b < n) :
    Inv { k with queue_blocked := push_back k.queue_blocked a, active_process := act,
                 yields := y } n := by
  refine inv_queues k _ n h rfl h.ql h.qm h.qh ?_ h.qs h.pq hact
  intro x hx
  rcases mem_push_back _ _ _ hx with e | e
  · exact h.qb x e
  · rw [e]; exact ha

theorem inv_p_sleep (k : Kernel) (n : Int) (ticks : Nat) (h : Inv k n) :
    Inv (p_sleep k ticks) n ∧ (p_sleep k ticks).next_pid = k.next_pid := by
  unfold p_sleep
  generalize hk0 : ({ k with context_switch_safe := false } : Kernel) = k0
  have h0 : Inv k0 n := by rw [← hk0]; exact inv_enter k n h
  have hn0 : k0.next_pid = k.next_pid := by rw [← hk0]
  simp only []
  cases hact : k0.active_process with
  | none =>
    simp only []
    rw [← hn0]
    exact inv_checkAlarmTriggered _ n h0
  | some a =>
    simp only []
    by_cases ht : ticks ≠ 0
    · rw [if_pos ht]
      refine ⟨?_, hn0⟩
      refine inv_push_blocked _ n (inv_set_scalar _ a _ n h0 (by rfl)) a (h0.act a hact) none _ ?_
      intro b hb; exact absurd hb (by simp)
    · rw [if_neg ht, ← hn0]
      exact inv_checkAlarmTriggered _ n h0

theorem inv_alarmHandler (k : Kernel) (n : Int) (h : Inv k n) :
    Inv (alarmHandler k) n ∧ (alarmHandler k).next_pid = k.next_pid := by
  unfold alarmHandler
  simp only []
  split
  · exact ⟨inv_flags k _ n h rfl rfl, rfl⟩
  · exact ⟨inv_flags k _ n h rfl rfl, rfl⟩

theorem inv_p_waitpid_resumed (k : Kernel) (n : Int) (curr pid : Int) (h : Inv k n) :
    Inv (p_waitpid_resumed k curr pid).2 n ∧
    (p_waitpid_resumed k curr pid).2.next_pid = k.next_pid := by
  have h0 : Inv { k with context_switch_safe := false } n := inv_enter k n h
  unfold p_waitpid_resumed
  simp only []
  exact inv_checkAlarmTriggered _ n (inv_set_scalar _ curr _ n h0 (by rfl))

theorem inv_wait_block (k : Kernel) (n : Int) (curr pid : Int) (h : Inv k n) (hc : curr < n) :
    Inv (wait_block k curr pid) n ∧ (wait_block k curr pid).next_pid = k.next_pid := by
  unfold wait_block
  simp only []
  refine ⟨inv_push_blocked _ n (inv_set_scalar _ curr _ n h (by rfl)) curr hc none _ ?_, rfl⟩
  intro b hb; exact absurd hb (by simp)

theorem inv_cleanup (k : Kernel) (n : Int) (p : Int) (h : Inv k n) :
    Inv (k_process_cleanup k p) n ∧ (k_process_cleanup k p).next_pid = k.next_pid := by
  unfold k_process_cleanup
  exact ⟨inv_queues k _ n h rfl h.ql h.qm h.qh h.qb h.qs
    (fun x hx => h.pq x (mem_remove_pcb _ _ _ hx)) h.act, rfl⟩

theorem pop_front_mem (l rest : List Int) (a : Option Int) (h : pop_front l = (a, rest)) :
    ∀ x ∈ rest, x ∈ l := by
  cases l with
  | nil => simp only [pop_front, Prod.mk.injEq] at h; rw [← h.2]; intro x hx; exact hx
  | cons b t =>
    simp only [pop_front, Prod.mk.injEq] at h
    rw [← h.2]; intro x hx; exact List.mem_cons_of_mem _ hx

theorem inv_next (k : Kernel) (n : Int) (K : Kernel) (h : Inv K n ∧ K.next_pid = k.next_pid) :
    Inv (checkAlarmTriggered K) n ∧ (checkAlarmTriggered K).next_pid = k.next_pid :=
  ⟨(inv_checkAlarmTriggered K n h.1).1, by rw [(inv_checkAlarmTriggered K n h.1).2, h.2]⟩

theorem inv_p_waitpid (k : Kernel) (n : Int) (pid : Int) (nohang : Bool) (h : Inv k n) :
    ∀ r, p_waitpid k pid nohang = some r → Inv r.2 n ∧ r.2.next_pid = k.next_pid := by
  intro r hr
  unfold p_waitpid at hr
  generalize hk0 : ({ k with context_switch_safe := false } : Kernel) = k0 at hr
  have h0 : Inv k0 n := by rw [← hk0]; exact inv_enter k n h
  have hn0 : k0.next_pid = k.next_pid := by rw [← hk0]
  simp only [] at hr
  cases hact : k0.active_process with
  | none => rw [hact] at hr; simp at hr
  | some curr =>
    rw [hact] at hr
    simp only [] at hr
    have hcurr : curr < n := h0.act curr hact
    have hz : ∀ rest : List Int, (∀ x ∈ rest, x ∈ (k0.pcb curr).zombie_children) →
        ∀ z, Inv (checkAlarmTriggered (set_pcb (k_process_cleanup (set_pcb k0 curr
          (fun p => { p with zombie_children := rest })) z) curr
          (fun p => { p with wait_pid := 0, no_changed_child := 0 }))) n ∧
        (checkAlarmTriggered (set_pcb (k_process_cleanup (set_pcb k0 curr
          (fun p => { p with zombie_children := rest })) z) curr
          (fun p => { p with wait_pid := 0, no_changed_child := 0 }))).next_pid =
          k.next_pid := by
      intro rest hrest z
      refine inv_next k n _ ⟨?_, hn0⟩
      refine inv_set_scalar _ curr _ n ?_ (by rfl)
      refine (inv_cleanup _ n z ?_).1
      exact inv_set_pcb k0 curr _ n h0 rfl (h0.ch curr)
        (fun x hx => h0.zo curr x (hrest x hx)) (h0.sg curr)
    have hs : ∀ rest : List Int, (∀ x ∈ rest, x ∈ (k0.pcb curr).signals) →
        ∀ z, Inv (checkAlarmTriggered (set_pcb (set_pcb (set_pcb k0 curr
          (fun p => { p with signals := rest })) z (fun p => { p with signal := -1 })) curr
          (fun p => { p with wait_pid := 0, no_changed_child := 0 }))) n ∧
        (checkAlarmTriggered (set_pcb (set_pcb (set_pcb k0 curr
          (fun p => { p with signals := rest })) z (fun p => { p with signal := -1 })) curr
          (fun p => { p with wait_pid := 0, no_changed_child := 0 }))).next_pid =
          k.next_pid := by
      intro rest hrest z
      refine inv_next k n _ ⟨?_, hn0⟩
      refine inv_set_scalar _ curr _ n ?_ (by rfl)
      refine inv_set_scalar _ z _ n ?_ (by rfl)
      exact inv_set_pcb k0 curr _ n h0 rfl (h0.ch curr) (h0.zo curr)
        (fun x hx => h0.sg curr x (hrest x hx))
    have hnh : Inv (checkAlarmTriggered (set_pcb k0 curr (fun p => { p with wait_pid := 0 }))) n ∧
        (checkAlarmTriggered (set_pcb k0 curr (fun p => { p with wait_pid := 0 }))).next_pid =
          k.next_pid :=
      inv_next k n _ ⟨inv_set_scalar _ curr _ n h0 (by rfl), hn0⟩
    have hwb : Inv (wait_block k0 curr pid) n ∧ (wait_block k0 curr pid).next_pid = k.next_pid :=
      ⟨(inv_wait_block k0 n curr pid h0 hcurr).1, by
        rw [(inv_wait_block k0 n curr pid h0 hcurr).2, hn0]⟩
    split at hr
    · cases hr; exact ⟨h0, hn0⟩
    · split at hr
      · split at hr
        · rename_i zomb rest heq
          cases hr
          exact hz rest (pop_front_mem _ _ _ heq) zomb
        · split at hr
          · rename_i stop rest heq
            cases hr
            exact hs rest (pop_front_mem _ _ _ heq) stop
          · split at hr
            · cases hr; exact hnh
            · cases hr; exact hwb
      · split at hr
        · split at hr
          · exact absurd hr (by simp)
          · rename_i zomb heq
            cases hr
            exact hz _ (fun x hx => mem_remove_pcb _ _ _ hx) zomb
        · split at hr
          · split at hr
            · exact absurd hr (by simp)
            · rename_i stop heq
              cases hr
              exact hs _ (fun x hx => mem_remove_pcb _ _ _ hx) stop
          · split at hr
            · cases hr; exact hnh
            · cases hr; exact hwb

theorem inv_reap_zombies (n : Int) : ∀ (zs : List Int) (k : Kernel), Inv k n →
    Inv (reap_zombies zs k) n ∧ (reap_zombies zs k).next_pid = k.next_pid := by
  intro zs
  induction zs with
  | nil => intro k h; exact ⟨h, rfl⟩
  | cons z rest ih =>
    intro k h
    rw [reap_zombies]
    obtain ⟨a, b⟩ := ih (k_process_cleanup k z) (inv_cleanup k n z h).1
    exact ⟨a, by rw [b, (inv_cleanup k n z h).2]⟩

theorem inv_blocked_remove (k : Kernel) (n : Int) (h : Inv k n) (pid : Int) :
    Inv { k with queue_blocked := (remove_pcb k.queue_blocked pid).2 } n :=
  inv_queues k _ n h rfl h.ql h.qm h.qh (fun x hx => h.qb x (mem_remove_pcb _ _ _ hx)) h.qs
    h.pq h.act

theorem inv_stopped_remove (k : Kernel) (n : Int) (h : Inv k n) (pid : Int) :
    Inv { k with queue_stopped := (remove_pcb k.queue_stopped pid).2 } n :=
  inv_queues k _ n h rfl h.ql h.qm h.qh h.qb (fun x hx => h.qs x (mem_remove_pcb _ _ _ hx))
    h.pq h.act

theorem inv_prio_remove (k : Kernel) (n : Int) (h : Inv k n) (prio : Priority) (q : List Int)
    (hq : get_priority_queue k prio = some q) (pid : Int) :
    Inv (set_priority_queue k prio (remove_pcb q pid).2) n :=
  inv_set_priority_queue k n h prio _
    (fun x hx => inv_get_priority_queue k n h prio q hq x (mem_remove_pcb _ _ _ hx))

theorem inv_kill_orphans (n : Int) : ∀ (fuel : Nat) (k : Kernel) (process : Int)
    (isChild : Bool) (r : Kernel), kill_orphans fuel k process isChild = some r → Inv k n →
    Inv r n ∧ r.next_pid = k.next_pid := by
  intro fuel
  induction fuel with
  | zero => intro k p b r hr; simp [kill_orphans] at hr
  | succ f ih =>
    intro k p b r hr h
    rw [kill_orphans] at hr
    cases hc : (k.pcb p).children with
    | nil =>
      rw [hc] at hr
      simp only [] at hr
      have h1 : Inv (set_pcb (reap_zombies (k.pcb p).zombie_children k) p
          (fun q => { q with zombie_children := [] })) n := by
        refine inv_set_pcb _ p _ n (inv_reap_zombies n _ k h).1 rfl ?_ ?_ ?_
        · exact (inv_reap_zombies n _ k h).1.ch p
        · intro x hx; exact absurd hx (List.not_mem_nil _)
        · exact (inv_reap_zombies n _ k h).1.sg p
      have n1 : (set_pcb (reap_zombies (k.pcb p).zombie_children k) p
          (fun q => { q with zombie_children := [] })).next_pid = k.next_pid :=
        (inv_reap_zombies n _ k h).2
      generalize set_pcb (reap_zombies (k.pcb p).zombie_children k) p
          (fun q => { q with zombie_children := [] }) = K1 at hr h1 n1
      split at hr
      · split at hr
        · cases hr
          exact ⟨(inv_cleanup _ n p (inv_blocked_remove K1 n h1 _)).1, n1⟩
        · split at hr
          · cases hr
            exact ⟨(inv_cleanup _ n p (inv_stopped_remove K1 n h1 _)).1, n1⟩
          · split at hr
            · exact absurd hr (by simp)
            · rename_i q hq
              cases hr
              refine ⟨(inv_cleanup _ n p (inv_prio_remove K1 n h1 _ q hq _)).1, ?_⟩
              show (set_priority_queue K1 _ _).next_pid = k.next_pid
              rw [set_priority_queue_next]; exact n1
      · cases hr; exact ⟨h1, n1⟩
    | cons c rest =>
      rw [hc] at hr
      simp only [] at hr
      have h1 : Inv (set_pcb k p (fun q => { q with children := rest })) n := by
        refine inv_set_pcb k p _ n h rfl ?_ (h.zo p) (h.sg p)
        intro x hx
        exact h.ch p x (by rw [hc]; exact List.mem_cons_of_mem _ hx)
      cases h2 : kill_orphans f (set_pcb k p (fun q => { q with children := rest })) c true with
      | none => rw [h2] at hr; simp at hr
      | some k1 =>
        rw [h2] at hr
        simp only [] at hr
        obtain ⟨a1, a2⟩ := ih _ _ _ _ h2 h1
        obtain ⟨b1, b2⟩ := ih _ _ _ _ hr a1
        exact ⟨b1, by rw [b2, a2]; rfl⟩

theorem inv_wake_parent (k k2 : Kernel) (n : Int) (par child : Int) (h : Inv k n)
    (he : wake_parent k par child = some k2) : Inv k2 n ∧ k2.next_pid = k.next_pid := by
  unfold wake_parent at he
  simp only [] at he
  have key := inv_add_to_scheduler _ k2 n
    (inv_blocked_remove _ n (inv_set_scalar k par _ n h (by rfl)) _) _ _
    (fun a ha => (inv_set_scalar k par _ n h (by rfl)).qb a (remove_pcb_fst_mem _ _ _ ha)) he
  exact ⟨key.1, key.2⟩

theorem inv_notify_parent (k k2 : Kernel) (n : Int) (par node process seen pid : Int)
    (h : Inv k n) (hnode : node < n)
    (he : notify_parent k par node process seen pid = some k2) :
    Inv k2 n ∧ k2.next_pid = k.next_pid := by
  unfold notify_parent at he
  split at he
  · split at he
    · exact inv_wake_parent k k2 n par process h he
    · cases he
      refine ⟨inv_set_pcb k par _ n h rfl (h.ch par) (h.zo par) ?_, rfl⟩
      intro x hx
      rcases mem_push_back _ _ _ hx with e | e
      · exact h.sg par x e
      · rw [e, h.pid node]; exact hnode
  · cases he; exact ⟨h, rfl⟩

theorem get_node_mem (q : List Int) (pid node : Int) (h : get_node q pid = some node) :
    node ∈ q := by
  rw [get_node_eq] at h
  split at h
  · rename_i hm
    have : pid = node := Option.some.inj h
    rw [← this]; exact hm
  · exact absurd h (by simp)

theorem inv_term_detach (k k2 : Kernel) (n : Int) (node par pid : Int) (h : Inv k n)
    (he : term_detach k node par pid = some k2) : Inv k2 n ∧ k2.next_pid = k.next_pid := by
  unfold term_detach at he
  have h1 : Inv (if get_node (k.pcb par).signals pid ≠ none then
      set_pcb k par (fun p => { p with signals := (remove_pcb p.signals pid).2 }) else k) n ∧
      (if get_node (k.pcb par).signals pid ≠ none then
      set_pcb k par (fun p => { p with signals := (remove_pcb p.signals pid).2 })
        else k).next_pid = k.next_pid := by
    split
    · refine ⟨inv_set_pcb k par _ n h rfl (h.ch par) (h.zo par) ?_, rfl⟩
      intro x hx
      exact h.sg par x (mem_remove_pcb _ _ _ hx)
    · exact ⟨h, rfl⟩
  generalize (if get_node (k.pcb par).signals pid ≠ none then
      set_pcb k par (fun p => { p with signals := (remove_pcb p.signals pid).2 })
        else k) = K1 at he h1
  simp only [] at he
  split at he
  · cases he; exact ⟨inv_stopped_remove K1 n h1.1 _, h1.2⟩
  · split at he
    · cases he; exact ⟨inv_blocked_remove K1 n h1.1 _, h1.2⟩
    · split at he
      · exact absurd he (by simp)
      · split at he
        · cases he
          refine ⟨inv_queues K1 _ n h1.1 rfl h1.1.ql h1.1.qm h1.1.qh h1.1.qb h1.1.qs h1.1.pq ?_,
            h1.2⟩
          intro b hb; exact absurd hb (by simp)
        · split at he
          · exact absurd he (by simp)
          · rename_i q hq
            cases he
            exact ⟨inv_prio_remove K1 n h1.1 _ q hq _, by
              rw [set_priority_queue_next]; exact h1.2⟩

theorem inv_kill_term (fuel : Nat) (k : Kernel) (n : Int) (node par pid : Int) (h : Inv k n)
    (r : Int × Kernel) (he : kill_term fuel k node par pid = some r) :
    Inv r.2 n ∧ r.2.next_pid = k.next_pid := by
  unfold kill_term at he
  cases hd : term_detach k node par pid with
  | none => rw [hd] at he; simp at he
  | some k2 =>
    rw [hd] at he
    simp only [] at he
    obtain ⟨i2, n2⟩ := inv_term_detach k k2 n node par pid h hd
    cases hz : (remove_pcb (k2.pcb par).children (k2.pcb node).PID).1 with
    | none => rw [hz] at he; simp at he
    | some zombie_node =>
      rw [hz] at he
      simp only [] at he
      have hzn : zombie_node < n := i2.ch par _ (remove_pcb_fst_mem _ _ _ hz)
      have i3 : Inv (set_pcb k2 par (fun p =>
          { p with children := (remove_pcb p.children (k2.pcb node).PID).2 })) n :=
        inv_set_pcb k2 par _ n i2 rfl (fun x hx => i2.ch par x (mem_remove_pcb _ _ _ hx))
          (i2.zo par) (i2.sg par)
      have i4 := inv_set_scalar _ zombie_node (fun p => { p with status := Status.ZOMB }) n i3
        (by rfl)
      cases hk : kill_orphans fuel (set_pcb (set_pcb k2 par (fun p =>
          { p with children := (remove_pcb p.children (k2.pcb node).PID).2 })) zombie_node
          (fun p => { p with status := Status.ZOMB })) zombie_node false with
      | none => rw [hk] at he; simp at he
      | some k5 =>
        rw [hk] at he
        simp only [] at he
        obtain ⟨i5, n5⟩ := inv_kill_orphans n fuel _ _ _ _ hk i4
        have n5b : k5.next_pid = k.next_pid := by rw [n5, ← n2]; rfl
        split at he
        · split at he
          · exact absurd he (by simp)
          · rename_i k6 hw
            cases he
            obtain ⟨i6, n6⟩ := inv_wake_parent k5 k6 n par zombie_node i5 hw
            exact ⟨(inv_cleanup k6 n zombie_node i6).1, by
              rw [(inv_cleanup k6 n zombie_node i6).2, n6, n5b]⟩
        · cases he
          refine ⟨?_, n5b⟩
          dsimp only
          refine inv_set_pcb k5 par _ n i5 rfl (i5.ch par) ?_ (i5.sg par)
          intro x hx
          rcases mem_push_back _ _ _ hx with e | e
          · exact i5.zo par x e
          · rw [e]; exact hzn

theorem inv_stop_detach (k : Kernel) (n : Int) (node pid : Int) (h : Inv k n)
    (r : Int × Kernel) (he : stop_detach k node pid = some r) :
    Inv r.2 n ∧ r.2.next_pid = k.next_pid ∧ r.1 < n := by
  unfold stop_detach at he
  split at he
  · split at he
    · exact absurd he (by simp)
    · rename_i process hp
      cases he
      exact ⟨inv_blocked_remove k n h _, rfl, h.qb _ (remove_pcb_fst_mem _ _ _ hp)⟩
  · simp only [] at he
    have hq : ∀ r2 : Int × Kernel,
        (match get_priority_queue k (k.pcb node).prio with
        | none => none
        | some q =>
          match (remove_pcb q pid).1 with
          | none => none
          | some process =>
            some (process, set_priority_queue k (k.pcb node).prio (remove_pcb q pid).2)) =
          some r2 → Inv r2.2 n ∧ r2.2.next_pid = k.next_pid ∧ r2.1 < n := by
      intro r2 h2
      split at h2
      · exact absurd h2 (by simp)
      · rename_i q hq
        split at h2
        · exact absurd h2 (by simp)
        · rename_i process hp
          cases h2
          exact ⟨inv_prio_remove k n h _ q hq _, set_priority_queue_next _ _ _,
            inv_get_priority_queue k n h _ q hq _ (remove_pcb_fst_mem _ _ _ hp)⟩
    have ht : ∀ r2 : Int × Kernel,
        (match k.active_process with
        | none =>
          (match get_priority_queue k (k.pcb node).prio with
          | none => none
          | some q =>
            match (remove_pcb q pid).1 with
            | none => none
            | some process =>
              some (process, set_priority_queue k (k.pcb node).prio (remove_pcb q pid).2))
        | some a =>
          if (k.pcb a).PID = pid then some (a, { k with active_process := none })
          else
            (match get_priority_queue k (k.pcb node).prio with
            | none => none
            | some q =>
              match (remove_pcb q pid).1 with
              | none => none
              | some process =>
                some (process, set_priority_queue k (k.pcb node).prio (remove_pcb q pid).2))) =
          some r2 → Inv r2.2 n ∧ r2.2.next_pid = k.next_pid ∧ r2.1 < n := by
      intro r2 h2
      cases hact : k.active_process with
      | none => rw [hact] at h2; exact hq r2 h2
      | some a =>
        rw [hact] at h2
        simp only [] at h2
        split at h2
        · cases h2
          refine ⟨inv_queues k _ n h rfl h.ql h.qm h.qh h.qb h.qs h.pq ?_, rfl, h.act a hact⟩
          intro b hb; exact absurd hb (by simp)
        · exact hq r2 h2
    split at he
    · exact absurd he (by simp)
    · rename_i process k1 heq
      cases he
      obtain ⟨a1, a2, a3⟩ := ht (process, k1) heq
      exact ⟨inv_set_scalar k1 process (fun p => { p with bc := BlockedCause.NOT_BLOCKED }) n a1 (by rfl), a2, a3⟩

theorem inv_mark_stopped (k : Kernel) (n : Int) (process : Int) (h : Inv k n)
    (hp : process < n) :
    Inv (mark_stopped k process) n ∧ (mark_stopped k process).next_pid = k.next_pid := by
  unfold mark_stopped
  have h1 := inv_set_scalar k process (fun p => { p with status := Status.STOP }) n h (by rfl)
  refine ⟨inv_queues _ _ n h1 rfl h1.ql h1.qm h1.qh h1.qb ?_ h1.pq h1.act, rfl⟩
  intro x hx
  rcases mem_push_back _ _ _ hx with e | e
  · exact h.qs x e
  · rw [e]; exact hp

theorem inv_kill_stop (k : Kernel) (n : Int) (node par pid : Int) (h : Inv k n)
    (hnode : node < n) (r : Int × Kernel) (he : kill_stop k node par pid = some r) :
    Inv r.2 n ∧ r.2.next_pid = k.next_pid := by
  unfold kill_stop at he
  split at he
  · exact absurd he (by simp)
  · rename_i process k1 hd
    obtain ⟨a1, a2, a3⟩ := inv_stop_detach k n node pid h (process, k1) hd
    obtain ⟨b1, b2⟩ := inv_mark_stopped k1 n process a1 a3
    split at he
    · exact absurd he (by simp)
    · rename_i k4 hn
      cases he
      obtain ⟨c1, c2⟩ := inv_notify_parent _ k4 n par node process _ pid b1 hnode hn
      exact ⟨c1, by rw [c2, b2]; exact a2⟩

theorem inv_cont_resume (k : Kernel) (n : Int) (pid : Int) (h : Inv k n)
    (r : Int × Kernel) (he : cont_resume k pid = some r) :
    Inv r.2 n ∧ r.2.next_pid = k.next_pid := by
  unfold cont_resume at he
  split at he
  · exact absurd he (by simp)
  · rename_i process hp
    have hpn : process < n := h.qs _ (remove_pcb_fst_mem _ _ _ hp)
    have h1 := inv_stopped_remove k n h pid
    simp only [] at he
    split at he
    · cases he
      have h2 := inv_set_scalar _ process (fun p => { p with status := Status.BLOCK }) n h1
        (by rfl)
      refine ⟨inv_queues _ _ n h2 rfl h2.ql h2.qm h2.qh ?_ h2.qs h2.pq h2.act, rfl⟩
      intro x hx
      rcases mem_push_back _ _ _ hx with e | e
      · exact h.qb x e
      · rw [e]; exact hpn
    · have h2 := inv_set_scalar _ process (fun p => { p with status := Status.RUN }) n h1
        (by rfl)
      cases ha : add_to_scheduler (set_pcb { k with queue_stopped :=
          (remove_pcb k.queue_stopped pid).2 } process
          (fun p => { p with status := Status.RUN })) (some process)
          ((set_pcb { k with queue_stopped := (remove_pcb k.queue_stopped pid).2 } process
          (fun p => { p with status := Status.RUN })).pcb process).prio with
      | none => rw [ha] at he; simp at he
      | some k3 =>
        rw [ha] at he
        simp only [Option.map_some', Option.some.injEq] at he
        subst he
        have := inv_add_to_scheduler _ k3 n h2 _ _
          (fun a e => by rw [← Option.some.inj e]; exact hpn) ha
        exact ⟨this.1, this.2⟩

theorem inv_kill_cont (k : Kernel) (n : Int) (node par pid : Int) (h : Inv k n)
    (hnode : node < n) (r : Int × Kernel) (he : kill_cont k node par pid = some r) :
    Inv r.2 n ∧ r.2.next_pid = k.next_pid := by
  unfold kill_cont at he
  split at he
  · exact absurd he (by simp)
  · rename_i process k3 hd
    obtain ⟨a1, a2⟩ := inv_cont_resume k n pid h (process, k3) hd
    split at he
    · exact absurd he (by simp)
    · rename_i k4 hn
      cases he
      obtain ⟨c1, c2⟩ := inv_notify_parent _ k4 n par node process _ pid a1 hnode hn
      exact ⟨c1, by rw [c2]; exact a2⟩

theorem inv_k_process_kill (fuel : Nat) (k : Kernel) (n : Int) (pid signal : Int) (h : Inv k n)
    (r : Int × Kernel) (he : k_process_kill fuel k pid signal = some r) :
    Inv r.2 n ∧ r.2.next_pid = k.next_pid := by
  unfold k_process_kill at he
  split at he
  · exact absurd he (by simp)
  · rename_i node hn
    have hnode : node < n := h.pq node (get_node_mem _ _ _ hn)
    split at he
    · exact absurd he (by simp)
    · rename_i par hp
      split at he
      · exact inv_kill_term fuel k n node par pid h r he
      · split at he
        · exact inv_kill_stop k n node par pid h hnode r he
        · exact inv_kill_cont k n node par pid h hnode r he

theorem inv_p_kill (fuel : Nat) (k : Kernel) (n : Int) (pid sig : Int) (h : Inv k n)
    (r : Int × Kernel) (he : p_kill fuel k pid sig = some r) :
    Inv r.2 n ∧ r.2.next_pid = k.next_pid := by
  unfold p_kill at he
  generalize hk0 : ({ k with context_switch_safe := false } : Kernel) = k0 at he
  have h0 : Inv k0 n := by rw [← hk0]; exact inv_enter k n h
  have hn0 : k0.next_pid = k.next_pid := by rw [← hk0]
  simp only [] at he
  split at he
  · cases he; exact ⟨h0, hn0⟩
  · rename_i sp hsp
    split at he
    · cases he; exact inv_next k n k0 ⟨h0, hn0⟩
    · split at he
      · cases he; exact inv_next k n k0 ⟨h0, hn0⟩
      · split at he
        · cases he; exact inv_next k n k0 ⟨h0, hn0⟩
        · split at he
          · exact absurd he (by simp)
          · rename_i res k1 hk
            cases he
            obtain ⟨a1, a2⟩ := inv_k_process_kill fuel _ n pid sig
              (inv_set_scalar k0 sp (fun p => { p with signal := sig }) n h0 (by rfl))
              (res, k1) hk
            exact inv_next k n k1 ⟨a1, by rw [a2]; exact hn0⟩

theorem inv_p_exit (fuel : Nat) (k : Kernel) (n : Int) (h : Inv k n)
    (r : Kernel) (he : p_exit fuel k = some r) : Inv r n ∧ r.next_pid = k.next_pid := by
  unfold p_exit at he
  generalize hk0 : ({ k with context_switch_safe := false } : Kernel) = k0 at he
  have h0 : Inv k0 n := by rw [← hk0]; exact inv_enter k n h
  have hn0 : k0.next_pid = k.next_pid := by rw [← hk0]
  simp only [] at he
  split at he
  · rename_i a ha
    split at he
    · exact absurd he (by simp)
    · rename_i res k1 hk
      cases he
      obtain ⟨a1, a2⟩ := inv_k_process_kill fuel _ n a 0
        (inv_set_scalar k0 a (fun p => { p with signal := 3 }) n h0 (by rfl)) (res, k1) hk
      exact ⟨inv_flags k1 _ n a1 rfl rfl, a2.trans hn0⟩
  · cases he; exact inv_next k n k0 ⟨h0, hn0⟩

theorem inv_updateTicks_loop (elapsed : Nat) (n : Int) : ∀ (l : List Int) (k k2 : Kernel),
    Inv k n → (∀ x ∈ l, x < n) → updateTicks_loop elapsed l k = some k2 →
    Inv k2 n ∧ k2.next_pid = k.next_pid := by
  intro l
  induction l with
  | nil =>
    intro k k2 h _ he
    simp only [updateTicks_loop, Option.some.injEq] at he
    subst he; exact ⟨h, rfl⟩
  | cons curr next ih =>
    intro k k2 h hl he
    have hc : curr < n := hl curr (List.mem_cons_self _ _)
    have hn : ∀ x ∈ next, x < n := fun x hx => hl x (List.mem_cons_of_mem _ hx)
    unfold updateTicks_loop at he
    split at he
    · split at he
      · simp only [] at he
        split at he
        · exact absurd he (by simp)
        · rename_i k3 ha
          have h1 := inv_blocked_remove k n h (k.pcb curr).PID
          have h2 := inv_set_scalar _ curr (fun p => { p with status := Status.RUN, wait_pid := 0, blocked_ticks := 0, bc := BlockedCause.NOT_BLOCKED }) n h1 (by rfl)
          have h3 := inv_add_to_scheduler _ k3 n h2 _ _
            (fun a e => by rw [← Option.some.inj e]; exact hc) ha
          obtain ⟨a1, a2⟩ := ih k3 k2 h3.1 hn he
          exact ⟨a1, a2.trans h3.2⟩
      · have h2 := inv_set_scalar k curr
          (fun p => { p with blocked_ticks := p.blocked_ticks - elapsed }) n h (by rfl)
        obtain ⟨a1, a2⟩ := ih _ k2 h2 hn he
        exact ⟨a1, a2⟩
    · exact ih k k2 h hn he

theorem inv_updateTicks (k k2 : Kernel) (n : Int) (h : Inv k n) (he : updateTicks k = some k2) :
    Inv k2 n ∧ k2.next_pid = k.next_pid := by
  unfold updateTicks at he
  split at he
  · exact absurd he (by simp)
  · rename_i k1 hl
    cases he
    obtain ⟨a1, a2⟩ := inv_updateTicks_loop _ n _ k k1 h h.qb hl
    exact ⟨inv_flags k1 _ n a1 rfl rfl, a2⟩

theorem inv_lottery_push_back (k k2 : Kernel) (n : Int) (h : Inv k n)
    (he : lottery_push_back k = some k2) : Inv k2 n ∧ k2.next_pid = k.next_pid := by
  unfold lottery_push_back at he
  split at he
  · cases he; exact ⟨h, rfl⟩
  · rename_i a ha
    split at he
    · split at he
      · exact absurd he (by simp)
      · rename_i tmp ht
        cases he
        have h1 : Inv (set_priority_queue k (k.pcb a).prio (push_back tmp a)) n := by
          refine inv_set_priority_queue k n h _ _ ?_
          intro x hx
          rcases mem_push_back _ _ _ hx with e | e
          · exact inv_get_priority_queue k n h _ tmp ht x e
          · rw [e]; exact h.act a ha
        refine ⟨inv_queues _ _ n h1 rfl h1.ql h1.qm h1.qh h1.qb h1.qs h1.pq ?_,
          set_priority_queue_next _ _ _⟩
        intro b hb; exact absurd hb (by simp)
    · cases he; exact ⟨h, rfl⟩

theorem inv_scheduler_lottery (n : Int) : ∀ (draws : List Nat) (k : Kernel)
    (r : Priority × Kernel), Inv k n → scheduler_lottery draws k = some r →
    Inv r.2 n ∧ r.2.next_pid = k.next_pid := by
  intro draws
  induction draws with
  | nil =>
    intro k r h he
    unfold scheduler_lottery at he
    split at he
    · exact absurd he (by simp)
    · rename_i k1 hp
      obtain ⟨a1, a2⟩ := inv_lottery_push_back k k1 n h hp
      split at he
      · split at he
        · cases he; exact ⟨a1, a2⟩
        · cases he; exact ⟨a1, a2⟩
      · exact absurd he (by simp)
  | cons d rest ih =>
    intro k r h he
    unfold scheduler_lottery at he
    split at he
    · exact absurd he (by simp)
    · rename_i k1 hp
      obtain ⟨a1, a2⟩ := inv_lottery_push_back k k1 n h hp
      split at he
      · split at he
        · cases he; exact ⟨a1, a2⟩
        · cases he; exact ⟨a1, a2⟩
      · simp only [] at he
        split at he
        · exact absurd he (by simp)
        · split at he
          · exact absurd he (by simp)
          · split at he
            · exact absurd he (by simp)
            · split at he
              · obtain ⟨b1, b2⟩ := ih k1 r a1 he
                exact ⟨b1, b2.trans a2⟩
              · cases he; exact ⟨a1, a2⟩

theorem inv_context_set (k k2 : Kernel) (n : Int) (prio : Priority) (h : Inv k n)
    (he : context_set k prio = some k2) : Inv k2 n ∧ k2.next_pid = k.next_pid := by
  unfold context_set at he
  split at he
  · cases he
    refine ⟨inv_queues k _ n h rfl h.ql h.qm h.qh h.qb h.qs h.pq ?_, rfl⟩
    intro b hb; exact absurd hb (by simp)
  · split at he
    · exact absurd he (by simp)
    · rename_i use hu
      split at he
      · split at he
        · exact absurd he (by simp)
        · rename_i curr hc
          cases he
          refine ⟨inv_queues k _ n h rfl h.ql h.qm h.qh h.qb h.qs h.pq ?_, rfl⟩
          intro b hb
          simp only [Option.some.injEq] at hb
          rw [← hb]; exact h.act curr hc
      · cases he
        have hq := inv_get_priority_queue k n h prio use hu
        have h1 : Inv (set_priority_queue k prio (pop_front use).2) n :=
          inv_set_priority_queue k n h prio _
            (fun x hx => hq x (pop_front_mem use _ _ rfl x hx))
        refine ⟨inv_queues _ _ n h1 rfl h1.ql h1.qm h1.qh h1.qb h1.qs h1.pq ?_,
          set_priority_queue_next _ _ _⟩
        intro b hb
        have hb2 : (pop_front use).1 = some b := hb
        cases use with
        | nil => simp [pop_front] at hb2
        | cons c t =>
          simp only [pop_front, Option.some.injEq] at hb2
          rw [← hb2]; exact hq c (List.mem_cons_self _ _)

theorem inv_scheduler (draws : List Nat) (k k2 : Kernel) (n : Int) (h : Inv k n)
    (he : scheduler draws k = some k2) : Inv k2 n ∧ k2.next_pid = k.next_pid := by
  unfold scheduler at he
  split at he
  · exact absurd he (by simp)
  · rename_i k1 hu
    obtain ⟨a1, a2⟩ := inv_updateTicks k k1 n h hu
    split at he
    · exact absurd he (by simp)
    · rename_i winner kk hl
      obtain ⟨b1, b2⟩ := inv_scheduler_lottery n draws k1 (winner, kk) a1 hl
      have hreq : ∀ k3 : Kernel,
          (match kk.active_process with
          | none => some kk
          | some a =>
            if (kk.pcb a).status = Status.RUN then add_to_scheduler kk (some a) (kk.pcb a).prio
            else some kk) = some k3 → Inv k3 n ∧ k3.next_pid = kk.next_pid := by
        intro k3 h3
        split at h3
        · cases h3; exact ⟨b1, rfl⟩
        · rename_i a ha
          split at h3
          · exact inv_add_to_scheduler kk k3 n b1 _ _
              (fun c e => by rw [← Option.some.inj e]; exact b1.act a ha) h3
          · cases h3; exact ⟨b1, rfl⟩
      simp only [] at he
      split at he
      · exact absurd he (by simp)
      · rename_i k3 h3
        obtain ⟨c1, c2⟩ := hreq k3 h3
        obtain ⟨d1, d2⟩ := inv_context_set k3 k2 n winner c1 he
        exact ⟨d1, d2.trans (c2.trans (b2.trans a2))⟩

theorem inv_step (fuel : Nat) (k k2 : Kernel) (n : Int) (c : Call) (h : Inv k n)
    (hn : k.next_pid = n) (he : step fuel k c = some k2) :
    (c = Call.spawn → Inv k2 (n + 1) ∧ k2.next_pid = n + 1) ∧
    (c ≠ Call.spawn → Inv k2 n ∧ k2.next_pid = n) := by
  subst hn
  cases c with
  | spawn =>
    simp only [step, Option.some.injEq] at he
    subst he
    exact ⟨fun _ => ⟨(inv_p_spawn k h).1, (inv_p_spawn k h).2.1⟩, fun e => absurd rfl e⟩
  | nice pid priority =>
    simp only [step, Option.some.injEq] at he
    subst he
    exact ⟨fun e => (by cases e), fun _ => inv_p_nice k _ pid priority h⟩
  | sleep ticks =>
    simp only [step, Option.some.injEq] at he
    subst he
    exact ⟨fun e => (by cases e), fun _ => inv_p_sleep k _ ticks h⟩
  | sleep_return =>
    simp only [step, Option.some.injEq] at he
    subst he
    exact ⟨fun e => (by cases e), fun _ => inv_checkAlarmTriggered k _ h⟩
  | waitpid pid nohang =>
    refine ⟨fun e => (by cases e), fun _ => ?_⟩
    simp only [step] at he
    cases hr : p_waitpid k pid nohang with
    | none => rw [hr] at he; simp at he
    | some r =>
      rw [hr] at he
      simp only [Option.map_some', Option.some.injEq] at he
      subst he
      exact inv_p_waitpid k _ pid nohang h r hr
  | waitpid_return curr pid =>
    simp only [step, Option.some.injEq] at he
    subst he
    exact ⟨fun e => (by cases e), fun _ => inv_p_waitpid_resumed k _ curr pid h⟩
  | kill pid sig =>
    refine ⟨fun e => (by cases e), fun _ => ?_⟩
    simp only [step] at he
    cases hr : p_kill fuel k pid sig with
    | none => rw [hr] at he; simp at he
    | some r =>
      rw [hr] at he
      simp only [Option.map_some', Option.some.injEq] at he
      subst he
      exact inv_p_kill fuel k _ pid sig h r hr
  | exit =>
    refine ⟨fun e => (by cases e), fun _ => ?_⟩
    simp only [step] at he
    exact inv_p_exit fuel k _ h k2 he
  | alarm =>
    simp only [step, Option.some.injEq] at he
    subst he
    exact ⟨fun e => (by cases e), fun _ => inv_alarmHandler k _ h⟩
  | schedule draws =>
    refine ⟨fun e => (by cases e), fun _ => ?_⟩
    simp only [step] at he
    exact inv_scheduler draws k k2 _ h he

theorem inv_run (fuel : Nat) : ∀ (calls : List Call) (k k2 : Kernel) (n : Int),
    Inv k n → k.next_pid = n → run fuel k calls = some k2 →
    Inv k2 (n + spawns calls) ∧ k2.next_pid = n + spawns calls := by
  intro calls
  induction calls with
  | nil =>
    intro k k2 n h hn he
    simp only [run, Option.some.injEq] at he
    subst he
    simp only [spawns, Nat.cast_zero, add_zero]
    exact ⟨h, hn⟩
  | cons c rest ih =>
    intro k k2 n h hn he
    unfold run at he
    split at he
    · exact absurd he (by simp)
    · rename_i k1 hs
      have st := inv_step fuel k k1 n c h hn hs
      by_cases e : c = Call.spawn
      · obtain ⟨a1, a2⟩ := st.1 e
        obtain ⟨b1, b2⟩ := ih k1 k2 (n + 1) a1 a2 he
        subst e
        have hs2 : (n + 1 + (spawns rest : Int)) = n + ((spawns (Call.spawn :: rest) : Nat) : Int) := by
          simp only [spawns, Nat.cast_add, Nat.cast_one]; ring
        rw [← hs2]; exact ⟨b1, b2⟩
      · obtain ⟨a1, a2⟩ := st.2 e
        obtain ⟨b1, b2⟩ := ih k1 k2 n a1 a2 he
        have hs2 : spawns (c :: rest) = spawns rest := by
          cases c with
          | spawn => exact absurd rfl e
          | _ => rfl
        rw [hs2]; exact ⟨b1, b2⟩

theorem inv_init_scheduler : Inv init_scheduler 1 :=
  { pid := fun _ => rfl
    ql := fun x hx => absurd hx (List.not_mem_nil _)
    qm := fun x hx => absurd hx (List.not_mem_nil _)
    qh := fun x hx => absurd hx (List.not_mem_nil _)
    qb := fun x hx => absurd hx (List.not_mem_nil _)
    qs := fun x hx => absurd hx (List.not_mem_nil _)
    pq := fun x hx => absurd hx (List.not_mem_nil _)
    act := fun a ha => absurd ha (by simp [init_scheduler])
    ch := fun p x hx => absurd hx (List.not_mem_nil _)
    zo := fun p x hx => absurd hx (List.not_mem_nil _)
    sg := fun p x hx => absurd hx (List.not_mem_nil _) }

theorem idle_checkAlarmTriggered (k : Kernel) (h : Idle k) : Idle (checkAlarmTriggered k) := by
  obtain ⟨h1, h2, h3, h4, h5, h6, h7, _⟩ := checkAlarmTriggered_queues k
  unfold Idle
  rw [h1, h2, h3, h4, h5, h6, h7]; exact h

theorem idle_step (fuel : Nat) (k k2 : Kernel) (c : Call) (h : Idle k) (hc : c ≠ Call.spawn)
    (he : step fuel k c = some k2) : Idle k2 := by
  have hh := h
  simp only [Idle, Prod.mk.injEq] at hh
  obtain ⟨h1, h2, h3, h4, h5, h6, h7⟩ := hh
  have h0 : Idle { k with context_switch_safe := false } := h
  cases c with
  | spawn => exact absurd rfl hc
  | nice pid priority =>
    simp only [step, Option.some.injEq] at he
    subst he
    have e : (p_nice k pid priority).2 = checkAlarmTriggered { k with context_switch_safe := false } := by
      unfold p_nice
      simp only [h6, get_node, List.find?_nil]
    rw [e]; exact idle_checkAlarmTriggered _ h0
  | sleep ticks =>
    simp only [step, Option.some.injEq] at he
    subst he
    have e : p_sleep k ticks = checkAlarmTriggered { k with context_switch_safe := false } := by
      unfold p_sleep
      simp only [h7]
    rw [e]; exact idle_checkAlarmTriggered _ h0
  | sleep_return =>
    simp only [step, Option.some.injEq] at he
    subst he
    exact idle_checkAlarmTriggered _ h
  | waitpid pid nohang =>
    have e : p_waitpid k pid nohang = none := by
      unfold p_waitpid
      simp only [h7]
    simp [step, e] at he
  | waitpid_return curr pid =>
    simp only [step, Option.some.injEq] at he
    subst he
    unfold p_waitpid_resumed
    exact idle_checkAlarmTriggered _ h0
  | kill pid sig =>
    have e : p_kill fuel k pid sig = some (-1, { k with context_switch_safe := false }) := by
      unfold p_kill
      simp only [h6, get_node, List.find?_nil]
    simp only [step, e, Option.map_some', Option.some.injEq] at he
    subst he; exact h0
  | exit =>
    have e : p_exit fuel k = some (checkAlarmTriggered { k with context_switch_safe := false }) := by
      unfold p_exit
      simp only [h7]
    simp only [step, e, Option.some.injEq] at he
    subst he; exact idle_checkAlarmTriggered _ h0
  | alarm =>
    simp only [step, Option.some.injEq] at he
    subst he
    unfold alarmHandler
    simp only []
    split
    · exact h
    · exact h
  | schedule draws =>
    simp only [step] at he
    unfold scheduler at he
    have e1 : updateTicks k = some { k with prev_ticks := k.all_ticks } := by
      unfold updateTicks
      simp only [h4, updateTicks_loop]
    rw [e1] at he
    generalize hk1 : ({ k with prev_ticks := k.all_ticks } : Kernel) = k1 at he
    have i1 : Idle k1 := by rw [← hk1]; exact h
    have hh1 := i1
    simp only [Idle, Prod.mk.injEq] at hh1
    obtain ⟨g1, g2, g3, g4, g5, g6, g7⟩ := hh1
    have e2 : scheduler_lottery draws k1 = some (Priority.INVALID, k1) := by
      unfold scheduler_lottery
      simp only [lottery_push_back, g7, g1, g2, g3, List.length_nil, if_true]
    simp only [e2, g7, context_set, if_true, Option.some.injEq] at he
    subst he
    simp only [Idle, g1, g2, g3, g4, g5, g6]

theorem idle_run (fuel : Nat) : ∀ (calls : List Call) (k k2 : Kernel),
    Idle k → spawns calls = 0 → run fuel k calls = some k2 → Idle k2 := by
  intro calls
  induction calls with
  | nil =>
    intro k k2 h _ he
    simp only [run, Option.some.injEq] at he
    subst he; exact h
  | cons c rest ih =>
    intro k k2 h hs he
    unfold run at he
    split at he
    · exact absurd he (by simp)
    · rename_i k1 hst
      have hc : c ≠ Call.spawn := by
        intro e; subst e; simp [spawns] at hs
      have hs2 : spawns rest = 0 := by
        cases c with
        | spawn => exact absurd rfl hc
        | _ => exact hs
      exact ih k1 k2 (idle_step fuel k k1 c h hc hst) hs2 he

theorem checkAlarmTriggered_tuple (K : Kernel) :
    ((checkAlarmTriggered K).queue_l, (checkAlarmTriggered K).queue_m,
      (checkAlarmTriggered K).queue_h, (checkAlarmTriggered K).queue_blocked,
      (checkAlarmTriggered K).queue_stopped, (checkAlarmTriggered K).process_queue) =
    (K.queue_l, K.queue_m, K.queue_h, K.queue_blocked, K.queue_stopped, K.process_queue) := by
  obtain ⟨h1, h2, h3, h4, h5, h6, _⟩ := checkAlarmTriggered_queues K
  rw [h1, h2, h3, h4, h5, h6]

theorem p_spawn_fields (k : Kernel) (h : ∀ a, k.active_process = some a → a ≠ k.next_pid) :
    (p_spawn k).1 = k.next_pid ∧
    ((p_spawn k).2.queue_l, (p_spawn k).2.queue_m, (p_spawn k).2.queue_h,
      (p_spawn k).2.queue_blocked, (p_spawn k).2.queue_stopped, (p_spawn k).2.process_queue) =
      (k.queue_l, k.queue_m ++ [k.next_pid], k.queue_h, k.queue_blocked, k.queue_stopped,
        k.process_queue ++ [k.next_pid]) ∧
    (p_spawn k).2.pcb k.next_pid = (k_process_create { k with context_switch_safe := false }).1 ∧
    (∀ a, k.active_process = some a →
      (p_spawn k).2.pcb a = { k.pcb a with children := (k.pcb a).children ++ [k.next_pid] }) ∧
    (∀ x, x ≠ k.next_pid → k.active_process ≠ some x → (p_spawn k).2.pcb x = k.pcb x) := by
  cases hact : k.active_process with
  | none =>
    rw [p_spawn_none k hact]
    refine ⟨rfl, ?_, ?_, ?_, ?_⟩
    · dsimp only
      rw [checkAlarmTriggered_tuple]; rfl
    · dsimp only
      rw [checkAlarmTriggered_pcb]
      dsimp only
      rw [set_pcb_self, hact]
    · intro a ha; exact absurd ha (by simp)
    · intro x hx _
      dsimp only
      rw [checkAlarmTriggered_pcb]
      dsimp only
      rw [set_pcb_ne _ _ _ _ hx]
  | some a =>
    have hne : a ≠ k.next_pid := h a hact
    rw [p_spawn_some k a hact hne]
    refine ⟨rfl, ?_, ?_, ?_, ?_⟩
    · dsimp only
      rw [checkAlarmTriggered_tuple]; rfl
    · dsimp only
      rw [checkAlarmTriggered_pcb]
      dsimp only
      rw [set_pcb_ne _ _ _ _ (fun e => hne e.symm), set_pcb_self, hact]
    · intro b hb
      have hb2 : a = b := Option.some.inj hb
      subst hb2
      dsimp only
      rw [checkAlarmTriggered_pcb]
      dsimp only
      rw [set_pcb_self, set_pcb_ne _ _ _ _ hne]
      rfl
    · intro x hx hxa
      have hxa2 : x ≠ a := fun e => hxa (by rw [e])
      dsimp only
      rw [checkAlarmTriggered_pcb]
      dsimp only
      rw [set_pcb_ne _ _ _ _ hxa2, set_pcb_ne _ _ _ _ hx]

theorem count_push_fresh (q : List Int) (x : Int) (h : x ∉ q) : (q ++ [x]).count x = 1 := by
  rw [List.count_append, List.count_eq_zero_of_not_mem h]
  simp

/-- C27. From `init_scheduler`, after any sequence of calls that the kernel
survives and that holds fewer than `2 ^ 31 - 1` spawns (the PID counter is a C
`int`), the next `p_spawn` returns one more than the number of spawns before
it. The PCB of that PID is `RUN`, `MED`, not blocked, and its parent is the
process that was active at the call, which is none when nothing was spawned
before. The PID was not in the process table and is now at its tail, at the
tail of the children of the active process and of the `MED` run queue; it is
once in the `MED` queue and in no other run queue, not in the blocked or the
stopped queue, not among the children of any other PCB, and among the zombie
children and the signals of no PCB. -/
theorem p_spawn_post (fuel : Nat) (calls : List Call) (k : Kernel)
    (hrun : run fuel init_scheduler calls = some k) (_hint : spawns calls + 1 < 2 ^ 31) :
    (p_spawn k).1 = spawns calls + 1 ∧
    (((p_spawn k).2.pcb (p_spawn k).1).PID, ((p_spawn k).2.pcb (p_spawn k).1).status,
      ((p_spawn k).2.pcb (p_spawn k).1).prio, ((p_spawn k).2.pcb (p_spawn k).1).bc,
      ((p_spawn k).2.pcb (p_spawn k).1).parent) =
      ((p_spawn k).1, Status.RUN, Priority.MED, BlockedCause.NOT_BLOCKED, k.active_process) ∧
    (spawns calls = 0 → k.active_process = none) ∧
    (p_spawn k).1 ∉ k.process_queue ∧
    (p_spawn k).2.process_queue = k.process_queue ++ [(p_spawn k).1] ∧
    (∀ a, k.active_process = some a →
      ((p_spawn k).2.pcb a).children = (k.pcb a).children ++ [(p_spawn k).1] ∧
      (p_spawn k).1 ∉ (k.pcb a).children) ∧
    (p_spawn k).2.queue_m = k.queue_m ++ [(p_spawn k).1] ∧
    counts (p_spawn k).2 (p_spawn k).1 = run_counts Priority.MED ∧
    (∀ p, k.active_process ≠ some p → (p_spawn k).1 ∉ ((p_spawn k).2.pcb p).children) ∧
    (∀ p, (p_spawn k).1 ∉ ((p_spawn k).2.pcb p).zombie_children ∧
      (p_spawn k).1 ∉ ((p_spawn k).2.pcb p).signals) := by
  obtain ⟨hinv, hnext⟩ := inv_run fuel calls init_scheduler k 1 inv_init_scheduler rfl hrun
  rw [← hnext] at hinv
  have hact : ∀ a, k.active_process = some a → a ≠ k.next_pid := by
    intro a ha; have := hinv.act a ha; omega
  have fresh : ∀ q : List Int, (∀ x ∈ q, x < k.next_pid) → k.next_pid ∉ q := by
    intro q hq hm; have := hq _ hm; omega
  obtain ⟨f1, f2, f3, f4, f5⟩ := p_spawn_fields k hact
  simp only [Prod.mk.injEq] at f2
  obtain ⟨q1, q2, q3, q4, q5, q6⟩ := f2
  rw [f1]
  have hnew : ∀ p, k.next_pid ∉ ((p_spawn k).2.pcb p).zombie_children ∧
      k.next_pid ∉ ((p_spawn k).2.pcb p).signals := by
    intro p
    by_cases e : p = k.next_pid
    · rw [e, f3]; exact ⟨List.not_mem_nil _, List.not_mem_nil _⟩
    · by_cases e2 : k.active_process = some p
      · rw [f4 p e2]; exact ⟨fresh _ (hinv.zo p), fresh _ (hinv.sg p)⟩
      · rw [f5 p e e2]; exact ⟨fresh _ (hinv.zo p), fresh _ (hinv.sg p)⟩
  refine ⟨?_, ?_, ?_, fresh _ hinv.pq, q6, ?_, q2, ?_, ?_, hnew⟩
  · rw [hnext]; ring
  · rw [f3]; rfl
  · intro h0
    have hidle := idle_run fuel calls init_scheduler k rfl h0 hrun
    simp only [Idle, Prod.mk.injEq] at hidle
    exact hidle.2.2.2.2.2.2
  · intro a ha
    rw [f4 a ha]
    exact ⟨rfl, fresh _ (hinv.ch a)⟩
  · unfold counts
    rw [q1, q2, q3, q4, q5, count_push_fresh _ _ (fresh _ hinv.qm),
      List.count_eq_zero_of_not_mem (fresh _ hinv.ql),
      List.count_eq_zero_of_not_mem (fresh _ hinv.qh),
      List.count_eq_zero_of_not_mem (fresh _ hinv.qb),
      List.count_eq_zero_of_not_mem (fresh _ hinv.qs)]
    rfl
  · intro p hp
    by_cases e : p = k.next_pid
    · rw [e, f3]; exact List.not_mem_nil _
    · rw [f5 p e hp]; exact fresh _ (hinv.ch p)

set_option maxRecDepth 100000 in
set_option maxHeartbeats 4000000 in
theorem p_spawn_post_witness :
    run 5 init_scheduler [Call.spawn, Call.nice 1 (-1), Call.schedule [31]] = some ex_boot ∧
    spawns [Call.spawn, Call.nice 1 (-1), Call.schedule [31]] + 1 < 2 ^ 31 ∧
    (p_spawn ex_boot).1 = 2 ∧
    (p_spawn ex_boot).2.process_queue = ex_boot.process_queue ++ [(p_spawn ex_boot).1] ∧
    (p_spawn ex_boot).2.queue_m = ex_boot.queue_m ++ [(p_spawn ex_boot).1] ∧
    counts (p_spawn ex_boot).2 (p_spawn ex_boot).1 = run_counts Priority.MED :=
  ⟨rfl, by decide,
    (p_spawn_post 5 [Call.spawn, Call.nice 1 (-1), Call.schedule [31]] ex_boot (by rfl)
      (by decide)).1,
    (p_spawn_post 5 [Call.spawn, Call.nice 1 (-1), Call.schedule [31]] ex_boot (by rfl)
      (by decide)).2.2.2.2.1,
    (p_spawn_post 5 [Call.spawn, Call.nice 1 (-1), Call.schedule [31]] ex_boot (by rfl)
      (by decide)).2.2.2.2.2.2.1,
    (p_spawn_post 5 [Call.spawn, Call.nice 1 (-1), Call.schedule [31]] ex_boot (by rfl)
      (by decide)).2.2.2.2.2.2.2.1⟩

/-! ## C3: the state `create_file` leaves -/

theorem find_scan_empty (follow : Entry → Nat → Option (Entry × Nat)) (skip_flag : Nat)
    (r : Entry) (rest : List Entry) (en : Nat)
    (hr : r.file.name0 = EOD_FLAG ∨ r.file.name0 = CLEANED_FLAG ∨ r.file.name0 = REMOVED_FLAG) :
    ∀ (pre : List Entry),
      (∀ x ∈ pre, x.file.name0 ≠ EOD_FLAG ∧ x.file.name0 ≠ CLEANED_FLAG ∧
        x.file.name0 ≠ REMOVED_FLAG) →
      find_scan follow [] skip_flag (pre ++ r :: rest) en = some (r, en) := by
  intro pre
  induction pre with
  | nil =>
    intro _
    rw [List.nil_append, find_scan]
    by_cases h0 : r.file.name0 = EOD_FLAG
    · rw [if_pos h0]
    · rw [if_neg h0, if_pos ⟨rfl, hr⟩]
  | cons x pre ih =>
    intro h
    obtain ⟨h0, h1, h2⟩ := h x (List.mem_cons_self _ _)
    rw [List.cons_append, find_scan, if_neg h0, if_neg, if_neg]
    · exact ih (fun y hy => h y (List.mem_cons_of_mem _ hy))
    · intro hc; exact hc.1 rfl
    · intro hc
      rcases hc.2 with e | e | e
      · exact h0 e
      · exact h1 e
      · exact h2 e

theorem find_scan_hit (follow : Entry → Nat → Option (Entry × Nat)) (nm : List Nat)
    (new : Entry) (rest : List Entry) (en : Nat) (hnm : nm.headD 0 ≠ EOD_FLAG)
    (h0 : new.file.name0 ≠ EOD_FLAG) (hname : cstr new.file.name = cstr nm) :
    ∀ (pre : List Entry),
      (∀ x ∈ pre, x.file.name0 ≠ EOD_FLAG ∧ cstr x.file.name ≠ cstr nm) →
      find_scan follow nm SKIP_NONE (pre ++ new :: rest) en = some (new, en) := by
  intro pre
  induction pre with
  | nil =>
    intro _
    rw [List.nil_append, find_scan, if_neg h0, if_neg (fun hc => hnm hc.1),
      if_pos ⟨hnm, hname⟩, if_neg (fun hc => hc.2 rfl)]
  | cons x pre ih =>
    intro h
    obtain ⟨hx0, hx1⟩ := h x (List.mem_cons_self _ _)
    rw [List.cons_append, find_scan, if_neg hx0, if_neg (fun hc => hnm hc.1),
      if_neg (fun hc => hx1 hc.2)]
    exact ih (fun y hy => h y (List.mem_cons_of_mem _ hy))

theorem find_scan_eod (follow : Entry → Nat → Option (Entry × Nat)) (nm : List Nat)
    (skip_flag : Nat) (hnm : nm.headD 0 ≠ EOD_FLAG) :
    ∀ (es : List Entry) (en : Nat),
      (∀ x ∈ es, cstr x.file.name ≠ cstr nm) →
      (∃ x ∈ es, x.file.name0 = EOD_FLAG) →
      ∃ z ∈ es, find_scan follow nm skip_flag es en = some (z, en) ∧
        z.file.name0 = EOD_FLAG := by
  intro es
  induction es with
  | nil => intro en _ h; simp at h
  | cons e rest ih =>
    intro en hno hex
    rw [find_scan]
    by_cases h0 : e.file.name0 = EOD_FLAG
    · rw [if_pos h0]
      exact ⟨e, List.mem_cons_self _ _, rfl, h0⟩
    · rw [if_neg h0, if_neg (fun hc => hnm hc.1),
        if_neg (fun hc => hno e (List.mem_cons_self _ _) hc.2)]
      obtain ⟨x, hx, hx0⟩ := hex
      have hx2 : x ∈ rest := by
        rcases List.mem_cons.mp hx with e1 | e1
        · rw [e1] at hx0; exact absurd hx0 h0
        · exact e1
      obtain ⟨z, hz, hz1, hz2⟩ := ih en (fun y hy => hno y (List.mem_cons_of_mem _ hy))
        ⟨x, hx2, hx0⟩
      exact ⟨z, List.mem_cons_of_mem _ hz, hz1, hz2⟩

theorem isChain_chain_blocks (fat : Nat → Nat) :
    ∀ (L : List Nat) (b : Nat), IsChain fat b L → chain_blocks fat L.length b = L := by
  intro L
  induction L with
  | nil => intro b _; rfl
  | cons x xs ih =>
    intro b h
    obtain ⟨_, h2, h3⟩ := h
    simp only [List.length_cons, chain_blocks]
    rw [ih _ h3, h2]

theorem isChain_split (fat : Nat → Nat) (bj : Nat) (L2 : List Nat) :
    ∀ (L1 : List Nat) (b : Nat), IsChain fat b (L1 ++ bj :: L2) →
      bj ≠ LAST_BLOCK ∧ IsChain fat (fat bj) L2 := by
  intro L1
  induction L1 with
  | nil =>
    intro b h
    obtain ⟨h1, h2, h3⟩ := h
    subst h2
    exact ⟨h1, h3⟩
  | cons x xs ih =>
    intro b h
    exact ih _ h.2.2

theorem isChain_extend (fat fat1 : Nat → Nat) (bj j1 : Nat) (hj : j1 ≠ LAST_BLOCK)
    (h1 : fat1 bj = j1) (h2 : fat1 j1 = LAST_BLOCK) :
    ∀ (L1 : List Nat) (b : Nat), (∀ x ∈ L1, fat1 x = fat x) →
      IsChain fat b (L1 ++ [bj]) → IsChain fat1 b (L1 ++ [bj, j1]) := by
  intro L1
  induction L1 with
  | nil =>
    intro b _ h
    obtain ⟨a1, a2, _⟩ := h
    subst a2
    refine ⟨a1, rfl, ?_⟩
    rw [h1]
    exact ⟨hj, rfl, h2⟩
  | cons x xs ih =>
    intro b hx h
    obtain ⟨a1, a2, a3⟩ := h
    refine ⟨a1, a2, ?_⟩
    have e : fat1 b = fat b := by
      subst a2; exact hx _ (List.mem_cons_self _ _)
    rw [e]
    exact ih _ (fun y hy => hx y (List.mem_cons_of_mem _ hy)) a3

theorem dir_slots_append (s : FS) (A B : List Nat) :
    dir_slots s (A ++ B) = dir_slots s A ++ dir_slots s B := by
  induction A with
  | nil => rfl
  | cons a A ih =>
    rw [List.cons_append]
    simp only [dir_slots]
    rw [ih, List.append_assoc]

theorem slots_from_split (s : FS) (b i n : Nat) (hi : i < n) :
    slots_from s b 0 n = slots_from s b 0 i ++ slot s b i :: slots_from s b (i + 1) (n - i - 1) := by
  unfold slots_from
  have e : n = (n - i - 1 + 1) + i := by omega
  conv_lhs => rw [e, ← List.range'_append_1]
  rw [List.map_append, Nat.zero_add, List.range'_succ, List.map_cons]

theorem slots_from_congr (s s1 : FS) (b : Nat) (i n : Nat)
    (h : ∀ k, i ≤ k → k < i + n → slot s1 b k = slot s b k) :
    slots_from s1 b i n = slots_from s b i n := by
  unfold slots_from
  apply List.map_congr_left
  intro k hk
  have := List.mem_range'_1.mp hk
  exact h k this.1 this.2

theorem dir_slots_congr (s s1 : FS) (hbs : s1.block_size = s.block_size) :
    ∀ (X : List Nat), (∀ b ∈ X, ∀ k, k < s.block_size / 64 → slot s1 b k = slot s b k) →
      dir_slots s1 X = dir_slots s X := by
  intro X
  induction X with
  | nil => intro _; rfl
  | cons b X ih =>
    intro h
    simp only [dir_slots, hbs]
    rw [ih (fun c hc => h c (List.mem_cons_of_mem _ hc)),
      slots_from_congr s s1 b 0 _ (fun k _ hk => h b (List.mem_cons_self _ _) k (by omega))]

theorem slot_write_at (s : FS) (f : File) (bj i b k : Nat) (hfb : 1 ≤ s.fat_blocks)
    (hi : i < s.block_size / 64) (hk : k < s.block_size / 64) :
    slot (write_File s (phys s bj + 64 * i) f) b k =
      if b = bj ∧ k = i then { file := f.stored, position := ((phys s bj + 64 * i : Nat) : Int) }
      else slot s b k := by
  rw [slot_write_File s _ f b k (slot_pos_cases s b k bj i hk hi)]
  have e1 := slot_end_le s.block_size i hi
  have e2 := slot_end_le s.block_size k hk
  by_cases hb : b = bj
  · subst hb
    by_cases hki : k = i
    · subst hki
      rw [if_pos rfl, if_pos ⟨rfl, rfl⟩]
    · rw [if_neg (by omega), if_neg (fun hc => hki hc.2)]
  · have := phys_disjoint s b bj (64 * k) (64 * i) hfb hb (by omega) (by omega)
    rw [if_neg this, if_neg (fun hc => hb hc.1)]

theorem upto_eod_pre (X : List Entry) :
    ∀ (P : List Entry), (∀ x ∈ P, x.file.name0 ≠ EOD_FLAG) →
      upto_eod (P ++ X) = (P ++ (upto_eod X).1, (upto_eod X).2) := by
  intro P
  induction P with
  | nil => intro _; rfl
  | cons a P ih =>
    intro h
    rw [List.cons_append, upto_eod, if_neg (h a (List.mem_cons_self _ _)),
      ih (fun y hy => h y (List.mem_cons_of_mem _ hy))]
    rfl

theorem upto_eod_cons_live (a : Entry) (X : List Entry) (h : a.file.name0 ≠ EOD_FLAG) :
    upto_eod (a :: X) = (a :: (upto_eod X).1, (upto_eod X).2) := by
  rw [upto_eod, if_neg h]

theorem upto_eod_cons_eod (a : Entry) (X : List Entry) (h : a.file.name0 = EOD_FLAG) :
    upto_eod (a :: X) = ([a], true) := by
  rw [upto_eod, if_pos h]

theorem slot_pos_div (s : FS) (bj i : Nat) (hbs : 0 < s.block_size)
    (hi : i < s.block_size / 64) :
    (phys s bj + 64 * i) / s.block_size = bj + s.fat_blocks - 1 ∧
    (phys s bj + 64 * i) % s.block_size = 64 * i := by
  have e := slot_end_le s.block_size i hi
  have hlt : 64 * i < s.block_size := by omega
  unfold phys
  constructor
  · rw [Nat.add_comm, Nat.add_mul_div_right _ _ hbs, Nat.div_eq_of_lt hlt, Nat.zero_add]
  · rw [Nat.add_comm, Nat.add_mul_mod_self_right, Nat.mod_eq_of_lt hlt]

theorem slot_last_iff (bs i : Nat) (h64 : 64 ∣ bs) (hi : i < bs / 64) :
    (64 * i + 64) % bs = 0 ↔ i + 1 = bs / 64 := by
  obtain ⟨c, hc⟩ := h64
  subst hc
  rw [Nat.mul_div_cancel_left c (by norm_num : 0 < 64)] at hi ⊢
  constructor
  · intro h
    by_contra hne
    have hlt : 64 * i + 64 < 64 * c := by omega
    rw [Nat.mod_eq_of_lt hlt] at h
    omega
  · intro h
    have : 64 * i + 64 = 64 * c := by rw [← h]; ring
    rw [this, Nat.mod_self]

theorem read_File_zero (s : FS) (p : Nat) (h : s.disk p = 0) : (read_File s p).name0 = 0 := by
  unfold File.name0 read_File read_bytes
  show ((List.range 32).map (fun k => s.disk (p + k))).headD 0 = 0
  rw [headD_map_range (fun k => s.disk (p + k)) 31]
  exact h

theorem slot_name0 (s : FS) (b k : Nat) : (slot s b k).file.name0 = s.disk (phys s b + 64 * k) := by
  unfold slot File.name0 read_File read_bytes
  show ((List.range 32).map (fun j => s.disk (phys s b + 64 * k + j))).headD 0 = _
  rw [headD_map_range (fun j => s.disk (phys s b + 64 * k + j)) 31]
  rfl

theorem slot_frame (s s1 : FS) (hbs : s1.block_size = s.block_size)
    (hfb : s1.fat_blocks = s.fat_blocks) (b k : Nat)
    (h : ∀ j, j < 48 → s1.disk (phys s b + 64 * k + j) = s.disk (phys s b + 64 * k + j)) :
    slot s1 b k = slot s b k := by
  have hp : phys s1 b = phys s b := by unfold phys; rw [hbs, hfb]
  unfold slot
  rw [hp, read_File_congr s s1 _ h]

theorem dir_slots_replace (t t4 : FS) (hbs : t4.block_size = t.block_size) (L1 L2 : List Nat)
    (bj i : Nat) (new : Entry) (hi : i < t.block_size / 64)
    (h1 : ∀ b ∈ L1, ∀ k, k < t.block_size / 64 → slot t4 b k = slot t b k)
    (h2 : ∀ b ∈ L2, ∀ k, k < t.block_size / 64 → slot t4 b k = slot t b k)
    (hk : ∀ k, k < t.block_size / 64 → k ≠ i → slot t4 bj k = slot t bj k)
    (hnew : slot t4 bj i = new) :
    dir_slots t4 (L1 ++ bj :: L2) =
      (dir_slots t L1 ++ slots_from t bj 0 i) ++
        new :: (slots_from t bj (i + 1) (t.block_size / 64 - i - 1) ++ dir_slots t L2) := by
  rw [dir_slots_append, dir_slots_congr t t4 hbs L1 h1]
  simp only [dir_slots]
  rw [dir_slots_congr t t4 hbs L2 h2, hbs, slots_from_split t4 bj i _ hi, hnew,
    slots_from_congr t t4 bj 0 i (fun k _ hk2 => hk k (by omega) (by omega)),
    slots_from_congr t t4 bj (i + 1) _ (fun k hk1 hk2 => hk k (by omega) (by omega))]
  simp only [List.append_assoc, List.cons_append]

theorem dir_slots_split (t : FS) (L1 L2 : List Nat) (bj i : Nat)
    (hi : i < t.block_size / 64) :
    dir_slots t (L1 ++ bj :: L2) =
      (dir_slots t L1 ++ slots_from t bj 0 i) ++
        slot t bj i :: (slots_from t bj (i + 1) (t.block_size / 64 - i - 1) ++ dir_slots t L2) :=
  dir_slots_replace t t rfl L1 L2 bj i _ hi (fun _ _ _ _ => rfl) (fun _ _ _ _ => rfl)
    (fun _ _ _ => rfl) rfl

theorem enum_directory_chain (fuel : Nat) (t : FS) (b : Nat) (L : List Nat)
    (hch : IsChain t.fat b L) (hlen : L.length ≤ fuel)
    (hflag : (upto_eod (dir_slots t L)).2 = true) :
    enum_directory fuel t b = some (upto_eod (dir_slots t L)).1 := by
  have h := enum_directory_eq L.length fuel t b hlen
  rw [isChain_chain_blocks t.fat L b hch] at h
  exact h hflag

theorem find_file_new (fuel : Nat) (t4 : FS) (b : Nat) (L : List Nat) (PRE TAIL : List Entry)
    (new : Entry) (nm : List Nat) (en : Nat)
    (hch : IsChain t4.fat b L) (hlen : L.length ≤ fuel + 1)
    (hall : dir_slots t4 L = PRE ++ new :: TAIL)
    (hpre : ∀ x ∈ PRE, x.file.name0 ≠ EOD_FLAG ∧ cstr x.file.name ≠ cstr nm)
    (hnm : nm.headD 0 ≠ EOD_FLAG) (h0 : new.file.name0 ≠ EOD_FLAG)
    (hname : cstr new.file.name = cstr nm) (htail : (upto_eod TAIL).2 = true) :
    find_file (fuel + 1) t4 (some nm) b SKIP_NONE en = some (new, en) := by
  have hu : upto_eod (dir_slots t4 L) = (PRE ++ new :: (upto_eod TAIL).1, true) := by
    rw [hall, upto_eod_pre _ PRE (fun x hx => (hpre x hx).1), upto_eod_cons_live new TAIL h0,
      htail]
  have he := enum_directory_chain (fuel + 1) t4 b L hch hlen (by rw [hu])
  rw [hu] at he
  rw [find_file]
  simp only [he]
  exact find_scan_hit _ nm new _ en hnm h0 hname PRE hpre

theorem enum_new (fuel : Nat) (t4 : FS) (b : Nat) (L : List Nat) (PRE TAIL : List Entry)
    (new : Entry)
    (hch : IsChain t4.fat b L) (hlen : L.length ≤ fuel + 1)
    (hall : dir_slots t4 L = PRE ++ new :: TAIL)
    (hpre : ∀ x ∈ PRE, x.file.name0 ≠ EOD_FLAG)
    (h0 : new.file.name0 ≠ EOD_FLAG) (htail : (upto_eod TAIL).2 = true) :
    enum_directory (fuel + 1) t4 b = some (PRE ++ new :: (upto_eod TAIL).1) := by
  have hu : upto_eod (dir_slots t4 L) = (PRE ++ new :: (upto_eod TAIL).1, true) := by
    rw [hall, upto_eod_pre _ PRE hpre, upto_eod_cons_live new TAIL h0, htail]
  have he := enum_directory_chain (fuel + 1) t4 b L hch hlen (by rw [hu])
  rw [hu] at he
  exact he

theorem live_count_append (A B : List Entry) :
    live_count (A ++ B) = live_count A + live_count B := by
  unfold live_count
  rw [List.filter_append, List.length_append]

theorem live_count_cons (a : Entry) (B : List Entry) :
    live_count (a :: B) = (if live a then 1 else 0) + live_count B := by
  unfold live_count
  rw [List.filter_cons]
  by_cases h : live a = true
  · rw [if_pos h, if_pos h, List.length_cons]; omega
  · rw [if_neg h, if_neg h]; omega

theorem live_iff (a : Entry) :
    live a = true ↔ a.file.name0 ≠ EOD_FLAG ∧ a.file.name0 ≠ CLEANED_FLAG ∧
      a.file.name0 ≠ REMOVED_FLAG := by
  unfold live
  simp

theorem live_count_all (A : List Entry)
    (h : ∀ x ∈ A, x.file.name0 ≠ EOD_FLAG ∧ x.file.name0 ≠ CLEANED_FLAG ∧
      x.file.name0 ≠ REMOVED_FLAG) : live_count A = A.length := by
  unfold live_count
  rw [List.filter_eq_self.2 (fun x hx => (live_iff x).2 (h x hx))]

theorem find_file_reusable (fuel : Nat) (t : FS) (b : Nat) (L : List Nat)
    (PRE TAIL : List Entry) (r : Entry) (en : Nat)
    (hch : IsChain t.fat b L) (hlen : L.length ≤ fuel + 1)
    (hall : dir_slots t L = PRE ++ r :: TAIL)
    (hpre : ∀ x ∈ PRE, x.file.name0 ≠ EOD_FLAG ∧ x.file.name0 ≠ CLEANED_FLAG ∧
      x.file.name0 ≠ REMOVED_FLAG)
    (hr : r.file.name0 = EOD_FLAG ∨ r.file.name0 = CLEANED_FLAG ∨ r.file.name0 = REMOVED_FLAG)
    (hflag : (upto_eod (r :: TAIL)).2 = true) :
    find_file (fuel + 1) t (some []) b SKIP_ALL en = some (r, en) := by
  have hu : upto_eod (dir_slots t L) = (PRE ++ (upto_eod (r :: TAIL)).1, true) := by
    rw [hall, upto_eod_pre _ PRE (fun x hx => (hpre x hx).1), hflag]
  have he := enum_directory_chain (fuel + 1) t b L hch hlen (by rw [hu])
  rw [hu] at he
  rw [find_file]
  simp only [he]
  have hsplit : ∃ rest, (upto_eod (r :: TAIL)).1 = r :: rest := by
    by_cases h0 : r.file.name0 = EOD_FLAG
    · exact ⟨[], by rw [upto_eod_cons_eod r TAIL h0]⟩
    · exact ⟨(upto_eod TAIL).1, by rw [upto_eod_cons_live r TAIL h0]⟩
  obtain ⟨rest, hrest⟩ := hsplit
  rw [hrest]
  exact find_scan_empty _ SKIP_ALL r rest en hr PRE hpre

theorem find_file_absent (fuel : Nat) (t : FS) (b : Nat) (L : List Nat) (nm : List Nat)
    (skip_flag en : Nat) (hch : IsChain t.fat b L) (hlen : L.length ≤ fuel + 1)
    (hflag : (upto_eod (dir_slots t L)).2 = true)
    (hno : ∀ x ∈ (upto_eod (dir_slots t L)).1, cstr x.file.name ≠ cstr nm)
    (hnm : nm.headD 0 ≠ EOD_FLAG) :
    ∃ z ∈ (upto_eod (dir_slots t L)).1,
      find_file (fuel + 1) t (some nm) b skip_flag en = some (z, en) ∧
      z.file.name0 = EOD_FLAG := by
  have he := enum_directory_chain (fuel + 1) t b L hch hlen hflag
  rw [find_file]
  simp only [he]
  exact find_scan_eod _ nm skip_flag hnm _ en hno
    (upto_eod_has_eod (dir_slots t L) _ (by rw [← hflag]))

theorem errno_self (t : FS) : ({ t with errno := t.errno } : FS) = t := rfl

theorem add_file_eval (fuel : Nat) (t : FS) (f : File) (b bj i : Nat)
    (hbs : 0 < t.block_size) (hi : i < t.block_size / 64)
    (hfind : find_file (fuel + 1) t (some []) b SKIP_ALL t.errno = some (slot t bj i, t.errno)) :
    add_file (fuel + 1) t f b =
      if (64 * i + 64) % t.block_size = 0 ∧ t.fat (bj + t.fat_blocks - 1) = LAST_BLOCK then
        if (extend_data t (bj + t.fat_blocks - 1)).1 = 0 then
          some (-1, (extend_data t (bj + t.fat_blocks - 1)).2)
        else some (((phys t bj + 64 * i : Nat) : Int),
          write_File (extend_data t (bj + t.fat_blocks - 1)).2 (phys t bj + 64 * i) f)
      else some (((phys t bj + 64 * i : Nat) : Int), write_File t (phys t bj + 64 * i) f) := by
  obtain ⟨d1, d2⟩ := slot_pos_div t bj i hbs hi
  unfold add_file
  rw [hfind]
  have hp : (slot t bj i).position = ((phys t bj + 64 * i : Nat) : Int) := rfl
  simp only [hp, Int.toNat_ofNat, errno_self, d1, d2]
  rw [if_neg (by omega)]

theorem plain_post (fuel : Nat) (t : FS) (f : File) (b : Nat) (L1 L2 : List Nat)
    (bj i : Nat) (nm : List Nat) (en : Nat)
    (hfb : 1 ≤ t.fat_blocks)
    (hch : IsChain t.fat b (L1 ++ bj :: L2)) (hnd : (L1 ++ bj :: L2).Nodup)
    (hfuel : (L1 ++ bj :: L2).length ≤ fuel + 1)
    (hi : i < t.block_size / 64)
    (hpre : ∀ x ∈ dir_slots t L1 ++ slots_from t bj 0 i,
      x.file.name0 ≠ EOD_FLAG ∧ cstr x.file.name ≠ cstr nm)
    (htail : (upto_eod (slots_from t bj (i + 1) (t.block_size / 64 - i - 1) ++
      dir_slots t L2)).2 = true)
    (hnm : nm.headD 0 ≠ EOD_FLAG) (hf0 : f.name0 ≠ EOD_FLAG)
    (hfn : cstr f.stored.name = cstr nm) :
    find_file (fuel + 1) (write_File t (phys t bj + 64 * i) f) (some nm) b SKIP_NONE en =
      some ({ file := f.stored, position := ((phys t bj + 64 * i : Nat) : Int) }, en) := by
  have hnd2 := List.nodup_append.mp hnd
  have hbj1 : bj ∉ L1 := fun h => hnd2.2.2 h (List.mem_cons_self _ _)
  have hbj2 : bj ∉ L2 := (List.nodup_cons.mp hnd2.2.1).1
  have hsl : ∀ b1 k, k < t.block_size / 64 →
      slot (write_File t (phys t bj + 64 * i) f) b1 k =
        if b1 = bj ∧ k = i then
          { file := f.stored, position := ((phys t bj + 64 * i : Nat) : Int) }
        else slot t b1 k := fun b1 k hk => slot_write_at t f bj i b1 k hfb hi hk
  have hall := dir_slots_replace t (write_File t (phys t bj + 64 * i) f) rfl L1 L2 bj i
    { file := f.stored, position := ((phys t bj + 64 * i : Nat) : Int) } hi
    (fun b1 hb1 k hk => by
      rw [hsl b1 k hk, if_neg (fun hc => hbj1 (by rw [← hc.1]; exact hb1))])
    (fun b1 hb1 k hk => by
      rw [hsl b1 k hk, if_neg (fun hc => hbj2 (by rw [← hc.1]; exact hb1))])
    (fun k hk hne => by rw [hsl bj k hk, if_neg (fun hc => hne hc.2)])
    (by rw [hsl bj i hi, if_pos ⟨rfl, rfl⟩])
  exact find_file_new fuel _ b _ _ _ _ nm en hch hfuel hall hpre hnm
    (by rw [stored_name0]; exact hf0) hfn htail

theorem extended_post (fuel : Nat) (t te : FS) (f : File) (b : Nat) (L1 : List Nat)
    (bj i j1 : Nat) (nm : List Nat) (en : Nat)
    (hv : ValidConfig t)
    (hte_bs : te.block_size = t.block_size) (hte_fb : te.fat_blocks = t.fat_blocks)
    (hte_fat : ∀ x, te.fat x = if x = j1 then LAST_BLOCK else if x = bj then j1 else t.fat x)
    (hte_disk : ∀ a, te.disk a =
      if phys t j1 ≤ a ∧ a < phys t j1 + t.block_size then 0 else t.disk a)
    (hch : IsChain t.fat b (L1 ++ [bj])) (hnd : (L1 ++ [bj]).Nodup)
    (hnz : ∀ x ∈ L1 ++ [bj], t.fat x ≠ FREE_BLOCK)
    (hfuel : (L1 ++ [bj]).length ≤ fuel)
    (hi : i + 1 = t.block_size / 64)
    (hj : IsFirstFree t j1)
    (hpre : ∀ x ∈ dir_slots t L1 ++ slots_from t bj 0 i,
      x.file.name0 ≠ EOD_FLAG ∧ cstr x.file.name ≠ cstr nm)
    (hnm : nm.headD 0 ≠ EOD_FLAG) (hf0 : f.name0 ≠ EOD_FLAG)
    (hfn : cstr f.stored.name = cstr nm) :
    find_file (fuel + 1) (write_File te (phys t bj + 64 * i) f) (some nm) b SKIP_NONE en =
      some ({ file := f.stored, position := ((phys t bj + 64 * i : Nat) : Int) }, en) := by
  obtain ⟨hbs, h64, hfb, hdb⟩ := hv
  obtain ⟨hj1, hj2, hj3, _⟩ := hj
  have hjL : ∀ x ∈ L1 ++ [bj], x ≠ j1 := by
    intro x hx e
    rw [e] at hx
    exact hnz j1 hx hj3
  have hjl : j1 ≠ LAST_BLOCK := by
    have : j1 < LAST_BLOCK := lt_of_le_of_lt hj2 hdb
    omega
  have hnd2 := List.nodup_append.mp hnd
  have hbj1 : bj ∉ L1 := fun h => hnd2.2.2 h (List.mem_cons_self _ _)
  have hbjj : bj ≠ j1 := hjL bj (by simp)
  have hpt : ∀ x, phys te x = phys t x := by intro x; unfold phys; rw [hte_bs, hte_fb]
  have hi2 : i < t.block_size / 64 := by omega
  have hi3 : i < te.block_size / 64 := by rw [hte_bs]; exact hi2
  have hfb3 : 1 ≤ te.fat_blocks := by rw [hte_fb]; exact hfb
  -- the chain
  have hch2 : IsChain te.fat b (L1 ++ [bj, j1]) := by
    refine isChain_extend t.fat te.fat bj j1 hjl ?_ ?_ L1 b ?_ hch
    · rw [hte_fat, if_neg hbjj, if_pos rfl]
    · rw [hte_fat, if_pos rfl]
    · intro x hx
      rw [hte_fat, if_neg (hjL x (List.mem_append_left _ hx)),
        if_neg (fun e => hbj1 (by rw [← e]; exact hx))]
  -- the slots of the blocks other than the new one
  have hold : ∀ x, x ≠ j1 → ∀ k, k < t.block_size / 64 → slot te x k = slot t x k := by
    intro x hx k hk
    refine slot_frame t te hte_bs hte_fb x k ?_
    intro j hj
    rw [hte_disk, if_neg]
    rintro ⟨a1, a2⟩
    have e := slot_end_le t.block_size k hk
    have := phys_disjoint t x j1 (64 * k + j) (phys t x + 64 * k + j - phys t j1) hfb hx
      (by omega) (by omega)
    omega
  have hsl : ∀ b1 k, k < t.block_size / 64 →
      slot (write_File te (phys t bj + 64 * i) f) b1 k =
        if b1 = bj ∧ k = i then
          { file := f.stored, position := ((phys t bj + 64 * i : Nat) : Int) }
        else slot te b1 k := by
    intro b1 k hk
    have := slot_write_at te f bj i b1 k hfb3 hi3 (by rw [hte_bs]; exact hk)
    rw [hpt] at this
    exact this
  have hall := dir_slots_replace te (write_File te (phys t bj + 64 * i) f) rfl L1 [j1] bj i
    { file := f.stored, position := ((phys t bj + 64 * i : Nat) : Int) } hi3
    (fun b1 hb1 k hk => by
      rw [hsl b1 k (by rw [← hte_bs]; exact hk),
        if_neg (fun hc => hbj1 (by rw [← hc.1]; exact hb1))])
    (fun b1 hb1 k hk => by
      rw [hsl b1 k (by rw [← hte_bs]; exact hk),
        if_neg (fun hc => hbjj (by rw [← hc.1]; exact (List.mem_singleton.mp hb1)))])
    (fun k hk hne => by
      rw [hsl bj k (by rw [← hte_bs]; exact hk), if_neg (fun hc => hne hc.2)])
    (by rw [hsl bj i hi2, if_pos ⟨rfl, rfl⟩])
  have hP : dir_slots te L1 ++ slots_from te bj 0 i = dir_slots t L1 ++ slots_from t bj 0 i := by
    rw [dir_slots_congr t te hte_bs L1
        (fun x hx k hk => hold x (hjL x (List.mem_append_left _ hx)) k hk),
      slots_from_congr t te bj 0 i (fun k _ hk => hold bj hbjj k (by omega))]
  rw [hP] at hall
  refine find_file_new fuel _ b (L1 ++ bj :: [j1]) _ _ _ nm en hch2 ?_ hall hpre hnm
    (by rw [stored_name0]; exact hf0) hfn ?_
  · simp only [List.length_append, List.length_cons, List.length_nil] at hfuel ⊢
    omega
  · have hn : te.block_size / 64 - i - 1 = 0 := by rw [hte_bs]; omega
    have hn1 : te.block_size / 64 = (te.block_size / 64 - 1) + 1 := by rw [hte_bs]; omega
    rw [hn]
    simp only [slots_from, List.range'_zero, List.map_nil, List.nil_append, dir_slots,
      List.append_nil]
    rw [hn1, List.range'_succ, List.map_cons]
    rw [upto_eod_cons_eod]
    rw [slot_name0, hte_disk, if_pos]
    rw [hpt]
    exact ⟨by omega, by omega⟩

theorem plain_enum (fuel : Nat) (t : FS) (f : File) (b : Nat) (L1 L2 : List Nat)
    (bj i : Nat) (hfb : 1 ≤ t.fat_blocks)
    (hch : IsChain t.fat b (L1 ++ bj :: L2)) (hnd : (L1 ++ bj :: L2).Nodup)
    (hfuel : (L1 ++ bj :: L2).length ≤ fuel + 1)
    (hi : i < t.block_size / 64)
    (hpre : ∀ x ∈ dir_slots t L1 ++ slots_from t bj 0 i, x.file.name0 ≠ EOD_FLAG)
    (htail : (upto_eod (slots_from t bj (i + 1) (t.block_size / 64 - i - 1) ++
      dir_slots t L2)).2 = true)
    (hf0 : f.name0 ≠ EOD_FLAG) :
    enum_directory (fuel + 1) (write_File t (phys t bj + 64 * i) f) b =
      some ((dir_slots t L1 ++ slots_from t bj 0 i) ++
        { file := f.stored, position := ((phys t bj + 64 * i : Nat) : Int) } ::
          (upto_eod (slots_from t bj (i + 1) (t.block_size / 64 - i - 1) ++
            dir_slots t L2)).1) := by
  have hnd2 := List.nodup_append.mp hnd
  have hbj1 : bj ∉ L1 := fun h => hnd2.2.2 h (List.mem_cons_self _ _)
  have hbj2 : bj ∉ L2 := (List.nodup_cons.mp hnd2.2.1).1
  have hsl : ∀ b1 k, k < t.block_size / 64 →
      slot (write_File t (phys t bj + 64 * i) f) b1 k =
        if b1 = bj ∧ k = i then
          { file := f.stored, position := ((phys t bj + 64 * i : Nat) : Int) }
        else slot t b1 k := fun b1 k hk => slot_write_at t f bj i b1 k hfb hi hk
  have hall := dir_slots_replace t (write_File t (phys t bj + 64 * i) f) rfl L1 L2 bj i
    { file := f.stored, position := ((phys t bj + 64 * i : Nat) : Int) } hi
    (fun b1 hb1 k hk => by
      rw [hsl b1 k hk, if_neg (fun hc => hbj1 (by rw [← hc.1]; exact hb1))])
    (fun b1 hb1 k hk => by
      rw [hsl b1 k hk, if_neg (fun hc => hbj2 (by rw [← hc.1]; exact hb1))])
    (fun k hk hne => by rw [hsl bj k hk, if_neg (fun hc => hne hc.2)])
    (by rw [hsl bj i hi, if_pos ⟨rfl, rfl⟩])
  exact enum_new fuel _ b _ _ _ _ hch hfuel hall hpre
    (by rw [stored_name0]; exact hf0) htail


theorem extended_enum (fuel : Nat) (t te : FS) (f : File) (b : Nat) (L1 : List Nat)
    (bj i j1 : Nat)
    (hv : ValidConfig t)
    (hte_bs : te.block_size = t.block_size) (hte_fb : te.fat_blocks = t.fat_blocks)
    (hte_fat : ∀ x, te.fat x = if x = j1 then LAST_BLOCK else if x = bj then j1 else t.fat x)
    (hte_disk : ∀ a, te.disk a =
      if phys t j1 ≤ a ∧ a < phys t j1 + t.block_size then 0 else t.disk a)
    (hch : IsChain t.fat b (L1 ++ [bj])) (hnd : (L1 ++ [bj]).Nodup)
    (hnz : ∀ x ∈ L1 ++ [bj], t.fat x ≠ FREE_BLOCK)
    (hfuel : (L1 ++ [bj]).length ≤ fuel)
    (hi : i + 1 = t.block_size / 64)
    (hj : IsFirstFree t j1)
    (hpre : ∀ x ∈ dir_slots t L1 ++ slots_from t bj 0 i, x.file.name0 ≠ EOD_FLAG)
    (hf0 : f.name0 ≠ EOD_FLAG) :
    ∃ T, enum_directory (fuel + 1) (write_File te (phys t bj + 64 * i) f) b =
      some ((dir_slots t L1 ++ slots_from t bj 0 i) ++
        { file := f.stored, position := ((phys t bj + 64 * i : Nat) : Int) } :: T) ∧
      live_count T = 0 := by
  obtain ⟨hbs, h64, hfb, hdb⟩ := hv
  obtain ⟨hj1, hj2, hj3, _⟩ := hj
  have hjL : ∀ x ∈ L1 ++ [bj], x ≠ j1 := by
    intro x hx e
    rw [e] at hx
    exact hnz j1 hx hj3
  have hjl : j1 ≠ LAST_BLOCK := by
    have : j1 < LAST_BLOCK := lt_of_le_of_lt hj2 hdb
    omega
  have hnd2 := List.nodup_append.mp hnd
  have hbj1 : bj ∉ L1 := fun h => hnd2.2.2 h (List.mem_cons_self _ _)
  have hbjj : bj ≠ j1 := hjL bj (by simp)
  have hpt : ∀ x, phys te x = phys t x := by intro x; unfold phys; rw [hte_bs, hte_fb]
  have hi2 : i < t.block_size / 64 := by omega
  have hi3 : i < te.block_size / 64 := by rw [hte_bs]; exact hi2
  have hfb3 : 1 ≤ te.fat_blocks := by rw [hte_fb]; exact hfb
  -- the chain
  have hch2 : IsChain te.fat b (L1 ++ [bj, j1]) := by
    refine isChain_extend t.fat te.fat bj j1 hjl ?_ ?_ L1 b ?_ hch
    · rw [hte_fat, if_neg hbjj, if_pos rfl]
    · rw [hte_fat, if_pos rfl]
    · intro x hx
      rw [hte_fat, if_neg (hjL x (List.mem_append_left _ hx)),
        if_neg (fun e => hbj1 (by rw [← e]; exact hx))]
  -- the slots of the blocks other than the new one
  have hold : ∀ x, x ≠ j1 → ∀ k, k < t.block_size / 64 → slot te x k = slot t x k := by
    intro x hx k hk
    refine slot_frame t te hte_bs hte_fb x k ?_
    intro j hj
    rw [hte_disk, if_neg]
    rintro ⟨a1, a2⟩
    have e := slot_end_le t.block_size k hk
    have := phys_disjoint t x j1 (64 * k + j) (phys t x + 64 * k + j - phys t j1) hfb hx
      (by omega) (by omega)
    omega
  have hsl : ∀ b1 k, k < t.block_size / 64 →
      slot (write_File te (phys t bj + 64 * i) f) b1 k =
        if b1 = bj ∧ k = i then
          { file := f.stored, position := ((phys t bj + 64 * i : Nat) : Int) }
        else slot te b1 k := by
    intro b1 k hk
    have := slot_write_at te f bj i b1 k hfb3 hi3 (by rw [hte_bs]; exact hk)
    rw [hpt] at this
    exact this
  have hall := dir_slots_replace te (write_File te (phys t bj + 64 * i) f) rfl L1 [j1] bj i
    { file := f.stored, position := ((phys t bj + 64 * i : Nat) : Int) } hi3
    (fun b1 hb1 k hk => by
      rw [hsl b1 k (by rw [← hte_bs]; exact hk),
        if_neg (fun hc => hbj1 (by rw [← hc.1]; exact hb1))])
    (fun b1 hb1 k hk => by
      rw [hsl b1 k (by rw [← hte_bs]; exact hk),
        if_neg (fun hc => hbjj (by rw [← hc.1]; exact (List.mem_singleton.mp hb1)))])
    (fun k hk hne => by
      rw [hsl bj k (by rw [← hte_bs]; exact hk), if_neg (fun hc => hne hc.2)])
    (by rw [hsl bj i hi2, if_pos ⟨rfl, rfl⟩])
  have hP : dir_slots te L1 ++ slots_from te bj 0 i = dir_slots t L1 ++ slots_from t bj 0 i := by
    rw [dir_slots_congr t te hte_bs L1
        (fun x hx k hk => hold x (hjL x (List.mem_append_left _ hx)) k hk),
      slots_from_congr t te bj 0 i (fun k _ hk => hold bj hbjj k (by omega))]
  rw [hP] at hall
  have hz0 : (slot te j1 0).file.name0 = EOD_FLAG := by
    rw [slot_name0, hte_disk, if_pos]
    rw [hpt]
    exact ⟨by omega, by omega⟩
  have htl : upto_eod (slots_from te bj (i + 1) (te.block_size / 64 - i - 1) ++
      dir_slots te [j1]) = ([slot te j1 0], true) := by
    have hn : te.block_size / 64 - i - 1 = 0 := by rw [hte_bs]; omega
    have hn1 : te.block_size / 64 = (te.block_size / 64 - 1) + 1 := by rw [hte_bs]; omega
    rw [hn]
    simp only [slots_from, List.range'_zero, List.map_nil, List.nil_append, dir_slots,
      List.append_nil]
    rw [hn1, List.range'_succ, List.map_cons]
    exact upto_eod_cons_eod _ _ hz0
  have he := enum_new fuel (write_File te (phys t bj + 64 * i) f) b (L1 ++ bj :: [j1]) _ _ _ hch2
    (by
      simp only [List.length_append, List.length_cons, List.length_nil] at hfuel ⊢
      omega)
    hall hpre (by rw [stored_name0]; exact hf0) (by rw [htl])
  rw [htl] at he
  refine ⟨[slot te j1 0], he, ?_⟩
  rw [live_count_cons, if_neg]
  · rfl
  · rw [live_iff]
    exact fun hc => hc.1 hz0


theorem add_file_post (fuel : Nat) (t : FS) (f : File) (b : Nat) (L1 L2 : List Nat)
    (bj i : Nat) (nm : List Nat)
    (hv : ValidConfig t)
    (hch : IsChain t.fat b (L1 ++ bj :: L2)) (hnd : (L1 ++ bj :: L2).Nodup)
    (hnz : ∀ x ∈ L1 ++ bj :: L2, x ≠ 0 ∧ t.fat x ≠ FREE_BLOCK)
    (hfuel : (L1 ++ bj :: L2).length ≤ fuel)
    (hi : i < t.block_size / 64)
    (hpre : ∀ x ∈ dir_slots t L1 ++ slots_from t bj 0 i,
      (x.file.name0 ≠ EOD_FLAG ∧ x.file.name0 ≠ CLEANED_FLAG ∧ x.file.name0 ≠ REMOVED_FLAG) ∧
      cstr x.file.name ≠ cstr nm)
    (hr : (slot t bj i).file.name0 = EOD_FLAG ∨ (slot t bj i).file.name0 = CLEANED_FLAG ∨
      (slot t bj i).file.name0 = REMOVED_FLAG)
    (hpost : (slot t bj i).file.name0 ≠ EOD_FLAG →
      (upto_eod (slots_from t bj (i + 1) (t.block_size / 64 - i - 1) ++
        dir_slots t L2)).2 = true)
    (heod : (slot t bj i).file.name0 = EOD_FLAG →
      L2 = [] ∧ (i + 1 < t.block_size / 64 → (slot t bj (i + 1)).file.name0 = EOD_FLAG))
    (hslip : t.fat_blocks = 1 ∨ i + 1 < t.block_size / 64)
    (hfree : (slot t bj i).file.name0 = EOD_FLAG → i + 1 = t.block_size / 64 → HasFree t)
    (hnm : nm.headD 0 ≠ EOD_FLAG) (hf0 : f.name0 ≠ EOD_FLAG)
    (hfn : cstr f.stored.name = cstr nm) :
    ∃ t4, add_file (fuel + 1) t f b = some (((phys t bj + 64 * i : Nat) : Int), t4) ∧
      t4.block_size = t.block_size ∧ t4.fat_blocks = t.fat_blocks ∧
      (∀ en, find_file (fuel + 1) t4 (some nm) b SKIP_NONE en =
        some ({ file := f.stored, position := ((phys t bj + 64 * i : Nat) : Int) }, en)) ∧
      (∀ a, (a < phys t bj + 64 * i ∨ phys t bj + 64 * i + 48 ≤ a) →
        (∀ j, 1 ≤ j → t.fat j = FREE_BLOCK → ¬ InBlock t j a) → t4.disk a = t.disk a) ∧
      (∀ y, y ≠ bj → t.fat y ≠ FREE_BLOCK → t4.fat y = t.fat y) ∧
      (∃ T, enum_directory (fuel + 1) t4 b =
          some ((dir_slots t L1 ++ slots_from t bj 0 i) ++
            { file := f.stored, position := ((phys t bj + 64 * i : Nat) : Int) } :: T) ∧
        live_count T = if (slot t bj i).file.name0 = EOD_FLAG then 0
          else live_count (upto_eod (slots_from t bj (i + 1) (t.block_size / 64 - i - 1) ++
            dir_slots t L2)).1) := by
  have hv2 := hv
  obtain ⟨hbs, h64, hfb, hdb⟩ := hv2
  have hall := dir_slots_split t L1 L2 bj i hi
  have hflag : (upto_eod (slot t bj i :: (slots_from t bj (i + 1) (t.block_size / 64 - i - 1) ++
      dir_slots t L2))).2 = true := by
    by_cases h0 : (slot t bj i).file.name0 = EOD_FLAG
    · rw [upto_eod_cons_eod _ _ h0]
    · rw [upto_eod_cons_live _ _ h0]; exact hpost h0
  have hfind := find_file_reusable fuel t b _ _ _ _ t.errno hch (by omega) hall
    (fun x hx => (hpre x hx).1) hr hflag
  have hpre2 : ∀ x ∈ dir_slots t L1 ++ slots_from t bj 0 i,
      x.file.name0 ≠ EOD_FLAG ∧ cstr x.file.name ≠ cstr nm :=
    fun x hx => ⟨(hpre x hx).1.1, (hpre x hx).2⟩
  rw [add_file_eval fuel t f b bj i hbs hi hfind]
  have hsplit := isChain_split t.fat bj L2 L1 b hch
  -- the case without a new block
  have plain : ((64 * i + 64) % t.block_size = 0 ∧ t.fat (bj + t.fat_blocks - 1) = LAST_BLOCK →
      False) → ∃ t4, (if (64 * i + 64) % t.block_size = 0 ∧
        t.fat (bj + t.fat_blocks - 1) = LAST_BLOCK then
        if (extend_data t (bj + t.fat_blocks - 1)).1 = 0 then
          some (-1, (extend_data t (bj + t.fat_blocks - 1)).2)
        else some (((phys t bj + 64 * i : Nat) : Int),
          write_File (extend_data t (bj + t.fat_blocks - 1)).2 (phys t bj + 64 * i) f)
      else some (((phys t bj + 64 * i : Nat) : Int), write_File t (phys t bj + 64 * i) f)) =
        some (((phys t bj + 64 * i : Nat) : Int), t4) ∧
      t4.block_size = t.block_size ∧ t4.fat_blocks = t.fat_blocks ∧
      (∀ en, find_file (fuel + 1) t4 (some nm) b SKIP_NONE en =
        some ({ file := f.stored, position := ((phys t bj + 64 * i : Nat) : Int) }, en)) ∧
      (∀ a, (a < phys t bj + 64 * i ∨ phys t bj + 64 * i + 48 ≤ a) →
        (∀ j, 1 ≤ j → t.fat j = FREE_BLOCK → ¬ InBlock t j a) → t4.disk a = t.disk a) ∧
      (∀ y, y ≠ bj → t.fat y ≠ FREE_BLOCK → t4.fat y = t.fat y) ∧
      (∃ T, enum_directory (fuel + 1) t4 b =
          some ((dir_slots t L1 ++ slots_from t bj 0 i) ++
            { file := f.stored, position := ((phys t bj + 64 * i : Nat) : Int) } :: T) ∧
        live_count T = if (slot t bj i).file.name0 = EOD_FLAG then 0
          else live_count (upto_eod (slots_from t bj (i + 1) (t.block_size / 64 - i - 1) ++
            dir_slots t L2)).1) := by
    intro hc
    rw [if_neg hc]
    have hlastc : (slot t bj i).file.name0 = EOD_FLAG → i + 1 < t.block_size / 64 := by
      intro h0
      obtain ⟨hL2, hnext⟩ := heod h0
      by_contra hlast
      apply hc
      have hi1 : i + 1 = t.block_size / 64 := by omega
      refine ⟨(slot_last_iff t.block_size i h64 hi).mpr hi1, ?_⟩
      rcases hslip with h1 | h1
      · subst hL2
        have := hsplit.2
        rw [h1]
        simp only [Nat.add_sub_cancel]
        exact this
      · omega
    have htl0 : (slot t bj i).file.name0 = EOD_FLAG →
        upto_eod (slots_from t bj (i + 1) (t.block_size / 64 - i - 1) ++ dir_slots t L2) =
          ([slot t bj (i + 1)], true) := by
      intro h0
      have hlast := hlastc h0
      have hn : t.block_size / 64 - i - 1 = (t.block_size / 64 - i - 2) + 1 := by omega
      rw [hn]
      simp only [slots_from, List.range'_succ, List.map_cons, List.cons_append]
      exact upto_eod_cons_eod _ _ ((heod h0).2 hlast)
    have htail : (upto_eod (slots_from t bj (i + 1) (t.block_size / 64 - i - 1) ++
        dir_slots t L2)).2 = true := by
      by_cases h0 : (slot t bj i).file.name0 = EOD_FLAG
      · rw [htl0 h0]
      · exact hpost h0
    refine ⟨_, rfl, rfl, rfl, ?_, ?_, ?_, ?_⟩
    · intro en
      exact plain_post fuel t f b L1 L2 bj i nm en hfb hch hnd (by omega) hi hpre2 htail hnm
        hf0 hfn
    · intro a ha _
      exact write_File_disk_out t _ f a ha
    · intro y _ _
      rfl
    · refine ⟨_, plain_enum fuel t f b L1 L2 bj i hfb hch hnd (by omega) hi
        (fun x hx => (hpre2 x hx).1) htail hf0, ?_⟩
      by_cases h0 : (slot t bj i).file.name0 = EOD_FLAG
      · rw [if_pos h0, htl0 h0, live_count_cons, if_neg]
        · rfl
        · rw [live_iff]
          exact fun hcc => hcc.1 ((heod h0).2 (hlastc h0))
      · rw [if_neg h0]
  by_cases hcond : (64 * i + 64) % t.block_size = 0 ∧ t.fat (bj + t.fat_blocks - 1) = LAST_BLOCK
  · -- a block is added: the slot is the EOD slot, the last of the chain
    have hi1 : i + 1 = t.block_size / 64 := (slot_last_iff t.block_size i h64 hi).mp hcond.1
    have hF : t.fat_blocks = 1 := by
      rcases hslip with h1 | h1
      · exact h1
      · omega
    have hfat : t.fat bj = LAST_BLOCK := by
      have := hcond.2
      rw [hF] at this
      simpa using this
    have hL2 : L2 = [] := by
      have := hsplit.2
      rw [hfat] at this
      exact isChain_last_nil _ _ this
    subst hL2
    have h0 : (slot t bj i).file.name0 = EOD_FLAG := by
      by_contra h0
      have := hpost h0
      have hn : t.block_size / 64 - i - 1 = 0 := by omega
      rw [hn] at this
      simp [slots_from, dir_slots, upto_eod] at this
    have hhas := hfree h0 hi1
    rw [if_pos hcond]
    have hFs : bj + t.fat_blocks - 1 = bj := by rw [hF]; rfl
    rw [hFs]
    rcases extend_data_cases t bj with ⟨hn, _⟩ | ⟨j1, hj, he⟩
    · exact absurd hhas hn
    · have hne0 : ¬ (extend_data t bj).1 = 0 := by
        rw [he]
        have := hj.1
        show ¬ j1 = 0
        omega
      rw [if_neg hne0, he]
      have hbj0 : bj ≠ 0 := (hnz bj (by simp)).1
      have hfatx : ∀ x, (if x = j1 then LAST_BLOCK else if bj ≠ 0 ∧ x = bj then j1 else t.fat x) =
          if x = j1 then LAST_BLOCK else if x = bj then j1 else t.fat x := by
        intro x
        by_cases e1 : x = j1
        · rw [if_pos e1, if_pos e1]
        · rw [if_neg e1, if_neg e1]
          by_cases e2 : x = bj
          · rw [if_pos ⟨hbj0, e2⟩, if_pos e2]
          · rw [if_neg (fun hc => e2 hc.2), if_neg e2]
      refine ⟨_, rfl, rfl, rfl, ?_, ?_, ?_, ?_⟩
      · intro en
        exact extended_post fuel t _ f b L1 bj i j1 nm en hv rfl rfl hfatx (fun _ => rfl) hch hnd
          (fun x hx => (hnz x hx).2) hfuel hi1 hj hpre2 hnm hf0 hfn
      · intro a ha hfr
        rw [write_File_disk_out _ _ f a ha]
        show (if phys t j1 ≤ a ∧ a < phys t j1 + t.block_size then 0 else t.disk a) = t.disk a
        rw [if_neg]
        intro hc
        exact hfr j1 hj.1 hj.2.2.1 hc
      · intro y hy1 hy2
        show (if y = j1 then LAST_BLOCK else if bj ≠ 0 ∧ y = bj then j1 else t.fat y) = _
        rw [if_neg (fun e => hy2 (by rw [e]; exact hj.2.2.1)), if_neg (fun hc => hy1 hc.2)]
      · rw [if_pos h0]
        exact extended_enum fuel t _ f b L1 bj i j1 hv rfl rfl hfatx
          (fun _ => rfl) hch hnd (fun x hx => (hnz x hx).2) hfuel hi1 hj
          (fun x hx => (hpre2 x hx).1) hf0
  · exact plain (fun h => hcond h)

theorem split_path_name_token (path_str nm : List Nat)
    (h : (split_path path_str).name = some nm) : nm ≠ [] ∧ ∀ c ∈ nm, c ≠ 0 := by
  have hm : nm ∈ tokens path_str := by
    simp only [split_path] at h
    exact List.mem_of_getLast?_eq_some h
  have hc : ∀ c ∈ cstr path_str, c ≠ 0 := by
    intro c hc
    have := List.mem_takeWhile_imp hc
    simpa using this
  exact tokens_aux_ne (cstr path_str) [] hc (by simp) nm hm

theorem cstr_of_nonzero (l : List Nat) (h : ∀ c ∈ l, c ≠ 0) : cstr l = l := by
  unfold cstr
  rw [List.takeWhile_eq_self_iff]
  intro c hc
  simpa using h c hc

theorem cstr_append_zero (l rest : List Nat) (h : ∀ c ∈ l, c ≠ 0) :
    cstr (l ++ 0 :: rest) = l := by
  unfold cstr
  induction l with
  | nil => simp [List.takeWhile]
  | cons a l ih =>
    have ha : a ≠ 0 := h a (List.mem_cons_self _ _)
    rw [List.cons_append, List.takeWhile_cons]
    simp only [ne_eq, ha, not_false_eq_true, decide_True, if_true]
    rw [ih (fun c hc => h c (List.mem_cons_of_mem _ hc))]

theorem name32_short (l : List Nat) (hl : l.length ≤ 31) :
    name32 l = l ++ 0 :: List.replicate (31 - l.length) 0 ∧ (name32 l).length = 32 := by
  unfold name32
  have e : List.replicate 32 0 = List.replicate (32 - l.length) (0 : Nat) ++
      List.replicate l.length 0 := by
    rw [← List.replicate_add]
    congr 1
    omega
  constructor
  · rw [e, ← List.append_assoc, List.take_append_eq_append_take]
    have h1 : (l ++ List.replicate (32 - l.length) 0).length = 32 := by
      rw [List.length_append, List.length_replicate]; omega
    rw [List.take_of_length_le (by omega), h1, Nat.sub_self, List.take_zero, List.append_nil]
    have h2 : 32 - l.length = (31 - l.length) + 1 := by omega
    rw [h2, List.replicate_succ]
  · rw [List.length_take, List.length_append, List.length_replicate]
    omega

theorem cstr_name32 (l : List Nat) (hl : l.length ≤ 31) (h : ∀ c ∈ l, c ≠ 0) :
    cstr (name32 l) = l := by
  rw [(name32_short l hl).1]
  exact cstr_append_zero l _ h

theorem name32_headD (l : List Nat) (hl : l.length ≤ 31) (hne : l ≠ []) :
    (name32 l).headD 0 = l.headD 0 := by
  rw [(name32_short l hl).1]
  cases l with
  | nil => exact absurd rfl hne
  | cons a l => rfl

theorem staged_errno (s : FS) (e : Nat) (dpos : Int) : Staged s { s with errno := e } dpos :=
  ⟨rfl, rfl, rfl, fun _ _ => rfl, fun _ _ _ => rfl⟩

theorem staged_write (s : FS) (e : Nat) (dpos : Int) (g : File) (h : 0 ≤ dpos) :
    Staged s (write_File { s with errno := e } dpos.toNat g) dpos := by
  refine ⟨rfl, rfl, rfl, fun _ _ => rfl, ?_⟩
  intro a ha _
  rcases ha with ha | ha
  · omega
  · exact write_File_disk_out _ _ g a ha

theorem staged_extend (s t : FS) (dpos : Int) (h : Staged s t dpos) :
    Staged s (extend_data t 0).2 dpos := by
  obtain ⟨h1, h2, h3, h4, h5⟩ := h
  rcases extend_data_cases t 0 with ⟨_, he⟩ | ⟨i0, hi0, he⟩
  · rw [he]
    exact ⟨h1, h2, h3, h4, h5⟩
  · rw [he]
    have hfree : s.fat i0 = FREE_BLOCK := by
      by_contra hc
      have := h4 i0 hc
      rw [hi0.2.2.1] at this
      exact hc this.symm
    refine ⟨h1, h2, h3, ?_, ?_⟩
    · intro x hx
      show (if x = i0 then LAST_BLOCK else if (0 : Nat) ≠ 0 ∧ x = 0 then i0 else t.fat x) = _
      rw [if_neg (fun e => hx (by rw [e]; exact hfree)), if_neg (fun hc => hc.1 rfl)]
      exact h4 x hx
    · intro a ha hfr
      show (if phys t i0 ≤ a ∧ a < phys t i0 + t.block_size then 0 else t.disk a) = _
      have hp : phys t i0 = phys s i0 := by unfold phys; rw [h1, h2]
      rw [hp, h1]
      have hnb : ¬ (phys s i0 ≤ a ∧ a < phys s i0 + s.block_size) := fun hc =>
        hfr i0 hi0.1 hfree hc
      rw [if_neg hnb]
      exact h5 a ha hfr

theorem staged_slot (s t : FS) (dpos : Int) (h : Staged s t dpos) (hfb : 1 ≤ s.fat_blocks)
    (x k : Nat) (hk : k < s.block_size / 64) (hx : s.fat x ≠ FREE_BLOCK)
    (hd : dpos < 0 ∨ ∃ bd kd, kd < s.block_size / 64 ∧
      dpos = ((phys s bd + 64 * kd : Nat) : Int) ∧ bd ≠ x) :
    slot t x k = slot s x k := by
  obtain ⟨h1, h2, _, _, h5⟩ := h
  refine slot_frame s t h1 h2 x k ?_
  intro j hj
  have e := slot_end_le s.block_size k hk
  refine h5 _ ?_ ?_
  · rcases hd with hd | ⟨bd, kd, hkd, hdp, hne⟩
    · exact Or.inl hd
    · right
      rw [hdp, Int.toNat_ofNat]
      have e2 := slot_end_le s.block_size kd hkd
      by_contra hc
      have := phys_disjoint s x bd (64 * k + j) (phys s x + 64 * k + j - phys s bd) hfb
        (fun e3 => hne e3.symm) (by omega) (by omega)
      omega
  · intro j1 _ hj1 hin
    have hne : x ≠ j1 := fun e3 => hx (by rw [e3]; exact hj1)
    obtain ⟨a1, a2⟩ := hin
    have := phys_disjoint s x j1 (64 * k + j) (phys s x + 64 * k + j - phys s j1) hfb hne
      (by omega) (by omega)
    omega

theorem staged_chain (s t : FS) (dpos : Int) (h : Staged s t dpos) (b : Nat) (L : List Nat)
    (hnz : ∀ x ∈ L, s.fat x ≠ FREE_BLOCK) (hch : IsChain s.fat b L) : IsChain t.fat b L :=
  isChain_congr s.fat t.fat L b (fun x hx => h.2.2.2.1 x (hnz x hx)) hch

theorem staged_config (s t : FS) (dpos : Int) (h : Staged s t dpos) (hv : ValidConfig s) :
    ValidConfig t := by
  obtain ⟨h1, h2, h3, _, _⟩ := h
  unfold ValidConfig
  rw [h1, h2, h3]
  exact hv

theorem create_file_eval (fuel : Nat) (s : FS) (now : Nat) (path_str nm : List Nat)
    (type : Nat) (d z : Entry) (en : Nat) (f : File) (s3 s4 : FS) (r : Int)
    (hd : find_directory (fuel + 1) s (split_path path_str).dir s.errno = some (d, en))
    (hd0 : d.file.name0 ≠ EOD_FLAG)
    (hdw : d.file.perm &&& WRITE_PERM ≠ 0)
    (hname : (split_path path_str).name = some nm)
    (hz : find_file (fuel + 1) s (some nm) d.file.first_block SKIP_TO_LAST en = some (z, en))
    (hzl : z.file.type ≠ LINK_FILE) (hz0 : z.file.name0 = EOD_FLAG)
    (hinit : init_file (fuel + 1) (parent_grown s now d en) now nm type = some (f, s3))
    (hf0 : f.name0 ≠ EOD_FLAG)
    (hadd : add_file (fuel + 1) s3 f d.file.first_block = some (r, s4)) (hr : r ≠ -1) :
    create_file (fuel + 1) s now path_str type = some (0, s4) := by
  rw [create_file]
  simp only [hd, hname, hz]
  rw [if_neg hd0, if_neg hdw, if_neg hzl, if_neg (fun h => h hz0)]
  have hi2 : init_file (fuel + 1)
      (if d.position ≥ 0 then write_File { s with errno := en } d.position.toNat { d.file with size := (d.file.size + 64) % 2 ^ 32, mtime := now } else { s with errno := en })
      now ((some nm).getD []) type = some (f, s3) := hinit
  simp only [hi2]
  rw [if_neg hf0]
  have ha2 : add_file (fuel + 1) s3 f
      ({ d.file with size := (d.file.size + 64) % 2 ^ 32, mtime := now } : File).first_block =
      some (r, s4) := hadd
  simp only [ha2]
  rw [if_neg hr]

theorem init_file_stage (fuel : Nat) (s2 : FS) (now : Nat) (nm : List Nat) (type : Nat)
    (hfree : type = DIRECTORY_FILE → HasFree s2) :
    ∃ f s3, init_file (fuel + 1) s2 now nm type = some (f, s3) ∧
      f.name = name32 ((cstr nm).take 31) ∧ f.size = 0 ∧ f.type = type ∧
      f.perm = (if type = DIRECTORY_FILE then 7 else 6) ∧
      (type ≠ DIRECTORY_FILE → f.first_block = LAST_BLOCK ∧ s3 = s2) ∧
      (type = DIRECTORY_FILE → s3 = (extend_data s2 0).2 ∧
        f.first_block = (extend_data s2 0).1) := by
  unfold init_file
  by_cases ht : type = DIRECTORY_FILE
  · have hne : ¬ (extend_data s2 0).1 = 0 := fun h =>
      (extend_data_zero_iff s2 0).mp h (hfree ht)
    simp only [ht, if_true]
    rw [if_neg hne]
    exact ⟨_, _, rfl, rfl, rfl, rfl, rfl, fun h => absurd rfl h, fun _ => ⟨rfl, rfl⟩⟩
  · simp only [ht, if_false]
    exact ⟨_, _, rfl, rfl, rfl, rfl, rfl, fun _ => ⟨rfl, rfl⟩, fun h => absurd h (by simp)⟩

theorem staged_parent (s : FS) (now : Nat) (d : Entry) (en1 : Nat) :
    Staged s (parent_grown s now d en1) d.position := by
  unfold parent_grown
  by_cases h : d.position ≥ 0
  · rw [if_pos h]; exact staged_write s en1 d.position _ h
  · rw [if_neg h]; exact staged_errno s en1 d.position

theorem hasFree_of_free (s : FS) (j : Nat) (h1 : 1 ≤ j) (h2 : j ≤ s.data_blocks)
    (h3 : s.fat j = FREE_BLOCK) : HasFree s := ⟨j, h1, h2, h3⟩

/-- After `extend_data(0)` a block that was free and is not the one taken is
still free. -/
theorem extend_data_keeps_free (t : FS) (j j2 : Nat) (hne : j ≠ j2)
    (h1 : 1 ≤ j ∧ j ≤ t.data_blocks ∧ t.fat j = FREE_BLOCK)
    (h2 : 1 ≤ j2 ∧ j2 ≤ t.data_blocks ∧ t.fat j2 = FREE_BLOCK) :
    HasFree (extend_data t 0).2 := by
  rcases extend_data_cases t 0 with ⟨hn, _⟩ | ⟨i0, _, he⟩
  · exact absurd ⟨j, h1⟩ hn
  · rw [he]
    by_cases e : j = i0
    · refine ⟨j2, h2.1, h2.2.1, ?_⟩
      show (if j2 = i0 then LAST_BLOCK else if (0 : Nat) ≠ 0 ∧ j2 = 0 then i0 else t.fat j2) = _
      rw [if_neg (fun e2 => hne (by rw [e, e2])), if_neg (fun hc => hc.1 rfl)]
      exact h2.2.2
    · refine ⟨j, h1.1, h1.2.1, ?_⟩
      show (if j = i0 then LAST_BLOCK else if (0 : Nat) ≠ 0 ∧ j = 0 then i0 else t.fat j) = _
      rw [if_neg e, if_neg (fun hc => hc.1 rfl)]
      exact h1.2.2

theorem parent_grown_fat (s : FS) (now : Nat) (d : Entry) (en1 : Nat) :
    (parent_grown s now d en1).fat = s.fat ∧
    (parent_grown s now d en1).data_blocks = s.data_blocks := by
  unfold parent_grown
  by_cases h : d.position ≥ 0
  · rw [if_pos h]; exact ⟨rfl, rfl⟩
  · rw [if_neg h]; exact ⟨rfl, rfl⟩

theorem parent_grown_read (s : FS) (now : Nat) (d : Entry) (en1 : Nat) (h : 0 ≤ d.position) :
    read_File (parent_grown s now d en1) d.position.toNat = (grown now d).stored := by
  unfold parent_grown
  rw [if_pos h, read_File_write_File]
  rfl

/-- The success path of `create_file`, for a parent directory with a well
formed chain whose first reusable slot is slot `i` of block `bj`: the call
returns 0, the parent's slot holds the larger size, the new entry is found by
name, and no byte changes outside the parent's slot, the new slot and the
blocks that were free. -/
theorem create_file_core (fuel : Nat) (s : FS) (now : Nat) (path_str nm : List Nat)
    (type : Nat) (d : Entry) (en : Nat) (L1 L2 : List Nat) (bj i : Nat)
    (hv : ValidConfig s)
    (hd : find_directory (fuel + 1) s (split_path path_str).dir s.errno = some (d, en))
    (hd0 : d.file.name0 ≠ EOD_FLAG)
    (hdw : d.file.perm &&& WRITE_PERM ≠ 0)
    (hname : (split_path path_str).name = some nm)
    (hlen : nm.length ≤ 31) (htype : type < 256)
    (hch : IsChain s.fat d.file.first_block (L1 ++ bj :: L2))
    (hnd : (L1 ++ bj :: L2).Nodup)
    (hnz : ∀ x ∈ L1 ++ bj :: L2, x ≠ 0 ∧ s.fat x ≠ FREE_BLOCK)
    (hfuel : (L1 ++ bj :: L2).length ≤ fuel)
    (hi : i < s.block_size / 64)
    (hflag : (upto_eod (dir_slots s (L1 ++ bj :: L2))).2 = true)
    (hno : ∀ x ∈ (upto_eod (dir_slots s (L1 ++ bj :: L2))).1,
      cstr x.file.name ≠ cstr nm ∧ (x.file.name0 = EOD_FLAG → x.file.type ≠ LINK_FILE))
    (hpre : ∀ x ∈ dir_slots s L1 ++ slots_from s bj 0 i,
      x.file.name0 ≠ EOD_FLAG ∧ x.file.name0 ≠ CLEANED_FLAG ∧ x.file.name0 ≠ REMOVED_FLAG)
    (hr : (slot s bj i).file.name0 = EOD_FLAG ∨ (slot s bj i).file.name0 = CLEANED_FLAG ∨
      (slot s bj i).file.name0 = REMOVED_FLAG)
    (heod : (slot s bj i).file.name0 = EOD_FLAG →
      L2 = [] ∧ (i + 1 < s.block_size / 64 → (slot s bj (i + 1)).file.name0 = EOD_FLAG))
    (hslip : s.fat_blocks = 1 ∨ i + 1 < s.block_size / 64)
    (hslot : 0 ≤ d.position →
      d.position.toNat / s.block_size + 1 - s.fat_blocks ∉ L1 ++ bj :: L2 ∧
      s.fat (d.position.toNat / s.block_size + 1 - s.fat_blocks) ≠ FREE_BLOCK)
    (hfree1 : type = DIRECTORY_FILE → HasFree s)
    (hfree2 : (slot s bj i).file.name0 = EOD_FLAG → i + 1 = s.block_size / 64 →
      ∃ j, (1 ≤ j ∧ j ≤ s.data_blocks ∧ s.fat j = FREE_BLOCK) ∧
        (type = DIRECTORY_FILE →
          ∃ j2, j ≠ j2 ∧ 1 ≤ j2 ∧ j2 ≤ s.data_blocks ∧ s.fat j2 = FREE_BLOCK)) :
    ∃ s4, create_file (fuel + 1) s now path_str type = some (0, s4) ∧
      (0 ≤ d.position →
        (read_File s4 d.position.toNat).size = (d.file.size + 64) % 2 ^ 32) ∧
      (∀ d1 en2, find_directory (fuel + 1) s4 (split_path path_str).dir s4.errno =
          some (d1, en2) →
        d1.file.name0 ≠ EOD_FLAG → d1.file.first_block = d.file.first_block →
        ∃ f s5, get_file (fuel + 1) s4 path_str false = some (f, s5) ∧
          f.name = name32 nm ∧ f.size = 0 ∧ f.type = type ∧
          f.perm = (if type = DIRECTORY_FILE then
            EXECUTE_PERM ||| READ_PERM ||| WRITE_PERM else READ_PERM ||| WRITE_PERM) ∧
          (type ≠ DIRECTORY_FILE → f.first_block = LAST_BLOCK)) ∧
      (∀ a, (d.position < 0 ∨ a < d.position.toNat ∨ d.position.toNat + 48 ≤ a) →
        (a < phys s bj + 64 * i ∨ phys s bj + 64 * i + 48 ≤ a) →
        (∀ j, 1 ≤ j → s.fat j = FREE_BLOCK → ¬ InBlock s j a) → s4.disk a = s.disk a) ∧
      (s4.block_size = s.block_size ∧ s4.fat_blocks = s.fat_blocks) ∧
      (∀ y, y ≠ bj → s.fat y ≠ FREE_BLOCK → s4.fat y = s.fat y) ∧
      (nm.headD 0 ≠ CLEANED_FLAG → nm.headD 0 ≠ REMOVED_FLAG →
        ∃ es4, enum_directory (fuel + 1) s4 d.file.first_block = some es4 ∧
          live_count es4 = live_count (upto_eod (dir_slots s (L1 ++ bj :: L2))).1 + 1) ∧
      (0 ≤ d.position → read_File s4 d.position.toNat = (grown now d).stored) ∧
      (type = DIRECTORY_FILE → SizeInv (fuel + 1) s4 (slot s4 bj i).file) := by
  obtain ⟨hne, hnz0⟩ := split_path_name_token path_str nm hname
  have hnm0 : nm.headD 0 ≠ EOD_FLAG := split_path_name_head path_str nm hname
  have hcs : cstr nm = nm := cstr_of_nonzero nm hnz0
  have hv2 := hv
  obtain ⟨hbs, h64, hfb, hdb⟩ := hv2
  -- the name is absent
  obtain ⟨z, hz, hzf, hz0⟩ := find_file_absent fuel s d.file.first_block _ nm SKIP_TO_LAST en
    hch (by omega) hflag (fun x hx => (hno x hx).1) hnm0
  have hzl : z.file.type ≠ LINK_FILE := (hno z hz).2 hz0
  -- the parent's slot
  have hparent : ∀ bd kd, kd < s.block_size / 64 →
      d.position = ((phys s bd + 64 * kd : Nat) : Int) →
      bd ∉ L1 ++ bj :: L2 ∧ s.fat bd ≠ FREE_BLOCK := by
    intro bd kd hkd hp
    have h := hslot (by rw [hp]; exact Int.natCast_nonneg _)
    rw [hp, Int.toNat_ofNat, (slot_pos_div s bd kd hbs hkd).1] at h
    have e : bd + s.fat_blocks - 1 + 1 - s.fat_blocks = bd := by omega
    rw [e] at h
    exact h
  have hdpos : ∀ x ∈ L1 ++ bj :: L2, d.position < 0 ∨ ∃ bd kd, kd < s.block_size / 64 ∧
      d.position = ((phys s bd + 64 * kd : Nat) : Int) ∧ bd ≠ x := by
    intro x hx
    rcases find_directory_slot (fuel + 1) s _ _ (d, en) hd hd0 with h | h
    · left
      have h2 : d = root := h
      rw [h2]
      decide
    · right
      obtain ⟨bd, kd, hkd, hdd⟩ := h
      have h2 : d = slot s bd kd := hdd
      have hp : d.position = ((phys s bd + 64 * kd : Nat) : Int) := by rw [h2]; rfl
      exact ⟨bd, kd, hkd, hp, fun e => (hparent bd kd hkd hp).1 (by rw [e]; exact hx)⟩
  -- the stages
  have hst2 := staged_parent s now d en
  have hfr2 : type = DIRECTORY_FILE → HasFree (parent_grown s now d en) := by
    intro ht
    obtain ⟨j, a1, a2, a3⟩ := hfree1 ht
    exact ⟨j, a1, by rw [(parent_grown_fat s now d en).2]; exact a2,
      by rw [(parent_grown_fat s now d en).1]; exact a3⟩
  obtain ⟨f, s3, hinit, hfname, hfsize, hftype, hfperm, hfreg, hfdir⟩ :=
    init_file_stage fuel (parent_grown s now d en) now nm type hfr2
  have hst3 : Staged s s3 d.position := by
    by_cases ht : type = DIRECTORY_FILE
    · rw [(hfdir ht).1]; exact staged_extend s _ _ hst2
    · rw [(hfreg ht).2]; exact hst2
  have hfn2 : f.name = name32 nm := by
    rw [hfname, hcs, List.take_of_length_le (by omega)]
  have hf0 : f.name0 ≠ EOD_FLAG := by
    unfold File.name0
    rw [hfn2, name32_headD nm hlen hne]
    exact hnm0
  have hfs : f.stored.name = name32 nm := by
    rw [stored_name_of_length f (by rw [hfn2]; exact (name32_short nm hlen).2), hfn2]
  have hfc : cstr f.stored.name = cstr nm := by
    rw [hfs, cstr_name32 nm hlen hnz0, hcs]
  -- the slots of the chain are the same in `s3`
  have hslotL : ∀ x ∈ L1 ++ bj :: L2, ∀ k, k < s.block_size / 64 → slot s3 x k = slot s x k :=
    fun x hx k hk => staged_slot s s3 d.position hst3 hfb x k hk (hnz x hx).2 (hdpos x hx)
  have hbs3 : s3.block_size = s.block_size := hst3.1
  have hfb3 : s3.fat_blocks = s.fat_blocks := hst3.2.1
  have hdb3 : s3.data_blocks = s.data_blocks := hst3.2.2.1
  have hbjL : bj ∈ L1 ++ bj :: L2 := by simp
  have E1 : dir_slots s3 L1 = dir_slots s L1 :=
    dir_slots_congr s s3 hbs3 L1 (fun x hx k hk => hslotL x (List.mem_append_left _ hx) k hk)
  have E5 : dir_slots s3 L2 = dir_slots s L2 :=
    dir_slots_congr s s3 hbs3 L2 (fun x hx k hk =>
      hslotL x (List.mem_append_right _ (List.mem_cons_of_mem _ hx)) k hk)
  have E2 : slots_from s3 bj 0 i = slots_from s bj 0 i :=
    slots_from_congr s s3 bj 0 i (fun k _ hk => hslotL bj hbjL k (by omega))
  have E4 : slots_from s3 bj (i + 1) (s.block_size / 64 - i - 1) =
      slots_from s bj (i + 1) (s.block_size / 64 - i - 1) :=
    slots_from_congr s s3 bj (i + 1) _ (fun k _ hk => hslotL bj hbjL k (by omega))
  have E3 : slot s3 bj i = slot s bj i := hslotL bj hbjL i hi
  -- the names before the reusable slot
  have hsplit := dir_slots_split s L1 L2 bj i hi
  have hu := upto_eod_pre (slot s bj i :: (slots_from s bj (i + 1) (s.block_size / 64 - i - 1) ++
    dir_slots s L2)) (dir_slots s L1 ++ slots_from s bj 0 i) (fun x hx => (hpre x hx).1)
  rw [← hsplit] at hu
  have hpre2 : ∀ x ∈ dir_slots s L1 ++ slots_from s bj 0 i,
      (x.file.name0 ≠ EOD_FLAG ∧ x.file.name0 ≠ CLEANED_FLAG ∧ x.file.name0 ≠ REMOVED_FLAG) ∧
      cstr x.file.name ≠ cstr nm := by
    intro x hx
    refine ⟨hpre x hx, (hno x ?_).1⟩
    rw [hu]
    exact List.mem_append_left _ hx
  have hpost : (slot s bj i).file.name0 ≠ EOD_FLAG →
      (upto_eod (slots_from s bj (i + 1) (s.block_size / 64 - i - 1) ++
        dir_slots s L2)).2 = true := by
    intro h0
    have := hflag
    rw [hu, upto_eod_cons_live _ _ h0] at this
    exact this
  have hfree3 : (slot s bj i).file.name0 = EOD_FLAG → i + 1 = s.block_size / 64 →
      HasFree s3 := by
    intro h0 hi1
    obtain ⟨j, ⟨a1, a2, a3⟩, hj2⟩ := hfree2 h0 hi1
    have pf := parent_grown_fat s now d en
    by_cases ht : type = DIRECTORY_FILE
    · obtain ⟨j2, hne2, b1, b2, b3⟩ := hj2 ht
      rw [(hfdir ht).1]
      exact extend_data_keeps_free _ j j2 hne2
        ⟨a1, by rw [pf.2]; exact a2, by rw [pf.1]; exact a3⟩
        ⟨b1, by rw [pf.2]; exact b2, by rw [pf.1]; exact b3⟩
    · rw [(hfreg ht).2]
      exact ⟨j, a1, by rw [pf.2]; exact a2, by rw [pf.1]; exact a3⟩
  obtain ⟨t4, hadd, hg1, hg2, hfind, hframe, hfat4, T, hen4, hT4⟩ :=
    add_file_post fuel s3 f d.file.first_block
    L1 L2 bj i nm (staged_config s s3 _ hst3 hv)
    (staged_chain s s3 _ hst3 _ _ (fun x hx => (hnz x hx).2) hch) hnd
    (fun x hx => ⟨(hnz x hx).1, by rw [hst3.2.2.2.1 x (hnz x hx).2]; exact (hnz x hx).2⟩)
    hfuel (by rw [hbs3]; exact hi)
    (by rw [E1, E2]; exact hpre2)
    (by rw [E3]; exact hr)
    (by rw [E3, hbs3, E4, E5]; exact hpost)
    (by
      rw [E3, hbs3]
      intro h0
      refine ⟨(heod h0).1, fun hlt => ?_⟩
      rw [hslotL bj hbjL (i + 1) hlt]
      exact (heod h0).2 hlt)
    (by rw [hfb3, hbs3]; exact hslip)
    (by rw [E3, hbs3]; exact hfree3)
    hnm0 hf0 hfc
  have hpp : phys s3 bj = phys s bj := by unfold phys; rw [hbs3, hfb3]
  have hfree_back : ∀ j, s3.fat j = FREE_BLOCK → s.fat j = FREE_BLOCK := by
    intro j hj
    by_contra hc
    rw [hst3.2.2.2.1 j hc] at hj
    exact hc hj
  have hin_back : ∀ j a, InBlock s3 j a → InBlock s j a := by
    intro j a hin
    unfold InBlock at hin ⊢
    have hpj : phys s3 j = phys s j := by unfold phys; rw [hbs3, hfb3]
    rw [hpj, hbs3] at hin
    exact hin
  have hread : 0 ≤ d.position → read_File t4 d.position.toNat = (grown now d).stored := by
    intro hd1
    obtain ⟨bd, kd, hkd, hp⟩ : ∃ bd kd, kd < s.block_size / 64 ∧
        d.position = ((phys s bd + 64 * kd : Nat) : Int) := by
      rcases find_directory_slot (fuel + 1) s _ _ (d, en) hd hd0 with h | h
      · have h2 : d = root := h
        rw [h2] at hd1
        exact absurd hd1 (by decide)
      · obtain ⟨bd, kd, hkd, hdd⟩ := h
        have h2 : d = slot s bd kd := hdd
        exact ⟨bd, kd, hkd, by rw [h2]; rfl⟩
    obtain ⟨hbdL, hbdf⟩ := hparent bd kd hkd hp
    have hbdj : bd ≠ bj := fun e => hbdL (by rw [e]; exact hbjL)
    have hdt : d.position.toNat = phys s bd + 64 * kd := by rw [hp, Int.toNat_ofNat]
    have e1 := slot_end_le s.block_size kd hkd
    have e2 := slot_end_le s.block_size i hi
    -- no byte of the parent's slot is in a block that is free
    have hnofree : ∀ k, k < 48 → ∀ j, 1 ≤ j → s.fat j = FREE_BLOCK →
        ¬ InBlock s j (phys s bd + 64 * kd + k) := by
      intro k hk j _ hj hin
      obtain ⟨a1, a2⟩ := hin
      have hne2 : bd ≠ j := fun e => hbdf (by rw [e]; exact hj)
      have := phys_disjoint s bd j (64 * kd + k) (phys s bd + 64 * kd + k - phys s j) hfb hne2
        (by omega) (by omega)
      omega
    have h43 : read_File t4 d.position.toNat = read_File s3 d.position.toNat := by
      refine read_File_congr s3 t4 _ ?_
      intro k hk
      rw [hdt]
      refine hframe _ ?_ ?_
      · rw [hpp]
        rcases slot_pos_cases s bd kd bj i hkd hi with h | h | h
        · exact absurd h (by
            have := phys_disjoint s bd bj (64 * kd) (64 * i) hfb hbdj (by omega) (by omega)
            exact this)
        · left; omega
        · right; omega
      · intro j hj1 hj hin
        have hsj : s.fat j = FREE_BLOCK := by
          by_contra hc
          rw [hst3.2.2.2.1 j hc] at hj
          exact hc hj
        have hin2 : InBlock s j (phys s bd + 64 * kd + k) := by
          unfold InBlock at hin ⊢
          have hpj : phys s3 j = phys s j := by unfold phys; rw [hbs3, hfb3]
          rw [hpj, hbs3] at hin
          exact hin
        exact hnofree k hk j hj1 hsj hin2
    have h32 : read_File s3 d.position.toNat =
        read_File (parent_grown s now d en) d.position.toNat := by
      by_cases ht : type = DIRECTORY_FILE
      · rw [(hfdir ht).1]
        refine read_File_congr _ _ _ ?_
        intro k hk
        rw [hdt]
        have pf := parent_grown_fat s now d en
        rcases extend_data_cases (parent_grown s now d en) 0 with ⟨_, he⟩ | ⟨i0, hi0, he⟩
        · rw [he]
        · rw [he]
          show (if phys (parent_grown s now d en) i0 ≤ phys s bd + 64 * kd + k ∧
            phys s bd + 64 * kd + k < phys (parent_grown s now d en) i0 +
              (parent_grown s now d en).block_size then 0
            else (parent_grown s now d en).disk (phys s bd + 64 * kd + k)) = _
          have hpi : phys (parent_grown s now d en) i0 = phys s i0 := by
            unfold phys; rw [hst2.1, hst2.2.1]
          rw [hpi, hst2.1, if_neg]
          intro hc
          exact hnofree k hk i0 hi0.1 (by rw [← pf.1]; exact hi0.2.2.1) hc
      · rw [(hfreg ht).2]
    rw [h43, h32, parent_grown_read s now d en hd1]
  have hnewdir : type = DIRECTORY_FILE → SizeInv (fuel + 1) t4 (slot t4 bj i).file := by
    intro ht
    obtain ⟨hs3, hfbk⟩ := hfdir ht
    have pf := parent_grown_fat s now d en
    have hn1 : 1 ≤ s.block_size / 64 :=
      Nat.div_pos (Nat.le_of_dvd hbs h64) (by decide)
    have hp4 : ∀ y, phys t4 y = phys s y := by
      intro y; unfold phys; rw [hg1, hg2, hbs3, hfb3]
    have hp3 : ∀ y, phys s3 y = phys s y := by
      intro y; unfold phys; rw [hbs3, hfb3]
    rcases extend_data_cases (parent_grown s now d en) 0 with ⟨hn, _⟩ | ⟨j, hj, hej⟩
    · exact absurd (hfr2 ht) hn
    · obtain ⟨hj1, hj2, hj3, _⟩ := hj
      have hfj : f.first_block = j := by rw [hfbk, hej]
      have hs3fat : s3.fat j = LAST_BLOCK := by
        rw [hs3, hej]
        show (if j = j then LAST_BLOCK else _) = _
        rw [if_pos rfl]
      have hs3disk : s3.disk (phys s j) = 0 := by
        have hpj : phys (parent_grown s now d en) j = phys s j := by
          unfold phys; rw [hst2.1, hst2.2.1]
        rw [hs3, hej]
        show (if phys (parent_grown s now d en) j ≤ phys s j ∧
          phys s j < phys (parent_grown s now d en) j + (parent_grown s now d en).block_size
          then 0 else _) = 0
        rw [hpj, hst2.1, if_pos ⟨le_refl _, by omega⟩]
      have hjfree : s.fat j = FREE_BLOCK := by rw [← pf.1]; exact hj3
      have hjbj : j ≠ bj := fun e => (hnz bj hbjL).2 (by rw [← e]; exact hjfree)
      have ht4fat : t4.fat j = LAST_BLOCK := by
        rw [hfat4 j hjbj (by rw [hs3fat]; decide)]
        exact hs3fat
      have ht4disk : t4.disk (phys s j) = 0 := by
        rw [hframe (phys s j) ?_ ?_]
        · exact hs3disk
        · rw [hpp]
          have hd0 := phys_disjoint s j bj 0 (64 * i) hfb hjbj hbs
            (by have := slot_end_le s.block_size i hi; omega)
          rcases slot_pos_cases s j 0 bj i hn1 hi with h | h | h
          · exact absurd h (by simpa using hd0)
          · left; omega
          · right; omega
        · intro j1 _ hf1 hin
          have hne1 : j ≠ j1 := fun e => by
            rw [← e, hs3fat] at hf1
            exact absurd hf1 (by decide)
          obtain ⟨a1, a2⟩ := hin
          rw [hp3] at a1
          rw [hp3, hbs3] at a2
          have := phys_disjoint s j j1 0 (phys s j - phys s j1) hfb hne1 hbs (by omega)
          omega
      have hslotnew : slot t4 bj i =
          { file := f.stored, position := ((phys s3 bj + 64 * i : Nat) : Int) } := by
        rcases find_file_slot (fuel + 1) t4 _ _ _ _ _ (hfind 0) with h1 | ⟨b1, k1, hk1, h1⟩
        · have h2 := congrArg Entry.position h1
          have h3 : ((phys s3 bj + 64 * i : Nat) : Int) = -1 := h2
          omega
        · have h2 := congrArg Entry.position h1
          have h3 : ((phys s3 bj + 64 * i : Nat) : Int) = ((phys t4 b1 + 64 * k1 : Nat) : Int) :=
            h2
          have h4 : phys s bj + 64 * i = phys s b1 + 64 * k1 := by
            rw [hp3, hp4] at h3
            exact_mod_cast h3
          rw [hg1, hbs3] at hk1
          have h5 : bj = b1 ∧ i = k1 := by
            by_cases hb : bj = b1
            · subst hb
              exact ⟨rfl, by omega⟩
            · have hd0 := phys_disjoint s bj b1 (64 * i) (64 * k1) hfb hb
                (by have := slot_end_le s.block_size i hi; omega)
                (by have := slot_end_le s.block_size k1 hk1; omega)
              exact absurd h4 hd0
          have h6 : slot t4 bj i = slot t4 b1 k1 := by rw [h5.1, h5.2]
          rw [h6]
          exact h1.symm
      have hname0 : (slot t4 j 0).file.name0 = EOD_FLAG := by
        rw [slot_name0, hp4]
        exact ht4disk
      have hj16 : j < 2 ^ 16 := by
        have h1 : (parent_grown s now d en).data_blocks = s.data_blocks := pf.2
        have h2 : s.data_blocks < LAST_BLOCK := hdb
        have h3 : LAST_BLOCK < 2 ^ 16 := by decide
        omega
      have hjl : j ≠ LAST_BLOCK := by
        have h1 : (parent_grown s now d en).data_blocks = s.data_blocks := pf.2
        have h2 : s.data_blocks < LAST_BLOCK := hdb
        omega
      obtain ⟨m, hm⟩ : ∃ m, t4.block_size / 64 = m + 1 := by
        rw [hg1, hbs3]
        exact ⟨s.block_size / 64 - 1, by omega⟩
      have hupto : upto_eod (dir_slots t4 [j]) = ([slot t4 j 0], true) := by
        simp only [dir_slots, slots_from, hm, List.range'_succ, List.map_cons, List.cons_append]
        exact upto_eod_cons_eod _ _ hname0
      have hen := enum_directory_chain (fuel + 1) t4 j [j] ⟨hjl, rfl, ht4fat⟩
        (by simp) (by rw [hupto])
      rw [hupto] at hen
      rw [hslotnew]
      refine ⟨[slot t4 j 0], ?_, ?_⟩
      · show enum_directory (fuel + 1) t4 f.stored.first_block = _
        rw [stored_first_block, hfj, Nat.mod_eq_of_lt hj16]
        exact hen
      · have hl : live (slot t4 j 0) = false := by
          unfold live
          rw [hname0]
          decide
        have hsz : f.stored.size = 0 := by
          show f.size % 2 ^ 32 = 0
          rw [hfsize]
          exact Nat.zero_mod _
        show f.stored.size = 64 * live_count [slot t4 j 0]
        rw [hsz, live_count_cons, hl]
        rfl
  refine ⟨t4, ?_, ?_, ?_, ?_, ⟨hg1.trans hbs3, hg2.trans hfb3⟩, ?_, ?_, hread, hnewdir⟩
  · exact create_file_eval fuel s now path_str nm type d z en f s3 t4 _ hd hd0 hdw hname hzf hzl
      hz0 hinit hf0 hadd (by omega)
  · intro hd1
    rw [hread hd1]
    show (grown now d).size % 2 ^ 32 = _
    show (d.file.size + 64) % 2 ^ 32 % 2 ^ 32 = _
    exact Nat.mod_mod _ _
  · intro d1 en2 hd1 hd10 hfbk
    refine ⟨f.stored, { t4 with errno := en2 }, ?_, hfs, ?_, ?_, ?_, ?_⟩
    · unfold get_file
      simp only [hd1, hname]
      rw [if_neg hd10, hfbk]
      simp only [Bool.false_eq_true, if_false, hfind en2]
      rw [if_neg (by rw [stored_name0]; exact hf0)]
    · show f.size % 2 ^ 32 = 0
      rw [hfsize]
      rfl
    · rw [stored_type, hftype]
      exact Nat.mod_eq_of_lt htype
    · rw [stored_perm, hfperm]
      by_cases ht : type = DIRECTORY_FILE
      · rw [if_pos ht, if_pos ht]; rfl
      · rw [if_neg ht, if_neg ht]; rfl
    · intro ht
      rw [stored_first_block, (hfreg ht).1]
      rfl
  · intro a ha1 ha2 hfr
    rw [hframe a (by rw [hpp]; exact ha2)
      (fun j hj1 hj hin => hfr j hj1 (hfree_back j hj) (hin_back j a hin))]
    exact hst3.2.2.2.2 a ha1 hfr
  · intro y hy1 hy2
    rw [hfat4 y hy1 (by rw [hst3.2.2.2.1 y hy2]; exact hy2)]
    exact hst3.2.2.2.1 y hy2
  · intro hn1 hn2
    rw [E1, E2, hpp] at hen4
    rw [E3, hbs3, E4, E5] at hT4
    refine ⟨_, hen4, ?_⟩
    have hnew : live { file := f.stored, position := ((phys s bj + 64 * i : Nat) : Int) } = true := by
      rw [live_iff]
      show f.stored.name0 ≠ EOD_FLAG ∧ f.stored.name0 ≠ CLEANED_FLAG ∧ f.stored.name0 ≠ REMOVED_FLAG
      have e0 : f.stored.name0 = nm.headD 0 := by
        rw [stored_name0]
        unfold File.name0
        rw [hfn2, name32_headD nm hlen hne]
      rw [e0]
      exact ⟨hnm0, hn1, hn2⟩
    have hrl : live (slot s bj i) = false := by
      cases hl : live (slot s bj i) with
      | false => rfl
      | true =>
        have := (live_iff _).1 hl
        rcases hr with h | h | h
        · exact absurd h this.1
        · exact absurd h this.2.1
        · exact absurd h this.2.2
    have hold1 : (upto_eod (dir_slots s (L1 ++ bj :: L2))).1 =
        (dir_slots s L1 ++ slots_from s bj 0 i) ++ (upto_eod (slot s bj i ::
          (slots_from s bj (i + 1) (s.block_size / 64 - i - 1) ++ dir_slots s L2))).1 := by
      rw [hu]
    have hnil : live_count ([] : List Entry) = 0 := rfl
    rw [hold1]
    by_cases h0 : (slot s bj i).file.name0 = EOD_FLAG
    · have e1 : (upto_eod (slot s bj i :: (slots_from s bj (i + 1) (s.block_size / 64 - i - 1) ++
          dir_slots s L2))).1 = [slot s bj i] := by rw [upto_eod_cons_eod _ _ h0]
      rw [e1]
      simp only [live_count_append, live_count_cons, hnew, hrl, hT4, if_pos h0, hnil, if_true]
      simp
    · have e1 : (upto_eod (slot s bj i :: (slots_from s bj (i + 1) (s.block_size / 64 - i - 1) ++
          dir_slots s L2))).1 = slot s bj i :: (upto_eod (slots_from s bj (i + 1)
            (s.block_size / 64 - i - 1) ++ dir_slots s L2)).1 := by
        rw [upto_eod_cons_live _ _ h0]
      rw [e1]
      simp only [live_count_append, live_count_cons, hnew, hrl, hT4, if_neg h0, if_true]
      simp
      omega

set_option maxRecDepth 100000 in
/-- C40, the code at the failing input. `/a` holds 300 bytes and is open for
reading as descriptor 3 at position 0. `f_lseek(3, 10, SEEK_SET)` stores the
result of `seek_data(f.first_block * 64, 10)`, 138, in the node's
`file_descriptor`: the position `file_pointer` is still 0, not 10, and
`get_fd(3)` finds no node any more. `SEEK_CUR` and `SEEK_END` do the same
with 13 and 65718. -/
theorem f_lseek_overwrites_descriptor :
    (get_fd ex_rd.fd_table 3).map (fun n => (n.file_descriptor, n.file_pointer)) = some (3, 0) ∧
    (f_lseek 5 ex_rd 3 10 SEEK_SET).map
      (fun u => u.fd_table.map (fun n => (n.file_descriptor, n.file_pointer))) =
      some [(138, 0)] ∧
    (f_lseek 5 ex_rd 3 10 SEEK_SET).map (fun u => get_fd u.fd_table 3) = some none ∧
    (f_lseek 5 ex_rd 3 10 SEEK_CUR).map
      (fun u => u.fd_table.map (fun n => (n.file_descriptor, n.file_pointer))) =
      some [(13, 0)] ∧
    (f_lseek 5 ex_rd 3 10 SEEK_END).map
      (fun u => u.fd_table.map (fun n => (n.file_descriptor, n.file_pointer))) =
      some [(65718, 0)] := by
  decide

set_option maxRecDepth 100000 in
/-- C37, the code at the failing input. After `f_open` three times from
`boot` the table holds the descriptors 3, 4, 5; `f_close(3)` and
`f_close(5)` leave descriptor 4 (`/b`) alone in the table. The next `f_open`
finds a first descriptor that is not 3, so `find_empty` gives `NULL` and
`add` makes the new node the table's first node without linking the old one
behind it: the table is the new node, descriptor 3, followed by whatever
chain `junk` its never-assigned `next` leads to. With `NULL` there (what
`delete` stored in the node of descriptor 5, freed last) the table holds
descriptor 3 alone and `get_fd` does not find 4. -/
theorem f_open_after_close_drops_descriptors :
    (f_close ex_open3 3).1 = 0 ∧ (f_close (f_close ex_open3 3).2 5).1 = 0 ∧
    ex_closed35.fd_table =
      [{ file_descriptor := 4, file_name := [47, 98], mode := WRITE, file_pointer := 0 }] ∧
    (∀ junk, (f_open 5 ex_closed35 0 [47, 100] WRITE junk).map (fun r => (r.1, r.2.fd_table)) =
      some (3, { file_descriptor := 3, file_name := [47, 100], mode := WRITE,
                 file_pointer := 0 } :: junk)) ∧
    (f_open 5 ex_closed35 0 [47, 100] WRITE []).map
      (fun r => (r.2.fd_table.map (fun n => n.file_descriptor), get_fd r.2.fd_table 4)) =
      some ([3], none) := by
  refine ⟨by decide, by decide, by decide, ?_, by decide⟩
  intro junk
  have h0 : (f_open 5 ex_closed35 0 [47, 100] WRITE []).map (fun r => (r.1, r.2.fd_table)) =
    some (3, [{ file_descriptor := 3, file_name := [47, 100], mode := WRITE,
                file_pointer := 0 }]) := by decide
  have hf : find_empty ex_closed35.fd_table = none := by decide
  rw [f_open_junk]
  cases hx : f_open 5 ex_closed35 0 [47, 100] WRITE [] with
  | none =>
    rw [hx] at h0
    exact absurd h0 (by simp)
  | some r =>
    rw [hx] at h0
    simp only [Option.map_some', Option.some.injEq, Prod.mk.injEq] at h0 ⊢
    rw [if_pos ⟨hf, h0.1⟩]
    simp only [h0.1, h0.2, List.singleton_append, and_self]

set_option maxRecDepth 100000 in
/-- C32, the code at the failing input. On the fresh filesystem FAT entry 2
is free. `mkdir /d` gives the directory block 2 (`fat[2] = LAST_BLOCK`).
`rmdir /d` succeeds (`cur_errno` stays 0) and leaves the slot marked cleaned
(`name[0] = 0x01`), but `truncate_file` returns for a directory before
`truncate_data`, so `fat[2]` is still `LAST_BLOCK`: the block is on no chain
of a slot that is not cleaned and is not free. -/
theorem f_rmdir_keeps_block :
    boot.fs.fat 2 = FREE_BLOCK ∧
    (f_mkdir 5 0 [] [[47, 100]] boot).map (fun u => u.fs.fat 2) = some LAST_BLOCK ∧
    ((f_mkdir 5 0 [] [[47, 100]] boot).bind (fun u => f_rmdir 5 0 [] [[47, 100]] u)).map
      (fun u => (u.fs.fat 2, u.cur_errno,
        (enum_directory 5 u.fs 1).map
          (fun es => es.map (fun e => (e.file.name0, e.file.first_block))))) =
      some (LAST_BLOCK, 0, some [(CLEANED_FLAG, 2), (EOD_FLAG, 0)]) := by
  decide

/-! ## C39: a link that leads back to itself -/

/-- The slots `enum_directory` lists for the root of `ex_loop`, with any fuel. -/
theorem ex_loop_enum (fuel : Nat) :
    enum_directory (fuel + 1) ex_loop.fs 1 =
      some [{ file := read_File ex_loop.fs 256, position := 256 },
            { file := read_File ex_loop.fs 320, position := 320 }] := by
  have h := enum_directory_eq 1 (fuel + 1) ex_loop.fs 1 (by omega) (by decide)
  rw [h]
  decide

/-- One turn of `find_file` on the link `/a` of `ex_loop`: the target `/a`
is looked up with the recursive call, in the root again. -/
theorem ex_loop_scan (ff : Option (List Nat) → Nat → Nat → Nat → Option (Entry × Nat))
    (skip_flag en : Nat) (hskip : skip_flag ≠ SKIP_NONE)
    (hff : ff (some [97]) 1 skip_flag en = none) :
    find_scan (follow_link ff ex_loop.fs skip_flag) [97] skip_flag
      [{ file := read_File ex_loop.fs 256, position := 256 },
       { file := read_File ex_loop.fs 320, position := 320 }] en = none := by
  have h1 : (read_File ex_loop.fs 256).name0 ≠ EOD_FLAG := by decide
  have h2 : ([97] : List Nat).headD 0 ≠ EOD_FLAG := by decide
  have h3 : cstr (read_File ex_loop.fs 256).name = cstr [97] := by decide
  have h4 : (read_File ex_loop.fs 256).type = LINK_FILE := by decide
  have h5 : read_data ex_loop.fs (ex_loop.fs.block_size * (read_File ex_loop.fs 256).first_block)
      (read_File ex_loop.fs 256).size = (3, [47, 97, 0]) := by decide
  have h6 : (read_File ex_loop.fs 256).size = 3 := by decide
  have h7 : split_path ([47, 97, 0] ++ [0]) = { dir := [], name := some [97] } := by decide
  rw [find_scan]
  dsimp only
  rw [if_neg h1, if_neg (fun h => h2 h.1), if_pos ⟨h2, h3⟩, if_pos ⟨h4, hskip⟩]
  unfold follow_link
  dsimp only
  rw [h5, h6]
  dsimp only
  rw [if_neg (by decide), h7]
  dsimp only [find_directory_with]
  rw [if_neg (by decide)]
  rw [show root.file.first_block = 1 from rfl, hff]

theorem ex_loop_find (skip_flag : Nat) (hskip : skip_flag ≠ SKIP_NONE) :
    ∀ (fuel en : Nat), find_file fuel ex_loop.fs (some [97]) 1 skip_flag en = none := by
  intro fuel
  induction fuel with
  | zero => intro en; rfl
  | succ fuel ih =>
    intro en
    rw [find_file, ex_loop_enum]
    exact ex_loop_scan _ _ _ hskip (ih en)

set_option maxRecDepth 100000 in
/-- C39, the code at the failing input. `ln -s /a /a` on the fresh
filesystem succeeds (`cur_errno` stays 0) and leaves the link `/a` with the
target `/a`. In that state `find_file("a", 1, skip)` with `SKIP_ALL` or
`SKIP_TO_LAST` matches the link, reads the target and calls itself with the
same arguments: it has no result with any number of recursive calls, and so
have `get_file("/a", true)`, `read_file("/a", ...)` and
`create_file("/a", ...)`. -/
theorem find_file_link_cycle (fuel en : Nat) :
    ex_loop.cur_errno = 0 ∧
    (get_file 5 ex_loop.fs [47, 97] false).map (fun r => (r.1.type, r.1.size)) =
      some (LINK_FILE, 3) ∧
    read_data ex_loop.fs (ex_loop.fs.block_size * 2) 3 = (3, [47, 97, 0]) ∧
    find_file fuel ex_loop.fs (some [97]) 1 SKIP_ALL en = none ∧
    find_file fuel ex_loop.fs (some [97]) 1 SKIP_TO_LAST en = none ∧
    get_file fuel ex_loop.fs [47, 97] true = none ∧
    read_file fuel ex_loop.fs [47, 97] 0 1 = none ∧
    create_file fuel ex_loop.fs 0 [47, 97] REGULAR_FILE = none := by
  have hsp : split_path [47, 97] = { dir := [], name := some [97] } := by decide
  have hfd : ∀ f e0, find_directory f ex_loop.fs [] e0 = some (root, e0) := fun _ _ => rfl
  have hr0 : ¬ (root.file.name0 = EOD_FLAG) := by decide
  have hrw : ¬ (root.file.perm &&& WRITE_PERM = 0) := by decide
  refine ⟨by decide, by decide, by decide, ex_loop_find _ (by decide) fuel en,
    ex_loop_find _ (by decide) fuel en, ?_, ?_, ?_⟩
  · unfold get_file
    simp only [hsp, hfd, if_neg hr0, if_true]
    rw [show root.file.first_block = 1 from rfl, ex_loop_find _ (by decide)]
  · unfold read_file
    simp only [hsp, hfd, if_neg hr0]
    rw [show root.file.first_block = 1 from rfl, ex_loop_find _ (by decide)]
  · cases fuel with
    | zero => rfl
    | succ f =>
      rw [create_file]
      simp only [hsp, hfd, if_neg hr0, if_neg hrw]
      rw [show root.file.first_block = 1 from rfl, ex_loop_find _ (by decide)]

/-! ## C36: what `read_file` changes -/

set_option maxRecDepth 100000 in
/-- C36, counterexample. `/a` in `ex_a512` is a readable regular file of
size 512, two full 256-byte blocks (2 and 3, `fat[3] = LAST_BLOCK`, entry 4
free). `read_file` at offset 512, the file's size, returns 10 for `n = 10`
and leaves `fat[3] = 4` and `fat[4] = LAST_BLOCK`: `seek_data` has linked a
new block to the chain. -/
theorem read_file_at_size_extends :
    (get_file 5 ex_a512 [47, 97] true).map
      (fun r => (r.1.type, r.1.size, r.1.perm &&& READ_PERM)) =
      some (REGULAR_FILE, 512, READ_PERM) ∧
    ex_a512.block_size = 256 ∧
    (ex_a512.fat 2, ex_a512.fat 3, ex_a512.fat 4) = (3, LAST_BLOCK, FREE_BLOCK) ∧
    (read_file 5 ex_a512 [47, 97] 512 10).map (fun r => (r.1, r.2.2.fat 3, r.2.2.fat 4)) =
      some (10, 4, LAST_BLOCK) := by
  decide

/-- C36, amended. Read inside the chain is side-effect free: for a readable
regular file whose chain `L` is well formed, every `n`, and every offset
that is 0 or lies inside the chain's blocks (`offset < L.length *
block_size`), `read_file` returns and leaves the filesystem as it was (every
FAT entry, every directory slot, every data block), `errno` apart. At the
offset that ends the chain's last block (`offset == size` for a size that is
a positive multiple of the block size) the state it leaves is the one
`extend_data` gives for the chain's last block: a free block, when there is
one, is linked to the chain and zeroed. -/
theorem read_file_frame (fuel : Nat) (s : FS) (path_str : List Nat) (offset n : Nat)
    (d e : Entry) (en en1 : Nat) (L : List Nat)
    (hbs : 0 < s.block_size)
    (hd : find_directory fuel s (split_path path_str).dir s.errno = some (d, en))
    (hd0 : d.file.name0 ≠ EOD_FLAG)
    (he : find_file fuel s (split_path path_str).name d.file.first_block SKIP_ALL en =
            some (e, en1))
    (he0 : e.file.name0 ≠ EOD_FLAG)
    (hty : e.file.type = REGULAR_FILE)
    (her : e.file.perm &&& READ_PERM ≠ 0)
    (hchain : IsChain s.fat e.file.first_block L)
    (hoff : offset = 0 ∨ offset < L.length * s.block_size) :
    (∃ c bytes, read_file fuel s path_str offset n = some (c, bytes, { s with errno := en1 })) ∧
    (L ≠ [] →
      (read_file fuel s path_str (L.length * s.block_size) n).map (fun r => r.2.2) =
        some (extend_data { s with errno := en1 } (L.getLastD 0)).2) := by
  have hnd : e.file.type ≠ DIRECTORY_FILE := by rw [hty]; decide
  have hpm : (s.block_size * e.file.first_block) % s.block_size = 0 := Nat.mul_mod_right _ _
  have hpd : (s.block_size * e.file.first_block) / s.block_size = e.file.first_block :=
    Nat.mul_div_cancel_left _ hbs
  constructor
  · have hoff' : offset < s.block_size ∨ offset < L.length * s.block_size := by
      rcases hoff with h | h
      · exact Or.inl (by omega)
      · exact Or.inr h
    obtain ⟨blk, e1, _⟩ := seek_loop_chain L (offset + 1) { s with errno := en1 }
      e.file.first_block offset hbs hchain hoff'
      (Nat.lt_succ_of_le (Nat.div_le_self _ _))
    have hseek : seek_data { s with errno := en1 } (s.block_size * e.file.first_block) offset =
        (((blk * s.block_size + offset % s.block_size : Nat) : Int), { s with errno := en1 }) := by
      unfold seek_data
      simp only [hpm, hpd, Nat.add_zero]
      exact e1
    refine ⟨((read_data { s with errno := en1 }
        (blk * s.block_size + offset % s.block_size) n).1 : Int),
      (read_data { s with errno := en1 } (blk * s.block_size + offset % s.block_size) n).2, ?_⟩
    unfold read_file
    simp only [hd, he]
    rw [if_neg hd0, if_neg he0, if_neg hnd, if_neg her]
    simp only [hseek]
    rw [if_neg (by omega)]
    simp only [Int.toNat_ofNat]
  · intro hL
    have hlen : L.length < L.length * s.block_size + 1 := by
      have : L.length * 1 ≤ L.length * s.block_size := Nat.mul_le_mul_left _ hbs
      omega
    have hseek := seek_loop_end L (L.length * s.block_size + 1) { s with errno := en1 }
      e.file.first_block hbs hchain hL hlen
    unfold read_file
    simp only [hd, he]
    rw [if_neg hd0, if_neg he0, if_neg hnd, if_neg her]
    unfold seek_data
    simp only [hpm, hpd, Nat.add_zero]
    have hseek2 : seek_loop (L.length * s.block_size + 1) { s with errno := en1 }
        e.file.first_block (L.length * s.block_size) = _ := hseek
    rw [hseek2]
    by_cases h0 : (extend_data { s with errno := en1 } (L.getLastD 0)).1 = 0
    · rw [if_pos h0]
      dsimp only
      rw [if_pos rfl]
      rfl
    · rw [if_neg h0]
      dsimp only
      rw [if_neg (by omega)]
      rfl

set_option maxRecDepth 100000 in
/-- C36, witness: `/a` in `ex_a512` (size 512, chain 2, 3) read at offset
100 with `n = 10`. -/
theorem read_file_frame_witness :
    (∃ c bytes, read_file 5 ex_a512 [47, 97] 100 10 =
      some (c, bytes, { ex_a512 with errno := ex_a512.errno })) ∧
    (([2, 3] : List Nat) ≠ [] →
      (read_file 5 ex_a512 [47, 97] (([2, 3] : List Nat).length * ex_a512.block_size) 10).map
        (fun r => r.2.2) =
        some (extend_data { ex_a512 with errno := ex_a512.errno }
          (([2, 3] : List Nat).getLastD 0)).2) :=
  read_file_frame 5 ex_a512 [47, 97] 100 10 root
    { file := { name := name32 [97], size := 512, first_block := 2, type := REGULAR_FILE,
                perm := 6, mtime := 0 },
      position := 256 }
    ex_a512.errno ex_a512.errno [2, 3]
    (by decide) (by decide) (by decide) (by decide) (by decide) (by decide) (by decide)
    (by decide) (by decide)

/-! ## C38: `seek_data` composes -/

theorem div_sub_block (off B : Nat) (hB : 0 < B) (h : B ≤ off) :
    (off - B) / B = off / B - 1 ∧ (off - B) % B = off % B ∧ 0 < off / B := by
  have h1 := Nat.div_eq_sub_div hB h
  have h2 := Nat.mod_eq_sub_mod h
  refine ⟨by rw [h1, Nat.add_sub_cancel], h2.symm, by rw [h1]; exact Nat.succ_pos _⟩

/-- The loop of `seek_data` needs one turn per block passed: with that much
fuel the result does not depend on the fuel. -/
theorem seek_loop_fuel :
    ∀ (f1 f2 : Nat) (s : FS) (block off : Nat), 0 < s.block_size →
      off / s.block_size < f1 → off / s.block_size < f2 →
      seek_loop f1 s block off = seek_loop f2 s block off := by
  intro f1
  induction f1 with
  | zero => intro f2 s block off _ h; exact absurd h (Nat.not_lt_zero _)
  | succ f1 ih =>
    intro f2 s block off hbs h1 h2
    cases f2 with
    | zero => exact absurd h2 (Nat.not_lt_zero _)
    | succ f2 =>
      rw [seek_loop, seek_loop]
      by_cases hlt : off < s.block_size
      · rw [if_pos hlt, if_pos hlt]
      · rw [if_neg hlt, if_neg hlt]
        obtain ⟨hd, _, hpos⟩ := div_sub_block off s.block_size hbs (by omega)
        by_cases hl : s.fat block = LAST_BLOCK
        · rw [if_pos hl, if_pos hl]
          dsimp only
          by_cases h0 : (extend_data s block).1 = 0
          · rw [if_pos h0, if_pos h0]
          · rw [if_neg h0, if_neg h0]
            have hb := (extend_data_table s block).1
            have e := ih f2 (extend_data s block).2 (extend_data s block).1
              (off - s.block_size) (by rw [hb]; exact hbs) (by rw [hb]; omega) (by rw [hb]; omega)
            exact e
        · rw [if_neg hl, if_neg hl]
          exact ih f2 s (s.fat block) (off - s.block_size) hbs (by omega) (by omega)

theorem seek_loop_block_size :
    ∀ (fuel : Nat) (s : FS) (block off : Nat),
      (seek_loop fuel s block off).2.block_size = s.block_size := by
  intro fuel
  induction fuel with
  | zero => intro s block off; rfl
  | succ fuel ih =>
    intro s block off
    rw [seek_loop]
    split
    · rfl
    · split
      · dsimp only
        split
        · exact (extend_data_table s block).1
        · rw [ih]; exact (extend_data_table s block).1
      · exact ih _ _ _

/-- The in-block offset of the position the loop of `seek_data` returns. -/
theorem seek_loop_mod :
    ∀ (fuel : Nat) (s : FS) (block off : Nat), 0 < s.block_size →
      (seek_loop fuel s block off).1 ≠ -1 →
      (seek_loop fuel s block off).1.toNat % s.block_size = off % s.block_size := by
  intro fuel
  induction fuel with
  | zero => intro s block off _ h; exact absurd rfl h
  | succ fuel ih =>
    intro s block off hbs hok
    rw [seek_loop] at hok ⊢
    by_cases hlt : off < s.block_size
    · rw [if_pos hlt]
      dsimp only
      rw [Int.toNat_ofNat, Nat.add_comm, Nat.add_mul_mod_self_right]
    · rw [if_neg hlt] at hok ⊢
      obtain ⟨_, hm, _⟩ := div_sub_block off s.block_size hbs (by omega)
      by_cases hl : s.fat block = LAST_BLOCK
      · rw [if_pos hl] at hok ⊢
        dsimp only at hok ⊢
        by_cases h0 : (extend_data s block).1 = 0
        · rw [if_pos h0] at hok
          exact absurd rfl hok
        · rw [if_neg h0] at hok ⊢
          have hb := (extend_data_table s block).1
          have e := ih (extend_data s block).2 (extend_data s block).1 (off - s.block_size)
            (by rw [hb]; exact hbs) hok
          rw [hb, hm] at e
          exact e
      · rw [if_neg hl] at hok ⊢
        rw [ih s (s.fat block) (off - s.block_size) hbs hok, hm]

/-- Two runs of the loop of `seek_data`, the second from where the first
one stopped, against one run for the sum of the offsets. -/
theorem seek_loop_add :
    ∀ (f1 f2 f3 : Nat) (s : FS) (block off b : Nat), 0 < s.block_size →
      off / s.block_size < f1 → (off % s.block_size + b) / s.block_size < f2 →
      (off + b) / s.block_size < f3 →
      (seek_loop f1 s block off).1 ≠ -1 →
      seek_loop f2 (seek_loop f1 s block off).2
        ((seek_loop f1 s block off).1.toNat / s.block_size)
        ((seek_loop f1 s block off).1.toNat % s.block_size + b) =
      seek_loop f3 s block (off + b) := by
  intro f1
  induction f1 with
  | zero => intro f2 f3 s block off b _ h; exact absurd h (Nat.not_lt_zero _)
  | succ f1 ih =>
    intro f2 f3 s block off b hbs h1 h2 h3 hok
    rw [seek_loop] at hok ⊢
    by_cases hlt : off < s.block_size
    · rw [if_pos hlt] at hok ⊢
      dsimp only
      rw [Int.toNat_ofNat]
      have e1 : (block * s.block_size + off) / s.block_size = block := by
        rw [Nat.add_comm, Nat.add_mul_div_right _ _ hbs, Nat.div_eq_of_lt hlt, Nat.zero_add]
      have e2 : (block * s.block_size + off) % s.block_size = off := by
        rw [Nat.add_comm, Nat.add_mul_mod_self_right, Nat.mod_eq_of_lt hlt]
      rw [e1, e2]
      rw [Nat.mod_eq_of_lt hlt] at h2
      exact seek_loop_fuel f2 f3 s block (off + b) hbs h2 h3
    · rw [if_neg hlt] at hok ⊢
      obtain ⟨hd, hm, hpos⟩ := div_sub_block off s.block_size hbs (by omega)
      have hsum : off + b - s.block_size = off - s.block_size + b := by omega
      obtain ⟨hd3, _, hpos3⟩ := div_sub_block (off + b) s.block_size hbs (by omega)
      rw [hsum] at hd3
      cases f3 with
      | zero => exact absurd h3 (Nat.not_lt_zero _)
      | succ f3 =>
        conv_rhs => rw [seek_loop]
        rw [if_neg (show ¬ off + b < s.block_size by omega)]
        by_cases hl : s.fat block = LAST_BLOCK
        · rw [if_pos hl] at hok ⊢
          rw [if_pos hl]
          dsimp only at hok ⊢
          by_cases h0 : (extend_data s block).1 = 0
          · rw [if_pos h0] at hok
            exact absurd rfl hok
          · rw [if_neg h0] at hok ⊢
            rw [if_neg h0]
            have hb := (extend_data_table s block).1
            have e := ih f2 f3 (extend_data s block).2 (extend_data s block).1
              (off - s.block_size) b (by rw [hb]; exact hbs) (by rw [hb]; omega)
              (by rw [hb, hm]; exact h2) (by rw [hb]; omega) hok
            rw [hb] at e
            rw [hsum]
            exact e
        · rw [if_neg hl] at hok ⊢
          rw [if_neg hl]
          have e := ih f2 f3 s (s.fat block) (off - s.block_size) b hbs (by omega)
            (by rw [hm]; exact h2) (by omega) hok
          rw [hsum]
          exact e

/-- The loop of `seek_data` along links that are there: no FAT entry is
written, and the block reached is `off / block_size` links on. -/
theorem seek_loop_iter :
    ∀ (fuel : Nat) (s : FS) (block off : Nat), 0 < s.block_size →
      off / s.block_size < fuel →
      (∀ j, j < off / s.block_size → s.fat (s.fat^[j] block) ≠ LAST_BLOCK) →
      seek_loop fuel s block off =
        (((s.fat^[off / s.block_size] block * s.block_size + off % s.block_size : Nat) : Int),
          s) := by
  intro fuel
  induction fuel with
  | zero => intro s block off _ h; exact absurd h (Nat.not_lt_zero _)
  | succ fuel ih =>
    intro s block off hbs h1 hl
    rw [seek_loop]
    by_cases hlt : off < s.block_size
    · rw [if_pos hlt, Nat.div_eq_of_lt hlt, Nat.mod_eq_of_lt hlt]
      rfl
    · rw [if_neg hlt]
      obtain ⟨hd, hm, hpos⟩ := div_sub_block off s.block_size hbs (by omega)
      have h0 := hl 0 hpos
      rw [Function.iterate_zero, id] at h0
      rw [if_neg h0]
      rw [ih s (s.fat block) (off - s.block_size) hbs (by omega)
        (fun j hj => by
          have := hl (j + 1) (by omega)
          rwa [Function.iterate_succ_apply] at this)]
      rw [hd, hm]
      have hk : off / s.block_size = (off / s.block_size - 1) + 1 := by omega
      conv_rhs => rw [hk, Function.iterate_succ_apply]

/-- C38. Seek composes additively: for every position `p` and all
`a, b >= 0` (inside the `int` range) for which `seek_data(p, a)` succeeds,
`seek_data(seek_data(p, a), b)` gives the same position and the same
filesystem (FAT and data) as `seek_data(p, a + b)`; and when the chain
holds the target offset (none of the `(p mod B + a) / B` links followed from
the block of `p` is `LAST_BLOCK`), `seek_data(p, a)` changes nothing and
returns the block reached after `(p mod B + a) / B` links at the in-block
offset `(p mod B + a) mod B`. -/
theorem seek_data_additive (s : FS) (p a b : Nat) (hbs : 0 < s.block_size)
    (_hint : p + a + b < 2 ^ 31) (hok : (seek_data s p a).1 ≠ -1) :
    seek_data (seek_data s p a).2 (seek_data s p a).1.toNat b = seek_data s p (a + b) ∧
    ((∀ j, j < (p % s.block_size + a) / s.block_size →
        s.fat (s.fat^[j] (p / s.block_size)) ≠ LAST_BLOCK) →
      seek_data s p a =
        (((s.fat^[(p % s.block_size + a) / s.block_size] (p / s.block_size) * s.block_size +
            (p % s.block_size + a) % s.block_size : Nat) : Int), s)) := by
  constructor
  · have hb : (seek_data s p a).2.block_size = s.block_size := seek_loop_block_size _ _ _ _
    have hlt : ∀ x, x / s.block_size < x + 1 := fun x => Nat.lt_succ_of_le (Nat.div_le_self _ _)
    unfold seek_data at hok
    have e := seek_loop_add (a + p % s.block_size + 1)
      (b + ((seek_data s p a).1.toNat % s.block_size) + 1)
      (a + b + p % s.block_size + 1) s (p / s.block_size) (a + p % s.block_size) b hbs
      (hlt _) ?_ ?_ hok
    · have e2 : seek_data (seek_data s p a).2 (seek_data s p a).1.toNat b =
          seek_loop (b + ((seek_data s p a).1.toNat % s.block_size) + 1) (seek_data s p a).2
            ((seek_data s p a).1.toNat / s.block_size)
            (b + (seek_data s p a).1.toNat % s.block_size) := by
        conv_lhs => rw [seek_data, hb]
      rw [e2]
      have e3 : seek_data s p (a + b) =
          seek_loop (a + b + p % s.block_size + 1) s (p / s.block_size)
            (a + p % s.block_size + b) := by
        rw [seek_data, show a + b + p % s.block_size = a + p % s.block_size + b by omega]
      rw [e3, ← e]
      unfold seek_data
      rw [Nat.add_comm b]
    · have hmod := seek_loop_mod _ s _ _ hbs hok
      have e0 : (seek_data s p a).1.toNat % s.block_size = (a + p % s.block_size) % s.block_size :=
        hmod
      rw [e0]
      have := Nat.div_le_self ((a + p % s.block_size) % s.block_size + b) s.block_size
      omega
    · rw [show a + p % s.block_size + b = a + b + p % s.block_size by omega]
      exact hlt _
  · intro hl
    unfold seek_data
    rw [Nat.add_comm a]
    exact seek_loop_iter _ s _ _ hbs (Nat.lt_succ_of_le (Nat.div_le_self _ _)) hl

set_option maxRecDepth 100000 in
/-- C38, witness: in `ex_aw` (`/a` is the chain 2, 3 of 256-byte blocks)
from the position 512 that starts block 2, with `a = 100` and `b = 200`. -/
theorem seek_data_additive_witness :
    seek_data (seek_data ex_aw 512 100).2 (seek_data ex_aw 512 100).1.toNat 200 =
      seek_data ex_aw 512 (100 + 200) ∧
    ((∀ j, j < (512 % ex_aw.block_size + 100) / ex_aw.block_size →
        ex_aw.fat (ex_aw.fat^[j] (512 / ex_aw.block_size)) ≠ LAST_BLOCK) →
      seek_data ex_aw 512 100 =
        (((ex_aw.fat^[(512 % ex_aw.block_size + 100) / ex_aw.block_size]
              (512 / ex_aw.block_size) * ex_aw.block_size +
            (512 % ex_aw.block_size + 100) % ex_aw.block_size : Nat) : Int), ex_aw)) :=
  seek_data_additive ex_aw 512 100 200 (by decide) (by decide) (by decide)

/-! ## C34, C33: a link into a missing directory, a zombie in a run queue -/

set_option maxRecDepth 100000 in
/-- C34, the code at the failing input. In `ex_nl` the link `/l` has the
target `/n/x` and there is no `/n`; in `ex_dl` the link `/l` has the target
`/t` and the root has no `t`. With `SKIP_ALL`, `find_file("l")` gives the EOD
slot in `ex_dl` (the target name is missing in its directory), but in
`ex_nl` it gives the link entry itself (`find_directory` failed): `get_file`
reports a link of size 5, not an entry with `name[0] == 0`, and `read_file`
returns the 5 bytes of the stored path `/n/x`. -/
theorem find_file_all_missing_directory :
    ex_nl.cur_errno = 0 ∧
    (find_file 5 ex_dl.fs (some [108]) 1 SKIP_ALL 0).map
      (fun r => (r.1.file.name0, r.1.file.type)) = some (EOD_FLAG, UNKNOWN_FILE) ∧
    (find_file 5 ex_dl.fs (some [108]) 1 SKIP_TO_LAST 0).map
      (fun r => (r.1.file.name0, r.1.file.type)) = some (108, LINK_FILE) ∧
    (find_file 5 ex_nl.fs (some [108]) 1 SKIP_NONE 0).map
      (fun r => (r.1.file.name0, r.1.file.type)) = some (108, LINK_FILE) ∧
    (find_file 5 ex_nl.fs (some [108]) 1 SKIP_TO_LAST 0).map
      (fun r => (r.1.file.name0, r.1.file.type)) = some (108, LINK_FILE) ∧
    (find_file 5 ex_nl.fs (some [108]) 1 SKIP_ALL 0).map
      (fun r => (r.1.file.name0, r.1.file.type)) = some (108, LINK_FILE) ∧
    (get_file 5 ex_nl.fs [47, 108] true).map (fun r => (r.1.name0, r.1.type, r.1.size)) =
      some (108, LINK_FILE, 5) ∧
    (read_file 5 ex_nl.fs [47, 108] 0 5).map (fun r => (r.1, r.2.1)) =
      some (5, [47, 110, 47, 120, 0]) := by
  decide

set_option maxRecDepth 100000 in
/-- C33, the code at the failing input. In `ex_niced` the shell (PID 1) is
active and PID 2, niced to `LOW`, is in the `MED` run queue with status
`RUN`. After `p_kill(2, 0)` PID 2 is still in the process table (it is
reaped by `p_waitpid` only) with status `ZOMB`, and its node is still in the
`MED` run queue: a PCB of the process table that is in a run queue with a
status other than `RUN`. -/
theorem zombie_in_run_queue :
    (ex_niced.process_queue, ex_niced.queue_l, ex_niced.queue_m) = ([1, 2], [], [2]) ∧
    (ex_niced.queue_h, ex_niced.queue_blocked, ex_niced.queue_stopped) = ([], [], []) ∧
    (ex_niced.pcb 2).status = Status.RUN ∧
    (p_kill 5 ex_niced 2 0).map
      (fun r => (r.2.process_queue, r.2.queue_l, r.2.queue_m)) = some ([1, 2], [], [2]) ∧
    (p_kill 5 ex_niced 2 0).map
      (fun r => (r.2.queue_h, r.2.queue_blocked, r.2.queue_stopped)) = some ([], [], []) ∧
    (p_kill 5 ex_niced 2 0).map
      (fun r => ((r.2.pcb 2).status, (r.2.pcb 1).zombie_children)) =
      some (Status.ZOMB, [2]) := by
  decide

/-! ## C35: the queue of `queue.c` refines a list -/

theorem store_same (h : Nat → QNode) (a : Nat) (v : QNode) : store h a v a = v := by
  simp [store]

theorem store_other (h : Nat → QNode) (a : Nat) (v : QNode) (x : Nat) (hx : x ≠ a) :
    store h a v x = h x := by
  simp [store, hx]

theorem walk_seg (link : QNode → Option Nat) (h : Nat → QNode) :
    ∀ (l : List Nat) (x : Option Nat), walk link h (l.length + 1) x = l ↔ Seg link h x l none := by
  intro l
  induction l with
  | nil =>
    intro x
    cases x with
    | none => simp [walk, Seg]
    | some a => simp [walk, Seg]
  | cons a rest ih =>
    intro x
    cases x with
    | none => simp [walk, Seg]
    | some b =>
      simp only [List.length_cons, walk, Seg, List.cons.injEq, Option.some.injEq]
      constructor
      · rintro ⟨e, hw⟩
        subst e
        exact ⟨rfl, (ih _).1 hw⟩
      · rintro ⟨e, hs⟩
        subst e
        exact ⟨rfl, (ih _).2 hs⟩

theorem seg_frame (link : QNode → Option Nat) (h h2 : Nat → QNode) :
    ∀ (l : List Nat) (x y : Option Nat), (∀ a ∈ l, link (h2 a) = link (h a)) →
      Seg link h x l y → Seg link h2 x l y := by
  intro l
  induction l with
  | nil => intro x y _ hs; exact hs
  | cons a rest ih =>
    intro x y hf hs
    refine ⟨hs.1, ?_⟩
    rw [hf a (List.mem_cons_self _ _)]
    exact ih _ _ (fun b hb => hf b (List.mem_cons_of_mem _ hb)) hs.2

theorem seg_head (link : QNode → Option Nat) (h : Nat → QNode) (l : List Nat) (x : Option Nat)
    (hs : Seg link h x l none) : x = l.head? := by
  cases l with
  | nil => exact hs
  | cons a rest => exact hs.1

/-- In a list without repetition the head is not the last node of a longer
list. -/
theorem getLast_ne_head (a : Nat) (rest : List Nat) (hne : rest ≠ [])
    (hnd : (a :: rest).Nodup) : (a :: rest).getLast? ≠ some a := by
  intro hc
  have hm : a ∈ rest := by
    cases rest with
    | nil => exact absurd rfl hne
    | cons b r =>
      rw [List.getLast?_cons_cons] at hc
      exact List.mem_of_getLast?_eq_some hc
  exact (List.nodup_cons.1 hnd).1 hm

/-- A node is pushed at the end of the links: the old last node leads to it
and it ends the list. -/
theorem seg_push_end (link : QNode → Option Nat) (h h2 : Nat → QNode) (n : Nat) :
    ∀ (l : List Nat) (x : Option Nat), Seg link h x l none → n ∉ l → l.Nodup →
      link (h2 n) = none →
      (∀ z, l.getLast? = some z → link (h2 z) = some n) →
      (∀ a ∈ l, l.getLast? ≠ some a → link (h2 a) = link (h a)) →
      Seg link h2 (if l = [] then some n else x) (l ++ [n]) none := by
  intro l
  induction l with
  | nil =>
    intro x _ _ _ hn _ _
    exact ⟨rfl, hn⟩
  | cons a rest ih =>
    intro x hs hnl hnd hn hlast hfr
    rw [if_neg (List.cons_ne_nil _ _)]
    refine ⟨hs.1, ?_⟩
    by_cases hr : rest = []
    · subst hr
      rw [hlast a rfl]
      exact ⟨rfl, hn⟩
    · have hla : (a :: rest).getLast? ≠ some a := getLast_ne_head a rest hr hnd
      rw [hfr a (List.mem_cons_self _ _) hla]
      have hgl : (a :: rest).getLast? = rest.getLast? := by
        cases rest with
        | nil => exact absurd rfl hr
        | cons b r => rw [List.getLast?_cons_cons]
      have e := ih (link (h a)) hs.2 (fun hc => hnl (List.mem_cons_of_mem _ hc))
        (List.nodup_cons.1 hnd).2 hn (fun z hz => hlast z (hgl.trans hz))
        (fun b hb hbl => hfr b (List.mem_cons_of_mem _ hb) (by rw [hgl]; exact hbl))
      rw [if_neg hr] at e
      exact e

/-- The last node is taken off the end of the links. -/
theorem seg_pop_end (link : QNode → Option Nat) (h h2 : Nat → QNode) (z : Nat) :
    ∀ (l : List Nat) (x : Option Nat), Seg link h x (l ++ [z]) none → (l ++ [z]).Nodup →
      (∀ y, l.getLast? = some y → link (h2 y) = none) →
      (∀ a ∈ l, l.getLast? ≠ some a → link (h2 a) = link (h a)) →
      Seg link h2 (if l = [] then none else x) l none := by
  intro l
  induction l with
  | nil => intro x _ _ _ _; rfl
  | cons a rest ih =>
    intro x hs hnd hlast hfr
    rw [if_neg (List.cons_ne_nil _ _)]
    refine ⟨hs.1, ?_⟩
    have hnd1 : (a :: rest).Nodup := (List.nodup_append.1 hnd).1
    by_cases hr : rest = []
    · subst hr
      rw [hlast a rfl]
      rfl
    · have hla : (a :: rest).getLast? ≠ some a := getLast_ne_head a rest hr hnd1
      rw [hfr a (List.mem_cons_self _ _) hla]
      have hgl : (a :: rest).getLast? = rest.getLast? := by
        cases rest with
        | nil => exact absurd rfl hr
        | cons b r => rw [List.getLast?_cons_cons]
      have e := ih (link (h a)) hs.2 (List.nodup_cons.1 hnd).2
        (fun y hy => hlast y (hgl.trans hy))
        (fun b hb hbl => hfr b (List.mem_cons_of_mem _ hb) (by rw [hgl]; exact hbl))
      rw [if_neg hr] at e
      exact e

/-- A node in the middle is taken out of the links: the node before it
leads to the node after it. -/
theorem seg_remove_mid (link : QNode → Option Nat) (h h2 : Nat → QNode) (c : Nat)
    (l2 : List Nat) :
    ∀ (l1 : List Nat) (x : Option Nat), l1 ≠ [] → Seg link h x (l1 ++ c :: l2) none →
      (l1 ++ c :: l2).Nodup →
      (∀ y, l1.getLast? = some y → link (h2 y) = link (h c)) →
      (∀ a ∈ l1 ++ l2, l1.getLast? ≠ some a → link (h2 a) = link (h a)) →
      Seg link h2 x (l1 ++ l2) none := by
  intro l1
  induction l1 with
  | nil => intro x hne; exact absurd rfl hne
  | cons a rest ih =>
    intro x _ hs hnd hlast hfr
    refine ⟨hs.1, ?_⟩
    have hnd1 : (a :: rest).Nodup := (List.nodup_append.1 hnd).1
    by_cases hr : rest = []
    · subst hr
      rw [hlast a rfl]
      have h2s : Seg link h (link (h a)) (c :: l2) none := hs.2
      refine seg_frame link h h2 l2 _ _ ?_ h2s.2
      intro b hb
      refine hfr b (by simp [hb]) ?_
      intro hc
      have hba : a = b := by simpa using hc
      subst hba
      have := (List.nodup_cons.1 hnd).1
      exact this (by simp [hb])
    · have hla : (a :: rest).getLast? ≠ some a := getLast_ne_head a rest hr hnd1
      rw [hfr a (by simp) hla]
      have hgl : (a :: rest).getLast? = rest.getLast? := by
        cases rest with
        | nil => exact absurd rfl hr
        | cons b r => rw [List.getLast?_cons_cons]
      exact ih (link (h a)) hr hs.2 (List.nodup_cons.1 hnd).2
        (fun y hy => hlast y (hgl.trans hy))
        (fun b hb hbl => hfr b (List.mem_cons_of_mem _ hb) (by rw [hgl]; exact hbl))

/-- The end of the links: the last node leads out of the list. -/
theorem seg_last (link : QNode → Option Nat) (h : Nat → QNode) (z : Nat) :
    ∀ (l : List Nat) (x y : Option Nat), Seg link h x (l ++ [z]) y → link (h z) = y := by
  intro l
  induction l with
  | nil => intro x y hs; exact hs.2
  | cons a rest ih => intro x y hs; exact ih _ _ hs.2

/-- The links at a node in the middle. -/
theorem seg_mid (link : QNode → Option Nat) (h : Nat → QNode) (c : Nat) (l2 : List Nat) :
    ∀ (l1 : List Nat) (x y : Option Nat), Seg link h x (l1 ++ c :: l2) y →
      Seg link h (link (h c)) l2 y := by
  intro l1
  induction l1 with
  | nil => intro x y hs; exact hs.2
  | cons a rest ih => intro x y hs; exact ih _ _ hs.2

theorem isQueue_iff (h : Nat → QNode) (q : Queue) (l : List Nat) :
    IsQueue h q l ↔ l.Nodup ∧ q.len = l.length ∧ Seg QNode.next h q.head l none ∧
      Seg QNode.prev h q.tail l.reverse none := by
  have e := walk_seg QNode.prev h l.reverse q.tail
  rw [List.length_reverse] at e
  unfold IsQueue
  rw [walk_seg, e]

theorem reverse_head (l : List Nat) : l.reverse.head? = l.getLast? := by
  simp

theorem isQueue_ends (h : Nat → QNode) (q : Queue) (l : List Nat)
    (hnx : Seg QNode.next h q.head l none) (hpv : Seg QNode.prev h q.tail l.reverse none) :
    q.head = l.head? ∧ q.tail = l.getLast? :=
  ⟨seg_head _ _ _ _ hnx, (seg_head _ _ _ _ hpv).trans (reverse_head l)⟩

/-- What `push_back` stores when the queue has a tail `t`. -/
theorem push_back_some (h : Nat → QNode) (q : Queue) (n t : Nat) (ht : q.tail = some t)
    (hne : n ≠ t) :
    (q.push_back h (some n)).2 = { q with tail := some n, len := q.len + 1 } ∧
    ((q.push_back h (some n)).1 n).next = none ∧
    ((q.push_back h (some n)).1 n).prev = some t ∧
    ((q.push_back h (some n)).1 t).next = some n ∧
    ((q.push_back h (some n)).1 t).prev = (h t).prev ∧
    (∀ a, a ≠ n → a ≠ t → (q.push_back h (some n)).1 a = h a) := by
  refine ⟨by simp [Queue.push_back, ht], by simp [Queue.push_back, ht, store, hne],
    by simp [Queue.push_back, ht, store, hne],
    by simp [Queue.push_back, ht, store, hne, Ne.symm hne],
    by simp [Queue.push_back, ht, store, hne, Ne.symm hne], ?_⟩
  intro a h1 h2
  simp [Queue.push_back, ht, store, h1, h2]

/-- What `push_back` stores when the queue is empty. -/
theorem push_back_none (h : Nat → QNode) (q : Queue) (n : Nat) (ht : q.tail = none) :
    (q.push_back h (some n)).2 = { head := some n, tail := some n, len := q.len + 1 } ∧
    ((q.push_back h (some n)).1 n).next = none ∧
    ((q.push_back h (some n)).1 n).prev = none := by
  exact ⟨by simp [Queue.push_back, ht], by simp [Queue.push_back, ht, store],
    by simp [Queue.push_back, ht, store]⟩

theorem push_back_spec (h : Nat → QNode) (q : Queue) (l : List Nat) (n : Nat)
    (hq : IsQueue h q l) (hn : n ∉ l) :
    IsQueue (q.push_back h (some n)).1 (q.push_back h (some n)).2 (l ++ [n]) := by
  rw [isQueue_iff] at hq ⊢
  obtain ⟨hnd, hlen, hnx, hpv⟩ := hq
  obtain ⟨hhd, htl⟩ := isQueue_ends h q l hnx hpv
  have hnd2 : (l ++ [n]).Nodup := by
    rw [List.nodup_append]
    exact ⟨hnd, List.nodup_singleton n, by simpa using hn⟩
  cases ht : q.tail with
  | none =>
    have hl : l = [] := List.getLast?_eq_none_iff.1 (htl.symm.trans ht)
    subst hl
    obtain ⟨e1, e2, e3⟩ := push_back_none h q n ht
    rw [e1]
    refine ⟨hnd2, by show q.len + 1 = _; rw [hlen]; rfl, ⟨rfl, e2⟩, ⟨rfl, e3⟩⟩
  | some t =>
    have htm : t ∈ l := List.mem_of_getLast?_eq_some (by rw [← htl, ht])
    have hne : n ≠ t := fun e => hn (e ▸ htm)
    have hl : l ≠ [] := List.ne_nil_of_mem htm
    obtain ⟨e1, e2, e3, e4, e5, e6⟩ := push_back_some h q n t ht hne
    rw [e1]
    refine ⟨hnd2, by show q.len + 1 = _; rw [hlen]; simp, ?_, ?_⟩
    · have e := seg_push_end QNode.next h (q.push_back h (some n)).1 n l q.head hnx hn hnd e2
        (by
          intro z hz
          have hzt : z = t := by
            rw [← htl, ht] at hz
            exact (Option.some.inj hz).symm
          rw [hzt]
          exact e4)
        (by
          intro a ha hal
          have han : a ≠ n := fun e => hn (e ▸ ha)
          have hat : a ≠ t := by
            intro e
            apply hal
            rw [← htl, ht, e]
          rw [e6 a han hat])
      rw [if_neg hl] at e
      exact e
    · rw [List.reverse_append]
      refine ⟨rfl, ?_⟩
      rw [e3, ← ht]
      refine seg_frame QNode.prev h _ _ _ _ ?_ hpv
      intro a ha
      have ha2 : a ∈ l := List.mem_reverse.1 ha
      have han : a ≠ n := fun e => hn (e ▸ ha2)
      by_cases hat : a = t
      · rw [hat, e5]
      · rw [e6 a han hat]

/-- What `push_front` stores when the queue has a head `c`. -/
theorem push_front_some (h : Nat → QNode) (q : Queue) (n c : Nat) (hc : q.head = some c)
    (hne : n ≠ c) :
    (q.push_front h (some n)).2 = { q with head := some n, len := q.len + 1 } ∧
    ((q.push_front h (some n)).1 n).prev = none ∧
    ((q.push_front h (some n)).1 n).next = some c ∧
    ((q.push_front h (some n)).1 c).prev = some n ∧
    ((q.push_front h (some n)).1 c).next = (h c).next ∧
    (∀ a, a ≠ n → a ≠ c → (q.push_front h (some n)).1 a = h a) := by
  refine ⟨by simp [Queue.push_front, hc], by simp [Queue.push_front, hc, store, hne],
    by simp [Queue.push_front, hc, store, hne],
    by simp [Queue.push_front, hc, store, hne, Ne.symm hne],
    by simp [Queue.push_front, hc, store, hne, Ne.symm hne], ?_⟩
  intro a h1 h2
  simp [Queue.push_front, hc, store, h1, h2]

/-- What `push_front` stores when the queue is empty. -/
theorem push_front_none (h : Nat → QNode) (q : Queue) (n : Nat) (hc : q.head = none) :
    (q.push_front h (some n)).2 = { head := some n, tail := some n, len := q.len + 1 } ∧
    ((q.push_front h (some n)).1 n).prev = none ∧
    ((q.push_front h (some n)).1 n).next = none := by
  exact ⟨by simp [Queue.push_front, hc], by simp [Queue.push_front, hc, store],
    by simp [Queue.push_front, hc, store]⟩

theorem push_front_spec (h : Nat → QNode) (q : Queue) (l : List Nat) (n : Nat)
    (hq : IsQueue h q l) (hn : n ∉ l) :
    IsQueue (q.push_front h (some n)).1 (q.push_front h (some n)).2 (n :: l) := by
  rw [isQueue_iff] at hq ⊢
  obtain ⟨hnd, hlen, hnx, hpv⟩ := hq
  obtain ⟨hhd, htl⟩ := isQueue_ends h q l hnx hpv
  have hnd2 : (n :: l).Nodup := List.nodup_cons.2 ⟨hn, hnd⟩
  cases hc : q.head with
  | none =>
    have hl : l = [] := List.head?_eq_none_iff.1 (hhd.symm.trans hc)
    subst hl
    obtain ⟨e1, e2, e3⟩ := push_front_none h q n hc
    rw [e1]
    refine ⟨hnd2, by show q.len + 1 = _; rw [hlen]; rfl, ⟨rfl, e3⟩, ⟨rfl, e2⟩⟩
  | some c =>
    have hcm : c ∈ l := List.mem_of_mem_head? (by rw [← hhd, hc]; rfl)
    have hne : n ≠ c := fun e => hn (e ▸ hcm)
    have hl : l ≠ [] := List.ne_nil_of_mem hcm
    obtain ⟨e1, e2, e3, e4, e5, e6⟩ := push_front_some h q n c hc hne
    rw [e1]
    refine ⟨hnd2, by show q.len + 1 = _; rw [hlen]; simp, ?_, ?_⟩
    · refine ⟨rfl, ?_⟩
      rw [e3, ← hc]
      refine seg_frame QNode.next h _ _ _ _ ?_ hnx
      intro a ha
      have han : a ≠ n := fun e => hn (e ▸ ha)
      by_cases hac : a = c
      · rw [hac, e5]
      · rw [e6 a han hac]
    · rw [List.reverse_cons]
      have hlr : l.reverse ≠ [] := fun e => hl (List.reverse_eq_nil_iff.1 e)
      have hgl : l.reverse.getLast? = some c := by
        rw [List.getLast?_reverse, ← hhd, hc]
      have e := seg_push_end QNode.prev h (q.push_front h (some n)).1 n l.reverse q.tail hpv
        (fun hm => hn (List.mem_reverse.1 hm)) (List.nodup_reverse.2 hnd) e2
        (by
          intro z hz
          have hzc : z = c := by
            rw [hgl] at hz
            exact (Option.some.inj hz).symm
          rw [hzc]
          exact e4)
        (by
          intro a ha hal
          have han : a ≠ n := fun e => hn (e ▸ List.mem_reverse.1 ha)
          have hac : a ≠ c := by
            intro e
            apply hal
            rw [hgl, e]
          rw [e6 a han hac])
      rw [if_neg hlr] at e
      exact e

theorem pop_front_spec (h : Nat → QNode) (q : Queue) (l : List Nat) (hq : IsQueue h q l) :
    ∃ h1 q1, q.pop_front h = some (l.head?, h1, q1) ∧ IsQueue h1 q1 l.tail ∧
      (l = [] → h1 = h ∧ q1 = q) := by
  rw [isQueue_iff] at hq
  obtain ⟨hnd, hlen, hnx, hpv⟩ := hq
  obtain ⟨hhd, htl⟩ := isQueue_ends h q l hnx hpv
  cases l with
  | nil =>
    refine ⟨h, q, by simp [Queue.pop_front, hhd], ?_, fun _ => ⟨rfl, rfl⟩⟩
    rw [isQueue_iff]
    exact ⟨hnd, hlen, hnx, hpv⟩
  | cons a rest =>
    have hha : q.head = some a := hhd
    by_cases hr : rest = []
    · subst hr
      have hta : q.tail = some a := htl
      refine ⟨store h a { h a with next := none }, { head := none, tail := none, len := q.len - 1 },
        by simp [Queue.pop_front, hha, hta], ?_, fun e => absurd e (List.cons_ne_nil _ _)⟩
      rw [isQueue_iff]
      refine ⟨List.nodup_nil, by show q.len - 1 = _; rw [hlen]; simp, rfl, rfl⟩
    · have hne : q.head ≠ q.tail := by
        rw [hha, htl]
        exact fun e => getLast_ne_head a rest hr hnd e.symm
      obtain ⟨b, r2, hb⟩ : ∃ b r2, rest = b :: r2 := by
        cases rest with
        | nil => exact absurd rfl hr
        | cons b r2 => exact ⟨b, r2, rfl⟩
      have hnb : (h a).next = some b := by
        have := seg_head _ _ _ _ hnx.2
        rw [this, hb]
        rfl
      have hab : a ≠ b := by
        intro e
        have := (List.nodup_cons.1 hnd).1
        rw [hb, e] at this
        exact this (List.mem_cons_self _ _)
      refine ⟨store (store h b { h b with prev := none }) a
          { store h b { h b with prev := none } a with next := none },
        { q with head := some b, len := q.len - 1 }, ?_, ?_,
        fun e => absurd e (List.cons_ne_nil _ _)⟩
      · simp [Queue.pop_front, hha, hnb, hne]
        intro e
        exact absurd (hha.trans e) hne
      · rw [isQueue_iff]
        have ndr : rest.Nodup := (List.nodup_cons.1 hnd).2
        have hfr : ∀ x, x ≠ a → x ≠ b →
            store (store h b { h b with prev := none }) a
              { store h b { h b with prev := none } a with next := none } x = h x := by
          intro x h1 h2
          simp [store, h1, h2]
        refine ⟨ndr, by show q.len - 1 = _; rw [hlen]; simp, ?_, ?_⟩
        · show Seg QNode.next _ (some b) rest none
          rw [← hnb]
          refine seg_frame QNode.next h _ _ _ _ ?_ hnx.2
          intro x hx
          have hxa : x ≠ a := fun e => (List.nodup_cons.1 hnd).1 (e ▸ hx)
          by_cases hxb : x = b
          · subst hxb
            simp [store, hxa]
          · rw [hfr x hxa hxb]
        · have hpv2 : Seg QNode.prev h q.tail (rest.reverse ++ [a]) none := by
            rw [← List.reverse_cons]
            exact hpv
          have hrr : rest.reverse ≠ [] := fun e => hr (List.reverse_eq_nil_iff.1 e)
          have hgl : rest.reverse.getLast? = some b := by
            rw [List.getLast?_reverse, hb]
            rfl
          have e := seg_pop_end QNode.prev h
            (store (store h b { h b with prev := none }) a
              { store h b { h b with prev := none } a with next := none }) a rest.reverse q.tail
            hpv2 (by rw [← List.reverse_cons]; exact List.nodup_reverse.2 hnd)
            (by
              intro y hy
              have hyb : y = b := by
                rw [hgl] at hy
                exact (Option.some.inj hy).symm
              subst hyb
              simp [store, Ne.symm hab])
            (by
              intro x hx hxl
              have hx2 : x ∈ rest := List.mem_reverse.1 hx
              have hxa : x ≠ a := fun e => (List.nodup_cons.1 hnd).1 (e ▸ hx2)
              have hxb : x ≠ b := by
                intro e
                apply hxl
                rw [hgl, e]
              rw [hfr x hxa hxb])
          rw [if_neg hrr] at e
          exact e

theorem pop_back_spec (h : Nat → QNode) (q : Queue) (l : List Nat) (hq : IsQueue h q l) :
    ∃ h1 q1, q.pop_back h = some (l.getLast?, h1, q1) ∧ IsQueue h1 q1 l.dropLast ∧
      (l = [] → h1 = h ∧ q1 = q) := by
  rw [isQueue_iff] at hq
  obtain ⟨hnd, hlen, hnx, hpv⟩ := hq
  obtain ⟨hhd, htl⟩ := isQueue_ends h q l hnx hpv
  rcases List.eq_nil_or_concat l with hl | ⟨init, z, hl⟩
  · subst hl
    refine ⟨h, q, by simp [Queue.pop_back, htl], ?_, fun _ => ⟨rfl, rfl⟩⟩
    rw [isQueue_iff]
    exact ⟨hnd, hlen, hnx, hpv⟩
  · rw [List.concat_eq_append] at hl
    subst hl
    have hne0 : init ++ [z] ≠ [] := by simp
    have htz : q.tail = some z := by rw [htl]; simp
    have hgl : (init ++ [z]).getLast? = some z := by simp
    have hdl : (init ++ [z]).dropLast = init := by simp
    have hzi : z ∉ init := by
      intro hm
      have := List.nodup_append.1 hnd
      exact this.2.2 hm (List.mem_singleton_self z)
    have hpv2 : Seg QNode.prev h q.tail (z :: init.reverse) none := by
      have e : (init ++ [z]).reverse = z :: init.reverse := by simp
      rw [← e]
      exact hpv
    rw [hgl, hdl]
    by_cases hi : init = []
    · subst hi
      have hhz : q.head = some z := hhd
      refine ⟨store h z { h z with prev := none }, { head := none, tail := none, len := q.len - 1 },
        by simp [Queue.pop_back, hhz, htz], ?_, fun e => absurd e hne0⟩
      rw [isQueue_iff]
      refine ⟨List.nodup_nil, by show q.len - 1 = _; rw [hlen]; simp, rfl, rfl⟩
    · obtain ⟨t, htg⟩ : ∃ t, init.getLast? = some t := by
        cases hg : init.getLast? with
        | none => exact absurd (List.getLast?_eq_none_iff.1 hg) hi
        | some t => exact ⟨t, rfl⟩
      have htm : t ∈ init := List.mem_of_getLast?_eq_some htg
      have htz2 : t ≠ z := fun e => hzi (e ▸ htm)
      have hpz : (h z).prev = some t := by
        have := seg_head _ _ _ _ hpv2.2
        rw [this, List.head?_reverse, htg]
      have hne : q.head ≠ q.tail := by
        rw [hhd, htz]
        intro e
        have hm : z ∈ init := by
          cases init with
          | nil => exact absurd rfl hi
          | cons a r =>
            have : a = z := by simpa using e
            rw [← this]
            exact List.mem_cons_self _ _
        exact hzi hm
      have hfr : ∀ x, x ≠ z → x ≠ t →
          store (store h t { h t with next := none }) z
            { store h t { h t with next := none } z with prev := none } x = h x := by
        intro x h1 h2
        simp [store, h1, h2]
      refine ⟨store (store h t { h t with next := none }) z
          { store h t { h t with next := none } z with prev := none },
        { q with tail := some t, len := q.len - 1 }, ?_, ?_, fun e => absurd e hne0⟩
      · simp [Queue.pop_back, htz, hpz, hne]
        intro e
        exact absurd (e.trans htz.symm) hne
      · rw [isQueue_iff]
        have ndi : init.Nodup := (List.nodup_append.1 hnd).1
        refine ⟨ndi, by show q.len - 1 = _; rw [hlen]; simp, ?_, ?_⟩
        · have e := seg_pop_end QNode.next h
            (store (store h t { h t with next := none }) z
              { store h t { h t with next := none } z with prev := none }) z init q.head
            hnx hnd
            (by
              intro y hy
              have hyt : y = t := by
                rw [htg] at hy
                exact (Option.some.inj hy).symm
              subst hyt
              simp [store, htz2])
            (by
              intro x hx hxl
              have hxz : x ≠ z := fun e => hzi (e ▸ hx)
              have hxt : x ≠ t := by
                intro e
                apply hxl
                rw [htg, e]
              rw [hfr x hxz hxt])
          rw [if_neg hi] at e
          exact e
        · show Seg QNode.prev _ (some t) init.reverse none
          rw [← hpz]
          refine seg_frame QNode.prev h _ _ _ _ ?_ hpv2.2
          intro x hx
          have hx2 : x ∈ init := List.mem_reverse.1 hx
          have hxz : x ≠ z := fun e => hzi (e ▸ hx2)
          by_cases hxt : x = t
          · subst hxt
            simp [store, hxz]
          · rw [hfr x hxz hxt]

/-- The loop of `remove_pcb` along the `next` links of a queue. -/
theorem find_curr_spec (h : Nat → QNode) (pid : Int) :
    ∀ (l : List Nat) (fuel : Nat) (x : Option Nat), Seg QNode.next h x l none →
      l.length < fuel →
      Queue.find_curr fuel h x pid = some (l.find? (fun a => decide ((h a).PID = pid))) := by
  intro l
  induction l with
  | nil =>
    intro fuel x hs hf
    have hx : x = none := hs
    subst hx
    cases fuel with
    | zero => exact absurd hf (Nat.not_lt_zero _)
    | succ f => rfl
  | cons a rest ih =>
    intro fuel x hs hf
    have hx : x = some a := hs.1
    subst hx
    cases fuel with
    | zero => exact absurd hf (Nat.not_lt_zero _)
    | succ f =>
      rw [Queue.find_curr, List.find?_cons]
      by_cases hp : (h a).PID = pid
      · simp [hp]
      · simp only [hp, ne_eq, not_false_eq_true, if_true, decide_False]
        exact ih f _ hs.2 (by simpa using hf)

/-- The first node with a property splits the list. -/
theorem find_split (p : Nat → Bool) :
    ∀ (l : List Nat) (c : Nat), l.find? p = some c →
      ∃ l1 l2, l = l1 ++ c :: l2 ∧ l.eraseP p = l1 ++ l2 := by
  intro l
  induction l with
  | nil => intro c hc; simp at hc
  | cons a rest ih =>
    intro c hc
    rw [List.find?_cons] at hc
    by_cases hp : p a = true
    · rw [hp] at hc
      have : a = c := Option.some.inj hc
      subst this
      exact ⟨[], rest, rfl, by simp [List.eraseP_cons, hp]⟩
    · have hp2 : p a = false := by simpa using hp
      rw [hp2] at hc
      obtain ⟨l1, l2, e1, e2⟩ := ih c hc
      refine ⟨a :: l1, l2, by rw [e1]; rfl, ?_⟩
      rw [List.eraseP_cons, hp2]
      simp [e2]

theorem remove_pcb_spec (h : Nat → QNode) (q : Queue) (l : List Nat) (pid : Int) (fuel : Nat)
    (hq : IsQueue h q l) (hf : l.length < fuel) :
    ∃ h1 q1, q.remove_pcb fuel h pid =
        some (l.find? (fun a => decide ((h a).PID = pid)), h1, q1) ∧
      IsQueue h1 q1 (l.eraseP (fun a => decide ((h a).PID = pid))) ∧
      (l.find? (fun a => decide ((h a).PID = pid)) = none → h1 = h ∧ q1 = q) := by
  have hq0 := hq
  rw [isQueue_iff] at hq
  obtain ⟨hnd, hlen, hnx, hpv⟩ := hq
  obtain ⟨hhd, htl⟩ := isQueue_ends h q l hnx hpv
  have hfc := find_curr_spec h pid l fuel q.head hnx hf
  cases hfd : l.find? (fun a => decide ((h a).PID = pid)) with
  | none =>
    rw [hfd] at hfc
    refine ⟨h, q, by simp [Queue.remove_pcb, hfc], ?_, fun _ => ⟨rfl, rfl⟩⟩
    have he : l.eraseP (fun a => decide ((h a).PID = pid)) = l := by
      apply List.eraseP_of_forall_not
      intro a ha
      have := List.find?_eq_none.1 hfd a ha
      simpa using this
    rw [he]
    exact hq0
  | some c =>
    rw [hfd] at hfc
    obtain ⟨l1, l2, e1, e2⟩ := find_split _ l c hfd
    rw [e2]
    subst e1
    have hc1 : c ∉ l1 := by
      intro hm
      have := (List.nodup_append.1 hnd).2.2 hm (List.mem_cons_self _ _)
      exact this
    have hc2 : c ∉ l2 := by
      have := (List.nodup_append.1 hnd).2.1
      exact (List.nodup_cons.1 this).1
    by_cases hh : some c = q.head
    · have hl1 : l1 = [] := by
        cases l1 with
        | nil => rfl
        | cons a r =>
          have : some c = some a := hh.trans hhd
          have hca : c = a := Option.some.inj this
          exact absurd (hca ▸ List.mem_cons_self _ _) hc1
      subst hl1
      obtain ⟨h1, q1, p1, p2, _⟩ := pop_front_spec h q _ hq0
      refine ⟨h1, q1, ?_, p2, fun e => absurd e (by simp)⟩
      unfold Queue.remove_pcb
      rw [hfc]
      dsimp only
      rw [if_pos hh]
      exact p1
    · by_cases ht : some c = q.tail
      · have hl2 : l2 = [] := by
          rcases List.eq_nil_or_concat l2 with e | ⟨i2, z, e⟩
          · exact e
          · rw [List.concat_eq_append] at e
            subst e
            have e3 : l1 ++ c :: (i2 ++ [z]) = (l1 ++ c :: i2) ++ [z] := by simp
            have : some c = some z := by
              rw [ht, htl, e3, List.getLast?_concat]
            have hcz : c = z := Option.some.inj this
            exact absurd (by rw [hcz]; simp) hc2
        subst hl2
        obtain ⟨h1, q1, p1, p2, _⟩ := pop_back_spec h q _ hq0
        have eg : (l1 ++ [c]).getLast? = some c := by simp
        have ed : (l1 ++ [c]).dropLast = l1 := by simp
        rw [eg] at p1
        rw [ed] at p2
        refine ⟨h1, q1, ?_, by rw [List.append_nil]; exact p2, fun e => absurd e (by simp)⟩
        unfold Queue.remove_pcb
        rw [hfc]
        dsimp only
        rw [if_neg hh, if_pos ht]
        exact p1
      · have hl1 : l1 ≠ [] := by
          intro e
          subst e
          exact hh hhd.symm
        have hl2 : l2 ≠ [] := by
          intro e
          subst e
          apply ht
          rw [htl]
          simp
        obtain ⟨pv, hpvl⟩ : ∃ pv, l1.getLast? = some pv := by
          cases hg : l1.getLast? with
          | none => exact absurd (List.getLast?_eq_none_iff.1 hg) hl1
          | some t => exact ⟨t, rfl⟩
        obtain ⟨nx, r2, hnxl⟩ : ∃ nx r2, l2 = nx :: r2 := by
          cases l2 with
          | nil => exact absurd rfl hl2
          | cons b r => exact ⟨b, r, rfl⟩
        have hpm : pv ∈ l1 := List.mem_of_getLast?_eq_some hpvl
        have hnm : nx ∈ l2 := by rw [hnxl]; exact List.mem_cons_self _ _
        have hrev : (l1 ++ c :: l2).reverse = l2.reverse ++ c :: l1.reverse := by simp
        have hpv2 : Seg QNode.prev h q.tail (l2.reverse ++ c :: l1.reverse) none := by
          rw [← hrev]
          exact hpv
        have hcn : (h c).next = some nx := by
          have := seg_head _ _ _ _ (seg_mid QNode.next h c l2 l1 _ _ hnx)
          rw [this, hnxl]
          rfl
        have hcp : (h c).prev = some pv := by
          have := seg_head _ _ _ _ (seg_mid QNode.prev h c l1.reverse l2.reverse _ _ hpv2)
          rw [this, List.head?_reverse, hpvl]
        have hdis := (List.nodup_append.1 hnd).2.2
        have hpn : pv ≠ nx := by
          intro e
          exact hdis hpm (List.mem_cons_of_mem _ (e ▸ hnm))
        have hfr : ∀ x, x ≠ pv → x ≠ nx →
            store (store h pv { h pv with next := some nx }) nx
              { store h pv { h pv with next := some nx } nx with prev := some pv } x = h x := by
          intro x h1 h2
          simp [store, h1, h2]
        have ndl : (l1 ++ l2).Nodup := by
          have hn := List.nodup_append.1 hnd
          rw [List.nodup_append]
          exact ⟨hn.1, (List.nodup_cons.1 hn.2.1).2,
            fun a ha1 ha2 => hn.2.2 ha1 (List.mem_cons_of_mem _ ha2)⟩
        refine ⟨store (store h pv { h pv with next := some nx }) nx
            { store h pv { h pv with next := some nx } nx with prev := some pv },
          { q with len := q.len - 1 }, ?_, ?_, fun e => absurd e (by simp)⟩
        · unfold Queue.remove_pcb
          rw [hfc]
          dsimp only
          rw [if_neg hh, if_neg ht, hcp, hcn]
        · rw [isQueue_iff]
          refine ⟨ndl, by show q.len - 1 = _; rw [hlen]; simp; omega, ?_, ?_⟩
          · refine seg_remove_mid QNode.next h _ c l2 l1 q.head hl1 hnx hnd ?_ ?_
            · intro y hy
              have hyp : y = pv := by
                rw [hpvl] at hy
                exact (Option.some.inj hy).symm
              subst hyp
              rw [hcn]
              simp [store, hpn]
            · intro x hx hxl
              have hxp : x ≠ pv := by
                intro e
                apply hxl
                rw [hpvl, e]
              by_cases hxn : x = nx
              · subst hxn
                simp [store, hxp]
              · rw [hfr x hxp hxn]
          · have hr2 : (l1 ++ l2).reverse = l2.reverse ++ l1.reverse := by simp
            rw [hr2]
            have hgl : l2.reverse.getLast? = some nx := by
              rw [List.getLast?_reverse, hnxl]
              rfl
            refine seg_remove_mid QNode.prev h _ c l1.reverse l2.reverse q.tail
              (fun e => hl2 (List.reverse_eq_nil_iff.1 e)) hpv2
              (by rw [← hrev]; exact List.nodup_reverse.2 hnd) ?_ ?_
            · intro y hy
              have hyn : y = nx := by
                rw [hgl] at hy
                exact (Option.some.inj hy).symm
              subst hyn
              rw [hcp]
              simp [store]
            · intro x hx hxl
              have hxn : x ≠ nx := by
                intro e
                apply hxl
                rw [hgl, e]
              by_cases hxp : x = pv
              · subst hxp
                simp [store, hxn]
              · rw [hfr x hxp hxn]

/-- C35. Queue refines a list: when the queue `q` in memory is the list `l`
of nodes (`IsQueue`: the `next` links from the head give `l`, the `prev`
links from the tail give `l` reversed, `len` is its length), then after
`push_back` of a node not yet in the queue it is `l ++ [n]`, after
`push_front` it is `n :: l`; `pop_front` and `pop_back` return the first and
the last node and leave `l.tail` and `l.dropLast` (on the empty queue they
return `NULL` and change nothing); and `remove_pcb(pid)` returns the first
node of `l` whose PCB has that PID and leaves `l` without it, the others in
their order (`NULL` and no change when there is none). -/
theorem queue_refines_list (h : Nat → QNode) (q : Queue) (l : List Nat) (hq : IsQueue h q l) :
    (∀ n, n ∉ l → IsQueue (q.push_back h (some n)).1 (q.push_back h (some n)).2 (l ++ [n])) ∧
    (∀ n, n ∉ l → IsQueue (q.push_front h (some n)).1 (q.push_front h (some n)).2 (n :: l)) ∧
    (∃ h1 q1, q.pop_front h = some (l.head?, h1, q1) ∧ IsQueue h1 q1 l.tail ∧
      (l = [] → h1 = h ∧ q1 = q)) ∧
    (∃ h1 q1, q.pop_back h = some (l.getLast?, h1, q1) ∧ IsQueue h1 q1 l.dropLast ∧
      (l = [] → h1 = h ∧ q1 = q)) ∧
    (∀ pid fuel, l.length < fuel →
      ∃ h1 q1, q.remove_pcb fuel h pid =
          some (l.find? (fun a => decide ((h a).PID = pid)), h1, q1) ∧
        IsQueue h1 q1 (l.eraseP (fun a => decide ((h a).PID = pid))) ∧
        (l.find? (fun a => decide ((h a).PID = pid)) = none → h1 = h ∧ q1 = q)) :=
  ⟨fun n hn => push_back_spec h q l n hq hn, fun n hn => push_front_spec h q l n hq hn,
    pop_front_spec h q l hq, pop_back_spec h q l hq,
    fun pid fuel hf => remove_pcb_spec h q l pid fuel hq hf⟩

/-- C35, witness: the queue made by `push_back` of the nodes 1 and 2 on the
empty queue is the list `[1, 2]`. -/
theorem queue_refines_list_witness :
    IsQueue ex_pushed.1 ex_pushed.2 [1, 2] ∧
    (∀ n, n ∉ [1, 2] →
      IsQueue (ex_pushed.2.push_back ex_pushed.1 (some n)).1
        (ex_pushed.2.push_back ex_pushed.1 (some n)).2 ([1, 2] ++ [n])) ∧
    (∀ n, n ∉ [1, 2] →
      IsQueue (ex_pushed.2.push_front ex_pushed.1 (some n)).1
        (ex_pushed.2.push_front ex_pushed.1 (some n)).2 (n :: [1, 2])) ∧
    (∃ h1 q1, ex_pushed.2.pop_front ex_pushed.1 = some ([1, 2].head?, h1, q1) ∧
      IsQueue h1 q1 [1, 2].tail ∧ ([1, 2] = [] → h1 = ex_pushed.1 ∧ q1 = ex_pushed.2)) ∧
    (∃ h1 q1, ex_pushed.2.pop_back ex_pushed.1 = some ([1, 2].getLast?, h1, q1) ∧
      IsQueue h1 q1 [1, 2].dropLast ∧ ([1, 2] = [] → h1 = ex_pushed.1 ∧ q1 = ex_pushed.2)) ∧
    (∀ pid fuel, [1, 2].length < fuel →
      ∃ h1 q1, ex_pushed.2.remove_pcb fuel ex_pushed.1 pid =
          some ([1, 2].find? (fun a => decide ((ex_pushed.1 a).PID = pid)), h1, q1) ∧
        IsQueue h1 q1 ([1, 2].eraseP (fun a => decide ((ex_pushed.1 a).PID = pid))) ∧
        ([1, 2].find? (fun a => decide ((ex_pushed.1 a).PID = pid)) = none →
          h1 = ex_pushed.1 ∧ q1 = ex_pushed.2)) :=
  ⟨⟨by decide, by decide, by decide, by decide⟩,
    queue_refines_list ex_pushed.1 ex_pushed.2 [1, 2] ⟨by decide, by decide, by decide, by decide⟩⟩
/-! ## C31: the size of a directory and its listing -/

theorem slot_kind_eod (c : Nat) : slot_kind c = 0 ↔ c = EOD_FLAG := by
  unfold slot_kind
  by_cases h : c = EOD_FLAG
  · simp [h]
  · rw [if_neg h]
    by_cases h2 : c = CLEANED_FLAG ∨ c = REMOVED_FLAG
    · rw [if_pos h2]; simp [h]
    · rw [if_neg h2]; simp [h]

theorem slot_kind_live (a : Entry) : live a = true ↔ slot_kind a.file.name0 = 2 := by
  rw [live_iff]
  unfold slot_kind
  by_cases h : a.file.name0 = EOD_FLAG
  · simp [h]
  · rw [if_neg h]
    by_cases h2 : a.file.name0 = CLEANED_FLAG ∨ a.file.name0 = REMOVED_FLAG
    · rw [if_pos h2]
      constructor
      · intro h3
        rcases h2 with h2 | h2
        · exact absurd h2 h3.2.1
        · exact absurd h2 h3.2.2
      · intro h3
        exact absurd h3 (by decide)
    · rw [if_neg h2]
      constructor
      · intro _; rfl
      · intro _
        exact ⟨h, fun h3 => h2 (Or.inl h3), fun h3 => h2 (Or.inr h3)⟩

theorem live_congr (a b : Entry) (h : slot_kind a.file.name0 = slot_kind b.file.name0) :
    live a = live b := by
  have ha := slot_kind_live a
  have hb := slot_kind_live b
  rw [h] at ha
  cases hla : live a <;> cases hlb : live b <;> simp_all

/-- The EOD flag and the number of live entries of a listing depend only on
the kinds of the slots. -/
theorem upto_eod_kind :
    ∀ (A B : List Entry),
      A.map (fun e => slot_kind e.file.name0) = B.map (fun e => slot_kind e.file.name0) →
      (upto_eod A).2 = (upto_eod B).2 ∧
        live_count (upto_eod A).1 = live_count (upto_eod B).1 := by
  intro A
  induction A with
  | nil =>
    intro B h
    cases B with
    | nil => exact ⟨rfl, rfl⟩
    | cons b B => simp at h
  | cons a A ih =>
    intro B h
    cases B with
    | nil => simp at h
    | cons b B =>
      simp only [List.map_cons, List.cons.injEq] at h
      obtain ⟨h0, ht⟩ := h
      obtain ⟨i1, i2⟩ := ih B ht
      have hl : live a = live b := live_congr a b h0
      have he : a.file.name0 = EOD_FLAG ↔ b.file.name0 = EOD_FLAG := by
        rw [← slot_kind_eod a.file.name0, ← slot_kind_eod b.file.name0, h0]
      simp only [upto_eod]
      by_cases h1 : a.file.name0 = EOD_FLAG
      · rw [if_pos h1, if_pos (he.1 h1)]
        refine ⟨rfl, ?_⟩
        rw [live_count_cons, live_count_cons, hl]
      · rw [if_neg h1, if_neg (fun h2 => h1 (he.2 h2))]
        refine ⟨i1, ?_⟩
        show live_count (a :: (upto_eod A).1) = live_count (b :: (upto_eod B).1)
        rw [live_count_cons, live_count_cons, hl, i2]

theorem dir_slots_kind (s s1 : FS) (hbs : s1.block_size = s.block_size) :
    ∀ (L : List Nat),
      (∀ y ∈ L, ∀ k, k < s.block_size / 64 →
        slot_kind (slot s1 y k).file.name0 = slot_kind (slot s y k).file.name0) →
      (dir_slots s1 L).map (fun e => slot_kind e.file.name0) =
        (dir_slots s L).map (fun e => slot_kind e.file.name0) := by
  intro L
  induction L with
  | nil => intro _; rfl
  | cons b rest ih =>
    intro h
    simp only [dir_slots, List.map_append, hbs]
    rw [ih (fun y hy => h y (List.mem_cons_of_mem _ hy))]
    congr 1
    simp only [slots_from, List.map_map]
    apply List.map_congr_left
    intro k hk
    have hk2 := List.mem_range'_1.mp hk
    exact h b (List.mem_cons_self _ _) k (by omega)

/-- The directory described by `f` keeps the size invariant when the FAT
entries of its chain and the kinds of the slots of its chain are kept. -/
theorem sizeInv_kept_file (fuel : Nat) (s s1 : FS) (f : File) (L : List Nat)
    (hbs : s1.block_size = s.block_size) (hfbs : s1.fat_blocks = s.fat_blocks)
    (hch : IsChain s.fat f.first_block L) (hshort : L.length ≤ fuel)
    (hclosed : (upto_eod (dir_slots s L)).2 = true)
    (hfat : ∀ y ∈ L, s1.fat y = s.fat y)
    (hkind : ∀ y ∈ L, ∀ i, i < s.block_size / 64 →
      slot_kind (s1.disk (phys s y + 64 * i)) = slot_kind (s.disk (phys s y + 64 * i)))
    (h : SizeInv fuel s f) : SizeInv fuel s1 f := by
  have hp : ∀ y, phys s1 y = phys s y := by intro y; unfold phys; rw [hbs, hfbs]
  have hk : ∀ y ∈ L, ∀ i, i < s.block_size / 64 →
      slot_kind (slot s1 y i).file.name0 = slot_kind (slot s y i).file.name0 := by
    intro y hy i hi
    rw [slot_name0, slot_name0, hp]
    exact hkind y hy i hi
  have hc := upto_eod_kind _ _ (dir_slots_kind s s1 hbs L hk)
  have hch1 : IsChain s1.fat f.first_block L := isChain_congr s.fat s1.fat L _ hfat hch
  have e0 := enum_directory_chain fuel s _ L hch hshort hclosed
  have e1 := enum_directory_chain fuel s1 _ L hch1 hshort (by rw [hc.1]; exact hclosed)
  obtain ⟨es, hes, hsz⟩ := h
  rw [e0] at hes
  simp only [Option.some.injEq] at hes
  subst hes
  exact ⟨_, e1, by rw [hsz, hc.2]⟩

/-- A directory keeps the size invariant when its slot, the FAT entries of
its chain and the kinds of the slots of its chain are kept. -/
theorem sizeInv_kept (fuel : Nat) (s s1 : FS) (b k : Nat) (L : List Nat)
    (hbs : s1.block_size = s.block_size) (hfbs : s1.fat_blocks = s.fat_blocks)
    (hx : DirAt fuel s b k L)
    (hslot : ∀ j, j < 48 → s1.disk (phys s b + 64 * k + j) = s.disk (phys s b + 64 * k + j))
    (hfat : ∀ y ∈ L, s1.fat y = s.fat y)
    (hkind : ∀ y ∈ L, ∀ i, i < s.block_size / 64 →
      slot_kind (s1.disk (phys s y + 64 * i)) = slot_kind (s.disk (phys s y + 64 * i)))
    (h : SizeInv fuel s (slot s b k).file) : SizeInv fuel s1 (slot s1 b k).file := by
  rw [slot_frame s s1 hbs hfbs b k hslot]
  exact sizeInv_kept_file fuel s s1 _ L hbs hfbs hx.chain hx.short hx.closed hfat hkind h

theorem slot_apart_bytes (s : FS) (b k b1 k1 j : Nat) (hk : k < s.block_size / 64)
    (hk1 : k1 < s.block_size / 64) (hne : phys s b + 64 * k ≠ phys s b1 + 64 * k1)
    (hj : j < 64) :
    phys s b + 64 * k + j < phys s b1 + 64 * k1 ∨
      phys s b1 + 64 * k1 + 48 ≤ phys s b + 64 * k + j := by
  rcases slot_pos_cases s b k b1 k1 hk hk1 with h | h | h
  · exact absurd h hne
  · left; omega
  · right; omega

theorem slot_not_free (s : FS) (b k j : Nat) (hfb : 1 ≤ s.fat_blocks)
    (hk : k < s.block_size / 64) (hj : j < 64) (hu : s.fat b ≠ FREE_BLOCK) :
    ∀ j1, 1 ≤ j1 → s.fat j1 = FREE_BLOCK → ¬ InBlock s j1 (phys s b + 64 * k + j) := by
  intro j1 _ hf hin
  obtain ⟨h1, h2⟩ := hin
  have hne : b ≠ j1 := fun h => hu (by rw [h]; exact hf)
  have hd := phys_disjoint s b j1 (64 * k + j) (phys s b + 64 * k + j - phys s j1) hfb hne
    (by have := slot_end_le s.block_size k hk; omega) (by omega)
  omega

theorem slot_pos_inj (s : FS) (b k b1 k1 : Nat) (hfb : 1 ≤ s.fat_blocks)
    (hk : k < s.block_size / 64) (hk1 : k1 < s.block_size / 64)
    (h : phys s b + 64 * k = phys s b1 + 64 * k1) : b = b1 ∧ k = k1 := by
  by_cases hb : b = b1
  · subst hb
    exact ⟨rfl, by omega⟩
  · have hd := phys_disjoint s b b1 (64 * k) (64 * k1) hfb hb
      (by have := slot_end_le s.block_size k hk; omega)
      (by have := slot_end_le s.block_size k1 hk1; omega)
    exact absurd h hd

theorem read_File_name0 (s : FS) (p : Nat) : (read_File s p).name0 = s.disk p := by
  unfold File.name0 read_File read_bytes
  show ((List.range 32).map (fun j => s.disk (p + j))).headD 0 = _
  rw [headD_map_range (fun j => s.disk (p + j)) 31]
  rfl

/-- The directories after a successful `create_file`: the parent's stored
size and its listing both grow by one entry, and every other directory slot
whose chain is apart from the block of the new slot is as before. -/
theorem create_file_sizes (fuel : Nat) (s : FS) (now : Nat) (path_str nm : List Nat)
    (type : Nat) (d : Entry) (en : Nat) (L1 L2 : List Nat) (bj i : Nat)
    (hv : ValidConfig s)
    (hd : find_directory (fuel + 1) s (split_path path_str).dir s.errno = some (d, en))
    (hd0 : d.file.name0 ≠ EOD_FLAG)
    (hdw : d.file.perm &&& WRITE_PERM ≠ 0)
    (hname : (split_path path_str).name = some nm)
    (hlen : nm.length ≤ 31) (htype : type < 256)
    (hch : IsChain s.fat d.file.first_block (L1 ++ bj :: L2))
    (hnd : (L1 ++ bj :: L2).Nodup)
    (hnz : ∀ x ∈ L1 ++ bj :: L2, x ≠ 0 ∧ s.fat x ≠ FREE_BLOCK)
    (hfuel : (L1 ++ bj :: L2).length ≤ fuel)
    (hi : i < s.block_size / 64)
    (hflag : (upto_eod (dir_slots s (L1 ++ bj :: L2))).2 = true)
    (hno : ∀ x ∈ (upto_eod (dir_slots s (L1 ++ bj :: L2))).1,
      cstr x.file.name ≠ cstr nm ∧ (x.file.name0 = EOD_FLAG → x.file.type ≠ LINK_FILE))
    (hpre : ∀ x ∈ dir_slots s L1 ++ slots_from s bj 0 i,
      x.file.name0 ≠ EOD_FLAG ∧ x.file.name0 ≠ CLEANED_FLAG ∧ x.file.name0 ≠ REMOVED_FLAG)
    (hr : (slot s bj i).file.name0 = EOD_FLAG ∨ (slot s bj i).file.name0 = CLEANED_FLAG ∨
      (slot s bj i).file.name0 = REMOVED_FLAG)
    (heod : (slot s bj i).file.name0 = EOD_FLAG →
      L2 = [] ∧ (i + 1 < s.block_size / 64 → (slot s bj (i + 1)).file.name0 = EOD_FLAG))
    (hslip : s.fat_blocks = 1 ∨ i + 1 < s.block_size / 64)
    (hslot : 0 ≤ d.position →
      d.position.toNat / s.block_size + 1 - s.fat_blocks ∉ L1 ++ bj :: L2 ∧
      s.fat (d.position.toNat / s.block_size + 1 - s.fat_blocks) ≠ FREE_BLOCK)
    (hfree1 : type = DIRECTORY_FILE → HasFree s)
    (hfree2 : (slot s bj i).file.name0 = EOD_FLAG → i + 1 = s.block_size / 64 →
      ∃ j, (1 ≤ j ∧ j ≤ s.data_blocks ∧ s.fat j = FREE_BLOCK) ∧
        (type = DIRECTORY_FILE →
          ∃ j2, j ≠ j2 ∧ 1 ≤ j2 ∧ j2 ≤ s.data_blocks ∧ s.fat j2 = FREE_BLOCK))
    (hn1 : nm.headD 0 ≠ CLEANED_FLAG) (hn2 : nm.headD 0 ≠ REMOVED_FLAG) :
    ∃ s4, create_file (fuel + 1) s now path_str type = some (0, s4) ∧
      (0 ≤ d.position → d.file.size + 64 < 2 ^ 32 → d.file.first_block < 2 ^ 16 →
        SizeInv (fuel + 1) s d.file →
        SizeInv (fuel + 1) s4 (read_File s4 d.position.toNat)) ∧
      (∀ b k L, DirAt (fuel + 1) s b k L → (slot s b k).position ≠ d.position →
        (b ≠ bj ∨ k ≠ i) → bj ∉ L →
        SizeInv (fuel + 1) s (slot s b k).file → SizeInv (fuel + 1) s4 (slot s4 b k).file) ∧
      (type = DIRECTORY_FILE → SizeInv (fuel + 1) s4 (slot s4 bj i).file) := by
  obtain ⟨s4, hc, _, _, hframe, hgeo, hfat, hlist, hread, hnew⟩ :=
    create_file_core fuel s now path_str nm type d en L1 L2 bj i hv hd hd0 hdw hname hlen htype
      hch hnd hnz hfuel hi hflag hno hpre hr heod hslip hslot hfree1 hfree2
  obtain ⟨_, _, hfb, _⟩ := hv
  have hds : d = root ∨ IsSlot s d := find_directory_slot (fuel + 1) s _ _ (d, en) hd hd0
  -- bytes of a slot other than the parent's and the new one
  have hbyte : ∀ b k j, k < s.block_size / 64 → j < 48 → s.fat b ≠ FREE_BLOCK →
      (slot s b k).position ≠ d.position → phys s b + 64 * k ≠ phys s bj + 64 * i →
      s4.disk (phys s b + 64 * k + j) = s.disk (phys s b + 64 * k + j) := by
    intro b k j hk hj hu hnd1 hnn
    apply hframe
    · rcases hds with h | ⟨bd, kd, hkd, h⟩
      · left; rw [h]; decide
      · right
        have hp : d.position = ((phys s bd + 64 * kd : Nat) : Int) := by rw [h]; rfl
        rw [hp, Int.toNat_ofNat]
        have hne : phys s b + 64 * k ≠ phys s bd + 64 * kd := by
          intro he
          apply hnd1
          rw [hp]
          show ((phys s b + 64 * k : Nat) : Int) = _
          rw [he]
        exact slot_apart_bytes s b k bd kd j hk hkd hne (by omega)
    · exact slot_apart_bytes s b k bj i j hk hi hnn (by omega)
    · exact slot_not_free s b k j hfb hk (by omega) hu
  refine ⟨s4, hc, ?_, ?_, hnew⟩
  · intro hdp hsz hfb16 hinv
    obtain ⟨es4, hen4, hcount⟩ := hlist hn1 hn2
    obtain ⟨es, hes, hsize⟩ := hinv
    have e0 := enum_directory_chain (fuel + 1) s _ _ hch (by omega) hflag
    rw [e0] at hes
    simp only [Option.some.injEq] at hes
    subst hes
    have hr1 := hread hdp
    have hfbk : (read_File s4 d.position.toNat).first_block = d.file.first_block := by
      rw [hr1, stored_first_block]
      show d.file.first_block % 2 ^ 16 = _
      exact Nat.mod_eq_of_lt hfb16
    have hszk : (read_File s4 d.position.toNat).size = d.file.size + 64 := by
      rw [hr1]
      show (d.file.size + 64) % 2 ^ 32 % 2 ^ 32 = _
      rw [Nat.mod_mod, Nat.mod_eq_of_lt hsz]
    refine ⟨es4, by rw [hfbk]; exact hen4, ?_⟩
    rw [hszk, hcount, hsize]
    omega
  · intro b k L hx hne hbk hbj hinv
    apply sizeInv_kept (fuel + 1) s s4 b k L hgeo.1 hgeo.2 hx _ _ _ hinv
    · intro j hj
      apply hbyte b k j hx.slot_lt hj hx.used hne
      intro he
      have := slot_pos_inj s b k bj i hfb hx.slot_lt hi he
      rcases hbk with h | h
      · exact h this.1
      · exact h this.2
    · intro y hy
      exact hfat y (fun h => hbj (by rw [← h]; exact hy)) (hx.chain_used y hy)
    · intro y hy k1 hk1
      have hyj : y ≠ bj := fun h => hbj (by rw [← h]; exact hy)
      have hnn : phys s y + 64 * k1 ≠ phys s bj + 64 * i := by
        intro he
        exact hyj (slot_pos_inj s y k1 bj i hfb hk1 hi he).1
      by_cases hpd : (slot s y k1).position = d.position
      · have hdp : 0 ≤ d.position := by rw [← hpd]; exact Int.natCast_nonneg _
        have hpn : d.position.toNat = phys s y + 64 * k1 := by
          rw [← hpd]
          simp only [slot, Int.toNat_ofNat]
        have hr1 := hread hdp
        have h1 : s4.disk (phys s y + 64 * k1) = d.file.name0 := by
          rw [← hpn, ← read_File_name0 s4, hr1, stored_name0]
          rfl
        have h2 : s.disk (phys s y + 64 * k1) = d.file.name0 := by
          rcases hds with h | h
          · rw [h] at hdp
            exact absurd hdp (by decide)
          · rw [isSlot_file s d h, read_File_name0, hpn]
        rw [h1, h2]
      · have := hbyte y k1 0 hk1 (by omega) (hx.chain_used y hy) hpd hnn
        simp only [Nat.add_zero] at this
        rw [this]

theorem live_count_map (upd : Entry → Entry) :
    ∀ (es : List Entry), (∀ z ∈ es, live (upd z) = live z) →
      live_count (es.map upd) = live_count es := by
  intro es
  induction es with
  | nil => intro _; rfl
  | cons a rest ih =>
    intro h
    rw [List.map_cons, live_count_cons, live_count_cons, h a (List.mem_cons_self _ _),
      ih (fun z hz => h z (List.mem_cons_of_mem _ hz))]

theorem live_count_remove (upd : Entry → Entry) (e : Entry) (hl : live e = true)
    (h1 : live (upd e) = false) :
    ∀ (es : List Entry), e ∈ es → (es.map Entry.position).Nodup →
      (∀ z ∈ es, z.position ≠ e.position → live (upd z) = live z) →
      live_count (es.map upd) + 1 = live_count es := by
  intro es
  induction es with
  | nil => intro h; simp at h
  | cons a rest ih =>
    intro hmem hnd h2
    rw [List.map_cons, List.nodup_cons] at hnd
    obtain ⟨ha, hnd2⟩ := hnd
    rw [List.map_cons, live_count_cons, live_count_cons]
    by_cases hae : a = e
    · subst hae
      have hrest : ∀ z ∈ rest, z.position ≠ a.position := by
        intro z hz hp
        exact ha (by rw [← hp]; exact List.mem_map_of_mem _ hz)
      rw [live_count_map upd rest
        (fun z hz => h2 z (List.mem_cons_of_mem _ hz) (hrest z hz)), hl, h1]
      simp only [if_true, Bool.false_eq_true, if_false]
      omega
    · have hmem2 : e ∈ rest := by
        rcases List.mem_cons.mp hmem with h | h
        · exact absurd h.symm hae
        · exact h
      have hap : a.position ≠ e.position := by
        intro hp
        exact ha (by rw [hp]; exact List.mem_map_of_mem _ hmem2)
      have := ih hmem2 hnd2 (fun z hz => h2 z (List.mem_cons_of_mem _ hz))
      rw [h2 a (List.mem_cons_self _ _) hap]
      omega

theorem removed_slot_live (s : FS) (now : Nat) (d e z : Entry)
    (hd : d = root ∨ IsSlot s d) (hz : IsSlot s z) (hp : z.position ≠ e.position) :
    live (removed_slot now d e z) = live z := by
  have hn := removed_slot_name s now d e z hd hz
  rw [if_neg hp] at hn
  unfold live File.name0
  rw [hn]

theorem removed_slot_self (now : Nat) (d e : Entry) :
    live (removed_slot now d e e) = false := by
  have h : (removed_slot now d e e).file = (flagged e).stored := by
    unfold removed_slot
    rw [if_pos rfl]
  have h2 : (removed_slot now d e e).file.name0 = REMOVED_FLAG := by
    rw [h, stored_name0]
    rfl
  unfold live
  rw [h2]
  decide

/-- The directories after a successful `remove_file`: the parent's stored
size and its listing both lose one entry, and every other directory slot
that does not list the removed slot is as before. -/
theorem remove_file_sizes (fuel : Nat) (s : FS) (now : Nat) (path_str nm : List Nat)
    (d e : Entry) (en en1 : Nat) (es : List Entry)
    (hd : find_directory fuel s (split_path path_str).dir s.errno = some (d, en))
    (hd0 : d.file.name0 ≠ EOD_FLAG)
    (hdw : d.file.perm &&& WRITE_PERM ≠ 0)
    (hname : (split_path path_str).name = some nm)
    (he : find_file fuel s (some nm) d.file.first_block SKIP_NONE en = some (e, en1))
    (he0 : e.file.name0 ≠ EOD_FLAG)
    (hlive : live e = true)
    (henum : enum_directory fuel s d.file.first_block = some es)
    (hpos : (es.map Entry.position).Nodup) :
    ∃ s1, remove_file fuel s now path_str = some (e.position, s1) ∧
      (0 ≤ d.position → d.position ≠ e.position → d.file.size < 2 ^ 32 →
        d.file.first_block < 2 ^ 16 →
        SizeInv fuel s d.file → SizeInv fuel s1 (read_File s1 d.position.toNat)) ∧
      (∀ b k ex, k < s.block_size / 64 →
        enum_directory fuel s (slot s b k).file.first_block = some ex →
        (slot s b k).position ≠ e.position → (slot s b k).position ≠ d.position →
        (∀ z ∈ ex, z.position ≠ e.position) →
        SizeInv fuel s (slot s b k).file → SizeInv fuel s1 (slot s1 b k).file) := by
  obtain ⟨es1, hes1, hmem, _⟩ := find_file_none_mem fuel s nm _ en (e, en1) he
  rw [henum] at hes1
  simp only [Option.some.injEq] at hes1
  subst hes1
  have hes : IsSlot s e := enum_directory_slot fuel s _ es henum e hmem
  have hds : d = root ∨ IsSlot s d := find_directory_slot fuel s _ _ (d, en) hd hd0
  have hepos : 0 ≤ e.position := isSlot_position s e hes
  refine ⟨removed_state s now d e en1, ?_, ?_, ?_⟩
  · unfold remove_file
    simp only [hd, hname, he]
    rw [if_neg hd0, if_neg hdw, if_neg he0, if_neg (not_lt.mpr hepos)]
    unfold removed_state shrunk flagged
    rfl
  · intro hdp hne hsz hfb16 hinv
    have hdsl : IsSlot s d := by
      rcases hds with h | h
      · rw [h] at hdp; exact absurd hdp (by decide)
      · exact h
    have hrd : read_File (removed_state s now d e en1) d.position.toNat =
        (shrunk now d).stored := removed_state_parent s now d e en1 hds hes hdp hne
    obtain ⟨es0, hes0, hsize⟩ := hinv
    rw [henum] at hes0
    simp only [Option.some.injEq] at hes0
    subst hes0
    have hcount := live_count_remove (removed_slot now d e) e hlive
      (removed_slot_self now d e) es hmem hpos
      (fun z hz hp => removed_slot_live s now d e z hds
        (enum_directory_slot fuel s _ es henum z hz) hp)
    have hen1 := enum_directory_removed fuel s now d e en1 _ es hds hes he0 henum
    have hfbk : (read_File (removed_state s now d e en1) d.position.toNat).first_block =
        d.file.first_block := by
      have h2 : (shrunk now d).first_block = d.file.first_block := by
        unfold shrunk
        rfl
      rw [hrd, stored_first_block, h2]
      exact Nat.mod_eq_of_lt hfb16
    have hszk : (read_File (removed_state s now d e en1) d.position.toNat).size + 64 =
        d.file.size := by
      have h1 : (shrunk now d).stored.size = (shrunk now d).size % 2 ^ 32 := by
        unfold File.stored
        rfl
      have h2 : (shrunk now d).size = (d.file.size + 2 ^ 32 - 64) % 2 ^ 32 := by
        unfold shrunk
        rfl
      rw [hrd, h1, h2, Nat.mod_mod]
      have h64 : 64 ≤ d.file.size := by omega
      have hx : d.file.size + 2 ^ 32 - 64 = (d.file.size - 64) + 2 ^ 32 := by omega
      rw [hx, Nat.add_mod_right, Nat.mod_eq_of_lt (by omega)]
      omega
    refine ⟨_, by rw [hfbk]; exact hen1, ?_⟩
    omega
  · intro b k ex hk hex hne1 hne2 hnot hinv
    have hsl := removed_state_slot s now d e en1 hes hds b k hk
    have hrs : removed_slot now d e (slot s b k) = slot s b k := by
      unfold removed_slot
      rw [if_neg hne1, if_neg hne2]
    rw [hrs] at hsl
    obtain ⟨es0, hes0, hsize⟩ := hinv
    rw [hex] at hes0
    simp only [Option.some.injEq] at hes0
    subst hes0
    have hen1 := enum_directory_removed fuel s now d e en1 _ ex hds hes he0 hex
    rw [hsl]
    refine ⟨_, hen1, ?_⟩
    rw [hsize, live_count_map _ ex (fun z hz => removed_slot_live s now d e z hds
      (enum_directory_slot fuel s _ ex hex z hz) (hnot z hz))]

theorem frame_refl (s : FS) (R : Nat → Prop) (p : Int) (x : Nat) :
    Frame s { s with errno := x } R p :=
  ⟨rfl, rfl, rfl, fun _ _ => rfl, fun _ _ _ _ _ => rfl⟩

theorem frame_trans (s s1 s2 : FS) (R : Nat → Prop) (p : Int)
    (h1 : Frame s s1 R p) (h2 : Frame s1 s2 R p) : Frame s s2 R p := by
  obtain ⟨a1, a2, a3, a4, a5⟩ := h1
  obtain ⟨b1, b2, b3, b4, b5⟩ := h2
  have hp : ∀ b, phys s1 b = phys s b := by intro b; unfold phys; rw [a1, a2]
  refine ⟨b1.trans a1, b2.trans a2, b3.trans a3, fun b hb => (b4 b hb).trans (a4 b hb), ?_⟩
  intro b k hb hk hc
  have := b5 b k hb (by rw [a1]; exact hk) (by rw [hp]; exact hc)
  rw [hp] at this
  rw [this]
  exact a5 b k hb hk hc

theorem frame_weaken (s s1 : FS) (R : Nat → Prop) (p : Int) (h : Frame s s1 R (-1)) :
    Frame s s1 R p := by
  obtain ⟨a1, a2, a3, a4, a5⟩ := h
  exact ⟨a1, a2, a3, a4, fun b k hb hk _ => a5 b k hb hk (Or.inl (by decide))⟩

theorem chainClosed_congr (s s1 : FS) (R : Nat → Prop) (hf : s1.fat = s.fat)
    (hd : s1.data_blocks = s.data_blocks) (h : ChainClosed s R) : ChainClosed s1 R := by
  unfold ChainClosed
  rw [hf, hd]
  exact h

theorem extend_data_frame (s : FS) (blk : Nat) (R : Nat → Prop) (hfb : 1 ≤ s.fat_blocks)
    (hc : ChainClosed s R) (hblk : blk = 0 ∨ (R blk ∧ s.fat blk = LAST_BLOCK)) :
    Frame s (extend_data s blk).2 R (-1) ∧ ChainClosed (extend_data s blk).2 R ∧
    ((extend_data s blk).1 ≠ 0 →
      R (extend_data s blk).1 ∧
        (extend_data s blk).2.fat (extend_data s blk).1 = LAST_BLOCK) := by
  rcases extend_data_cases s blk with ⟨_, h⟩ | ⟨i, hi, h⟩
  · rw [h]
    exact ⟨frame_refl s R (-1) ENOSPC, chainClosed_congr s _ R rfl rfl hc,
      fun h0 => absurd rfl h0⟩
  · rw [h]
    obtain ⟨hi1, hi2, hi3, _⟩ := hi
    have hRi : R i := hc.1 i hi1 hi2 hi3
    have hi0 : i ≠ FREE_BLOCK := by
      show i ≠ 0
      omega
    have hLF : LAST_BLOCK ≠ FREE_BLOCK := by decide
    refine ⟨⟨rfl, rfl, rfl, ?_, ?_⟩, ⟨?_, ?_⟩, fun _ => ⟨hRi, ?_⟩⟩
    · intro b hb
      have h1 : b ≠ i := fun e => hb (by rw [e]; exact hRi)
      have h2 : ¬ (blk ≠ 0 ∧ b = blk) := by
        rintro ⟨h0, e⟩
        rcases hblk with h | h
        · exact h0 h
        · exact hb (by rw [e]; exact h.1)
      show (if b = i then LAST_BLOCK else if blk ≠ 0 ∧ b = blk then i else s.fat b) = s.fat b
      rw [if_neg h1, if_neg h2]
    · intro b k hb hk _
      have h1 : b ≠ i := fun e => hb (by rw [e]; exact hRi)
      show (if phys s i ≤ phys s b + k ∧ phys s b + k < phys s i + s.block_size then 0
        else s.disk (phys s b + k)) = _
      rw [if_neg]
      rintro ⟨h2, h3⟩
      have := phys_disjoint s b i k (phys s b + k - phys s i) hfb h1 hk (by omega)
      omega
    · intro j hj1 hj2 hj3
      apply hc.1 j hj1 hj2
      have hj4 : (if j = i then LAST_BLOCK else if blk ≠ 0 ∧ j = blk then i else s.fat j) =
          FREE_BLOCK := hj3
      by_cases e1 : j = i
      · rw [if_pos e1] at hj4; exact absurd hj4 hLF
      · rw [if_neg e1] at hj4
        by_cases e2 : blk ≠ 0 ∧ j = blk
        · rw [if_pos e2] at hj4; exact absurd hj4 hi0
        · rw [if_neg e2] at hj4; exact hj4
    · intro b hb hbf
      have key : ∀ c, s.fat c ≠ FREE_BLOCK →
          (if c = i then LAST_BLOCK else if blk ≠ 0 ∧ c = blk then i else s.fat c) ≠
            FREE_BLOCK := by
        intro c hcf
        by_cases e1 : c = i
        · rw [if_pos e1]; exact hLF
        · rw [if_neg e1]
          by_cases e2 : blk ≠ 0 ∧ c = blk
          · rw [if_pos e2]; exact hi0
          · rw [if_neg e2]; exact hcf
      dsimp only at hbf ⊢
      by_cases e1 : b = i
      · left; rw [if_pos e1]
      · rw [if_neg e1] at hbf ⊢
        by_cases e2 : blk ≠ 0 ∧ b = blk
        · right
          rw [if_pos e2, if_pos rfl]
          exact ⟨hRi, hLF⟩
        · rw [if_neg e2] at hbf ⊢
          rcases hc.2 b hb hbf with h3 | ⟨h3, h4⟩
          · left; exact h3
          · right
            exact ⟨h3, key _ h4⟩
    · show (if i = i then LAST_BLOCK else _) = LAST_BLOCK
      rw [if_pos rfl]

theorem frame_self (s : FS) (R : Nat → Prop) (p : Int) : Frame s s R p :=
  ⟨rfl, rfl, rfl, fun _ _ => rfl, fun _ _ _ _ _ => rfl⟩

theorem write_bytes_frame (s : FS) (blk off : Nat) (data : List Nat) (R : Nat → Prop)
    (hfb : 1 ≤ s.fat_blocks) (hR : R blk) (hlen : off + data.length ≤ s.block_size) :
    Frame s (write_bytes s (phys s blk + off) data) R (-1) := by
  refine ⟨rfl, rfl, rfl, fun _ _ => rfl, ?_⟩
  intro b k hb hk _
  exact write_bytes_other_block s blk b off data k hfb (fun e => hb (by rw [e]; exact hR))
    hlen hk

theorem seek_loop_frame (R : Nat → Prop) :
    ∀ (fuel : Nat) (s : FS) (blk off : Nat), 1 ≤ s.fat_blocks → ChainClosed s R → R blk →
      s.fat blk ≠ FREE_BLOCK →
      Frame s (seek_loop fuel s blk off).2 R (-1) ∧
      ChainClosed (seek_loop fuel s blk off).2 R ∧
      ((seek_loop fuel s blk off).1 ≠ -1 →
        ∃ b o, o < s.block_size ∧
          (seek_loop fuel s blk off).1 = ((b * s.block_size + o : Nat) : Int) ∧
          R b ∧ (seek_loop fuel s blk off).2.fat b ≠ FREE_BLOCK) := by
  intro fuel
  induction fuel with
  | zero =>
    intro s blk off _ hc _ _
    exact ⟨frame_self s R (-1), hc, fun h => absurd rfl h⟩
  | succ fuel ih =>
    intro s blk off hfb hc hR hf
    rw [seek_loop]
    by_cases h1 : off < s.block_size
    · rw [if_pos h1]
      exact ⟨frame_self s R (-1), hc, fun _ => ⟨blk, off, h1, rfl, hR, hf⟩⟩
    · rw [if_neg h1]
      by_cases h2 : s.fat blk = LAST_BLOCK
      · rw [if_pos h2]
        obtain ⟨f1, c1, r1⟩ := extend_data_frame s blk R hfb hc (Or.inr ⟨hR, h2⟩)
        dsimp only
        by_cases h3 : (extend_data s blk).1 = 0
        · rw [if_pos h3]
          exact ⟨f1, c1, fun h => absurd rfl h⟩
        · rw [if_neg h3]
          obtain ⟨r2, r3⟩ := r1 h3
          obtain ⟨f2, c2, r4⟩ := ih (extend_data s blk).2 (extend_data s blk).1
            (off - s.block_size) (by rw [f1.2.1]; exact hfb) c1 r2 (by rw [r3]; decide)
          refine ⟨frame_trans _ _ _ R (-1) f1 f2, c2, ?_⟩
          intro h
          obtain ⟨b, o, ho, hh⟩ := r4 h
          rw [f1.1] at ho hh
          exact ⟨b, o, ho, hh⟩
      · rw [if_neg h2]
        rcases hc.2 blk hR hf with h3 | ⟨h3, h4⟩
        · exact absurd h3 h2
        · exact ih s (s.fat blk) (off - s.block_size) hfb hc h3 h4

theorem write_loop_frame (R : Nat → Prop) :
    ∀ (fuel : Nat) (s : FS) (blk off i : Nat) (buf : List Nat) (size : Nat),
      1 ≤ s.fat_blocks → ChainClosed s R → R blk → s.fat blk ≠ FREE_BLOCK →
      off ≤ s.block_size →
      Frame s (write_loop fuel s blk off i buf size).2 R (-1) ∧
      ChainClosed (write_loop fuel s blk off i buf size).2 R := by
  intro fuel
  induction fuel with
  | zero =>
    intro s blk off i buf size _ hc _ _ _
    exact ⟨frame_self s R (-1), hc⟩
  | succ fuel ih =>
    intro s blk off i buf size hfb hc hR hf hoff
    rw [write_loop]
    by_cases h1 : size - i ≤ s.block_size - off
    · rw [if_pos h1]
      refine ⟨write_bytes_frame s blk off _ R hfb hR ?_, chainClosed_congr s _ R rfl rfl hc⟩
      have := List.length_take_le (size - i) (buf.drop i)
      omega
    · rw [if_neg h1]
      dsimp only
      have f0 : Frame s (write_bytes s (phys s blk + off)
          ((buf.drop i).take (s.block_size - off))) R (-1) := by
        apply write_bytes_frame s blk off _ R hfb hR
        have := List.length_take_le (s.block_size - off) (buf.drop i)
        omega
      have c0 : ChainClosed (write_bytes s (phys s blk + off)
          ((buf.drop i).take (s.block_size - off))) R := chainClosed_congr s _ R rfl rfl hc
      by_cases h2 : (write_bytes s (phys s blk + off)
          ((buf.drop i).take (s.block_size - off))).fat blk ≠ LAST_BLOCK
      · rw [if_pos h2]
        rcases hc.2 blk hR hf with h3 | ⟨h3, h4⟩
        · exact absurd h3 h2
        · obtain ⟨f2, c2⟩ := ih (write_bytes s (phys s blk + off)
            ((buf.drop i).take (s.block_size - off))) (s.fat blk) 0 (i + (s.block_size - off))
            buf size hfb c0 h3 h4 (Nat.zero_le _)
          exact ⟨frame_trans _ _ _ R (-1) f0 f2, c2⟩
      · rw [if_neg h2]
        have h2b : s.fat blk = LAST_BLOCK := not_not.mp h2
        obtain ⟨f1, c1, r1⟩ := extend_data_frame (write_bytes s (phys s blk + off)
          ((buf.drop i).take (s.block_size - off))) blk R hfb c0 (Or.inr ⟨hR, h2b⟩)
        by_cases h3 : (extend_data (write_bytes s (phys s blk + off)
            ((buf.drop i).take (s.block_size - off))) blk).1 = 0
        · rw [if_pos h3]
          exact ⟨frame_trans _ _ _ R (-1) f0 f1, c1⟩
        · rw [if_neg h3]
          obtain ⟨r2, r3⟩ := r1 h3
          obtain ⟨f2, c2⟩ := ih _ _ 0 (i + (s.block_size - off)) buf size
            (by rw [f1.2.1]; exact hfb) c1 r2 (by rw [r3]; decide) (Nat.zero_le _)
          exact ⟨frame_trans _ _ _ R (-1) (frame_trans _ _ _ R (-1) f0 f1) f2, c2⟩

theorem isChain_next (fat : Nat → Nat) :
    ∀ (M : List Nat) (b : Nat), IsChain fat b M → ∀ x ∈ M, fat x = LAST_BLOCK ∨ fat x ∈ M := by
  intro M
  induction M with
  | nil => intro b _ x hx; simp at hx
  | cons y ys ih =>
    intro b h x hx
    obtain ⟨_, hy, hrest⟩ := h
    subst hy
    rcases List.mem_cons.mp hx with h1 | h1
    · subst h1
      cases ys with
      | nil => left; exact hrest
      | cons z zs =>
        right
        obtain ⟨_, hz, _⟩ := hrest
        rw [hz]
        exact List.mem_cons_of_mem _ (List.mem_cons_self _ _)
    · rcases ih _ hrest x h1 with h2 | h2
      · left; exact h2
      · right; exact List.mem_cons_of_mem _ h2

theorem isChain_head (fat : Nat → Nat) (M : List Nat) (b : Nat) (h : IsChain fat b M)
    (hM : M ≠ []) : b ∈ M := by
  cases M with
  | nil => exact absurd rfl hM
  | cons y ys =>
    obtain ⟨_, hy, _⟩ := h
    rw [hy]
    exact List.mem_cons_self _ _

/-- A well-formed chain of blocks in use, with the free blocks, is closed. -/
theorem chainClosed_chain (s : FS) (M : List Nat) (b : Nat) (hch : IsChain s.fat b M)
    (hM : ∀ x ∈ M, s.fat x ≠ FREE_BLOCK) :
    ChainClosed s (fun x => x ∈ M ∨ s.fat x = FREE_BLOCK) := by
  refine ⟨fun i _ _ h => Or.inr h, ?_⟩
  intro x hx hf
  rcases hx with hx | hx
  · rcases isChain_next s.fat M b hch x hx with h | h
    · left; exact h
    · right; exact ⟨Or.inl h, hM _ h⟩
  · exact absurd hx hf

theorem write_File_frame (t : FS) (pe : Int) (hpe : 0 ≤ pe) (f : File) (R : Nat → Prop)
    (h0 : ∀ b k, ¬ R b → k < t.block_size → phys t b + k = pe.toNat →
      f.name.getD 0 0 = t.disk pe.toNat) :
    Frame t (write_File t pe.toNat f) R pe := by
  refine ⟨rfl, rfl, rfl, fun _ _ => rfl, ?_⟩
  intro b k hb hk hc
  rcases hc with hc | hc | hc
  · exact absurd hc (by omega)
  · rcases Nat.eq_or_lt_of_le hc with h | h
    · rw [h]
      show (if pe.toNat ≤ pe.toNat ∧ pe.toNat < pe.toNat + 48 then f.byte (pe.toNat - pe.toNat)
        else t.disk pe.toNat) = t.disk pe.toNat
      rw [if_pos ⟨le_refl _, by omega⟩, Nat.sub_self]
      show (if 0 < 32 then f.name.getD 0 0 else _) = _
      rw [if_pos (by decide)]
      exact h0 b k hb hk h
    · exact write_File_disk_out t pe.toNat f _ (Or.inl h)
  · exact write_File_disk_out t pe.toNat f _ (Or.inr hc)

theorem write_bytes_nil (s : FS) (p : Nat) (R : Nat → Prop) (q : Int) :
    Frame s (write_bytes s p []) R q := by
  refine ⟨rfl, rfl, rfl, fun _ _ => rfl, ?_⟩
  intro b k _ _ _
  show (if p ≤ phys s b + k ∧ phys s b + k < p + 0 then _ else s.disk (phys s b + k)) = _
  rw [if_neg (by omega)]

/-- The end of `write_file`: the slot is rewritten, then `seek_data` and
`write_data` run from the first block `fb`. -/
theorem write_tail_frame (t : FS) (fb offset : Nat) (buf : List Nat) (size : Nat) (pe : Int)
    (f : File) (R : Nat → Prop) (hbs : 0 < t.block_size) (hfb : 1 ≤ t.fat_blocks)
    (hpe : 0 ≤ pe) (hc : ChainClosed t R)
    (hs : (R fb ∧ t.fat fb ≠ FREE_BLOCK) ∨ (size = 0 ∧ offset < t.block_size))
    (h0 : ∀ b k, ¬ R b → k < t.block_size → phys t b + k = pe.toNat →
      f.name.getD 0 0 = t.disk pe.toNat) :
    Frame t (seek_data (write_File t pe.toNat f)
      ((write_File t pe.toNat f).block_size * fb) offset).2 R pe ∧
    ((seek_data (write_File t pe.toNat f)
        ((write_File t pe.toNat f).block_size * fb) offset).1 ≠ -1 →
      Frame t (write_data (seek_data (write_File t pe.toNat f)
          ((write_File t pe.toNat f).block_size * fb) offset).2
        (seek_data (write_File t pe.toNat f)
          ((write_File t pe.toNat f).block_size * fb) offset).1.toNat buf size).2 R pe) := by
  have fw := write_File_frame t pe hpe f R h0
  have hsb : (write_File t pe.toNat f).block_size = t.block_size := rfl
  have hseek : seek_data (write_File t pe.toNat f)
      ((write_File t pe.toNat f).block_size * fb) offset =
      seek_loop (offset + 1) (write_File t pe.toNat f) fb offset := by
    unfold seek_data
    rw [hsb, Nat.mul_mod_right, Nat.mul_div_cancel_left _ hbs]
    simp only [Nat.add_zero]
  rw [hseek]
  rcases hs with ⟨hR, hf⟩ | ⟨hz, ho⟩
  · obtain ⟨f1, c1, r1⟩ := seek_loop_frame R (offset + 1) (write_File t pe.toNat f) fb offset
      hfb (chainClosed_congr t _ R rfl rfl hc) hR hf
    refine ⟨frame_trans _ _ _ R pe fw (frame_weaken _ _ R pe f1), ?_⟩
    intro hne
    obtain ⟨b, o, ho, hpos, hRb, hfat⟩ := r1 hne
    rw [hpos, Int.toNat_ofNat]
    unfold write_data
    rw [f1.1, hsb]
    rw [hsb] at ho hpos
    have hq : (b * t.block_size + o) / t.block_size = b := by
      rw [Nat.add_comm, Nat.add_mul_div_right _ _ hbs, Nat.div_eq_of_lt ho, Nat.zero_add]
    have hm : (b * t.block_size + o) % t.block_size = o := by
      rw [Nat.add_comm, Nat.add_mul_mod_self_right, Nat.mod_eq_of_lt ho]
    rw [hq, hm]
    obtain ⟨f2, _⟩ := write_loop_frame R (size + 1) _ b o 0 buf size
      (by rw [f1.2.1]; exact hfb) c1 hRb hfat (by rw [f1.1, hsb]; omega)
    exact frame_trans _ _ _ R pe fw
      (frame_weaken _ _ R pe (frame_trans _ _ _ R (-1) f1 f2))
  · have hsl : seek_loop (offset + 1) (write_File t pe.toNat f) fb offset =
        (((fb * t.block_size + offset : Nat) : Int), write_File t pe.toNat f) := by
      rw [seek_loop, if_pos (by rw [hsb]; exact ho)]
      rfl
    rw [hsl]
    refine ⟨fw, fun _ => ?_⟩
    dsimp only
    rw [Int.toNat_ofNat]
    unfold write_data
    rw [write_loop, if_pos (by omega)]
    have hnil : (buf.drop 0).take (size - 0) = [] := by rw [hz]; rfl
    rw [hnil]
    exact frame_trans _ _ _ R pe fw (write_bytes_nil _ _ R pe)

theorem write_tail_result (t : FS) (fb offset : Nat) (buf : List Nat) (size : Nat) (pe : Int)
    (f : File) (R : Nat → Prop) (hbs : 0 < t.block_size) (hfb : 1 ≤ t.fat_blocks)
    (hpe : 0 ≤ pe) (hc : ChainClosed t R)
    (hs : (R fb ∧ t.fat fb ≠ FREE_BLOCK) ∨ (size = 0 ∧ offset < t.block_size))
    (h0 : ∀ b k, ¬ R b → k < t.block_size → phys t b + k = pe.toNat →
      f.name.getD 0 0 = t.disk pe.toNat)
    (r : Int) (s1 : FS)
    (h : (if (seek_data (write_File t pe.toNat f)
          ((write_File t pe.toNat f).block_size * fb) offset).1 = -1 then
        some ((-1 : Int), (seek_data (write_File t pe.toNat f)
          ((write_File t pe.toNat f).block_size * fb) offset).2)
      else if (write_data (seek_data (write_File t pe.toNat f)
            ((write_File t pe.toNat f).block_size * fb) offset).2
          (seek_data (write_File t pe.toNat f)
            ((write_File t pe.toNat f).block_size * fb) offset).1.toNat buf size).1 = -1 then
        some (-1, (write_data (seek_data (write_File t pe.toNat f)
            ((write_File t pe.toNat f).block_size * fb) offset).2
          (seek_data (write_File t pe.toNat f)
            ((write_File t pe.toNat f).block_size * fb) offset).1.toNat buf size).2)
      else some (0, (write_data (seek_data (write_File t pe.toNat f)
            ((write_File t pe.toNat f).block_size * fb) offset).2
          (seek_data (write_File t pe.toNat f)
            ((write_File t pe.toNat f).block_size * fb) offset).1.toNat buf size).2)) =
      some (r, s1)) :
    Frame t s1 R pe := by
  obtain ⟨t1, t2⟩ := write_tail_frame t fb offset buf size pe f R hbs hfb hpe hc hs h0
  by_cases c1 : (seek_data (write_File t pe.toNat f)
      ((write_File t pe.toNat f).block_size * fb) offset).1 = -1
  · rw [if_pos c1] at h
    simp only [Option.some.injEq, Prod.mk.injEq] at h
    rw [← h.2]
    exact t1
  · rw [if_neg c1] at h
    by_cases c2 : (write_data (seek_data (write_File t pe.toNat f)
            ((write_File t pe.toNat f).block_size * fb) offset).2
          (seek_data (write_File t pe.toNat f)
            ((write_File t pe.toNat f).block_size * fb) offset).1.toNat buf size).1 = -1
    · rw [if_pos c2] at h
      simp only [Option.some.injEq, Prod.mk.injEq] at h
      rw [← h.2]
      exact t2 c1
    · rw [if_neg c2] at h
      simp only [Option.some.injEq, Prod.mk.injEq] at h
      rw [← h.2]
      exact t2 c1

theorem isSlot_name_head (s : FS) (e : Entry) (h : IsSlot s e) :
    e.file.name.getD 0 0 = s.disk e.position.toNat := by
  rw [isSlot_file s e h]
  show (read_bytes s e.position.toNat 32).getD 0 0 = _
  unfold read_bytes
  simp

/-- Whatever `write_file` returns, it leaves every block alone that is
neither free nor in the chain of the file, but for the bytes after the first
of the file's slot. -/
theorem write_file_frame (fuel : Nat) (s : FS) (now : Nat) (path_str : List Nat) (offset : Nat)
    (buf : List Nat) (size : Nat) (flag : Bool) (d e : Entry) (en en1 : Nat) (M : List Nat)
    (hv : ValidConfig s)
    (hd : find_directory fuel s (split_path path_str).dir s.errno = some (d, en))
    (heg : d.file.name0 ≠ EOD_FLAG →
      find_file fuel s (split_path path_str).name d.file.first_block
        (if flag then SKIP_ALL else SKIP_NONE) en = some (e, en1))
    (hch : IsChain s.fat e.file.first_block M)
    (hM : ∀ x ∈ M, s.fat x ≠ FREE_BLOCK)
    (hstart : (e.file.size = 0 ∧ 0 < size) ∨ M ≠ [] ∨ (size = 0 ∧ offset < s.block_size))
    (r : Int) (s1 : FS)
    (h : write_file fuel s now path_str offset buf size flag = some (r, s1)) :
    Frame s s1 (fun b => b ∈ M ∨ s.fat b = FREE_BLOCK)
      (if d.file.name0 = EOD_FLAG ∨ e.file.type = DIRECTORY_FILE then -1 else e.position) := by
  obtain ⟨hbs, _, hfb, _⟩ := hv
  have hcl := chainClosed_chain s M _ hch hM
  unfold write_file at h
  simp only [hd] at h
  by_cases c1 : d.file.name0 = EOD_FLAG
  · rw [if_pos c1] at h
    simp only [Option.some.injEq, Prod.mk.injEq] at h
    rw [← h.2]
    exact frame_refl s _ _ en
  rw [if_neg c1] at h
  by_cases c2 : d.file.perm &&& WRITE_PERM = 0
  · rw [if_pos c2] at h
    simp only [Option.some.injEq, Prod.mk.injEq] at h
    rw [← h.2]
    exact frame_refl s _ _ en
  rw [if_neg c2] at h
  have he := heg c1
  simp only [he] at h
  by_cases c3 : e.file.name0 = EOD_FLAG
  · rw [if_pos c3] at h
    simp only [Option.some.injEq, Prod.mk.injEq] at h
    rw [← h.2]
    exact frame_refl s _ _ ENOENT
  rw [if_neg c3] at h
  by_cases c4 : e.file.type = DIRECTORY_FILE
  · rw [if_pos c4] at h
    simp only [Option.some.injEq, Prod.mk.injEq] at h
    rw [← h.2]
    exact frame_refl s _ _ EISDIR
  rw [if_neg c4] at h
  rw [if_neg (not_or.mpr ⟨c1, c4⟩)]
  by_cases c5 : e.file.perm &&& WRITE_PERM = 0
  · rw [if_pos c5] at h
    simp only [Option.some.injEq, Prod.mk.injEq] at h
    rw [← h.2]
    exact frame_refl s _ _ EACCES
  rw [if_neg c5] at h
  have hes : IsSlot s e ∨ e.position < 0 := by
    rcases find_file_slot fuel s _ _ _ _ _ he with h1 | h1
    · right
      have h2 : e = root := h1
      rw [h2]
      decide
    · left; exact h1
  have hname : ∀ (t : FS), Frame s t (fun b => b ∈ M ∨ s.fat b = FREE_BLOCK) (-1) →
      0 ≤ e.position →
      ∀ b k, ¬ (b ∈ M ∨ s.fat b = FREE_BLOCK) → k < t.block_size →
        phys t b + k = e.position.toNat → e.file.name.getD 0 0 = t.disk e.position.toNat := by
    intro t ft hp b k hb hk hpk
    rcases hes with h1 | h1
    · have hph : phys t b = phys s b := by unfold phys; rw [ft.1, ft.2.1]
      rw [isSlot_name_head s e h1, ← hpk, hph]
      exact (ft.2.2.2.2 b k hb (by rw [← ft.1]; exact hk) (Or.inl (by decide))).symm
    · omega
  have hs0 := frame_refl s (fun b => b ∈ M ∨ s.fat b = FREE_BLOCK) (-1) en1
  have hc0 : ChainClosed { s with errno := en1 } (fun b => b ∈ M ∨ s.fat b = FREE_BLOCK) :=
    chainClosed_congr s _ _ rfl rfl hcl
  by_cases c6 : e.file.size = 0 ∧ size > 0
  · simp only [if_pos c6] at h
    obtain ⟨f1, c1, r1⟩ := extend_data_frame { s with errno := en1 } 0 _ hfb hc0 (Or.inl rfl)
    have f1s := frame_trans _ _ _ _ (-1) hs0 f1
    split at h
    · simp only [Option.some.injEq, Prod.mk.injEq] at h
      rw [← h.2]
      exact frame_weaken _ _ _ _ f1s
    · rename_i c7
      have hne : (extend_data { s with errno := en1 } 0).1 ≠ 0 :=
        fun h0 => c7 ⟨c6.1, c6.2, h0⟩
      obtain ⟨r2, r3⟩ := r1 hne
      split at h
      · exact absurd h (by simp)
      · rename_i c8
        have hp : 0 ≤ e.position := not_lt.mp c8
        exact frame_trans _ _ _ _ _ (frame_weaken _ _ _ _ f1s)
          (write_tail_result (extend_data { s with errno := en1 } 0).2
            (extend_data { s with errno := en1 } 0).1 offset buf size e.position
            (rewritten e (extend_data { s with errno := en1 } 0).1
              (if offset + size > e.file.size then offset + size else e.file.size) now) _
            (by rw [f1s.1]; exact hbs) (by rw [f1s.2.1]; exact hfb) hp c1
            (Or.inl ⟨r2, by rw [r3]; decide⟩) (hname _ f1s hp) r s1 h)
  · simp only [if_neg c6] at h
    have hst : ((fun b => b ∈ M ∨ s.fat b = FREE_BLOCK) e.file.first_block ∧
        s.fat e.file.first_block ≠ FREE_BLOCK) ∨ (size = 0 ∧ offset < s.block_size) := by
      rcases hstart with h1 | h1 | h1
      · exact absurd h1 c6
      · have := isChain_head s.fat M _ hch h1
        exact Or.inl ⟨Or.inl this, hM _ this⟩
      · exact Or.inr h1
    split at h
    · rename_i c7
      exact absurd ⟨c7.1, c7.2.1⟩ c6
    · split at h
      · exact absurd h (by simp)
      · rename_i c8
        have hp : 0 ≤ e.position := not_lt.mp c8
        exact frame_trans _ _ _ _ _ (frame_weaken _ _ _ _ hs0)
          (write_tail_result { s with errno := en1 } e.file.first_block offset
            buf size e.position
            (rewritten e e.file.first_block
              (if offset + size > e.file.size then offset + size else e.file.size) now) _
            hbs hfb hp hc0 hst (hname _ hs0 hp) r s1 h)

/-- A directory slot apart from the blocks of `R` and from the slot at `p`
keeps the size invariant across a frame. -/
theorem sizeInv_frame (fuel : Nat) (s s1 : FS) (R : Nat → Prop) (p : Int) (b k : Nat)
    (L : List Nat) (hF : Frame s s1 R p)
    (hp : p < 0 ∨ ∃ b1 k1, k1 < s.block_size / 64 ∧ p.toNat = phys s b1 + 64 * k1)
    (hx : DirAt fuel s b k L) (hb : ¬ R b) (hL : ∀ y ∈ L, ¬ R y)
    (hne : (slot s b k).position ≠ p)
    (h : SizeInv fuel s (slot s b k).file) : SizeInv fuel s1 (slot s1 b k).file := by
  obtain ⟨g1, g2, _, g4, g5⟩ := hF
  apply sizeInv_kept fuel s s1 b k L g1 g2 hx _ (fun y hy => g4 y (hL y hy)) _ h
  · intro j hj
    rw [Nat.add_assoc]
    apply g5 b (64 * k + j) hb (by have := slot_end_le s.block_size k hx.slot_lt; omega)
    rcases hp with hp | ⟨b1, k1, hk1, hp⟩
    · exact Or.inl hp
    · by_cases hpn : 0 ≤ p
      · right
        rw [hp, ← Nat.add_assoc]
        have hne2 : phys s b + 64 * k ≠ phys s b1 + 64 * k1 := by
          intro he
          apply hne
          show ((phys s b + 64 * k : Nat) : Int) = p
          rw [he, ← hp]
          exact Int.toNat_of_nonneg hpn
        rcases slot_apart_bytes s b k b1 k1 j hx.slot_lt hk1 hne2 (by omega) with h1 | h1
        · left; omega
        · right; exact h1
      · exact Or.inl (not_le.mp hpn)
  · intro y hy i hi
    have hk : 64 * i < s.block_size := by
      have := slot_end_le s.block_size i hi; omega
    rw [g5 y (64 * i) (hL y hy) hk]
    rcases hp with hp | ⟨b1, k1, hk1, hp⟩
    · exact Or.inl hp
    · right
      rw [hp]
      rcases slot_pos_cases s y i b1 k1 hi hk1 with h1 | h1 | h1
      · left; omega
      · left; omega
      · right; omega

theorem found_pos (fuel : Nat) (s : FS) (name : Option (List Nat)) (block flag en : Nat)
    (e : Entry) (en1 : Nat) (he : find_file fuel s name block flag en = some (e, en1)) :
    e.position < 0 ∨ ∃ b1 k1, k1 < s.block_size / 64 ∧ e.position.toNat = phys s b1 + 64 * k1 := by
  rcases find_file_slot fuel s _ _ _ _ _ he with h1 | h1
  · left
    have h2 : e = root := h1
    rw [h2]
    decide
  · right
    exact isSlot_pos s e h1

theorem frame_pos (fuel : Nat) (s : FS) (name : Option (List Nat)) (block flag en : Nat)
    (c : Prop) [Decidable c] (e : Entry) (en1 : Nat)
    (heg : ¬ c → find_file fuel s name block flag en = some (e, en1)) :
    (if c then -1 else e.position) < 0 ∨
    ∃ b1 k1, k1 < s.block_size / 64 ∧
      (if c then -1 else e.position).toNat = phys s b1 + 64 * k1 := by
  by_cases h : c
  · left
    rw [if_pos h]
    decide
  · rw [if_neg h]
    exact found_pos fuel s name block flag en e en1 (heg h)

theorem frame_ne (c : Prop) [Decidable c] (e : Entry) (x : Int) (hx : 0 ≤ x)
    (hne : ¬ c → x ≠ e.position) : x ≠ (if c then -1 else e.position) := by
  by_cases h : c
  · rw [if_pos h]
    omega
  · rw [if_neg h]
    exact hne h

/-- Whatever `write_file` returns, a directory slot whose block and chain
are apart from the chain of the file keeps the size invariant. -/
theorem write_file_sizes (fuel : Nat) (s : FS) (now : Nat) (path_str : List Nat) (offset : Nat)
    (buf : List Nat) (size : Nat) (flag : Bool) (d e : Entry) (en en1 : Nat) (M : List Nat)
    (hv : ValidConfig s)
    (hd : find_directory fuel s (split_path path_str).dir s.errno = some (d, en))
    (heg : d.file.name0 ≠ EOD_FLAG →
      find_file fuel s (split_path path_str).name d.file.first_block
        (if flag then SKIP_ALL else SKIP_NONE) en = some (e, en1))
    (hch : IsChain s.fat e.file.first_block M)
    (hM : ∀ x ∈ M, s.fat x ≠ FREE_BLOCK)
    (hstart : (e.file.size = 0 ∧ 0 < size) ∨ M ≠ [] ∨ (size = 0 ∧ offset < s.block_size))
    (r : Int) (s1 : FS)
    (h : write_file fuel s now path_str offset buf size flag = some (r, s1))
    (b k : Nat) (L : List Nat) (hx : DirAt fuel s b k L) (hb : b ∉ M) (hL : ∀ y ∈ L, y ∉ M)
    (hne : e.file.type ≠ DIRECTORY_FILE → (slot s b k).position ≠ e.position)
    (hinv : SizeInv fuel s (slot s b k).file) : SizeInv fuel s1 (slot s1 b k).file := by
  have hF := write_file_frame fuel s now path_str offset buf size flag d e en en1 M hv hd heg
    hch hM hstart r s1 h
  refine sizeInv_frame fuel s s1 _ _ b k L hF
    (frame_pos fuel s _ _ _ _ _ e en1 (fun c => heg (fun h0 => c (Or.inl h0)))) hx
    ?_ ?_ (frame_ne _ e _ (Int.natCast_nonneg _) (fun c => hne (fun h0 => c (Or.inr h0)))) hinv
  · rintro (h1 | h1)
    · exact hb h1
    · exact hx.used h1
  · intro y hy
    rintro (h1 | h1)
    · exact hL y hy h1
    · exact hx.chain_used y hy h1

/-- Whatever `truncate_file` returns, it changes at most the FAT entries of
the chain of the file and the bytes after the first of the file's slot. -/
theorem truncate_file_frame (fuel : Nat) (s : FS) (path_str : List Nat) (flag : Bool)
    (d e : Entry) (en en1 : Nat) (M : List Nat)
    (hd : find_directory fuel s (split_path path_str).dir s.errno = some (d, en))
    (heg : d.file.name0 ≠ EOD_FLAG →
      find_file fuel s (split_path path_str).name d.file.first_block
        (if flag then SKIP_ALL else SKIP_NONE) en = some (e, en1))
    (hch : IsChain s.fat e.file.first_block M) (hnd : M.Nodup) (hfuel : M.length < fuel)
    (r : Int) (s1 : FS) (h : truncate_file fuel s path_str flag = some (r, s1)) :
    Frame s s1 (fun b => b ∈ M)
      (if d.file.name0 = EOD_FLAG ∨ e.file.type = DIRECTORY_FILE then -1 else e.position) := by
  unfold truncate_file at h
  simp only [hd] at h
  by_cases c1 : d.file.name0 = EOD_FLAG
  · rw [if_pos c1] at h
    simp only [Option.some.injEq, Prod.mk.injEq] at h
    rw [← h.2]
    exact frame_refl s _ _ en
  rw [if_neg c1] at h
  by_cases c2 : d.file.perm &&& WRITE_PERM = 0
  · rw [if_pos c2] at h
    simp only [Option.some.injEq, Prod.mk.injEq] at h
    rw [← h.2]
    exact frame_refl s _ _ en
  rw [if_neg c2] at h
  have he := heg c1
  simp only [he] at h
  by_cases c3 : e.file.name0 = EOD_FLAG
  · rw [if_pos c3] at h
    simp only [Option.some.injEq, Prod.mk.injEq] at h
    rw [← h.2]
    exact frame_refl s _ _ ENOENT
  rw [if_neg c3] at h
  by_cases c4 : e.file.perm &&& WRITE_PERM = 0
  · rw [if_pos c4] at h
    simp only [Option.some.injEq, Prod.mk.injEq] at h
    rw [← h.2]
    exact frame_refl s _ _ EACCES
  rw [if_neg c4] at h
  by_cases c5 : e.file.type = DIRECTORY_FILE
  · rw [if_pos c5] at h
    by_cases c6 : e.file.size > 0
    · rw [if_pos c6] at h
      simp only [Option.some.injEq, Prod.mk.injEq] at h
      rw [← h.2]
      exact frame_refl s _ _ ENOTEMPTY
    · rw [if_neg c6] at h
      simp only [Option.some.injEq, Prod.mk.injEq] at h
      rw [← h.2]
      exact frame_refl s _ _ en1
  rw [if_neg c5] at h
  rw [if_neg (not_or.mpr ⟨c1, c5⟩)]
  have htr := truncate_data_chain M fuel { s with errno := en1 } e.file.first_block hch hnd hfuel
  simp only [htr] at h
  by_cases c7 : e.position < 0
  · rw [if_pos c7] at h
    exact absurd h (by simp)
  rw [if_neg c7] at h
  simp only [Option.some.injEq, Prod.mk.injEq] at h
  rw [← h.2]
  have hp : 0 ≤ e.position := not_lt.mp c7
  have hes : IsSlot s e := by
    rcases find_file_slot fuel s _ _ _ _ _ he with h1 | h1
    · have h2 : e = root := h1
      rw [h2] at c7
      exact absurd (by decide) c7
    · exact h1
  have f1 : Frame s
      { s with errno := en1, fat := fun x => if x ∈ M then FREE_BLOCK else s.fat x }
      (fun b => b ∈ M) e.position :=
    ⟨rfl, rfl, rfl, fun b hb => if_neg hb, fun _ _ _ _ _ => rfl⟩
  exact frame_trans _ _ _ _ _ f1 (write_File_frame _ e.position hp _ _
    (fun _ _ _ _ _ => isSlot_name_head s e hes))

/-- Whatever `truncate_file` returns, a directory slot whose chain is apart
from the chain of the file keeps the size invariant. -/
theorem truncate_file_sizes (fuel : Nat) (s : FS) (path_str : List Nat) (flag : Bool)
    (d e : Entry) (en en1 : Nat) (M : List Nat)
    (hd : find_directory fuel s (split_path path_str).dir s.errno = some (d, en))
    (heg : d.file.name0 ≠ EOD_FLAG →
      find_file fuel s (split_path path_str).name d.file.first_block
        (if flag then SKIP_ALL else SKIP_NONE) en = some (e, en1))
    (hch : IsChain s.fat e.file.first_block M) (hnd : M.Nodup) (hfuel : M.length < fuel)
    (r : Int) (s1 : FS) (h : truncate_file fuel s path_str flag = some (r, s1))
    (b k : Nat) (L : List Nat) (hx : DirAt fuel s b k L) (hb : b ∉ M) (hL : ∀ y ∈ L, y ∉ M)
    (hne : e.file.type ≠ DIRECTORY_FILE → (slot s b k).position ≠ e.position)
    (hinv : SizeInv fuel s (slot s b k).file) : SizeInv fuel s1 (slot s1 b k).file :=
  sizeInv_frame fuel s s1 _ _ b k L
    (truncate_file_frame fuel s path_str flag d e en en1 M hd heg hch hnd hfuel r s1 h)
    (frame_pos fuel s _ _ _ _ _ e en1 (fun c => heg (fun h0 => c (Or.inl h0)))) hx hb hL
    (frame_ne _ e _ (Int.natCast_nonneg _) (fun c => hne (fun h0 => c (Or.inr h0)))) hinv

/-- Whatever `set_file` returns, it changes at most the bytes after the
first of the slot it overwrites, when the first byte of the name is kept. -/
theorem set_file_frame (fuel : Nat) (s : FS) (path_str : List Nat) (f : File) (flag : Bool)
    (d e : Entry) (en en1 : Nat)
    (hd : find_directory fuel s (split_path path_str).dir s.errno = some (d, en))
    (heg : d.file.name0 ≠ EOD_FLAG →
      find_file fuel s (split_path path_str).name d.file.first_block
        (if flag then SKIP_ALL else SKIP_NONE) en = some (e, en1))
    (hname : f.name.getD 0 0 = e.file.name.getD 0 0)
    (r : Int) (s1 : FS) (h : set_file fuel s path_str f flag = some (r, s1)) :
    Frame s s1 (fun _ => False) (if d.file.name0 = EOD_FLAG then -1 else e.position) := by
  unfold set_file at h
  simp only [hd] at h
  by_cases c1 : d.file.name0 = EOD_FLAG
  · rw [if_pos c1] at h
    simp only [Option.some.injEq, Prod.mk.injEq] at h
    rw [← h.2]
    exact frame_refl s _ _ en
  rw [if_neg c1] at h
  rw [if_neg c1]
  have he := heg c1
  simp only [he] at h
  by_cases c3 : e.file.name0 = EOD_FLAG
  · rw [if_pos c3] at h
    simp only [Option.some.injEq, Prod.mk.injEq] at h
    rw [← h.2]
    exact frame_refl s _ _ ENOENT
  rw [if_neg c3] at h
  by_cases c7 : e.position < 0
  · rw [if_pos c7] at h
    exact absurd h (by simp)
  rw [if_neg c7] at h
  simp only [Option.some.injEq, Prod.mk.injEq] at h
  rw [← h.2]
  have hp : 0 ≤ e.position := not_lt.mp c7
  have hes : IsSlot s e := by
    rcases find_file_slot fuel s _ _ _ _ _ he with h1 | h1
    · have h2 : e = root := h1
      rw [h2] at c7
      exact absurd (by decide) c7
    · exact h1
  exact frame_trans _ _ _ _ _ (frame_refl s _ _ en1) (write_File_frame _ e.position hp _ _
    (fun _ _ _ _ _ => by rw [hname]; exact isSlot_name_head s e hes))

theorem sizeInv_errno (fuel : Nat) (s : FS) (x : Nat) (f : File) (h : SizeInv fuel s f) :
    SizeInv fuel { s with errno := x } f := by
  obtain ⟨es, h1, h2⟩ := h
  exact ⟨es, by rw [enum_directory_errno]; exact h1, h2⟩

/-- Whatever `set_file` returns, every directory slot other than the one it
overwrites keeps the size invariant, when the first byte of the name is
kept. -/
theorem set_file_sizes (fuel : Nat) (s : FS) (path_str : List Nat) (f : File) (flag : Bool)
    (d e : Entry) (en en1 : Nat)
    (hd : find_directory fuel s (split_path path_str).dir s.errno = some (d, en))
    (heg : d.file.name0 ≠ EOD_FLAG →
      find_file fuel s (split_path path_str).name d.file.first_block
        (if flag then SKIP_ALL else SKIP_NONE) en = some (e, en1))
    (hname : f.name.getD 0 0 = e.file.name.getD 0 0)
    (r : Int) (s1 : FS) (h : set_file fuel s path_str f flag = some (r, s1))
    (b k : Nat) (L : List Nat) (hx : DirAt fuel s b k L)
    (hne : (slot s b k).position ≠ e.position)
    (hinv : SizeInv fuel s (slot s b k).file) : SizeInv fuel s1 (slot s1 b k).file :=
  sizeInv_frame fuel s s1 _ _ b k L
    (set_file_frame fuel s path_str f flag d e en en1 hd heg hname r s1 h)
    (frame_pos fuel s _ _ _ _ _ e en1 (fun c => heg c)) hx (fun h0 => h0)
    (fun _ _ h0 => h0) (frame_ne _ e _ (Int.natCast_nonneg _) (fun _ => hne)) hinv

/-- After a successful `set_file` with the entry `f` of a directory, the
overwritten slot describes that directory and keeps its size invariant. -/
theorem set_file_self (fuel : Nat) (s : FS) (path_str : List Nat) (f : File) (flag : Bool)
    (d e : Entry) (en en1 : Nat) (L : List Nat)
    (hd : find_directory fuel s (split_path path_str).dir s.errno = some (d, en))
    (heg : d.file.name0 ≠ EOD_FLAG →
      find_file fuel s (split_path path_str).name d.file.first_block
        (if flag then SKIP_ALL else SKIP_NONE) en = some (e, en1))
    (hname : f.name.getD 0 0 = e.file.name.getD 0 0)
    (hch : IsChain s.fat f.first_block L) (hshort : L.length ≤ fuel)
    (hclosed : (upto_eod (dir_slots s L)).2 = true)
    (hsz : f.size < 2 ^ 32) (hfb16 : f.first_block < 2 ^ 16)
    (s1 : FS) (h : set_file fuel s path_str f flag = some (0, s1))
    (hinv : SizeInv fuel s f) : SizeInv fuel s1 (read_File s1 e.position.toNat) := by
  have hF := set_file_frame fuel s path_str f flag d e en en1 hd heg hname 0 s1 h
  unfold set_file at h
  simp only [hd] at h
  by_cases c1 : d.file.name0 = EOD_FLAG
  · rw [if_pos c1] at h
    simp only [Option.some.injEq, Prod.mk.injEq] at h
    exact absurd h.1 (by decide)
  rw [if_neg c1] at h
  rw [if_neg c1] at hF
  have he := heg c1
  simp only [he] at h
  by_cases c3 : e.file.name0 = EOD_FLAG
  · rw [if_pos c3] at h
    simp only [Option.some.injEq, Prod.mk.injEq] at h
    exact absurd h.1 (by decide)
  rw [if_neg c3] at h
  by_cases c7 : e.position < 0
  · rw [if_pos c7] at h
    exact absurd h (by simp)
  rw [if_neg c7] at h
  simp only [Option.some.injEq, Prod.mk.injEq, true_and] at h
  obtain ⟨g1, g2, _, g4, g5⟩ := hF
  have hpe := found_pos fuel s _ _ _ _ e en1 he
  have hkept : SizeInv fuel s1 f := by
    apply sizeInv_kept_file fuel s s1 f L g1 g2 hch hshort hclosed (fun y _ => g4 y (fun h0 => h0))
      _ hinv
    intro y _ i hi
    have hk : 64 * i < s.block_size := by
      have := slot_end_le s.block_size i hi; omega
    rw [g5 y (64 * i) (fun h0 => h0) hk]
    rcases hpe with hp | ⟨b1, k1, hk1, hp⟩
    · exact Or.inl hp
    · right
      rw [hp]
      rcases slot_pos_cases s y i b1 k1 hi hk1 with h1 | h1 | h1
      · left; omega
      · left; omega
      · right; omega
  have hrd : read_File s1 e.position.toNat = f.stored := by
    rw [← h]
    exact read_File_write_File _ _ _
  obtain ⟨es, hes, hsize⟩ := hkept
  rw [hrd]
  refine ⟨es, ?_, ?_⟩
  · rw [stored_first_block, Nat.mod_eq_of_lt hfb16]
    exact hes
  · show f.size % 2 ^ 32 = _
    rw [Nat.mod_eq_of_lt hsz]
    exact hsize

/-- After `cleanup_file` at the position of a removed slot, every directory
slot but that one keeps the size invariant. -/
theorem cleanup_file_sizes (fuel : Nat) (s : FS) (pos : Int)
    (hpos : ∃ b1 k1, k1 < s.block_size / 64 ∧ pos = ((phys s b1 + 64 * k1 : Nat) : Int))
    (hrem : s.disk pos.toNat = REMOVED_FLAG)
    (r : Int) (s1 : FS) (h : cleanup_file s pos = some (r, s1))
    (b k : Nat) (L : List Nat) (hx : DirAt fuel s b k L)
    (hne : (slot s b k).position ≠ pos)
    (hinv : SizeInv fuel s (slot s b k).file) : SizeInv fuel s1 (slot s1 b k).file := by
  obtain ⟨b1, k1, hk1, hp⟩ := hpos
  have hpn : pos.toNat = phys s b1 + 64 * k1 := by rw [hp, Int.toNat_ofNat]
  unfold cleanup_file at h
  rw [if_neg (by rw [hp]; omega)] at h
  simp only [Option.some.injEq, Prod.mk.injEq] at h
  rw [← h.2]
  have hdisk : ∀ a, (write_bytes s pos.toNat [CLEANED_FLAG]).disk a =
      if a = pos.toNat then CLEANED_FLAG else s.disk a := by
    intro a
    show (if pos.toNat ≤ a ∧ a < pos.toNat + 1 then [CLEANED_FLAG].getD (a - pos.toNat) 0
      else s.disk a) = _
    by_cases ha : a = pos.toNat
    · rw [if_pos ha, if_pos (by omega), ha, Nat.sub_self]
      rfl
    · rw [if_neg ha, if_neg (by omega)]
  apply sizeInv_kept fuel s (write_bytes s pos.toNat [CLEANED_FLAG]) b k L rfl rfl hx _
    (fun _ _ => rfl) _ hinv
  · intro j hj
    rw [hdisk, if_neg]
    rw [hpn]
    have hne2 : phys s b + 64 * k ≠ phys s b1 + 64 * k1 := by
      intro he
      apply hne
      rw [hp]
      show ((phys s b + 64 * k : Nat) : Int) = _
      rw [he]
    rcases slot_apart_bytes s b k b1 k1 j hx.slot_lt hk1 hne2 (by omega) with h1 | h1
    · omega
    · omega
  · intro y _ i _
    rw [hdisk]
    by_cases ha : phys s y + 64 * i = pos.toNat
    · rw [if_pos ha, ha, hrem]
      decide
    · rw [if_neg ha]

/-- A create that is refused before anything is written (the parent is
missing or read-only, or the name is taken by an entry that is not a link)
returns `-1` and leaves all but `errno`. -/
theorem create_file_refused (fuel : Nat) (s : FS) (now : Nat) (path_str : List Nat)
    (type : Nat) (d e : Entry) (en en1 : Nat)
    (hd : find_directory (fuel + 1) s (split_path path_str).dir s.errno = some (d, en))
    (heg : d.file.name0 ≠ EOD_FLAG →
      find_file (fuel + 1) s (split_path path_str).name d.file.first_block SKIP_TO_LAST en =
        some (e, en1))
    (hr : d.file.name0 = EOD_FLAG ∨ d.file.perm &&& WRITE_PERM = 0 ∨
      (e.file.type ≠ LINK_FILE ∧ e.file.name0 ≠ EOD_FLAG)) :
    ∃ x, create_file (fuel + 1) s now path_str type = some (-1, { s with errno := x }) := by
  rw [create_file]
  simp only [hd]
  by_cases c1 : d.file.name0 = EOD_FLAG
  · rw [if_pos c1]
    exact ⟨en, rfl⟩
  rw [if_neg c1]
  by_cases c2 : d.file.perm &&& WRITE_PERM = 0
  · rw [if_pos c2]
    exact ⟨EACCES, rfl⟩
  rw [if_neg c2]
  simp only [heg c1]
  rcases hr with h | h | ⟨h1, h2⟩
  · exact absurd h c1
  · exact absurd h c2
  · rw [if_neg h1, if_pos h2]
    exact ⟨EEXIST, rfl⟩

/-- Whatever `remove_file` returns: the parent's stored size follows its
listing, and every other directory slot that does not list the removed slot
keeps the size invariant. -/
theorem remove_file_kept (fuel : Nat) (s : FS) (now : Nat) (path_str nm : List Nat)
    (d e : Entry) (en en1 : Nat)
    (hd : find_directory fuel s (split_path path_str).dir s.errno = some (d, en))
    (hname : (split_path path_str).name = some nm)
    (heg : d.file.name0 ≠ EOD_FLAG →
      find_file fuel s (some nm) d.file.first_block SKIP_NONE en = some (e, en1))
    (hlive : e.file.name0 ≠ EOD_FLAG → live e = true)
    (hpos : ∀ es, enum_directory fuel s d.file.first_block = some es →
      (es.map Entry.position).Nodup)
    (r : Int) (s1 : FS) (h : remove_file fuel s now path_str = some (r, s1)) :
    (d.file.name0 ≠ EOD_FLAG → 0 ≤ d.position → d.position ≠ e.position →
      d.file.size < 2 ^ 32 → d.file.first_block < 2 ^ 16 →
      SizeInv fuel s d.file → SizeInv fuel s1 (read_File s1 d.position.toNat)) ∧
    (∀ b k ex, k < s.block_size / 64 →
      enum_directory fuel s (slot s b k).file.first_block = some ex →
      (slot s b k).position ≠ e.position → (slot s b k).position ≠ d.position →
      (∀ z ∈ ex, z.position ≠ e.position) →
      SizeInv fuel s (slot s b k).file → SizeInv fuel s1 (slot s1 b k).file) := by
  have hsame : ∀ x, s1 = { s with errno := x } →
      (d.file.name0 ≠ EOD_FLAG → 0 ≤ d.position → d.position ≠ e.position →
        d.file.size < 2 ^ 32 → d.file.first_block < 2 ^ 16 →
        SizeInv fuel s d.file → SizeInv fuel s1 (read_File s1 d.position.toNat)) ∧
      (∀ b k ex, k < s.block_size / 64 →
        enum_directory fuel s (slot s b k).file.first_block = some ex →
        (slot s b k).position ≠ e.position → (slot s b k).position ≠ d.position →
        (∀ z ∈ ex, z.position ≠ e.position) →
        SizeInv fuel s (slot s b k).file → SizeInv fuel s1 (slot s1 b k).file) := by
    intro x hx
    subst hx
    refine ⟨?_, ?_⟩
    · intro hd0 hdp _ _ _ hinv
      have hds : IsSlot s d := by
        rcases find_directory_slot fuel s _ _ (d, en) hd hd0 with h1 | h1
        · have h2 : d = root := h1
          rw [h2] at hdp
          exact absurd hdp (by decide)
        · exact h1
      have h3 : read_File { s with errno := x } d.position.toNat = d.file := by
        rw [isSlot_file s d hds]
        rfl
      rw [h3]
      exact sizeInv_errno fuel s x _ hinv
    · intro b k ex _ _ _ _ _ hinv
      exact sizeInv_errno fuel s x _ hinv
  by_cases c1 : d.file.name0 = EOD_FLAG
  · unfold remove_file at h
    simp only [hd] at h
    rw [if_pos c1] at h
    simp only [Option.some.injEq, Prod.mk.injEq] at h
    exact hsame en h.2.symm
  by_cases c2 : d.file.perm &&& WRITE_PERM = 0
  · unfold remove_file at h
    simp only [hd] at h
    rw [if_neg c1, if_pos c2] at h
    simp only [Option.some.injEq, Prod.mk.injEq] at h
    exact hsame en h.2.symm
  have he := heg c1
  by_cases c3 : e.file.name0 = EOD_FLAG
  · unfold remove_file at h
    simp only [hd, hname, he] at h
    rw [if_neg c1, if_neg c2, if_pos c3] at h
    simp only [Option.some.injEq, Prod.mk.injEq] at h
    exact hsame ENOENT h.2.symm
  obtain ⟨es, hes, _, _⟩ := find_file_none_mem fuel s nm _ en (e, en1) he
  obtain ⟨s2, hrm, hpar, hoth⟩ := remove_file_sizes fuel s now path_str nm d e en en1 es hd c1 c2
    hname he c3 (hlive c3) hes (hpos es hes)
  rw [hrm] at h
  simp only [Option.some.injEq, Prod.mk.injEq] at h
  rw [← h.2]
  exact ⟨fun _ => hpar, hoth⟩

/-- C31, amended. Directory size invariant, operation by operation, from any
state `s`, each operation under its own conditions only; a directory is a
slot `k` of a block `b` whose chain `L` is well formed (`DirAt`), and it
keeps the invariant when its stored size is still 64 times the number of
live entries that `list_directory` copies from its chain.

* `create_file` that succeeds (`CreateReady`, the name not starting with the
  byte `0x01` or `0x02`): the parent, when it is not the root, gains 64 in
  size and one live entry; every other directory whose chain does not hold
  the block of the new slot keeps the invariant; a new directory has it
  (size 0, no entry).
* `create_file` that is refused before it writes (parent missing or
  read-only, name taken by an entry that is not a link): it returns `-1` and
  every directory keeps the invariant.
* `remove_file`, whatever it returns (the entry live, no slot listed twice in
  the parent): the parent, when it is not the root, keeps the invariant (64
  less, one live entry less on success); so does every other directory that
  does not list the removed slot.
* `write_file` (valid configuration) and `truncate_file`, whatever they
  return (the chain `M` of the file well formed and of blocks in use): every
  directory whose slot and chain lie outside `M` keeps the invariant.
* `set_file` and `cleanup_file`, the other steps of a rename, whatever they
  return (`set_file` keeps the first byte of the name, `cleanup_file` is
  given the position of a removed slot): every directory other than the slot
  written keeps the invariant, and after a successful `set_file` with the
  entry `f` of a directory that has the invariant the overwritten slot has
  it too.

The root is left out: it has no slot, and its size is never stored. -/
theorem directory_size_kept (fuel : Nat) (s : FS) (now : Nat) :
    (∀ (pc nm : List Nat) (type : Nat) (dc : Entry) (enc : Nat) (L1 L2 : List Nat) (bj i : Nat),
      CreateReady fuel s pc nm type dc enc L1 L2 bj i →
      nm.headD 0 ≠ CLEANED_FLAG ∧ nm.headD 0 ≠ REMOVED_FLAG →
      ∃ s1, create_file (fuel + 1) s now pc type = some (0, s1) ∧
        (0 ≤ dc.position → dc.file.size + 64 < 2 ^ 32 → dc.file.first_block < 2 ^ 16 →
          SizeInv (fuel + 1) s dc.file →
          SizeInv (fuel + 1) s1 (read_File s1 dc.position.toNat)) ∧
        (∀ b k L, DirAt (fuel + 1) s b k L → (slot s b k).position ≠ dc.position →
          (b ≠ bj ∨ k ≠ i) → bj ∉ L →
          SizeInv (fuel + 1) s (slot s b k).file → SizeInv (fuel + 1) s1 (slot s1 b k).file) ∧
        (type = DIRECTORY_FILE → SizeInv (fuel + 1) s1 (slot s1 bj i).file)) ∧
    (∀ (pf : List Nat) (df ef : Entry) (enf enf1 : Nat),
      find_directory (fuel + 1) s (split_path pf).dir s.errno = some (df, enf) →
      (df.file.name0 ≠ EOD_FLAG →
        find_file (fuel + 1) s (split_path pf).name df.file.first_block SKIP_TO_LAST enf =
          some (ef, enf1)) →
      (df.file.name0 = EOD_FLAG ∨ df.file.perm &&& WRITE_PERM = 0 ∨
        (ef.file.type ≠ LINK_FILE ∧ ef.file.name0 ≠ EOD_FLAG)) →
      ∀ t, ∃ s1, create_file (fuel + 1) s now pf t = some (-1, s1) ∧
        ∀ g, SizeInv (fuel + 1) s g → SizeInv (fuel + 1) s1 g) ∧
    (∀ (pr nr : List Nat) (dr er : Entry) (enr enr1 : Nat),
      find_directory (fuel + 1) s (split_path pr).dir s.errno = some (dr, enr) →
      (split_path pr).name = some nr →
      (dr.file.name0 ≠ EOD_FLAG →
        find_file (fuel + 1) s (some nr) dr.file.first_block SKIP_NONE enr = some (er, enr1)) →
      (er.file.name0 ≠ EOD_FLAG → live er = true) →
      (∀ es, enum_directory (fuel + 1) s dr.file.first_block = some es →
        (es.map Entry.position).Nodup) →
      ∀ r s1, remove_file (fuel + 1) s now pr = some (r, s1) →
        (dr.file.name0 ≠ EOD_FLAG → 0 ≤ dr.position → dr.position ≠ er.position →
          dr.file.size < 2 ^ 32 → dr.file.first_block < 2 ^ 16 →
          SizeInv (fuel + 1) s dr.file →
          SizeInv (fuel + 1) s1 (read_File s1 dr.position.toNat)) ∧
        (∀ b k ex, k < s.block_size / 64 →
          enum_directory (fuel + 1) s (slot s b k).file.first_block = some ex →
          (slot s b k).position ≠ er.position → (slot s b k).position ≠ dr.position →
          (∀ z ∈ ex, z.position ≠ er.position) →
          SizeInv (fuel + 1) s (slot s b k).file → SizeInv (fuel + 1) s1 (slot s1 b k).file)) ∧
    (∀ (pw : List Nat) (offset : Nat) (buf : List Nat) (size : Nat) (fw : Bool) (dw ew : Entry)
        (enw enw1 : Nat) (Mw : List Nat),
      ValidConfig s →
      find_directory (fuel + 1) s (split_path pw).dir s.errno = some (dw, enw) →
      (dw.file.name0 ≠ EOD_FLAG →
        find_file (fuel + 1) s (split_path pw).name dw.file.first_block
          (if fw then SKIP_ALL else SKIP_NONE) enw = some (ew, enw1)) →
      IsChain s.fat ew.file.first_block Mw →
      (∀ x ∈ Mw, s.fat x ≠ FREE_BLOCK) →
      ((ew.file.size = 0 ∧ 0 < size) ∨ Mw ≠ [] ∨ (size = 0 ∧ offset < s.block_size)) →
      ∀ r s1, write_file (fuel + 1) s now pw offset buf size fw = some (r, s1) →
        ∀ b k L, DirAt (fuel + 1) s b k L → b ∉ Mw → (∀ y ∈ L, y ∉ Mw) →
          (ew.file.type ≠ DIRECTORY_FILE → (slot s b k).position ≠ ew.position) →
          SizeInv (fuel + 1) s (slot s b k).file → SizeInv (fuel + 1) s1 (slot s1 b k).file) ∧
    (∀ (pt : List Nat) (ft : Bool) (dt et : Entry) (ent ent1 : Nat) (Mt : List Nat),
      find_directory (fuel + 1) s (split_path pt).dir s.errno = some (dt, ent) →
      (dt.file.name0 ≠ EOD_FLAG →
        find_file (fuel + 1) s (split_path pt).name dt.file.first_block
          (if ft then SKIP_ALL else SKIP_NONE) ent = some (et, ent1)) →
      IsChain s.fat et.file.first_block Mt → Mt.Nodup → Mt.length ≤ fuel →
      ∀ r s1, truncate_file (fuel + 1) s pt ft = some (r, s1) →
        ∀ b k L, DirAt (fuel + 1) s b k L → b ∉ Mt → (∀ y ∈ L, y ∉ Mt) →
          (et.file.type ≠ DIRECTORY_FILE → (slot s b k).position ≠ et.position) →
          SizeInv (fuel + 1) s (slot s b k).file → SizeInv (fuel + 1) s1 (slot s1 b k).file) ∧
    (∀ (ps : List Nat) (f : File) (fs : Bool) (ds es : Entry) (ens ens1 : Nat),
      find_directory (fuel + 1) s (split_path ps).dir s.errno = some (ds, ens) →
      (ds.file.name0 ≠ EOD_FLAG →
        find_file (fuel + 1) s (split_path ps).name ds.file.first_block
          (if fs then SKIP_ALL else SKIP_NONE) ens = some (es, ens1)) →
      f.name.getD 0 0 = es.file.name.getD 0 0 →
      ∀ r s1, set_file (fuel + 1) s ps f fs = some (r, s1) →
        (∀ b k L, DirAt (fuel + 1) s b k L → (slot s b k).position ≠ es.position →
          SizeInv (fuel + 1) s (slot s b k).file → SizeInv (fuel + 1) s1 (slot s1 b k).file) ∧
        (r = 0 → ∀ L, IsChain s.fat f.first_block L → L.length ≤ fuel + 1 →
          (upto_eod (dir_slots s L)).2 = true → f.size < 2 ^ 32 → f.first_block < 2 ^ 16 →
          SizeInv (fuel + 1) s f → SizeInv (fuel + 1) s1 (read_File s1 es.position.toNat))) ∧
    (∀ (pos : Int),
      (∃ b1 k1, k1 < s.block_size / 64 ∧ pos = ((phys s b1 + 64 * k1 : Nat) : Int)) →
      s.disk pos.toNat = REMOVED_FLAG →
      ∀ r s1, cleanup_file s pos = some (r, s1) →
        ∀ b k L, DirAt (fuel + 1) s b k L → (slot s b k).position ≠ pos →
          SizeInv (fuel + 1) s (slot s b k).file → SizeInv (fuel + 1) s1 (slot s1 b k).file) := by
  refine ⟨?_, ?_, ?_, ?_, ?_, ?_, ?_⟩
  · intro pc nm type dc enc L1 L2 bj i hcr hnm
    exact create_file_sizes fuel s now pc nm type dc enc L1 L2 bj i hcr.config hcr.parent
      hcr.parent_found hcr.parent_writable hcr.name hcr.name_short hcr.type_byte hcr.chain
      hcr.chain_nodup hcr.chain_used hcr.chain_short hcr.slot_lt hcr.closed hcr.name_new
      hcr.before_live hcr.reusable hcr.eod_last hcr.one_fat hcr.parent_slot hcr.free_dir
      hcr.free_next hnm.1 hnm.2
  · intro pf df ef enf enf1 hdf hef hrf t
    obtain ⟨x, hx⟩ := create_file_refused fuel s now pf t df ef enf enf1 hdf hef hrf
    exact ⟨_, hx, fun g hg => sizeInv_errno (fuel + 1) s x g hg⟩
  · intro pr nr dr er enr enr1 hdr hnr her hlr hpr r s1 h
    exact remove_file_kept (fuel + 1) s now pr nr dr er enr enr1 hdr hnr her hlr hpr r s1 h
  · intro pw offset buf size fw dw ew enw enw1 Mw hv hdw hew hcw hMw hsw r s1 h b k L hx hb hL
      hne hinv
    exact write_file_sizes (fuel + 1) s now pw offset buf size fw dw ew enw enw1 Mw hv hdw hew
      hcw hMw hsw r s1 h b k L hx hb hL hne hinv
  · intro pt ft dt et ent ent1 Mt hdt het hct hnt hlt r s1 h b k L hx hb hL hne hinv
    exact truncate_file_sizes (fuel + 1) s pt ft dt et ent ent1 Mt hdt het hct hnt
      (by omega) r s1 h b k L hx hb hL hne hinv
  · intro ps f fs ds es ens ens1 hds hes hfs r s1 h
    refine ⟨?_, ?_⟩
    · intro b k L hx hne hinv
      exact set_file_sizes (fuel + 1) s ps f fs ds es ens ens1 hds hes hfs r s1 h b k L hx hne
        hinv
    · intro hr L hch hsh hcl hsz hfb hinv
      rw [hr] at h
      exact set_file_self (fuel + 1) s ps f fs ds es ens ens1 L hds hes hfs hch hsh hcl hsz hfb
        s1 h hinv
  · intro pos hpos hrem r s1 h b k L hx hne hinv
    exact cleanup_file_sizes (fuel + 1) s pos hpos hrem r s1 h b k L hx hne hinv

set_option maxRecDepth 100000 in
set_option maxHeartbeats 4000000 in
/-- C31, witness: `ex_ls`, where `/d` (slot 0 of block 1, chain `[2]`) holds
the removed `x`, the empty file `y` and the EOD slot, and has size 64.
`mkdir /d/g` fills the removed slot: `/d` then has size 128 and two live
entries, and `/d/g` is an empty directory. A second create of `/d/y` is
refused. Removing `/d/y`, writing three bytes to it, truncating it, a
`chmod` of it through `set_file` and the cleanup of the removed slot at byte
512 all leave `/d` with the invariant. -/
theorem directory_size_kept_witness :
    (∃ s1, create_file 6 ex_ls 0 [47, 100, 47, 103] DIRECTORY_FILE = some (0, s1) ∧
      SizeInv 6 s1 (read_File s1 256) ∧ SizeInv 6 s1 (slot s1 2 0).file) ∧
    (∃ s1, create_file 6 ex_ls 0 [47, 100, 47, 121] REGULAR_FILE = some (-1, s1) ∧
      SizeInv 6 s1 (slot ex_ls 1 0).file) ∧
    (∀ r s1, remove_file 6 ex_ls 0 [47, 100, 47, 121] = some (r, s1) →
      SizeInv 6 s1 (read_File s1 256)) ∧
    (∀ r s1, write_file 6 ex_ls 0 [47, 100, 47, 121] 0 [1, 2, 3] 3 true = some (r, s1) →
      SizeInv 6 s1 (slot s1 1 0).file) ∧
    (∀ r s1, truncate_file 6 ex_ls [47, 100, 47, 121] false = some (r, s1) →
      SizeInv 6 s1 (slot s1 1 0).file) ∧
    (∀ r s1, set_file 6 ex_ls [47, 100, 47, 121] { (slot ex_ls 2 1).file with perm := 4 } false =
        some (r, s1) → SizeInv 6 s1 (slot s1 1 0).file) ∧
    (∀ r s1, cleanup_file ex_ls 512 = some (r, s1) → SizeInv 6 s1 (slot s1 1 0).file) := by
  have hd : find_directory 6 ex_ls (split_path [47, 100, 47, 121]).dir ex_ls.errno =
      some (slot ex_ls 1 0, 0) := by decide
  have hdir : DirAt 6 ex_ls 1 0 [2] :=
    ⟨by decide, by decide, by decide, by decide, by decide, by decide⟩
  have hinv : SizeInv 6 ex_ls (slot ex_ls 1 0).file :=
    ⟨[slot ex_ls 2 0, slot ex_ls 2 1, slot ex_ls 2 2], by decide, by decide⟩
  have henum : enum_directory 6 ex_ls (slot ex_ls 1 0).file.first_block =
      some [slot ex_ls 2 0, slot ex_ls 2 1, slot ex_ls 2 2] := by decide
  obtain ⟨h1, h2, h3, h4, h5, h6, h7⟩ := directory_size_kept 5 ex_ls 0
  refine ⟨?_, ?_, ?_, ?_, ?_, ?_, ?_⟩
  · obtain ⟨s1, a1, a2, _, a4⟩ := h1 [47, 100, 47, 103] [103] DIRECTORY_FILE (slot ex_ls 1 0) 0
      [] [] 2 0
      { config := by decide, parent := by decide, parent_found := by decide,
        parent_writable := by decide, name := by decide, name_short := by decide,
        type_byte := by decide, chain := by decide, chain_nodup := by decide,
        chain_used := by decide, chain_short := by decide, slot_lt := by decide,
        closed := by decide, name_new := by decide, before_live := by decide,
        reusable := by decide, eod_last := by decide, one_fat := by decide,
        parent_slot := by decide, free_dir := fun _ => ⟨3, by decide, by decide, by decide⟩,
        free_next := fun h => absurd h (by decide) }
      (by decide)
    exact ⟨s1, a1, a2 (by decide) (by decide) (by decide) hinv, a4 rfl⟩
  · obtain ⟨s1, a1, a2⟩ := h2 [47, 100, 47, 121] (slot ex_ls 1 0) (slot ex_ls 2 1) 0 0 hd
      (fun _ => by decide) (Or.inr (Or.inr (by decide))) REGULAR_FILE
    exact ⟨s1, a1, a2 _ hinv⟩
  · intro r s1 h
    exact (h3 [47, 100, 47, 121] [121] (slot ex_ls 1 0) (slot ex_ls 2 1) 0 0 hd (by decide)
      (fun _ => by decide) (fun _ => by decide)
      (fun es hes => by
        rw [henum] at hes
        simp only [Option.some.injEq] at hes
        subst hes
        decide) r s1 h).1 (by decide) (by decide) (by decide) (by decide) (by decide) hinv
  · intro r s1 h
    exact h4 [47, 100, 47, 121] 0 [1, 2, 3] 3 true (slot ex_ls 1 0) (slot ex_ls 2 1) 0 0 []
      (by decide) hd (fun _ => by decide) (by decide) (by decide) (Or.inl (by decide))
      r s1 h 1 0 [2] hdir (by decide) (by decide) (fun _ => by decide) hinv
  · intro r s1 h
    exact h5 [47, 100, 47, 121] false (slot ex_ls 1 0) (slot ex_ls 2 1) 0 0 [] hd
      (fun _ => by decide) (by decide) (by decide) (by decide)
      r s1 h 1 0 [2] hdir (by decide) (by decide) (fun _ => by decide) hinv
  · intro r s1 h
    exact (h6 [47, 100, 47, 121] { (slot ex_ls 2 1).file with perm := 4 } false (slot ex_ls 1 0)
      (slot ex_ls 2 1) 0 0 hd (fun _ => by decide) (by decide) r s1 h).1 1 0 [2] hdir
      (by decide) hinv
  · intro r s1 h
    exact h7 512 ⟨2, 0, by decide, by decide⟩ (by decide) r s1 h 1 0 [2] hdir (by decide) hinv

set_option maxRecDepth 100000 in
set_option maxHeartbeats 4000000 in
/-- C31, counterexample. In `ex_a`, after the successful `touch /a`,
`get_file("/")` reports size 0 for the root while `list_directory("/")`
returns the entry `a` (and the closing EOD entry): the root has no slot, so
its size is never stored. And in `ex_dfull`, a full disk where `/d` is empty
with size 0, `create_file("/d/x", DIRECTORY_FILE)` fails with `ENOSPC`, yet
afterwards `get_file("/d")` reports size 64 while `list_directory("/d")`
returns the closing EOD entry alone: the parent's size is written before the
block for the new directory is looked for. -/
theorem directory_size_off_listing :
    (get_file 5 ex_a [47] false).map (fun r => r.1.size) = some 0 ∧
    (list_directory 5 ex_a [47]).map (fun r => r.1.map (fun l => l.map (fun f => f.name0))) =
      some (some [97, 0]) ∧
    (get_file 5 ex_dfull [47, 100] false).map (fun r => r.1.size) = some 0 ∧
    (list_directory 5 ex_dfull [47, 100]).map (fun r => r.1.map (fun l => l.length)) =
      some (some 1) ∧
    (create_file 5 ex_dfull 0 [47, 100, 47, 120] DIRECTORY_FILE).map
      (fun r => (r.1, r.2.errno, (get_file 5 r.2 [47, 100] false).map (fun q => q.1.size))) =
      some (-1, ENOSPC, some 64) ∧
    (create_file 5 ex_dfull 0 [47, 100, 47, 120] DIRECTORY_FILE).map
      (fun r => (list_directory 5 r.2 [47, 100]).map (fun q => q.1.map (fun l => l.length))) =
      some (some (some 1)) := by
  decide

/-! ## C6: remove, then cleanup -/

/-- C6, amended. Remove then cleanup: when the parent directory `d` of the
path resolves, through slots of the blocks `D` and links stored in the
blocks `K` (no block in both lists, the block of the entry's slot in
neither), and has the write bit, the final component `nm` does not begin
with the byte `0x02`, and `e` is the existing entry it names in `d`
(no links followed), the only slot of `d` with that name, then `remove_file`
returns the byte position of `e`'s slot, sets the slot's `name[0]` to `0x02`
and leaves the slot's other bytes and the FAT unchanged; when the parent is
not the root (it has a slot of its own, other than `e`'s) its stored size
is decremented by 64 (in `uint32_t` arithmetic), while the root's size is
not stored; `get_file(path, no-follow)` then reports not-found (`ENOENT`, an
EOD entry); and a following `cleanup_file(position)` changes only that first
byte, to `0x01`. -/
theorem remove_file_post (fuel : Nat) (s : FS) (now : Nat) (path_str nm : List Nat)
    (d e : Entry) (en en1 : Nat) (es : List Entry) (D K : List Nat)
    (hv : ValidConfig s)
    (hbytes : ∀ j, j < 48 → s.disk (e.position.toNat + j) < 256)
    (hd : find_directory_in D K fuel s (split_path path_str).dir s.errno = some (d, en))
    (hDK : ∀ b ∈ D, b ∉ K)
    (heb : e.position.toNat / s.block_size + 1 - s.fat_blocks ∉ D ++ K)
    (hdbytes : 0 ≤ d.position → ∀ j, j < 48 → s.disk (d.position.toNat + j) < 256)
    (hd0 : d.file.name0 ≠ EOD_FLAG)
    (hdw : d.file.perm &&& WRITE_PERM ≠ 0)
    (hname : (split_path path_str).name = some nm)
    (hnm2 : nm.headD 0 ≠ REMOVED_FLAG)
    (he : find_file fuel s (some nm) d.file.first_block SKIP_NONE en = some (e, en1))
    (he0 : e.file.name0 ≠ EOD_FLAG)
    (henum : enum_directory fuel s d.file.first_block = some es)
    (hdup : ∀ x ∈ es, cstr x.file.name = cstr nm → x.position = e.position) :
    ∃ s1, remove_file fuel s now path_str = some (e.position, s1) ∧
      e ∈ es ∧
      s1.fat = s.fat ∧
      s1.disk e.position.toNat = REMOVED_FLAG ∧
      (∀ k, 1 ≤ k → k < 64 → s1.disk (e.position.toNat + k) = s.disk (e.position.toNat + k)) ∧
      (0 ≤ d.position → d.position ≠ e.position →
        (read_File s1 d.position.toNat).size = (d.file.size + 2 ^ 32 - 64) % 2 ^ 32) ∧
      (∃ f s2, get_file fuel s1 path_str false = some (f, s2) ∧ f.name0 = EOD_FLAG ∧
        s2.errno = ENOENT) ∧
      ∃ s3, cleanup_file s1 e.position = some (0, s3) ∧ s3.fat = s1.fat ∧
        ∀ a, s3.disk a = if a = e.position.toNat then CLEANED_FLAG else s1.disk a := by
  have hdf : find_directory fuel s (split_path path_str).dir s.errno = some (d, en) :=
    find_directory_in_eq D K fuel s _ _ _ hd
  obtain ⟨hbs, _, hfbs, _⟩ := hv
  obtain ⟨es1, hes1, hmem, hen⟩ := find_file_none_mem fuel s nm _ en (e, en1) he
  rw [henum] at hes1
  simp only [Option.some.injEq] at hes1
  subst hes1
  have hes : IsSlot s e := enum_directory_slot fuel s _ es henum e hmem
  have hds : d = root ∨ IsSlot s d := find_directory_slot fuel s _ _ (d, en) hdf hd0
  have hepos : 0 ≤ e.position := isSlot_position s e hes
  have hb := removed_state_slot_bytes s now d e en1 hds hes hbytes
  -- the block of the removed slot
  obtain ⟨be, ke, hke, hee⟩ := hes
  have hep : e.position.toNat = phys s be + 64 * ke := by
    rw [hee]
    simp only [slot, Int.toNat_ofNat]
  have hbe : be ∉ D ++ K := by
    rw [hep, (slot_pos_div s be ke hbs hke).1] at heb
    have e2 : be + s.fat_blocks - 1 + 1 - s.fat_blocks = be := by omega
    rw [e2] at heb
    exact heb
  have hes : IsSlot s e := ⟨be, ke, hke, hee⟩
  -- the parent is a slot of a block read, or the root
  have hss : SameSlot s s D d d := by
    rcases sameResult_cases s s D _ _ (find_directory_in_sim s s D K (agree_refl s D K)
        fuel _ _ _ hd) with ⟨_, c2⟩ | ⟨e2, e0, n, _, c2, c3⟩
    · rw [hd] at c2
      exact absurd c2 (by simp)
    · rw [hd] at c2
      simp only [Option.some.injEq, Prod.mk.injEq] at c2
      rw [sameSlot_self s D e2 e0 c3, ← c2.1] at c3
      exact c3
  have hne : 0 ≤ d.position → d.position ≠ e.position := by
    intro hdp hcon
    rcases hss with ⟨h1, _⟩ | ⟨h1, _⟩ | ⟨b, hb1, i, hi, h1, _⟩
    · rw [h1] at hdp
      exact absurd hdp (by decide)
    · rw [h1] at hd0
      exact absurd rfl hd0
    · have hdp2 : d.position.toNat = phys s b + 64 * i := by
        rw [h1]
        simp only [slot, Int.toNat_ofNat]
      have h5 : phys s b + 64 * i = phys s be + 64 * ke := by
        rw [← hdp2, ← hep, hcon]
      have e1 := slot_end_le s.block_size i hi
      have e2 := slot_end_le s.block_size ke hke
      have hbb : b = be := by
        by_contra hcb
        exact phys_disjoint s b be (64 * i) (64 * ke) hfbs hcb (by omega) (by omega) h5
      exact hbe (List.mem_append.mpr (Or.inl (hbb ▸ hb1)))
  have hty : d.file.type = DIRECTORY_FILE := find_directory_with_type _ _ _ _ _ hdf hd0
  have hg : (shrunk now d).name = d.file.name ∧ (shrunk now d).type = d.file.type ∧
      (shrunk now d).perm = d.file.perm ∧ (shrunk now d).first_block = d.file.first_block := by
    unfold shrunk
    exact ⟨rfl, rfl, rfl, rfl⟩
  have hag : Agree s (removed_state s now d e en1) D K := by
    refine agree_of_frame s (removed_state s now d e en1) D K d (shrunk now d) hfbs
      ⟨removed_state_block_size s now d e en1, ?_⟩ hDK hss hd0 hty hdbytes hg
      (fun hdp => removed_state_parent s now d e en1 hds hes hdp (hne hdp))
      (fun b _ => by rw [removed_state_fat]) ?_
    · unfold removed_state
      by_cases h : d.position ≥ 0
      · rw [if_pos h]; rfl
      · rw [if_neg h]; rfl
    · intro b hb1 k hk hout
      apply removed_state_disk_out
      · have hbne : b ≠ be := fun c => hbe (List.mem_append.mpr (c ▸ hb1))
        have e2 := slot_end_le s.block_size ke hke
        by_contra hcon
        have := phys_disjoint s b be k (phys s b + k - phys s be) hfbs hbne hk (by omega)
        omega
      · intro hdp
        rcases hout with h | h | h
        · omega
        · exact Or.inl h
        · exact Or.inr h
  refine ⟨removed_state s now d e en1, ?_, hmem, removed_state_fat s now d e en1, hb.1, hb.2,
    ?_, ?_, ?_⟩
  · unfold remove_file
    simp only [hdf, hname, he]
    rw [if_neg hd0, if_neg hdw, if_neg he0, if_neg (not_lt.mpr hepos)]
    unfold removed_state shrunk flagged
    rfl
  · intro hdp hne2
    rw [removed_state_parent s now d e en1 hds hes hdp hne2]
    have h1 : (shrunk now d).stored.size = (shrunk now d).size % 2 ^ 32 := by
      unfold File.stored
      rfl
    have h2 : (shrunk now d).size = (d.file.size + 2 ^ 32 - 64) % 2 ^ 32 := by
      unfold shrunk
      rfl
    rw [h1, h2]
    exact Nat.mod_mod _ _
  · obtain ⟨d1, en2, hd1, hd10, hfb, _⟩ := find_directory_in_again D K fuel s
      (removed_state s now d e en1) hag (split_path path_str).dir s.errno en
      (removed_state s now d e en1).errno d hd hd0
    obtain ⟨z, hz, hz0⟩ := find_file_removed fuel s now d e en1 d.file.first_block en2 es nm hds
      hes he0 henum (split_path_name_head path_str nm hname) hnm2 hdup
    refine ⟨z.file, { removed_state s now d e en1 with errno := ENOENT }, ?_, hz0, rfl⟩
    unfold get_file
    simp only [hd1, hname]
    rw [if_neg hd10, hfb]
    simp only [Bool.false_eq_true, if_false, hz]
    rw [if_pos hz0]
  · refine ⟨write_bytes (removed_state s now d e en1) e.position.toNat [CLEANED_FLAG], ?_, rfl, ?_⟩
    · unfold cleanup_file
      rw [if_neg (not_lt.mpr hepos)]
    · intro a
      simp only [write_bytes, List.length_singleton]
      by_cases ha : a = e.position.toNat
      · rw [if_pos ha, if_pos (by omega), ha]
        simp
      · rw [if_neg ha, if_neg (by omega)]

/-- C6, witness: `/d/x` removed from `ex_dxy`, whose parent `/d` is not the
root (its slot is `slot ex_dxy 1 0`, in the root's block 1, the one block
read to resolve `/d`; the entry's is `slot ex_dxy 2 0`); the lookup then
fails. -/
theorem remove_file_post_witness :
    ∃ s1, remove_file 5 ex_dxy 0 [47, 100, 47, 120] = some ((slot ex_dxy 2 0).position, s1) ∧
      s1.fat = ex_dxy.fat ∧
      s1.disk (slot ex_dxy 2 0).position.toNat = REMOVED_FLAG ∧
      (∀ k, 1 ≤ k → k < 64 → s1.disk ((slot ex_dxy 2 0).position.toNat + k) =
        ex_dxy.disk ((slot ex_dxy 2 0).position.toNat + k)) ∧
      (read_File s1 (slot ex_dxy 1 0).position.toNat).size =
        ((slot ex_dxy 1 0).file.size + 2 ^ 32 - 64) % 2 ^ 32 ∧
      (∃ f s2, get_file 5 s1 [47, 100, 47, 120] false = some (f, s2) ∧ f.name0 = EOD_FLAG ∧
        s2.errno = ENOENT) ∧
      ∃ s3, cleanup_file s1 (slot ex_dxy 2 0).position = some (0, s3) ∧ s3.fat = s1.fat ∧
        ∀ a, s3.disk a =
          if a = (slot ex_dxy 2 0).position.toNat then CLEANED_FLAG else s1.disk a := by
  obtain ⟨s1, h1, _, h3, h4, h5, h6, h7, h8⟩ :=
    remove_file_post 5 ex_dxy 0 [47, 100, 47, 120] [120] (slot ex_dxy 1 0) (slot ex_dxy 2 0)
      ex_dxy.errno ex_dxy.errno [slot ex_dxy 2 0, slot ex_dxy 2 1, slot ex_dxy 2 2] [1] []
      (by decide) (by decide) (by decide) (by decide) (by decide) (fun _ => by decide)
      (by decide) (by decide) (by decide) (by decide) (by decide) (by decide) (by decide)
      (by decide)
  exact ⟨s1, h1, h3, h4, h5, h6 (by decide) (by decide), h7, h8⟩

end PennOS
